import Mathlib

/-!
PintOS file system core: buffer cache, inode layer and directories.

A shallow embedding of `src/filesys/buffer_cache.c`, `src/filesys/inode.c` and the part of
`src/filesys/directory.c` that adds an entry to a directory.

* Machine integers are `Nat` / `Int`; C `int` arithmetic that can wrap is wrapped explicitly.
* A sector's contents, and every memory buffer, is a function `Nat → Nat` from byte offset to
  byte value; only offsets below `BLOCK_SECTOR_SIZE` of a sector are meaningful.
* A failed `ASSERT` (kernel panic) and exhausted loop fuel are the result `none`.
* Locks are not modelled: every function is embedded as it runs alone.
-/

namespace PintOS

/-! ## Constants and external devices -/

/-- Modelled from the spec: the sector size `BLOCK_SECTOR_SIZE` of `devices/block.h`
(S = 512 in the reference). -/
def BLOCK_SECTOR_SIZE : Nat := 512

/-- The constant `BUFFER_CACHE_SIZE` of `buffer_cache.h`. -/
def BUFFER_CACHE_SIZE : Nat := 64

/-- The value `(block_sector_t)-1`, the sentinel for "no sector". -/
def SECTOR_NONE : Nat := 4294967295

/-- The limit `INT64_MIN`. -/
def INT64_MIN : Int := -9223372036854775808

/-- The limit `INT64_MAX`. -/
def INT64_MAX : Int := 9223372036854775807

/-- The limit `INT32_MAX`, the largest `off_t`. -/
def INT32_MAX : Int := 2147483647

/-- Wrap-around of a C `int` (32 bits, two's complement). -/
def wrap_int (x : Int) : Int := (x + 2147483648) % 4294967296 - 2147483648

/-- Contents of a block device: sector index, then byte offset. -/
abbrev Device := Nat → Nat → Nat

/-- Modelled from the spec: `read_sector(idx, buf)` of the block device (`block_read` of
`devices/block.c`), synchronous and infallible. -/
def block_read (dev : Device) (sector : Nat) : Nat → Nat := dev sector

/-- Modelled from the spec: `write_sector(idx, buf)` of the block device (`block_write` of
`devices/block.c`), synchronous and infallible. -/
def block_write (dev : Device) (sector : Nat) (buf : Nat → Nat) : Device :=
  fun s => if s = sector then buf else dev s

/-- The C library `memcpy (dst + off, src, len)` on byte buffers. -/
def memcpy (dst : Nat → Nat) (off : Nat) (src : Nat → Nat) (len : Nat) : Nat → Nat :=
  fun i => if off ≤ i ∧ i < off + len then src (i - off) else dst i

/-! ## Buffer cache (`buffer_cache.c`) -/

/-- The `struct cached_sector` (its lock is not modelled). -/
structure cached_sector where
  sector_idx : Nat
  dirty : Bool
  last_accessed : Int
  data : Nat → Nat

/-- The `struct buffer_cache`; `block_device` holds the contents of the device it points to. -/
structure buffer_cache where
  block_device : Device
  num_hit : Int
  num_miss : Int
  sectors : List cached_sector

/-- In-place update of the entry `a_cache->sectors + i`. -/
def entry_update (l : List cached_sector) (i : Nat) (f : cached_sector → cached_sector) :
    List cached_sector :=
  match l[i]? with
  | some e => l.set i (f e)
  | none => l

/-- The function `cached_sector_flush`; the entry pointer is the index `i`. -/
def cached_sector_flush (c : buffer_cache) (i : Nat) : buffer_cache :=
  match c.sectors[i]? with
  | none => c
  | some e =>
    if e.last_accessed = INT64_MIN then c
    else if e.dirty then
      { c with
        block_device := block_write c.block_device e.sector_idx e.data
        sectors := c.sectors.set i { e with dirty := false } }
    else c

/-- Outcome of the search loop of `buffer_cache_fetch`. -/
inductive ScanResult where
  | hit (i : Nat)
  | miss (lru : Option Nat)

/-- The search loop of `buffer_cache_fetch` from index `i` on, with the current values of
`lru_sector` and `lru_accessed`. -/
def fetch_scan (a_sector : Nat) : List cached_sector → Nat → Option Nat → Int → ScanResult
  | [], _, lru, _ => ScanResult.miss lru
  | e :: es, i, lru, lru_accessed =>
    if e.sector_idx = a_sector then ScanResult.hit i
    else if e.last_accessed < lru_accessed then
      fetch_scan a_sector es (i + 1) (some i) e.last_accessed
    else fetch_scan a_sector es (i + 1) lru lru_accessed

/-- The function `buffer_cache_fetch`; `now` is the value `timer_ticks ()` returns in this
call. The result is the cache and the index of the returned entry. -/
def buffer_cache_fetch (now : Int) (c : buffer_cache) (a_sector : Nat) (a_load_data : Bool) :
    Option (buffer_cache × Nat) :=
  match fetch_scan a_sector c.sectors 0 none INT64_MAX with
  | ScanResult.hit i =>
    some ({ c with
            num_hit := wrap_int (c.num_hit + 1)
            sectors := entry_update c.sectors i (fun e => { e with last_accessed := now }) }, i)
  | ScanResult.miss none => none
  | ScanResult.miss (some i) =>
    let c1 := { c with num_miss := wrap_int (c.num_miss + 1) }
    let c2 := cached_sector_flush c1 i
    let dev := c2.block_device
    some ({ c2 with
            sectors := entry_update c2.sectors i (fun e =>
              { sector_idx := a_sector
                dirty := e.dirty
                last_accessed := now
                data := if a_load_data then block_read dev a_sector else e.data }) }, i)

/-- The function `buffer_cache_init`; `uninit i` is the uninitialised data of entry `i`. -/
def buffer_cache_init (dev : Device) (uninit : Nat → Nat → Nat) : buffer_cache :=
  { block_device := dev
    num_hit := 0
    num_miss := 0
    sectors := (List.range BUFFER_CACHE_SIZE).map (fun i =>
      { sector_idx := SECTOR_NONE, dirty := false, last_accessed := INT64_MIN,
        data := uninit i }) }

/-- The function `buffer_cache_create`; `malloc_ok` tells whether `malloc` succeeded. -/
def buffer_cache_create (malloc_ok : Bool) (dev : Device) (uninit : Nat → Nat → Nat) :
    Option buffer_cache :=
  if malloc_ok then some (buffer_cache_init dev uninit) else none

/-- The function `buffer_cache_write`. -/
def buffer_cache_write (now : Int) (c : buffer_cache) (a_dest : Nat) (a_src : Nat → Nat)
    (a_offset a_size : Nat) : Option buffer_cache :=
  if a_dest = SECTOR_NONE then none
  else
    match buffer_cache_fetch now c a_dest
        (decide (a_offset ≠ 0) || decide (a_size ≠ BLOCK_SECTOR_SIZE)) with
    | none => none
    | some (c1, i) =>
      some { c1 with
             sectors := entry_update c1.sectors i (fun e =>
               { e with data := memcpy e.data a_offset a_src a_size, dirty := true }) }

/-- The function `buffer_cache_read`; the result is the cache and the destination buffer. -/
def buffer_cache_read (now : Int) (c : buffer_cache) (a_src : Nat) (a_dest : Nat → Nat)
    (a_offset a_size : Nat) : Option (buffer_cache × (Nat → Nat)) :=
  if a_src = SECTOR_NONE then none
  else
    match buffer_cache_fetch now c a_src true with
    | none => none
    | some (c1, i) =>
      match c1.sectors[i]? with
      | none => none
      | some e => some (c1, memcpy a_dest 0 (fun k => e.data (a_offset + k)) a_size)

/-- The function `buffer_cache_flush`. -/
def buffer_cache_flush (c : buffer_cache) : buffer_cache :=
  (List.range BUFFER_CACHE_SIZE).foldl cached_sector_flush c

/-- One iteration of the loop of `buffer_cache_reset`. -/
def reset_entry (c : buffer_cache) (i : Nat) : buffer_cache :=
  let c1 := cached_sector_flush c i
  { c1 with
    sectors := entry_update c1.sectors i (fun e =>
      { e with sector_idx := SECTOR_NONE, dirty := false, last_accessed := INT64_MIN }) }

/-- The function `buffer_cache_reset`. -/
def buffer_cache_reset (c : buffer_cache) : buffer_cache :=
  let c1 := (List.range BUFFER_CACHE_SIZE).foldl reset_entry c
  { c1 with num_hit := 0, num_miss := 0 }

/-! ## Abstraction of the cache: the disk as the file system sees it -/

/-- The entry of the cache that holds sector `s`, if any. -/
def cache_lookup (l : List cached_sector) (s : Nat) : Option cached_sector :=
  l.find? (fun e => decide (e.sector_idx = s))

/-- The contents of sector `s` as seen through the cache: the cached copy when there is one,
the device's copy otherwise. -/
def view (c : buffer_cache) (s : Nat) : Nat → Nat :=
  match cache_lookup c.sectors s with
  | some e => e.data
  | none => c.block_device s

/-- Well-formed cache states. -/
structure CacheInv (c : buffer_cache) : Prop where
  nonempty : c.sectors ≠ []
  uniq : ∀ (i j : Nat) (ei ej : cached_sector), c.sectors[i]? = some ei → c.sectors[j]? = some ej →
    ei.sector_idx = ej.sector_idx → ei.sector_idx ≠ SECTOR_NONE → i = j
  clean : ∀ (i : Nat) (e : cached_sector), c.sectors[i]? = some e → e.dirty = false → e.sector_idx ≠ SECTOR_NONE →
    ∀ k, k < BLOCK_SECTOR_SIZE → e.data k = c.block_device e.sector_idx k
  unused_clean : ∀ (i : Nat) (e : cached_sector), c.sectors[i]? = some e → e.last_accessed = INT64_MIN → e.dirty = false
  none_clean : ∀ (i : Nat) (e : cached_sector), c.sectors[i]? = some e → e.sector_idx = SECTOR_NONE → e.dirty = false
  bounded : ∀ (i : Nat) (e : cached_sector), c.sectors[i]? = some e → e.last_accessed < INT64_MAX

/-- A value that `timer_ticks ()` can return: ticks since boot, neither of the two limits that
the cache uses as sentinels. -/
def TickOK (now : Int) : Prop := INT64_MIN < now ∧ now < INT64_MAX

/-! ## The cache against the uncached device -/

/-- A call of the cache's interface; `now` is the value of the timer during the call. -/
inductive CacheOp where
  | read (now : Int) (sector : Nat) (offset len : Nat)
  | write (now : Int) (sector : Nat) (src : Nat → Nat) (offset len : Nat)
  | flush
  | reset

/-- The first `len` bytes of a buffer. -/
def bytes_of (buf : Nat → Nat) (len : Nat) : List Nat := (List.range len).map buf

/-- One call on the cache, with what a `buffer_cache_read` copied into its (zero-filled)
destination buffer. -/
def cache_step (c : buffer_cache) : CacheOp → Option (buffer_cache × List (List Nat))
  | CacheOp.read now s off len =>
    match buffer_cache_read now c s (fun _ => 0) off len with
    | none => none
    | some (c1, dst) => some (c1, [bytes_of dst len])
  | CacheOp.write now s src off len =>
    match buffer_cache_write now c s src off len with
    | none => none
    | some c1 => some (c1, [])
  | CacheOp.flush => some (buffer_cache_flush c, [])
  | CacheOp.reset => some (buffer_cache_reset c, [])

/-- Runs a sequence of calls on the cache and collects the bytes returned by its reads. -/
def cache_run : buffer_cache → List CacheOp → Option (buffer_cache × List (List Nat))
  | c, [] => some (c, [])
  | c, op :: ops =>
    match cache_step c op with
    | none => none
    | some (c1, out) =>
      match cache_run c1 ops with
      | none => none
      | some (c2, outs) => some (c2, out ++ outs)

/-- One call applied directly to the block device, without a cache: a read reads the sector, a
write is a read-modify-write of the sector, flush and reset do nothing. -/
def device_step (d : Device) : CacheOp → Device × List (List Nat)
  | CacheOp.read _ s off len => (d, [bytes_of (fun k => block_read d s (off + k)) len])
  | CacheOp.write _ s src off len =>
    (block_write d s (memcpy (block_read d s) off src len), [])
  | CacheOp.flush => (d, [])
  | CacheOp.reset => (d, [])

/-- The same sequence of reads and writes applied directly to the block device. -/
def device_run : Device → List CacheOp → List (List Nat)
  | _, [] => []
  | d, op :: ops => (device_step d op).2 ++ device_run (device_step d op).1 ops

/-- The precondition of a call: a sector other than "none", a range inside the sector, and a
timer value that is none of the sentinels. -/
def CacheOp.ok : CacheOp → Prop
  | CacheOp.read now s off len => TickOK now ∧ s ≠ SECTOR_NONE ∧ off + len ≤ BLOCK_SECTOR_SIZE
  | CacheOp.write now s _ off len => TickOK now ∧ s ≠ SECTOR_NONE ∧ off + len ≤ BLOCK_SECTOR_SIZE
  | CacheOp.flush => True
  | CacheOp.reset => True

/-- Same disk contents as far as the file system can observe them. -/
def SameDisk (a b : Nat → Nat → Nat) : Prop :=
  ∀ s, s ≠ SECTOR_NONE → ∀ k, k < BLOCK_SECTOR_SIZE → a s k = b s k

/-! ## Inode layer (`inode.c`): types, constants and external services -/

/-- Conversion of a C integer to a 32-bit unsigned type (`size_t`, `unsigned`,
`block_sector_t`). -/
def to_u32 (x : Int) : Nat := (x % 4294967296).toNat

/-- C division of `int`s: truncation towards zero. -/
def c_div (a b : Int) : Int := Int.tdiv a b

/-- C remainder of `int`s. -/
def c_mod (a b : Int) : Int := Int.tmod a b

/-- The macro `MIN3` of `lib/utils.h`. -/
def MIN3 (a b c : Int) : Int :=
  if (if a < b then a else b) < c then (if a < b then a else b) else c

/-- The constant `INODE_MAGIC`. -/
def INODE_MAGIC : Nat := 0x494e4f44

/-- The macro `INDIRECT_BLOCK_NUM_ENTRIES`: `BLOCK_SECTOR_SIZE / sizeof (block_sector_t)`. -/
def INDIRECT_BLOCK_NUM_ENTRIES : Nat := BLOCK_SECTOR_SIZE / 4

/-- The macro `INDIRECT_BLOCK_1_CAPACITY_BYTE`. -/
def INDIRECT_BLOCK_1_CAPACITY_BYTE : Nat := INDIRECT_BLOCK_NUM_ENTRIES * BLOCK_SECTOR_SIZE

/-- The macro `INDIRECT_BLOCK_1_CAPACITY_ENTRY`. -/
def INDIRECT_BLOCK_1_CAPACITY_ENTRY : Nat := INDIRECT_BLOCK_NUM_ENTRIES

/-- The macro `INDIRECT_BLOCK_2_CAPACITY_BYTE`. -/
def INDIRECT_BLOCK_2_CAPACITY_BYTE : Nat :=
  INDIRECT_BLOCK_1_CAPACITY_BYTE * INDIRECT_BLOCK_NUM_ENTRIES

/-- The macro `INDIRECT_BLOCK_2_CAPACITY_ENTRY`. -/
def INDIRECT_BLOCK_2_CAPACITY_ENTRY : Nat :=
  INDIRECT_BLOCK_NUM_ENTRIES * INDIRECT_BLOCK_1_CAPACITY_ENTRY

/-- The macro `INODE_DISK_NUM_IDIRECT_BLOCKS_2`. -/
def INODE_DISK_NUM_IDIRECT_BLOCKS_2 : Nat := 32

/-- The macro `INODE_DISK_NUM_DIRECT_BLOCKS`: the sector size less the L2 pointers, a `bool`,
an `off_t` and an `unsigned`, divided by `sizeof (block_sector_t)`. -/
def INODE_DISK_NUM_DIRECT_BLOCKS : Nat :=
  (BLOCK_SECTOR_SIZE - INODE_DISK_NUM_IDIRECT_BLOCKS_2 * 4 - 1 - 4 - 4) / 4

/-- The macro `INODE_DISK_NUM_DIRECT_BLOCKS_CAPACITY_BYTE`. -/
def INODE_DISK_NUM_DIRECT_BLOCKS_CAPACITY_BYTE : Nat :=
  INODE_DISK_NUM_DIRECT_BLOCKS * BLOCK_SECTOR_SIZE

/-- The `struct inode_data`; the two arrays are functions from index to sector. -/
structure inode_data where
  is_dir : Bool
  size : Int
  l2_blocks : Nat → Nat
  l0_blocks : Nat → Nat

/-- The in-memory `struct inode` (list element and locks are not modelled). -/
structure inode where
  sector : Nat
  open_cnt : Int
  removed : Bool
  deny_write_cnt : Int
  block_data : inode_data

/-- The function `bytes_to_sectors`: `DIV_ROUND_UP (size, BLOCK_SECTOR_SIZE)` on `off_t`,
returned as `size_t`. -/
def bytes_to_sectors (size : Int) : Nat :=
  to_u32 (c_div (wrap_int (size + 512 - 1)) 512)

/-- The input/output side of the global state: the cache `fs_buffer_cache` over `fs_device`,
and the timer as the sequence of values that successive calls of `timer_ticks ()` return. -/
structure Io where
  fs_buffer_cache : buffer_cache
  ticks : Nat → Int
  timer_calls : Nat

/-- The allocators: the free-map bitmap (bit set = sector in use), and `malloc` as the sequence
of outcomes of its successive calls. -/
structure Alloc where
  free_map : List Bool
  malloc_ok : Nat → Bool
  malloc_calls : Nat

/-- One call of `malloc`: whether it returned a block. -/
def malloc (al : Alloc) : Alloc × Bool :=
  ({ al with malloc_calls := al.malloc_calls + 1 }, al.malloc_ok al.malloc_calls)

/-- Index of the first clear bit of a bitmap. -/
def first_free : List Bool → Option Nat
  | [] => none
  | b :: bs => if b = false then some 0 else (first_free bs).map (fun i => i + 1)

/-- Modelled from the spec: `allocate(count)` of the free-space allocator
(`free_map_allocate` of `filesys/free-map.c`) for `count = 1`: the first free sector is marked
in use and returned, or the call fails. -/
def free_map_allocate (al : Alloc) : Option (Alloc × Nat) :=
  match first_free al.free_map with
  | none => none
  | some s => some ({ al with free_map := al.free_map.set s true }, s)

/-- Modelled from the spec: `release(first_sector, count)` of the free-space allocator
(`free_map_release` of `filesys/free-map.c`) for `count = 1`. -/
def free_map_release (al : Alloc) (sector : Nat) : Alloc :=
  { al with free_map := al.free_map.set sector false }

/-- A call `buffer_cache_read (fs_buffer_cache, ...)`, with the timer value of the moment. -/
def fs_cache_read (io : Io) (a_src : Nat) (a_dest : Nat → Nat) (a_offset a_size : Nat) :
    Option (Io × (Nat → Nat)) :=
  match buffer_cache_read (io.ticks io.timer_calls) io.fs_buffer_cache a_src a_dest
      a_offset a_size with
  | none => none
  | some (c, dst) =>
    some ({ io with fs_buffer_cache := c, timer_calls := io.timer_calls + 1 }, dst)

/-- A call `buffer_cache_write (fs_buffer_cache, ...)`, with the timer value of the moment. -/
def fs_cache_write (io : Io) (a_dest : Nat) (a_src : Nat → Nat) (a_offset a_size : Nat) :
    Option Io :=
  match buffer_cache_write (io.ticks io.timer_calls) io.fs_buffer_cache a_dest a_src
      a_offset a_size with
  | none => none
  | some c => some { io with fs_buffer_cache := c, timer_calls := io.timer_calls + 1 }

/-- The macro `FS_READ_BLOCK (src, dst)` with `ENABLE_BUFFER_CACHE` set. -/
def FS_READ_BLOCK (io : Io) (src : Nat) (dst : Nat → Nat) : Option (Io × (Nat → Nat)) :=
  fs_cache_read io src dst 0 BLOCK_SECTOR_SIZE

/-- The macro `FS_WRITE_BLOCK (src, dst)` with `ENABLE_BUFFER_CACHE` set. -/
def FS_WRITE_BLOCK (io : Io) (src : Nat → Nat) (dst : Nat) : Option Io :=
  fs_cache_write io dst src 0 BLOCK_SECTOR_SIZE

/-- The bytes of a 32-bit unsigned variable in memory (little endian). -/
def u32_bytes (v : Nat) : Nat → Nat := fun i => v / 256 ^ i % 256

/-- The 32-bit unsigned value stored at offset `off` of a buffer (little endian). -/
def get_u32 (buf : Nat → Nat) (off : Nat) : Nat :=
  buf off % 256 + 256 * (buf (off + 1) % 256) + 65536 * (buf (off + 2) % 256)
    + 16777216 * (buf (off + 3) % 256)

/-- Pointer arithmetic `buf + n` on a byte buffer. -/
def ptr_add (buf : Nat → Nat) (n : Nat) : Nat → Nat := fun k => buf (n + k)

/-- The buffer `buf` after the memory from `buf + n` on has become `tail`. -/
def ptr_store (buf : Nat → Nat) (n : Nat) (tail : Nat → Nat) : Nat → Nat :=
  fun i => if n ≤ i then tail (i - n) else buf i

/-- The memory image of a `struct inode_disk`: `is_dir` at byte 0 (bytes 1 to 3 are padding of
indeterminate value `pad`), `size` at 4, `l2_blocks` at 8, `l0_blocks` at 136, `magic` at 508;
the array `padding` has length 0. -/
def inode_disk_bytes (d : inode_data) (magic : Nat) (pad : Nat → Nat) : Nat → Nat := fun i =>
  if i = 0 then (if d.is_dir then 1 else 0)
  else if i < 4 then pad i
  else if i < 8 then u32_bytes (to_u32 d.size) (i - 4)
  else if i < 136 then u32_bytes (d.l2_blocks ((i - 8) / 4)) ((i - 8) % 4)
  else if i < 508 then u32_bytes (d.l0_blocks ((i - 136) / 4)) ((i - 136) % 4)
  else u32_bytes magic (i - 508)

/-- The `block_data` member of a `struct inode_disk` read from its memory image. -/
def inode_data_of_bytes (buf : Nat → Nat) : inode_data :=
  { is_dir := decide (buf 0 % 256 ≠ 0)
    size := wrap_int (get_u32 buf 4)
    l2_blocks := fun a => get_u32 buf (8 + 4 * a)
    l0_blocks := fun i => get_u32 buf (136 + 4 * i) }

/-! ## Inode layer: functions -/

/-- The function `inode_writeback`. -/
def inode_writeback (io : Io) (pad : Nat → Nat) (ino : inode) : Option Io :=
  FS_WRITE_BLOCK io (inode_disk_bytes ino.block_data INODE_MAGIC pad) ino.sector

/-- The function `inode_length`. -/
def inode_length (ino : inode) : Int := ino.block_data.size

/-- The function `byte_to_sector`. The comparison with the direct capacity and the index
arithmetic after it are unsigned, as the capacities are `size_t` expressions. -/
def byte_to_sector (io : Io) (ino : inode) (pos : Int) : Option (Io × Nat) :=
  if pos > ino.block_data.size then some (io, SECTOR_NONE)
  else if to_u32 pos < INODE_DISK_NUM_DIRECT_BLOCKS_CAPACITY_BYTE then
    some (io, ino.block_data.l0_blocks (to_u32 pos / BLOCK_SECTOR_SIZE))
  else
    let pos1 := to_u32 pos - INODE_DISK_NUM_DIRECT_BLOCKS_CAPACITY_BYTE
    let l2_block_idx := pos1 / INDIRECT_BLOCK_2_CAPACITY_BYTE
    let l1_block_idx := (pos1 % INDIRECT_BLOCK_2_CAPACITY_BYTE) / INDIRECT_BLOCK_1_CAPACITY_BYTE
    let l0_block_idx := (pos1 % INDIRECT_BLOCK_1_CAPACITY_BYTE) / BLOCK_SECTOR_SIZE
    let indirect_block_2_sector := ino.block_data.l2_blocks l2_block_idx
    match fs_cache_read io indirect_block_2_sector (fun _ => 0) (l1_block_idx * 4) 4 with
    | none => none
    | some (io1, buf1) =>
      let indirect_block_1_sector := get_u32 buf1 0
      match fs_cache_read io1 indirect_block_1_sector (fun _ => 0) (l0_block_idx * 4) 4 with
      | none => none
      | some (io2, buf2) => some (io2, get_u32 buf2 0)

/-- The function `zero_out`. -/
def zero_out (io : Io) (sector : Nat) : Option Io :=
  FS_WRITE_BLOCK io (fun _ => 0) sector

/-- The `struct new_sector_elem` (without its list element). The two block indices of an
element that is not multi-level are never read; they are 0 here. -/
structure new_sector_elem where
  multi_lvl : Bool
  sector : Nat
  data_block_idx : Nat
  l1_block_idx : Nat
  l2_block_idx : Nat

/-- The element that the first loop of `inode_data_resize` builds for sector index `i` once
`sector` is allocated: the multi-level flag and the indices of the sector in the block map. -/
def new_sector_of (i sector : Nat) : new_sector_elem :=
  let j := i - INODE_DISK_NUM_DIRECT_BLOCKS
  if i ≥ INODE_DISK_NUM_DIRECT_BLOCKS then
    { multi_lvl := true
      sector := sector
      data_block_idx := j % INDIRECT_BLOCK_1_CAPACITY_ENTRY
      l1_block_idx := (j % INDIRECT_BLOCK_2_CAPACITY_ENTRY) / INDIRECT_BLOCK_1_CAPACITY_ENTRY
      l2_block_idx := j / INDIRECT_BLOCK_2_CAPACITY_ENTRY }
  else
    { multi_lvl := false
      sector := sector
      data_block_idx := i
      l1_block_idx := 0
      l2_block_idx := 0 }

/-- The first loop of `inode_data_resize`, over the sector indices `i`: allocates and zeroes
a sector for each and appends it to the list `new_sectors`. The flag of the result is false
when `malloc` or the free map failed (`goto done`). -/
def resize_allocate : List Nat → Io → Alloc → List new_sector_elem →
    Option (Io × Alloc × List new_sector_elem × Bool)
  | [], io, al, new_sectors => some (io, al, new_sectors, true)
  | i :: rest, io, al, new_sectors =>
    match malloc al with
    | (al1, false) => some (io, al1, new_sectors, false)
    | (al1, true) =>
      match free_map_allocate al1 with
      | none => some (io, al1, new_sectors, false)
      | some (al2, sector) =>
        match zero_out io sector with
        | none => none
        | some io1 =>
          resize_allocate rest io1 al2 (new_sectors ++ [new_sector_of i sector])

/-- In the second loop of `inode_data_resize`: the allocation of a new L2 block when the new
sector is the first of its L2 block. The result `none` is the `break` on a full disk. -/
def resize_link_l2 (al : Alloc) (d : inode_data) (new_sector : new_sector_elem) :
    Option (Alloc × inode_data) :=
  if new_sector.l1_block_idx = 0 ∧ new_sector.data_block_idx = 0 then
    match free_map_allocate al with
    | none => none
    | some (al1, l2_block_sector) =>
      some (al1, { d with l2_blocks := Function.update d.l2_blocks
                            new_sector.l2_block_idx l2_block_sector })
  else some (al, d)

/-- In the second loop of `inode_data_resize`: the allocation of a new L1 block when the new
sector is the first of its L1 block, and its entry in the L2 block. The result `some none` is
the `break` on a full disk. -/
def resize_link_l1 (io : Io) (al : Alloc) (d : inode_data) (new_sector : new_sector_elem) :
    Option (Option (Io × Alloc)) :=
  if new_sector.data_block_idx = 0 then
    match free_map_allocate al with
    | none => some none
    | some (al1, l1_block_sector) =>
      match fs_cache_write io (d.l2_blocks new_sector.l2_block_idx)
          (u32_bytes l1_block_sector) (new_sector.l1_block_idx * 4) 4 with
      | none => none
      | some io1 => some (some (io1, al1))
  else some (some (io, al))

/-- The body of the second loop of `inode_data_resize` for one new sector. The flag of the
result is false when the loop is left by `break`. -/
def resize_link_one (io : Io) (al : Alloc) (d : inode_data) (new_sector : new_sector_elem) :
    Option (Io × Alloc × inode_data × Bool) :=
  if new_sector.multi_lvl then
    match resize_link_l2 al d new_sector with
    | none => some (io, al, d, false)
    | some (al1, d1) =>
      match resize_link_l1 io al1 d1 new_sector with
      | none => none
      | some none => some (io, al1, d1, false)
      | some (some (io1, al2)) =>
        match fs_cache_read io1 (d1.l2_blocks new_sector.l2_block_idx) (fun _ => 0)
            (new_sector.l1_block_idx * 4) 4 with
        | none => none
        | some (io2, buf) =>
          let l1_block_sector := get_u32 buf 0
          match fs_cache_write io2 l1_block_sector (u32_bytes new_sector.sector)
              (new_sector.data_block_idx * 4) 4 with
          | none => none
          | some io3 => some (io3, al2, d1, true)
  else
    some (io, al, { d with l0_blocks := Function.update d.l0_blocks
                             new_sector.data_block_idx new_sector.sector }, true)

/-- The second loop of `inode_data_resize`: records the new sectors in the block map. -/
def resize_link : List new_sector_elem → Io → Alloc → inode_data →
    Option (Io × Alloc × inode_data)
  | [], io, al, d => some (io, al, d)
  | new_sector :: rest, io, al, d =>
    match resize_link_one io al d new_sector with
    | none => none
    | some (io1, al1, d1, false) => some (io1, al1, d1)
    | some (io1, al1, d1, true) => resize_link rest io1 al1 d1

/-- The clean-up loop of `inode_data_resize` when `success` is false: every sector of the list
is released. -/
def resize_release (al : Alloc) (new_sectors : List new_sector_elem) : Alloc :=
  new_sectors.foldl (fun a e => free_map_release a e.sector) al

/-- The function `inode_data_resize`. After the second loop `success` is set to true, whether
the loop ran to its end or was left by `break`. -/
def inode_data_resize (io : Io) (al : Alloc) (d : inode_data) (a_size : Nat) :
    Option (Io × Alloc × inode_data × Bool) :=
  if ¬ (to_u32 d.size ≤ a_size) then none
  else if to_u32 d.size = a_size then some (io, al, d, true)
  else
    let num_new_sectors := bytes_to_sectors (wrap_int a_size)
    let num_old_sectors := bytes_to_sectors d.size
    if num_new_sectors = num_old_sectors then
      some (io, al, { d with size := wrap_int a_size }, true)
    else
      match resize_allocate (List.range' num_old_sectors (num_new_sectors - num_old_sectors))
          io al [] with
      | none => none
      | some (io1, al1, new_sectors, false) =>
        some (io1, resize_release al1 new_sectors, d, false)
      | some (io1, al1, new_sectors, true) =>
        match resize_link new_sectors io1 al1 d with
        | none => none
        | some (io2, al2, d2) => some (io2, al2, { d2 with size := wrap_int a_size }, true)

/-- The function `inode_resize`. -/
def inode_resize (io : Io) (al : Alloc) (pad : Nat → Nat) (a_inode : inode) (a_size : Nat) :
    Option (Io × Alloc × inode × Bool) :=
  match inode_data_resize io al a_inode.block_data a_size with
  | none => none
  | some (io1, al1, d1, true) =>
    match inode_writeback io1 pad { a_inode with block_data := d1 } with
    | none => none
    | some io2 => some (io2, al1, { a_inode with block_data := d1 }, true)
  | some (io1, al1, d1, false) => some (io1, al1, { a_inode with block_data := d1 }, false)

/-- The function `inode_create`; `stack` is the uninitialised `disk_inode` on the stack and
`pad` its padding bytes. -/
def inode_create (io : Io) (al : Alloc) (stack : inode_data) (pad : Nat → Nat) (sector : Nat)
    (length : Int) (is_directory : Bool) : Option (Io × Alloc × Bool) :=
  if length < 0 then none
  else
    match inode_data_resize io al { stack with size := 0, is_dir := is_directory }
        (to_u32 length) with
    | none => none
    | some (io1, al1, d1, true) =>
      match FS_WRITE_BLOCK io1 (inode_disk_bytes d1 INODE_MAGIC pad) sector with
      | none => none
      | some io2 => some (io2, al1, true)
    | some (io1, al1, _, false) => some (io1, al1, false)

/-- The loop of `inode_read_at`; `fuel` bounds the number of iterations. The result is the
buffer and `bytes_read`. -/
def inode_read_loop : Nat → Io → inode → Int → (Nat → Nat) → Int → Int → Int →
    Option (Io × (Nat → Nat) × Int)
  | 0, _, _, _, _, _, _, _ => none
  | fuel + 1, io, ino, inode_size, buffer, size, offset, bytes_read =>
    if size > 0 then
      match byte_to_sector io ino offset with
      | none => none
      | some (io1, sector_idx) =>
        if sector_idx = SECTOR_NONE then some (io1, buffer, bytes_read)
        else
          let sector_ofs := c_mod offset 512
          let inode_left := inode_size - offset
          let sector_left := 512 - sector_ofs
          let min_left := if inode_left < sector_left then inode_left else sector_left
          let chunk_size := if size < min_left then size else min_left
          if chunk_size ≤ 0 then some (io1, buffer, bytes_read)
          else
            match fs_cache_read io1 sector_idx (ptr_add buffer bytes_read.toNat)
                sector_ofs.toNat chunk_size.toNat with
            | none => none
            | some (io2, dst) =>
              inode_read_loop fuel io2 ino inode_size
                (ptr_store buffer bytes_read.toNat dst)
                (size - chunk_size) (offset + chunk_size) (bytes_read + chunk_size)
    else some (io, buffer, bytes_read)

/-- The function `inode_read_at`. The result is the buffer and the returned count. -/
def inode_read_at (io : Io) (ino : inode) (buffer : Nat → Nat) (size offset : Int) :
    Option (Io × (Nat → Nat) × Int) :=
  let inode_size := inode_length ino
  if inode_size < wrap_int (offset + size) then some (io, buffer, 0)
  else inode_read_loop (size.toNat + 1) io ino inode_size buffer size offset 0

/-- The loop of `inode_write_at`; `fuel` bounds the number of iterations. -/
def inode_write_loop : Nat → Io → inode → (Nat → Nat) → Int → Int → Int → Option (Io × Int)
  | 0, _, _, _, _, _, _ => none
  | fuel + 1, io, ino, buffer, size, offset, bytes_written =>
    if size > 0 then
      match byte_to_sector io ino offset with
      | none => none
      | some (io1, sector_idx) =>
        if sector_idx = SECTOR_NONE then some (io1, bytes_written)
        else
          let sector_ofs := c_mod offset 512
          let inode_left := inode_length ino - offset
          let sector_left := 512 - sector_ofs
          let chunk_size := MIN3 size inode_left sector_left
          if chunk_size ≤ 0 then some (io1, bytes_written)
          else
            match fs_cache_write io1 sector_idx (ptr_add buffer bytes_written.toNat)
                sector_ofs.toNat chunk_size.toNat with
            | none => none
            | some io2 =>
              inode_write_loop fuel io2 ino buffer (size - chunk_size) (offset + chunk_size)
                (bytes_written + chunk_size)
    else some (io, bytes_written)

/-- The first part of `inode_write_at`: the file is grown when the range ends behind its
size. The flag of the result is false when the resize failed. -/
def inode_write_at_resize (io : Io) (al : Alloc) (pad : Nat → Nat) (ino : inode)
    (size offset : Int) : Option (Io × Alloc × inode × Bool) :=
  let required_size := wrap_int (offset + size)
  if required_size > ino.block_data.size then
    match inode_data_resize io al ino.block_data (to_u32 required_size) with
    | none => none
    | some (io1, al1, d1, true) =>
      match inode_writeback io1 pad { ino with block_data := d1 } with
      | none => none
      | some io2 => some (io2, al1, { ino with block_data := d1 }, true)
    | some (io1, al1, d1, false) => some (io1, al1, { ino with block_data := d1 }, false)
  else some (io, al, ino, true)

/-- The function `inode_write_at`. When the resize fails the function executes `return;`
without a value: the caller then sees the indeterminate value `junk`. -/
def inode_write_at (junk : Int) (io : Io) (al : Alloc) (pad : Nat → Nat) (ino : inode)
    (buffer : Nat → Nat) (size offset : Int) : Option (Io × Alloc × inode × Int) :=
  match inode_write_at_resize io al pad ino size offset with
  | none => none
  | some (io1, al1, ino1, false) => some (io1, al1, ino1, junk)
  | some (io1, al1, ino1, true) =>
    if ino1.deny_write_cnt ≠ 0 then some (io1, al1, ino1, 0)
    else
      match inode_write_loop (size.toNat + 1) io1 ino1 buffer size offset 0 with
      | none => none
      | some (io2, n) => some (io2, al1, ino1, n)

/-! ## Inode layer: the list of open inodes -/

/-- The limit `INT_MAX` of the counters of a handle. -/
def INT_MAX : Int := 2147483647

/-- The list `open_inodes`: the handles in list order, each with the address that `malloc`
gave it (the number of the `malloc` call). -/
abbrev InodeList := List (Nat × inode)

/-- A handle of the list by its address. -/
def handle_get (l : InodeList) (h : Nat) : Option inode :=
  (l.find? (fun p => decide (p.1 = h))).map (fun p => p.2)

/-- In-place update of the handle at address `h`. -/
def handle_update (l : InodeList) (h : Nat) (f : inode → inode) : InodeList :=
  l.map (fun p => if p.1 = h then (p.1, f p.2) else p)

/-- The function `inode_reopen` on a handle of the list, or on `NULL` (`none`). The result
`none` stands for a dangling pointer or the overflow of `open_cnt`, both undefined. -/
def inode_reopen (l : InodeList) (h : Option Nat) : Option (InodeList × Option Nat) :=
  match h with
  | none => some (l, none)
  | some a =>
    match handle_get l a with
    | none => none
    | some ino =>
      if ino.open_cnt = INT_MAX then none
      else some (handle_update l a (fun i => { i with open_cnt := i.open_cnt + 1 }), some a)

/-- The function `inode_open`; `uninit` is the uninitialised buffer `buf`. The result is the
new state and the returned handle (`none` for `NULL`). -/
def inode_open (io : Io) (al : Alloc) (l : InodeList) (uninit : Nat → Nat) (sector : Nat) :
    Option (Io × Alloc × InodeList × Option Nat) :=
  match l.find? (fun p => decide (p.2.sector = sector)) with
  | some p =>
    match inode_reopen l (some p.1) with
    | none => none
    | some (l1, r) => some (io, al, l1, r)
  | none =>
    match malloc al with
    | (al1, false) => some (io, al1, l, none)
    | (al1, true) =>
      match FS_READ_BLOCK io sector uninit with
      | none => none
      | some (io1, buf) =>
        some (io1, al1,
          (al.malloc_calls,
            { sector := sector, open_cnt := 1, removed := false, deny_write_cnt := 0,
              block_data := inode_data_of_bytes buf }) :: l,
          some al.malloc_calls)

/-- The function `inode_get_inumber`. -/
def inode_get_inumber (ino : inode) : Nat := ino.sector

/-- In `inode_close`: the innermost loop, over the entries `index_l0` of one L1 block, left
when `done` becomes true. The result is the allocator, `i` and `done`. -/
def close_l0_loop : List Nat → Alloc → (Nat → Nat) → Nat → Nat → Alloc × Nat × Bool
  | [], al, _, i, _ => (al, i, false)
  | index_l0 :: rest, al, indirect_block_1, i, num_l0 =>
    let al1 := free_map_release al (get_u32 indirect_block_1 (4 * index_l0))
    if i + 1 = num_l0 then (al1, i + 1, true)
    else close_l0_loop rest al1 indirect_block_1 (i + 1) num_l0

/-- In `inode_close`: the middle loop, over the entries `index_l1` of one L2 block, left when
`done` becomes true. -/
def close_l1_loop : List Nat → Io → Alloc → (Nat → Nat) → Nat → Nat →
    Option (Io × Alloc × Nat × Bool)
  | [], io, al, _, i, _ => some (io, al, i, false)
  | index_l1 :: rest, io, al, indirect_block_2, i, num_l0 =>
    match FS_READ_BLOCK io (get_u32 indirect_block_2 (4 * index_l1)) (fun _ => 0) with
    | none => none
    | some (io1, indirect_block_1) =>
      match close_l0_loop (List.range INDIRECT_BLOCK_NUM_ENTRIES) al indirect_block_1 i
          num_l0 with
      | (al1, i1, done) =>
        let al2 := free_map_release al1 (get_u32 indirect_block_2 (4 * index_l1))
        if done then some (io1, al2, i1, true)
        else close_l1_loop rest io1 al2 indirect_block_2 i1 num_l0

/-- In `inode_close`: the outer loop, over the L2 blocks, run while `done` is false; `fuel`
bounds the number of iterations. -/
def close_l2_loop : Nat → Io → Alloc → inode_data → Nat → Nat → Nat → Option (Io × Alloc)
  | 0, _, _, _, _, _, _ => none
  | fuel + 1, io, al, d, index_l2, i, num_l0 =>
    match FS_READ_BLOCK io (d.l2_blocks index_l2) (fun _ => 0) with
    | none => none
    | some (io1, indirect_block_2) =>
      match close_l1_loop (List.range INDIRECT_BLOCK_NUM_ENTRIES) io1 al indirect_block_2 i
          num_l0 with
      | none => none
      | some (io2, al1, i1, done) =>
        let al2 := free_map_release al1 (d.l2_blocks index_l2)
        if done then some (io2, al2)
        else close_l2_loop fuel io2 al2 d (index_l2 + 1) i1 num_l0

/-- In `inode_close`: the first loop, over the direct blocks `i`, left when `i` reaches
`num_l0`. The result is the allocator and `i`. -/
def close_direct_loop : List Nat → Alloc → inode_data → Nat → Alloc × Nat
  | [], al, _, _ => (al, INODE_DISK_NUM_DIRECT_BLOCKS)
  | i :: rest, al, d, num_l0 =>
    if i < num_l0 then close_direct_loop rest (free_map_release al (d.l0_blocks i)) d num_l0
    else (al, i)

/-- In `inode_close`: the release of the blocks of a removed inode. -/
def inode_release_blocks (io : Io) (al : Alloc) (ino : inode) : Option (Io × Alloc) :=
  let num_l0 := bytes_to_sectors ino.block_data.size
  match close_direct_loop (List.range INODE_DISK_NUM_DIRECT_BLOCKS) al ino.block_data
      num_l0 with
  | (al1, i) =>
    let released : Option (Io × Alloc) :=
      if num_l0 = i then some (io, al1)
      else close_l2_loop (num_l0 + 1) io al1 ino.block_data 0 i num_l0
    match released with
    | none => none
    | some (io1, al2) => some (io1, free_map_release al2 ino.sector)

/-- The function `inode_close` on a handle of the list, or on `NULL` (`none`). The result
`none` stands for a failed assertion of the cache, a dangling pointer or the overflow of
`open_cnt`. -/
def inode_close (io : Io) (al : Alloc) (l : InodeList) (h : Option Nat) :
    Option (Io × Alloc × InodeList) :=
  match h with
  | none => some (io, al, l)
  | some a =>
    match handle_get l a with
    | none => none
    | some ino =>
      if ino.open_cnt = - INT_MAX - 1 then none
      else if ino.open_cnt - 1 = 0 then
        let l1 := l.filter (fun p => decide (p.1 ≠ a))
        if ino.removed then
          match inode_release_blocks io al ino with
          | none => none
          | some (io1, al1) => some (io1, al1, l1)
        else some (io, al, l1)
      else some (io, al, handle_update l a (fun i => { i with open_cnt := i.open_cnt - 1 }))

/-- The function `inode_remove`. -/
def inode_remove (l : InodeList) (h : Nat) : Option InodeList :=
  match handle_get l h with
  | none => none
  | some _ => some (handle_update l h (fun i => { i with removed := true }))

/-- The function `inode_deny_write`. The result `none` stands for the failed assertion
`deny_write_cnt <= open_cnt`, a dangling pointer or the overflow of the counter. -/
def inode_deny_write (l : InodeList) (h : Nat) : Option InodeList :=
  match handle_get l h with
  | none => none
  | some ino =>
    if ino.deny_write_cnt = INT_MAX then none
    else if ino.deny_write_cnt + 1 ≤ ino.open_cnt then
      some (handle_update l h (fun i => { i with deny_write_cnt := i.deny_write_cnt + 1 }))
    else none

/-- The function `inode_allow_write`. The result `none` stands for one of its two failed
assertions or a dangling pointer. -/
def inode_allow_write (l : InodeList) (h : Nat) : Option InodeList :=
  match handle_get l h with
  | none => none
  | some ino =>
    if ino.deny_write_cnt > 0 ∧ ino.deny_write_cnt ≤ ino.open_cnt then
      some (handle_update l h (fun i => { i with deny_write_cnt := i.deny_write_cnt - 1 }))
    else none

/-- The function `inode_is_dir`. -/
def inode_is_dir (ino : inode) : Bool := ino.block_data.is_dir

/-- The function `inode_get_open_cnt`. -/
def inode_get_open_cnt (ino : inode) : Int := ino.open_cnt

/-! ## The disk and the block map as the inode layer sees them -/

/-- Well-formed input/output state: a well-formed cache and a timer that never returns one of
the cache's sentinels. -/
def IoInv (io : Io) : Prop := CacheInv io.fs_buffer_cache ∧ ∀ k, TickOK (io.ticks k)

/-- The disk seen through the cache, restricted to what the file system can observe. -/
def disk (io : Io) : Nat → Nat → Nat := fun s k =>
  if s ≠ SECTOR_NONE ∧ k < BLOCK_SECTOR_SIZE then view io.fs_buffer_cache s k else 0

/-- The disk after `len` bytes of `src` were written at offset `off` of sector `s`. -/
def disk_write (D : Nat → Nat → Nat) (s off : Nat) (src : Nat → Nat) (len : Nat) :
    Nat → Nat → Nat :=
  fun s' k => if s' = s ∧ off ≤ k ∧ k < off + len then src (k - off) else D s' k

/-- Entry `idx` of the sector `s` read as an array of sector numbers. -/
def rd32 (D : Nat → Nat → Nat) (s idx : Nat) : Nat := get_u32 (D s) (4 * idx)

/-- Sector `s` is marked in use in the free map. -/
def in_use (al : Alloc) (s : Nat) : Prop := al.free_map[s]? = some true

/-- Number of free sectors of a bitmap. -/
def free_count (fm : List Bool) : Nat := fm.count false

/-- The free map is no longer than the device can be addressed: every sector it can hand out
is a sector number other than "none". -/
def AllocInv (al : Alloc) : Prop := al.free_map.length ≤ SECTOR_NONE

/-- The sector of the L1 block number `k` of a file (`k` counts the L1 blocks of the whole
file: block `k` is entry `k % 128` of the L2 block `k / 128`). -/
def l1_sector (d : inode_data) (D : Nat → Nat → Nat) (k : Nat) : Nat :=
  rd32 D (d.l2_blocks (k / 128)) (k % 128)

/-- The sector that holds the data sector number `i` of a file: a direct pointer for the first
93, entry `(i - 93) % 128` of the L1 block `(i - 93) / 128` for the others. -/
def data_sector (d : inode_data) (D : Nat → Nat → Nat) (i : Nat) : Nat :=
  if i < 93 then d.l0_blocks i else rd32 D (l1_sector d D ((i - 93) / 128)) ((i - 93) % 128)

/-- What a sector of a file can be: its `i`-th data sector, its `k`-th L1 block or its `a`-th
L2 block. -/
inductive Slot where
  | data (i : Nat)
  | l1 (k : Nat)
  | l2 (a : Nat)

/-- The sector in a slot. -/
def slot_sector (d : inode_data) (D : Nat → Nat → Nat) : Slot → Nat
  | Slot.data i => data_sector d D i
  | Slot.l1 k => l1_sector d D k
  | Slot.l2 a => d.l2_blocks a

/-- The slots that a file of `n` data sectors uses. -/
def slot_live (n : Nat) : Slot → Prop
  | Slot.data i => i < n
  | Slot.l1 k => 93 + 128 * k < n
  | Slot.l2 a => 93 + 16384 * a < n

/-- Well-formed block map of a file of `n` data sectors: every slot in use holds a sector that
is marked in use in the free map, and no two slots hold the same sector. -/
structure FileWF (d : inode_data) (D : Nat → Nat → Nat) (al : Alloc) (n : Nat) : Prop where
  used : ∀ x, slot_live n x → in_use al (slot_sector d D x)
  inj : ∀ x y, slot_live n x → slot_live n y → slot_sector d D x = slot_sector d D y → x = y

/-- The largest number of data sectors of a file: 93 direct ones and 32 L2 blocks of
128 * 128. -/
def MAX_SECTORS : Nat := 93 + 32 * 16384

/-- The byte at offset `p` of a file. -/
def file_byte (d : inode_data) (D : Nat → Nat → Nat) (p : Nat) : Nat :=
  D (data_sector d D (p / 512)) (p % 512)

/-- Number of index blocks that the second loop of `inode_data_resize` allocates for the data
sector number `i`: an L2 block at the start of each run of 128 * 128 sectors and an L1 block at
the start of each run of 128, past the 93 direct ones. -/
def link_need (i : Nat) : Nat :=
  (if 93 ≤ i ∧ (i - 93) % 16384 = 0 then 1 else 0) + (if 93 ≤ i ∧ (i - 93) % 128 = 0 then 1 else 0)

/-- Number of index blocks that growing a file from `lo` to `lo + cnt` data sectors
allocates. -/
def link_total (lo cnt : Nat) : Nat := ((List.range' lo cnt).map link_need).sum

/-- Number of sectors that growing a file from `lo` to `lo + cnt` data sectors allocates: the
data sectors and the index blocks. -/
def grow_need (lo cnt : Nat) : Nat := cnt + link_total lo cnt

/-- The slots in use when a file has `n0` data sectors, `n1` L1 blocks and `n2` L2 blocks: the
states that the second loop of `inode_data_resize` goes through. -/
def slot_live3 (n0 n1 n2 : Nat) : Slot → Prop
  | Slot.data i => i < n0
  | Slot.l1 k => k < n1
  | Slot.l2 a => a < n2

/-- Number of L1 blocks of a file of `n` data sectors. -/
def l1_count (n : Nat) : Nat := (n - 93 + 127) / 128

/-- Number of L2 blocks of a file of `n` data sectors. -/
def l2_count (n : Nat) : Nat := (n - 93 + 16383) / 16384

/-- Well-formed block map with `n0` data sectors, `n1` L1 blocks and `n2` L2 blocks: as
`FileWF`, and every data sector has its L1 block and every L1 block its L2 block. -/
structure WF3 (d : inode_data) (D : Nat → Nat → Nat) (al : Alloc) (n0 n1 n2 : Nat) : Prop where
  used : ∀ x, slot_live3 n0 n1 n2 x → in_use al (slot_sector d D x)
  inj : ∀ x y, slot_live3 n0 n1 n2 x → slot_live3 n0 n1 n2 y →
    slot_sector d D x = slot_sector d D y → x = y
  shape0 : n0 ≤ 93 + 128 * n1
  shape1 : n1 ≤ 128 * n2

/-- The slots of index blocks. -/
def Slot.is_index : Slot → Prop
  | Slot.data _ => False
  | Slot.l1 _ => True
  | Slot.l2 _ => True

/-- The largest size of a file in bytes: `MAX_SECTORS` sectors of 512 bytes. -/
def MAX_BYTES : Nat := 268483072

/-- Well-formed file: a size between 0 and the maximum, a well-formed block map for the
sectors of that size, and zero bytes from the size to the end of the last sector. -/
structure FileInv (d : inode_data) (D : Nat → Nat → Nat) (al : Alloc) : Prop where
  size_nonneg : 0 ≤ d.size
  size_max : d.size ≤ MAX_BYTES
  wf : FileWF d D al (bytes_to_sectors d.size)
  slack : ∀ p, d.size.toNat ≤ p → p < 512 * bytes_to_sectors d.size → file_byte d D p = 0

/-- Well-formed handle: a well-formed file whose inode sector is marked in use and is none of
the sectors of its block map. -/
structure HandleInv (ino : inode) (D : Nat → Nat → Nat) (al : Alloc) : Prop where
  file : FileInv ino.block_data D al
  sector_used : in_use al ino.sector
  sector_own : ∀ x, slot_live (bytes_to_sectors ino.block_data.size) x →
    slot_sector ino.block_data D x ≠ ino.sector

/-! ## Concrete states for the examples -/

/-- An empty cache over a zero-filled device, with a timer that always returns 0. -/
def fresh_io : Io := Io.mk (buffer_cache_init (fun _ _ => 0) (fun _ _ => 0)) (fun _ => 0) 0

/-- An allocator whose free map has the sectors 0 and 1 in use and `n` free sectors behind
them, and whose `malloc` never fails. -/
def fresh_alloc (n : Nat) : Alloc :=
  Alloc.mk (true :: true :: List.replicate n false) (fun _ => true) 0

/-- The handle of an empty file with its inode in sector 1, opened once, with `deny`
as its `deny_write_cnt`. -/
def empty_handle (deny : Int) : inode :=
  inode.mk 1 1 false deny (inode_data.mk false 0 (fun _ => 0) (fun _ => 0))

/-- Whether a sector is marked in use can be computed. -/
instance in_use_decidable (al : Alloc) (s : Nat) : Decidable (in_use al s) :=
  inferInstanceAs (Decidable (al.free_map[s]? = some true))

/-- Whether a free map is short enough can be computed. -/
instance AllocInv_decidable (al : Alloc) : Decidable (AllocInv al) :=
  inferInstanceAs (Decidable (al.free_map.length ≤ SECTOR_NONE))

/-- An allocator whose free map has the sectors 0, 1 and 2 in use and one free sector. -/
def small_alloc : Alloc := Alloc.mk [true, true, true, false] (fun _ => true) 0

/-- The handle of a file of 100 bytes with its inode in sector 1 and its only data sector in
sector 2. -/
def small_handle : inode :=
  inode.mk 1 1 false 0 (inode_data.mk false 100 (fun _ => 0) (fun _ => 2))

/-- Reading the byte at offset `p` of a file through `inode_read_at` gives `v`: a call for one
byte at `p` returns 1 and leaves `v` in the buffer, whatever the buffer held before. -/
def reads_byte (io : Io) (ino : inode) (p : Nat) (v : Nat) : Prop :=
  ∀ dst : Nat → Nat, ∃ io' dst', inode_read_at io ino dst 1 p = some (io', dst', 1) ∧ dst' 0 = v

/-! ## Sequences of calls on the list of open inodes -/

/-- The global state of the inode layer: cache and timer, allocators, and the list
`open_inodes`. -/
structure InodeState where
  cache : Io
  alloc : Alloc
  open_inodes : InodeList

/-- A call of one of the functions that open and close handles and deny and allow writes; a
handle is passed by its address. -/
inductive InodeCall where
  | call_open (sector : Nat)
  | call_reopen (h : Nat)
  | call_close (h : Nat)
  | call_deny_write (h : Nat)
  | call_allow_write (h : Nat)

/-- The state after one call; `none` when the call fails an assertion or is undefined. The
buffer of `inode_open` starts as `uninit`. -/
def inode_call (uninit : Nat → Nat) (st : InodeState) : InodeCall → Option InodeState
  | InodeCall.call_open sector =>
    match inode_open st.cache st.alloc st.open_inodes uninit sector with
    | none => none
    | some (io1, al1, l1, _) => some (InodeState.mk io1 al1 l1)
  | InodeCall.call_reopen h =>
    match inode_reopen st.open_inodes (some h) with
    | none => none
    | some (l1, _) => some (InodeState.mk st.cache st.alloc l1)
  | InodeCall.call_close h =>
    match inode_close st.cache st.alloc st.open_inodes (some h) with
    | none => none
    | some (io1, al1, l1) => some (InodeState.mk io1 al1 l1)
  | InodeCall.call_deny_write h =>
    match inode_deny_write st.open_inodes h with
    | none => none
    | some l1 => some (InodeState.mk st.cache st.alloc l1)
  | InodeCall.call_allow_write h =>
    match inode_allow_write st.open_inodes h with
    | none => none
    | some l1 => some (InodeState.mk st.cache st.alloc l1)

/-- The state after a sequence of calls, when none of them fails. -/
def inode_calls (uninit : Nat → Nat) : InodeState → List InodeCall → Option InodeState
  | st, [] => some st
  | st, c :: cs =>
    match inode_call uninit st c with
    | none => none
    | some st1 => inode_calls uninit st1 cs

/-- The condition on a call of `inode_close` that the comment of `inode_allow_write` puts on
the callers (an opener that has denied writes allows them again before it closes): the handle
has fewer denials than openers. -/
def close_after_allow (st : InodeState) : InodeCall → Bool
  | InodeCall.call_close h =>
    match handle_get st.open_inodes h with
    | none => true
    | some ino => decide (ino.deny_write_cnt < ino.open_cnt)
  | _ => true

/-- Every call of `inode_close` of a sequence of calls is made under `close_after_allow`. -/
def closes_after_allow (uninit : Nat → Nat) : InodeState → List InodeCall → Bool
  | _, [] => true
  | st, c :: cs =>
    close_after_allow st c &&
      match inode_call uninit st c with
      | none => true
      | some st1 => closes_after_allow uninit st1 cs

/-- The counters `(open_cnt, deny_write_cnt)` of the handles of the list, in list order. -/
def counters (st : InodeState) : List (Int × Int) :=
  st.open_inodes.map (fun p => (p.2.open_cnt, p.2.deny_write_cnt))

/-- What every list of open inodes built by the calls satisfies: the addresses of the handles
come from earlier `malloc` calls and differ, the sectors differ, every handle has an opener and
none is marked removed. -/
structure ListInv (st : InodeState) : Prop where
  addr_lt : ∀ p ∈ st.open_inodes, p.1 < st.alloc.malloc_calls
  addr_nodup : (st.open_inodes.map (fun p => p.1)).Nodup
  sector_nodup : (st.open_inodes.map (fun p => p.2.sector)).Nodup
  open_pos : ∀ p ∈ st.open_inodes, 1 ≤ p.2.open_cnt
  not_removed : ∀ p ∈ st.open_inodes, p.2.removed = false

/-- The invariant of the counters: on every handle of the list, `deny_write_cnt` lies
between 0 and `open_cnt`. -/
def CountInv (st : InodeState) : Prop :=
  ∀ p ∈ st.open_inodes, 0 ≤ p.2.deny_write_cnt ∧ p.2.deny_write_cnt ≤ p.2.open_cnt

/-- A run on a disk that is too small: with sectors 0 and 1 in use and 94 free sectors,
`inode_create (1, 47617, false)` (the uninitialised `disk_inode` holding zeros), then
`inode_open (1)`, then `byte_to_sector` at offset 47616. The result is what `inode_create`
returned, the length of the handle and the sector that `byte_to_sector` returned. -/
def resize_break_run : Option (Bool × Int × Nat) :=
  match inode_create fresh_io (fresh_alloc 94) (inode_data.mk false 0 (fun _ => 0) (fun _ => 0))
      (fun _ => 0) 1 47617 false with
  | none => none
  | some (io1, al1, created) =>
    match inode_open io1 al1 [] (fun _ => 0) 1 with
    | some (io2, _, (_, ino) :: _, _) =>
      match byte_to_sector io2 ino 47616 with
      | none => none
      | some (_, sector) => some (created, inode_length ino, sector)
    | _ => none

/-- The handle of a file that has the maximum size, 268483072 bytes, with its inode in
sector 1 (the pointers of its block map are not used by the example and are 0). -/
def full_handle : inode :=
  inode.mk 1 1 false 0 (inode_data.mk false 268483072 (fun _ => 0) (fun _ => 0))

/-! ## States of the cache entries -/

/-- An unused entry of the cache: no sector, not dirty, timestamp `INT64_MIN`. -/
def cached_sector.unused (e : cached_sector) : Prop :=
  e.sector_idx = SECTOR_NONE ∧ e.dirty = false ∧ e.last_accessed = INT64_MIN

/-- What `cached_sector_flush` can do to an entry: sector, timestamp and data stay, and the
entry does not become dirty. -/
def cached_sector.flushed (e e' : cached_sector) : Prop :=
  e'.sector_idx = e.sector_idx ∧ e'.last_accessed = e.last_accessed ∧ e'.data = e.data ∧
    (e'.dirty = true → e.dirty = true)

/-- The invariant of the entries without a sector: the cache has its 64 entries, and an entry
whose sector index is "none" is not dirty and has the timestamp `INT64_MIN`. -/
def NoneUnused (c : buffer_cache) : Prop :=
  c.sectors.length = BUFFER_CACHE_SIZE ∧
    ∀ e ∈ c.sectors, e.sector_idx = SECTOR_NONE → e.dirty = false ∧ e.last_accessed = INT64_MIN

/-! ## Hits and misses -/

/-- The sector that a call reads or writes; `none` for flush and reset. -/
def CacheOp.sector? : CacheOp → Option Nat
  | CacheOp.read _ s _ _ => some s
  | CacheOp.write _ s _ _ _ => some s
  | CacheOp.flush => none
  | CacheOp.reset => none

/-- The call is a `buffer_cache_read` or a `buffer_cache_write`. -/
def CacheOp.is_access (op : CacheOp) : Bool := op.sector?.isSome

/-- The sectors that the reads and writes of a sequence of calls touch, in the order of the
calls. -/
def touched (ops : List CacheOp) : List Nat := ops.filterMap CacheOp.sector?

/-- Sector index and timestamp of every entry of the cache, in the order of the entries. -/
def stamps (c : buffer_cache) : List (Nat × Int) :=
  c.sectors.map (fun e => (e.sector_idx, e.last_accessed))

/-- The sectors that the cache holds, in the order of their entries. -/
def cached_sectors (c : buffer_cache) : List Nat :=
  ((stamps c).map (fun p => p.1)).filter (fun s => decide (s ≠ SECTOR_NONE))

/-- A cache in which no sector is held twice: 64 entries, the entries of a sector stamped
with a clock value, the entries without a sector stamped `INT64_MIN`. -/
structure Warm (c : buffer_cache) : Prop where
  len : (stamps c).length = BUFFER_CACHE_SIZE
  nodup : (cached_sectors c).Nodup
  stamp_used : ∀ p ∈ stamps c, p.1 ≠ SECTOR_NONE → INT64_MIN < p.2 ∧ p.2 < INT64_MAX
  stamp_unused : ∀ p ∈ stamps c, p.1 = SECTOR_NONE → p.2 = INT64_MIN

/-- A reset (empty) cache: 64 unused entries and both counters 0. -/
def EmptyCache (c : buffer_cache) : Prop :=
  c.sectors.length = BUFFER_CACHE_SIZE ∧ (∀ e ∈ c.sectors, e.unused) ∧
    c.num_hit = 0 ∧ c.num_miss = 0

/-! ## The inode on disk -/

/-- The sector `sector` of the disk `D` holds the image of the on-disk inode with block data
`d`: the flag `is_dir`, the size, the two pointer arrays and the magic number, each at its
offset of the `struct inode_disk`, for some value of the padding bytes. -/
def Mirrored (sector : Nat) (d : inode_data) (D : Nat → Nat → Nat) : Prop :=
  ∃ pad : Nat → Nat, ∀ k, k < BLOCK_SECTOR_SIZE →
    D sector k = inode_disk_bytes d INODE_MAGIC pad k

/-! ## The sectors that `inode_close` releases -/

/-- In `inode_close`: the sectors that the innermost loop passes to `free_map_release`, in the
order of the calls, with `i` and `done` at the end of the loop. -/
def close_l0_released : List Nat → (Nat → Nat) → Nat → Nat → List Nat × Nat × Bool
  | [], _, i, _ => ([], i, false)
  | index_l0 :: rest, indirect_block_1, i, num_l0 =>
    if i + 1 = num_l0 then ([get_u32 indirect_block_1 (4 * index_l0)], i + 1, true)
    else
      match close_l0_released rest indirect_block_1 (i + 1) num_l0 with
      | (released, r) => (get_u32 indirect_block_1 (4 * index_l0) :: released, r)

/-- In `inode_close`: the sectors that the middle loop passes to `free_map_release`, in the
order of the calls. -/
def close_l1_released : List Nat → Io → (Nat → Nat) → Nat → Nat →
    Option (Io × List Nat × Nat × Bool)
  | [], io, _, i, _ => some (io, [], i, false)
  | index_l1 :: rest, io, indirect_block_2, i, num_l0 =>
    match FS_READ_BLOCK io (get_u32 indirect_block_2 (4 * index_l1)) (fun _ => 0) with
    | none => none
    | some (io1, indirect_block_1) =>
      match close_l0_released (List.range INDIRECT_BLOCK_NUM_ENTRIES) indirect_block_1 i
          num_l0 with
      | (released, i1, done) =>
        if done then
          some (io1, released ++ [get_u32 indirect_block_2 (4 * index_l1)], i1, true)
        else
          match close_l1_released rest io1 indirect_block_2 i1 num_l0 with
          | none => none
          | some (io2, released2, r) =>
            some (io2, released ++ get_u32 indirect_block_2 (4 * index_l1) :: released2, r)

/-- In `inode_close`: the sectors that the outer loop passes to `free_map_release`, in the
order of the calls. -/
def close_l2_released : Nat → Io → inode_data → Nat → Nat → Nat → Option (Io × List Nat)
  | 0, _, _, _, _, _ => none
  | fuel + 1, io, d, index_l2, i, num_l0 =>
    match FS_READ_BLOCK io (d.l2_blocks index_l2) (fun _ => 0) with
    | none => none
    | some (io1, indirect_block_2) =>
      match close_l1_released (List.range INDIRECT_BLOCK_NUM_ENTRIES) io1 indirect_block_2 i
          num_l0 with
      | none => none
      | some (io2, released, i1, done) =>
        if done then some (io2, released ++ [d.l2_blocks index_l2])
        else
          match close_l2_released fuel io2 d (index_l2 + 1) i1 num_l0 with
          | none => none
          | some (io3, released2) => some (io3, released ++ d.l2_blocks index_l2 :: released2)

/-- In `inode_close`: the sectors that the first loop passes to `free_map_release`, in the
order of the calls, with `i` at the end of the loop. -/
def close_direct_released : List Nat → inode_data → Nat → List Nat × Nat
  | [], _, _ => ([], INODE_DISK_NUM_DIRECT_BLOCKS)
  | i :: rest, d, num_l0 =>
    if i < num_l0 then
      match close_direct_released rest d num_l0 with
      | (released, r) => (d.l0_blocks i :: released, r)
    else ([], i)

/-- In `inode_close`: the sectors that the release of the blocks of a removed inode passes to
`free_map_release`, in the order of the calls. -/
def inode_released (io : Io) (ino : inode) : Option (Io × List Nat) :=
  let num_l0 := bytes_to_sectors ino.block_data.size
  match close_direct_released (List.range INODE_DISK_NUM_DIRECT_BLOCKS) ino.block_data
      num_l0 with
  | (released, i) =>
    let rest : Option (Io × List Nat) :=
      if num_l0 = i then some (io, [])
      else close_l2_released (num_l0 + 1) io ino.block_data 0 i num_l0
    match rest with
    | none => none
    | some (io1, released2) => some (io1, released ++ released2 ++ [ino.sector])

/-- The free map after the sectors of a list were released one after the other. -/
def release_all (al : Alloc) (released : List Nat) : Alloc :=
  released.foldl free_map_release al

/-- The slots of a list `S` are exactly the ones that a file with `i'` data sectors, `k1'` L1
blocks and `k2'` L2 blocks has more than one with `i`, `k1` and `k2`, each once. -/
structure Seg (S : List Slot) (i k1 k2 i' k1' k2' : Nat) : Prop where
  nodup : S.Nodup
  mem : ∀ x, x ∈ S ↔ slot_live3 i' k1' k2' x ∧ ¬ slot_live3 i k1 k2 x
  len : S.length + (i + k1 + k2) = i' + k1' + k2'
  mono : i ≤ i' ∧ k1 ≤ k1' ∧ k2 ≤ k2'

/-! ## Directories (`directory.c`) -/

/-- The macro `NAME_MAX` of `directory.h`. -/
def NAME_MAX : Nat := 14

/-- The macro `DIR_RESIZE_STEP`. -/
def DIR_RESIZE_STEP : Nat := 8

/-- The value of `sizeof (struct dir_entry)`: `inode_sector` at byte 0, `name` (15 bytes) at
byte 4 and `in_use` at byte 19. -/
def sizeof_dir_entry : Nat := 20

/-- The `struct dir`. -/
structure dir where
  inode : inode
  pos : Int

/-- The member `in_use` of the `struct dir_entry` in the buffer `e`, read as a truth value. -/
def dir_entry_in_use (e : Nat → Nat) : Bool := decide (e 19 % 256 ≠ 0)

/-- Modelled from the spec: the comparison of a name with a null-terminated name (`strcmp` of
`lib/string.c`, compared with 0). The first string is given by its bytes before the
terminating NUL, the second one by the memory at `s`; the result is true when `strcmp`
returns 0. -/
def strcmp_eq : List Nat → (Nat → Nat) → Bool
  | [], s => decide (s 0 % 256 = 0)
  | c :: cs, s => decide (s 0 % 256 = c) && strcmp_eq cs (ptr_add s 1)

/-- Modelled from the spec: the length of a null-terminated name (`strlen` of `lib/string.c`)
that is given by its bytes before the terminating NUL. -/
def strlen (name : List Nat) : Nat := name.length

/-- Addition of `size_t` values (integers from 0 to 2^32 - 1): modulo 2^32. -/
def size_t_add (a b : Int) : Int := (a + b) % 4294967296

/-- The loop of `lookup`; `fuel` bounds the number of iterations, `e` is the local variable
`e` and `ofs` the offset (a `size_t`: an integer from 0 to 2^32 - 1). The result is the entry
and its offset when the name is found. -/
def lookup_loop : Nat → Io → inode → List Nat → (Nat → Nat) → Int →
    Option (Io × Option ((Nat → Nat) × Int))
  | 0, _, _, _, _, _ => none
  | fuel + 1, io, ino, name, e, ofs =>
    match inode_read_at io ino e sizeof_dir_entry (wrap_int ofs) with
    | none => none
    | some (io1, e1, n) =>
      if to_u32 n = sizeof_dir_entry then
        if dir_entry_in_use e1 && strcmp_eq name (ptr_add e1 4) then some (io1, some (e1, ofs))
        else lookup_loop fuel io1 ino name e1 (size_t_add ofs sizeof_dir_entry)
      else some (io1, none)

/-- The function `lookup`; `uninit` is the uninitialised local variable `e`. The loop ends
after at most one iteration for every entry of the directory and one more. -/
def lookup (io : Io) (a_dir : dir) (name : List Nat) (uninit : Nat → Nat) :
    Option (Io × Option ((Nat → Nat) × Int)) :=
  lookup_loop ((inode_length a_dir.inode).toNat / sizeof_dir_entry + 2) io a_dir.inode name
    uninit 0

/-- The function `dir_get_size`: the division is unsigned. -/
def dir_get_size (a_dir : dir) : Nat := to_u32 (inode_length a_dir.inode) / sizeof_dir_entry

/-- The function `dir_resize`. The result `none` stands for the failed assertion. -/
def dir_resize (io : Io) (al : Alloc) (pad : Nat → Nat) (a_dir : dir) (entry_cnt : Nat) :
    Option (Io × Alloc × dir × Bool) :=
  if ¬ (dir_get_size a_dir ≤ entry_cnt) then none
  else
    match inode_resize io al pad a_dir.inode (entry_cnt * sizeof_dir_entry % 4294967296) with
    | none => none
    | some (io1, al1, ino1, ret) => some (io1, al1, { a_dir with inode := ino1 }, ret)

/-- In `dir_add`: the loop that looks for a free slot; `fuel` bounds the number of
iterations and `ofs` is the offset (`off_t`). The result is the variable `e`, `ofs` and
`found_slot`. -/
def dir_add_scan : Nat → Io → inode → (Nat → Nat) → Int →
    Option (Io × (Nat → Nat) × Int × Bool)
  | 0, _, _, _, _ => none
  | fuel + 1, io, ino, e, ofs =>
    match inode_read_at io ino e sizeof_dir_entry ofs with
    | none => none
    | some (io1, e1, n) =>
      if to_u32 n = sizeof_dir_entry then
        if ¬ dir_entry_in_use e1 then some (io1, e1, ofs, true)
        else dir_add_scan fuel io1 ino e1 (wrap_int ((to_u32 ofs : Int) + sizeof_dir_entry))
      else some (io1, e1, ofs, false)

/-- Modelled from the spec: the copy of a name into a name buffer as a null-terminated string
(`strlcpy (dst, src, size)` of `lib/string.c`), for a source that is given by its bytes before
the terminating NUL: at most `size - 1` bytes of the source and a NUL behind them are stored
at `dst`. -/
def strlcpy (dst : Nat → Nat) (src : List Nat) (size : Nat) : Nat → Nat :=
  if size = 0 then dst
  else fun k =>
    if k < min src.length (size - 1) then src.getD k 0
    else if k = min src.length (size - 1) then 0
    else dst k

/-- In `dir_add`: the variable `e` after `e.in_use = true`, `strlcpy (e.name, name, sizeof
e.name)` and `e.inode_sector = inode_sector`. -/
def dir_entry_fill (e : Nat → Nat) (name : List Nat) (inode_sector : Nat) : Nat → Nat :=
  let e1 : Nat → Nat := fun k => if k = 19 then 1 else e k
  let e2 : Nat → Nat := ptr_store e1 4 (strlcpy (ptr_add e1 4) name (NAME_MAX + 1))
  fun k => if k < 4 then u32_bytes inode_sector k else e2 k

/-- The function `dir_add`; `uninit1` and `uninit2` are the uninitialised local variables `e`
of `lookup` and of `dir_add`, `junk` and `pad` are the indeterminate values that
`inode_write_at` and `inode_writeback` may use. The name is given by its bytes before the
terminating NUL. -/
def dir_add (junk : Int) (io : Io) (al : Alloc) (pad uninit1 uninit2 : Nat → Nat) (a_dir : dir)
    (name : List Nat) (inode_sector : Nat) : Option (Io × Alloc × dir × Bool) :=
  if name = [] ∨ strlen name > NAME_MAX then some (io, al, a_dir, false)
  else
    match lookup io a_dir name uninit1 with
    | none => none
    | some (io1, some _) => some (io1, al, a_dir, false)
    | some (io1, none) =>
      match dir_add_scan ((inode_length a_dir.inode).toNat / sizeof_dir_entry + 2) io1
          a_dir.inode uninit2 0 with
      | none => none
      | some (io2, e, ofs, found_slot) =>
        let resized : Option (Io × Alloc × dir × Bool) :=
          if found_slot then some (io2, al, a_dir, true)
          else dir_resize io2 al pad a_dir ((dir_get_size a_dir + DIR_RESIZE_STEP) % 4294967296)
        match resized with
        | none => none
        | some (io3, al3, dir3, false) => some (io3, al3, dir3, false)
        | some (io3, al3, dir3, true) =>
          match inode_write_at junk io3 al3 pad dir3.inode
              (dir_entry_fill e name inode_sector) sizeof_dir_entry ofs with
          | none => none
          | some (io4, al4, ino4, n) =>
            some (io4, al4, { dir3 with inode := ino4 }, decide (to_u32 n = sizeof_dir_entry))

/-- The directory whose inode has the block data `d` on the disk `D` holds the name `name` in
its entry number `j`: the entry lies inside the file, its flag `in_use` is set and its name
buffer holds the bytes of the name and a NUL behind them. -/
def dir_has_entry (d : inode_data) (D : Nat → Nat → Nat) (name : List Nat) (j : Nat) : Prop :=
  ((sizeof_dir_entry * (j + 1) : Nat) : Int) ≤ d.size ∧
  file_byte d D (sizeof_dir_entry * j + 19) % 256 ≠ 0 ∧
  (∀ i c, name[i]? = some c → file_byte d D (sizeof_dir_entry * j + 4 + i) % 256 = c) ∧
  file_byte d D (sizeof_dir_entry * j + 4 + name.length) % 256 = 0

/-- A device whose sector 2 holds one directory entry: the name "a" for the inode in sector 3,
in use. -/
def dir_device : Device := fun s k =>
  if s = 2 then (if k = 0 then 3 else if k = 4 then 97 else if k = 19 then 1 else 0) else 0

/-- An empty cache over `dir_device`, with a timer that always returns 0. -/
def dir_io : Io := Io.mk (buffer_cache_init dir_device (fun _ _ => 0)) (fun _ => 0) 0

/-- The directory of one entry with its inode in sector 1 and its only data sector in
sector 2. -/
def small_dir : dir :=
  dir.mk (inode.mk 1 1 false 0 (inode_data.mk true 20 (fun _ => 0) (fun _ => 2))) 0

/-! ## Path names (`directory.c`) -/

/-- The character `'/'`. -/
def SLASH : Nat := 47

/-- In `get_next_part`: the first loop, `while (*src == '/') src++;`, on a string given by
its bytes before the terminating NUL. -/
def skip_slashes : List Nat → List Nat
  | [] => []
  | c :: cs => if c = SLASH then skip_slashes cs else c :: cs

/-- In `get_next_part`: the second loop, which copies the characters up to the next `'/'` or
the end of the string to `part`; `n` is `dst - part`. The result is the buffer `part`, `n`,
`src` and whether the loop ran to its end (false for `return -1`). -/
def copy_part : List Nat → (Nat → Nat) → Nat → (Nat → Nat) × Nat × List Nat × Bool
  | [], part, n => (part, n, [], true)
  | c :: cs, part, n =>
    if c = SLASH then (part, n, c :: cs, true)
    else if n < NAME_MAX then copy_part cs (Function.update part n c) (n + 1)
    else (part, n, c :: cs, false)

/-- The function `get_next_part` on a string given by its bytes before the terminating NUL.
The result is the returned value, the buffer `part` and the string `*srcp`. -/
def get_next_part (part : Nat → Nat) (srcp : List Nat) : Int × (Nat → Nat) × List Nat :=
  match skip_slashes srcp with
  | [] => (0, part, srcp)
  | c :: cs =>
    match copy_part (c :: cs) part 0 with
    | (part1, _, _, false) => (-1, part1, srcp)
    | (part1, n, src, true) => (1, Function.update part1 n 0, src)

/-- The null-terminated string in a buffer of `size` bytes: its bytes before the first NUL. -/
def c_string (buf : Nat → Nat) (size : Nat) : List Nat :=
  ((bytes_of buf size).map (fun c => c % 256)).takeWhile (fun c => decide (c ≠ 0))

/-- A string given by its bytes before the terminating NUL: every byte is a character other
than NUL. -/
def CStr (s : List Nat) : Prop := ∀ c ∈ s, 0 < c ∧ c < 256

/-- The name components that successive calls of `get_next_part` give, each read back from
the buffer `part` up to its NUL, until a call returns 0; `none` when a call returns -1 or the
number of calls exceeds `fuel`. -/
def path_parts : Nat → (Nat → Nat) → List Nat → Option (List (List Nat))
  | 0, _, _ => none
  | fuel + 1, part, srcp =>
    match get_next_part part srcp with
    | (res, part1, src) =>
      if res = 0 then some []
      else if res = 1 then
        (path_parts fuel part1 src).map (fun rest => c_string part1 (NAME_MAX + 1) :: rest)
      else none

/-- The string behind the leading slashes of a path. -/
def after_slashes (s : List Nat) : List Nat := s.dropWhile (fun c => decide (c = SLASH))

/-- The first component of a path: the characters behind the leading slashes and before the
next `'/'`. -/
def first_run (s : List Nat) : List Nat :=
  (after_slashes s).takeWhile (fun c => decide (c ≠ SLASH))

/-- What follows the first component of a path. -/
def after_run (s : List Nat) : List Nat :=
  (after_slashes s).dropWhile (fun c => decide (c ≠ SLASH))

/-! ## Directories and the list of open inodes -/

/-- The macro `ROOT_DIR_SECTOR` of `filesys.h`. -/
def ROOT_DIR_SECTOR : Nat := 1

/-- A `struct dir` in the heap: its inode by the address of the handle in the list
`open_inodes`, and `pos`. -/
structure dir_handle where
  inode : Nat
  pos : Int

/-- The `struct dir` that a `struct dir *` points to, with the handle of its inode read from
the list of open inodes; `none` for a dangling pointer. -/
def dir_deref (l : InodeList) (d : dir_handle) : Option dir :=
  (handle_get l d.inode).map (fun ino => dir.mk ino d.pos)

/-- The value `DIR_LOOKUP_FOUND_DIR` of the `enum DIR_LOOKUP_RESULT`. -/
def DIR_LOOKUP_FOUND_DIR : Nat := 0

/-- The value `DIR_LOOKUP_FOUND_FILE` of the `enum DIR_LOOKUP_RESULT`. -/
def DIR_LOOKUP_FOUND_FILE : Nat := 1

/-- The value `DIR_LOOKUP_NOT_FOUND` of the `enum DIR_LOOKUP_RESULT`. -/
def DIR_LOOKUP_NOT_FOUND : Nat := 2

/-- The value `FILESYS_SEARCH_TYPE_FILE` of the `enum filesys_search_type`. -/
def FILESYS_SEARCH_TYPE_FILE : Nat := 0

/-- The value `FILESYS_SEARCH_TYPE_DIR` of the `enum filesys_search_type`. -/
def FILESYS_SEARCH_TYPE_DIR : Nat := 1

/-- The value `FILESYS_SEARCH_TYPE_ANY` of the `enum filesys_search_type`. -/
def FILESYS_SEARCH_TYPE_ANY : Nat := 2

/-- The function `dir_open`; `calloc` is a call of `malloc`. The result `none` stands for the
failed assertion `inode_is_dir (inode)` or a dangling pointer. -/
def dir_open (io : Io) (al : Alloc) (l : InodeList) (inode : Option Nat) :
    Option (Io × Alloc × InodeList × Option dir_handle) :=
  match malloc al with
  | (al1, ok) =>
    match inode with
    | none => some (io, al1, l, none)
    | some a =>
      if ok then
        match handle_get l a with
        | none => none
        | some ino =>
          if inode_is_dir ino then some (io, al1, l, some (dir_handle.mk a 0)) else none
      else
        match inode_close io al1 l (some a) with
        | none => none
        | some (io1, al2, l1) => some (io1, al2, l1, none)

/-- The function `dir_open_root`; `uninit` is the uninitialised buffer of `inode_open`. -/
def dir_open_root (io : Io) (al : Alloc) (l : InodeList) (uninit : Nat → Nat) :
    Option (Io × Alloc × InodeList × Option dir_handle) :=
  match inode_open io al l uninit ROOT_DIR_SECTOR with
  | none => none
  | some (io1, al1, l1, r) => dir_open io1 al1 l1 r

/-- The function `dir_reopen`. -/
def dir_reopen (io : Io) (al : Alloc) (l : InodeList) (a_dir : dir_handle) :
    Option (Io × Alloc × InodeList × Option dir_handle) :=
  match inode_reopen l (some a_dir.inode) with
  | none => none
  | some (l1, r) => dir_open io al l1 r

/-- The function `dir_close` on a directory or on `NULL` (`none`). -/
def dir_close (io : Io) (al : Alloc) (l : InodeList) (a_dir : Option dir_handle) :
    Option (Io × Alloc × InodeList) :=
  match a_dir with
  | none => some (io, al, l)
  | some d => inode_close io al l (some d.inode)

/-- The function `dir_is_root`. -/
def dir_is_root (a_dir : dir) : Bool := decide (inode_get_inumber a_dir.inode = ROOT_DIR_SECTOR)

/-- One iteration of the loop `while (1)` of `dir_lookup`; `uninit` is the content of every
uninitialised buffer. The result is either the state at the label `done` (`ret`, `*inode`,
`next` and `dir`) or the state at the start of the next iteration (`dir`, `next`,
`next_is_dir`, `name_local` and `name_full`). The result `none` stands for a failed assertion,
among them `ASSERT (res != -1)`. -/
def dir_lookup_step (io : Io) (al : Alloc) (l : InodeList) (uninit : Nat → Nat)
    (a_dir : dir_handle) (next : Option Nat) (next_is_dir : Bool) (name_local : Nat → Nat)
    (name_full : List Nat) :
    Option ((Io × Alloc × InodeList × Nat × Option Nat × Option Nat × Option dir_handle) ⊕
      (Io × Alloc × InodeList × dir_handle × Option Nat × Bool × (Nat → Nat) × List Nat)) :=
  match get_next_part name_local name_full with
  | (res, name_local1, name_full1) =>
    if res = -1 then none
    else if res = 0 then
      match next with
      | some n =>
        match inode_reopen l (some n) with
        | none => none
        | some (l1, r) =>
          some (Sum.inl (io, al, l1,
            if next_is_dir then DIR_LOOKUP_FOUND_DIR else DIR_LOOKUP_FOUND_FILE,
            r, next, some a_dir))
      | none => some (Sum.inl (io, al, l, DIR_LOOKUP_NOT_FOUND, none, next, some a_dir))
    else if next.isSome && !next_is_dir then
      some (Sum.inl (io, al, l, DIR_LOOKUP_NOT_FOUND, none, next, some a_dir))
    else
      match dir_deref l a_dir with
      | none => none
      | some dv =>
        match lookup io dv (c_string name_local1 (NAME_MAX + 1)) uninit with
        | none => none
        | some (io1, none) =>
          some (Sum.inl (io1, al, l, DIR_LOOKUP_NOT_FOUND, none, next, some a_dir))
        | some (io1, some (e, _)) =>
          match inode_close io1 al l next with
          | none => none
          | some (io2, al2, l2) =>
            match inode_open io2 al2 l2 uninit (get_u32 e 0) with
            | none => none
            | some (io3, al3, l3, none) =>
              some (Sum.inl (io3, al3, l3, DIR_LOOKUP_NOT_FOUND, none, none, some a_dir))
            | some (io3, al3, l3, some nx) =>
              match handle_get l3 nx with
              | none => none
              | some nino =>
                if inode_is_dir nino then
                  match inode_reopen l3 (some nx) with
                  | none => none
                  | some (l4, next_dir_inode) =>
                    match dir_close io3 al3 l4 (some a_dir) with
                    | none => none
                    | some (io5, al5, l5) =>
                      match dir_open io5 al5 l5 next_dir_inode with
                      | none => none
                      | some (_, _, _, none) => none
                      | some (io6, al6, l6, some nd) =>
                        some (Sum.inr (io6, al6, l6, nd, some nx, true, name_local1,
                          name_full1))
                else
                  some (Sum.inr (io3, al3, l3, a_dir, some nx, next_is_dir, name_local1,
                    name_full1))

/-- The loop `while (1)` of `dir_lookup`; `fuel` bounds the number of iterations. The result
is the state at the label `done`: `ret`, `*inode`, `next` and `dir`. -/
def dir_lookup_loop : Nat → Io → Alloc → InodeList → (Nat → Nat) → dir_handle → Option Nat →
    Bool → (Nat → Nat) → List Nat →
    Option (Io × Alloc × InodeList × Nat × Option Nat × Option Nat × Option dir_handle)
  | 0, _, _, _, _, _, _, _, _, _ => none
  | fuel + 1, io, al, l, uninit, a_dir, next, next_is_dir, name_local, name_full =>
    match dir_lookup_step io al l uninit a_dir next next_is_dir name_local name_full with
    | none => none
    | some (Sum.inl r) => some r
    | some (Sum.inr (io1, al1, l1, dir1, next1, next_is_dir1, name_local1, name_full1)) =>
      dir_lookup_loop fuel io1 al1 l1 uninit dir1 next1 next_is_dir1 name_local1 name_full1

/-- The function `dir_lookup` on a path given by its bytes before the terminating NUL. The
result is the returned value and `*inode`. The loop ends after at most one iteration for every
character of the path and one more. -/
def dir_lookup (io : Io) (al : Alloc) (l : InodeList) (uninit : Nat → Nat) (a_dir : dir_handle)
    (name_full : List Nat) : Option (Io × Alloc × InodeList × Nat × Option Nat) :=
  match dir_reopen io al l a_dir with
  | none => none
  | some (io1, al1, l1, none) => some (io1, al1, l1, DIR_LOOKUP_NOT_FOUND, none)
  | some (io1, al1, l1, some d) =>
    match dir_lookup_loop (name_full.length + 2) io1 al1 l1 uninit d none false uninit
        name_full with
    | none => none
    | some (io2, al2, l2, ret, inode, next, d2) =>
      match inode_close io2 al2 l2 next with
      | none => none
      | some (io3, al3, l3) =>
        match dir_close io3 al3 l3 d2 with
        | none => none
        | some (io4, al4, l4) => some (io4, al4, l4, ret, inode)

/-- In `filesys_search`: the lookup from the current working directory `cwd` of the running
process (`NULL` is `none`), made when the lookup from the root found nothing; `inode` is
the variable `inode` before it. The result is `found`, `is_directory` and `inode`. -/
def filesys_search_cwd (io : Io) (al : Alloc) (l : InodeList) (uninit : Nat → Nat)
    (cwd : Option dir_handle) (a_full_name : List Nat) (inode : Option Nat) :
    Option (Io × Alloc × InodeList × Bool × Bool × Option Nat) :=
  match cwd with
  | none => some (io, al, l, false, false, inode)
  | some c =>
    match dir_deref l c with
    | none => none
    | some cv =>
      if dir_is_root cv then some (io, al, l, false, false, inode)
      else
        match dir_lookup io al l uninit c a_full_name with
        | none => none
        | some (io1, al1, l1, res, inode1) =>
          some (io1, al1, l1, decide (res ≠ DIR_LOOKUP_NOT_FOUND),
            decide (res ≠ DIR_LOOKUP_NOT_FOUND) && decide (res = DIR_LOOKUP_FOUND_DIR), inode1)

/-- The function `filesys_search`; `cwd` is `get_running_pcb ()->cwd`, or `none` when there
is no running process or it has no working directory. -/
def filesys_search (io : Io) (al : Alloc) (l : InodeList) (uninit : Nat → Nat)
    (cwd : Option dir_handle) (a_full_name : List Nat) (a_type : Nat) :
    Option (Io × Alloc × InodeList × Option Nat) :=
  if a_full_name = [SLASH] then inode_open io al l uninit ROOT_DIR_SECTOR
  else
    match dir_open_root io al l uninit with
    | none => none
    | some (io1, al1, l1, root_dir) =>
      let looked : Option (Io × Alloc × InodeList × Nat × Option Nat) :=
        match root_dir with
        | none => some (io1, al1, l1, DIR_LOOKUP_NOT_FOUND, none)
        | some rd => dir_lookup io1 al1 l1 uninit rd a_full_name
      match looked with
      | none => none
      | some (io2, al2, l2, res, inode) =>
        match dir_close io2 al2 l2 root_dir with
        | none => none
        | some (io3, al3, l3) =>
          let second : Option (Io × Alloc × InodeList × Bool × Bool × Option Nat) :=
            if res ≠ DIR_LOOKUP_NOT_FOUND then
              some (io3, al3, l3, true, decide (res = DIR_LOOKUP_FOUND_DIR), inode)
            else filesys_search_cwd io3 al3 l3 uninit cwd a_full_name inode
          match second with
          | none => none
          | some (io4, al4, l4, found, is_directory, inode4) =>
            if found ∧ ((a_type = FILESYS_SEARCH_TYPE_FILE ∧ is_directory = true) ∨
                (a_type = FILESYS_SEARCH_TYPE_DIR ∧ is_directory = false)) then
              match inode_close io4 al4 l4 inode4 with
              | none => none
              | some (io5, al5, l5) => some (io5, al5, l5, none)
            else some (io4, al4, l4, inode4)

/-- The image of an inode with at most one data sector, `data`. -/
def tree_inode (is_dir : Bool) (size : Int) (data : Nat) : Nat → Nat :=
  inode_disk_bytes (inode_data.mk is_dir size (fun _ => 0) (fun i => if i = 0 then data else 0))
    INODE_MAGIC (fun _ => 0)

/-- The image of an in-use directory entry with a name of one character `c` for the inode in
`sector`. -/
def tree_entry (sector c : Nat) : Nat → Nat := fun k =>
  if k = 0 then sector else if k = 4 then c else if k = 19 then 1 else 0

/-- A device with a small tree: the root directory (inode in sector 1, data in sector 2) holds
the directory "d" (inode in sector 3, data in sector 4), which holds the regular files "f"
(inode in sector 5) and "x" (inode in sector 6), both empty. -/
def tree_device : Device := fun s k =>
  if s = 1 then tree_inode true 20 2 k
  else if s = 2 then (if k < 20 then tree_entry 3 100 k else 0)
  else if s = 3 then tree_inode true 40 4 k
  else if s = 4 then
    (if k < 20 then tree_entry 5 102 k else if k < 40 then tree_entry 6 120 (k - 20) else 0)
  else if s = 5 then tree_inode false 0 0 k
  else if s = 6 then tree_inode false 0 0 k
  else 0

/-- An empty cache over `tree_device`, with a timer that always returns 0. -/
def tree_io : Io := Io.mk (buffer_cache_init tree_device (fun _ _ => 0)) (fun _ => 0) 0

/-- An allocator with the sectors 0 to 6 in use. -/
def tree_alloc : Alloc := Alloc.mk (List.replicate 7 true ++ List.replicate 3 false)
  (fun _ => true) 0

/-- A lookup in the small tree from its root: `dir_open_root`, then `dir_lookup` of the path.
The result is the value that `dir_lookup` returns and, when it gives an inode, the flag
`inode_is_dir` and the sector of that inode. -/
def tree_lookup (path : List Nat) : Option (Nat × Option (Bool × Nat)) :=
  match dir_open_root tree_io tree_alloc [] (fun _ => 0) with
  | some (io1, al1, l1, some root_dir) =>
    match dir_lookup io1 al1 l1 (fun _ => 0) root_dir path with
    | none => none
    | some (_, _, l2, ret, inode) =>
      some (ret, match inode with
        | none => none
        | some a => (handle_get l2 a).map (fun ino => (inode_is_dir ino, inode_get_inumber ino)))
  | _ => none

/-- A search in the small tree by `filesys_search`, for a process without a working
directory. The result tells whether the call returns, and for the inode that it returns the
flag `inode_is_dir` and the sector. -/
def tree_search (path : List Nat) (a_type : Nat) : Option (Option (Bool × Nat)) :=
  match filesys_search tree_io tree_alloc [] (fun _ => 0) none path a_type with
  | none => none
  | some (_, _, l1, inode) =>
    some (match inode with
      | none => none
      | some a => (handle_get l1 a).map (fun ino => (inode_is_dir ino, inode_get_inumber ino)))

/-! ## The entries of a directory -/

/-- Number of whole entries that the file of a directory holds. -/
def entry_count (d : inode_data) : Nat := d.size.toNat / sizeof_dir_entry

/-- The local variable `e` after entry number `i` of the directory has been read into it:
the bytes of the entry, and behind them what the memory held (`tail`). -/
def entry_buf (d : inode_data) (D : Nat → Nat → Nat) (i : Nat) (tail : Nat → Nat) :
    Nat → Nat :=
  fun k => if k < sizeof_dir_entry then file_byte d D (sizeof_dir_entry * i + k) else tail k

/-- The test of `lookup` on an entry: in use, and with the name. -/
def entry_matches (name : List Nat) (e : Nat → Nat) : Bool :=
  dir_entry_in_use e && strcmp_eq name (ptr_add e 4)

/-- The first number from `i` on, among `m` numbers, at which `p` holds. -/
def first_match (p : Nat → Bool) : Nat → Nat → Option Nat
  | _, 0 => none
  | i, m + 1 => if p i then some i else first_match p (i + 1) m

/-! ## Listing a directory (`dir_readdir`) -/

/-- The constant `name_cwd`, the name ".", by its bytes before the NUL. -/
def name_cwd : List Nat := [46]

/-- The constant `name_prd`, the name "..", by its bytes before the NUL. -/
def name_prd : List Nat := [46, 46]

/-- The loop of `dir_readdir`; `fuel` bounds the number of iterations, `pos` is `dir->pos`,
`e` the local variable `e` and `name` the buffer of the caller. The result is `dir->pos`, the
buffer `name` and the returned value. The name of the entry is read as a null-terminated
string by `strlcpy`; the result `none` stands for a name without a NUL in the 15 bytes of
`e.name`, where `strlcpy` reads past the member. -/
def dir_readdir_loop : Nat → Io → inode → Int → (Nat → Nat) → (Nat → Nat) →
    Option (Io × Int × (Nat → Nat) × Bool)
  | 0, _, _, _, _, _ => none
  | fuel + 1, io, ino, pos, e, name =>
    match inode_read_at io ino e sizeof_dir_entry pos with
    | none => none
    | some (io1, e1, n) =>
      if to_u32 n = sizeof_dir_entry then
        let pos1 := wrap_int ((to_u32 pos : Int) + sizeof_dir_entry)
        if dir_entry_in_use e1 then
          if strcmp_eq name_cwd (ptr_add e1 4) || strcmp_eq name_prd (ptr_add e1 4) then
            dir_readdir_loop fuel io1 ino pos1 e1 name
          else if (c_string (ptr_add e1 4) (NAME_MAX + 1)).length < NAME_MAX + 1 then
            some (io1, pos1,
              strlcpy name (c_string (ptr_add e1 4) (NAME_MAX + 1)) (NAME_MAX + 1), true)
          else none
        else dir_readdir_loop fuel io1 ino pos1 e1 name
      else some (io1, pos, name, false)

/-- The function `dir_readdir`; `uninit` is the uninitialised local variable `e`. From a
cursor that is not negative the loop ends after at most one iteration for every entry of the
directory and one more. -/
def dir_readdir (io : Io) (a_dir : dir) (uninit : Nat → Nat) (name : Nat → Nat) :
    Option (Io × dir × (Nat → Nat) × Bool) :=
  (dir_readdir_loop ((inode_length a_dir.inode).toNat / sizeof_dir_entry + 2
      + (- a_dir.pos).toNat) io a_dir.inode a_dir.pos uninit name).map
    (fun r => (r.1, { a_dir with pos := r.2.1 }, r.2.2.1, r.2.2.2))

/-- Calls of `dir_readdir` on one directory and one buffer `name` until a call returns false;
`fuel` bounds the number of calls. The result holds the names that the calls left in the
buffer, in the order of the calls. -/
def dir_readdir_all : Nat → Io → dir → (Nat → Nat) → (Nat → Nat) →
    Option (Io × dir × List (List Nat))
  | 0, _, _, _, _ => none
  | fuel + 1, io, a_dir, uninit, name =>
    match dir_readdir io a_dir uninit name with
    | none => none
    | some (io1, dir1, name1, true) =>
      (dir_readdir_all fuel io1 dir1 uninit name1).map
        (fun r => (r.1, r.2.1, c_string name1 (NAME_MAX + 1) :: r.2.2))
    | some (io1, dir1, _, false) => some (io1, dir1, [])

/-- Entry number `i` of a directory: 20 bytes of its file. -/
def entry_at (d : inode_data) (D : Nat → Nat → Nat) (i : Nat) : Nat → Nat :=
  fun k => file_byte d D (sizeof_dir_entry * i + k)

/-- The test of `dir_readdir` on an entry: in use, and named neither "." nor "..". -/
def entry_listed (e : Nat → Nat) : Bool :=
  dir_entry_in_use e &&
    !(strcmp_eq name_cwd (ptr_add e 4) || strcmp_eq name_prd (ptr_add e 4))

/-- The name in an entry: the bytes of `e.name` before the first NUL. -/
def entry_name (e : Nat → Nat) : List Nat := c_string (ptr_add e 4) (NAME_MAX + 1)

/-- The names of the entries of a directory that are in use and named neither "." nor "..",
in the order of the entries. -/
def dir_names (d : inode_data) (D : Nat → Nat → Nat) : List (List Nat) :=
  ((List.range (entry_count d)).filter (fun i => entry_listed (entry_at d D i))).map
    (fun i => entry_name (entry_at d D i))

/-- Every entry of the directory that is in use and named neither "." nor ".." holds a NUL in
the 15 bytes of its name. -/
def NamesEnd (d : inode_data) (D : Nat → Nat → Nat) : Prop :=
  ∀ i, i < entry_count d → entry_listed (entry_at d D i) = true →
    (entry_name (entry_at d D i)).length < NAME_MAX + 1

/-! ## Sequences of `dir_add` -/

/-- Calls of `dir_add` on one directory for a list of names with their sectors, in the order
of the list, until a call returns false. The result is the state after the last call and the
value that it returned. -/
def dir_add_all (junk : Int) (pad u1 u2 : Nat → Nat) :
    Io → Alloc → dir → List (List Nat × Nat) → Option (Io × Alloc × dir × Bool)
  | io, al, a_dir, [] => some (io, al, a_dir, true)
  | io, al, a_dir, (name, s) :: rest =>
    match dir_add junk io al pad u1 u2 a_dir name s with
    | none => none
    | some (io1, al1, dir1, true) => dir_add_all junk pad u1 u2 io1 al1 dir1 rest
    | some (io1, al1, dir1, false) => some (io1, al1, dir1, false)

/-- A new directory of 16 slots (`DIR_DEFAULT_SIZE`) with its inode in sector 1 and its only
data sector in sector 2. -/
def new_dir : dir :=
  dir.mk (inode.mk 1 1 false 0 (inode_data.mk true 320 (fun _ => 0) (fun _ => 2))) 0

/-- An allocator whose free map has the sectors 0, 1 and 2 in use and 90 free sectors behind
them, and whose `malloc` never fails. -/
def dir_alloc : Alloc :=
  Alloc.mk (true :: true :: true :: List.replicate 90 false) (fun _ => true) 0

/-- Thirty names of one character each ("a", "b", ...), with the sectors 10, 11, ... -/
def thirty_names : List (List Nat × Nat) := (List.range 30).map (fun i => ([97 + i], 10 + i))

/-! ## Removing an entry of a directory (`dir_remove`) -/

/-- The loop of `dir_get_active_entries`; `fuel` bounds the number of iterations, `e` is the
local variable `e`, `ofs` the offset and `count` the counter (both `size_t`). -/
def dir_get_active_entries_loop : Nat → Io → inode → (Nat → Nat) → Int → Nat →
    Option (Io × Nat)
  | 0, _, _, _, _, _ => none
  | fuel + 1, io, ino, e, ofs, count =>
    match inode_read_at io ino e sizeof_dir_entry (wrap_int ofs) with
    | none => none
    | some (io1, e1, n) =>
      if to_u32 n = sizeof_dir_entry then
        dir_get_active_entries_loop fuel io1 ino e1 (size_t_add ofs sizeof_dir_entry)
          (if dir_entry_in_use e1 && !strcmp_eq [46] (ptr_add e1 4)
              && !strcmp_eq [46, 46] (ptr_add e1 4) then (count + 1) % 4294967296
            else count)
      else some (io1, count)

/-- The function `dir_get_active_entries`; `uninit` is the uninitialised local variable `e`.
The loop ends after at most one iteration for every entry of the directory and one more. -/
def dir_get_active_entries (io : Io) (a_dir : dir) (uninit : Nat → Nat) : Option (Io × Nat) :=
  dir_get_active_entries_loop ((inode_length a_dir.inode).toNat / sizeof_dir_entry + 2) io
    a_dir.inode uninit 0 0

/-- The function `dir_is_empty`. -/
def dir_is_empty (io : Io) (a_dir : dir) (uninit : Nat → Nat) : Option (Io × Bool) :=
  (dir_get_active_entries io a_dir uninit).map (fun r => (r.1, decide (r.2 = 0)))

/-- In `dir_remove`: the test of a target that is a directory, from `dir_open (inode)` to
`free (dir_to_remove)`; `a` is the handle `inode`. The result is the value of `can_remove`.
The result `none` stands for a failed assertion, among them `ASSERT (a_dir != NULL)` of
`dir_is_empty` when `dir_open` returns `NULL`. -/
def dir_remove_can (io : Io) (al : Alloc) (l : InodeList) (uninit : Nat → Nat) (a : Nat) :
    Option (Io × Alloc × InodeList × Bool) :=
  match dir_open io al l (some a) with
  | none => none
  | some (_, _, _, none) => none
  | some (io1, al1, l1, some dir_to_remove) =>
    match dir_deref l1 dir_to_remove with
    | none => none
    | some tv =>
      match dir_is_empty io1 tv uninit with
      | none => none
      | some (io2, empty) =>
        some (io2, al1, l1,
          empty && !dir_is_root tv && decide (inode_get_open_cnt tv.inode = 1))

/-- In `dir_remove`: from `e.in_use = false` to the end; `a` is the handle `inode`, `e` and
`ofs` are what `lookup` gave. -/
def dir_remove_erase (junk : Int) (io : Io) (al : Alloc) (l : InodeList) (pad : Nat → Nat)
    (a_dir : dir_handle) (e : Nat → Nat) (ofs : Int) (a : Nat) :
    Option (Io × Alloc × InodeList × Bool) :=
  match handle_get l a_dir.inode with
  | none => none
  | some pino =>
    match inode_write_at junk io al pad pino (fun k => if k = 19 then 0 else e k)
        sizeof_dir_entry ofs with
    | none => none
    | some (io1, al1, pino1, n) =>
      let l1 := handle_update l a_dir.inode (fun _ => pino1)
      if to_u32 n ≠ sizeof_dir_entry then
        match inode_close io1 al1 l1 (some a) with
        | none => none
        | some (io2, al2, l2) => some (io2, al2, l2, false)
      else
        match inode_remove l1 a with
        | none => none
        | some l2 =>
          match inode_close io1 al1 l2 (some a) with
          | none => none
          | some (io3, al3, l3) => some (io3, al3, l3, true)

/-- The function `dir_remove` on a directory whose inode is a handle of the list of open
inodes; `uninit1`, `uninit2` and `uninit3` are the uninitialised buffers of `dir_remove`,
`inode_open` and `dir_get_active_entries`, `junk` and `pad` the indeterminate values that
`inode_write_at` may use. The name is given by its bytes before the terminating NUL. -/
def dir_remove (junk : Int) (io : Io) (al : Alloc) (l : InodeList)
    (pad uninit1 uninit2 uninit3 : Nat → Nat) (a_dir : dir_handle) (name : List Nat) :
    Option (Io × Alloc × InodeList × Bool) :=
  match dir_deref l a_dir with
  | none => none
  | some dv =>
    match lookup io dv name uninit1 with
    | none => none
    | some (io1, none) => some (io1, al, l, false)
    | some (io1, some (e, ofs)) =>
      match inode_open io1 al l uninit2 (get_u32 e 0) with
      | none => none
      | some (io2, al2, l2, none) => some (io2, al2, l2, false)
      | some (io2, al2, l2, some a) =>
        match handle_get l2 a with
        | none => none
        | some ino =>
          if inode_is_dir ino then
            match dir_remove_can io2 al2 l2 uninit3 a with
            | none => none
            | some (io3, al3, l3, false) =>
              match inode_close io3 al3 l3 (some a) with
              | none => none
              | some (io4, al4, l4) => some (io4, al4, l4, false)
            | some (io3, al3, l3, true) =>
              dir_remove_erase junk io3 al3 l3 pad a_dir e (wrap_int ofs) a
          else dir_remove_erase junk io2 al2 l2 pad a_dir e (wrap_int ofs) a

/-- The state in which `dir_remove` is called for a name that the directory holds: a
well-formed cache and free map, a `malloc` that does not fail, a list of open inodes whose
handles have different addresses, all from earlier `malloc` calls; the inode `pino` of the
directory is a well-formed handle of the list and a directory, the name has at most 14
bytes, and entry `j` is the first entry of the directory that is in use with the name. -/
structure RemoveCall (io : Io) (al : Alloc) (l : InodeList) (a_dir : dir_handle)
    (pino : inode) (name : List Nat) (j : Nat) : Prop where
  io_inv : IoInv io
  alloc_inv : AllocInv al
  malloc_ok : ∀ k, al.malloc_ok k = true
  addr_nodup : (l.map (fun p => p.1)).Nodup
  addr_lt : ∀ p ∈ l, p.1 < al.malloc_calls
  parent : handle_get l a_dir.inode = some pino
  parent_dir : inode_is_dir pino = true
  parent_inv : HandleInv pino (disk io) al
  name_len : name.length ≤ NAME_MAX
  entry : first_match (fun i => entry_matches name (entry_at pino.block_data (disk io) i)) 0
    (entry_count pino.block_data) = some j

/-- The member `inode_sector` of entry `j` of a directory. -/
def entry_sector (d : inode_data) (D : Nat → Nat → Nat) (j : Nat) : Nat :=
  get_u32 (entry_at d D j) 0

/-- The allocator of the small tree after `n` calls of `malloc`. -/
def tree_alloc_n (n : Nat) : Alloc :=
  Alloc.mk (List.replicate 7 true ++ List.replicate 3 false) (fun _ => true) n

/-- The block data of an inode of the small tree with at most one data sector, `data`. -/
def tree_data (is_dir : Bool) (size : Int) (data : Nat) : inode_data :=
  inode_data.mk is_dir size (fun _ => 0) (fun i => if i = 0 then data else 0)

/-- A handle with one opener for the root directory of the small tree. -/
def root_handle : inode := inode.mk 1 1 false 0 (tree_data true 20 2)

/-- A handle with one opener for the directory "d" of the small tree. -/
def d_handle : inode := inode.mk 3 1 false 0 (tree_data true 40 4)

/-- A handle with one opener for the regular file "f" of the small tree. -/
def f_handle : inode := inode.mk 5 1 false 0 (tree_data false 0 0)

/-! ## The file descriptor table of a process (`process.c`) -/

/-- The macro `MAX_FILE_NAME` of `custom_lists.h`. -/
def MAX_FILE_NAME : Nat := 16

/-- The `struct L_fdt_elem` (its list element is not modelled): the open file by its address,
the id and the recorded name by its bytes before the terminating NUL. -/
structure L_fdt_elem where
  file : Nat
  id : Int
  file_name : List Nat
deriving DecidableEq

/-- The function `generate_fd_id` on the list `a_pcb->fdt`, in list order. -/
def generate_fd_id (fdt : List L_fdt_elem) : Int :=
  fdt.foldl (fun id fdt_e => if fdt_e.id = id then id + 1 else id) 3

/-- The function `process_fd_open`; `malloc_ok` tells whether `malloc` returned a block. The
result is the list and the returned id; `none` stands for the write through the null pointer
that an unchecked `malloc` failure leads to. -/
def process_fd_open (malloc_ok : Bool) (fdt : List L_fdt_elem) (a_file : Nat)
    (a_file_name : List Nat) : Option (List L_fdt_elem × Int) :=
  if malloc_ok then
    let e : L_fdt_elem :=
      { file := a_file
        id := generate_fd_id fdt
        file_name := a_file_name.take (min (strlen a_file_name + 1) MAX_FILE_NAME - 1) }
    some (fdt ++ [e], e.id)
  else none

/-- The function `process_fd_close` (the call of `file_close` is not modelled). The result is
the list and the returned value. -/
def process_fd_close : List L_fdt_elem → Int → List L_fdt_elem × Int
  | [], _ => ([], -1)
  | fdt_e :: rest, a_fd =>
    if fdt_e.id = a_fd then (rest, 0)
    else
      match process_fd_close rest a_fd with
      | (rest1, r) => (fdt_e :: rest1, r)

/-- A call of `process_fd_open` or `process_fd_close` on the table of one process. -/
inductive FdCall where
  | fd_open (a_file : Nat) (a_file_name : List Nat)
  | fd_close (a_fd : Int)

/-- A sequence of calls on the table of one process, with a `malloc` that does not fail. The
result is the table and the values that the calls returned, in the order of the calls. -/
def fd_calls : List L_fdt_elem → List FdCall → List L_fdt_elem × List Int
  | fdt, [] => (fdt, [])
  | fdt, FdCall.fd_open a_file a_file_name :: rest =>
    match process_fd_open true fdt a_file a_file_name with
    | none => (fdt, [])
    | some (fdt1, id) =>
      match fd_calls fdt1 rest with
      | (fdt2, rs) => (fdt2, id :: rs)
  | fdt, FdCall.fd_close a_fd :: rest =>
    match process_fd_close fdt a_fd with
    | (fdt1, r) =>
      match fd_calls fdt1 rest with
      | (fdt2, rs) => (fdt2, r :: rs)

/-! ## The argument list of a command line (`custom_lists.c`) -/

/-- The macro `MAX_INPUT_STR_LEN` of `custom_lists.h`. -/
def MAX_INPUT_STR_LEN : Nat := 1024

/-- The macro `MAX_ARG_SIZE` of `custom_lists.h`. -/
def MAX_ARG_SIZE : Nat := 256

/-- The character `' '`. -/
def SPACE : Nat := 32

/-- The `struct L_arg_elem` (its list element is not modelled): the bytes of the block that
`arg` points to, and `length`. -/
structure L_arg_elem where
  arg : List Nat
  length : Int
deriving DecidableEq

/-- The function `L_arg_emplace`; `a_arg` is the memory from the pointer on, `ok` gives the
outcomes of the successive calls of `malloc` and `calls` counts them. The result is the
counter, the list and the returned value; `none` stands for the failed assertion
`a_arg_len > 0`. -/
def L_arg_emplace (ok : Nat → Bool) (calls : Nat) (a_arg : List Nat) (a_arg_len : Nat)
    (a_L_arg : List L_arg_elem) : Option (Nat × List L_arg_elem × Bool) :=
  if a_arg_len = 0 then none
  else if ok calls = false then some (calls + 1, a_L_arg, false)
  else if ok (calls + 1) = false then some (calls + 2, a_L_arg, false)
  else
    some (calls + 2,
      a_L_arg ++ [{ arg := a_arg.take a_arg_len ++ [0], length := (a_arg_len : Int) + 1 }],
      true)

/-- The list that `L_arg_generate` returns from the label `cleanup`: `NULL` (`none`) behind
the assertion `ASSERT (!success)`, whose failure is the result `none`. -/
def L_arg_cleanup (success : Bool) : Option (Option (List L_arg_elem)) :=
  if success then none else some none

/-- The loop of `L_arg_generate` over the characters from `it` on; `a_in` is the whole input,
`start` the index that `arg_start` points to. The result `Sum.inl` is a return from inside the
loop by `goto cleanup`, the result `Sum.inr` the state behind the loop: the counter of
`malloc`, `arg_len`, `arg_start`, the list and `success`. -/
def L_arg_loop (ok : Nat → Bool) (a_in : List Nat) :
    List Nat → Nat → Nat → Nat → Nat → List L_arg_elem → Bool →
    Option (Option (List L_arg_elem)) ⊕ (Nat × Nat × Nat × List L_arg_elem × Bool)
  | [], _, calls, arg_len, start, L_arg, success =>
    Sum.inr (calls, arg_len, start, L_arg, success)
  | c :: rest, it, calls, arg_len, start, L_arg, success =>
    if c = SPACE then
      if arg_len > 0 then
        match L_arg_emplace ok calls (a_in.drop start) arg_len L_arg with
        | none => Sum.inl none
        | some (_, _, false) => Sum.inl (L_arg_cleanup false)
        | some (calls1, L1, true) => L_arg_loop ok a_in rest (it + 1) calls1 0 (it + 1) L1 true
      else L_arg_loop ok a_in rest (it + 1) calls arg_len (it + 1) L_arg success
    else if arg_len + 1 > MAX_ARG_SIZE then Sum.inl (L_arg_cleanup success)
    else L_arg_loop ok a_in rest (it + 1) calls (arg_len + 1) start L_arg success

/-- The function `L_arg_generate` on the input string by its bytes before the terminating NUL,
or on `NULL` (`none`); `ok` gives the outcomes of the successive calls of `malloc`. The result
is the returned list, `none` for `NULL`; the outer `none` stands for a failed assertion. -/
def L_arg_generate (ok : Nat → Bool) (a_in : Option (List Nat)) :
    Option (Option (List L_arg_elem)) :=
  match a_in with
  | none => some none
  | some s =>
    if strlen s > MAX_INPUT_STR_LEN then some none
    else if strlen s = 0 then some none
    else if ok 0 = false then some none
    else
      match L_arg_loop ok s s 0 1 0 0 [] true with
      | Sum.inl r => r
      | Sum.inr (calls, arg_len, start, L_arg, _) =>
        if arg_len > 0 then
          match L_arg_emplace ok calls (s.drop start) arg_len L_arg with
          | none => none
          | some (_, _, false) => L_arg_cleanup false
          | some (_, L1, true) => some (some L1)
        else some (some L_arg)

/-! ## The locks that `inode_open` takes (`inode.c`, `buffer_cache.c`) -/

/-- The locks of the file system: the lock `open_inodes_mtx` of the list of open inodes, the
lock `mtx_0` of the handle at an address, the lock `lock` of the buffer cache and the
reader-writer lock `lock` of the cache entry with an index. -/
inductive fs_lock where
  | open_inodes_mtx
  | mtx_0 (h : Nat)
  | cache_lock
  | sector_lock (i : Nat)
deriving DecidableEq

/-- A call that acquires or releases a lock. -/
inductive lock_event where
  | acquire (k : fs_lock)
  | release (k : fs_lock)
deriving DecidableEq

/-- The lock calls of `inode_reopen`, in their order. -/
def inode_reopen_locks (h : Option Nat) : List lock_event :=
  match h with
  | none => []
  | some a => [lock_event.acquire (fs_lock.mtx_0 a), lock_event.release (fs_lock.mtx_0 a)]

/-- The lock calls of `cached_sector_flush` on entry `i`. -/
def cached_sector_flush_locks (c : buffer_cache) (i : Nat) : List lock_event :=
  match c.sectors[i]? with
  | none => []
  | some e =>
    if e.last_accessed = INT64_MIN then []
    else [lock_event.acquire (fs_lock.sector_lock i), lock_event.release (fs_lock.sector_lock i)]

/-- The lock calls of `buffer_cache_fetch`, up to the failed assertion when there is one. -/
def buffer_cache_fetch_locks (c : buffer_cache) (a_sector : Nat) (a_load_data : Bool) :
    List lock_event :=
  match fetch_scan a_sector c.sectors 0 none INT64_MAX with
  | ScanResult.hit _ =>
    [lock_event.acquire fs_lock.cache_lock, lock_event.release fs_lock.cache_lock]
  | ScanResult.miss none => [lock_event.acquire fs_lock.cache_lock]
  | ScanResult.miss (some i) =>
    lock_event.acquire fs_lock.cache_lock :: cached_sector_flush_locks c i
      ++ (if a_load_data then
            [lock_event.acquire (fs_lock.sector_lock i),
             lock_event.release (fs_lock.sector_lock i)]
          else [])
      ++ [lock_event.release fs_lock.cache_lock]

/-- The lock calls of `buffer_cache_read`, up to the failed assertion when there is one. -/
def buffer_cache_read_locks (now : Int) (c : buffer_cache) (a_src : Nat) : List lock_event :=
  if a_src = SECTOR_NONE then []
  else
    buffer_cache_fetch_locks c a_src true ++
      match buffer_cache_fetch now c a_src true with
      | none => []
      | some (_, i) =>
        [lock_event.acquire (fs_lock.sector_lock i), lock_event.release (fs_lock.sector_lock i)]

/-- The lock calls of `inode_open` from its entry to its return, in their order. -/
def inode_open_locks (io : Io) (al : Alloc) (l : InodeList) (sector : Nat) : List lock_event :=
  lock_event.acquire fs_lock.open_inodes_mtx ::
    match l.find? (fun p => decide (p.2.sector = sector)) with
    | some p => inode_reopen_locks (some p.1) ++ [lock_event.release fs_lock.open_inodes_mtx]
    | none =>
      match malloc al with
      | (_, false) => []
      | (_, true) =>
        buffer_cache_read_locks (io.ticks io.timer_calls) io.fs_buffer_cache sector
          ++ [lock_event.release fs_lock.open_inodes_mtx]

/-- The locks that are held behind a sequence of lock calls that starts with `held`, most
recent first. -/
def locks_held : List fs_lock → List lock_event → List fs_lock
  | held, [] => held
  | held, lock_event.acquire k :: rest => locks_held (k :: held) rest
  | held, lock_event.release k :: rest => locks_held (held.erase k) rest

/-- The locks that a sequence of lock calls acquires while the lock `k` is held, in the
order of the calls; `held` tells whether `k` is held at the start. -/
def acquired_under (k : fs_lock) : Bool → List lock_event → List fs_lock
  | _, [] => []
  | held, lock_event.acquire j :: rest =>
    if j = k then acquired_under k true rest
    else if held then j :: acquired_under k held rest
    else acquired_under k held rest
  | held, lock_event.release j :: rest =>
    if j = k then acquired_under k false rest else acquired_under k held rest

/-! ## The sectors of a file -/

/-- A sector of a handle: its inode sector, or the sector in a slot of its block map (a data
sector or an index block). -/
def inode_owns (ino : inode) (D : Nat → Nat → Nat) (t : Nat) : Prop :=
  t = ino.sector ∨
    ∃ x, slot_live (bytes_to_sectors ino.block_data.size) x ∧ slot_sector ino.block_data D x = t

/-! ## The parent directory of a path, `dir_mkdir` and `filesys_remove` -/

/-- In `dir_get_parent_dir_by_name`: the loop over `i`, for the indices below the first
argument, from the highest one down; the second argument is the index that `local_name`
points to. The result is `local_name` and, when the loop was left by `break`, the index `i`
of the `'/'` that was overwritten by a NUL. -/
def parent_scan (name : List Nat) : Nat → Nat → Nat × Option Nat
  | 0, local_name => (local_name, none)
  | i + 1, local_name =>
    if name.getD i 0 = SLASH then
      if 1 ≤ i ∧ name.getD (i - 1) 0 ≠ SLASH then (i + 1, some i)
      else parent_scan name i (i + 1)
    else parent_scan name i local_name

/-- The function `dir_get_parent_dir_by_name` on a path given by its bytes before the
terminating NUL; `cwd` is `get_running_pcb ()->cwd` and `uninit` the uninitialised buffer of
every callee. The loop starts at `i = name_len - 2`. The result is the returned directory
(`none` for `NULL`) with the string that `*a_fileNameRet` points to, which is set only when a
directory is returned. -/
def dir_get_parent_dir_by_name (io : Io) (al : Alloc) (l : InodeList) (uninit : Nat → Nat)
    (cwd : Option dir_handle) (a_name : List Nat) :
    Option (Io × Alloc × InodeList × Option (dir_handle × List Nat)) :=
  match malloc al with
  | (al1, false) => some (io, al1, l, none)
  | (al1, true) =>
    match parent_scan a_name (strlen a_name - 1) 0 with
    | (local_name, none) =>
      let opened : Option (Io × Alloc × InodeList × Option dir_handle) :=
        match cwd with
        | some c => dir_reopen io al1 l c
        | none => dir_open_root io al1 l uninit
      match opened with
      | none => none
      | some (io2, al2, l2, ret) =>
        some (io2, al2, l2, ret.map (fun d => (d, a_name.drop local_name)))
    | (local_name, some i) =>
      match filesys_search io al1 l uninit cwd (a_name.take i) FILESYS_SEARCH_TYPE_DIR with
      | none => none
      | some (io2, al2, l2, none) => some (io2, al2, l2, none)
      | some (io2, al2, l2, some res) =>
        match dir_open io2 al2 l2 (some res) with
        | none => none
        | some (io3, al3, l3, ret) =>
          some (io3, al3, l3, ret.map (fun d => (d, a_name.drop local_name)))

/-- The macro `DIR_DEFAULT_SIZE`. -/
def DIR_DEFAULT_SIZE : Nat := 16

/-- The function `dir_create`: the product is a `size_t`, passed as an `off_t`. -/
def dir_create (io : Io) (al : Alloc) (stack : inode_data) (pad : Nat → Nat) (sector : Nat)
    (entry_cnt : Nat) : Option (Io × Alloc × Bool) :=
  inode_create io al stack pad sector
    (wrap_int ((entry_cnt * sizeof_dir_entry % 4294967296 : Nat) : Int)) true

/-- A call `dir_add (dir, name, inode_sector)` on a directory in the heap: `dir_add` works on
the handle `dir->inode` of the list of open inodes. -/
def dir_add_at (junk : Int) (io : Io) (al : Alloc) (l : InodeList) (pad u1 u2 : Nat → Nat)
    (a_dir : dir_handle) (name : List Nat) (inode_sector : Nat) :
    Option (Io × Alloc × InodeList × Bool) :=
  match dir_deref l a_dir with
  | none => none
  | some dv =>
    match dir_add junk io al pad u1 u2 dv name inode_sector with
    | none => none
    | some (io1, al1, dir1, r) =>
      some (io1, al1, handle_update l a_dir.inode (fun _ => dir1.inode), r)

/-- In `dir_mkdir`: from the label `cleanup` to the return. -/
def dir_mkdir_cleanup (io : Io) (al : Alloc) (l : InodeList) (parent_dir : dir_handle)
    (new_dir : Option dir_handle) (success : Bool) (new_dir_sector : Nat) :
    Option (Io × Alloc × InodeList × Bool) :=
  match dir_close io al l (some parent_dir) with
  | none => none
  | some (io1, al1, l1) =>
    match dir_close io1 al1 l1 new_dir with
    | none => none
    | some (io2, al2, l2) =>
      some (io2, if success then al2 else free_map_release al2 new_dir_sector, l2, success)

/-- In `dir_mkdir`: the two calls of `dir_add` on the new directory, for "." and "..". The
result is the value of `success` at the label `cleanup`. -/
def dir_mkdir_fill (junk : Int) (io : Io) (al : Alloc) (l : InodeList) (pad u1 u2 : Nat → Nat)
    (parent_dir new_dir : dir_handle) (new_dir_sector : Nat) :
    Option (Io × Alloc × InodeList × Bool) :=
  match dir_add_at junk io al l pad u1 u2 new_dir name_cwd new_dir_sector with
  | none => none
  | some (io1, al1, l1, false) => some (io1, al1, l1, false)
  | some (io1, al1, l1, true) =>
    match dir_deref l1 parent_dir with
    | none => none
    | some pv =>
      dir_add_at junk io1 al1 l1 pad u1 u2 new_dir name_prd (inode_get_inumber pv.inode)

/-- In `dir_mkdir`: from `free_map_allocate` on, with the directory `parent_dir` and the name
`dir_name` that `dir_get_parent_dir_by_name` gave; `stack` is the uninitialised `disk_inode`
of `inode_create`, `u1`, `u2` and `u3` are the uninitialised buffers of `lookup`, `dir_add`
and `inode_open`. -/
def dir_mkdir_in (junk : Int) (io : Io) (al : Alloc) (l : InodeList) (stack : inode_data)
    (pad u1 u2 u3 : Nat → Nat) (parent_dir : dir_handle) (dir_name : List Nat) :
    Option (Io × Alloc × InodeList × Bool) :=
  match free_map_allocate al with
  | none => (dir_close io al l (some parent_dir)).map (fun r => (r.1, r.2.1, r.2.2, false))
  | some (al1, new_dir_sector) =>
    match dir_create io al1 stack pad new_dir_sector DIR_DEFAULT_SIZE with
    | none => none
    | some (io2, al2, false) =>
      dir_mkdir_cleanup io2 al2 l parent_dir none false new_dir_sector
    | some (io2, al2, true) =>
      match dir_add_at junk io2 al2 l pad u1 u2 parent_dir dir_name new_dir_sector with
      | none => none
      | some (io3, al3, l3, false) =>
        dir_mkdir_cleanup io3 al3 l3 parent_dir none false new_dir_sector
      | some (io3, al3, l3, true) =>
        match inode_open io3 al3 l3 u3 new_dir_sector with
        | none => none
        | some (io4, al4, l4, r) =>
          match dir_open io4 al4 l4 r with
          | none => none
          | some (io5, al5, l5, none) =>
            dir_mkdir_cleanup io5 al5 l5 parent_dir none false new_dir_sector
          | some (io5, al5, l5, some new_dir) =>
            match dir_mkdir_fill junk io5 al5 l5 pad u1 u2 parent_dir new_dir
                new_dir_sector with
            | none => none
            | some (io6, al6, l6, success) =>
              dir_mkdir_cleanup io6 al6 l6 parent_dir (some new_dir) success new_dir_sector

/-- The function `dir_mkdir` on a path given by its bytes before the terminating NUL; `cwd` is
`get_running_pcb ()->cwd`. -/
def dir_mkdir (junk : Int) (io : Io) (al : Alloc) (l : InodeList) (stack : inode_data)
    (pad u1 u2 u3 : Nat → Nat) (cwd : Option dir_handle) (a_full_name : List Nat) :
    Option (Io × Alloc × InodeList × Bool) :=
  match dir_get_parent_dir_by_name io al l u3 cwd a_full_name with
  | none => none
  | some (io1, al1, l1, none) => some (io1, al1, l1, false)
  | some (io1, al1, l1, some (parent_dir, dir_name)) =>
    dir_mkdir_in junk io1 al1 l1 stack pad u1 u2 u3 parent_dir dir_name

/-- The function `filesys_remove` on a path given by its bytes before the terminating NUL;
`cwd` is `get_running_pcb ()->cwd`. -/
def filesys_remove (junk : Int) (io : Io) (al : Alloc) (l : InodeList)
    (pad u1 u2 u3 : Nat → Nat) (cwd : Option dir_handle) (full_name : List Nat) :
    Option (Io × Alloc × InodeList × Bool) :=
  match dir_get_parent_dir_by_name io al l u2 cwd full_name with
  | none => none
  | some (io1, al1, l1, none) => some (io1, al1, l1, false)
  | some (io1, al1, l1, some (a_dir, real_name)) =>
    match dir_remove junk io1 al1 l1 pad u1 u2 u3 a_dir real_name with
    | none => none
    | some (io2, al2, l2, success) =>
      (dir_close io2 al2 l2 (some a_dir)).map (fun r => (r.1, r.2.1, r.2.2, success))

/-- The parent directory and the last component that `dir_get_parent_dir_by_name` gives for a
path in the small tree, for a process without a working directory: the sector of the inode of
the directory, and the name. -/
def tree_parent (path : List Nat) : Option (Option (Nat × List Nat)) :=
  match dir_get_parent_dir_by_name tree_io tree_alloc [] (fun _ => 0) none path with
  | none => none
  | some (_, _, _, none) => some none
  | some (_, _, l1, some (d, name)) =>
    some ((handle_get l1 d.inode).map (fun ino => (inode_get_inumber ino, name)))

/-- A call of `dir_mkdir` in the small tree, for a process without a working directory: the
returned value and the free map after the call. -/
def tree_mkdir (path : List Nat) : Option (Bool × List Bool) :=
  (dir_mkdir 0 tree_io tree_alloc [] (inode_data.mk false 0 (fun _ => 0) (fun _ => 0))
    (fun _ => 0) (fun _ => 0) (fun _ => 0) (fun _ => 0) none path).map
    (fun r => (r.2.2.2, r.2.1.free_map))

/-- A device with a full root directory: its inode in sector 1, and in its data sector 2 the
24 entries "a" to "x" for the sectors 10 to 33, all in use. -/
def full_device : Device := fun s k =>
  if s = 1 then tree_inode true 480 2 k
  else if s = 2 then (if k < 480 then tree_entry (10 + k / 20) (97 + k / 20) (k % 20) else 0)
  else 0

/-- An empty cache over `full_device`, with a timer that always returns 0. -/
def full_io : Io := Io.mk (buffer_cache_init full_device (fun _ _ => 0)) (fun _ => 0) 0

/-- An allocator with the sectors 0 to 33 in use and 6 free sectors. -/
def full_alloc : Alloc := Alloc.mk (List.replicate 34 true ++ List.replicate 6 false)
  (fun _ => true) 0

/-- On the device with the full root directory, for a process without a working directory:
`dir_mkdir` of a path, then `filesys_remove` of the same path. The result holds the two
returned values and the free map after each of the two calls. -/
def full_mkdir_remove (path : List Nat) : Option (Bool × List Bool × Bool × List Bool) :=
  match dir_mkdir 0 full_io full_alloc [] (inode_data.mk false 0 (fun _ => 0) (fun _ => 0))
      (fun _ => 0) (fun _ => 0) (fun _ => 0) (fun _ => 0) none path with
  | none => none
  | some (io1, al1, l1, r1) =>
    match filesys_remove 0 io1 al1 l1 (fun _ => 0) (fun _ => 0) (fun _ => 0) (fun _ => 0)
        none path with
    | none => none
    | some (_, al2, _, r2) => some (r1, al1.free_map, r2, al2.free_map)

/-- Number of sectors that `dir_add` allocates to store one more entry in a directory: none
when the directory has an entry that is not in use, and else what the growth of its file by
`DIR_RESIZE_STEP` entries needs (`grow_need`), which is zero when the new entries fit into
the last sector. -/
def parent_need (d : inode_data) (D : Nat → Nat → Nat) : Nat :=
  match first_match (fun j => !dir_entry_in_use (entry_at d D j)) 0 (entry_count d) with
  | some _ => 0
  | none => grow_need (bytes_to_sectors d.size)
      (bytes_to_sectors ((20 * (entry_count d + 8) : Nat) : Int) - bytes_to_sectors d.size)

/-- The state in which `dir_mkdir` reaches `free_map_allocate` with the directory
`parent_dir` and the name `name`: a well-formed cache and free map, a `malloc` that does not
fail, a list of open inodes whose handles have different addresses, all from earlier `malloc`
calls, and sectors that are marked in use; the inode `pino` of the directory is a well-formed
handle of the list with writes allowed, which is not marked removed when `parent_dir` is its
only opener; the name has 1 to 14 bytes, none of them NUL, and no entry in use holds it; when
every entry of the parent is in use, the parent with eight entries more is within the largest
file size; and there are two free sectors more than `dir_add` needs for the entry in the
parent (`parent_need`). -/
structure MkdirCall (io : Io) (al : Alloc) (l : InodeList) (parent_dir : dir_handle)
    (pino : inode) (name : List Nat) : Prop where
  io_inv : IoInv io
  alloc_inv : AllocInv al
  malloc_ok : ∀ k, al.malloc_ok k = true
  addr_nodup : (l.map (fun p => p.1)).Nodup
  addr_lt : ∀ p ∈ l, p.1 < al.malloc_calls
  sector_used : ∀ p ∈ l, in_use al p.2.sector
  parent : handle_get l parent_dir.inode = some pino
  parent_inv : HandleInv pino (disk io) al
  parent_deny : pino.deny_write_cnt = 0
  parent_open : 1 ≤ pino.open_cnt
  parent_kept : pino.open_cnt = 1 → pino.removed = false
  name_ne : name ≠ []
  name_len : name.length ≤ NAME_MAX
  name_str : CStr name
  absent : ∀ i, i < entry_count pino.block_data →
    entry_matches name (entry_at pino.block_data (disk io) i) = false
  size_max : first_match (fun j => !dir_entry_in_use (entry_at pino.block_data (disk io) j)) 0
      (entry_count pino.block_data) = none →
    20 * (entry_count pino.block_data + 8) ≤ MAX_BYTES
  free : parent_need pino.block_data (disk io) + 2 ≤ free_count al.free_map

/-- The list of open inodes after `dir_mkdir` has closed the directory `parent_dir`, whose
handle has the block data `pd` then: the handle has left the list when `parent_dir` was its
only opener, and has one opener less otherwise. -/
def closed_parent (l : InodeList) (parent_dir : dir_handle) (pino : inode) (pd : inode_data) :
    InodeList :=
  if pino.open_cnt = 1 then l.filter (fun p => decide (p.1 ≠ parent_dir.inode))
  else handle_update l parent_dir.inode
    (fun _ => { pino with block_data := pd, open_cnt := pino.open_cnt - 1 })

/-- A cache over a zero-filled device in which every entry is in use and dirty: entry `i`
holds sector `i` with the bytes 9, last accessed at the time `i + 1`. -/
def busy_cache : buffer_cache :=
  { block_device := fun _ _ => 0
    num_hit := 0
    num_miss := 64
    sectors := (List.range BUFFER_CACHE_SIZE).map (fun i =>
      { sector_idx := i, dirty := true, last_accessed := (i : Int) + 1, data := fun _ => 9 }) }

/-- The state in which a later `filesys_remove` has resolved its path, seen from the state
`io1`, `al1` that `dir_mkdir` or `filesys_create` left behind: the disk content and the free
map are the same, `malloc` does not fail, the handles of the list have different addresses
from earlier `malloc` calls, the directory `a_dir` that the resolution returned is a handle
`pino2` of the list for the inode in sector `psector` with the block data `pd` and with writes
allowed, which is not marked removed when `a_dir` is its only opener, and the new inode, in
sector `s`, has no handle in the list. -/
structure ResolvedAgain (io1 : Io) (al1 : Alloc) (psector : Nat) (pd : inode_data) (s : Nat)
    (io2 : Io) (al2 : Alloc) (l2 : InodeList) (a_dir : dir_handle) (pino2 : inode) :
    Prop where
  io_inv : IoInv io2
  same_disk : disk io2 = disk io1
  same_map : al2.free_map = al1.free_map
  malloc_ok : ∀ k, al2.malloc_ok k = true
  addr_nodup : (l2.map (fun p => p.1)).Nodup
  addr_lt : ∀ p ∈ l2, p.1 < al2.malloc_calls
  parent : handle_get l2 a_dir.inode = some pino2
  parent_sector : pino2.sector = psector
  parent_data : pino2.block_data = pd
  parent_deny : pino2.deny_write_cnt = 0
  parent_open : 1 ≤ pino2.open_cnt
  parent_kept : pino2.open_cnt = 1 → pino2.removed = false
  closed : ∀ p ∈ l2, p.2.sector ≠ s

/-! ## `filesys_create` (`filesys.c`) -/

/-- In `filesys_create`: from the test of `success` behind `dir_add` to the return: the inode
sector is released when the creation failed and `inode_sector` is not 0, then the directory
is closed. -/
def filesys_create_done (io : Io) (al : Alloc) (l : InodeList) (dir : dir_handle)
    (success : Bool) (inode_sector : Nat) : Option (Io × Alloc × InodeList × Bool) :=
  (dir_close io
      (if success = false ∧ inode_sector ≠ 0 then free_map_release al inode_sector else al)
      l (some dir)).map (fun r => (r.1, r.2.1, r.2.2, success))

/-- In `filesys_create`: from `free_map_allocate` on, with the directory `dir` and the name
`file_name` that `dir_get_parent_dir_by_name` gave; `stack` is the uninitialised `disk_inode`
of `inode_create`, `u1` and `u2` are the uninitialised buffers of `lookup` and `dir_add`.
When `free_map_allocate` fails, `inode_sector` is still 0 and nothing is released. -/
def filesys_create_in (junk : Int) (io : Io) (al : Alloc) (l : InodeList) (stack : inode_data)
    (pad u1 u2 : Nat → Nat) (dir : dir_handle) (file_name : List Nat) (initial_size : Int) :
    Option (Io × Alloc × InodeList × Bool) :=
  match free_map_allocate al with
  | none => filesys_create_done io al l dir false 0
  | some (al1, inode_sector) =>
    match inode_create io al1 stack pad inode_sector initial_size false with
    | none => none
    | some (io2, al2, false) => filesys_create_done io2 al2 l dir false inode_sector
    | some (io2, al2, true) =>
      match dir_add_at junk io2 al2 l pad u1 u2 dir file_name inode_sector with
      | none => none
      | some (io3, al3, l3, success) => filesys_create_done io3 al3 l3 dir success inode_sector

/-- The function `filesys_create` on a path given by its bytes before the terminating NUL;
`cwd` is `get_running_pcb ()->cwd` and `u3` the uninitialised buffer of the resolution. When
no directory is found, `success` is false, `inode_sector` is 0 and `dir_close (NULL)` does
nothing. -/
def filesys_create (junk : Int) (io : Io) (al : Alloc) (l : InodeList) (stack : inode_data)
    (pad u1 u2 u3 : Nat → Nat) (cwd : Option dir_handle) (a_full_name : List Nat)
    (initial_size : Int) : Option (Io × Alloc × InodeList × Bool) :=
  match dir_get_parent_dir_by_name io al l u3 cwd a_full_name with
  | none => none
  | some (io1, al1, l1, none) =>
    (dir_close io1 al1 l1 none).map (fun r => (r.1, r.2.1, r.2.2, false))
  | some (io1, al1, l1, some (dir, file_name)) =>
    filesys_create_in junk io1 al1 l1 stack pad u1 u2 dir file_name initial_size

/-- The state in which `filesys_create` reaches `free_map_allocate` with the directory `a_dir`
and the name `name`, for a file of `initial_size` bytes: as `MkdirCall`, with a size from 0 to
the largest file size and as many free sectors as the file, its inode and the entry in the
directory need. -/
structure CreateCall (io : Io) (al : Alloc) (l : InodeList) (a_dir : dir_handle)
    (pino : inode) (name : List Nat) (initial_size : Int) : Prop where
  io_inv : IoInv io
  alloc_inv : AllocInv al
  malloc_ok : ∀ k, al.malloc_ok k = true
  addr_nodup : (l.map (fun p => p.1)).Nodup
  addr_lt : ∀ p ∈ l, p.1 < al.malloc_calls
  sector_used : ∀ p ∈ l, in_use al p.2.sector
  parent : handle_get l a_dir.inode = some pino
  parent_inv : HandleInv pino (disk io) al
  parent_deny : pino.deny_write_cnt = 0
  parent_open : 1 ≤ pino.open_cnt
  parent_kept : pino.open_cnt = 1 → pino.removed = false
  name_ne : name ≠ []
  name_len : name.length ≤ NAME_MAX
  name_str : CStr name
  absent : ∀ i, i < entry_count pino.block_data →
    entry_matches name (entry_at pino.block_data (disk io) i) = false
  size_max : first_match (fun j => !dir_entry_in_use (entry_at pino.block_data (disk io) j)) 0
      (entry_count pino.block_data) = none →
    20 * (entry_count pino.block_data + 8) ≤ MAX_BYTES
  size_nonneg : 0 ≤ initial_size
  size_le : initial_size ≤ MAX_BYTES
  free : parent_need pino.block_data (disk io)
    + (bytes_to_sectors initial_size + l1_count (bytes_to_sectors initial_size)
      + l2_count (bytes_to_sectors initial_size) + 1) ≤ free_count al.free_map

/-- An allocator for the small tree with the sectors 0 to 6 in use and 120 free sectors, after
`n` calls of `malloc`. -/
def roomy_alloc (n : Nat) : Alloc :=
  Alloc.mk (List.replicate 7 true ++ List.replicate 120 false) (fun _ => true) n

/-- On the device with the full root directory, for a process without a working directory:
`filesys_create` of a path with a size, the file opened by `filesys_search` and closed by
`inode_close` (what `filesys_open` and `file_close` do to the inode), then `filesys_remove`
of the path. The result holds the values that `filesys_create` and `filesys_remove` return
and the free map after each of the two. -/
def full_create_remove (path : List Nat) (initial_size : Int) :
    Option (Bool × List Bool × Bool × List Bool) :=
  match filesys_create 0 full_io full_alloc [] (inode_data.mk false 0 (fun _ => 0) (fun _ => 0))
      (fun _ => 0) (fun _ => 0) (fun _ => 0) (fun _ => 0) none path initial_size with
  | none => none
  | some (io1, al1, l1, r1) =>
    match filesys_search io1 al1 l1 (fun _ => 0) none path FILESYS_SEARCH_TYPE_ANY with
    | none => none
    | some (io2, al2, l2, inode) =>
      match inode_close io2 al2 l2 inode with
      | none => none
      | some (io3, al3, l3) =>
        match filesys_remove 0 io3 al3 l3 (fun _ => 0) (fun _ => 0) (fun _ => 0) (fun _ => 0)
            none path with
        | none => none
        | some (_, al4, _, r2) => some (r1, al1.free_map, r2, al4.free_map)

/-! ## Calls on a path with a directory in front of the name -/

/-- In the small tree, for a process without a working directory: `dir_mkdir` of a path, then
`filesys_remove` of the same path. The result holds the two returned values and the free map
after each of the two calls. -/
def tree_mkdir_remove (path : List Nat) : Option (Bool × List Bool × Bool × List Bool) :=
  match dir_mkdir 0 tree_io tree_alloc [] (inode_data.mk false 0 (fun _ => 0) (fun _ => 0))
      (fun _ => 0) (fun _ => 0) (fun _ => 0) (fun _ => 0) none path with
  | none => none
  | some (io1, al1, l1, r1) =>
    match filesys_remove 0 io1 al1 l1 (fun _ => 0) (fun _ => 0) (fun _ => 0) (fun _ => 0)
        none path with
    | none => none
    | some (_, al2, _, r2) => some (r1, al1.free_map, r2, al2.free_map)

/-- In the small tree, for a process without a working directory: `filesys_create` of a path
with a size, the file opened by `filesys_search` and closed by `inode_close`, then
`filesys_remove` of the path. The result holds the values that `filesys_create` and
`filesys_remove` return and the free map after each of the two. -/
def tree_create_remove (path : List Nat) (initial_size : Int) :
    Option (Bool × List Bool × Bool × List Bool) :=
  match filesys_create 0 tree_io tree_alloc [] (inode_data.mk false 0 (fun _ => 0) (fun _ => 0))
      (fun _ => 0) (fun _ => 0) (fun _ => 0) (fun _ => 0) none path initial_size with
  | none => none
  | some (io1, al1, l1, r1) =>
    match filesys_search io1 al1 l1 (fun _ => 0) none path FILESYS_SEARCH_TYPE_ANY with
    | none => none
    | some (io2, al2, l2, inode) =>
      match inode_close io2 al2 l2 inode with
      | none => none
      | some (io3, al3, l3) =>
        match filesys_remove 0 io3 al3 l3 (fun _ => 0) (fun _ => 0) (fun _ => 0) (fun _ => 0)
            none path with
        | none => none
        | some (_, al4, _, r2) => some (r1, al1.free_map, r2, al4.free_map)

/-! ## A directory with the entries "." and ".." -/

/-- A device whose sector 2 holds five directory entries: "." and ".." for the inode in
sector 1, an entry that is not in use and still holds the name "q", then "b" for the inode in
sector 3 and "a" for the inode in sector 4. -/
def listing_device : Device := fun s k =>
  if s = 2 then
    [1, 0, 0, 0, 46, 0, 0, 0, 0, 0, 0, 0, 0, 0, 0, 0, 0, 0, 0, 1,
     1, 0, 0, 0, 46, 46, 0, 0, 0, 0, 0, 0, 0, 0, 0, 0, 0, 0, 0, 1,
     0, 0, 0, 0, 113, 0, 0, 0, 0, 0, 0, 0, 0, 0, 0, 0, 0, 0, 0, 0,
     3, 0, 0, 0, 98, 0, 0, 0, 0, 0, 0, 0, 0, 0, 0, 0, 0, 0, 0, 1,
     4, 0, 0, 0, 97, 0, 0, 0, 0, 0, 0, 0, 0, 0, 0, 0, 0, 0, 0, 1].getD k 0
  else 0

/-- An empty cache over `listing_device`, with a timer that always returns 0. -/
def listing_io : Io := Io.mk (buffer_cache_init listing_device (fun _ _ => 0)) (fun _ => 0) 0

/-- The directory of five entries with its inode in sector 1 and its only data sector in
sector 2. -/
def listing_dir : dir :=
  dir.mk (inode.mk 1 1 false 0 (inode_data.mk true 100 (fun _ => 0) (fun _ => 2))) 0

/-! # Theorems -/

/-! ## Buffer cache -/

theorem fetch_scan_hit (s : Nat) (l : List cached_sector) :
    ∀ (i : Nat) (lru : Option Nat) (acc : Int) (k : Nat),
      fetch_scan s l i lru acc = ScanResult.hit k →
      i ≤ k ∧ ∃ e, l[k - i]? = some e ∧ e.sector_idx = s := by
  induction l with
  | nil => intro i lru acc k h; simp [fetch_scan] at h
  | cons x xs ih =>
    intro i lru acc k h
    unfold fetch_scan at h
    split at h
    · rename_i hx
      simp only [ScanResult.hit.injEq] at h
      subst h
      exact ⟨le_refl _, x, by simp, hx⟩
    · split at h
      · obtain ⟨h1, e, h2, h3⟩ := ih _ _ _ _ h
        refine ⟨by omega, e, ?_, h3⟩
        have : k - i = (k - (i + 1)) + 1 := by omega
        rw [this]; simpa using h2
      · obtain ⟨h1, e, h2, h3⟩ := ih _ _ _ _ h
        refine ⟨by omega, e, ?_, h3⟩
        have : k - i = (k - (i + 1)) + 1 := by omega
        rw [this]; simpa using h2

theorem fetch_scan_miss (s : Nat) (l : List cached_sector) :
    ∀ (i : Nat) (lru : Option Nat) (acc : Int) (r : Option Nat),
      fetch_scan s l i lru acc = ScanResult.miss r →
      (∀ e ∈ l, e.sector_idx ≠ s) ∧
      ((r = lru ∧ ∀ e ∈ l, acc ≤ e.last_accessed) ∨ ∃ k, r = some k ∧ i ≤ k ∧ k < i + l.length) := by
  induction l with
  | nil =>
    intro i lru acc r h
    simp only [fetch_scan, ScanResult.miss.injEq] at h
    subst h
    simp
  | cons x xs ih =>
    intro i lru acc r h
    unfold fetch_scan at h
    split at h
    · simp at h
    · rename_i hx
      split at h
      · rename_i hlt
        obtain ⟨h1, h2⟩ := ih _ _ _ _ h
        refine ⟨?_, ?_⟩
        · intro e he
          rcases List.mem_cons.mp he with rfl | he
          · exact hx
          · exact h1 e he
        · right
          rcases h2 with ⟨h2, _⟩ | ⟨k, h2, h3, h4⟩
          · exact ⟨i, h2, le_refl _, by simp⟩
          · exact ⟨k, h2, by omega, by simp; omega⟩
      · rename_i hlt
        obtain ⟨h1, h2⟩ := ih _ _ _ _ h
        refine ⟨?_, ?_⟩
        · intro e he
          rcases List.mem_cons.mp he with rfl | he
          · exact hx
          · exact h1 e he
        · rcases h2 with ⟨h2, h3⟩ | ⟨k, h2, h3, h4⟩
          · left
            refine ⟨h2, ?_⟩
            intro e he
            rcases List.mem_cons.mp he with rfl | he
            · omega
            · exact h3 e he
          · right
            exact ⟨k, h2, by omega, by simp; omega⟩

theorem view_of_entry {c : buffer_cache} (hu : ∀ (i j : Nat) (ei ej : cached_sector),
      c.sectors[i]? = some ei → c.sectors[j]? = some ej →
      ei.sector_idx = ej.sector_idx → ei.sector_idx ≠ SECTOR_NONE → i = j)
    {i : Nat} {e : cached_sector} {s : Nat}
    (he : c.sectors[i]? = some e) (hs : e.sector_idx = s) (hn : s ≠ SECTOR_NONE) :
    view c s = e.data := by
  unfold view cache_lookup
  cases hf : List.find? (fun e => decide (e.sector_idx = s)) c.sectors with
  | none =>
    rw [List.find?_eq_none] at hf
    have hm : e ∈ c.sectors := List.mem_iff_getElem?.mpr ⟨i, he⟩
    exact absurd (by simpa using hs) (hf e hm)
  | some x =>
    have hx := List.find?_some hf
    have hm := List.mem_of_find?_eq_some hf
    obtain ⟨j, hj⟩ := List.mem_iff_getElem?.mp hm
    simp only [decide_eq_true_eq] at hx
    have hij := hu i j e x he hj (by rw [hs, hx]) (by rw [hs]; exact hn)
    subst hij
    rw [he] at hj
    cases hj
    rfl

theorem view_of_no_entry {c : buffer_cache} {s : Nat}
    (h : ∀ (i : Nat) (e : cached_sector), c.sectors[i]? = some e → e.sector_idx ≠ s) :
    view c s = c.block_device s := by
  unfold view cache_lookup
  have : List.find? (fun e => decide (e.sector_idx = s)) c.sectors = none := by
    rw [List.find?_eq_none]
    intro x hx
    obtain ⟨j, hj⟩ := List.mem_iff_getElem?.mp hx
    simpa using h j x hj
  rw [this]

/-- Replacing entry `j` by an entry for sector `s`: the general step behind a fetch followed by
the caller's copy. -/
theorem replace_spec {c c' : buffer_cache} (hinv : CacheInv c) {j : Nat} {e e' : cached_sector}
    {s : Nat} (hs : s ≠ SECTOR_NONE)
    (hj : c.sectors[j]? = some e)
    (hsec : c'.sectors = c.sectors.set j e')
    (hes : e'.sector_idx = s)
    (hone : ∀ (i : Nat) (x : cached_sector), c.sectors[i]? = some x → x.sector_idx = s → i = j)
    (htime : e'.last_accessed < INT64_MAX ∧ (e'.last_accessed = INT64_MIN → e'.dirty = false))
    (hdev : ∀ s', s' ≠ e.sector_idx → c'.block_device s' = c.block_device s')
    (hev : e.sector_idx ≠ SECTOR_NONE → e.sector_idx ≠ s →
      ∀ k, k < BLOCK_SECTOR_SIZE → c'.block_device e.sector_idx k = e.data k)
    (hcl : e'.dirty = false → ∀ k, k < BLOCK_SECTOR_SIZE → e'.data k = c'.block_device s k) :
    CacheInv c' ∧ ∀ s', s' ≠ SECTOR_NONE → ∀ k, k < BLOCK_SECTOR_SIZE →
      view c' s' k = if s' = s then e'.data k else view c s' k := by
  have hjlt : j < c.sectors.length := by
    obtain ⟨h, _⟩ := List.getElem?_eq_some.mp hj; exact h
  have hget : ∀ i, c'.sectors[i]? = if j = i then some e' else c.sectors[i]? := by
    intro i
    rw [hsec, List.getElem?_set]
    simp [hjlt]
  have huniq : ∀ (i1 i2 : Nat) (x1 x2 : cached_sector), c'.sectors[i1]? = some x1 →
      c'.sectors[i2]? = some x2 → x1.sector_idx = x2.sector_idx →
      x1.sector_idx ≠ SECTOR_NONE → i1 = i2 := by
    intro i1 i2 x1 x2 h1 h2 h12 hne
    rw [hget] at h1 h2
    by_cases c1 : j = i1 <;> by_cases c2 : j = i2
    · omega
    · rw [if_pos c1] at h1
      rw [if_neg c2] at h2
      cases h1
      have := hone i2 x2 h2 (by rw [← h12, hes])
      omega
    · rw [if_neg c1] at h1
      rw [if_pos c2] at h2
      cases h2
      have := hone i1 x1 h1 (by rw [h12, hes])
      omega
    · rw [if_neg c1] at h1
      rw [if_neg c2] at h2
      exact hinv.uniq i1 i2 x1 x2 h1 h2 h12 hne
  have hinv' : CacheInv c' := by
    refine ⟨?_, huniq, ?_, ?_, ?_, ?_⟩
    · intro h
      have := hget j
      rw [h] at this
      simp at this
    · intro i x hx hd hne k hk
      rw [hget] at hx
      by_cases c1 : j = i
      · rw [if_pos c1] at hx
        cases hx
        rw [hes]
        exact hcl hd k hk
      · rw [if_neg c1] at hx
        rw [hinv.clean i x hx hd hne k hk]
        rw [hdev]
        intro heq
        exact c1 (hinv.uniq i j x e hx hj heq hne).symm
    · intro i x hx hm
      rw [hget] at hx
      by_cases c1 : j = i
      · rw [if_pos c1] at hx
        cases hx
        exact htime.2 hm
      · rw [if_neg c1] at hx
        exact hinv.unused_clean i x hx hm
    · intro i x hx hm
      rw [hget] at hx
      by_cases c1 : j = i
      · rw [if_pos c1] at hx
        cases hx
        rw [hes] at hm
        exact absurd hm hs
      · rw [if_neg c1] at hx
        exact hinv.none_clean i x hx hm
    · intro i x hx
      rw [hget] at hx
      by_cases c1 : j = i
      · rw [if_pos c1] at hx
        cases hx
        exact htime.1
      · rw [if_neg c1] at hx
        exact hinv.bounded i x hx
  refine ⟨hinv', ?_⟩
  intro s' hs' k hk
  by_cases c0 : s' = s
  · subst c0
    simp only [if_true]
    rw [view_of_entry hinv'.uniq (i := j) (e := e') (by rw [hget]; simp) hes hs']
  · simp only [c0, if_false]
    by_cases c1 : ∃ i x, i ≠ j ∧ c.sectors[i]? = some x ∧ x.sector_idx = s'
    · obtain ⟨i, x, hij, hx, hxs⟩ := c1
      rw [view_of_entry hinv'.uniq (i := i) (e := x)
        (by rw [hget]; simp [Ne.symm hij, hx]) hxs hs']
      rw [view_of_entry hinv.uniq hx hxs hs']
    · have hno : ∀ (i : Nat) (x : cached_sector), c'.sectors[i]? = some x →
          x.sector_idx ≠ s' := by
        intro i x hx hxs
        rw [hget] at hx
        by_cases c2 : j = i
        · rw [if_pos c2] at hx
          cases hx
          exact c0 (by rw [← hxs, hes])
        · rw [if_neg c2] at hx
          exact c1 ⟨i, x, fun h => c2 h.symm, hx, hxs⟩
      rw [view_of_no_entry hno]
      by_cases c3 : e.sector_idx = s'
      · rw [view_of_entry hinv.uniq hj c3 hs']
        rw [← c3]
        exact hev (by rw [c3]; exact hs') (by rw [c3]; exact c0) k hk
      · rw [hdev s' (fun h => c3 h.symm)]
        rw [view_of_no_entry]
        intro i x hx hxs
        by_cases c2 : i = j
        · subst c2
          rw [hj] at hx
          cases hx
          exact c3 hxs
        · exact c1 ⟨i, x, c2, hx, hxs⟩

theorem entry_update_of_get {l : List cached_sector} {i : Nat} {e : cached_sector}
    (h : l[i]? = some e) (f : cached_sector → cached_sector) :
    entry_update l i f = l.set i (f e) := by
  unfold entry_update
  rw [h]

theorem getElem?_set_self_of_get {l : List cached_sector} {i : Nat} {e : cached_sector}
    (h : l[i]? = some e) (a : cached_sector) : (l.set i a)[i]? = some a := by
  obtain ⟨hlt, _⟩ := List.getElem?_eq_some.mp h
  rw [List.getElem?_set]
  simp [hlt]

/-- What `buffer_cache_fetch` does, in terms of the entry `j` it returns: `e` is the entry before
the call and `e1` the entry after it. -/
theorem buffer_cache_fetch_spec {c : buffer_cache} (hinv : CacheInv c) (now : Int)
    {s : Nat} (hs : s ≠ SECTOR_NONE) (load : Bool) :
    ∃ c1 j e e1, buffer_cache_fetch now c s load = some (c1, j) ∧
      c.sectors[j]? = some e ∧ c1.sectors = c.sectors.set j e1 ∧
      e1.sector_idx = s ∧ e1.last_accessed = now ∧
      (∀ (i : Nat) (x : cached_sector), c.sectors[i]? = some x → x.sector_idx = s → i = j) ∧
      (∀ s', s' ≠ e.sector_idx → c1.block_device s' = c.block_device s') ∧
      (e.sector_idx ≠ SECTOR_NONE → e.sector_idx ≠ s →
        ∀ k, k < BLOCK_SECTOR_SIZE → c1.block_device e.sector_idx k = e.data k) ∧
      (e1.dirty = false → (load = true ∨ e.sector_idx = s) →
        ∀ k, k < BLOCK_SECTOR_SIZE → e1.data k = c1.block_device s k) ∧
      ((load = true ∨ e.sector_idx = s) →
        ∀ k, k < BLOCK_SECTOR_SIZE → e1.data k = view c s k) := by
  unfold buffer_cache_fetch
  cases hscan : fetch_scan s c.sectors 0 none INT64_MAX with
  | hit i =>
    obtain ⟨_, e, he, hes⟩ := fetch_scan_hit s c.sectors 0 none INT64_MAX i hscan
    simp only [Nat.sub_zero] at he
    refine ⟨_, i, e, { e with last_accessed := now }, rfl, he, ?_, hes, rfl, ?_, ?_, ?_, ?_, ?_⟩
    · exact entry_update_of_get he _
    · intro i2 x hx hxs
      exact hinv.uniq i2 i x e hx he (by rw [hxs, hes]) (by rw [hxs]; exact hs)
    · intro s' _; rfl
    · intro _ h; exact absurd hes h
    · intro hd _ k hk
      have := hinv.clean i e he hd (by rw [hes]; exact hs) k hk
      rw [hes] at this
      exact this
    · intro _ k _
      rw [view_of_entry hinv.uniq he hes hs]
  | miss r =>
    obtain ⟨hno, hr⟩ := fetch_scan_miss s c.sectors 0 none INT64_MAX r hscan
    have hnoi : ∀ (i : Nat) (x : cached_sector), c.sectors[i]? = some x → x.sector_idx ≠ s :=
      fun i x hx => hno x (List.mem_iff_getElem?.mpr ⟨i, hx⟩)
    rcases hr with ⟨_, hall⟩ | ⟨j, hrj, _, hjlt⟩
    · exfalso
      obtain ⟨x, hx⟩ := List.exists_mem_of_ne_nil _ hinv.nonempty
      obtain ⟨i, hi⟩ := List.mem_iff_getElem?.mp hx
      have h1 := hinv.bounded i x hi
      have h2 := hall x hx
      omega
    · subst hrj
      simp only [Nat.zero_add] at hjlt
      have he : c.sectors[j]? = some c.sectors[j] := List.getElem?_eq_getElem hjlt
      generalize c.sectors[j] = e at he
      have hview : view c s = c.block_device s := view_of_no_entry hnoi
      have hes : e.sector_idx ≠ s := hnoi j e he
      by_cases hmin : e.last_accessed = INT64_MIN
      · have hd : e.dirty = false := hinv.unused_clean j e he hmin
        have hfl : cached_sector_flush { c with num_miss := wrap_int (c.num_miss + 1) } j
            = { c with num_miss := wrap_int (c.num_miss + 1) } := by
          unfold cached_sector_flush
          simp [he, hmin]
        simp only [hfl]
        refine ⟨_, j, e, _, rfl, he, entry_update_of_get he _, rfl, rfl, ?_, ?_, ?_, ?_, ?_⟩
        · intro i x hx hxs; exact absurd hxs (hnoi i x hx)
        · intro s' _; rfl
        · intro hne _ k hk
          exact (hinv.clean j e he hd hne k hk).symm
        · intro _ hl k _
          rcases hl with hl | hl
          · simp [hl, block_read]
          · exact absurd hl hes
        · intro hl k _
          rcases hl with hl | hl
          · simp [hl, block_read, hview]
          · exact absurd hl hes
      · by_cases hd : e.dirty = true
        · have hfl : cached_sector_flush { c with num_miss := wrap_int (c.num_miss + 1) } j
              = { c with
                  num_miss := wrap_int (c.num_miss + 1)
                  block_device := block_write c.block_device e.sector_idx e.data
                  sectors := c.sectors.set j { e with dirty := false } } := by
            unfold cached_sector_flush
            simp [he, hmin, hd]
          simp only [hfl]
          refine ⟨_, j, e, cached_sector.mk s false now (if load = true then
              block_read (block_write c.block_device e.sector_idx e.data) s else e.data),
            rfl, he, ?_, rfl, rfl, ?_, ?_, ?_, ?_, ?_⟩
          · rw [entry_update_of_get (getElem?_set_self_of_get he _), List.set_set]
          · intro i x hx hxs; exact absurd hxs (hnoi i x hx)
          · intro s' h; simp [block_write, h]
          · intro _ _ k _; simp [block_write]
          · intro _ hl k _
            rcases hl with hl | hl
            · simp [hl, block_read]
            · exact absurd hl hes
          · intro hl k _
            rcases hl with hl | hl
            · simp [hl, block_read, hview, block_write, Ne.symm hes]
            · exact absurd hl hes
        · have hd' : e.dirty = false := by simpa using hd
          have hfl : cached_sector_flush { c with num_miss := wrap_int (c.num_miss + 1) } j
              = { c with num_miss := wrap_int (c.num_miss + 1) } := by
            unfold cached_sector_flush
            simp [he, hmin, hd']
          simp only [hfl]
          refine ⟨_, j, e, _, rfl, he, entry_update_of_get he _, rfl, rfl, ?_, ?_, ?_, ?_, ?_⟩
          · intro i x hx hxs; exact absurd hxs (hnoi i x hx)
          · intro s' _; rfl
          · intro hne _ k hk
            exact (hinv.clean j e he hd' hne k hk).symm
          · intro _ hl k _
            rcases hl with hl | hl
            · simp [hl, block_read]
            · exact absurd hl hes
          · intro hl k _
            rcases hl with hl | hl
            · simp [hl, block_read, hview]
            · exact absurd hl hes

/-- Specification of `buffer_cache_write`: it succeeds, keeps the cache well formed, and changes
the disk as seen through the cache by exactly the copied bytes. -/
theorem buffer_cache_write_spec {c : buffer_cache} (hinv : CacheInv c) {now : Int}
    (hnow : TickOK now) {s : Nat} (hs : s ≠ SECTOR_NONE) (src : Nat → Nat) (off len : Nat) :
    ∃ c', buffer_cache_write now c s src off len = some c' ∧ CacheInv c' ∧
      ∀ s', s' ≠ SECTOR_NONE → ∀ k, k < BLOCK_SECTOR_SIZE →
        view c' s' k = if s' = s then memcpy (view c s) off src len k else view c s' k := by
  obtain ⟨c1, j, e, e1, hf, he, hsec, hes, hla, hone, hdev, hev, _, hdata⟩ :=
    buffer_cache_fetch_spec hinv now hs (decide (off ≠ 0) || decide (len ≠ BLOCK_SECTOR_SIZE))
  unfold buffer_cache_write
  rw [if_neg hs, hf]
  have h1 : c1.sectors[j]? = some e1 := by rw [hsec]; exact getElem?_set_self_of_get he _
  refine ⟨_, rfl, ?_⟩
  have hrep := @replace_spec c
    { c1 with sectors := entry_update c1.sectors j (fun e =>
      { e with data := memcpy e.data off src len, dirty := true }) }
    hinv _ _
    { e1 with data := memcpy e1.data off src len, dirty := true } _ hs he
    (by simp only [entry_update_of_get h1]; rw [hsec, List.set_set])
    hes hone
    ⟨by simp only [hla]; exact hnow.2, by intro h; simp only [hla] at h; have := hnow.1; omega⟩
    hdev hev (by intro h; simp at h)
  refine ⟨hrep.1, ?_⟩
  intro s' hs' k hk
  rw [hrep.2 s' hs' k hk]
  by_cases c0 : s' = s
  · simp only [c0, if_true, memcpy]
    by_cases c1 : off ≤ k ∧ k < off + len
    · simp only [c1, and_self, if_true]
    · simp only [c1, if_false]
      apply hdata _ k hk
      by_cases c2 : off = 0
      · by_cases c3 : len = BLOCK_SECTOR_SIZE
        · exfalso; apply c1; omega
        · left; simp [c3]
      · left; simp [c2]
  · simp only [c0, if_false]

/-- Specification of `buffer_cache_read`: it succeeds, keeps the cache well formed, leaves the disk
as seen through the cache unchanged, and copies the requested bytes of it. -/
theorem buffer_cache_read_spec {c : buffer_cache} (hinv : CacheInv c) {now : Int}
    (hnow : TickOK now) {s : Nat} (hs : s ≠ SECTOR_NONE) (dst : Nat → Nat) {off len : Nat}
    (hb : off + len ≤ BLOCK_SECTOR_SIZE) :
    ∃ c' dst', buffer_cache_read now c s dst off len = some (c', dst') ∧ CacheInv c' ∧
      (∀ s', s' ≠ SECTOR_NONE → ∀ k, k < BLOCK_SECTOR_SIZE → view c' s' k = view c s' k) ∧
      ∀ k, dst' k = if k < len then view c s (off + k) else dst k := by
  obtain ⟨c1, j, e, e1, hf, he, hsec, hes, hla, hone, hdev, hev, hcl, hdata⟩ :=
    buffer_cache_fetch_spec hinv now hs true
  unfold buffer_cache_read
  rw [if_neg hs, hf]
  have h1 : c1.sectors[j]? = some e1 := by rw [hsec]; exact getElem?_set_self_of_get he _
  simp only [h1]
  refine ⟨_, _, rfl, ?_⟩
  have hrep := @replace_spec c c1 hinv _ _ e1 _ hs he hsec hes hone
    ⟨by rw [hla]; exact hnow.2, by intro h; rw [hla] at h; have := hnow.1; omega⟩
    hdev hev (fun h => hcl h (Or.inl rfl))
  refine ⟨hrep.1, ?_, ?_⟩
  · intro s' hs' k hk
    rw [hrep.2 s' hs' k hk]
    by_cases c0 : s' = s
    · simp only [c0, if_true]
      exact hdata (Or.inl rfl) k hk
    · simp only [c0, if_false]
  · intro k
    simp only [memcpy, Nat.zero_le, true_and, Nat.zero_add, Nat.sub_zero]
    by_cases c1 : k < len
    · simp only [c1, if_true]
      exact hdata (Or.inl rfl) _ (by omega)
    · simp only [c1, if_false]

theorem cached_sector_flush_spec {c : buffer_cache} (hinv : CacheInv c) (i : Nat) :
    CacheInv (cached_sector_flush c i) ∧ SameDisk (view (cached_sector_flush c i)) (view c) ∧
      (cached_sector_flush c i).sectors.length = c.sectors.length ∧
      ∀ e, (cached_sector_flush c i).sectors[i]? = some e →
        e.dirty = false ∨ e.last_accessed = INT64_MIN := by
  cases he : c.sectors[i]? with
  | none =>
    have heq : cached_sector_flush c i = c := by unfold cached_sector_flush; simp [he]
    rw [heq]
    exact ⟨hinv, fun _ _ _ _ => rfl, rfl, by intro e h; rw [he] at h; cases h⟩
  | some e =>
    by_cases hmin : e.last_accessed = INT64_MIN
    · have heq : cached_sector_flush c i = c := by unfold cached_sector_flush; simp [he, hmin]
      rw [heq]
      exact ⟨hinv, fun _ _ _ _ => rfl, rfl, by
        intro x h; rw [he] at h; cases h; exact Or.inr hmin⟩
    · by_cases hd : e.dirty = true
      · have heq : cached_sector_flush c i = { c with
                   block_device := block_write c.block_device e.sector_idx e.data
                   sectors := c.sectors.set i { e with dirty := false } } := by
          unfold cached_sector_flush; simp [he, hmin, hd]
        rw [heq]
        have hne : e.sector_idx ≠ SECTOR_NONE := by
          intro h
          have := hinv.none_clean i e he h
          rw [hd] at this
          cases this
        have hrep := @replace_spec c
          { c with
            block_device := block_write c.block_device e.sector_idx e.data
            sectors := c.sectors.set i { e with dirty := false } }
          hinv _ _ { e with dirty := false } _ hne he rfl rfl
          (fun i2 x hx hxs => hinv.uniq i2 i x e hx he hxs (by rw [hxs]; exact hne))
          ⟨hinv.bounded i e he, fun _ => rfl⟩
          (by intro s' h; simp [block_write, h])
          (by intro _ h; exact absurd rfl h)
          (by intro _ k _; simp [block_write])
        refine ⟨hrep.1, ?_, by simp, ?_⟩
        · intro s' hs' k hk
          rw [hrep.2 s' hs' k hk]
          by_cases c0 : s' = e.sector_idx
          · simp only [c0, if_true]
            rw [view_of_entry hinv.uniq he rfl hne]
          · simp only [c0, if_false]
        · intro x hx
          simp only [getElem?_set_self_of_get he] at hx
          cases hx
          exact Or.inl rfl
      · have heq : cached_sector_flush c i = c := by
          unfold cached_sector_flush; simp [he, hmin, hd]
        rw [heq]
        exact ⟨hinv, fun _ _ _ _ => rfl, rfl, by
          intro x h; rw [he] at h; cases h; left; simpa using hd⟩

/-- Marking a clean entry unused keeps the cache well formed and the visible disk unchanged. -/
theorem drop_spec {c c' : buffer_cache} (hinv : CacheInv c) {j : Nat} {e : cached_sector}
    (hj : c.sectors[j]? = some e) (hclean : e.dirty = false)
    (hsec : c'.sectors = c.sectors.set j
      { e with sector_idx := SECTOR_NONE, dirty := false, last_accessed := INT64_MIN })
    (hdev : c'.block_device = c.block_device) :
    CacheInv c' ∧ SameDisk (view c') (view c) := by
  have hjlt : j < c.sectors.length := by
    obtain ⟨h, _⟩ := List.getElem?_eq_some.mp hj; exact h
  have hget : ∀ i, c'.sectors[i]? = if j = i then
      some { e with sector_idx := SECTOR_NONE, dirty := false, last_accessed := INT64_MIN }
      else c.sectors[i]? := by
    intro i
    rw [hsec, List.getElem?_set]
    simp [hjlt]
  have hinv' : CacheInv c' := by
    refine ⟨?_, ?_, ?_, ?_, ?_, ?_⟩
    · intro h
      have := hget j
      rw [h] at this
      simp at this
    · intro i1 i2 x1 x2 h1 h2 h12 hne
      rw [hget] at h1 h2
      by_cases c1 : j = i1
      · rw [if_pos c1] at h1; cases h1; exact absurd rfl hne
      · by_cases c2 : j = i2
        · rw [if_pos c2] at h2; cases h2
          rw [h12] at hne; exact absurd rfl hne
        · rw [if_neg c1] at h1
          rw [if_neg c2] at h2
          exact hinv.uniq i1 i2 x1 x2 h1 h2 h12 hne
    · intro i x hx hd hne k hk
      rw [hget] at hx
      by_cases c1 : j = i
      · rw [if_pos c1] at hx; cases hx; exact absurd rfl hne
      · rw [if_neg c1] at hx
        rw [hdev]
        exact hinv.clean i x hx hd hne k hk
    · intro i x hx hm
      rw [hget] at hx
      by_cases c1 : j = i
      · rw [if_pos c1] at hx; cases hx; rfl
      · rw [if_neg c1] at hx
        exact hinv.unused_clean i x hx hm
    · intro i x hx hm
      rw [hget] at hx
      by_cases c1 : j = i
      · rw [if_pos c1] at hx; cases hx; rfl
      · rw [if_neg c1] at hx
        exact hinv.none_clean i x hx hm
    · intro i x hx
      rw [hget] at hx
      by_cases c1 : j = i
      · rw [if_pos c1] at hx; cases hx; show INT64_MIN < INT64_MAX; decide
      · rw [if_neg c1] at hx
        exact hinv.bounded i x hx
  refine ⟨hinv', ?_⟩
  intro s' hs' k hk
  by_cases c1 : ∃ i x, i ≠ j ∧ c.sectors[i]? = some x ∧ x.sector_idx = s'
  · obtain ⟨i, x, hij, hx, hxs⟩ := c1
    rw [view_of_entry hinv'.uniq (i := i) (e := x)
      (by rw [hget]; simp [Ne.symm hij, hx]) hxs hs']
    rw [view_of_entry hinv.uniq hx hxs hs']
  · have hno : ∀ (i : Nat) (x : cached_sector), c'.sectors[i]? = some x →
        x.sector_idx ≠ s' := by
      intro i x hx hxs
      rw [hget] at hx
      by_cases c2 : j = i
      · rw [if_pos c2] at hx
        cases hx
        exact hs' hxs.symm
      · rw [if_neg c2] at hx
        exact c1 ⟨i, x, fun h => c2 h.symm, hx, hxs⟩
    rw [view_of_no_entry hno, hdev]
    by_cases c3 : e.sector_idx = s'
    · rw [view_of_entry hinv.uniq hj c3 hs']
      rw [← c3]
      exact (hinv.clean j e hj hclean (by rw [c3]; exact hs') k hk).symm
    · rw [view_of_no_entry]
      intro i x hx hxs
      by_cases c2 : i = j
      · subst c2
        rw [hj] at hx
        cases hx
        exact c3 hxs
      · exact c1 ⟨i, x, c2, hx, hxs⟩

theorem reset_entry_spec {c : buffer_cache} (hinv : CacheInv c) (i : Nat) :
    CacheInv (reset_entry c i) ∧ SameDisk (view (reset_entry c i)) (view c) := by
  obtain ⟨h1, h2, _, h4⟩ := cached_sector_flush_spec hinv i
  unfold reset_entry
  cases he : (cached_sector_flush c i).sectors[i]? with
  | none =>
    simp only [entry_update, he]
    exact ⟨h1, h2⟩
  | some e =>
    have hcl : e.dirty = false := by
      rcases h4 e he with h | h
      · exact h
      · exact h1.unused_clean i e he h
    have := @drop_spec (cached_sector_flush c i)
      { cached_sector_flush c i with
        sectors := entry_update (cached_sector_flush c i).sectors i (fun e =>
          { e with sector_idx := SECTOR_NONE, dirty := false,
                   last_accessed := INT64_MIN }) }
      h1 _ _ he hcl (by simp only [entry_update_of_get he]) rfl
    exact ⟨this.1, fun s hs k hk => (this.2 s hs k hk).trans (h2 s hs k hk)⟩

theorem foldl_flush_spec (is : List Nat) : ∀ {c : buffer_cache}, CacheInv c →
    CacheInv (is.foldl cached_sector_flush c) ∧
      SameDisk (view (is.foldl cached_sector_flush c)) (view c) := by
  induction is with
  | nil => intro c h; exact ⟨h, fun _ _ _ _ => rfl⟩
  | cons i is ih =>
    intro c h
    obtain ⟨h1, h2, _, _⟩ := cached_sector_flush_spec h i
    obtain ⟨h3, h4⟩ := ih h1
    exact ⟨h3, fun s hs k hk => (h4 s hs k hk).trans (h2 s hs k hk)⟩

theorem foldl_reset_spec (is : List Nat) : ∀ {c : buffer_cache}, CacheInv c →
    CacheInv (is.foldl reset_entry c) ∧ SameDisk (view (is.foldl reset_entry c)) (view c) := by
  induction is with
  | nil => intro c h; exact ⟨h, fun _ _ _ _ => rfl⟩
  | cons i is ih =>
    intro c h
    obtain ⟨h1, h2⟩ := reset_entry_spec h i
    obtain ⟨h3, h4⟩ := ih h1
    exact ⟨h3, fun s hs k hk => (h4 s hs k hk).trans (h2 s hs k hk)⟩

theorem buffer_cache_flush_spec {c : buffer_cache} (hinv : CacheInv c) :
    CacheInv (buffer_cache_flush c) ∧ SameDisk (view (buffer_cache_flush c)) (view c) :=
  foldl_flush_spec _ hinv

theorem buffer_cache_reset_spec {c : buffer_cache} (hinv : CacheInv c) :
    CacheInv (buffer_cache_reset c) ∧ SameDisk (view (buffer_cache_reset c)) (view c) := by
  have key : ∀ c1 : buffer_cache, CacheInv c1 → SameDisk (view c1) (view c) →
      CacheInv { c1 with num_hit := 0, num_miss := 0 } ∧
        SameDisk (view { c1 with num_hit := 0, num_miss := 0 }) (view c) := by
    intro c1 h1 h2
    exact ⟨⟨h1.nonempty, h1.uniq, h1.clean, h1.unused_clean, h1.none_clean, h1.bounded⟩, h2⟩
  obtain ⟨h1, h2⟩ := foldl_reset_spec (List.range BUFFER_CACHE_SIZE) hinv
  exact key _ h1 h2

theorem buffer_cache_init_spec (dev : Device) (uninit : Nat → Nat → Nat) :
    CacheInv (buffer_cache_init dev uninit) ∧ SameDisk (view (buffer_cache_init dev uninit)) dev := by
  have hall : ∀ (i : Nat) (e : cached_sector), (buffer_cache_init dev uninit).sectors[i]? = some e →
      e.sector_idx = SECTOR_NONE ∧ e.dirty = false ∧ e.last_accessed = INT64_MIN := by
    intro i e h
    simp only [buffer_cache_init, List.getElem?_map] at h
    cases hr : (List.range BUFFER_CACHE_SIZE)[i]? with
    | none => rw [hr] at h; simp at h
    | some x => rw [hr] at h; simp at h; subst h; exact ⟨rfl, rfl, rfl⟩
  refine ⟨⟨?_, ?_, ?_, ?_, ?_, ?_⟩, ?_⟩
  · intro h
    have := congrArg List.length h
    simp [buffer_cache_init, BUFFER_CACHE_SIZE] at this
  · intro i j ei ej hi _ _ hne
    exact absurd (hall i ei hi).1 hne
  · intro i e hi _ hne
    exact absurd (hall i e hi).1 hne
  · intro i e hi _
    exact (hall i e hi).2.1
  · intro i e hi _
    exact (hall i e hi).2.1
  · intro i e hi
    rw [(hall i e hi).2.2]
    decide
  · intro s hs k _
    rw [view_of_no_entry]
    · rfl
    · intro i e hi hes
      exact hs (by rw [← hes, (hall i e hi).1])

theorem bytes_of_congr {a b : Nat → Nat} {len : Nat} (h : ∀ k, k < len → a k = b k) :
    bytes_of a len = bytes_of b len := by
  unfold bytes_of
  apply List.map_congr_left
  intro k hk
  exact h k (List.mem_range.mp hk)

theorem device_step_congr {d1 d2 : Device} (h : SameDisk d1 d2) {op : CacheOp} (hop : op.ok) :
    SameDisk (device_step d1 op).1 (device_step d2 op).1 ∧
      (device_step d1 op).2 = (device_step d2 op).2 := by
  cases op with
  | read now s off len =>
    obtain ⟨_, hs, hb⟩ := hop
    refine ⟨h, ?_⟩
    simp only [device_step]
    rw [bytes_of_congr]
    intro k hk
    exact h s hs (off + k) (by omega)
  | write now s src off len =>
    obtain ⟨_, hs, hb⟩ := hop
    refine ⟨?_, rfl⟩
    intro s' hs' k hk
    simp only [device_step, block_write, block_read]
    by_cases c0 : s' = s
    · subst c0
      simp only [if_true]
      unfold memcpy
      by_cases c1 : off ≤ k ∧ k < off + len
      · simp only [c1, and_self, if_true]
      · simp only [c1, if_false]
        exact h s' hs' k hk
    · simp only [c0, if_false]
      exact h s' hs' k hk
  | flush => exact ⟨h, rfl⟩
  | reset => exact ⟨h, rfl⟩

theorem device_run_congr (ops : List CacheOp) : ∀ {d1 d2 : Device}, SameDisk d1 d2 →
    (∀ op ∈ ops, op.ok) → device_run d1 ops = device_run d2 ops := by
  induction ops with
  | nil => intro _ _ _ _; rfl
  | cons op ops ih =>
    intro d1 d2 h hok
    have hop := hok op (List.mem_cons_self _ _)
    have hrest : ∀ o ∈ ops, o.ok := fun o ho => hok o (List.mem_cons_of_mem _ ho)
    obtain ⟨h1, h2⟩ := device_step_congr h hop
    simp only [device_run]
    rw [h2, ih h1 hrest]

/-- One call on a well-formed cache does what the same call does on the device that the cache
stands for. -/
theorem cache_step_refines {c : buffer_cache} (hinv : CacheInv c) {op : CacheOp} (hop : op.ok) :
    ∃ c1, cache_step c op = some (c1, (device_step (view c) op).2) ∧ CacheInv c1 ∧
      SameDisk (view c1) (device_step (view c) op).1 := by
  cases op with
  | read now s off len =>
    obtain ⟨hnow, hs, hb⟩ := hop
    obtain ⟨c1, dst, hr, hinv1, hview, hdst⟩ :=
      buffer_cache_read_spec hinv hnow hs (fun _ => 0) hb
    refine ⟨c1, ?_, hinv1, hview⟩
    have e1 : bytes_of dst len = bytes_of (fun k => block_read (view c) s (off + k)) len := by
      apply bytes_of_congr
      intro k hk
      rw [hdst k, if_pos hk]
      rfl
    simp only [cache_step, hr, device_step, e1]
  | write now s src off len =>
    obtain ⟨hnow, hs, hb⟩ := hop
    obtain ⟨c1, hw, hinv1, hview⟩ := buffer_cache_write_spec hinv hnow hs src off len
    refine ⟨c1, ?_, hinv1, ?_⟩
    · simp only [cache_step, hw, device_step]
    · intro s' hs' k hk
      rw [hview s' hs' k hk]
      simp only [device_step, block_write, block_read]
      by_cases c0 : s' = s
      · simp only [c0, if_true]
      · simp only [c0, if_false]
  | flush =>
    obtain ⟨hinv1, hview⟩ := buffer_cache_flush_spec hinv
    exact ⟨_, rfl, hinv1, hview⟩
  | reset =>
    obtain ⟨hinv1, hview⟩ := buffer_cache_reset_spec hinv
    exact ⟨_, rfl, hinv1, hview⟩

/-- The cache simulates the device it stands for: from a well-formed cache state, every
sequence of calls succeeds and reads what the uncached device would give. -/
theorem cache_run_refines (ops : List CacheOp) : ∀ {c : buffer_cache}, CacheInv c →
    (∀ op ∈ ops, op.ok) →
    ∃ c', cache_run c ops = some (c', device_run (view c) ops) ∧ CacheInv c' := by
  induction ops with
  | nil => intro c h _; exact ⟨c, rfl, h⟩
  | cons op ops ih =>
    intro c hinv hok
    have hop := hok op (List.mem_cons_self _ _)
    have hrest : ∀ o ∈ ops, o.ok := fun o ho => hok o (List.mem_cons_of_mem _ ho)
    obtain ⟨c1, hstep, hinv1, hview⟩ := cache_step_refines hinv hop
    obtain ⟨c2, hrun, hinv2⟩ := ih hinv1 hrest
    refine ⟨c2, ?_, hinv2⟩
    simp only [cache_run, hstep, hrun, device_run]
    rw [device_run_congr ops hview hrest]

/-- C2: the buffer cache is observationally equivalent to the uncached block device. Starting
from a freshly created cache over any device, every sequence of `buffer_cache_read`,
`buffer_cache_write`, `buffer_cache_flush` and `buffer_cache_reset` calls (sector other than
"none", range inside the sector, timer value none of the two sentinels) runs to the end, and
the bytes returned by its reads are exactly the ones that the same reads and writes give when
they are applied directly to the device. -/
theorem buffer_cache_observational_equivalence (dev : Device) (uninit : Nat → Nat → Nat)
    (ops : List CacheOp) (hok : ∀ op ∈ ops, op.ok) :
    ∃ c', cache_run (buffer_cache_init dev uninit) ops = some (c', device_run dev ops) := by
  obtain ⟨hinv, hview⟩ := buffer_cache_init_spec dev uninit
  obtain ⟨c', hrun, _⟩ := cache_run_refines ops hinv hok
  exact ⟨c', by rw [hrun, device_run_congr ops hview hok]⟩

/-- Witness for C2: a full-sector write that misses (no load), a partial overwrite and a read
back, on a zero-filled device. -/
theorem buffer_cache_observational_equivalence_witness :
    ∃ c', cache_run (buffer_cache_init (fun _ _ => 0) (fun _ _ => 7))
        [CacheOp.write 1 5 (fun _ => 9) 0 512, CacheOp.write 1 5 (fun _ => 3) 1 2,
          CacheOp.flush, CacheOp.read 2 5 0 4]
      = some (c', device_run (fun _ _ => 0)
        [CacheOp.write 1 5 (fun _ => 9) 0 512, CacheOp.write 1 5 (fun _ => 3) 1 2,
          CacheOp.flush, CacheOp.read 2 5 0 4]) :=
  buffer_cache_observational_equivalence _ _ _ (by
    intro op hop
    simp only [List.mem_cons, List.mem_singleton, List.not_mem_nil, or_false] at hop
    rcases hop with rfl | rfl | rfl | rfl
    · exact ⟨⟨by decide, by decide⟩, by decide, by decide⟩
    · exact ⟨⟨by decide, by decide⟩, by decide, by decide⟩
    · trivial
    · exact ⟨⟨by decide, by decide⟩, by decide, by decide⟩)

theorem const_sector : BLOCK_SECTOR_SIZE = 512 := rfl
theorem const_entries : INDIRECT_BLOCK_NUM_ENTRIES = 128 := rfl
theorem const_l1_byte : INDIRECT_BLOCK_1_CAPACITY_BYTE = 65536 := rfl
theorem const_l1_entry : INDIRECT_BLOCK_1_CAPACITY_ENTRY = 128 := rfl
theorem const_l2_byte : INDIRECT_BLOCK_2_CAPACITY_BYTE = 8388608 := rfl
theorem const_l2_entry : INDIRECT_BLOCK_2_CAPACITY_ENTRY = 16384 := rfl
theorem const_direct : INODE_DISK_NUM_DIRECT_BLOCKS = 93 := rfl
theorem const_direct_byte : INODE_DISK_NUM_DIRECT_BLOCKS_CAPACITY_BYTE = 47616 := rfl
theorem const_none : SECTOR_NONE = 4294967295 := rfl

theorem to_u32_of_nonneg {x : Int} (h0 : 0 ≤ x) (h1 : x < 4294967296) : to_u32 x = x.toNat := by
  unfold to_u32; omega

theorem to_u32_natCast {n : Nat} (h1 : n < 4294967296) : to_u32 (n : Int) = n := by
  unfold to_u32; omega

theorem wrap_int_of_range {x : Int} (h0 : -2147483648 ≤ x) (h1 : x < 2147483648) :
    wrap_int x = x := by
  unfold wrap_int; omega

theorem c_div_of_nonneg {a : Int} (h : 0 ≤ a) : c_div a 512 = a / 512 := by
  unfold c_div
  exact Int.tdiv_eq_ediv h (by decide)

theorem c_mod_of_nonneg {a : Int} (h : 0 ≤ a) : c_mod a 512 = a % 512 := by
  unfold c_mod
  exact Int.tmod_eq_emod h (by decide)

theorem bytes_to_sectors_eq {size : Int} (h0 : 0 ≤ size) (h1 : size ≤ 2147483136) :
    bytes_to_sectors size = (size.toNat + 511) / 512 := by
  unfold bytes_to_sectors
  rw [wrap_int_of_range (by omega) (by omega), c_div_of_nonneg (by omega),
    to_u32_of_nonneg (by omega) (by omega)]
  omega

theorem get_u32_u32_bytes {v : Nat} (hv : v < 4294967296) (buf : Nat → Nat) (off : Nat)
    (h : ∀ k, k < 4 → buf (off + k) = u32_bytes v k) : get_u32 buf off = v := by
  unfold get_u32
  have h0 := h 0 (by omega)
  have h1 := h 1 (by omega)
  have h2 := h 2 (by omega)
  have h3 := h 3 (by omega)
  simp only [Nat.add_zero] at h0
  rw [h0, h1, h2, h3]
  simp only [u32_bytes]
  norm_num
  omega

theorem get_u32_congr {a b : Nat → Nat} {off1 off2 : Nat}
    (h : ∀ k, k < 4 → a (off1 + k) = b (off2 + k)) : get_u32 a off1 = get_u32 b off2 := by
  unfold get_u32
  have h0 := h 0 (by omega)
  have h1 := h 1 (by omega)
  have h2 := h 2 (by omega)
  have h3 := h 3 (by omega)
  simp only [Nat.add_zero] at h0
  rw [h0, h1, h2, h3]

theorem rd32_disk_write_same {D : Nat → Nat → Nat} {s idx v : Nat} (hv : v < 4294967296) :
    rd32 (disk_write D s (idx * 4) (u32_bytes v) 4) s idx = v := by
  unfold rd32
  apply get_u32_u32_bytes hv
  intro k hk
  unfold disk_write
  rw [if_pos ⟨rfl, by omega, by omega⟩]
  congr 1
  omega

theorem rd32_disk_write_other {D : Nat → Nat → Nat} {s idx s' idx' : Nat} (src : Nat → Nat)
    (h : s' ≠ s ∨ idx' ≠ idx) :
    rd32 (disk_write D s (idx * 4) src 4) s' idx' = rd32 D s' idx' := by
  unfold rd32
  apply get_u32_congr
  intro k hk
  unfold disk_write
  rw [if_neg]
  intro ⟨h1, h2, h3⟩
  rcases h with h | h
  · exact h h1
  · omega

theorem rd32_congr {D D' : Nat → Nat → Nat} {s idx : Nat} (h : D' s = D s) :
    rd32 D' s idx = rd32 D s idx := by
  unfold rd32; rw [h]

theorem disk_write_other {D : Nat → Nat → Nat} {s off len s' : Nat} (src : Nat → Nat)
    (h : s' ≠ s) : disk_write D s off src len s' = D s' := by
  funext k
  unfold disk_write
  rw [if_neg]
  intro ⟨h1, _⟩
  exact h h1

/-- A write through the file system's cache: it succeeds and changes the visible disk by the
written bytes only. -/
theorem fs_cache_write_spec {io : Io} (hinv : IoInv io) {s : Nat} (hs : s ≠ SECTOR_NONE)
    (src : Nat → Nat) {off len : Nat} (hb : off + len ≤ BLOCK_SECTOR_SIZE) :
    ∃ io', fs_cache_write io s src off len = some io' ∧ IoInv io' ∧
      disk io' = disk_write (disk io) s off src len ∧ io'.ticks = io.ticks := by
  obtain ⟨c', hw, hinv', hview⟩ :=
    buffer_cache_write_spec hinv.1 (hinv.2 io.timer_calls) hs src off len
  refine ⟨{ io with fs_buffer_cache := c', timer_calls := io.timer_calls + 1 },
    by unfold fs_cache_write; rw [hw], ⟨hinv', hinv.2⟩, ?_, rfl⟩
  funext s' k
  unfold disk disk_write
  by_cases h1 : s' ≠ SECTOR_NONE ∧ k < BLOCK_SECTOR_SIZE
  · rw [if_pos h1]
    simp only
    rw [hview s' h1.1 k h1.2]
    by_cases c0 : s' = s
    · subst c0
      unfold memcpy
      by_cases c1 : off ≤ k ∧ k < off + len
      · simp only [c1, and_self, if_true]
      · have c2 : ¬ (s' = s' ∧ off ≤ k ∧ k < off + len) := fun h => c1 h.2
        simp only [c1, if_false, if_true, h1, ne_eq, not_false_eq_true, and_self, true_and]
    · have c2 : ¬ (s' = s ∧ off ≤ k ∧ k < off + len) := fun h => c0 h.1
      simp only [c0, if_false, h1, ne_eq, not_false_eq_true, and_self, if_true, false_and]
  · rw [if_neg h1]
    have c2 : ¬ (s' = s ∧ off ≤ k ∧ k < off + len) := by
      intro ⟨h2, h3, h4⟩
      apply h1
      subst h2
      exact ⟨hs, by omega⟩
    simp only
    rw [if_neg c2, if_neg h1]

/-- A read through the file system's cache: it succeeds, leaves the visible disk unchanged and
copies the requested bytes. -/
theorem fs_cache_read_spec {io : Io} (hinv : IoInv io) {s : Nat} (hs : s ≠ SECTOR_NONE)
    (dst : Nat → Nat) {off len : Nat} (hb : off + len ≤ BLOCK_SECTOR_SIZE) :
    ∃ io', fs_cache_read io s dst off len
        = some (io', fun k => if k < len then disk io s (off + k) else dst k) ∧
      IoInv io' ∧ disk io' = disk io ∧ io'.ticks = io.ticks := by
  obtain ⟨c', dst', hr, hinv', hview, hdst⟩ :=
    buffer_cache_read_spec hinv.1 (hinv.2 io.timer_calls) hs dst hb
  have hd : dst' = fun k => if k < len then disk io s (off + k) else dst k := by
    funext k
    rw [hdst k]
    by_cases c1 : k < len
    · simp only [c1, if_true, disk]
      rw [if_pos ⟨hs, by omega⟩]
    · simp only [c1, if_false]
  refine ⟨{ io with fs_buffer_cache := c', timer_calls := io.timer_calls + 1 },
    by unfold fs_cache_read; rw [hr, hd], ⟨hinv', hinv.2⟩, ?_, rfl⟩
  funext s' k
  unfold disk
  by_cases h1 : s' ≠ SECTOR_NONE ∧ k < BLOCK_SECTOR_SIZE
  · simp only [if_pos h1]
    exact hview s' h1.1 k h1.2
  · simp only [if_neg h1]

/-- Reading one entry of an index block through the cache. -/
theorem fs_cache_read_u32 {io : Io} (hinv : IoInv io) {s : Nat} (hs : s ≠ SECTOR_NONE)
    {idx : Nat} (hidx : idx < 128) :
    ∃ io' buf, fs_cache_read io s (fun _ => 0) (idx * 4) 4 = some (io', buf) ∧
      get_u32 buf 0 = rd32 (disk io) s idx ∧ IoInv io' ∧ disk io' = disk io ∧
      io'.ticks = io.ticks := by
  obtain ⟨io', hr, hinv', hd, ht⟩ :=
    @fs_cache_read_spec _ hinv _ hs (fun _ => 0) (idx * 4) 4
      (by rw [const_sector]; omega)
  refine ⟨io', _, hr, ?_, hinv', hd, ht⟩
  unfold rd32
  apply get_u32_congr
  intro k hk
  simp only [Nat.zero_add, hk, if_true]
  congr 1
  omega

theorem first_free_spec (fm : List Bool) : ∀ {s : Nat}, first_free fm = some s →
    fm[s]? = some false := by
  induction fm with
  | nil => intro s h; simp [first_free] at h
  | cons b bs ih =>
    intro s h
    unfold first_free at h
    by_cases hb : b = false
    · rw [if_pos hb] at h
      cases h
      simp [hb]
    · rw [if_neg hb] at h
      cases hf : first_free bs with
      | none => rw [hf] at h; simp at h
      | some t =>
        rw [hf] at h
        simp only [Option.map_some', Option.some.injEq] at h
        subst h
        simpa using ih hf

theorem first_free_none (fm : List Bool) : first_free fm = none → free_count fm = 0 := by
  induction fm with
  | nil => intro _; rfl
  | cons b bs ih =>
    intro h
    unfold first_free at h
    by_cases hb : b = false
    · rw [if_pos hb] at h; cases h
    · rw [if_neg hb] at h
      cases hf : first_free bs with
      | none =>
        have := ih hf
        unfold free_count at this ⊢
        rw [List.count_cons, this]
        simp [hb]
      | some t => rw [hf] at h; simp at h

theorem free_count_set_true (fm : List Bool) : ∀ {s : Nat}, fm[s]? = some false →
    free_count (fm.set s true) + 1 = free_count fm := by
  induction fm with
  | nil => intro s h; simp at h
  | cons b bs ih =>
    intro s h
    cases s with
    | zero =>
      simp only [List.getElem?_cons_zero, Option.some.injEq] at h
      subst h
      simp [free_count, List.count_cons]
    | succ t =>
      simp only [List.getElem?_cons_succ] at h
      have := ih h
      simp only [free_count, List.set_cons_succ, List.count_cons] at this ⊢
      omega

/-- The allocator hands out a sector that was free, marks it in use and changes nothing
else. -/
theorem free_map_allocate_spec {al : Alloc} (h : 0 < free_count al.free_map) :
    ∃ s, free_map_allocate al = some ({ al with free_map := al.free_map.set s true }, s) ∧
      al.free_map[s]? = some false ∧
      free_count (al.free_map.set s true) + 1 = free_count al.free_map := by
  unfold free_map_allocate
  cases hf : first_free al.free_map with
  | none =>
    have := first_free_none _ hf
    omega
  | some s =>
    have h1 := first_free_spec _ hf
    exact ⟨s, rfl, h1, free_count_set_true _ h1⟩

theorem in_use_ne_none {al : Alloc} (hal : AllocInv al) {s : Nat} (h : in_use al s) :
    s ≠ SECTOR_NONE ∧ s < 4294967296 := by
  unfold in_use at h
  obtain ⟨hlt, _⟩ := List.getElem?_eq_some.mp h
  unfold AllocInv at hal
  rw [const_none] at hal ⊢
  omega

theorem disk_out_of_range (io : Io) (s : Nat) {k : Nat} (hk : BLOCK_SECTOR_SIZE ≤ k) :
    disk io s k = 0 := by
  unfold disk
  rw [if_neg]
  intro ⟨_, h⟩
  omega

/-- The function `byte_to_sector` on a well-formed file, for an offset inside the file: it
returns the data sector of the offset and leaves the visible disk unchanged. -/
theorem byte_to_sector_spec {io : Io} (hinv : IoInv io) {al : Alloc} (hal : AllocInv al)
    {ino : inode} {n : Nat} (hwf : FileWF ino.block_data (disk io) al n)
    {pos : Int} (h0 : 0 ≤ pos) (h1 : pos ≤ ino.block_data.size) (h2 : pos.toNat / 512 < n)
    (h3 : n ≤ MAX_SECTORS) :
    ∃ io', byte_to_sector io ino pos
        = some (io', data_sector ino.block_data (disk io) (pos.toNat / 512)) ∧
      IoInv io' ∧ disk io' = disk io ∧ io'.ticks = io.ticks := by
  unfold MAX_SECTORS at h3
  have hp : to_u32 pos = pos.toNat := to_u32_of_nonneg h0 (by omega)
  unfold byte_to_sector
  rw [if_neg (by omega)]
  simp only [hp, const_direct_byte, const_sector, const_l2_byte, const_l1_byte]
  by_cases hd : pos.toNat < 47616
  · rw [if_pos hd]
    refine ⟨io, ?_, hinv, rfl, rfl⟩
    unfold data_sector
    rw [if_pos (by omega)]
  · rw [if_neg hd]
    have hi : ¬ pos.toNat / 512 < 93 := by omega
    have hl2 := hwf.used (Slot.l2 ((pos.toNat / 512 - 93) / 16384))
      (by show 93 + 16384 * _ < n; omega)
    have hl1 := hwf.used (Slot.l1 ((pos.toNat / 512 - 93) / 128))
      (by show 93 + 128 * _ < n; omega)
    simp only [slot_sector] at hl2 hl1
    have e2 : (pos.toNat - 47616) / 8388608 = ((pos.toNat / 512 - 93) / 128) / 128 := by omega
    have e1 : (pos.toNat - 47616) % 8388608 / 65536 = ((pos.toNat / 512 - 93) / 128) % 128 := by
      omega
    have e0 : (pos.toNat - 47616) % 65536 / 512 = (pos.toNat / 512 - 93) % 128 := by omega
    have e3 : (pos.toNat / 512 - 93) / 16384 = ((pos.toNat / 512 - 93) / 128) / 128 := by omega
    rw [e3] at hl2
    rw [e2, e1, e0]
    obtain ⟨io1, buf1, hr1, hv1, hinv1, hd1, ht1⟩ :=
      @fs_cache_read_u32 _ hinv _ (in_use_ne_none hal hl2).1
        (((pos.toNat / 512 - 93) / 128) % 128) (by omega)
    simp only [hr1, hv1]
    have hl1' : in_use al (rd32 (disk io) (ino.block_data.l2_blocks
        ((pos.toNat / 512 - 93) / 128 / 128)) ((pos.toNat / 512 - 93) / 128 % 128)) := hl1
    obtain ⟨io2, buf2, hr2, hv2, hinv2, hd2, ht2⟩ :=
      @fs_cache_read_u32 _ hinv1 _ (in_use_ne_none hal hl1').1
        ((pos.toNat / 512 - 93) % 128) (by omega)
    simp only [hr2, hv2]
    refine ⟨io2, ?_, hinv2, by rw [hd2, hd1], by rw [ht2, ht1]⟩
    unfold data_sector l1_sector
    rw [if_neg hi, hd1]

theorem slot_sector_congr {d d' : inode_data} {D D' : Nat → Nat → Nat} {n : Nat}
    (hl2 : ∀ a, 93 + 16384 * a < n → d'.l2_blocks a = d.l2_blocks a)
    (hl0 : ∀ i, i < n → i < 93 → d'.l0_blocks i = d.l0_blocks i)
    (h2 : ∀ a, 93 + 16384 * a < n → D' (d.l2_blocks a) = D (d.l2_blocks a))
    (h1 : ∀ k, 93 + 128 * k < n → D' (l1_sector d D k) = D (l1_sector d D k)) :
    ∀ x, slot_live n x → slot_sector d' D' x = slot_sector d D x := by
  have hl1 : ∀ k, 93 + 128 * k < n → l1_sector d' D' k = l1_sector d D k := by
    intro k hk
    unfold l1_sector
    rw [hl2 (k / 128) (by omega), rd32_congr (h2 (k / 128) (by omega))]
  intro x hx
  cases x with
  | data i =>
    simp only [slot_live] at hx
    simp only [slot_sector, data_sector]
    by_cases c : i < 93
    · rw [if_pos c, if_pos c, hl0 i hx c]
    · rw [if_neg c, if_neg c, hl1 _ (by omega), rd32_congr (h1 _ (by omega))]
  | l1 k => exact hl1 k hx
  | l2 a => exact hl2 a hx

theorem slot_live_mono {n m : Nat} (h : n ≤ m) {x : Slot} (hx : slot_live n x) :
    slot_live m x := by
  cases x <;> simp only [slot_live] at hx ⊢ <;> omega

theorem FileWF_congr {d d' : inode_data} {D D' : Nat → Nat → Nat} {al al' : Alloc} {n : Nat}
    (hwf : FileWF d D al n)
    (hpres : ∀ x, slot_live n x → slot_sector d' D' x = slot_sector d D x)
    (hmono : ∀ t, in_use al t → in_use al' t) : FileWF d' D' al' n := by
  constructor
  · intro x hx
    rw [hpres x hx]; exact hmono _ (hwf.used x hx)
  · intro x y hx hy hxy
    rw [hpres x hx, hpres y hy] at hxy
    exact hwf.inj x y hx hy hxy

theorem in_use_set_true {al : Alloc} {s t : Nat} (h : in_use al t) :
    in_use { al with free_map := al.free_map.set s true } t := by
  unfold in_use at h ⊢
  simp only [List.getElem?_set]
  by_cases c : s = t
  · subst c
    obtain ⟨hlt, _⟩ := List.getElem?_eq_some.mp h
    simp [hlt]
  · simp [c, h]

theorem in_use_set_self {al : Alloc} {s : Nat} (h : al.free_map[s]? = some false) :
    in_use { al with free_map := al.free_map.set s true } s := by
  unfold in_use
  obtain ⟨hlt, _⟩ := List.getElem?_eq_some.mp h
  simp [List.getElem?_set, hlt]

theorem not_in_use_of_free {al : Alloc} {s : Nat} (h : al.free_map[s]? = some false) :
    ¬ in_use al s := by
  unfold in_use
  rw [h]
  simp

theorem slot_live_iff (n : Nat) (x : Slot) :
    slot_live n x ↔ slot_live3 n (l1_count n) (l2_count n) x := by
  cases x <;> simp only [slot_live, slot_live3, l1_count, l2_count] <;> omega

theorem FileWF_iff_WF3 (d : inode_data) (D : Nat → Nat → Nat) (al : Alloc) (n : Nat) :
    FileWF d D al n ↔ WF3 d D al n (l1_count n) (l2_count n) := by
  constructor
  · intro h
    refine ⟨fun x hx => h.used x ((slot_live_iff n x).mpr hx),
      fun x y hx hy => h.inj x y ((slot_live_iff n x).mpr hx) ((slot_live_iff n y).mpr hy),
      by unfold l1_count; omega, by unfold l1_count l2_count; omega⟩
  · intro h
    exact ⟨fun x hx => h.used x ((slot_live_iff n x).mp hx),
      fun x y hx hy => h.inj x y ((slot_live_iff n x).mp hx) ((slot_live_iff n y).mp hy)⟩

/-- Slots keep their sectors when the pointers of the inode in use stay and the disk changes
in no index block. -/
theorem slot_sector_congr3 {d d' : inode_data} {D D' : Nat → Nat → Nat} {n0 n1 n2 : Nat}
    (hs0 : n0 ≤ 93 + 128 * n1) (hs1 : n1 ≤ 128 * n2)
    (hl2 : ∀ a, a < n2 → d'.l2_blocks a = d.l2_blocks a)
    (hl0 : ∀ i, i < n0 → i < 93 → d'.l0_blocks i = d.l0_blocks i)
    (h2 : ∀ a, a < n2 → D' (d.l2_blocks a) = D (d.l2_blocks a))
    (h1 : ∀ k, k < n1 → D' (l1_sector d D k) = D (l1_sector d D k)) :
    ∀ x, slot_live3 n0 n1 n2 x → slot_sector d' D' x = slot_sector d D x := by
  have hl1 : ∀ k, k < n1 → l1_sector d' D' k = l1_sector d D k := by
    intro k hk
    unfold l1_sector
    rw [hl2 (k / 128) (by omega), rd32_congr (h2 (k / 128) (by omega))]
  intro x hx
  cases x with
  | data i =>
    simp only [slot_live3] at hx
    simp only [slot_sector, data_sector]
    by_cases c : i < 93
    · rw [if_pos c, if_pos c, hl0 i hx c]
    · rw [if_neg c, if_neg c, hl1 _ (by omega), rd32_congr (h1 _ (by omega))]
  | l1 k => exact hl1 k hx
  | l2 a => exact hl2 a hx

/-- Slots keep their sectors when an entry of an index block is written that no slot in use
is stored in. -/
theorem slot_sector_write3 {d : inode_data} {D : Nat → Nat → Nat} {n0 n1 n2 T idx : Nat}
    (src : Nat → Nat) (hs0 : n0 ≤ 93 + 128 * n1)
    (h1 : ∀ k, k < n1 → ¬ (d.l2_blocks (k / 128) = T ∧ k % 128 = idx))
    (h0 : ∀ i, 93 ≤ i → i < n0 →
      ¬ (l1_sector d D ((i - 93) / 128) = T ∧ (i - 93) % 128 = idx)) :
    ∀ x, slot_live3 n0 n1 n2 x →
      slot_sector d (disk_write D T (idx * 4) src 4) x = slot_sector d D x := by
  have hl1 : ∀ k, k < n1 →
      l1_sector d (disk_write D T (idx * 4) src 4) k = l1_sector d D k := by
    intro k hk
    unfold l1_sector
    apply rd32_disk_write_other
    have := h1 k hk
    tauto
  intro x hx
  cases x with
  | data i =>
    simp only [slot_live3] at hx
    simp only [slot_sector, data_sector]
    by_cases c : i < 93
    · rw [if_pos c, if_pos c]
    · rw [if_neg c, if_neg c, hl1 _ (by omega)]
      apply rd32_disk_write_other
      have := h0 i (by omega) hx
      tauto
  | l1 k => exact hl1 k hx
  | l2 a => rfl

/-- Adding one slot `z` that holds a sector in use and held by no other slot keeps the block
map well formed. -/
theorem WF3_add {d d' : inode_data} {D D' : Nat → Nat → Nat} {al al' : Alloc}
    {n0 n1 n2 m0 m1 m2 : Nat} (hwf : WF3 d D al n0 n1 n2) (z : Slot)
    (hlive : ∀ x, slot_live3 m0 m1 m2 x → slot_live3 n0 n1 n2 x ∨ x = z)
    (hpres : ∀ x, slot_live3 n0 n1 n2 x → slot_sector d' D' x = slot_sector d D x)
    (hmono : ∀ t, in_use al t → in_use al' t)
    (hz : in_use al' (slot_sector d' D' z))
    (hzold : ∀ y, slot_live3 n0 n1 n2 y → slot_sector d D y ≠ slot_sector d' D' z)
    (hs0 : m0 ≤ 93 + 128 * m1) (hs1 : m1 ≤ 128 * m2) :
    WF3 d' D' al' m0 m1 m2 := by
  refine ⟨?_, ?_, hs0, hs1⟩
  · intro x hx
    rcases hlive x hx with c | c
    · rw [hpres x c]; exact hmono _ (hwf.used x c)
    · rw [c]; exact hz
  · intro x y hx hy hxy
    rcases hlive x hx with cx | cx <;> rcases hlive y hy with cy | cy
    · rw [hpres x cx, hpres y cy] at hxy
      exact hwf.inj x y cx cy hxy
    · rw [hpres x cx, cy] at hxy
      exact absurd hxy (hzold x cx)
    · rw [hpres y cy, cx] at hxy
      exact absurd hxy.symm (hzold y cy)
    · rw [cx, cy]

theorem new_sector_of_multi {i : Nat} (h : 93 ≤ i) (s : Nat) :
    new_sector_of i s
      = new_sector_elem.mk true s ((i - 93) % 128) ((i - 93) / 128 % 128) ((i - 93) / 128 / 128) := by
  unfold new_sector_of
  simp only [const_direct, const_l1_entry, const_l2_entry]
  rw [if_pos (by omega)]
  have e1 : (i - 93) % 16384 / 128 = (i - 93) / 128 % 128 := by omega
  have e2 : (i - 93) / 16384 = (i - 93) / 128 / 128 := by omega
  rw [e1, e2]

theorem new_sector_of_direct {i : Nat} (h : i < 93) (s : Nat) :
    new_sector_of i s = new_sector_elem.mk false s i 0 0 := by
  unfold new_sector_of
  simp only [const_direct]
  rw [if_neg (by omega)]

theorem slot_sector_l2 (d : inode_data) (D : Nat → Nat → Nat) (a : Nat) :
    slot_sector d D (Slot.l2 a) = d.l2_blocks a := rfl

theorem slot_sector_l1 (d : inode_data) (D : Nat → Nat → Nat) (k : Nat) :
    slot_sector d D (Slot.l1 k) = l1_sector d D k := rfl

theorem slot_sector_data (d : inode_data) (D : Nat → Nat → Nat) (i : Nat) :
    slot_sector d D (Slot.data i) = data_sector d D i := rfl

theorem alloc_inv_set {al : Alloc} (hal : AllocInv al) (s : Nat) (b : Bool) :
    AllocInv { al with free_map := al.free_map.set s b } := by
  unfold AllocInv at hal ⊢
  simpa using hal

/-- Second loop of `inode_data_resize`, L2 part, when the free map has room: a new L2 block is
allocated when sector `i` starts one, and the block map stays well formed. -/
theorem resize_link_l2_spec {al : Alloc} {d : inode_data} {D : Nat → Nat → Nat} {i : Nat}
    (s : Nat) (hal : AllocInv al) (hi93 : 93 ≤ i)
    (hwf : WF3 d D al i (l1_count i) (l2_count i))
    (hfree : (if (i - 93) % 16384 = 0 then 1 else 0) ≤ free_count al.free_map) :
    ∃ al1 d1, resize_link_l2 al d (new_sector_of i s) = some (al1, d1) ∧ AllocInv al1 ∧
      WF3 d1 D al1 i (l1_count i) (l2_count (i + 1)) ∧
      (∀ x, slot_live3 i (l1_count i) (l2_count i) x → slot_sector d1 D x = slot_sector d D x) ∧
      (∀ t, in_use al t → in_use al1 t) ∧
      (∀ x, slot_live3 i (l1_count i) (l2_count (i + 1)) x →
        ¬ slot_live3 i (l1_count i) (l2_count i) x → ¬ in_use al (slot_sector d1 D x)) ∧
      free_count al1.free_map + (if (i - 93) % 16384 = 0 then 1 else 0)
        = free_count al.free_map ∧
      al1.malloc_ok = al.malloc_ok ∧ d1.size = d.size ∧ d1.is_dir = d.is_dir ∧
      d1.l0_blocks = d.l0_blocks := by
  unfold resize_link_l2
  rw [new_sector_of_multi hi93]
  simp only
  by_cases hA : (i - 93) % 16384 = 0
  · rw [if_pos hA] at hfree
    rw [if_pos (by omega)]
    obtain ⟨a, halloc, hafree, hcount⟩ := @free_map_allocate_spec al (by omega)
    rw [halloc]
    have e2 : l2_count i = (i - 93) / 128 / 128 := by unfold l2_count; omega
    have e3 : l2_count (i + 1) = (i - 93) / 128 / 128 + 1 := by unfold l2_count; omega
    have hpres : ∀ x, slot_live3 i (l1_count i) (l2_count i) x →
        slot_sector { d with l2_blocks := Function.update d.l2_blocks ((i - 93) / 128 / 128) a }
          D x = slot_sector d D x := by
      apply slot_sector_congr3 hwf.shape0 hwf.shape1
      · intro a' ha'
        simp only
        rw [Function.update_noteq (by omega)]
      · intro _ _ _; rfl
      · intro _ _; rfl
      · intro _ _; rfl
    refine ⟨_, _, rfl, alloc_inv_set hal _ _, ?_, hpres, fun t ht => in_use_set_true ht, ?_,
      by rw [if_pos hA]; exact hcount, rfl, rfl, rfl, rfl⟩
    · apply WF3_add hwf (Slot.l2 ((i - 93) / 128 / 128)) _ hpres
        (fun t ht => in_use_set_true ht)
      · rw [slot_sector_l2]
        simp only [Function.update_same]
        exact in_use_set_self hafree
      · intro y hy heq
        rw [slot_sector_l2] at heq
        simp only [Function.update_same] at heq
        have := hwf.used y hy
        rw [heq] at this
        exact not_in_use_of_free hafree this
      · exact hwf.shape0
      · rw [e3]; have := hwf.shape1; rw [e2] at this; omega
      · intro x hx
        cases x with
        | data i' => simp only [slot_live3] at hx ⊢; left; exact hx
        | l1 k => simp only [slot_live3] at hx ⊢; left; exact hx
        | l2 a' =>
          simp only [slot_live3] at hx ⊢
          by_cases c : a' < l2_count i
          · left; exact c
          · right; congr 1; omega
    · intro x hx hnx
      cases x with
      | data i' => simp only [slot_live3] at hx hnx; exact absurd hx hnx
      | l1 k => simp only [slot_live3] at hx hnx; exact absurd hx hnx
      | l2 a' =>
        simp only [slot_live3] at hx hnx
        have : a' = (i - 93) / 128 / 128 := by omega
        subst this
        rw [slot_sector_l2]
        simp only [Function.update_same]
        exact not_in_use_of_free hafree
  · rw [if_neg (by omega)]
    have e3 : l2_count (i + 1) = l2_count i := by unfold l2_count; omega
    rw [e3]
    exact ⟨al, d, rfl, hal, hwf, fun _ _ => rfl, fun _ h => h, fun x hx hnx => absurd hx hnx,
      by rw [if_neg hA]; rfl, rfl, rfl, rfl, rfl⟩

/-- Second loop of `inode_data_resize`, L1 part, when the free map has room: a new L1 block is
allocated and entered in its L2 block when sector `i` starts one, and the block map stays
well formed. -/
theorem resize_link_l1_spec {io : Io} {al : Alloc} {d : inode_data} {i : Nat} (s : Nat)
    (hinv : IoInv io) (hal : AllocInv al) (hi93 : 93 ≤ i)
    (hwf : WF3 d (disk io) al i (l1_count i) (l2_count (i + 1)))
    (hfree : (if (i - 93) % 128 = 0 then 1 else 0) ≤ free_count al.free_map) :
    ∃ io1 al2, resize_link_l1 io al d (new_sector_of i s) = some (some (io1, al2)) ∧
      IoInv io1 ∧ AllocInv al2 ∧ io1.ticks = io.ticks ∧
      WF3 d (disk io1) al2 i (l1_count (i + 1)) (l2_count (i + 1)) ∧
      (∀ x, slot_live3 i (l1_count i) (l2_count (i + 1)) x →
        slot_sector d (disk io1) x = slot_sector d (disk io) x) ∧
      (∀ t, in_use al t → in_use al2 t) ∧
      (∀ x, slot_live3 i (l1_count (i + 1)) (l2_count (i + 1)) x →
        ¬ slot_live3 i (l1_count i) (l2_count (i + 1)) x →
        ¬ in_use al (slot_sector d (disk io1) x)) ∧
      free_count al2.free_map + (if (i - 93) % 128 = 0 then 1 else 0)
        = free_count al.free_map ∧
      al2.malloc_ok = al.malloc_ok ∧
      (∀ t, t ≠ d.l2_blocks ((i - 93) / 128 / 128) → disk io1 t = disk io t) := by
  unfold resize_link_l1
  rw [new_sector_of_multi hi93]
  simp only
  by_cases hB : (i - 93) % 128 = 0
  · rw [if_pos hB] at hfree
    rw [if_pos hB]
    obtain ⟨b, halloc, hbfree, hcount⟩ := @free_map_allocate_spec al (by omega)
    rw [halloc]
    simp only
    have e1 : l1_count i = (i - 93) / 128 := by unfold l1_count; omega
    have e1' : l1_count (i + 1) = (i - 93) / 128 + 1 := by unfold l1_count; omega
    have e2' : (i - 93) / 128 / 128 < l2_count (i + 1) := by unfold l2_count; omega
    have hT := hwf.used (Slot.l2 ((i - 93) / 128 / 128)) e2'
    rw [slot_sector_l2] at hT
    obtain ⟨io1, hw, hinv1, hd1, ht1⟩ := @fs_cache_write_spec _ hinv _ (in_use_ne_none hal hT).1
      (u32_bytes b) ((i - 93) / 128 % 128 * 4) 4 (by rw [const_sector]; omega)
    rw [hw]
    have hb2 : in_use { al with free_map := al.free_map.set b true } b := in_use_set_self hbfree
    have hpres : ∀ x, slot_live3 i (l1_count i) (l2_count (i + 1)) x →
        slot_sector d (disk io1) x = slot_sector d (disk io) x := by
      rw [hd1]
      apply slot_sector_write3 _ hwf.shape0
      · intro k hk ⟨h1, h2⟩
        have hk2 : k / 128 < l2_count (i + 1) := by have := hwf.shape1; omega
        have := hwf.inj (Slot.l2 (k / 128)) (Slot.l2 ((i - 93) / 128 / 128)) hk2 e2' h1
        simp only [Slot.l2.injEq] at this
        omega
      · intro i' hi' hi'' ⟨h1, _⟩
        have hk1 : (i' - 93) / 128 < l1_count i := by rw [e1]; omega
        have := hwf.inj (Slot.l1 ((i' - 93) / 128)) (Slot.l2 ((i - 93) / 128 / 128)) hk1 e2' h1
        cases this
    have hnew : slot_sector d (disk io1) (Slot.l1 ((i - 93) / 128)) = b := by
      rw [slot_sector_l1, hd1]
      unfold l1_sector
      exact rd32_disk_write_same (in_use_ne_none (alloc_inv_set hal _ _) hb2).2
    refine ⟨io1, _, rfl, hinv1, alloc_inv_set hal _ _, ht1, ?_, hpres,
      fun t ht => in_use_set_true ht, ?_, by rw [if_pos hB]; exact hcount, rfl, ?_⟩
    · apply WF3_add hwf (Slot.l1 ((i - 93) / 128)) _ hpres (fun t ht => in_use_set_true ht)
      · rw [hnew]; exact hb2
      · intro y hy heq
        rw [hnew] at heq
        have := hwf.used y hy
        rw [heq] at this
        exact not_in_use_of_free hbfree this
      · rw [e1']; omega
      · rw [e1']; have := hwf.shape1; omega
      · intro x hx
        cases x with
        | data i' => simp only [slot_live3] at hx ⊢; left; exact hx
        | l1 k =>
          simp only [slot_live3] at hx ⊢
          by_cases c : k < l1_count i
          · left; exact c
          · right; congr 1; omega
        | l2 a' => simp only [slot_live3] at hx ⊢; left; exact hx
    · intro x hx hnx
      cases x with
      | data i' => simp only [slot_live3] at hx hnx; exact absurd hx hnx
      | l1 k =>
        simp only [slot_live3] at hx hnx
        have : k = (i - 93) / 128 := by omega
        subst this
        rw [hnew]
        exact not_in_use_of_free hbfree
      | l2 a' => simp only [slot_live3] at hx hnx; exact absurd hx hnx
    · intro t ht
      rw [hd1]
      exact disk_write_other _ ht
  · rw [if_neg hB]
    have e1' : l1_count (i + 1) = l1_count i := by unfold l1_count; omega
    rw [e1']
    exact ⟨io, al, rfl, hinv, hal, rfl, hwf, fun _ _ => rfl, fun _ h => h,
      fun x hx hnx => absurd hx hnx, by rw [if_neg hB]; rfl, rfl, fun _ _ => rfl⟩

/-- Second loop of `inode_data_resize`, last part: the new data sector is entered in its L1
block, and the block map stays well formed with one data sector more. -/
theorem resize_link_data_spec {io : Io} {al : Alloc} {d : inode_data} {i s : Nat}
    (hinv : IoInv io) (hal : AllocInv al) (hi93 : 93 ≤ i)
    (hwf : WF3 d (disk io) al i (l1_count (i + 1)) (l2_count (i + 1)))
    (hs : in_use al s)
    (hfresh : ∀ x, slot_live3 i (l1_count (i + 1)) (l2_count (i + 1)) x →
      slot_sector d (disk io) x ≠ s) :
    ∃ io2 buf io3,
      fs_cache_read io (d.l2_blocks ((i - 93) / 128 / 128)) (fun _ => 0)
        ((i - 93) / 128 % 128 * 4) 4 = some (io2, buf) ∧
      fs_cache_write io2 (get_u32 buf 0) (u32_bytes s) ((i - 93) % 128 * 4) 4 = some io3 ∧
      IoInv io3 ∧ io3.ticks = io.ticks ∧
      WF3 d (disk io3) al (i + 1) (l1_count (i + 1)) (l2_count (i + 1)) ∧
      (∀ x, slot_live3 i (l1_count (i + 1)) (l2_count (i + 1)) x →
        slot_sector d (disk io3) x = slot_sector d (disk io) x) ∧
      data_sector d (disk io3) i = s ∧
      (∀ t, t ≠ l1_sector d (disk io) ((i - 93) / 128) → disk io3 t = disk io t) := by
  have e1 : (i - 93) / 128 < l1_count (i + 1) := by unfold l1_count; omega
  have e2 : (i - 93) / 128 / 128 < l2_count (i + 1) := by unfold l2_count; omega
  have hT := hwf.used (Slot.l2 ((i - 93) / 128 / 128)) e2
  rw [slot_sector_l2] at hT
  have hM := hwf.used (Slot.l1 ((i - 93) / 128)) e1
  rw [slot_sector_l1] at hM
  obtain ⟨io2, buf, hr, hv, hinv2, hd2, ht2⟩ :=
    @fs_cache_read_u32 _ hinv _ (in_use_ne_none hal hT).1 ((i - 93) / 128 % 128) (by omega)
  have hv' : get_u32 buf 0 = l1_sector d (disk io) ((i - 93) / 128) := hv
  obtain ⟨io3, hw, hinv3, hd3, ht3⟩ := @fs_cache_write_spec _ hinv2
    (l1_sector d (disk io) ((i - 93) / 128)) (in_use_ne_none hal hM).1
    (u32_bytes s) ((i - 93) % 128 * 4) 4 (by rw [const_sector]; omega)
  rw [hd2] at hd3
  have hpres : ∀ x, slot_live3 i (l1_count (i + 1)) (l2_count (i + 1)) x →
      slot_sector d (disk io3) x = slot_sector d (disk io) x := by
    rw [hd3]
    apply slot_sector_write3 _ hwf.shape0
    · intro k hk ⟨h1, _⟩
      have hk2 : k / 128 < l2_count (i + 1) := by have := hwf.shape1; omega
      have := hwf.inj (Slot.l2 (k / 128)) (Slot.l1 ((i - 93) / 128)) hk2 e1 h1
      cases this
    · intro i' hi' hi'' ⟨h1, h2⟩
      have hk1 : (i' - 93) / 128 < l1_count (i + 1) := by unfold l1_count; omega
      have := hwf.inj (Slot.l1 ((i' - 93) / 128)) (Slot.l1 ((i - 93) / 128)) hk1 e1 h1
      simp only [Slot.l1.injEq] at this
      omega
  have hdata : data_sector d (disk io3) i = s := by
    unfold data_sector
    rw [if_neg (by omega)]
    have := hpres (Slot.l1 ((i - 93) / 128)) e1
    rw [slot_sector_l1, slot_sector_l1] at this
    rw [this, hd3]
    exact rd32_disk_write_same (in_use_ne_none hal hs).2
  refine ⟨io2, buf, io3, hr, by rw [hv']; exact hw, hinv3, by rw [ht3, ht2], ?_, hpres, hdata, ?_⟩
  · apply WF3_add hwf (Slot.data i) _ hpres (fun t ht => ht)
    · rw [slot_sector_data, hdata]; exact hs
    · intro y hy heq
      rw [slot_sector_data, hdata] at heq
      exact hfresh y hy heq
    · unfold l1_count; omega
    · exact hwf.shape1
    · intro x hx
      cases x with
      | data i' =>
        simp only [slot_live3] at hx ⊢
        by_cases c : i' < i
        · left; exact c
        · right; congr 1; omega
      | l1 k => simp only [slot_live3] at hx ⊢; left; exact hx
      | l2 a' => simp only [slot_live3] at hx ⊢; left; exact hx
  · intro t ht
    rw [hd3]
    exact disk_write_other _ ht

theorem slot_live3_mono {n0 n1 n2 m0 m1 m2 : Nat} (h0 : n0 ≤ m0) (h1 : n1 ≤ m1) (h2 : n2 ≤ m2)
    {x : Slot} (hx : slot_live3 n0 n1 n2 x) : slot_live3 m0 m1 m2 x := by
  cases x <;> simp only [slot_live3] at hx ⊢ <;> omega

theorem l1_count_mono (n : Nat) : l1_count n ≤ l1_count (n + 1) := by
  unfold l1_count; omega

theorem l2_count_mono (n : Nat) : l2_count n ≤ l2_count (n + 1) := by
  unfold l2_count; omega

/-- One iteration of the second loop of `inode_data_resize` when the free map has room for
the index blocks it needs: the new sector `s` becomes data sector `i` of the file. -/
theorem resize_link_one_spec {io : Io} {al : Alloc} {d : inode_data} {i s : Nat}
    (hinv : IoInv io) (hal : AllocInv al) (hwf : FileWF d (disk io) al i)
    (hs : in_use al s) (hfresh : ∀ x, slot_live i x → slot_sector d (disk io) x ≠ s)
    (hfree : link_need i ≤ free_count al.free_map) :
    ∃ io' al' d', resize_link_one io al d (new_sector_of i s) = some (io', al', d', true) ∧
      IoInv io' ∧ AllocInv al' ∧ io'.ticks = io.ticks ∧
      FileWF d' (disk io') al' (i + 1) ∧
      (∀ x, slot_live i x → slot_sector d' (disk io') x = slot_sector d (disk io) x) ∧
      data_sector d' (disk io') i = s ∧
      (∀ t, in_use al t → in_use al' t) ∧
      (∀ x, slot_live (i + 1) x → x.is_index → ¬ slot_live i x →
        ¬ in_use al (slot_sector d' (disk io') x)) ∧
      free_count al'.free_map + link_need i = free_count al.free_map ∧
      al'.malloc_ok = al.malloc_ok ∧
      (∀ t, (∀ x, slot_live (i + 1) x → x.is_index → slot_sector d' (disk io') x ≠ t) →
        disk io' t = disk io t) ∧
      d'.size = d.size ∧ d'.is_dir = d.is_dir := by
  by_cases hi93 : 93 ≤ i
  · -- a sector behind the direct ones
    have hwf3 := (FileWF_iff_WF3 _ _ _ _).mp hwf
    have hneed : link_need i = (if (i - 93) % 16384 = 0 then 1 else 0)
        + (if (i - 93) % 128 = 0 then 1 else 0) := by
      unfold link_need
      simp only [hi93, true_and]
    rw [hneed] at hfree ⊢
    obtain ⟨al1, d1, hA, hal1, hwfA, hpresA, hmonoA, hnewA, hcntA, hmA, hsizeA, hdirA, _⟩ :=
      resize_link_l2_spec s hal hi93 hwf3 (by omega)
    obtain ⟨io1, al2, hB, hinv1, hal2, ht1, hwfB, hpresB, hmonoB, hnewB, hcntB, hmB, hframeB⟩ :=
      resize_link_l1_spec s hinv hal1 hi93 hwfA (by omega)
    have hfreshC : ∀ x, slot_live3 i (l1_count (i + 1)) (l2_count (i + 1)) x →
        slot_sector d1 (disk io1) x ≠ s := by
      intro x hx heq
      by_cases c1 : slot_live3 i (l1_count i) (l2_count (i + 1)) x
      · rw [hpresB x c1] at heq
        by_cases c0 : slot_live3 i (l1_count i) (l2_count i) x
        · rw [hpresA x c0] at heq
          exact hfresh x ((slot_live_iff i x).mpr c0) heq
        · apply hnewA x c1 c0
          rw [heq]; exact hs
      · apply hnewB x hx c1
        rw [heq]; exact hmonoA _ hs
    obtain ⟨io2, buf, io3, hr, hw, hinv3, ht3, hwfC, hpresC, hdata, hframeC⟩ :=
      resize_link_data_spec hinv1 hal2 hi93 hwfB (hmonoB _ (hmonoA _ hs)) hfreshC
    have hm := new_sector_of_multi hi93 s
    rw [hm] at hA hB
    have hcode : resize_link_one io al d (new_sector_of i s) = some (io3, al2, d1, true) := by
      unfold resize_link_one
      rw [hm]
      simp only [if_true, hA, hB, hr, hw]
    have hidx : ∀ x, slot_live (i + 1) x → x.is_index →
        slot_live3 i (l1_count (i + 1)) (l2_count (i + 1)) x := by
      intro x hx hix
      have := (slot_live_iff (i + 1) x).mp hx
      cases x with
      | data i' => exact absurd hix (by simp [Slot.is_index])
      | l1 k => simp only [slot_live3] at this ⊢; exact this
      | l2 a => simp only [slot_live3] at this ⊢; exact this
    have hold : ∀ x, slot_live i x → slot_live3 i (l1_count i) (l2_count (i + 1)) x :=
      fun x hx => slot_live3_mono (le_refl _) (le_refl _) (l2_count_mono i)
        ((slot_live_iff i x).mp hx)
    have hold' : ∀ x, slot_live i x → slot_live3 i (l1_count (i + 1)) (l2_count (i + 1)) x :=
      fun x hx => slot_live3_mono (le_refl _) (l1_count_mono i) (l2_count_mono i)
        ((slot_live_iff i x).mp hx)
    refine ⟨io3, al2, d1, hcode, hinv3, hal2, by rw [ht3, ht1], (FileWF_iff_WF3 _ _ _ _).mpr hwfC,
      ?_, hdata, fun t ht => hmonoB _ (hmonoA _ ht), ?_, by omega, by rw [hmB, hmA], ?_,
      hsizeA, hdirA⟩
    · intro x hx
      rw [hpresC x (hold' x hx), hpresB x (hold x hx), hpresA x ((slot_live_iff i x).mp hx)]
    · intro x hx hix hnx
      have h3 := hidx x hx hix
      rw [hpresC x h3]
      by_cases c1 : slot_live3 i (l1_count i) (l2_count (i + 1)) x
      · rw [hpresB x c1]
        exact hnewA x c1 (fun h => hnx ((slot_live_iff i x).mpr h))
      · exact fun h => hnewB x h3 c1 (hmonoA _ h)
    · intro t ht
      have hk : slot_live (i + 1) (Slot.l1 ((i - 93) / 128)) := by
        simp only [slot_live]; omega
      have ha : slot_live (i + 1) (Slot.l2 ((i - 93) / 128 / 128)) := by
        simp only [slot_live]; omega
      have h1 := ht _ hk trivial
      rw [hpresC _ (hidx _ hk trivial), slot_sector_l1] at h1
      have h2 := ht _ ha trivial
      rw [slot_sector_l2] at h2
      rw [hframeC t (Ne.symm h1), hframeB t (Ne.symm h2)]
  · -- a direct sector
    have hi93' : i < 93 := by omega
    have hneed : link_need i = 0 := by
      unfold link_need
      rw [if_neg (by omega), if_neg (by omega)]
    have hcode : resize_link_one io al d (new_sector_of i s)
        = some (io, al, { d with l0_blocks := Function.update d.l0_blocks i s }, true) := by
      unfold resize_link_one
      rw [new_sector_of_direct hi93']
      simp
    have hwf3 := (FileWF_iff_WF3 _ _ _ _).mp hwf
    have hpres3 : ∀ x, slot_live3 i (l1_count i) (l2_count i) x →
        slot_sector { d with l0_blocks := Function.update d.l0_blocks i s } (disk io) x
          = slot_sector d (disk io) x := by
      apply slot_sector_congr3 hwf3.shape0 hwf3.shape1
      · intro _ _; rfl
      · intro i' hi' _
        simp only
        rw [Function.update_noteq (by omega)]
      · intro _ _; rfl
      · intro _ _; rfl
    have hpres : ∀ x, slot_live i x →
        slot_sector { d with l0_blocks := Function.update d.l0_blocks i s } (disk io) x
          = slot_sector d (disk io) x :=
      fun x hx => hpres3 x ((slot_live_iff i x).mp hx)
    have hdata : data_sector { d with l0_blocks := Function.update d.l0_blocks i s } (disk io) i
        = s := by
      unfold data_sector
      rw [if_pos hi93']
      simp only [Function.update_same]
    have e1 : l1_count (i + 1) = 0 := by unfold l1_count; omega
    have e2 : l2_count (i + 1) = 0 := by unfold l2_count; omega
    have e1' : l1_count i = 0 := by unfold l1_count; omega
    have e2' : l2_count i = 0 := by unfold l2_count; omega
    refine ⟨io, al, _, hcode, hinv, hal, rfl, ?_, hpres, hdata, fun t ht => ht, ?_,
      by rw [hneed]; rfl, rfl, fun _ _ => rfl, rfl, rfl⟩
    · rw [FileWF_iff_WF3]
      apply WF3_add hwf3 (Slot.data i) _ hpres3 (fun t ht => ht)
      · rw [slot_sector_data, hdata]; exact hs
      · intro y hy heq
        rw [slot_sector_data, hdata] at heq
        exact hfresh y ((slot_live_iff i y).mpr hy) heq
      · omega
      · omega
      · intro x hx
        rw [e1, e2] at hx
        rw [e1', e2']
        cases x with
        | data i' =>
          simp only [slot_live3] at hx ⊢
          by_cases c : i' < i
          · left; exact c
          · right; congr 1; omega
        | l1 k => simp only [slot_live3] at hx; omega
        | l2 a' => simp only [slot_live3] at hx; omega
    · intro x hx hix hnx
      cases x with
      | data i' => exact absurd hix (by simp [Slot.is_index])
      | l1 k => simp only [slot_live] at hx; omega
      | l2 a' => simp only [slot_live] at hx; omega

theorem link_total_succ (lo cnt : Nat) :
    link_total lo (cnt + 1) = link_need lo + link_total (lo + 1) cnt := by
  unfold link_total
  rw [List.range'_succ]
  simp

theorem slot_new_index_or_data {n : Nat} {x : Slot} (h1 : slot_live (n + 1) x)
    (h0 : ¬ slot_live n x) : x = Slot.data n ∨ x.is_index := by
  cases x with
  | data i =>
    simp only [slot_live] at h1 h0
    left; congr 1; omega
  | l1 k => right; trivial
  | l2 a => right; trivial

/-- The second loop of `inode_data_resize` when the free map has room for the index blocks:
the new sectors `secs` become the data sectors `lo`, `lo + 1`, ... of the file. -/
theorem resize_link_spec (secs : List Nat) : ∀ {io : Io} {al : Alloc} {d : inode_data} {lo : Nat},
    IoInv io → AllocInv al → FileWF d (disk io) al lo →
    (∀ s ∈ secs, in_use al s) → secs.Nodup →
    (∀ s ∈ secs, ∀ x, slot_live lo x → slot_sector d (disk io) x ≠ s) →
    link_total lo secs.length ≤ free_count al.free_map →
    ∃ io' al' d',
      resize_link (List.zipWith new_sector_of (List.range' lo secs.length) secs) io al d
        = some (io', al', d') ∧
      IoInv io' ∧ AllocInv al' ∧ io'.ticks = io.ticks ∧
      FileWF d' (disk io') al' (lo + secs.length) ∧
      (∀ x, slot_live lo x → slot_sector d' (disk io') x = slot_sector d (disk io) x) ∧
      (∀ j s, secs[j]? = some s → data_sector d' (disk io') (lo + j) = s) ∧
      (∀ t, in_use al t → in_use al' t) ∧
      (∀ x, slot_live (lo + secs.length) x → x.is_index → ¬ slot_live lo x →
        ¬ in_use al (slot_sector d' (disk io') x)) ∧
      free_count al'.free_map + link_total lo secs.length = free_count al.free_map ∧
      al'.malloc_ok = al.malloc_ok ∧
      (∀ t, (∀ x, slot_live (lo + secs.length) x → x.is_index →
          slot_sector d' (disk io') x ≠ t) → disk io' t = disk io t) ∧
      d'.size = d.size ∧ d'.is_dir = d.is_dir := by
  induction secs with
  | nil =>
    intro io al d lo hinv hal hwf _ _ _ _
    refine ⟨io, al, d, rfl, hinv, hal, rfl, hwf, fun _ _ => rfl, ?_, fun _ h => h, ?_, ?_, rfl,
      fun _ _ => rfl, rfl, rfl⟩
    · intro j s h; simp at h
    · intro x hx _ hnx; exact absurd hx hnx
    · simp [link_total]
  | cons s rest ih =>
    intro io al d lo hinv hal hwf huse hnd hfresh hfree
    have hlen : (s :: rest).length = rest.length + 1 := rfl
    rw [hlen] at hfree ⊢
    rw [link_total_succ] at hfree ⊢
    rw [List.nodup_cons] at hnd
    obtain ⟨io1, al1, d1, hstep, hinv1, hal1, ht1, hwf1, hpres1, hdata1, hmono1, hnew1, hcnt1,
        hm1, hframe1, hsize1, hdir1⟩ :=
      resize_link_one_spec hinv hal hwf (huse s (List.mem_cons_self _ _))
        (hfresh s (List.mem_cons_self _ _)) (by omega)
    have hfresh1 : ∀ s' ∈ rest, ∀ x, slot_live (lo + 1) x → slot_sector d1 (disk io1) x ≠ s' := by
      intro s' hs' x hx heq
      by_cases c : slot_live lo x
      · rw [hpres1 x c] at heq
        exact hfresh s' (List.mem_cons_of_mem _ hs') x c heq
      · rcases slot_new_index_or_data hx c with h | h
        · rw [h, slot_sector_data, hdata1] at heq
          rw [heq] at hnd
          exact hnd.1 hs'
        · apply hnew1 x hx h c
          rw [heq]
          exact huse s' (List.mem_cons_of_mem _ hs')
    obtain ⟨io2, al2, d2, hrest, hinv2, hal2, ht2, hwf2, hpres2, hdata2, hmono2, hnew2, hcnt2,
        hm2, hframe2, hsize2, hdir2⟩ :=
      ih hinv1 hal1 hwf1 (fun s' hs' => hmono1 _ (huse s' (List.mem_cons_of_mem _ hs'))) hnd.2
        hfresh1 (by omega)
    have hadd : lo + (rest.length + 1) = lo + 1 + rest.length := by omega
    rw [hadd]
    have hlive1 : ∀ x, slot_live lo x → slot_live (lo + 1) x :=
      fun x hx => slot_live_mono (by omega) hx
    have hlive2 : ∀ x, slot_live (lo + 1) x → slot_live (lo + 1 + rest.length) x :=
      fun x hx => slot_live_mono (by omega) hx
    refine ⟨io2, al2, d2, ?_, hinv2, hal2, by rw [ht2, ht1], hwf2, ?_, ?_,
      fun t ht => hmono2 _ (hmono1 _ ht), ?_, by omega, by rw [hm2, hm1], ?_,
      by rw [hsize2, hsize1], by rw [hdir2, hdir1]⟩
    · rw [List.range'_succ, List.zipWith_cons_cons]
      simp only [resize_link, hstep]
      exact hrest
    · intro x hx
      rw [hpres2 x (hlive1 x hx), hpres1 x hx]
    · intro j s' hj
      cases j with
      | zero =>
        simp only [List.getElem?_cons_zero, Option.some.injEq] at hj
        subst hj
        have := hpres2 (Slot.data lo) (by simp only [slot_live]; omega)
        rw [slot_sector_data, slot_sector_data] at this
        rw [Nat.add_zero, this, hdata1]
      | succ j' =>
        simp only [List.getElem?_cons_succ] at hj
        have := hdata2 j' s' hj
        have e : lo + (j' + 1) = lo + 1 + j' := by omega
        rw [e]; exact this
    · intro x hx hix hnx
      by_cases c : slot_live (lo + 1) x
      · rw [hpres2 x c]
        exact hnew1 x c hix hnx
      · exact fun h => hnew2 x hx hix c (hmono1 _ h)
    · intro t ht
      rw [hframe2 t ht]
      apply hframe1 t
      intro x hx hix
      have := ht x (hlive2 x hx) hix
      rw [hpres2 x hx] at this
      exact this

theorem disk_write_zero (io : Io) (s k : Nat) :
    disk_write (disk io) s 0 (fun _ => 0) BLOCK_SECTOR_SIZE s k = 0 := by
  unfold disk_write
  by_cases c : k < BLOCK_SECTOR_SIZE
  · rw [if_pos ⟨rfl, by omega, by omega⟩]
  · rw [if_neg (by omega)]
    exact disk_out_of_range io s (by omega)

/-- The first loop of `inode_data_resize` when `malloc` succeeds and the free map has room:
one fresh sector is allocated and zeroed for every index. -/
theorem resize_allocate_spec (idxs : List Nat) :
    ∀ {io : Io} {al : Alloc} (acc : List new_sector_elem),
    IoInv io → AllocInv al → (∀ k, al.malloc_ok k = true) →
    idxs.length ≤ free_count al.free_map →
    ∃ io' al' secs,
      resize_allocate idxs io al acc
        = some (io', al', acc ++ List.zipWith new_sector_of idxs secs, true) ∧
      secs.length = idxs.length ∧ IoInv io' ∧ AllocInv al' ∧ io'.ticks = io.ticks ∧
      secs.Nodup ∧
      (∀ s ∈ secs, ¬ in_use al s ∧ in_use al' s ∧ ∀ k, disk io' s k = 0) ∧
      (∀ t, in_use al t → in_use al' t) ∧
      (∀ t, t ∉ secs → disk io' t = disk io t) ∧
      free_count al'.free_map + idxs.length = free_count al.free_map ∧
      (∀ k, al'.malloc_ok k = true) := by
  induction idxs with
  | nil =>
    intro io al acc hinv hal hm _
    exact ⟨io, al, [], by simp [resize_allocate], rfl, hinv, hal, rfl, List.nodup_nil,
      by simp, fun _ h => h, fun _ _ => rfl, rfl, hm⟩
  | cons i rest ih =>
    intro io al acc hinv hal hm hfree
    simp only [List.length_cons] at hfree ⊢
    have hmal : malloc al = ({ al with malloc_calls := al.malloc_calls + 1 }, true) := by
      unfold malloc
      rw [hm]
    obtain ⟨s, halloc, hsfree, hcount⟩ :=
      @free_map_allocate_spec { al with malloc_calls := al.malloc_calls + 1 }
        (by simp only; omega)
    simp only at halloc hsfree hcount
    have hslt : s < al.free_map.length := (List.getElem?_eq_some.mp hsfree).1
    have hsne : s ≠ SECTOR_NONE := by
      unfold AllocInv at hal
      omega
    obtain ⟨io1, hw, hinv1, hd1, ht1⟩ := @fs_cache_write_spec _ hinv _ hsne (fun _ => 0)
      0 BLOCK_SECTOR_SIZE (by omega)
    have hal2 : AllocInv (Alloc.mk (al.free_map.set s true) al.malloc_ok (al.malloc_calls + 1)) := by
      unfold AllocInv at hal ⊢
      simpa using hal
    obtain ⟨io2, al3, secs, hrun, hlen, hinv2, hal3, ht2, hnd, hsecs, hmono, hframe, hcnt, hm3⟩ :=
      @ih io1 (Alloc.mk (al.free_map.set s true) al.malloc_ok (al.malloc_calls + 1))
        (acc ++ [new_sector_of i s]) hinv1 hal2 hm
        (by simp only; omega)
    have hs2 : in_use (Alloc.mk (al.free_map.set s true) al.malloc_ok (al.malloc_calls + 1)) s := by
      unfold in_use
      simp [List.getElem?_set, hslt]
    have hmono0 : ∀ t, in_use al t → in_use (Alloc.mk (al.free_map.set s true) al.malloc_ok (al.malloc_calls + 1)) t := by
      intro t ht
      exact @in_use_set_true al _ _ ht
    have hsnot : s ∉ secs := fun h => (hsecs s h).1 hs2
    refine ⟨io2, al3, s :: secs, ?_, by simp [hlen], hinv2, hal3, by rw [ht2, ht1],
      List.nodup_cons.mpr ⟨hsnot, hnd⟩, ?_, fun t ht => hmono _ (hmono0 t ht), ?_,
      by simp only at hcnt; omega, hm3⟩
    · unfold resize_allocate
      rw [hmal]
      simp only [halloc, zero_out, FS_WRITE_BLOCK, hw, hrun, List.zipWith_cons_cons,
        List.append_assoc, List.singleton_append]
    · intro s' hs'
      rcases List.mem_cons.mp hs' with h | h
      · subst h
        refine ⟨not_in_use_of_free hsfree, hmono _ hs2, ?_⟩
        intro k
        rw [hframe _ hsnot, hd1]
        exact disk_write_zero io _ k
      · obtain ⟨h1, h2, h3⟩ := hsecs s' h
        exact ⟨fun hu => h1 (hmono0 _ hu), h2, h3⟩
    · intro t ht
      rw [List.mem_cons, not_or] at ht
      rw [hframe t ht.2, hd1]
      exact disk_write_other _ ht.1

theorem FileWF_index_ne_data {d : inode_data} {D : Nat → Nat → Nat} {al : Alloc} {n : Nat}
    (hwf : FileWF d D al n) {i : Nat} (hi : i < n) {x : Slot} (hx : slot_live n x)
    (hix : x.is_index) : slot_sector d D x ≠ data_sector d D i := by
  intro heq
  have := hwf.inj x (Slot.data i) hx hi heq
  subst this
  exact hix

/-- The function `inode_data_resize` on a well-formed file when `malloc` succeeds and the
free map has room for the sectors of the growth: it returns true, the file has the new size and
is well formed, the bytes it had are unchanged and the new bytes are zero. -/
theorem inode_data_resize_spec {io : Io} {al : Alloc} {d : inode_data} {a_size : Nat}
    (hinv : IoInv io) (hal : AllocInv al) (hm : ∀ k, al.malloc_ok k = true)
    (hfile : FileInv d (disk io) al) (hsz : d.size ≤ a_size) (hmax : a_size ≤ MAX_BYTES)
    (hfree : grow_need (bytes_to_sectors d.size)
      (bytes_to_sectors a_size - bytes_to_sectors d.size) ≤ free_count al.free_map) :
    ∃ io' al' d', inode_data_resize io al d a_size = some (io', al', d', true) ∧
      IoInv io' ∧ AllocInv al' ∧ io'.ticks = io.ticks ∧ (∀ k, al'.malloc_ok k = true) ∧
      d'.size = a_size ∧ d'.is_dir = d.is_dir ∧ FileInv d' (disk io') al' ∧
      (∀ x, slot_live (bytes_to_sectors d.size) x →
        slot_sector d' (disk io') x = slot_sector d (disk io) x) ∧
      (∀ t, in_use al t →
        (∀ x, slot_live (bytes_to_sectors d.size) x → x.is_index → slot_sector d (disk io) x ≠ t) →
        disk io' t = disk io t) ∧
      (∀ p, d.size.toNat ≤ p → p < a_size → file_byte d' (disk io') p = 0) ∧
      (∀ t, in_use al t → in_use al' t) ∧
      free_count al'.free_map + grow_need (bytes_to_sectors d.size)
        (bytes_to_sectors a_size - bytes_to_sectors d.size) = free_count al.free_map ∧
      (∀ x, slot_live (bytes_to_sectors a_size) x → ¬ slot_live (bytes_to_sectors d.size) x →
        ¬ in_use al (slot_sector d' (disk io') x)) := by
  obtain ⟨h0, hmaxd, hwf, hslack⟩ := hfile
  unfold MAX_BYTES at hmax hmaxd
  have hold : bytes_to_sectors d.size = (d.size.toNat + 511) / 512 :=
    bytes_to_sectors_eq h0 (by omega)
  have hnew : bytes_to_sectors (a_size : Int) = (a_size + 511) / 512 := by
    rw [bytes_to_sectors_eq (by omega) (by omega)]
    simp
  have hwrap : wrap_int (a_size : Int) = a_size := wrap_int_of_range (by omega) (by omega)
  have hu : to_u32 d.size = d.size.toNat := to_u32_of_nonneg h0 (by omega)
  generalize hno : bytes_to_sectors d.size = n_old at *
  generalize hnn : bytes_to_sectors (a_size : Int) = n_new at *
  unfold inode_data_resize
  rw [hu, hwrap, hno, hnn]
  rw [if_neg (by omega)]
  by_cases c1 : d.size.toNat = a_size
  · -- nothing to do
    rw [if_pos c1]
    have hcnt : n_new - n_old = 0 := by omega
    rw [hcnt]
    have hsz' : d.size = a_size := by omega
    have hnn0 : n_new = n_old := by omega
    refine ⟨io, al, d, rfl, hinv, hal, rfl, hm, hsz', rfl, ?_, fun _ _ => rfl,
      fun _ _ _ => rfl, ?_, fun _ h => h, by simp [grow_need, link_total], ?_⟩
    · exact ⟨h0, by unfold MAX_BYTES; exact hmaxd, by rw [hno]; exact hwf,
        by rw [hno]; exact hslack⟩
    · intro p hp1 hp2; omega
    · intro x hx hnx
      rw [hnn0] at hx
      exact absurd hx hnx
  · rw [if_neg c1]
    by_cases c2 : n_new = n_old
    · -- the last sector has room
      rw [if_pos c2]
      have hcnt : n_new - n_old = 0 := by omega
      rw [hcnt]
      have hno' : bytes_to_sectors (a_size : Int) = n_old := by rw [hnn, c2]
      refine ⟨io, al, { d with size := (a_size : Int) }, rfl, hinv, hal, rfl, hm, rfl, rfl, ?_,
        fun _ _ => rfl, fun _ _ _ => rfl, ?_, fun _ h => h, by simp [grow_need, link_total],
        fun x hx hnx => absurd (c2 ▸ hx) hnx⟩
      · refine ⟨by simp, by unfold MAX_BYTES; simp; omega, ?_, ?_⟩
        · simp only [hno']
          exact ⟨hwf.used, hwf.inj⟩
        · intro p hp1 hp2
          simp only [hno'] at hp2
          simp only [Int.toNat_ofNat] at hp1
          exact hslack p (by omega) hp2
      · intro p hp1 hp2
        exact hslack p hp1 (by omega)
    · -- new sectors
      rw [if_neg c2]
      have hlt : n_old < n_new := by omega
      have hfree1 : (List.range' n_old (n_new - n_old)).length ≤ free_count al.free_map := by
        rw [List.length_range']
        unfold grow_need at hfree
        omega
      obtain ⟨io1, al1, secs, hrun1, hlen, hinv1, hal1, ht1, hnd, hsecs, hmono1, hframe1, hcnt1,
          hm1⟩ := resize_allocate_spec (List.range' n_old (n_new - n_old)) [] hinv hal hm hfree1
      rw [List.length_range'] at hlen hcnt1
      rw [List.nil_append] at hrun1
      have hin_not : ∀ t, in_use al t → t ∉ secs := fun t ht h => (hsecs t h).1 ht
      have hpres1 : ∀ x, slot_live n_old x →
          slot_sector d (disk io1) x = slot_sector d (disk io) x := by
        apply slot_sector_congr (fun _ _ => rfl) (fun _ _ _ => rfl)
        · intro a ha
          exact hframe1 _ (hin_not _ (hwf.used (Slot.l2 a) ha))
        · intro k hk
          exact hframe1 _ (hin_not _ (hwf.used (Slot.l1 k) hk))
      have hwf1 : FileWF d (disk io1) al1 n_old := FileWF_congr hwf hpres1 hmono1
      have hfresh : ∀ s ∈ secs, ∀ x, slot_live n_old x → slot_sector d (disk io1) x ≠ s := by
        intro s hs x hx heq
        rw [hpres1 x hx] at heq
        exact hin_not _ (hwf.used x hx) (heq ▸ hs)
      obtain ⟨io2, al2, d2, hrun2, hinv2, hal2, ht2, hwf2, hpres2, hdata2, hmono2, hnew2, hcnt2,
          hm2, hframe2, hsize2, hdir2⟩ :=
        resize_link_spec secs hinv1 hal1 hwf1 (fun s hs => (hsecs s hs).2.1) hnd hfresh
          (by rw [hlen]; unfold grow_need at hfree; omega)
      rw [hlen] at hrun2 hwf2 hnew2 hcnt2 hframe2
      have hsum : n_old + (n_new - n_old) = n_new := by omega
      rw [hsum] at hwf2 hnew2 hframe2
      rw [hrun1]
      simp only [hrun2]
      have hnn' : bytes_to_sectors (a_size : Int) = n_new := hnn
      -- every data sector of the new file is outside the index blocks
      have hdata_frame : ∀ i, i < n_new →
          disk io2 (data_sector d2 (disk io2) i) = disk io1 (data_sector d2 (disk io2) i) := by
        intro i hi
        apply hframe2
        intro x hx hix
        exact FileWF_index_ne_data hwf2 hi hx hix
      have hold_sector : ∀ i, i < n_old →
          data_sector d2 (disk io2) i = data_sector d (disk io) i := by
        intro i hi
        have h1 := hpres2 (Slot.data i) hi
        have h2 := hpres1 (Slot.data i) hi
        rw [slot_sector_data, slot_sector_data] at h1 h2
        rw [h1, h2]
      have hbyte_old : ∀ p, p / 512 < n_old →
          file_byte d2 (disk io2) p = file_byte d (disk io) p := by
        intro p hp
        unfold file_byte
        have hu := hwf.used (Slot.data (p / 512)) hp
        rw [slot_sector_data] at hu
        rw [hdata_frame _ (by omega), hold_sector _ hp, hframe1 _ (hin_not _ hu)]
      have hbyte_new : ∀ p, n_old ≤ p / 512 → p / 512 < n_new →
          file_byte d2 (disk io2) p = 0 := by
        intro p hp1 hp2
        unfold file_byte
        have hj : p / 512 - n_old < secs.length := by omega
        have hget : secs[p / 512 - n_old]? = some secs[p / 512 - n_old] :=
          List.getElem?_eq_getElem hj
        have hds := hdata2 _ _ hget
        have e : n_old + (p / 512 - n_old) = p / 512 := by omega
        rw [e] at hds
        rw [hdata_frame _ hp2, hds]
        exact (hsecs _ (List.getElem_mem _)).2.2 _
      have hzero : ∀ p, d.size.toNat ≤ p → p < 512 * n_new →
          file_byte d2 (disk io2) p = 0 := by
        intro p hp1 hp2
        by_cases c : p / 512 < n_old
        · rw [hbyte_old p c]
          exact hslack p hp1 (by omega)
        · exact hbyte_new p (by omega) (by omega)
      refine ⟨io2, al2, { d2 with size := (a_size : Int) }, rfl, hinv2, hal2, by rw [ht2, ht1],
        fun k => by rw [hm2]; exact hm1 k, rfl, by simp only [hdir2], ?_, ?_, ?_, ?_,
        fun t ht => hmono2 _ (hmono1 _ ht), ?_, ?_⟩
      · refine ⟨by simp, by unfold MAX_BYTES; simp; omega, ?_, ?_⟩
        · simp only [hnn']
          exact ⟨hwf2.used, hwf2.inj⟩
        · intro p hp1 hp2
          simp only [hnn'] at hp2
          simp only [Int.toNat_ofNat] at hp1
          exact hzero p (by omega) hp2
      · intro x hx
        exact (hpres2 x hx).trans (hpres1 x hx)
      · intro t ht hidx
        rw [← hframe1 t (hin_not t ht)]
        apply hframe2
        intro x hx hix heq
        by_cases c : slot_live n_old x
        · rw [hpres2 x c, hpres1 x c] at heq
          exact hidx x c hix heq
        · apply hnew2 x hx hix c
          rw [heq]
          exact hmono1 _ ht
      · intro p hp1 hp2
        exact hzero p hp1 (by omega)
      · unfold grow_need
        omega
      · intro x hx hnx
        cases x with
        | data i =>
          simp only [slot_live] at hx hnx
          have hj : i - n_old < secs.length := by omega
          have hget : secs[i - n_old]? = some secs[i - n_old] := List.getElem?_eq_getElem hj
          have hds := hdata2 _ _ hget
          have e : n_old + (i - n_old) = i := by omega
          rw [e] at hds
          show ¬ in_use al (data_sector d2 (disk io2) i)
          rw [hds]
          exact (hsecs _ (List.getElem_mem _)).1
        | l1 k => exact fun h => hnew2 (Slot.l1 k) hx trivial hnx (hmono1 _ h)
        | l2 a => exact fun h => hnew2 (Slot.l2 a) hx trivial hnx (hmono1 _ h)

theorem MIN3_spec (a b c : Int) :
    MIN3 a b c ≤ a ∧ MIN3 a b c ≤ b ∧ MIN3 a b c ≤ c ∧
      (MIN3 a b c = a ∨ MIN3 a b c = b ∨ MIN3 a b c = c) := by
  unfold MIN3
  split_ifs <;> omega

theorem read_chunk_spec (size inode_left sector_left : Int) :
    (if size < (if inode_left < sector_left then inode_left else sector_left) then size
      else (if inode_left < sector_left then inode_left else sector_left))
      = MIN3 size inode_left sector_left := by
  unfold MIN3
  split_ifs <;> omega

/-- Writing into a data sector of a well-formed file leaves its block map as it is. -/
theorem FileWF_data_write {d : inode_data} {D : Nat → Nat → Nat} {al : Alloc} {n : Nat}
    (hwf : FileWF d D al n) {i : Nat} (hi : i < n) (off : Nat) (src : Nat → Nat) (len : Nat) :
    (∀ x, slot_live n x →
      slot_sector d (disk_write D (data_sector d D i) off src len) x = slot_sector d D x) ∧
    FileWF d (disk_write D (data_sector d D i) off src len) al n := by
  have hpres : ∀ x, slot_live n x →
      slot_sector d (disk_write D (data_sector d D i) off src len) x = slot_sector d D x := by
    apply slot_sector_congr (fun _ _ => rfl) (fun _ _ _ => rfl)
    · intro a ha
      apply disk_write_other
      have := FileWF_index_ne_data hwf hi (x := Slot.l2 a) ha trivial
      rw [slot_sector_l2] at this
      exact this
    · intro k hk
      apply disk_write_other
      have := FileWF_index_ne_data hwf hi (x := Slot.l1 k) hk trivial
      rw [slot_sector_l1] at this
      exact this
  exact ⟨hpres, FileWF_congr hwf hpres (fun _ h => h)⟩

theorem chunk_same_sector {o c p : Nat} (h1 : o % 512 + c ≤ 512) (h2 : o ≤ p)
    (h3 : p < o + c) : p / 512 = o / 512 ∧ o % 512 ≤ p % 512 ∧ p % 512 < o % 512 + c ∧
      p % 512 - o % 512 = p - o := by
  omega

theorem chunk_later_differs {o c p p' : Nat} (h1 : o % 512 + c ≤ 512) (h2 : o ≤ p)
    (h3 : p < o + c) (h4 : o + c ≤ p') (h5 : p' / 512 = o / 512) : p' % 512 ≠ p % 512 := by
  omega

theorem chunk_position {o c k : Nat} (h1 : o % 512 + c ≤ 512) (h2 : o % 512 ≤ k)
    (h3 : k < o % 512 + c) : o ≤ o + (k - o % 512) ∧ o + (k - o % 512) < o + c ∧
      (o + (k - o % 512)) / 512 = o / 512 ∧ (o + (k - o % 512)) % 512 = k := by
  omega

theorem sector_index_lt {n o s p : Nat} (hn : (o + s + 511) / 512 ≤ n) (hp : p < o + s) :
    p / 512 < n := by
  omega

/-- One chunk written, then the rest: together the whole range is written and nothing
else. -/
theorem write_combine {d : inode_data} {D D2 D3 : Nat → Nat → Nat} {n o c s w : Nat}
    {buffer : Nat → Nat}
    (hinj : ∀ i j, i < n → j < n → data_sector d D i = data_sector d D j → i = j)
    (hn : (o + s + 511) / 512 ≤ n) (hc1 : 0 < c) (hc2 : c ≤ s) (hc3 : o % 512 + c ≤ 512)
    (hd2 : D2 = disk_write D (data_sector d D (o / 512)) (o % 512) (ptr_add buffer w) c)
    (hds2 : ∀ i, i < n → data_sector d D2 i = data_sector d D i)
    (hds3 : ∀ i, i < n → data_sector d D3 i = data_sector d D i)
    (hcont3 : ∀ p, o + c ≤ p → p < o + c + (s - c) →
      file_byte d D3 p = buffer (w + c + (p - (o + c))))
    (hframe3 : ∀ t k, (∀ p, o + c ≤ p → p < o + c + (s - c) →
        ¬ (data_sector d D2 (p / 512) = t ∧ p % 512 = k)) → D3 t k = D2 t k) :
    (∀ p, o ≤ p → p < o + s → file_byte d D3 p = buffer (w + (p - o))) ∧
    (∀ t k, (∀ p, o ≤ p → p < o + s → ¬ (data_sector d D (p / 512) = t ∧ p % 512 = k)) →
      D3 t k = D t k) := by
  have hrest : o + c + (s - c) = o + s := by omega
  rw [hrest] at hcont3 hframe3
  constructor
  · intro p hp1 hp2
    have hpn := sector_index_lt hn hp2
    by_cases c0 : p < o + c
    · obtain ⟨e1, e2, e3, e4⟩ := chunk_same_sector hc3 hp1 c0
      unfold file_byte
      rw [hds3 _ hpn, e1, hframe3]
      · rw [hd2]
        unfold disk_write ptr_add
        rw [if_pos ⟨rfl, e2, e3⟩, e4]
      · intro p' hp1' hp2' ⟨h1, h2⟩
        have hpn' := sector_index_lt hn hp2'
        rw [hds2 _ hpn'] at h1
        have := hinj _ _ hpn' (by rw [← e1]; exact hpn) h1
        exact chunk_later_differs hc3 hp1 c0 hp1' this h2
    · rw [hcont3 p (by omega) hp2]
      congr 1
      omega
  · intro t k hfoot
    rw [hframe3]
    · rw [hd2]
      unfold disk_write
      rw [if_neg]
      intro ⟨h1, h2, h3⟩
      obtain ⟨e1, e2, e3, e4⟩ := chunk_position hc3 h2 h3
      apply hfoot _ e1 (by omega)
      rw [e3, e4]
      exact ⟨h1.symm, rfl⟩
    · intro p hp1 hp2 ⟨h1, h2⟩
      rw [hds2 _ (sector_index_lt hn hp2)] at h1
      exact hfoot p (by omega) hp2 ⟨h1, h2⟩

theorem write_chunk_arith {S O L : Nat} (hS : 0 < S) (hle : O + S ≤ L) :
    ∃ C : Nat, MIN3 (S : Int) ((L : Int) - (O : Int)) (512 - (O : Int) % 512) = (C : Int) ∧
      0 < C ∧ C ≤ S ∧ O % 512 + C ≤ 512 ∧ ((O : Int) % 512).toNat = O % 512 := by
  obtain ⟨h1, h2, h3, h4⟩ := MIN3_spec (S : Int) ((L : Int) - (O : Int)) (512 - (O : Int) % 512)
  refine ⟨(MIN3 (S : Int) ((L : Int) - (O : Int)) (512 - (O : Int) % 512)).toNat, ?_, ?_, ?_, ?_,
    ?_⟩ <;> omega

/-- The loop of `inode_write_at` on a well-formed file, for a range inside the file: it
writes every byte of the range and nothing else. -/
theorem inode_write_loop_spec {al : Alloc} (hal : AllocInv al) {ino : inode} {n L : Nat}
    (hL : ino.block_data.size = (L : Int)) (hn : n = (L + 511) / 512) (hmax : L ≤ MAX_BYTES)
    (buffer : Nat → Nat) (fuel : Nat) :
    ∀ {io : Io} {S O W : Nat}, IoInv io →
      FileWF ino.block_data (disk io) al n → O + S ≤ L → S < fuel →
      ∃ io', inode_write_loop fuel io ino buffer (S : Int) (O : Int) (W : Int)
          = some (io', ((W + S : Nat) : Int)) ∧
        IoInv io' ∧ io'.ticks = io.ticks ∧
        FileWF ino.block_data (disk io') al n ∧
        (∀ x, slot_live n x →
          slot_sector ino.block_data (disk io') x = slot_sector ino.block_data (disk io) x) ∧
        (∀ p, O ≤ p → p < O + S →
          file_byte ino.block_data (disk io') p = buffer (W + (p - O))) ∧
        (∀ t k, (∀ p, O ≤ p → p < O + S →
            ¬ (data_sector ino.block_data (disk io) (p / 512) = t ∧ p % 512 = k)) →
          disk io' t k = disk io t k) := by
  unfold MAX_BYTES at hmax
  induction fuel with
  | zero => intro io S O W _ _ _ hf; omega
  | succ fuel ih =>
    intro io S O W hinv hwf hle hf
    unfold inode_write_loop
    by_cases hpos : 0 < S
    · rw [if_pos (by omega)]
      have hidx : O / 512 < n := by omega
      have hidx' : (O : Int).toNat / 512 < n := by simpa using hidx
      obtain ⟨io1, hb, hinv1, hd1, ht1⟩ :=
        @byte_to_sector_spec _ hinv _ hal _ _ hwf (O : Int) (by omega) (by omega) hidx'
          (by unfold MAX_SECTORS; omega)
      rw [hb]
      simp only [Int.toNat_ofNat]
      have huse := hwf.used (Slot.data (O / 512)) hidx
      rw [slot_sector_data] at huse
      rw [if_neg (in_use_ne_none hal huse).1]
      obtain ⟨C, hC, hc1, hc2, hc3, hc4⟩ := write_chunk_arith (L := L) hpos hle
      rw [c_mod_of_nonneg (by omega)]
      unfold inode_length
      rw [hL, hC, hc4]
      rw [if_neg (by omega)]
      obtain ⟨io2, hwr, hinv2, hd2, ht2⟩ := @fs_cache_write_spec _ hinv1 _
        (in_use_ne_none hal huse).1 (ptr_add buffer W)
        (O % 512) C (by rw [const_sector]; omega)
      simp only [Int.toNat_ofNat]
      rw [hwr]
      simp only
      rw [hd1] at hd2
      obtain ⟨hpres2, hwf2'⟩ := FileWF_data_write hwf hidx (O % 512) (ptr_add buffer W) C
      rw [← hd2] at hpres2 hwf2'
      have e1 : (S : Int) - (C : Int) = ((S - C : Nat) : Int) := by omega
      have e2 : (O : Int) + (C : Int) = ((O + C : Nat) : Int) := by omega
      have e3 : (W : Int) + (C : Int) = ((W + C : Nat) : Int) := by omega
      rw [e1, e2, e3]
      obtain ⟨io3, hrun, hinv3, ht3, hwf3, hpres3, hcont3, hframe3⟩ :=
        @ih io2 (S - C) (O + C) (W + C) hinv2 hwf2' (by omega) (by omega)
      have hds2 : ∀ i, i < n → data_sector ino.block_data (disk io2) i
          = data_sector ino.block_data (disk io) i := by
        intro i hi
        have := hpres2 (Slot.data i) hi
        rw [slot_sector_data, slot_sector_data] at this
        exact this
      have hds3 : ∀ i, i < n → data_sector ino.block_data (disk io3) i
          = data_sector ino.block_data (disk io) i := by
        intro i hi
        have := hpres3 (Slot.data i) hi
        rw [slot_sector_data, slot_sector_data] at this
        rw [this, hds2 i hi]
      have hinj : ∀ i j, i < n → j < n →
          data_sector ino.block_data (disk io) i = data_sector ino.block_data (disk io) j →
          i = j := by
        intro i j hi hj h
        have := hwf.inj (Slot.data i) (Slot.data j) hi hj h
        simpa using this
      obtain ⟨hcont, hframe⟩ := write_combine hinj (by omega) hc1 hc2 hc3 hd2 hds2 hds3
        hcont3 hframe3
      have e4 : W + C + (S - C) = W + S := by omega
      rw [e4] at hrun
      exact ⟨io3, hrun, hinv3, by rw [ht3, ht2, ht1], hwf3,
        fun x hx => (hpres3 x hx).trans (hpres2 x hx), hcont, hframe⟩
    · rw [if_neg (by omega)]
      have hs0 : S = 0 := by omega
      subst hs0
      exact ⟨io, rfl, hinv, rfl, hwf, fun _ _ => rfl, fun p hp1 hp2 => by omega,
        fun _ _ _ => rfl⟩

/-- One chunk read, then the rest: together the whole range is read. -/
theorem read_combine {d : inode_data} {D : Nat → Nat → Nat} {o c s r : Nat}
    {buffer buffer' : Nat → Nat} (hc2 : c ≤ s) (hc3 : o % 512 + c ≤ 512)
    (hrest : ∀ k, buffer' k = if r + c ≤ k ∧ k < r + c + (s - c) then
      file_byte d D (o + c + (k - (r + c)))
      else ptr_store buffer r (fun k => if k < c then D (data_sector d D (o / 512)) (o % 512 + k)
        else ptr_add buffer r k) k) :
    ∀ k, buffer' k = if r ≤ k ∧ k < r + s then file_byte d D (o + (k - r)) else buffer k := by
  intro k
  rw [hrest k]
  by_cases c1 : r + c ≤ k ∧ k < r + c + (s - c)
  · rw [if_pos c1, if_pos (by omega)]
    congr 1
    omega
  · rw [if_neg c1]
    unfold ptr_store ptr_add
    by_cases c2 : r ≤ k
    · rw [if_pos c2]
      beta_reduce
      by_cases c3 : k - r < c
      · rw [if_pos c3, if_pos (by omega)]
        obtain ⟨e1, _, _, e4⟩ := chunk_same_sector (o := o) (c := c) (p := o + (k - r)) hc3
          (by omega) (by omega)
        unfold file_byte
        rw [e1]
        congr 1
        omega
      · rw [if_neg c3, if_neg (by omega)]
        congr 1
        omega
    · rw [if_neg c2, if_neg (by omega)]

/-- The loop of `inode_read_at` on a well-formed file, for a range inside the file: it reads
every byte of the range and leaves the disk unchanged. -/
theorem inode_read_loop_spec {al : Alloc} (hal : AllocInv al) {ino : inode} {n L : Nat}
    (hL : ino.block_data.size = (L : Int)) (hn : n = (L + 511) / 512) (hmax : L ≤ MAX_BYTES)
    (fuel : Nat) :
    ∀ {io : Io} {buffer : Nat → Nat} {S O R : Nat}, IoInv io →
      FileWF ino.block_data (disk io) al n → O + S ≤ L → S < fuel →
      ∃ io' buffer', inode_read_loop fuel io ino (L : Int) buffer (S : Int) (O : Int) (R : Int)
          = some (io', buffer', ((R + S : Nat) : Int)) ∧
        IoInv io' ∧ io'.ticks = io.ticks ∧ disk io' = disk io ∧
        ∀ k, buffer' k = if R ≤ k ∧ k < R + S then
          file_byte ino.block_data (disk io) (O + (k - R)) else buffer k := by
  unfold MAX_BYTES at hmax
  induction fuel with
  | zero => intro io buffer S O R _ _ _ hf; omega
  | succ fuel ih =>
    intro io buffer S O R hinv hwf hle hf
    unfold inode_read_loop
    by_cases hpos : 0 < S
    · rw [if_pos (by omega)]
      have hidx : O / 512 < n := by omega
      have hidx' : (O : Int).toNat / 512 < n := by simpa using hidx
      obtain ⟨io1, hb, hinv1, hd1, ht1⟩ :=
        @byte_to_sector_spec _ hinv _ hal _ _ hwf (O : Int) (by omega) (by omega) hidx'
          (by unfold MAX_SECTORS; omega)
      rw [hb]
      simp only [Int.toNat_ofNat]
      have huse := hwf.used (Slot.data (O / 512)) hidx
      rw [slot_sector_data] at huse
      rw [if_neg (in_use_ne_none hal huse).1]
      obtain ⟨C, hC, hc1, hc2, hc3, hc4⟩ := write_chunk_arith (L := L) hpos hle
      rw [c_mod_of_nonneg (by omega), read_chunk_spec, hC, hc4]
      rw [if_neg (by omega)]
      obtain ⟨io2, hrd, hinv2, hd2, ht2⟩ := @fs_cache_read_spec _ hinv1 _
        (in_use_ne_none hal huse).1 (ptr_add buffer R)
        (O % 512) C (by rw [const_sector]; omega)
      simp only [Int.toNat_ofNat]
      rw [hrd]
      simp only
      have e1 : (S : Int) - (C : Int) = ((S - C : Nat) : Int) := by omega
      have e2 : (O : Int) + (C : Int) = ((O + C : Nat) : Int) := by omega
      have e3 : (R : Int) + (C : Int) = ((R + C : Nat) : Int) := by omega
      rw [e1, e2, e3]
      have hwf2 : FileWF ino.block_data (disk io2) al n := by rw [hd2, hd1]; exact hwf
      obtain ⟨io3, buffer', hrun, hinv3, ht3, hd3, hbuf⟩ :=
        @ih io2 (ptr_store buffer R (fun k => if k < C then
            disk io1 (data_sector ino.block_data (disk io) (O / 512)) (O % 512 + k)
            else ptr_add buffer R k))
          (S - C) (O + C) (R + C) hinv2 hwf2 (by omega) (by omega)
      have e4 : R + C + (S - C) = R + S := by omega
      rw [e4] at hrun
      rw [hd2, hd1] at hbuf hd3
      exact ⟨io3, buffer', hrun, hinv3, by rw [ht3, ht2, ht1], hd3,
        read_combine hc2 hc3 hbuf⟩
    · rw [if_neg (by omega)]
      have hs0 : S = 0 := by omega
      subst hs0
      refine ⟨io, buffer, rfl, hinv, rfl, rfl, ?_⟩
      intro k
      rw [if_neg (by omega)]

/-- A change of the disk outside the sectors of a file leaves the file as it is. -/
theorem FileInv_frame {d : inode_data} {D D' : Nat → Nat → Nat} {al : Alloc}
    (hfile : FileInv d D al)
    (hsame : ∀ x, slot_live (bytes_to_sectors d.size) x →
      D' (slot_sector d D x) = D (slot_sector d D x)) :
    FileInv d D' al ∧
    (∀ x, slot_live (bytes_to_sectors d.size) x → slot_sector d D' x = slot_sector d D x) ∧
    (∀ p, p / 512 < bytes_to_sectors d.size → file_byte d D' p = file_byte d D p) := by
  have hpres : ∀ x, slot_live (bytes_to_sectors d.size) x →
      slot_sector d D' x = slot_sector d D x := by
    apply slot_sector_congr (fun _ _ => rfl) (fun _ _ _ => rfl)
    · intro a ha; exact hsame (Slot.l2 a) ha
    · intro k hk; exact hsame (Slot.l1 k) hk
  have hbyte : ∀ p, p / 512 < bytes_to_sectors d.size → file_byte d D' p = file_byte d D p := by
    intro p hp
    unfold file_byte
    have h1 := hpres (Slot.data (p / 512)) hp
    rw [slot_sector_data, slot_sector_data] at h1
    have h2 := hsame (Slot.data (p / 512)) hp
    rw [slot_sector_data] at h2
    rw [h1, h2]
  refine ⟨⟨hfile.size_nonneg, hfile.size_max, FileWF_congr hfile.wf hpres (fun _ h => h), ?_⟩,
    hpres, hbyte⟩
  intro p hp1 hp2
  rw [hbyte p (by omega)]
  exact hfile.slack p hp1 hp2

/-- The function `inode_writeback` on a well-formed handle: the inode sector is written and
the file stays as it is. -/
theorem inode_writeback_spec {io : Io} {al : Alloc} {ino : inode} (hinv : IoInv io)
    (hal : AllocInv al) (hh : HandleInv ino (disk io) al) (pad : Nat → Nat) :
    ∃ io', inode_writeback io pad ino = some io' ∧ IoInv io' ∧ io'.ticks = io.ticks ∧
      disk io' = disk_write (disk io) ino.sector 0
        (inode_disk_bytes ino.block_data INODE_MAGIC pad) BLOCK_SECTOR_SIZE ∧
      HandleInv ino (disk io') al ∧
      (∀ x, slot_live (bytes_to_sectors ino.block_data.size) x →
        slot_sector ino.block_data (disk io') x = slot_sector ino.block_data (disk io) x) ∧
      (∀ p, p / 512 < bytes_to_sectors ino.block_data.size →
        file_byte ino.block_data (disk io') p = file_byte ino.block_data (disk io) p) ∧
      (∀ t, t ≠ ino.sector → disk io' t = disk io t) := by
  obtain ⟨io', hw, hinv', hd, ht⟩ := @fs_cache_write_spec _ hinv _
    (in_use_ne_none hal hh.sector_used).1 (inode_disk_bytes ino.block_data INODE_MAGIC pad)
    0 BLOCK_SECTOR_SIZE (by omega)
  have hother : ∀ t, t ≠ ino.sector → disk io' t = disk io t := by
    intro t ht'
    rw [hd]
    exact disk_write_other _ ht'
  obtain ⟨hf, hpres, hbyte⟩ := @FileInv_frame _ _ (disk io') _ hh.file
    (fun x hx => hother _ (hh.sector_own x hx))
  refine ⟨io', hw, hinv', ht, hd, ⟨hf, hh.sector_used, ?_⟩, hpres, hbyte, hother⟩
  intro x hx
  rw [hpres x hx]
  exact hh.sector_own x hx

/-- The function `inode_read_at` on a well-formed file, for a range inside the file: it
returns `size`, fills the buffer with the bytes of the range and leaves the disk unchanged. -/
theorem inode_read_at_spec {io : Io} {al : Alloc} {ino : inode} (hinv : IoInv io)
    (hal : AllocInv al) (hfile : FileInv ino.block_data (disk io) al) (buffer : Nat → Nat)
    {size offset : Int} (hs : 0 ≤ size) (ho : 0 ≤ offset)
    (hle : offset + size ≤ ino.block_data.size) :
    ∃ io' buffer', inode_read_at io ino buffer size offset = some (io', buffer', size) ∧
      IoInv io' ∧ io'.ticks = io.ticks ∧ disk io' = disk io ∧
      ∀ k, buffer' k = if k < size.toNat then
        file_byte ino.block_data (disk io) (offset.toNat + k) else buffer k := by
  obtain ⟨h0, hmaxd, hwf, _⟩ := hfile
  have hmaxd' := hmaxd
  unfold MAX_BYTES at hmaxd'
  obtain ⟨L, hL⟩ := Int.eq_ofNat_of_zero_le h0
  obtain ⟨S, hS⟩ := Int.eq_ofNat_of_zero_le hs
  obtain ⟨O, hO⟩ := Int.eq_ofNat_of_zero_le ho
  subst hS hO
  rw [hL] at hle hmaxd'
  have hn : bytes_to_sectors ino.block_data.size = (L + 511) / 512 := by
    rw [bytes_to_sectors_eq h0 (by omega), hL]
    simp
  rw [hn] at hwf
  unfold inode_read_at inode_length
  rw [wrap_int_of_range (by omega) (by omega), if_neg (by omega), hL]
  obtain ⟨io', buffer', hrun, hinv', ht', hd', hbuf⟩ :=
    @inode_read_loop_spec _ hal _ _ _ hL rfl (by unfold MAX_BYTES; omega) ((S : Int).toNat + 1)
      io buffer S O 0 hinv hwf (by omega)
      (by simp)
  refine ⟨io', buffer', ?_, hinv', ht', hd', ?_⟩
  · simpa using hrun
  · intro k
    rw [hbuf k]
    simp

theorem file_byte_frame {d : inode_data} {D D2 : Nat → Nat → Nat} {al : Alloc} {n O S : Nat}
    (hwf : FileWF d D al n)
    (hds : ∀ x, slot_live n x → slot_sector d D2 x = slot_sector d D x)
    (hframe : ∀ t k, (∀ p', O ≤ p' → p' < O + S →
      ¬ (data_sector d D (p' / 512) = t ∧ p' % 512 = k)) → D2 t k = D t k)
    (hn : (O + S + 511) / 512 ≤ n) {p : Nat} (hp : p / 512 < n)
    (hout : ¬ (O ≤ p ∧ p < O + S)) : file_byte d D2 p = file_byte d D p := by
  unfold file_byte
  have h1 := hds (Slot.data (p / 512)) hp
  rw [slot_sector_data, slot_sector_data] at h1
  rw [h1]
  apply hframe
  intro p' hp1 hp2 ⟨h2, h3⟩
  have := hwf.inj (Slot.data (p' / 512)) (Slot.data (p / 512))
    (sector_index_lt hn hp2) hp h2
  simp only [Slot.data.injEq] at this
  omega

/-- First part of `inode_write_at` on a well-formed handle when the allocations succeed: the
file is grown to hold the range (if it does not hold it yet) and the inode is written back;
old bytes are kept and new bytes are zero. -/
theorem inode_write_at_grow_spec {io : Io} {al : Alloc} {ino : inode} (pad : Nat → Nat)
    {size offset : Int} (hinv : IoInv io) (hal : AllocInv al)
    (hm : ∀ k, al.malloc_ok k = true) (hh : HandleInv ino (disk io) al)
    (hs : 0 < size) (ho : 0 ≤ offset) (hmax : offset + size ≤ MAX_BYTES)
    (hgrow : ino.block_data.size < offset + size)
    (hfree : grow_need (bytes_to_sectors ino.block_data.size)
      (bytes_to_sectors (offset + size) - bytes_to_sectors ino.block_data.size)
      ≤ free_count al.free_map) :
    ∃ io1 al1 d1 io2,
      inode_data_resize io al ino.block_data (to_u32 (wrap_int (offset + size)))
        = some (io1, al1, d1, true) ∧
      inode_writeback io1 pad { ino with block_data := d1 } = some io2 ∧
      IoInv io2 ∧ AllocInv al1 ∧ (∀ k, al1.malloc_ok k = true) ∧ io2.ticks = io.ticks ∧
      HandleInv { ino with block_data := d1 } (disk io2) al1 ∧
      d1.size = offset + size ∧ d1.is_dir = ino.block_data.is_dir ∧
      (∀ p, p < (offset + size).toNat → file_byte d1 (disk io2) p
        = if p < ino.block_data.size.toNat then file_byte ino.block_data (disk io) p else 0) ∧
      (∀ t, in_use al t → in_use al1 t) ∧
      free_count al1.free_map + grow_need (bytes_to_sectors ino.block_data.size)
        (bytes_to_sectors (offset + size) - bytes_to_sectors ino.block_data.size)
        = free_count al.free_map := by
  have hmax' := hmax
  unfold MAX_BYTES at hmax'
  have h0 := hh.file.size_nonneg
  obtain ⟨A, hA⟩ := Int.eq_ofNat_of_zero_le (show (0 : Int) ≤ offset + size by omega)
  have hu : to_u32 (wrap_int (offset + size)) = A := by
    rw [wrap_int_of_range (by omega) (by omega), hA]
    exact to_u32_natCast (by omega)
  rw [hu]
  rw [hA] at hfree hgrow ⊢
  obtain ⟨io1, al1, d1, hres, hinv1, hal1, ht1, hm1, hsize1, hdir1, hfile1, hpres1, hframe1,
      hzero1, hmono1, hcnt1, hnew1⟩ :=
    @inode_data_resize_spec _ _ _ A hinv hal hm hh.file (by omega)
      (by unfold MAX_BYTES; omega) hfree
  have hsz1 : bytes_to_sectors d1.size = bytes_to_sectors (A : Int) := by rw [hsize1]
  have hh1 : HandleInv { ino with block_data := d1 } (disk io1) al1 := by
    refine ⟨hfile1, hmono1 _ hh.sector_used, ?_⟩
    intro x hx heq
    simp only at hx heq
    rw [hsz1] at hx
    by_cases c : slot_live (bytes_to_sectors ino.block_data.size) x
    · rw [hpres1 x c] at heq
      exact hh.sector_own x c heq
    · apply hnew1 x hx c
      rw [heq]
      exact hh.sector_used
  obtain ⟨io2, hwb, hinv2, ht2, _, hh2, hpres2, hbyte2, _⟩ :=
    inode_writeback_spec hinv1 hal1 hh1 pad
  simp only at hpres2 hbyte2
  have hold : bytes_to_sectors ino.block_data.size = (ino.block_data.size.toNat + 511) / 512 :=
    bytes_to_sectors_eq h0 (by omega)
  have hnew : bytes_to_sectors (A : Int) = (A + 511) / 512 := by
    rw [bytes_to_sectors_eq (by omega) (by omega)]
    simp
  refine ⟨io1, al1, d1, io2, hres, hwb, hinv2, hal1, hm1, by rw [ht2, ht1], hh2, hsize1, hdir1,
    ?_, hmono1, hcnt1⟩
  intro p hp
  simp only [Int.toNat_ofNat] at hp
  rw [hbyte2 p (by rw [hsz1, hnew]; omega)]
  by_cases c : p < ino.block_data.size.toNat
  · rw [if_pos c]
    have hidx : p / 512 < bytes_to_sectors ino.block_data.size := by rw [hold]; omega
    unfold file_byte
    have h1 := hpres1 (Slot.data (p / 512)) hidx
    rw [slot_sector_data, slot_sector_data] at h1
    rw [h1]
    have huse := hh.file.wf.used (Slot.data (p / 512)) hidx
    rw [slot_sector_data] at huse
    rw [hframe1 _ huse]
    intro x hx hix
    exact FileWF_index_ne_data hh.file.wf hidx hx hix
  · rw [if_neg c]
    exact hzero1 p (by omega) hp

/-- The first part of `inode_write_at` on a well-formed handle when the allocations succeed:
afterwards the file holds the range, its old bytes are kept and its new bytes are zero. -/
theorem inode_write_at_resize_spec {io : Io} {al : Alloc} {ino : inode} (pad : Nat → Nat)
    {size offset : Int} (hinv : IoInv io) (hal : AllocInv al)
    (hm : ∀ k, al.malloc_ok k = true) (hh : HandleInv ino (disk io) al)
    (hs : 0 < size) (ho : 0 ≤ offset) (hmax : offset + size ≤ MAX_BYTES)
    (hfree : grow_need (bytes_to_sectors ino.block_data.size)
      (bytes_to_sectors (max ino.block_data.size (offset + size))
        - bytes_to_sectors ino.block_data.size) ≤ free_count al.free_map) :
    ∃ io1 al1 d1,
      inode_write_at_resize io al pad ino size offset
        = some (io1, al1, { ino with block_data := d1 }, true) ∧
      IoInv io1 ∧ AllocInv al1 ∧ (∀ k, al1.malloc_ok k = true) ∧ io1.ticks = io.ticks ∧
      HandleInv { ino with block_data := d1 } (disk io1) al1 ∧
      d1.size = max ino.block_data.size (offset + size) ∧
      d1.is_dir = ino.block_data.is_dir ∧
      (∀ p, p < (max ino.block_data.size (offset + size)).toNat → file_byte d1 (disk io1) p
        = if p < ino.block_data.size.toNat then file_byte ino.block_data (disk io) p else 0) ∧
      (∀ t, in_use al t → in_use al1 t) ∧
      free_count al1.free_map + grow_need (bytes_to_sectors ino.block_data.size)
        (bytes_to_sectors (max ino.block_data.size (offset + size))
          - bytes_to_sectors ino.block_data.size) = free_count al.free_map := by
  have hmax' := hmax
  unfold MAX_BYTES at hmax'
  unfold inode_write_at_resize
  rw [wrap_int_of_range (by omega) (by omega)]
  by_cases hgrow : ino.block_data.size < offset + size
  · have hmx : max ino.block_data.size (offset + size) = offset + size := by omega
    rw [hmx] at hfree ⊢
    obtain ⟨io1, al1, d1, io2, hres, hwb, hinv2, hal1, hm1, ht, hh2, hsize, hdir, hbytes, hmono,
      hcnt⟩ := inode_write_at_grow_spec pad hinv hal hm hh hs ho hmax hgrow hfree
    rw [wrap_int_of_range (by omega) (by omega)] at hres
    simp only
    rw [if_pos (by omega), hres]
    simp only [hwb]
    exact ⟨io2, al1, d1, rfl, hinv2, hal1, hm1, ht, hh2, hsize, hdir, hbytes, hmono, hcnt⟩
  · have hmx : max ino.block_data.size (offset + size) = ino.block_data.size := by omega
    rw [hmx]
    simp only
    rw [if_neg (by omega)]
    refine ⟨io, al, ino.block_data, rfl, hinv, hal, hm, rfl, hh, rfl, rfl, ?_, fun _ h => h, ?_⟩
    · intro p hp
      rw [if_pos hp]
    · simp [grow_need, link_total]

theorem inode_write_at_of_resize {junk : Int} {io io1 io2 : Io} {al al1 : Alloc}
    {pad : Nat → Nat} {ino ino1 : inode} {buffer : Nat → Nat} {size offset n : Int}
    (hres : inode_write_at_resize io al pad ino size offset = some (io1, al1, ino1, true))
    (hd : ino1.deny_write_cnt = 0)
    (hrun : inode_write_loop (size.toNat + 1) io1 ino1 buffer size offset 0 = some (io2, n)) :
    inode_write_at junk io al pad ino buffer size offset = some (io2, al1, ino1, n) := by
  unfold inode_write_at
  rw [hres]
  simp only [hd, ne_eq, not_true_eq_false, if_false, hrun]

/-- The function `inode_write_at` on a well-formed handle with writes allowed, when the
allocations succeed: it returns `size`, the file has length `max (L, offset + size)`, holds
the written bytes in the range, zero in the rest of what is new and its old bytes elsewhere. -/
theorem inode_write_at_spec {io : Io} {al : Alloc} {ino : inode} (junk : Int)
    (pad : Nat → Nat) (buffer : Nat → Nat) {size offset : Int} (hinv : IoInv io)
    (hal : AllocInv al) (hm : ∀ k, al.malloc_ok k = true) (hh : HandleInv ino (disk io) al)
    (hdeny : ino.deny_write_cnt = 0)
    (hs : 0 < size) (ho : 0 ≤ offset) (hmax : offset + size ≤ MAX_BYTES)
    (hfree : grow_need (bytes_to_sectors ino.block_data.size)
      (bytes_to_sectors (max ino.block_data.size (offset + size))
        - bytes_to_sectors ino.block_data.size) ≤ free_count al.free_map) :
    ∃ io' al' d',
      inode_write_at junk io al pad ino buffer size offset
        = some (io', al', { ino with block_data := d' }, size) ∧
      IoInv io' ∧ AllocInv al' ∧ (∀ k, al'.malloc_ok k = true) ∧ io'.ticks = io.ticks ∧
      HandleInv { ino with block_data := d' } (disk io') al' ∧
      d'.size = max ino.block_data.size (offset + size) ∧
      d'.is_dir = ino.block_data.is_dir ∧
      (∀ p, offset.toNat ≤ p → p < offset.toNat + size.toNat →
        file_byte d' (disk io') p = buffer (p - offset.toNat)) ∧
      (∀ p, p < (max ino.block_data.size (offset + size)).toNat →
        ¬ (offset.toNat ≤ p ∧ p < offset.toNat + size.toNat) →
        file_byte d' (disk io') p
          = if p < ino.block_data.size.toNat then file_byte ino.block_data (disk io) p else 0) ∧
      (∀ t, in_use al t → in_use al' t) := by
  have hmax' := hmax
  unfold MAX_BYTES at hmax'
  obtain ⟨S, hS⟩ := Int.eq_ofNat_of_zero_le (show (0 : Int) ≤ size by omega)
  obtain ⟨O, hO⟩ := Int.eq_ofNat_of_zero_le ho
  subst hS hO
  obtain ⟨io1, al1, d1, hres, hinv1, hal1, hm1, ht1, hh1, hsize1, hdir1, hbytes1, hmono1, _⟩ :=
    inode_write_at_resize_spec pad hinv hal hm hh hs ho hmax hfree
  have h0 := hh.file.size_nonneg
  have hmaxd := hh.file.size_max
  unfold MAX_BYTES at hmaxd
  obtain ⟨L', hL'⟩ := Int.eq_ofNat_of_zero_le
    (show (0 : Int) ≤ max ino.block_data.size ((O : Int) + (S : Int)) by omega)
  have hL1 : ({ ino with block_data := d1 } : inode).block_data.size = (L' : Int) := by
    simp only [hsize1, hL']
  have hn1 : bytes_to_sectors d1.size = (L' + 511) / 512 := by
    rw [hsize1, hL', bytes_to_sectors_eq (by omega) (by omega)]
    simp
  have hwf1 := hh1.file.wf
  simp only at hwf1
  rw [hn1] at hwf1
  obtain ⟨fuel, hfuel⟩ : ∃ fuel : Nat, ((S : Int).toNat + 1) = fuel := ⟨_, rfl⟩
  obtain ⟨io2, hrun, hinv2, ht2, hwf2, hpres2, hcont2, hframe2⟩ :=
    @inode_write_loop_spec _ hal1 { ino with block_data := d1 } _ _ hL1 rfl
      (by unfold MAX_BYTES; omega) buffer fuel io1 S O 0 hinv1 hwf1 (by omega) (by omega)
  have hfb : ∀ p, p / 512 < (L' + 511) / 512 → ¬ (O ≤ p ∧ p < O + S) →
      file_byte d1 (disk io2) p = file_byte d1 (disk io1) p :=
    fun p hp hout => file_byte_frame hwf1 hpres2 hframe2 (by omega) hp hout
  have e0 : ((0 : Nat) : Int) = 0 := rfl
  have e1 : (((0 + S : Nat)) : Int) = (S : Int) := by omega
  rw [e0, e1, ← hfuel] at hrun
  have hcode : inode_write_at junk io al pad ino buffer (S : Int) (O : Int)
      = some (io2, al1, { ino with block_data := d1 }, (S : Int)) :=
    inode_write_at_of_resize hres hdeny hrun
  refine ⟨io2, al1, d1, hcode, hinv2, hal1, hm1, by rw [ht2, ht1], ?_, hsize1, hdir1, ?_, ?_,
    hmono1⟩
  · refine ⟨⟨hh1.file.size_nonneg, hh1.file.size_max, by simp only; rw [hn1]; exact hwf2, ?_⟩,
      hh1.sector_used, ?_⟩
    · intro p hp1 hp2
      simp only at hp1 hp2 ⊢
      rw [hn1] at hp2
      rw [hsize1, hL'] at hp1
      simp only [Int.toNat_ofNat] at hp1
      rw [hfb p (by omega) (by omega)]
      apply hh1.file.slack p
      · simp only [hsize1, hL', Int.toNat_ofNat]; exact hp1
      · simp only; rw [hn1]; exact hp2
    · intro x hx
      simp only at hx ⊢
      rw [hn1] at hx
      rw [hpres2 x hx]
      apply hh1.sector_own x
      simp only; rw [hn1]; exact hx
  · intro p hp1 hp2
    simp only [Int.toNat_ofNat] at hp1 hp2 ⊢
    have := hcont2 p hp1 hp2
    rw [this]
    simp
  · intro p hp hout
    simp only [Int.toNat_ofNat] at hout
    rw [hL'] at hp
    simp only [Int.toNat_ofNat] at hp
    rw [hfb p (by omega) hout]
    apply hbytes1 p
    rw [hL']
    simpa using hp

theorem bytes_to_sectors_le_max {size : Int} (h0 : 0 ≤ size) (h1 : size ≤ MAX_BYTES) :
    bytes_to_sectors size ≤ MAX_SECTORS := by
  unfold MAX_BYTES at h1
  rw [bytes_to_sectors_eq h0 (by omega)]
  unfold MAX_SECTORS
  omega

/-- The block data of an inode survives the way through its disk image: the size, the flag
and every pointer of the block map that is in use. -/
theorem inode_data_of_bytes_spec {d : inode_data} {D : Nat → Nat → Nat} {al : Alloc}
    (hal : AllocInv al) (hfile : FileInv d D al) {magic : Nat} {pad buf : Nat → Nat}
    (hbuf : ∀ k, k < 512 → buf k = inode_disk_bytes d magic pad k) :
    (inode_data_of_bytes buf).size = d.size ∧ (inode_data_of_bytes buf).is_dir = d.is_dir ∧
    (∀ x, slot_live (bytes_to_sectors d.size) x →
      slot_sector (inode_data_of_bytes buf) D x = slot_sector d D x) := by
  have h0 := hfile.size_nonneg
  have hmax := hfile.size_max
  have hn := bytes_to_sectors_le_max h0 hmax
  unfold MAX_BYTES at hmax
  unfold MAX_SECTORS at hn
  refine ⟨?_, ?_, ?_⟩
  · show wrap_int (get_u32 buf 4) = d.size
    have : get_u32 buf 4 = to_u32 d.size := by
      apply get_u32_u32_bytes (by unfold to_u32; omega)
      intro k hk
      rw [hbuf _ (by omega)]
      unfold inode_disk_bytes
      rw [if_neg (by omega), if_neg (by omega), if_pos (by omega)]
      congr 1
      omega
    rw [this, to_u32_of_nonneg h0 (by omega), wrap_int_of_range (by omega) (by omega)]
    omega
  · show decide (buf 0 % 256 ≠ 0) = d.is_dir
    rw [hbuf 0 (by omega)]
    unfold inode_disk_bytes
    rw [if_pos rfl]
    cases d.is_dir <;> simp
  · apply slot_sector_congr
    · intro a ha
      show get_u32 buf (8 + 4 * a) = d.l2_blocks a
      have hu := hfile.wf.used (Slot.l2 a) ha
      rw [slot_sector_l2] at hu
      apply get_u32_u32_bytes (in_use_ne_none hal hu).2
      intro k hk
      rw [hbuf _ (by omega)]
      unfold inode_disk_bytes
      rw [if_neg (by omega), if_neg (by omega), if_neg (by omega), if_pos (by omega)]
      have e1 : (8 + 4 * a + k - 8) / 4 = a := by omega
      have e2 : (8 + 4 * a + k - 8) % 4 = k := by omega
      rw [e1, e2]
    · intro i hi hi93
      show get_u32 buf (136 + 4 * i) = d.l0_blocks i
      have hu := hfile.wf.used (Slot.data i) hi
      rw [slot_sector_data] at hu
      unfold data_sector at hu
      rw [if_pos hi93] at hu
      apply get_u32_u32_bytes (in_use_ne_none hal hu).2
      intro k hk
      rw [hbuf _ (by omega)]
      unfold inode_disk_bytes
      rw [if_neg (by omega), if_neg (by omega), if_neg (by omega), if_neg (by omega),
        if_pos (by omega)]
      have e1 : (136 + 4 * i + k - 136) / 4 = i := by omega
      have e2 : (136 + 4 * i + k - 136) % 4 = k := by omega
      rw [e1, e2]
    · intro a _; rfl
    · intro k _; rfl

/-- A file and its copy with the same size and the same sectors in the slots in use. -/
theorem FileInv_congr {d d' : inode_data} {D : Nat → Nat → Nat} {al : Alloc}
    (hfile : FileInv d D al) (hsize : d'.size = d.size)
    (hpres : ∀ x, slot_live (bytes_to_sectors d.size) x → slot_sector d' D x = slot_sector d D x) :
    FileInv d' D al ∧
    (∀ p, p / 512 < bytes_to_sectors d.size → file_byte d' D p = file_byte d D p) := by
  have hb : ∀ p, p / 512 < bytes_to_sectors d.size → file_byte d' D p = file_byte d D p := by
    intro p hp
    have := hpres (Slot.data (p / 512)) hp
    rw [slot_sector_data, slot_sector_data] at this
    unfold file_byte
    rw [this]
  refine ⟨⟨by rw [hsize]; exact hfile.size_nonneg, by rw [hsize]; exact hfile.size_max, ?_, ?_⟩,
    hb⟩
  · rw [hsize]
    exact FileWF_congr hfile.wf hpres (fun _ h => h)
  · intro p hp1 hp2
    rw [hsize] at hp1 hp2
    rw [hb p (by omega)]
    exact hfile.slack p hp1 hp2

/-- The empty file: any block data of size 0 is a well-formed file. -/
theorem FileInv_empty {d : inode_data} (D : Nat → Nat → Nat) (al : Alloc) (h : d.size = 0) :
    FileInv d D al := by
  have hn : bytes_to_sectors d.size = 0 := by rw [h]; rfl
  refine ⟨by rw [h], by rw [h]; decide, ?_, ?_⟩
  · rw [hn]
    constructor
    · intro x hx
      cases x <;> simp only [slot_live] at hx <;> omega
    · intro x y hx
      cases x <;> simp only [slot_live] at hx <;> omega
  · intro p _ hp
    rw [hn] at hp
    omega

/-- A well-formed handle stays so when more sectors are marked in use. -/
theorem HandleInv_alloc {ino : inode} {D : Nat → Nat → Nat} {al al' : Alloc}
    (hh : HandleInv ino D al) (hmono : ∀ t, in_use al t → in_use al' t) :
    HandleInv ino D al' :=
  ⟨⟨hh.file.size_nonneg, hh.file.size_max,
      FileWF_congr hh.file.wf (fun _ _ => rfl) hmono, hh.file.slack⟩,
    hmono _ hh.sector_used, hh.sector_own⟩

/-- The function `inode_open` on a sector that has no handle yet and holds the image of a
well-formed inode: a handle with count 1, writes allowed and the block data of the image is
put in front of the list. -/
theorem inode_open_spec {io : Io} {al : Alloc} (l : InodeList) (uninit : Nat → Nat)
    {sector : Nat} {d : inode_data} {pad : Nat → Nat} (hinv : IoInv io) (hal : AllocInv al)
    (hm : al.malloc_ok al.malloc_calls = true)
    (hfresh : l.find? (fun p => decide (p.2.sector = sector)) = none)
    (hh : HandleInv (inode.mk sector 1 false 0 d) (disk io) al)
    (himg : ∀ k, k < 512 → disk io sector k = inode_disk_bytes d INODE_MAGIC pad k) :
    ∃ io' d', inode_open io al l uninit sector
        = some (io', (malloc al).1, (al.malloc_calls, inode.mk sector 1 false 0 d') :: l,
            some al.malloc_calls) ∧
      IoInv io' ∧ disk io' = disk io ∧ io'.ticks = io.ticks ∧
      d'.size = d.size ∧ d'.is_dir = d.is_dir ∧
      HandleInv (inode.mk sector 1 false 0 d') (disk io') (malloc al).1 ∧
      (∀ p, p / 512 < bytes_to_sectors d.size →
        file_byte d' (disk io') p = file_byte d (disk io) p) := by
  have hsn := (in_use_ne_none hal hh.sector_used).1
  obtain ⟨io1, hrd, hinv1, hdisk1, ht1⟩ :=
    @fs_cache_read_spec io hinv sector hsn uninit 0 512 (by decide)
  have hbuf : ∀ k, k < 512 →
      (fun k => if k < 512 then disk io sector (0 + k) else uninit k) k
        = inode_disk_bytes d INODE_MAGIC pad k := by
    intro k hk
    simp only [if_pos hk, Nat.zero_add]
    exact himg k hk
  obtain ⟨hsize, hdir, hpres⟩ := inode_data_of_bytes_spec hal hh.file hbuf
  obtain ⟨hfile', hbytes⟩ := FileInv_congr hh.file hsize hpres
  refine ⟨io1, inode_data_of_bytes (fun k => if k < 512 then disk io sector (0 + k) else uninit k),
    ?_, hinv1, hdisk1, ht1, hsize, hdir, ?_, ?_⟩
  · unfold inode_open
    rw [hfresh]
    simp only [malloc, hm, FS_READ_BLOCK, const_sector, hrd]
  · rw [hdisk1]
    have hh' : HandleInv (inode.mk sector 1 false 0 (inode_data_of_bytes
        (fun k => if k < 512 then disk io sector (0 + k) else uninit k))) (disk io) al := by
      refine ⟨hfile', hh.sector_used, ?_⟩
      intro x hx
      simp only at hx ⊢
      rw [hsize] at hx
      rw [hpres x hx]
      exact hh.sector_own x hx
    exact HandleInv_alloc hh' (fun _ h => h)
  · intro p hp
    rw [hdisk1]
    exact hbytes p hp

/-- The function `inode_create` when the allocations succeed: it returns true, the sector
holds the image of a well-formed file of the requested length whose bytes are all zero. -/
theorem inode_create_spec {io : Io} {al : Alloc} (stack : inode_data) (pad : Nat → Nat)
    {sector : Nat} {length : Int} (is_directory : Bool) (hinv : IoInv io) (hal : AllocInv al)
    (hm : ∀ k, al.malloc_ok k = true) (hsec : in_use al sector)
    (h0 : 0 ≤ length) (hmax : length ≤ MAX_BYTES)
    (hfree : grow_need 0 (bytes_to_sectors length) ≤ free_count al.free_map) :
    ∃ io' al' d', inode_create io al stack pad sector length is_directory
        = some (io', al', true) ∧
      IoInv io' ∧ AllocInv al' ∧ (∀ k, al'.malloc_ok k = true) ∧ io'.ticks = io.ticks ∧
      HandleInv (inode.mk sector 1 false 0 d') (disk io') al' ∧
      d'.size = length ∧ d'.is_dir = is_directory ∧
      (∀ k, k < 512 → disk io' sector k = inode_disk_bytes d' INODE_MAGIC pad k) ∧
      (∀ p, p < length.toNat → file_byte d' (disk io') p = 0) ∧
      (∀ t, in_use al t → in_use al' t) ∧
      free_count al'.free_map + grow_need 0 (bytes_to_sectors length)
        = free_count al.free_map := by
  have hmax' := hmax
  unfold MAX_BYTES at hmax'
  obtain ⟨A, hA⟩ := Int.eq_ofNat_of_zero_le h0
  subst hA
  have hu : to_u32 (A : Int) = A := to_u32_natCast (by omega)
  have hfile0 : FileInv { stack with size := 0, is_dir := is_directory } (disk io) al :=
    FileInv_empty _ _ rfl
  have hn0 : bytes_to_sectors (({ stack with size := 0, is_dir := is_directory } :
      inode_data).size) = 0 := rfl
  obtain ⟨io1, al1, d1, hres, hinv1, hal1, ht1, hm1, hsize1, hdir1, hfile1, _, _,
      hzero1, hmono1, hcnt1, hnew1⟩ :=
    @inode_data_resize_spec io al _ A hinv hal hm hfile0 (Int.ofNat_nonneg A)
      (by unfold MAX_BYTES; omega) (by rw [hn0, Nat.sub_zero]; exact hfree)
  rw [hn0] at hcnt1 hnew1
  rw [Nat.sub_zero] at hcnt1
  have hh1 : HandleInv (inode.mk sector 1 false 0 d1) (disk io1) al1 := by
    refine ⟨hfile1, hmono1 _ hsec, ?_⟩
    intro x hx heq
    simp only at hx heq
    rw [hsize1] at hx
    apply hnew1 x hx
    · intro h
      cases x <;> simp only [slot_live] at h <;> omega
    · rw [heq]
      exact hsec
  obtain ⟨io2, hwb, hinv2, ht2, hdisk2, hh2, _, hbyte2, _⟩ :=
    inode_writeback_spec hinv1 hal1 hh1 pad
  simp only at hbyte2
  refine ⟨io2, al1, d1, ?_, hinv2, hal1, hm1, by rw [ht2, ht1], hh2, hsize1, hdir1, ?_, ?_,
    hmono1, hcnt1⟩
  · unfold inode_create
    rw [if_neg (by omega), hu, hres]
    unfold inode_writeback at hwb
    simp only at hwb ⊢
    rw [hwb]
  · intro k hk
    rw [hdisk2]
    unfold disk_write
    rw [if_pos ⟨rfl, by omega, by rw [const_sector]; omega⟩]
    rfl
  · intro p hp
    simp only [Int.toNat_ofNat] at hp
    have hn1 : bytes_to_sectors d1.size = (A + 511) / 512 := by
      rw [hsize1, bytes_to_sectors_eq (by omega) (by omega)]
      simp
    rw [hbyte2 p (by rw [hn1]; omega)]
    exact hzero1 p (by simp) hp

/-- The function `inode_resize` on a well-formed handle when the allocations succeed: the file
has the new size, its old bytes are kept and its new bytes are zero. -/
theorem inode_resize_spec {io : Io} {al : Alloc} {ino : inode} (pad : Nat → Nat)
    {a_size : Nat} (hinv : IoInv io) (hal : AllocInv al)
    (hm : ∀ k, al.malloc_ok k = true) (hh : HandleInv ino (disk io) al)
    (hgrow : ino.block_data.size < a_size) (hmax : a_size ≤ MAX_BYTES)
    (hfree : grow_need (bytes_to_sectors ino.block_data.size)
      (bytes_to_sectors a_size - bytes_to_sectors ino.block_data.size)
      ≤ free_count al.free_map) :
    ∃ io' al' d',
      inode_resize io al pad ino a_size = some (io', al', { ino with block_data := d' }, true) ∧
      IoInv io' ∧ AllocInv al' ∧ (∀ k, al'.malloc_ok k = true) ∧ io'.ticks = io.ticks ∧
      HandleInv { ino with block_data := d' } (disk io') al' ∧
      d'.size = a_size ∧ d'.is_dir = ino.block_data.is_dir ∧
      (∀ p, p < a_size → file_byte d' (disk io') p
        = if p < ino.block_data.size.toNat then file_byte ino.block_data (disk io) p else 0) ∧
      (∀ t, in_use al t → in_use al' t) := by
  have hmax' := hmax
  unfold MAX_BYTES at hmax'
  have h0 := hh.file.size_nonneg
  have e : ((a_size : Int) - 1 + 1) = (a_size : Int) := by omega
  have hmaxi : ((a_size : Int) - 1) + 1 ≤ MAX_BYTES := by rw [e]; exact_mod_cast hmax
  obtain ⟨io1, al1, d1, io2, hres, hwb, hinv2, hal1, hm1, ht, hh2, hsize, hdir, hbytes, hmono,
    _⟩ := @inode_write_at_grow_spec io al ino pad 1 ((a_size : Int) - 1) hinv hal hm hh
      (by decide) (by omega) hmaxi (by omega) (by rw [e]; exact hfree)
  rw [e] at hres hsize hbytes
  rw [wrap_int_of_range (by omega) (by omega), to_u32_natCast (by omega)] at hres
  refine ⟨io2, al1, d1, ?_, hinv2, hal1, hm1, ht, hh2, hsize, hdir, ?_, hmono⟩
  · unfold inode_resize
    rw [hres]
    simp only [hwb]
  · intro p hp
    exact hbytes p (by simpa using hp)

/-- Reading one byte of a well-formed file below its length: `inode_read_at` returns 1 and
the byte of the file is in the buffer. -/
theorem read_one_byte {io : Io} {al : Alloc} {ino : inode} (hinv : IoInv io)
    (hal : AllocInv al) (hfile : FileInv ino.block_data (disk io) al) (dst : Nat → Nat)
    {p : Nat} (hp : (p : Int) < ino.block_data.size) :
    ∃ io' dst', inode_read_at io ino dst 1 p = some (io', dst', 1) ∧
      dst' 0 = file_byte ino.block_data (disk io) p := by
  obtain ⟨io', dst', hrd, _, _, _, hb⟩ :=
    @inode_read_at_spec io al ino hinv hal hfile dst 1 (p : Int) (by decide) (by omega)
      (by omega)
  refine ⟨io', dst', hrd, ?_⟩
  rw [hb 0]
  simp

theorem IoInv_fresh : IoInv fresh_io :=
  ⟨(buffer_cache_init_spec _ _).1, fun _ => by
    show INT64_MIN < (0 : Int) ∧ (0 : Int) < INT64_MAX
    decide⟩

theorem AllocInv_fresh {n : Nat} (h : n + 2 ≤ SECTOR_NONE) : AllocInv (fresh_alloc n) := by
  unfold AllocInv fresh_alloc
  simpa using h

theorem free_count_fresh (n : Nat) : free_count (fresh_alloc n).free_map = n := by
  unfold free_count fresh_alloc
  simp

theorem in_use_fresh (n : Nat) : in_use (fresh_alloc n) 1 := by
  unfold in_use fresh_alloc
  simp

theorem HandleInv_empty (deny : Int) (D : Nat → Nat → Nat) (n : Nat) :
    HandleInv (empty_handle deny) D (fresh_alloc n) := by
  refine ⟨FileInv_empty _ _ rfl, in_use_fresh n, ?_⟩
  intro x hx
  have hn : bytes_to_sectors (empty_handle deny).block_data.size = 0 := rfl
  rw [hn] at hx
  cases x <;> simp only [slot_live] at hx <;> omega

theorem link_need_le (i : Nat) : link_need i ≤ 2 := by
  unfold link_need
  split <;> split <;> omega

theorem link_total_le (lo cnt : Nat) : link_total lo cnt ≤ 2 * cnt := by
  induction cnt generalizing lo with
  | zero => simp [link_total]
  | succ k ih =>
    unfold link_total at ih ⊢
    rw [List.range'_succ, List.map_cons, List.sum_cons]
    have := link_need_le lo
    have := ih (lo + 1)
    omega

theorem grow_need_le (lo cnt : Nat) : grow_need lo cnt ≤ 3 * cnt := by
  unfold grow_need
  have := link_total_le lo cnt
  omega

theorem grow_need_zero (lo : Nat) : grow_need lo 0 = 0 := by
  simp [grow_need, link_total]

/-- C1: on a newly created file (`inode_create` with length 0, then `inode_open`), for every
byte string `B` of length `n > 0` and every offset `O ≥ 0` with `O + n` within the maximum
file size, when there are enough free sectors for every allocation and `malloc` does not fail,
the handle has `deny_write_cnt = 0`, `inode_write_at (h, B, n, O)` returns `n`, and after it
`inode_read_at (h, dst, n, O)` returns `n` and fills `dst` with exactly `B`. -/
theorem write_read_roundtrip {io : Io} {al : Alloc} (stack : inode_data)
    (pad pad2 uninit : Nat → Nat) (l : InodeList) {sector : Nat} (is_directory : Bool)
    (junk : Int) (B dst : Nat → Nat) {n O : Int}
    (hinv : IoInv io) (hal : AllocInv al) (hm : ∀ k, al.malloc_ok k = true)
    (hsec : in_use al sector)
    (hfresh : l.find? (fun p => decide (p.2.sector = sector)) = none)
    (hn : 0 < n) (hO : 0 ≤ O) (hmax : O + n ≤ MAX_BYTES)
    (hfree : grow_need 0 (bytes_to_sectors (O + n)) ≤ free_count al.free_map) :
    ∃ io1 al1 io2 al2 h ino io3 al3 ino3 io4 dst4,
      inode_create io al stack pad sector 0 is_directory = some (io1, al1, true) ∧
      inode_open io1 al1 l uninit sector = some (io2, al2, (h, ino) :: l, some h) ∧
      ino.deny_write_cnt = 0 ∧ inode_length ino = 0 ∧
      inode_write_at junk io2 al2 pad2 ino B n O = some (io3, al3, ino3, n) ∧
      inode_read_at io3 ino3 dst n O = some (io4, dst4, n) ∧
      ∀ k, k < n.toNat → dst4 k = B k := by
  have hz : bytes_to_sectors (0 : Int) = 0 := rfl
  obtain ⟨io1, al1, d1, hcr, hinv1, hal1, hm1, _, hh1, hsize1, _, himg1, _, _, hcnt1⟩ :=
    @inode_create_spec io al stack pad sector 0 is_directory hinv hal hm hsec (le_refl _)
      (by decide) (by rw [hz, grow_need_zero]; exact Nat.zero_le _)
  rw [hz, grow_need_zero, Nat.add_zero] at hcnt1
  obtain ⟨io2, d2, hop, hinv2, _, _, hsize2, _, hh2, _⟩ :=
    inode_open_spec l uninit hinv1 hal1 (hm1 _) hfresh hh1 himg1
  have hsz : (inode.mk sector 1 false 0 d2).block_data.size = 0 := by
    show d2.size = 0
    rw [hsize2, hsize1]
  have hmx : max (0 : Int) (O + n) = O + n := by omega
  obtain ⟨io3, al3, d3, hwr, hinv3, hal3, _, _, hh3, hsize3, _, hcont3, _, _⟩ :=
    @inode_write_at_spec io2 (malloc al1).1 (inode.mk sector 1 false 0 d2) junk pad2 B n O
      hinv2 hal1 hm1 hh2 rfl hn hO hmax (by
        rw [hsz, hz, hmx, Nat.sub_zero]
        show _ ≤ free_count al1.free_map
        rw [hcnt1]
        exact hfree)
  rw [hsz, hmx] at hsize3
  obtain ⟨io4, dst4, hrd, _, _, _, hbuf⟩ :=
    @inode_read_at_spec io3 al3 { (inode.mk sector 1 false 0 d2) with block_data := d3 }
      hinv3 hal3 hh3.file dst n O (by omega) hO (by show O + n ≤ d3.size; omega)
  refine ⟨io1, al1, io2, (malloc al1).1, al1.malloc_calls, inode.mk sector 1 false 0 d2, io3,
    al3, _, io4, dst4, hcr, hop, rfl, hsz, hwr, hrd, ?_⟩
  intro k hk
  rw [hbuf k, if_pos hk]
  show file_byte d3 (disk io3) (O.toNat + k) = B k
  rw [hcont3 (O.toNat + k) (by omega) (by omega)]
  congr 1
  omega

/-- Witness for C1: a file created on a zero-filled disk with 10 free sectors, 700 bytes
written at offset 300 and read back. -/
theorem write_read_roundtrip_witness :
    ∃ io1 al1 io2 al2 h ino io3 al3 ino3 io4 dst4,
      inode_create fresh_io (fresh_alloc 10) (inode_data.mk true 7 (fun _ => 9) (fun _ => 9))
        (fun _ => 0) 1 0 false = some (io1, al1, true) ∧
      inode_open io1 al1 [] (fun _ => 0) 1 = some (io2, al2, [(h, ino)], some h) ∧
      ino.deny_write_cnt = 0 ∧ inode_length ino = 0 ∧
      inode_write_at 0 io2 al2 (fun _ => 0) ino (fun k => k + 1) 700 300
        = some (io3, al3, ino3, 700) ∧
      inode_read_at io3 ino3 (fun _ => 0) 700 300 = some (io4, dst4, 700) ∧
      ∀ k, k < (700 : Int).toNat → dst4 k = (fun k => k + 1) k :=
  write_read_roundtrip _ _ _ _ [] false 0 _ _ IoInv_fresh (AllocInv_fresh (by decide))
    (fun _ => rfl) (in_use_fresh 10) rfl (by decide) (by decide) (by decide)
    (by rw [free_count_fresh]; decide)

theorem disk_fresh (s k : Nat) : disk fresh_io s k = 0 := by
  unfold disk
  split
  · rename_i h
    exact (buffer_cache_init_spec (fun _ _ => 0) (fun _ _ => 0)).2 s h.1 k h.2
  · rfl

theorem HandleInv_small : HandleInv small_handle (disk fresh_io) small_alloc := by
  have hn : bytes_to_sectors small_handle.block_data.size = 1 := by decide
  have hlive : ∀ x, slot_live 1 x → x = Slot.data 0 := by
    intro x hx
    cases x with
    | data i => simp only [slot_live] at hx; congr 1; omega
    | l1 k => simp only [slot_live] at hx; omega
    | l2 a => simp only [slot_live] at hx; omega
  have hsec : slot_sector small_handle.block_data (disk fresh_io) (Slot.data 0) = 2 := rfl
  refine ⟨⟨by decide, by decide, ?_, ?_⟩, by decide, ?_⟩
  · rw [hn]
    constructor
    · intro x hx
      rw [hlive x hx, hsec]
      decide
    · intro x y hx hy _
      rw [hlive x hx, hlive y hy]
  · intro p _ _
    exact disk_fresh _ _
  · intro x hx
    rw [hn] at hx
    rw [hlive x hx, hsec]
    decide

/-- The function `inode_read_at` for `size ≥ 0` and `offset ≥ 0` whose sum is an `off_t`: when
`offset + size > L`, it returns 0 and leaves buffer and state as they were; otherwise, on a
well-formed file, it returns exactly `size`, with the bytes of the file in the first `size`
bytes of the buffer. A sum that is no `off_t` wraps, and the function behaves differently. -/
theorem inode_read_at_all_or_nothing {io : Io} {ino : inode} (buffer : Nat → Nat)
    {size offset : Int} (hs : 0 ≤ size) (ho : 0 ≤ offset) (hno : offset + size ≤ INT32_MAX) :
    (inode_length ino < offset + size →
      inode_read_at io ino buffer size offset = some (io, buffer, 0)) ∧
    (offset + size ≤ inode_length ino →
      ∀ al, IoInv io → AllocInv al → FileInv ino.block_data (disk io) al →
      ∃ io' buffer', inode_read_at io ino buffer size offset = some (io', buffer', size) ∧
        ∀ k, buffer' k = if k < size.toNat then
          file_byte ino.block_data (disk io) (offset.toNat + k) else buffer k) := by
  unfold INT32_MAX at hno
  constructor
  · intro h
    unfold inode_read_at
    simp only
    rw [wrap_int_of_range (by omega) (by omega), if_pos h]
  · intro h al hinv hal hfile
    obtain ⟨io', buffer', hrd, _, _, _, hbuf⟩ :=
      inode_read_at_spec hinv hal hfile buffer hs ho h
    exact ⟨io', buffer', hrd, hbuf⟩

/-- An instance of `inode_read_at_all_or_nothing`: on a file of 100 bytes, a read of 10 bytes
at offset 95 returns 0 and a read of 10 bytes at offset 20 returns 10. -/
theorem inode_read_at_all_or_nothing_witness :
    inode_read_at fresh_io small_handle (fun _ => 7) 10 95 = some (fresh_io, fun _ => 7, 0) ∧
    ∃ io' buffer', inode_read_at fresh_io small_handle (fun _ => 7) 10 20
        = some (io', buffer', 10) ∧
      ∀ k, buffer' k = if k < (10 : Int).toNat then
        file_byte small_handle.block_data (disk fresh_io) ((20 : Int).toNat + k)
        else (fun _ => 7) k :=
  ⟨(inode_read_at_all_or_nothing (fun _ => 7) (by decide) (by decide) (by decide)).1
      (by decide),
    (inode_read_at_all_or_nothing (fun _ => 7) (by decide) (by decide) (by decide)).2
      (by decide) small_alloc IoInv_fresh (by decide) HandleInv_small.file⟩

/-- C5 (the code at the failing input): on the file of 100 bytes, `inode_read_at` with
`size = 2147483647` and `offset = 50` returns 50 and copies the 50 bytes up to the end of the
file into the buffer (the buffer held the byte 7 everywhere, the file holds zeros). The sum
`offset + size` is no `off_t`: it wraps to a negative number, and the test
`inode_size < offset + size` does not stop the read. -/
theorem inode_read_at_wrapped_sum :
    (inode_read_at fresh_io small_handle (fun _ => 7) 2147483647 50).map
        (fun r => (r.2.2, r.2.1 0, r.2.1 49, r.2.1 50))
      = some (50, 0, 0, 7) := by
  decide!

/-- C6: on a well-formed handle of length `L` with `deny_write_cnt = 0`, for every
`size > 0` and `offset ≥ 0` that end within the maximum file size, when there are enough free
sectors for every allocation and `malloc` does not fail, `inode_write_at` returns `size` and
afterwards `inode_length` is `max (L, offset + size)`. -/
theorem inode_write_at_returns_size {io : Io} {al : Alloc} {ino : inode} (junk : Int)
    (pad : Nat → Nat) (buffer : Nat → Nat) {size offset : Int} (hinv : IoInv io)
    (hal : AllocInv al) (hm : ∀ k, al.malloc_ok k = true) (hh : HandleInv ino (disk io) al)
    (hdeny : ino.deny_write_cnt = 0)
    (hs : 0 < size) (ho : 0 ≤ offset) (hmax : offset + size ≤ MAX_BYTES)
    (hfree : grow_need (bytes_to_sectors (inode_length ino))
      (bytes_to_sectors (max (inode_length ino) (offset + size))
        - bytes_to_sectors (inode_length ino)) ≤ free_count al.free_map) :
    ∃ io' al' ino',
      inode_write_at junk io al pad ino buffer size offset = some (io', al', ino', size) ∧
      inode_length ino' = max (inode_length ino) (offset + size) := by
  obtain ⟨io', al', d', hwr, _, _, _, _, _, hsize, _⟩ :=
    inode_write_at_spec junk pad buffer hinv hal hm hh hdeny hs ho hmax hfree
  exact ⟨io', al', _, hwr, hsize⟩

/-- There are enough free sectors among 70000 for a file of 10 MiB + 1 bytes. -/
theorem grow_need_example :
    grow_need (bytes_to_sectors (inode_length (empty_handle 0)))
      (bytes_to_sectors (max (inode_length (empty_handle 0)) (10485760 + 1))
        - bytes_to_sectors (inode_length (empty_handle 0)))
      ≤ free_count (fresh_alloc 70000).free_map := by
  rw [free_count_fresh]
  have h1 : bytes_to_sectors (max (inode_length (empty_handle 0)) (10485760 + 1)) = 20481 := by
    decide
  rw [h1]
  exact le_trans (grow_need_le _ _) (by omega)

/-- Witness for C6: one byte written at offset 10 MiB into an empty file gives the length
10 MiB + 1. -/
theorem inode_write_at_returns_size_witness :
    ∃ io' al' ino',
      inode_write_at 0 fresh_io (fresh_alloc 70000) (fun _ => 0) (empty_handle 0)
        (fun _ => 65) 1 10485760 = some (io', al', ino', 1) ∧
      inode_length ino' = max (inode_length (empty_handle 0)) (10485760 + 1) ∧
      max (inode_length (empty_handle 0)) (10485760 + 1) = 10485761 :=
  (inode_write_at_returns_size 0 (fun _ => 0) (fun _ => 65) IoInv_fresh
    (AllocInv_fresh (by decide)) (fun _ => rfl) (HandleInv_empty 0 _ _) rfl (by decide)
    (by decide) (by decide) grow_need_example).imp
    (fun _ h => h.imp (fun _ h => h.imp (fun _ h => ⟨h.1, h.2, by decide⟩)))

/-- A byte of a well-formed file that is zero on the disk reads as 0. -/
theorem reads_byte_zero {io : Io} {al : Alloc} {ino : inode} (hinv : IoInv io)
    (hal : AllocInv al) (hfile : FileInv ino.block_data (disk io) al) {p : Nat}
    (hp : (p : Int) < ino.block_data.size)
    (hz : file_byte ino.block_data (disk io) p = 0) : reads_byte io ino p 0 := by
  intro dst
  obtain ⟨io', dst', hrd, hb⟩ := read_one_byte hinv hal hfile dst hp
  exact ⟨io', dst', hrd, by rw [hb, hz]⟩

/-- C7: every byte of a file that lies below its length and was never written reads as 0.
When there are enough free sectors and `malloc` does not fail: (1) every byte of a file made
by `inode_create` with some length and opened reads as 0; (2) after `inode_resize` has grown
a well-formed file from length `L` to `a_size`, every byte in `[L, a_size)` reads as 0;
(3) after `inode_write_at` has written past the end of a well-formed file of length `L`,
every byte from `L` up to the start of the written range reads as 0. -/
theorem unwritten_bytes_read_zero {io : Io} {al : Alloc} (hinv : IoInv io)
    (hal : AllocInv al) (hm : ∀ k, al.malloc_ok k = true) :
    (∀ (stack : inode_data) (pad uninit : Nat → Nat) (l : InodeList) (sector : Nat)
      (length : Int) (is_directory : Bool), in_use al sector →
      l.find? (fun p => decide (p.2.sector = sector)) = none →
      0 ≤ length → length ≤ MAX_BYTES →
      grow_need 0 (bytes_to_sectors length) ≤ free_count al.free_map →
      ∃ io1 al1 io2 al2 h ino,
        inode_create io al stack pad sector length is_directory = some (io1, al1, true) ∧
        inode_open io1 al1 l uninit sector = some (io2, al2, (h, ino) :: l, some h) ∧
        inode_length ino = length ∧
        ∀ p, p < length.toNat → reads_byte io2 ino p 0) ∧
    (∀ (pad : Nat → Nat) (ino : inode) (a_size : Nat), HandleInv ino (disk io) al →
      inode_length ino < a_size → a_size ≤ MAX_BYTES →
      grow_need (bytes_to_sectors (inode_length ino))
        (bytes_to_sectors a_size - bytes_to_sectors (inode_length ino))
        ≤ free_count al.free_map →
      ∃ io' al' ino',
        inode_resize io al pad ino a_size = some (io', al', ino', true) ∧
        inode_length ino' = a_size ∧
        ∀ p, (inode_length ino).toNat ≤ p → p < a_size → reads_byte io' ino' p 0) ∧
    (∀ (junk : Int) (pad : Nat → Nat) (ino : inode) (buffer : Nat → Nat) (size offset : Int),
      HandleInv ino (disk io) al → ino.deny_write_cnt = 0 →
      0 < size → 0 ≤ offset → offset + size ≤ MAX_BYTES →
      grow_need (bytes_to_sectors (inode_length ino))
        (bytes_to_sectors (max (inode_length ino) (offset + size))
          - bytes_to_sectors (inode_length ino)) ≤ free_count al.free_map →
      ∃ io' al' ino',
        inode_write_at junk io al pad ino buffer size offset = some (io', al', ino', size) ∧
        inode_length ino' = max (inode_length ino) (offset + size) ∧
        ∀ p, (inode_length ino).toNat ≤ p → p < offset.toNat → reads_byte io' ino' p 0) := by
  refine ⟨?_, ?_, ?_⟩
  · intro stack pad uninit l sector length is_directory hsec hfresh h0 hmax hfree
    obtain ⟨io1, al1, d1, hcr, hinv1, hal1, hm1, _, hh1, hsize1, _, himg1, hzero1, _, _⟩ :=
      inode_create_spec stack pad is_directory hinv hal hm hsec h0 hmax hfree
    obtain ⟨io2, d2, hop, hinv2, hdisk2, _, hsize2, _, hh2, hbytes2⟩ :=
      inode_open_spec l uninit hinv1 hal1 (hm1 _) hfresh hh1 himg1
    have hsz : d2.size = length := by rw [hsize2, hsize1]
    refine ⟨io1, al1, io2, (malloc al1).1, al1.malloc_calls, inode.mk sector 1 false 0 d2,
      hcr, hop, hsz, ?_⟩
    intro p hp
    have hmax' := hmax
    unfold MAX_BYTES at hmax'
    have hn1 : bytes_to_sectors d1.size = (length.toNat + 511) / 512 := by
      rw [hsize1, bytes_to_sectors_eq h0 (by omega)]
    apply @reads_byte_zero io2 (malloc al1).1 _ hinv2 hal1 hh2.file
    · show (p : Int) < d2.size
      omega
    · show file_byte d2 (disk io2) p = 0
      rw [hbytes2 p (by rw [hn1]; omega)]
      exact hzero1 p hp
  · intro pad ino a_size hh hgrow hmax hfree
    obtain ⟨io', al', d', hrs, hinv', hal', _, _, hh', hsize', _, hbytes', _⟩ :=
      inode_resize_spec pad hinv hal hm hh hgrow hmax hfree
    refine ⟨io', al', _, hrs, hsize', ?_⟩
    intro p hp1 hp2
    apply reads_byte_zero hinv' hal' hh'.file
    · show (p : Int) < d'.size
      omega
    · show file_byte d' (disk io') p = 0
      rw [hbytes' p hp2, if_neg]
      unfold inode_length at hp1
      omega
  · intro junk pad ino buffer size offset hh hdeny hs ho hmax hfree
    obtain ⟨io', al', d', hwr, hinv', hal', _, _, hh', hsize', _, _, hrest', _⟩ :=
      inode_write_at_spec junk pad buffer hinv hal hm hh hdeny hs ho hmax hfree
    refine ⟨io', al', _, hwr, hsize', ?_⟩
    intro p hp1 hp2
    unfold inode_length at hp1
    apply reads_byte_zero hinv' hal' hh'.file
    · show (p : Int) < d'.size
      omega
    · show file_byte d' (disk io') p = 0
      rw [hrest' p (by omega) (by omega), if_neg (by omega)]

/-- Witness for C7: after one byte was written at offset 10 MiB into an empty file, the byte
at offset 9 MiB reads as 0. -/
theorem unwritten_bytes_read_zero_witness :
    ∃ io' al' ino',
      inode_write_at 0 fresh_io (fresh_alloc 70000) (fun _ => 0) (empty_handle 0)
        (fun _ => 65) 1 10485760 = some (io', al', ino', 1) ∧
      inode_length ino' = max (inode_length (empty_handle 0)) (10485760 + 1) ∧
      reads_byte io' ino' 9437184 0 :=
  ((unwritten_bytes_read_zero IoInv_fresh (AllocInv_fresh (by decide)) (fun _ => rfl)).2.2
    0 (fun _ => 0) (empty_handle 0) (fun _ => 65) 1 10485760 (HandleInv_empty 0 _ _) rfl
    (by decide) (by decide) (by decide) grow_need_example).imp
    (fun _ h => h.imp (fun _ h => h.imp (fun _ h => ⟨h.1, h.2.1, h.2.2 9437184 (by decide)
      (by decide)⟩)))

theorem handle_update_map_fst (l : InodeList) (h : Nat) (f : inode → inode) :
    (handle_update l h f).map (fun p => p.1) = l.map (fun p => p.1) := by
  unfold handle_update
  rw [List.map_map]
  apply List.map_congr_left
  intro p _
  simp only [Function.comp]
  split <;> rfl

theorem handle_update_map_sector (l : InodeList) (h : Nat) {f : inode → inode}
    (hf : ∀ i, (f i).sector = i.sector) :
    (handle_update l h f).map (fun p => p.2.sector) = l.map (fun p => p.2.sector) := by
  unfold handle_update
  rw [List.map_map]
  apply List.map_congr_left
  intro p _
  simp only [Function.comp]
  split
  · exact hf _
  · rfl

theorem mem_handle_update {l : InodeList} {h : Nat} {f : inode → inode} {q : Nat × inode}
    (hq : q ∈ handle_update l h f) :
    ∃ p ∈ l, q.1 = p.1 ∧ ((p.1 = h ∧ q.2 = f p.2) ∨ (p.1 ≠ h ∧ q.2 = p.2)) := by
  unfold handle_update at hq
  obtain ⟨p, hp, rfl⟩ := List.mem_map.mp hq
  refine ⟨p, hp, ?_, ?_⟩
  · split <;> rfl
  · by_cases c : p.1 = h
    · left; rw [if_pos c]; exact ⟨c, rfl⟩
    · right; rw [if_neg c]; exact ⟨c, rfl⟩

theorem handle_get_of_mem {l : InodeList} (hnd : (l.map (fun p => p.1)).Nodup)
    {p : Nat × inode} (hp : p ∈ l) : handle_get l p.1 = some p.2 := by
  unfold handle_get
  induction l with
  | nil => cases hp
  | cons q rest ih =>
    rw [List.map_cons, List.nodup_cons] at hnd
    rw [List.find?_cons]
    rcases List.mem_cons.mp hp with rfl | hr
    · simp
    · have hne : q.1 ≠ p.1 := by
        intro e
        apply hnd.1
        rw [e]
        exact List.mem_map_of_mem (fun p => p.1) hr
      simp only [hne, decide_False]
      exact ih hnd.2 hr

theorem handle_get_mem {l : InodeList} {h : Nat} {ino : inode}
    (hg : handle_get l h = some ino) : (h, ino) ∈ l := by
  unfold handle_get at hg
  cases hf : l.find? (fun p => decide (p.1 = h)) with
  | none => rw [hf] at hg; cases hg
  | some p =>
    rw [hf] at hg
    have h1 := List.find?_some hf
    have h2 := List.mem_of_find?_eq_some hf
    simp only [decide_eq_true_eq] at h1
    simp only [Option.map_some', Option.some.injEq] at hg
    rw [← h1, ← hg]
    exact h2

/-- A handle of the list is the handle that its address stands for. -/
theorem handle_get_unique {l : InodeList} (hnd : (l.map (fun p => p.1)).Nodup) {h : Nat}
    {ino : inode} (hg : handle_get l h = some ino) {p : Nat × inode} (hp : p ∈ l)
    (hph : p.1 = h) : p.2 = ino := by
  have := handle_get_of_mem hnd hp
  rw [hph, hg] at this
  exact (Option.some.inj this).symm

theorem ListInv_update {st : InodeState} (hinv : ListInv st) {h : Nat} {ino : inode}
    (hg : handle_get st.open_inodes h = some ino) (f : inode → inode)
    (hs : ∀ i, (f i).sector = i.sector) (hr : ∀ i, (f i).removed = i.removed)
    (ho : 1 ≤ (f ino).open_cnt) (io1 : Io) :
    ListInv (InodeState.mk io1 st.alloc (handle_update st.open_inodes h f)) := by
  constructor
  · intro q hq
    obtain ⟨p, hp, e1, _⟩ := mem_handle_update hq
    rw [e1]
    exact hinv.addr_lt p hp
  · show ((handle_update st.open_inodes h f).map (fun p => p.1)).Nodup
    rw [handle_update_map_fst]
    exact hinv.addr_nodup
  · show ((handle_update st.open_inodes h f).map (fun p => p.2.sector)).Nodup
    rw [handle_update_map_sector _ _ hs]
    exact hinv.sector_nodup
  · intro q hq
    obtain ⟨p, hp, _, e2⟩ := mem_handle_update hq
    rcases e2 with ⟨e, e2⟩ | ⟨_, e2⟩
    · rw [e2, handle_get_unique hinv.addr_nodup hg hp e]
      exact ho
    · rw [e2]
      exact hinv.open_pos p hp
  · intro q hq
    obtain ⟨p, hp, _, e2⟩ := mem_handle_update hq
    rcases e2 with ⟨_, e2⟩ | ⟨_, e2⟩
    · rw [e2, hr]
      exact hinv.not_removed p hp
    · rw [e2]
      exact hinv.not_removed p hp

theorem find_sector_none {l : InodeList} {sector : Nat}
    (h : l.find? (fun p => decide (p.2.sector = sector)) = none) :
    sector ∉ l.map (fun p => p.2.sector) := by
  intro hm
  obtain ⟨p, hp, e⟩ := List.mem_map.mp hm
  have := List.find?_eq_none.mp h p hp
  simp only [decide_eq_true_eq] at this
  exact this e

theorem inode_reopen_some {l : InodeList} {h : Nat} {r : InodeList × Option Nat}
    (hr : inode_reopen l (some h) = some r) :
    ∃ ino, handle_get l h = some ino ∧ ino.open_cnt ≠ INT_MAX ∧
      r = (handle_update l h (fun i => { i with open_cnt := i.open_cnt + 1 }), some h) := by
  unfold inode_reopen at hr
  simp only at hr
  cases hg : handle_get l h with
  | none => rw [hg] at hr; cases hr
  | some ino =>
    rw [hg] at hr
    simp only at hr
    by_cases c : ino.open_cnt = INT_MAX
    · rw [if_pos c] at hr; cases hr
    · rw [if_neg c] at hr
      exact ⟨ino, rfl, c, (Option.some.inj hr).symm⟩

theorem inode_close_some {io : Io} {al : Alloc} {l : InodeList} {h : Nat}
    {r : Io × Alloc × InodeList} (hr : inode_close io al l (some h) = some r) :
    ∃ ino, handle_get l h = some ino ∧
      (ino.removed = false →
        (ino.open_cnt - 1 = 0 ∧ r = (io, al, l.filter (fun p => decide (p.1 ≠ h)))) ∨
        (ino.open_cnt - 1 ≠ 0 ∧
          r = (io, al, handle_update l h (fun i => { i with open_cnt := i.open_cnt - 1 })))) := by
  unfold inode_close at hr
  simp only at hr
  cases hg : handle_get l h with
  | none => rw [hg] at hr; cases hr
  | some ino =>
    rw [hg] at hr
    simp only at hr
    refine ⟨ino, rfl, ?_⟩
    intro hnr
    by_cases c : ino.open_cnt = - INT_MAX - 1
    · rw [if_pos c] at hr; cases hr
    · rw [if_neg c] at hr
      by_cases c2 : ino.open_cnt - 1 = 0
      · rw [if_pos c2, hnr] at hr
        simp only [Bool.false_eq_true, if_false] at hr
        exact Or.inl ⟨c2, (Option.some.inj hr).symm⟩
      · rw [if_neg c2] at hr
        exact Or.inr ⟨c2, (Option.some.inj hr).symm⟩

theorem inode_deny_write_some {l l1 : InodeList} {h : Nat}
    (hr : inode_deny_write l h = some l1) :
    ∃ ino, handle_get l h = some ino ∧ ino.deny_write_cnt + 1 ≤ ino.open_cnt ∧
      l1 = handle_update l h (fun i => { i with deny_write_cnt := i.deny_write_cnt + 1 }) := by
  unfold inode_deny_write at hr
  cases hg : handle_get l h with
  | none => rw [hg] at hr; cases hr
  | some ino =>
    rw [hg] at hr
    simp only at hr
    by_cases c : ino.deny_write_cnt = INT_MAX
    · rw [if_pos c] at hr; cases hr
    · rw [if_neg c] at hr
      by_cases c2 : ino.deny_write_cnt + 1 ≤ ino.open_cnt
      · rw [if_pos c2] at hr
        exact ⟨ino, rfl, c2, (Option.some.inj hr).symm⟩
      · rw [if_neg c2] at hr; cases hr

theorem inode_allow_write_some {l l1 : InodeList} {h : Nat}
    (hr : inode_allow_write l h = some l1) :
    ∃ ino, handle_get l h = some ino ∧ 0 < ino.deny_write_cnt ∧
      ino.deny_write_cnt ≤ ino.open_cnt ∧
      l1 = handle_update l h (fun i => { i with deny_write_cnt := i.deny_write_cnt - 1 }) := by
  unfold inode_allow_write at hr
  cases hg : handle_get l h with
  | none => rw [hg] at hr; cases hr
  | some ino =>
    rw [hg] at hr
    simp only at hr
    by_cases c : ino.deny_write_cnt > 0 ∧ ino.deny_write_cnt ≤ ino.open_cnt
    · rw [if_pos c] at hr
      exact ⟨ino, rfl, c.1, c.2, (Option.some.inj hr).symm⟩
    · rw [if_neg c] at hr; cases hr

theorem inode_open_some {io : Io} {al : Alloc} {l : InodeList} {uninit : Nat → Nat}
    {sector : Nat} {r : Io × Alloc × InodeList × Option Nat}
    (hr : inode_open io al l uninit sector = some r) :
    (∃ p rr, l.find? (fun p => decide (p.2.sector = sector)) = some p ∧
      inode_reopen l (some p.1) = some rr ∧ r = (io, al, rr.1, rr.2)) ∨
    (l.find? (fun p => decide (p.2.sector = sector)) = none ∧
      (r = (io, (malloc al).1, l, none) ∨
        ∃ io1 d, r = (io1, (malloc al).1,
          (al.malloc_calls, inode.mk sector 1 false 0 d) :: l, some al.malloc_calls))) := by
  unfold inode_open at hr
  cases hf : l.find? (fun p => decide (p.2.sector = sector)) with
  | some p =>
    rw [hf] at hr
    simp only at hr
    cases hro : inode_reopen l (some p.1) with
    | none => rw [hro] at hr; cases hr
    | some rr =>
      rw [hro] at hr
      exact Or.inl ⟨p, rr, rfl, hro, (Option.some.inj hr).symm⟩
  | none =>
    rw [hf] at hr
    simp only [malloc] at hr
    refine Or.inr ⟨rfl, ?_⟩
    cases hm : al.malloc_ok al.malloc_calls with
    | false =>
      rw [hm] at hr
      exact Or.inl (Option.some.inj hr).symm
    | true =>
      rw [hm] at hr
      simp only at hr
      cases hrd : FS_READ_BLOCK io sector uninit with
      | none => rw [hrd] at hr; cases hr
      | some x =>
        obtain ⟨io1, buf⟩ := x
        rw [hrd] at hr
        exact Or.inr ⟨io1, _, (Option.some.inj hr).symm⟩

theorem ListInv_push {st : InodeState} (hinv : ListInv st) {sector : Nat}
    (hf : st.open_inodes.find? (fun p => decide (p.2.sector = sector)) = none) (io1 : Io)
    (d : inode_data) :
    ListInv (InodeState.mk io1 (malloc st.alloc).1
      ((st.alloc.malloc_calls, inode.mk sector 1 false 0 d) :: st.open_inodes)) := by
  constructor
  · intro p hp
    rcases List.mem_cons.mp hp with rfl | hp
    · exact Nat.lt_succ_self _
    · exact Nat.lt_succ_of_lt (hinv.addr_lt p hp)
  · show (List.map (fun p => p.1) (_ :: st.open_inodes)).Nodup
    rw [List.map_cons, List.nodup_cons]
    refine ⟨?_, hinv.addr_nodup⟩
    intro hm
    obtain ⟨p, hp, e⟩ := List.mem_map.mp hm
    have := hinv.addr_lt p hp
    simp only at e
    omega
  · show (List.map (fun p => p.2.sector) (_ :: st.open_inodes)).Nodup
    rw [List.map_cons, List.nodup_cons]
    exact ⟨find_sector_none hf, hinv.sector_nodup⟩
  · intro p hp
    rcases List.mem_cons.mp hp with rfl | hp
    · exact le_refl _
    · exact hinv.open_pos p hp
  · intro p hp
    rcases List.mem_cons.mp hp with rfl | hp
    · rfl
    · exact hinv.not_removed p hp

/-- Every call keeps the list of open inodes well formed. -/
theorem inode_call_ListInv {uninit : Nat → Nat} {st st' : InodeState} {c : InodeCall}
    (hinv : ListInv st) (hc : inode_call uninit st c = some st') : ListInv st' := by
  cases c with
  | call_open sector =>
    simp only [inode_call] at hc
    cases hr : inode_open st.cache st.alloc st.open_inodes uninit sector with
    | none => rw [hr] at hc; cases hc
    | some r =>
      rw [hr] at hc
      simp only [Option.some.injEq] at hc
      rw [← hc]
      rcases inode_open_some hr with ⟨p, rr, hf, hro, rfl⟩ | ⟨hf, rfl | ⟨io1, d, rfl⟩⟩
      · obtain ⟨ino, hg, _, rfl⟩ := inode_reopen_some hro
        exact ListInv_update hinv hg (fun i => { i with open_cnt := i.open_cnt + 1 })
          (fun _ => rfl) (fun _ => rfl)
          (Int.le_add_one (hinv.open_pos _ (handle_get_mem hg))) _
      · exact ⟨fun p hp => Nat.lt_succ_of_lt (hinv.addr_lt p hp), hinv.addr_nodup,
          hinv.sector_nodup, hinv.open_pos, hinv.not_removed⟩
      · exact ListInv_push hinv hf io1 d
  | call_reopen h =>
    simp only [inode_call] at hc
    cases hr : inode_reopen st.open_inodes (some h) with
    | none => rw [hr] at hc; cases hc
    | some r =>
      rw [hr] at hc
      simp only [Option.some.injEq] at hc
      rw [← hc]
      obtain ⟨ino, hg, _, rfl⟩ := inode_reopen_some hr
      exact ListInv_update hinv hg (fun i => { i with open_cnt := i.open_cnt + 1 })
        (fun _ => rfl) (fun _ => rfl)
        (Int.le_add_one (hinv.open_pos _ (handle_get_mem hg))) _
  | call_close h =>
    simp only [inode_call] at hc
    cases hr : inode_close st.cache st.alloc st.open_inodes (some h) with
    | none => rw [hr] at hc; cases hc
    | some r =>
      rw [hr] at hc
      simp only [Option.some.injEq] at hc
      rw [← hc]
      obtain ⟨ino, hg, hcases⟩ := inode_close_some hr
      have hmem := handle_get_mem hg
      have hop : 1 ≤ ino.open_cnt := hinv.open_pos _ hmem
      rcases hcases (hinv.not_removed _ hmem) with ⟨_, rfl⟩ | ⟨hne, rfl⟩
      · constructor
        · intro p hp
          exact hinv.addr_lt p (List.mem_of_mem_filter hp)
        · exact ((List.filter_sublist _).map _).nodup hinv.addr_nodup
        · exact ((List.filter_sublist _).map _).nodup hinv.sector_nodup
        · intro p hp
          exact hinv.open_pos p (List.mem_of_mem_filter hp)
        · intro p hp
          exact hinv.not_removed p (List.mem_of_mem_filter hp)
      · have hop1 : 1 ≤ ino.open_cnt - 1 := by omega
        exact ListInv_update hinv hg (fun i => { i with open_cnt := i.open_cnt - 1 })
          (fun _ => rfl) (fun _ => rfl) hop1 _
  | call_deny_write h =>
    simp only [inode_call] at hc
    cases hr : inode_deny_write st.open_inodes h with
    | none => rw [hr] at hc; cases hc
    | some r =>
      rw [hr] at hc
      simp only [Option.some.injEq] at hc
      rw [← hc]
      obtain ⟨ino, hg, _, rfl⟩ := inode_deny_write_some hr
      exact ListInv_update hinv hg
        (fun i => { i with deny_write_cnt := i.deny_write_cnt + 1 })
        (fun _ => rfl) (fun _ => rfl) (hinv.open_pos _ (handle_get_mem hg)) _
  | call_allow_write h =>
    simp only [inode_call] at hc
    cases hr : inode_allow_write st.open_inodes h with
    | none => rw [hr] at hc; cases hc
    | some r =>
      rw [hr] at hc
      simp only [Option.some.injEq] at hc
      rw [← hc]
      obtain ⟨ino, hg, _, _, rfl⟩ := inode_allow_write_some hr
      exact ListInv_update hinv hg
        (fun i => { i with deny_write_cnt := i.deny_write_cnt - 1 })
        (fun _ => rfl) (fun _ => rfl) (hinv.open_pos _ (handle_get_mem hg)) _

/-- Every sequence of calls keeps the list of open inodes well formed. -/
theorem inode_calls_ListInv {uninit : Nat → Nat} (calls : List InodeCall) :
    ∀ {st st' : InodeState}, ListInv st → inode_calls uninit st calls = some st' →
      ListInv st' := by
  induction calls with
  | nil =>
    intro st st' hinv hc
    simp only [inode_calls, Option.some.injEq] at hc
    rw [← hc]
    exact hinv
  | cons c cs ih =>
    intro st st' hinv hc
    simp only [inode_calls] at hc
    cases h1 : inode_call uninit st c with
    | none => rw [h1] at hc; cases hc
    | some st1 =>
      rw [h1] at hc
      exact ih (inode_call_ListInv hinv h1) hc

theorem ListInv_nil (io : Io) (al : Alloc) : ListInv (InodeState.mk io al []) :=
  ⟨fun _ h => (by cases h), List.nodup_nil, List.nodup_nil, fun _ h => (by cases h),
    fun _ h => (by cases h)⟩

theorem CountInv_update {st : InodeState} (hinv : ListInv st) (hcnt : CountInv st) {h : Nat}
    {ino : inode} (hg : handle_get st.open_inodes h = some ino) (f : inode → inode)
    (hf : 0 ≤ (f ino).deny_write_cnt ∧ (f ino).deny_write_cnt ≤ (f ino).open_cnt) (io1 : Io) :
    CountInv (InodeState.mk io1 st.alloc (handle_update st.open_inodes h f)) := by
  intro q hq
  obtain ⟨p, hp, _, e2⟩ := mem_handle_update hq
  rcases e2 with ⟨e, e2⟩ | ⟨_, e2⟩
  · rw [e2, handle_get_unique hinv.addr_nodup hg hp e]
    exact hf
  · rw [e2]
    exact hcnt p hp

/-- Every call keeps the invariant of the counters, when a call of `inode_close` is made on a
handle with fewer denials than openers. -/
theorem inode_call_CountInv {uninit : Nat → Nat} {st st' : InodeState} {c : InodeCall}
    (hinv : ListInv st) (hcnt : CountInv st) (hok : close_after_allow st c = true)
    (hc : inode_call uninit st c = some st') : CountInv st' := by
  cases c with
  | call_open sector =>
    simp only [inode_call] at hc
    cases hr : inode_open st.cache st.alloc st.open_inodes uninit sector with
    | none => rw [hr] at hc; cases hc
    | some r =>
      rw [hr] at hc
      simp only [Option.some.injEq] at hc
      rw [← hc]
      rcases inode_open_some hr with ⟨p, rr, hf, hro, rfl⟩ | ⟨hf, rfl | ⟨io1, d, rfl⟩⟩
      · obtain ⟨ino, hg, _, rfl⟩ := inode_reopen_some hro
        have := hcnt _ (handle_get_mem hg)
        exact CountInv_update hinv hcnt hg (fun i => { i with open_cnt := i.open_cnt + 1 })
          ⟨this.1, Int.le_add_one this.2⟩ _
      · exact hcnt
      · intro p hp
        rcases List.mem_cons.mp hp with rfl | hp
        · exact ⟨le_refl _, (by decide : (0 : Int) ≤ 1)⟩
        · exact hcnt p hp
  | call_reopen h =>
    simp only [inode_call] at hc
    cases hr : inode_reopen st.open_inodes (some h) with
    | none => rw [hr] at hc; cases hc
    | some r =>
      rw [hr] at hc
      simp only [Option.some.injEq] at hc
      rw [← hc]
      obtain ⟨ino, hg, _, rfl⟩ := inode_reopen_some hr
      have := hcnt _ (handle_get_mem hg)
      exact CountInv_update hinv hcnt hg (fun i => { i with open_cnt := i.open_cnt + 1 })
        ⟨this.1, Int.le_add_one this.2⟩ _
  | call_close h =>
    simp only [inode_call] at hc
    cases hr : inode_close st.cache st.alloc st.open_inodes (some h) with
    | none => rw [hr] at hc; cases hc
    | some r =>
      rw [hr] at hc
      simp only [Option.some.injEq] at hc
      rw [← hc]
      obtain ⟨ino, hg, hcases⟩ := inode_close_some hr
      have hmem := handle_get_mem hg
      simp only [close_after_allow, hg, decide_eq_true_eq] at hok
      rcases hcases (hinv.not_removed _ hmem) with ⟨_, rfl⟩ | ⟨hne, rfl⟩
      · intro p hp
        exact hcnt p (List.mem_of_mem_filter hp)
      · have h0 : 0 ≤ ino.deny_write_cnt := (hcnt _ hmem).1
        have h2 : ino.deny_write_cnt ≤ ino.open_cnt - 1 := by omega
        exact CountInv_update hinv hcnt hg (fun i => { i with open_cnt := i.open_cnt - 1 })
          ⟨h0, h2⟩ _
  | call_deny_write h =>
    simp only [inode_call] at hc
    cases hr : inode_deny_write st.open_inodes h with
    | none => rw [hr] at hc; cases hc
    | some r =>
      rw [hr] at hc
      simp only [Option.some.injEq] at hc
      rw [← hc]
      obtain ⟨ino, hg, hle, rfl⟩ := inode_deny_write_some hr
      have h0 : 0 ≤ ino.deny_write_cnt := (hcnt _ (handle_get_mem hg)).1
      have h1 : 0 ≤ ino.deny_write_cnt + 1 := by omega
      exact CountInv_update hinv hcnt hg
        (fun i => { i with deny_write_cnt := i.deny_write_cnt + 1 }) ⟨h1, hle⟩ _
  | call_allow_write h =>
    simp only [inode_call] at hc
    cases hr : inode_allow_write st.open_inodes h with
    | none => rw [hr] at hc; cases hc
    | some r =>
      rw [hr] at hc
      simp only [Option.some.injEq] at hc
      rw [← hc]
      obtain ⟨ino, hg, hpos, hle, rfl⟩ := inode_allow_write_some hr
      have h1 : 0 ≤ ino.deny_write_cnt - 1 := by omega
      have h2 : ino.deny_write_cnt - 1 ≤ ino.open_cnt := by omega
      exact CountInv_update hinv hcnt hg
        (fun i => { i with deny_write_cnt := i.deny_write_cnt - 1 }) ⟨h1, h2⟩ _

theorem inode_calls_CountInv {uninit : Nat → Nat} (calls : List InodeCall) :
    ∀ {st st' : InodeState}, ListInv st → CountInv st →
      closes_after_allow uninit st calls = true →
      inode_calls uninit st calls = some st' → CountInv st' := by
  induction calls with
  | nil =>
    intro st st' _ hcnt _ hc
    simp only [inode_calls, Option.some.injEq] at hc
    rw [← hc]
    exact hcnt
  | cons c cs ih =>
    intro st st' hinv hcnt hok hc
    simp only [inode_calls] at hc
    simp only [closes_after_allow, Bool.and_eq_true] at hok
    cases h1 : inode_call uninit st c with
    | none => rw [h1] at hc; cases hc
    | some st1 =>
      rw [h1] at hc hok
      exact ih (inode_call_ListInv hinv h1) (inode_call_CountInv hinv hcnt hok.1 h1) hok.2 hc

/-- C9 (counterexample): from the empty list, `inode_open`, `inode_reopen`, two calls of
`inode_deny_write` and `inode_close` on the same handle fail no assertion and leave the
handle in the list with `open_cnt = 1` and `deny_write_cnt = 2`. -/
theorem inode_close_keeps_denials :
    (inode_calls (fun _ => 0) (InodeState.mk fresh_io (fresh_alloc 0) [])
      [InodeCall.call_open 1, InodeCall.call_reopen 0, InodeCall.call_deny_write 0,
        InodeCall.call_deny_write 0, InodeCall.call_close 0]).map counters
      = some [(1, 2)] := by decide!

/-- C9 (amended): in every state reached from the empty list through `inode_open`,
`inode_reopen`, `inode_close`, `inode_deny_write` and `inode_allow_write`, none of them failing
an assertion and each `inode_close` called on a handle with fewer denials than openers, every
handle of the list satisfies `open_cnt ≥ deny_write_cnt ≥ 0`. -/
theorem deny_write_cnt_le_open_cnt (uninit : Nat → Nat) (io : Io) (al : Alloc)
    (calls : List InodeCall) {st : InodeState}
    (hrun : inode_calls uninit (InodeState.mk io al []) calls = some st)
    (hok : closes_after_allow uninit (InodeState.mk io al []) calls = true) :
    ∀ p ∈ st.open_inodes, 0 ≤ p.2.deny_write_cnt ∧ p.2.deny_write_cnt ≤ p.2.open_cnt :=
  inode_calls_CountInv calls (ListInv_nil io al) (fun _ h => (by cases h)) hok hrun

/-- Witness for C9 (amended): a sequence of calls in which writes are allowed again before
the handle is closed. -/
theorem deny_write_cnt_le_open_cnt_witness :
    ∃ st, inode_calls (fun _ => 0) (InodeState.mk fresh_io (fresh_alloc 0) [])
        [InodeCall.call_open 1, InodeCall.call_reopen 0, InodeCall.call_deny_write 0,
          InodeCall.call_allow_write 0, InodeCall.call_close 0, InodeCall.call_deny_write 0]
        = some st ∧
      counters st = [(1, 1)] ∧
      ∀ p ∈ st.open_inodes, 0 ≤ p.2.deny_write_cnt ∧ p.2.deny_write_cnt ≤ p.2.open_cnt := by
  have h : (inode_calls (fun _ => 0) (InodeState.mk fresh_io (fresh_alloc 0) [])
        [InodeCall.call_open 1, InodeCall.call_reopen 0, InodeCall.call_deny_write 0,
          InodeCall.call_allow_write 0, InodeCall.call_close 0, InodeCall.call_deny_write 0]
        ).map counters = some [(1, 1)] := by decide!
  obtain ⟨st, hst, hcs⟩ := Option.map_eq_some'.mp h
  exact ⟨st, hst, hcs, deny_write_cnt_le_open_cnt _ _ _ _ hst (by decide!)⟩

theorem find_sector_of_mem {l : InodeList} (hnd : (l.map (fun p => p.2.sector)).Nodup)
    {p : Nat × inode} (hp : p ∈ l) :
    l.find? (fun q => decide (q.2.sector = p.2.sector)) = some p := by
  induction l with
  | nil => cases hp
  | cons q rest ih =>
    rw [List.map_cons, List.nodup_cons] at hnd
    rw [List.find?_cons]
    rcases List.mem_cons.mp hp with rfl | hr
    · simp
    · have hne : q.2.sector ≠ p.2.sector := by
        intro e
        apply hnd.1
        rw [e]
        exact List.mem_map_of_mem (fun p => p.2.sector) hr
      simp only [hne, decide_False]
      exact ih hnd.2 hr

theorem handle_get_update_same {l : InodeList} (hnd : (l.map (fun p => p.1)).Nodup) {h : Nat}
    {ino : inode} (hg : handle_get l h = some ino) (f : inode → inode) :
    handle_get (handle_update l h f) h = some (f ino) := by
  have hmem : (h, f ino) ∈ handle_update l h f := by
    unfold handle_update
    apply List.mem_map.mpr
    exact ⟨(h, ino), handle_get_mem hg, by simp⟩
  have hnd' : ((handle_update l h f).map (fun p => p.1)).Nodup := by
    rw [handle_update_map_fst]
    exact hnd
  exact handle_get_of_mem hnd' hmem

/-- C10: in every state reached from the empty list through `inode_open`, `inode_reopen` and
`inode_close` (and `inode_deny_write` and `inode_allow_write`), none of them failing, the list
of open inodes holds at most one handle for a sector and every handle of the list has
`open_cnt ≥ 1`; and `inode_open` on the sector of a handle of the list returns that handle,
with `open_cnt` greater by exactly 1 and the same handles in the list as before. -/
theorem open_inodes_one_handle_per_sector (uninit : Nat → Nat) (io : Io) (al : Alloc)
    (calls : List InodeCall) {st : InodeState}
    (hrun : inode_calls uninit (InodeState.mk io al []) calls = some st) :
    (st.open_inodes.map (fun p => p.2.sector)).Nodup ∧
    (∀ p ∈ st.open_inodes, 1 ≤ p.2.open_cnt) ∧
    (∀ h ino, (h, ino) ∈ st.open_inodes → ino.open_cnt ≠ INT_MAX →
      ∃ l', inode_open st.cache st.alloc st.open_inodes uninit ino.sector
          = some (st.cache, st.alloc, l', some h) ∧
        handle_get l' h = some { ino with open_cnt := ino.open_cnt + 1 } ∧
        l'.map (fun p => p.1) = st.open_inodes.map (fun p => p.1) ∧
        l'.map (fun p => p.2.sector) = st.open_inodes.map (fun p => p.2.sector)) := by
  have hinv := inode_calls_ListInv calls (ListInv_nil io al) hrun
  refine ⟨hinv.sector_nodup, hinv.open_pos, ?_⟩
  intro h ino hmem hmaxc
  have hf := find_sector_of_mem hinv.sector_nodup hmem
  have hg := handle_get_of_mem hinv.addr_nodup hmem
  simp only at hf hg
  refine ⟨handle_update st.open_inodes h (fun i => { i with open_cnt := i.open_cnt + 1 }),
    ?_, handle_get_update_same hinv.addr_nodup hg _, handle_update_map_fst _ _ _,
    handle_update_map_sector _ _ (fun _ => rfl)⟩
  unfold inode_open
  rw [hf]
  simp only [inode_reopen, hg, if_neg hmaxc]

/-- Witness for C10: two sectors opened, the first of them twice. -/
theorem open_inodes_one_handle_per_sector_witness :
    ∃ st, inode_calls (fun _ => 0) (InodeState.mk fresh_io (fresh_alloc 0) [])
        [InodeCall.call_open 1, InodeCall.call_open 0, InodeCall.call_open 1,
          InodeCall.call_reopen 1, InodeCall.call_close 1] = some st ∧
      counters st = [(1, 0), (2, 0)] ∧
      (st.open_inodes.map (fun p => p.2.sector)).Nodup ∧
      (∀ p ∈ st.open_inodes, 1 ≤ p.2.open_cnt) ∧
      (∀ h ino, (h, ino) ∈ st.open_inodes → ino.open_cnt ≠ INT_MAX →
        ∃ l', inode_open st.cache st.alloc st.open_inodes (fun _ => 0) ino.sector
            = some (st.cache, st.alloc, l', some h) ∧
          handle_get l' h = some { ino with open_cnt := ino.open_cnt + 1 } ∧
          l'.map (fun p => p.1) = st.open_inodes.map (fun p => p.1) ∧
          l'.map (fun p => p.2.sector) = st.open_inodes.map (fun p => p.2.sector)) := by
  have h : (inode_calls (fun _ => 0) (InodeState.mk fresh_io (fresh_alloc 0) [])
        [InodeCall.call_open 1, InodeCall.call_open 0, InodeCall.call_open 1,
          InodeCall.call_reopen 1, InodeCall.call_close 1]).map counters = some [(1, 0), (2, 0)] := by decide!
  obtain ⟨st, hst, hcs⟩ := Option.map_eq_some'.mp h
  exact ⟨st, hst, hcs, open_inodes_one_handle_per_sector _ _ _ _ hst⟩

/-- C3 (the code at the failing input): with 94 free sectors, `inode_create` of a file of
47617 bytes returns true although the L2 block for its 94th sector could not be allocated; the
handle has length 47617, and `byte_to_sector` at offset 47616, below the length, returns
sector 0, which was in use before the file was created. -/
theorem byte_to_sector_after_failed_link :
    resize_break_run = some (true, 47617, 0) ∧ in_use (fresh_alloc 94) 0 := by decide!

/-- C4 (the code at the failing input): on a file of 100 bytes whose data sector is sector 2,
`byte_to_sector` at the offset 100, the length of the file, returns sector 2 and not the
value -1 of "no such sector". -/
theorem byte_to_sector_at_length (io : Io) :
    byte_to_sector io small_handle (inode_length small_handle) = some (io, 2) ∧
    (2 : Nat) ≠ SECTOR_NONE :=
  ⟨rfl, by decide⟩

/-- C8 (the code at the failing input): on a handle with `deny_write_cnt = 1` of an empty
file, with no free sector left, `inode_write_at` of one byte at offset 0 returns the
indeterminate value `junk` of its `return;` without a value, not 0. -/
theorem inode_write_at_denied_full_disk (junk : Int) (io : Io) (buffer : Nat → Nat) :
    (empty_handle 1).deny_write_cnt = 1 ∧
    inode_write_at junk io (fresh_alloc 0) (fun _ => 0) (empty_handle 1) buffer 1 0
      = some (io, (malloc (fresh_alloc 0)).1, empty_handle 1, junk) :=
  ⟨rfl, rfl⟩

/-- A write that needs no growth on a handle with `deny_write_cnt ≠ 0`: `inode_write_at`
returns 0 and changes nothing. -/
theorem inode_write_at_denied {io : Io} {al : Alloc} {ino : inode} (junk : Int)
    (pad buffer : Nat → Nat) {size offset : Int} (hd : ino.deny_write_cnt ≠ 0)
    (h0 : -2147483648 ≤ offset + size) (h1 : offset + size < 2147483648)
    (hle : offset + size ≤ ino.block_data.size) :
    inode_write_at junk io al pad ino buffer size offset = some (io, al, ino, 0) := by
  have hres : inode_write_at_resize io al pad ino size offset = some (io, al, ino, true) := by
    unfold inode_write_at_resize
    simp only
    rw [wrap_int_of_range h0 h1, if_neg (by omega)]
  unfold inode_write_at
  rw [hres]
  simp only [hd, ne_eq, not_false_eq_true, if_true]

/-- C13 (the code at the failing input): with 94 free sectors, `inode_data_resize` of an empty
inode to 47617 bytes allocates the 94 data sectors, fails to allocate the L2 block of the 94th,
and still returns true with the size set to 47617 and none of the 94 sectors released. -/
theorem inode_data_resize_failed_link :
    (inode_data_resize fresh_io (fresh_alloc 94)
        (inode_data.mk false 0 (fun _ => 0) (fun _ => 0)) 47617).map
      (fun r => (r.2.2.2, r.2.2.1.size, free_count r.2.1.free_map))
      = some (true, 47617, 0) ∧
    free_count (fresh_alloc 94).free_map = 94 := by decide!

/-- C14 (the code at the failing input): on a file of the maximum size, with 3 free sectors,
`inode_write_at` of one byte at offset 268483072 returns 1, the size becomes 268483073, the
three sectors are allocated and the new L2 block is stored in `l2_blocks[32]`, behind the 32
entries of the array. -/
theorem inode_write_at_past_max_size :
    (inode_write_at 7 fresh_io (fresh_alloc 3) (fun _ => 0) full_handle (fun _ => 65) 1
        268483072).map
      (fun r => (r.2.2.2, r.2.2.1.block_data.size, r.2.2.1.block_data.l2_blocks 32,
        free_count r.2.1.free_map))
      = some (1, 268483073, 3, 0) ∧
    INODE_DISK_NUM_IDIRECT_BLOCKS_2 = 32 ∧ (268483072 : Nat) = MAX_BYTES := by decide!

/-- C15 (the code at the failing input): on a handle of an empty file with writes allowed,
with no free sector left, `inode_write_at` of one byte at offset 0 needs growth, the resize
fails, and the function returns the indeterminate value `junk` of its `return;` without a
value, not 0. -/
theorem inode_write_at_full_disk (junk : Int) (io : Io) (buffer : Nat → Nat) :
    (empty_handle 0).deny_write_cnt = 0 ∧
    inode_write_at junk io (fresh_alloc 0) (fun _ => 0) (empty_handle 0) buffer 1 0
      = some (io, (malloc (fresh_alloc 0)).1, empty_handle 0, junk) :=
  ⟨rfl, rfl⟩

/-- The function `byte_to_sector` reads nothing of a handle but its block data. -/
theorem byte_to_sector_congr (io : Io) {ino ino' : inode}
    (h : ino'.block_data = ino.block_data) (pos : Int) :
    byte_to_sector io ino' pos = byte_to_sector io ino pos := by
  unfold byte_to_sector
  rw [h]

/-- The loop of `inode_read_at` reads nothing of a handle but its block data. -/
theorem inode_read_loop_congr {ino ino' : inode} (h : ino'.block_data = ino.block_data)
    (fuel : Nat) :
    ∀ (io : Io) (inode_size : Int) (buffer : Nat → Nat) (size offset bytes_read : Int),
      inode_read_loop fuel io ino' inode_size buffer size offset bytes_read
        = inode_read_loop fuel io ino inode_size buffer size offset bytes_read := by
  induction fuel with
  | zero => intros; rfl
  | succ n ih =>
    intro io inode_size buffer size offset bytes_read
    unfold inode_read_loop
    rw [byte_to_sector_congr io h]
    simp only [ih]

/-- The function `inode_read_at` reads nothing of a handle but its block data. -/
theorem inode_read_at_congr (io : Io) {ino ino' : inode}
    (h : ino'.block_data = ino.block_data) (buffer : Nat → Nat) (size offset : Int) :
    inode_read_at io ino' buffer size offset = inode_read_at io ino buffer size offset := by
  unfold inode_read_at inode_length
  rw [h]
  simp only [inode_read_loop_congr h]

/-- The loop of `inode_write_at` reads nothing of a handle but its block data. -/
theorem inode_write_loop_congr {ino ino' : inode} (h : ino'.block_data = ino.block_data)
    (fuel : Nat) :
    ∀ (io : Io) (buffer : Nat → Nat) (size offset bytes_written : Int),
      inode_write_loop fuel io ino' buffer size offset bytes_written
        = inode_write_loop fuel io ino buffer size offset bytes_written := by
  induction fuel with
  | zero => intros; rfl
  | succ n ih =>
    intro io buffer size offset bytes_written
    unfold inode_write_loop
    rw [byte_to_sector_congr io h]
    unfold inode_length
    rw [h]
    simp only [ih]

/-- The first part of `inode_write_at` reads neither `open_cnt` nor `removed` of a handle and
leaves them as they are. -/
theorem inode_write_at_resize_counters (io : Io) (al : Alloc) (pad : Nat → Nat)
    (ino : inode) (c : Int) (r : Bool) (size offset : Int) :
    inode_write_at_resize io al pad { ino with open_cnt := c, removed := r } size offset
      = (inode_write_at_resize io al pad ino size offset).map
          (fun x => (x.1, x.2.1, { x.2.2.1 with open_cnt := c, removed := r }, x.2.2.2)) := by
  unfold inode_write_at_resize
  simp only
  by_cases hg : wrap_int (offset + size) > ino.block_data.size
  · rw [if_pos hg, if_pos hg]
    cases hres : inode_data_resize io al ino.block_data
        (to_u32 (wrap_int (offset + size))) with
    | none => rfl
    | some x =>
      obtain ⟨io1, al1, d1, b⟩ := x
      cases b with
      | false => rfl
      | true =>
        simp only
        unfold inode_writeback
        simp only
        cases hwb : FS_WRITE_BLOCK io1 (inode_disk_bytes d1 INODE_MAGIC pad) ino.sector with
        | none => rfl
        | some io2 => rfl
  · rw [if_neg hg, if_neg hg]
    rfl

/-- The function `inode_write_at` reads neither `open_cnt` nor `removed` of a handle and
leaves them as they are. -/
theorem inode_write_at_counters (junk : Int) (io : Io) (al : Alloc) (pad : Nat → Nat)
    (ino : inode) (c : Int) (r : Bool) (buffer : Nat → Nat) (size offset : Int) :
    inode_write_at junk io al pad { ino with open_cnt := c, removed := r } buffer size offset
      = (inode_write_at junk io al pad ino buffer size offset).map
          (fun x => (x.1, x.2.1, { x.2.2.1 with open_cnt := c, removed := r }, x.2.2.2)) := by
  unfold inode_write_at
  rw [inode_write_at_resize_counters]
  cases hres : inode_write_at_resize io al pad ino size offset with
  | none => rfl
  | some x =>
    obtain ⟨io1, al1, ino1, b⟩ := x
    cases b with
    | false => rfl
    | true =>
      simp only [Option.map_some']
      by_cases hd : ino1.deny_write_cnt ≠ 0
      · rw [if_pos hd, if_pos hd]
        rfl
      · rw [if_neg hd, if_neg hd]
        rw [@inode_write_loop_congr ino1 { ino1 with open_cnt := c, removed := r } rfl]
        cases inode_write_loop (size.toNat + 1) io1 ino1 buffer size offset 0 <;> rfl

/-- A handle of the list after `handle_update`: the updated handle at the address `h`, the
same handle as before at every other address. -/
theorem handle_get_handle_update (l : InodeList) (h : Nat) (f : inode → inode) (h' : Nat) :
    handle_get (handle_update l h f) h'
      = if h' = h then (handle_get l h').map f else handle_get l h' := by
  unfold handle_get handle_update
  rw [List.find?_map]
  have hpred : ((fun p : Nat × inode => decide (p.1 = h')) ∘
      (fun p : Nat × inode => if p.1 = h then (p.1, f p.2) else p))
      = fun p => decide (p.1 = h') := by
    funext p
    simp only [Function.comp]
    split <;> rfl
  rw [hpred]
  cases hf : l.find? (fun p => decide (p.1 = h')) with
  | none => split <;> rfl
  | some p =>
    have hp := List.find?_some hf
    simp only [decide_eq_true_eq] at hp
    simp only [Option.map_some']
    by_cases e : h' = h
    · rw [if_pos e, if_pos (hp.trans e)]
    · rw [if_neg e, if_neg (fun x => e (hp.symm.trans x))]

/-- C12: `inode_remove` changes only the `removed` flag of the handle (it has no access to the
free map); `inode_close` on a handle with `open_cnt > 1`, removed or not, only decrements
`open_cnt` and leaves cache, disk and free map as they are; and `inode_read_at` and
`inode_write_at` on a handle that is marked removed do what they do on the same handle not
marked removed, whatever its `open_cnt`. -/
theorem removed_handle_stays_usable :
    (∀ (l : InodeList) (h : Nat) (l' : InodeList), inode_remove l h = some l' →
      l' = handle_update l h (fun i => { i with removed := true }) ∧
      handle_get l' h = (handle_get l h).map (fun i => { i with removed := true }) ∧
      ∀ h', h' ≠ h → handle_get l' h' = handle_get l h') ∧
    (∀ (io : Io) (al : Alloc) (l : InodeList) (h : Nat) (ino : inode),
      handle_get l h = some ino → 1 < ino.open_cnt →
      inode_close io al l (some h)
        = some (io, al, handle_update l h (fun i => { i with open_cnt := i.open_cnt - 1 })) ∧
      handle_get (handle_update l h (fun i => { i with open_cnt := i.open_cnt - 1 })) h
        = some { ino with open_cnt := ino.open_cnt - 1 }) ∧
    (∀ (io : Io) (ino : inode) (c : Int) (buffer : Nat → Nat) (size offset : Int),
      inode_read_at io { ino with open_cnt := c, removed := true } buffer size offset
        = inode_read_at io ino buffer size offset) ∧
    (∀ (junk : Int) (io : Io) (al : Alloc) (pad : Nat → Nat) (ino : inode) (c : Int)
      (buffer : Nat → Nat) (size offset : Int),
      inode_write_at junk io al pad { ino with open_cnt := c, removed := true } buffer size
          offset
        = (inode_write_at junk io al pad ino buffer size offset).map
            (fun x => (x.1, x.2.1, { x.2.2.1 with open_cnt := c, removed := true },
              x.2.2.2))) := by
  refine ⟨?_, ?_, ?_, ?_⟩
  · intro l h l' hr
    unfold inode_remove at hr
    cases hg : handle_get l h with
    | none => rw [hg] at hr; cases hr
    | some ino =>
      rw [hg] at hr
      have e : l' = handle_update l h (fun i => { i with removed := true }) :=
        (Option.some.inj hr).symm
      refine ⟨e, ?_, ?_⟩
      · rw [e, handle_get_handle_update, if_pos rfl, hg]
      · intro h' hne
        rw [e, handle_get_handle_update, if_neg hne]
  · intro io al l h ino hg hc
    constructor
    · unfold inode_close
      simp only [hg]
      unfold INT_MAX
      rw [if_neg (by omega), if_neg (by omega)]
    · rw [handle_get_handle_update, if_pos rfl, hg]
      rfl
  · intro io ino c buffer size offset
    exact @inode_read_at_congr io ino { ino with open_cnt := c, removed := true } rfl buffer
      size offset
  · intro junk io al pad ino c buffer size offset
    exact inode_write_at_counters junk io al pad ino c true buffer size offset

/-- Witness for C12: a handle with two openers that is marked removed is closed once. -/
theorem removed_handle_stays_usable_witness :
    inode_close fresh_io (fresh_alloc 4) [(0, { small_handle with open_cnt := 2, removed := true })]
        (some 0)
      = some (fresh_io, fresh_alloc 4,
          handle_update [(0, { small_handle with open_cnt := 2, removed := true })] 0
            (fun i => { i with open_cnt := i.open_cnt - 1 })) :=
  (removed_handle_stays_usable.2.1 fresh_io (fresh_alloc 4)
    [(0, { small_handle with open_cnt := 2, removed := true })] 0
    { small_handle with open_cnt := 2, removed := true } rfl (by decide)).1

theorem flushed_refl (e : cached_sector) : e.flushed e := ⟨rfl, rfl, rfl, fun h => h⟩

theorem flushed_trans {a b c : cached_sector} (h1 : a.flushed b) (h2 : b.flushed c) :
    a.flushed c :=
  ⟨h2.1.trans h1.1, h2.2.1.trans h1.2.1, h2.2.2.1.trans h1.2.2.1, fun h => h1.2.2.2 (h2.2.2.2 h)⟩

/-- One call of `cached_sector_flush`, entry by entry: every entry is flushed at most, and the
entry `i` is not dirty afterwards unless its timestamp is `INT64_MIN`. -/
theorem cached_sector_flush_entry (c : buffer_cache) (i : Nat) {j : Nat} {e' : cached_sector}
    (h : (cached_sector_flush c i).sectors[j]? = some e') :
    ∃ e, c.sectors[j]? = some e ∧ e.flushed e' ∧
      (j = i → e'.dirty = true → e'.last_accessed = INT64_MIN) := by
  unfold cached_sector_flush at h
  cases hi : c.sectors[i]? with
  | none =>
    rw [hi] at h
    refine ⟨e', h, flushed_refl _, ?_⟩
    intro hj
    rw [hj, hi] at h
    cases h
  | some x =>
    rw [hi] at h
    simp only at h
    by_cases h1 : x.last_accessed = INT64_MIN
    · rw [if_pos h1] at h
      refine ⟨e', h, flushed_refl _, ?_⟩
      intro hj _
      rw [hj, hi] at h
      rw [← Option.some.inj h]
      exact h1
    · rw [if_neg h1] at h
      by_cases h2 : x.dirty = true
      · rw [if_pos h2] at h
        simp only at h
        rw [List.getElem?_set] at h
        by_cases hj : i = j
        · rw [if_pos hj] at h
          split at h
          · have := Option.some.inj h
            subst this
            refine ⟨x, by rw [← hj]; exact hi, ⟨rfl, rfl, rfl, fun hd => by simp at hd⟩, ?_⟩
            intro _ hd
            simp at hd
          · cases h
        · rw [if_neg hj] at h
          exact ⟨e', h, flushed_refl _, fun hji => absurd hji.symm hj⟩
      · rw [if_neg h2] at h
        refine ⟨e', h, flushed_refl _, ?_⟩
        intro hj hd
        rw [hj, hi] at h
        rw [← Option.some.inj h] at hd
        exact absurd hd h2

theorem cached_sector_flush_length (c : buffer_cache) (i : Nat) :
    (cached_sector_flush c i).sectors.length = c.sectors.length := by
  unfold cached_sector_flush
  cases c.sectors[i]? with
  | none => rfl
  | some x =>
    simp only
    split
    · rfl
    · split
      · simp
      · rfl

theorem cached_sector_flush_counters (c : buffer_cache) (i : Nat) :
    (cached_sector_flush c i).num_hit = c.num_hit ∧
    (cached_sector_flush c i).num_miss = c.num_miss := by
  unfold cached_sector_flush
  cases c.sectors[i]? with
  | none => exact ⟨rfl, rfl⟩
  | some x =>
    simp only
    split
    · exact ⟨rfl, rfl⟩
    · split <;> exact ⟨rfl, rfl⟩

/-- A run of `cached_sector_flush` over the indices `is`, entry by entry. -/
theorem foldl_flush_entry (is : List Nat) : ∀ (c : buffer_cache) {j : Nat} {e' : cached_sector},
    (is.foldl cached_sector_flush c).sectors[j]? = some e' →
    ∃ e, c.sectors[j]? = some e ∧ e.flushed e' ∧
      (j ∈ is → e'.dirty = true → e'.last_accessed = INT64_MIN) := by
  induction is with
  | nil =>
    intro c j e' h
    exact ⟨e', h, flushed_refl _, fun hj => by cases hj⟩
  | cons i rest ih =>
    intro c j e' h
    rw [List.foldl_cons] at h
    obtain ⟨e1, h1, hf1, hd1⟩ := ih _ h
    obtain ⟨e, h0, hf0, hd0⟩ := cached_sector_flush_entry c i h1
    refine ⟨e, h0, flushed_trans hf0 hf1, ?_⟩
    intro hj hd
    rcases List.mem_cons.mp hj with rfl | hj
    · rw [hf1.2.1]
      exact hd0 rfl (hf1.2.2.2 hd)
    · exact hd1 hj hd

theorem foldl_flush_length (is : List Nat) : ∀ (c : buffer_cache),
    (is.foldl cached_sector_flush c).sectors.length = c.sectors.length := by
  induction is with
  | nil => intro c; rfl
  | cons i rest ih =>
    intro c
    rw [List.foldl_cons, ih, cached_sector_flush_length]

/-- One iteration of the loop of `buffer_cache_reset`, entry by entry: the entry `i` is
unused afterwards, every other entry is as before. -/
theorem reset_entry_entry (c : buffer_cache) (i : Nat) {j : Nat} {e' : cached_sector}
    (h : (reset_entry c i).sectors[j]? = some e') :
    ∃ e, c.sectors[j]? = some e ∧ (j = i → e'.unused) ∧ (j ≠ i → e.flushed e') := by
  unfold reset_entry at h
  simp only at h
  unfold entry_update at h
  cases hi : (cached_sector_flush c i).sectors[i]? with
  | none =>
    rw [hi] at h
    simp only at h
    obtain ⟨e, h0, hf, _⟩ := cached_sector_flush_entry c i h
    refine ⟨e, h0, ?_, fun _ => hf⟩
    intro hj
    rw [hj, hi] at h
    cases h
  | some x =>
    rw [hi] at h
    simp only at h
    rw [List.getElem?_set] at h
    by_cases hj : i = j
    · rw [if_pos hj] at h
      split at h
      · have := Option.some.inj h
        subst this
        obtain ⟨e, h0, _, _⟩ := cached_sector_flush_entry c i hi
        exact ⟨e, by rw [← hj]; exact h0, fun _ => ⟨rfl, rfl, rfl⟩, fun hne => absurd hj.symm hne⟩
      · cases h
    · rw [if_neg hj] at h
      obtain ⟨e, h0, hf, _⟩ := cached_sector_flush_entry c i h
      exact ⟨e, h0, fun hji => absurd hji.symm hj, fun _ => hf⟩

theorem reset_entry_length (c : buffer_cache) (i : Nat) :
    (reset_entry c i).sectors.length = c.sectors.length := by
  unfold reset_entry entry_update
  simp only
  cases (cached_sector_flush c i).sectors[i]? with
  | none => exact cached_sector_flush_length c i
  | some x =>
    simp only [List.length_set]
    exact cached_sector_flush_length c i

theorem unused_of_flushed {e e' : cached_sector} (hu : e.unused) (hf : e.flushed e') :
    e'.unused := by
  refine ⟨hf.1.trans hu.1, ?_, hf.2.1.trans hu.2.2⟩
  cases hd : e'.dirty with
  | false => rfl
  | true =>
    have := hf.2.2.2 hd
    rw [hu.2.1] at this
    cases this

/-- The loop of `buffer_cache_reset` over the indices `is`, entry by entry. -/
theorem foldl_reset_entry (is : List Nat) : ∀ (c : buffer_cache) {j : Nat} {e' : cached_sector},
    (is.foldl reset_entry c).sectors[j]? = some e' →
    ∃ e, c.sectors[j]? = some e ∧ (j ∈ is → e'.unused) ∧ (e.unused → e'.unused) := by
  induction is with
  | nil =>
    intro c j e' h
    exact ⟨e', h, fun hj => (by cases hj), fun hu => hu⟩
  | cons i rest ih =>
    intro c j e' h
    rw [List.foldl_cons] at h
    obtain ⟨e1, h1, hin1, hu1⟩ := ih _ h
    obtain ⟨e, h0, hji, hne⟩ := reset_entry_entry c i h1
    refine ⟨e, h0, ?_, ?_⟩
    · intro hj
      rcases List.mem_cons.mp hj with rfl | hj
      · exact hu1 (hji rfl)
      · exact hin1 hj
    · intro hu
      by_cases hj : j = i
      · exact hu1 (hji hj)
      · exact hu1 (unused_of_flushed hu (hne hj))

theorem foldl_reset_length (is : List Nat) : ∀ (c : buffer_cache),
    (is.foldl reset_entry c).sectors.length = c.sectors.length := by
  induction is with
  | nil => intro c; rfl
  | cons i rest ih =>
    intro c
    rw [List.foldl_cons, ih, reset_entry_length]

theorem buffer_cache_flush_length (c : buffer_cache) :
    (buffer_cache_flush c).sectors.length = c.sectors.length :=
  foldl_flush_length _ c

theorem buffer_cache_reset_length (c : buffer_cache) :
    (buffer_cache_reset c).sectors.length = c.sectors.length := by
  have key : ∀ c1 : buffer_cache,
      ({ c1 with num_hit := 0, num_miss := 0 } : buffer_cache).sectors.length
        = c1.sectors.length := fun _ => rfl
  exact (key _).trans (foldl_reset_length _ c)

/-- After `buffer_cache_reset` on a cache of 64 entries every entry is unused. -/
theorem buffer_cache_reset_unused {c : buffer_cache} (hlen : c.sectors.length = BUFFER_CACHE_SIZE)
    {e : cached_sector} (he : e ∈ (buffer_cache_reset c).sectors) : e.unused := by
  obtain ⟨j, hj⟩ := List.mem_iff_getElem?.mp he
  have hlt : j < (buffer_cache_reset c).sectors.length := by
    by_contra hn
    rw [List.getElem?_eq_none (by omega)] at hj
    cases hj
  rw [buffer_cache_reset_length, hlen] at hlt
  have key : ∀ c1 : buffer_cache,
      ({ c1 with num_hit := 0, num_miss := 0 } : buffer_cache).sectors[j]? = some e →
        c1.sectors[j]? = some e := fun _ h => h
  obtain ⟨_, _, hin, _⟩ := foldl_reset_entry _ c (key _ hj)
  exact hin (List.mem_range.mpr hlt)

/-- The victim that the search loop of `buffer_cache_fetch` picks has the least timestamp. -/
theorem fetch_scan_min (s : Nat) (l : List cached_sector) :
    ∀ (i : Nat) (lru : Option Nat) (acc : Int) (k : Nat),
      fetch_scan s l i lru acc = ScanResult.miss (some k) →
      (lru = some k ∧ ∀ e ∈ l, acc ≤ e.last_accessed) ∨
      (∃ e, i ≤ k ∧ l[k - i]? = some e ∧ e.last_accessed < acc ∧
        ∀ x ∈ l, e.last_accessed ≤ x.last_accessed) := by
  induction l with
  | nil =>
    intro i lru acc k h
    simp only [fetch_scan, ScanResult.miss.injEq] at h
    left
    exact ⟨h, fun e he => by cases he⟩
  | cons x xs ih =>
    intro i lru acc k h
    unfold fetch_scan at h
    split at h
    · cases h
    · split at h
      · rename_i hlt
        right
        rcases ih _ _ _ _ h with ⟨h1, h2⟩ | ⟨e, h1, h2, h3, h4⟩
        · have hk : i = k := Option.some.inj h1
          subst hk
          refine ⟨x, le_refl _, by simp, hlt, ?_⟩
          intro y hy
          rcases List.mem_cons.mp hy with rfl | hy
          · exact le_refl _
          · exact h2 y hy
        · refine ⟨e, by omega, ?_, by omega, ?_⟩
          · have : k - i = (k - (i + 1)) + 1 := by omega
            rw [this, List.getElem?_cons_succ]
            exact h2
          · intro y hy
            rcases List.mem_cons.mp hy with rfl | hy
            · omega
            · exact h4 y hy
      · rename_i hlt
        rcases ih _ _ _ _ h with ⟨h1, h2⟩ | ⟨e, h1, h2, h3, h4⟩
        · left
          refine ⟨h1, ?_⟩
          intro y hy
          rcases List.mem_cons.mp hy with rfl | hy
          · omega
          · exact h2 y hy
        · right
          refine ⟨e, by omega, ?_, h3, ?_⟩
          · have : k - i = (k - (i + 1)) + 1 := by omega
            rw [this, List.getElem?_cons_succ]
            exact h2
          · intro y hy
            rcases List.mem_cons.mp hy with rfl | hy
            · omega
            · exact h4 y hy

theorem cached_sector_flush_set (c : buffer_cache) (i : Nat) (x : cached_sector) :
    (cached_sector_flush c i).sectors.set i x = c.sectors.set i x := by
  unfold cached_sector_flush
  cases c.sectors[i]? with
  | none => rfl
  | some e =>
    simp only
    split
    · rfl
    · split
      · simp only [List.set_set]
      · rfl

/-- What a call of `buffer_cache_fetch` that returns has done: a hit has stamped the entry of
the sector and counted a hit; a miss has found no entry of the sector, has taken an entry of
least timestamp for it and has counted a miss. -/
theorem buffer_cache_fetch_cases {now : Int} {c c1 : buffer_cache} {s : Nat} {load : Bool}
    {i : Nat} (h : buffer_cache_fetch now c s load = some (c1, i)) :
    ∃ e e1, c.sectors[i]? = some e ∧ c1.sectors = c.sectors.set i e1 ∧
      e1.sector_idx = s ∧ e1.last_accessed = now ∧ (e1.dirty = true → e.dirty = true) ∧
      ((e.sector_idx = s ∧ c1.num_hit = wrap_int (c.num_hit + 1) ∧ c1.num_miss = c.num_miss) ∨
       ((∀ x ∈ c.sectors, x.sector_idx ≠ s) ∧
        (∀ x ∈ c.sectors, e.last_accessed ≤ x.last_accessed) ∧
        e.last_accessed < INT64_MAX ∧
        c1.num_miss = wrap_int (c.num_miss + 1) ∧ c1.num_hit = c.num_hit)) := by
  unfold buffer_cache_fetch at h
  cases hs : fetch_scan s c.sectors 0 none INT64_MAX with
  | hit k =>
    rw [hs] at h
    simp only [Option.some.injEq, Prod.mk.injEq] at h
    obtain ⟨h1, h2⟩ := h
    subst h2
    obtain ⟨_, e, he, hes⟩ := fetch_scan_hit s c.sectors 0 none INT64_MAX k hs
    rw [Nat.sub_zero] at he
    refine ⟨e, { e with last_accessed := now }, he, ?_, hes, rfl, fun hd => hd, ?_⟩
    · rw [← h1]
      exact entry_update_of_get he _
    · left
      rw [← h1]
      exact ⟨hes, rfl, rfl⟩
  | miss r =>
    rw [hs] at h
    cases r with
    | none => cases h
    | some k =>
      simp only [Option.some.injEq, Prod.mk.injEq] at h
      obtain ⟨h1, h2⟩ := h
      subst h2
      obtain ⟨hno, _⟩ := fetch_scan_miss s c.sectors 0 none INT64_MAX (some k) hs
      rcases fetch_scan_min s c.sectors 0 none INT64_MAX k hs with ⟨hc, _⟩ | ⟨e, _, he, hlt, hmin⟩
      · cases hc
      · rw [Nat.sub_zero] at he
        have hlen0 := cached_sector_flush_length
          { c with num_miss := wrap_int (c.num_miss + 1) } k
        have hc0 := cached_sector_flush_counters
          { c with num_miss := wrap_int (c.num_miss + 1) } k
        have hset0 := fun x => cached_sector_flush_set
          { c with num_miss := wrap_int (c.num_miss + 1) } k x
        have hent0 := fun (e' : cached_sector) h => @cached_sector_flush_entry
          { c with num_miss := wrap_int (c.num_miss + 1) } k k e' h
        generalize cached_sector_flush { c with num_miss := wrap_int (c.num_miss + 1) } k = cf
          at h1 hlen0 hc0 hset0 hent0
        simp only at hlen0 hc0 hset0 hent0
        have hlen : k < cf.sectors.length := by
          rw [hlen0]
          exact (List.getElem?_eq_some.mp he).1
        have he2 : cf.sectors[k]? = some (cf.sectors.get ⟨k, hlen⟩) :=
          List.getElem?_eq_getElem hlen
        obtain ⟨e0, he0, hfl, _⟩ := hent0 _ he2
        have e0e : e0 = e := by
          rw [he] at he0
          exact (Option.some.inj he0).symm
        subst e0e
        refine ⟨e0, cached_sector.mk s (cf.sectors.get ⟨k, hlen⟩).dirty now
          (if load = true then block_read cf.block_device s
            else (cf.sectors.get ⟨k, hlen⟩).data), he, ?_, rfl, rfl, hfl.2.2.2, ?_⟩
        · rw [← h1]
          simp only
          rw [entry_update_of_get he2, hset0]
        · right
          rw [← h1]
          exact ⟨hno, hmin, hlt, hc0.2, hc0.1⟩

/-- A search of `buffer_cache_fetch` that finds an entry with a timestamp below `INT64_MAX`
does not fail. -/
theorem buffer_cache_fetch_some (now : Int) {c : buffer_cache} (s : Nat) (load : Bool)
    {x : cached_sector} (hx : x ∈ c.sectors) (hlt : x.last_accessed < INT64_MAX) :
    ∃ c1 i, buffer_cache_fetch now c s load = some (c1, i) := by
  unfold buffer_cache_fetch
  cases hs : fetch_scan s c.sectors 0 none INT64_MAX with
  | hit k => exact ⟨_, _, rfl⟩
  | miss r =>
    cases r with
    | some k => exact ⟨_, _, rfl⟩
    | none =>
      obtain ⟨_, h2⟩ := fetch_scan_miss s c.sectors 0 none INT64_MAX none hs
      rcases h2 with ⟨_, h3⟩ | ⟨k, h3, _⟩
      · have := h3 x hx
        omega
      · cases h3

/-- What a call of `buffer_cache_read` that returns has done to the cache. -/
theorem buffer_cache_read_cases {now : Int} {c c1 : buffer_cache} {s : Nat} {dst dst1 : Nat → Nat}
    {off len : Nat} (h : buffer_cache_read now c s dst off len = some (c1, dst1)) :
    s ≠ SECTOR_NONE ∧ ∃ i, buffer_cache_fetch now c s true = some (c1, i) := by
  unfold buffer_cache_read at h
  by_cases hs : s = SECTOR_NONE
  · rw [if_pos hs] at h; cases h
  · rw [if_neg hs] at h
    refine ⟨hs, ?_⟩
    cases hf : buffer_cache_fetch now c s true with
    | none => rw [hf] at h; cases h
    | some r =>
      obtain ⟨c0, i⟩ := r
      rw [hf] at h
      simp only at h
      cases he : c0.sectors[i]? with
      | none => rw [he] at h; cases h
      | some e =>
        rw [he] at h
        simp only [Option.some.injEq, Prod.mk.injEq] at h
        rw [← h.1]
        exact ⟨i, rfl⟩

/-- What a call of `buffer_cache_write` that returns has done to the cache. -/
theorem buffer_cache_write_cases {now : Int} {c c1 : buffer_cache} {s : Nat} {src : Nat → Nat}
    {off len : Nat} (h : buffer_cache_write now c s src off len = some c1) :
    s ≠ SECTOR_NONE ∧ ∃ c0 i, buffer_cache_fetch now c s
        (decide (off ≠ 0) || decide (len ≠ BLOCK_SECTOR_SIZE)) = some (c0, i) ∧
      c1.sectors = entry_update c0.sectors i (fun e =>
        { e with data := memcpy e.data off src len, dirty := true }) ∧
      c1.num_hit = c0.num_hit ∧ c1.num_miss = c0.num_miss := by
  unfold buffer_cache_write at h
  by_cases hs : s = SECTOR_NONE
  · rw [if_pos hs] at h; cases h
  · rw [if_neg hs] at h
    refine ⟨hs, ?_⟩
    cases hf : buffer_cache_fetch now c s
        (decide (off ≠ 0) || decide (len ≠ BLOCK_SECTOR_SIZE)) with
    | none => rw [hf] at h; cases h
    | some r =>
      obtain ⟨c0, i⟩ := r
      rw [hf] at h
      simp only [Option.some.injEq] at h
      rw [← h]
      exact ⟨c0, i, rfl, rfl, rfl, rfl⟩

theorem entry_update_length (l : List cached_sector) (i : Nat) (f : cached_sector → cached_sector) :
    (entry_update l i f).length = l.length := by
  unfold entry_update
  cases l[i]? with
  | none => rfl
  | some e => simp

theorem mem_entry_update {l : List cached_sector} {i : Nat} {f : cached_sector → cached_sector}
    {x : cached_sector} (h : x ∈ entry_update l i f) :
    x ∈ l ∨ ∃ e, l[i]? = some e ∧ x = f e := by
  unfold entry_update at h
  cases hi : l[i]? with
  | none => rw [hi] at h; exact Or.inl h
  | some e =>
    rw [hi] at h
    rcases List.mem_or_eq_of_mem_set h with h | h
    · exact Or.inl h
    · exact Or.inr ⟨e, rfl, h⟩

theorem buffer_cache_init_NoneUnused (dev : Device) (uninit : Nat → Nat → Nat) :
    NoneUnused (buffer_cache_init dev uninit) := by
  constructor
  · show ((List.range BUFFER_CACHE_SIZE).map _).length = BUFFER_CACHE_SIZE
    rw [List.length_map, List.length_range]
  · intro e he _
    have he' : e ∈ (List.range BUFFER_CACHE_SIZE).map (fun i =>
        cached_sector.mk SECTOR_NONE false INT64_MIN (uninit i)) := he
    obtain ⟨i, _, rfl⟩ := List.mem_map.mp he'
    exact ⟨rfl, rfl⟩

theorem buffer_cache_fetch_NoneUnused {now : Int} {c c1 : buffer_cache} {s : Nat} {load : Bool}
    {i : Nat} (hs : s ≠ SECTOR_NONE) (hinv : NoneUnused c)
    (h : buffer_cache_fetch now c s load = some (c1, i)) :
    NoneUnused c1 ∧ ∃ e1, c1.sectors[i]? = some e1 ∧ e1.sector_idx = s := by
  obtain ⟨e, e1, he, hsec, hs1, _, _, _⟩ := buffer_cache_fetch_cases h
  refine ⟨⟨by rw [hsec, List.length_set]; exact hinv.1, ?_⟩, e1, ?_, hs1⟩
  · intro x hx hxn
    rw [hsec] at hx
    rcases List.mem_or_eq_of_mem_set hx with hx | hx
    · exact hinv.2 x hx hxn
    · rw [hx, hs1] at hxn
      exact absurd hxn hs
  · rw [hsec]
    exact getElem?_set_self_of_get he _

/-- Every call on the cache that returns keeps the invariant of the entries without a
sector. -/
theorem cache_step_NoneUnused {c c1 : buffer_cache} {op : CacheOp} {out : List (List Nat)}
    (hinv : NoneUnused c) (h : cache_step c op = some (c1, out)) : NoneUnused c1 := by
  cases op with
  | read now s off len =>
    simp only [cache_step] at h
    cases hr : buffer_cache_read now c s (fun _ => 0) off len with
    | none => rw [hr] at h; cases h
    | some r =>
      obtain ⟨c0, dst⟩ := r
      rw [hr] at h
      simp only [Option.some.injEq, Prod.mk.injEq] at h
      rw [← h.1]
      obtain ⟨hs, i, hf⟩ := buffer_cache_read_cases hr
      exact (buffer_cache_fetch_NoneUnused hs hinv hf).1
  | write now s src off len =>
    simp only [cache_step] at h
    cases hw : buffer_cache_write now c s src off len with
    | none => rw [hw] at h; cases h
    | some c0 =>
      rw [hw] at h
      simp only [Option.some.injEq, Prod.mk.injEq] at h
      rw [← h.1]
      obtain ⟨hs, cf, i, hf, hsec, _, _⟩ := buffer_cache_write_cases hw
      obtain ⟨hinv1, e1, he1, hs1⟩ := buffer_cache_fetch_NoneUnused hs hinv hf
      refine ⟨by rw [hsec, entry_update_length]; exact hinv1.1, ?_⟩
      intro x hx hxn
      rw [hsec] at hx
      rcases mem_entry_update hx with hx | ⟨e, he, hx⟩
      · exact hinv1.2 x hx hxn
      · rw [he1] at he
        have := Option.some.inj he
        subst this
        rw [hx] at hxn
        exact absurd (hxn.symm.trans hs1).symm hs
  | flush =>
    simp only [cache_step, Option.some.injEq, Prod.mk.injEq] at h
    rw [← h.1]
    refine ⟨by rw [buffer_cache_flush_length]; exact hinv.1, ?_⟩
    intro x hx hxn
    obtain ⟨j, hj⟩ := List.mem_iff_getElem?.mp hx
    obtain ⟨e, he, hfl, _⟩ := foldl_flush_entry _ c hj
    have hu := hinv.2 e (List.mem_iff_getElem?.mpr ⟨j, he⟩) (hfl.1.symm.trans hxn)
    exact (unused_of_flushed ⟨hfl.1.symm.trans hxn, hu.1, hu.2⟩ hfl).2
  | reset =>
    simp only [cache_step, Option.some.injEq, Prod.mk.injEq] at h
    rw [← h.1]
    refine ⟨by rw [buffer_cache_reset_length]; exact hinv.1, ?_⟩
    intro x hx _
    exact (buffer_cache_reset_unused hinv.1 hx).2

theorem cache_run_NoneUnused (ops : List CacheOp) :
    ∀ {c c1 : buffer_cache} {out : List (List Nat)}, NoneUnused c →
      cache_run c ops = some (c1, out) → NoneUnused c1 := by
  induction ops with
  | nil =>
    intro c c1 out hinv h
    simp only [cache_run, Option.some.injEq, Prod.mk.injEq] at h
    rw [← h.1]
    exact hinv
  | cons op rest ih =>
    intro c c1 out hinv h
    simp only [cache_run] at h
    cases hs : cache_step c op with
    | none => rw [hs] at h; cases h
    | some r =>
      obtain ⟨c0, o0⟩ := r
      rw [hs] at h
      simp only at h
      cases hr : cache_run c0 rest with
      | none => rw [hr] at h; cases h
      | some r2 =>
        obtain ⟨c2, o2⟩ := r2
        rw [hr] at h
        simp only [Option.some.injEq, Prod.mk.injEq] at h
        rw [← h.1]
        exact ih (cache_step_NoneUnused hinv hs) hr

/-- C18: in every cache state reached from `buffer_cache_create` through
`buffer_cache_read`, `buffer_cache_write`, `buffer_cache_flush` and `buffer_cache_reset`
calls that return, whatever the clock shows, every entry whose sector index is "none" has
`dirty = false` and `last_accessed = INT64_MIN`, and every dirty entry has a sector index
other than "none". -/
theorem unused_entries_are_clean (dev : Device) (uninit : Nat → Nat → Nat)
    (ops : List CacheOp) {c : buffer_cache} {out : List (List Nat)}
    (hrun : cache_run (buffer_cache_init dev uninit) ops = some (c, out)) :
    buffer_cache_create true dev uninit = some (buffer_cache_init dev uninit) ∧
    ∀ e ∈ c.sectors,
      (e.sector_idx = SECTOR_NONE → e.dirty = false ∧ e.last_accessed = INT64_MIN) ∧
      (e.dirty = true → e.sector_idx ≠ SECTOR_NONE) := by
  have hinv := cache_run_NoneUnused ops (buffer_cache_init_NoneUnused dev uninit) hrun
  refine ⟨rfl, ?_⟩
  intro e he
  refine ⟨hinv.2 e he, ?_⟩
  intro hd hn
  rw [(hinv.2 e he hn).1] at hd
  cases hd

/-- After `buffer_cache_flush` on a well-formed cache of 64 entries no entry is dirty. -/
theorem buffer_cache_flush_clean {c : buffer_cache} (hinv : CacheInv c)
    (hlen : c.sectors.length = BUFFER_CACHE_SIZE) {e : cached_sector}
    (he : e ∈ (buffer_cache_flush c).sectors) : e.dirty = false := by
  obtain ⟨j, hj⟩ := List.mem_iff_getElem?.mp he
  have hlt : j < (buffer_cache_flush c).sectors.length := by
    by_contra hn
    rw [List.getElem?_eq_none (by omega)] at hj
    cases hj
  rw [buffer_cache_flush_length, hlen] at hlt
  obtain ⟨e0, he0, hfl, hd⟩ := foldl_flush_entry _ c hj
  cases hdd : e.dirty with
  | false => rfl
  | true =>
    have h1 := hd (List.mem_range.mpr hlt) hdd
    have h2 := hinv.unused_clean j e0 he0 (hfl.2.1.symm.trans h1)
    have h3 := hfl.2.2.2 hdd
    rw [h2] at h3
    cases h3

/-- The sector `s` seen through a cache in which no entry is dirty is the device's copy. -/
theorem view_of_clean {c : buffer_cache} (hinv : CacheInv c)
    (hclean : ∀ e ∈ c.sectors, e.dirty = false) {s : Nat} (hs : s ≠ SECTOR_NONE) {k : Nat}
    (hk : k < BLOCK_SECTOR_SIZE) : view c s k = c.block_device s k := by
  unfold view cache_lookup
  cases hf : c.sectors.find? (fun e => decide (e.sector_idx = s)) with
  | none => rfl
  | some e =>
    have h1 := List.find?_some hf
    have h2 := List.mem_of_find?_eq_some hf
    simp only [decide_eq_true_eq] at h1
    obtain ⟨j, hj⟩ := List.mem_iff_getElem?.mp h2
    have := hinv.clean j e hj (hclean e h2) (by rw [h1]; exact hs) k hk
    rw [h1] at this
    exact this

/-- C17: in every cache state reached from `buffer_cache_create` through read, write, flush
and reset calls (sector other than "none", range inside the sector, clock strictly between
`INT64_MIN` and `INT64_MAX`): after `buffer_cache_flush` no entry is dirty, the device's copy
of every cached sector equals the entry's data, and the device holds what the cache showed;
after `buffer_cache_reset` the device holds what the cache showed as well, and every one of
the 64 entries is unused (sector index "none", not dirty, timestamp `INT64_MIN`), with both
counters 0. -/
theorem flush_and_reset_leave_clean (dev : Device) (uninit : Nat → Nat → Nat)
    (ops : List CacheOp) (hok : ∀ op ∈ ops, op.ok) {c : buffer_cache} {out : List (List Nat)}
    (hrun : cache_run (buffer_cache_init dev uninit) ops = some (c, out)) :
    ((∀ e ∈ (buffer_cache_flush c).sectors, e.dirty = false ∧
        (e.sector_idx ≠ SECTOR_NONE → ∀ k, k < BLOCK_SECTOR_SIZE →
          (buffer_cache_flush c).block_device e.sector_idx k = e.data k)) ∧
      (∀ s, s ≠ SECTOR_NONE → ∀ k, k < BLOCK_SECTOR_SIZE →
        (buffer_cache_flush c).block_device s k = view c s k)) ∧
    ((buffer_cache_reset c).sectors.length = 64 ∧
      (∀ e ∈ (buffer_cache_reset c).sectors, e.sector_idx = SECTOR_NONE ∧ e.dirty = false ∧
        e.last_accessed = INT64_MIN) ∧
      (buffer_cache_reset c).num_hit = 0 ∧ (buffer_cache_reset c).num_miss = 0 ∧
      (∀ s, s ≠ SECTOR_NONE → ∀ k, k < BLOCK_SECTOR_SIZE →
        (buffer_cache_reset c).block_device s k = view c s k)) := by
  have hnu := cache_run_NoneUnused ops (buffer_cache_init_NoneUnused dev uninit) hrun
  obtain ⟨c', hrun', hinv'⟩ := cache_run_refines ops (buffer_cache_init_spec dev uninit).1 hok
  rw [hrun] at hrun'
  have hcc : c = c' := (Prod.mk.inj (Option.some.inj hrun')).1
  subst hcc
  have hinv := hinv'
  obtain ⟨hfi, hfd⟩ := buffer_cache_flush_spec hinv
  obtain ⟨hri, hrd⟩ := buffer_cache_reset_spec hinv
  have hfc : ∀ e ∈ (buffer_cache_flush c).sectors, e.dirty = false :=
    fun e he => buffer_cache_flush_clean hinv hnu.1 he
  have hru : ∀ e ∈ (buffer_cache_reset c).sectors, e.unused :=
    fun e he => buffer_cache_reset_unused hnu.1 he
  have key : ∀ c1 : buffer_cache,
      ({ c1 with num_hit := 0, num_miss := 0 } : buffer_cache).num_hit = 0 ∧
      ({ c1 with num_hit := 0, num_miss := 0 } : buffer_cache).num_miss = 0 :=
    fun _ => ⟨rfl, rfl⟩
  refine ⟨⟨?_, ?_⟩, ?_, hru, (key _).1, (key _).2, ?_⟩
  · intro e he
    refine ⟨hfc e he, ?_⟩
    intro hs k hk
    obtain ⟨j, hj⟩ := List.mem_iff_getElem?.mp he
    exact (hfi.clean j e hj (hfc e he) hs k hk).symm
  · intro s hs k hk
    rw [← view_of_clean hfi hfc hs hk]
    exact hfd s hs k hk
  · rw [buffer_cache_reset_length]
    exact hnu.1
  · intro s hs k hk
    rw [← view_of_clean hri (fun e he => (hru e he).2.1) hs hk]
    exact hrd s hs k hk

theorem list_set_self {α : Type} {l : List α} {i : Nat} {a : α} (h : l[i]? = some a) :
    l.set i a = l := by
  apply List.ext_getElem?
  intro j
  rw [List.getElem?_set]
  by_cases hij : i = j
  · rw [if_pos hij, if_pos (List.getElem?_eq_some.mp h).1, ← hij, h]
  · rw [if_neg hij]

theorem list_split_at {α : Type} {l : List α} {i : Nat} {a : α} (h : l[i]? = some a) (b : α) :
    l = l.take i ++ a :: l.drop (i + 1) ∧ l.set i b = l.take i ++ b :: l.drop (i + 1) := by
  have hlt := (List.getElem?_eq_some.mp h).1
  constructor
  · conv_lhs => rw [← list_set_self h]
    exact List.set_eq_take_cons_drop a hlt
  · exact List.set_eq_take_cons_drop b hlt

/-- The sectors held by a list of stamps. -/
theorem stamps_set (c : buffer_cache) (i : Nat) (e1 : cached_sector) {c1 : buffer_cache}
    (h : c1.sectors = c.sectors.set i e1) :
    stamps c1 = (stamps c).set i (e1.sector_idx, e1.last_accessed) := by
  unfold stamps
  rw [h, List.map_set]

theorem stamps_getElem? {c : buffer_cache} {i : Nat} {e : cached_sector}
    (h : c.sectors[i]? = some e) : (stamps c)[i]? = some (e.sector_idx, e.last_accessed) := by
  unfold stamps
  rw [List.getElem?_map, h]
  rfl

theorem mem_stamps {c : buffer_cache} {p : Nat × Int} (h : p ∈ stamps c) :
    ∃ e ∈ c.sectors, p = (e.sector_idx, e.last_accessed) := by
  unfold stamps at h
  obtain ⟨e, he, rfl⟩ := List.mem_map.mp h
  exact ⟨e, he, rfl⟩

theorem mem_cached_sectors {c : buffer_cache} {s : Nat} :
    s ∈ cached_sectors c ↔ s ≠ SECTOR_NONE ∧ ∃ e ∈ c.sectors, e.sector_idx = s := by
  unfold cached_sectors stamps
  simp only [List.map_map, List.mem_filter, List.mem_map, Function.comp, decide_eq_true_eq]
  constructor
  · rintro ⟨⟨e, he, rfl⟩, hs⟩
    exact ⟨hs, e, he, rfl⟩
  · rintro ⟨hs, e, he, rfl⟩
    exact ⟨⟨e, he, rfl⟩, hs⟩

/-- A cache with the same stamps is as warm. -/
theorem Warm_of_stamps {c c1 : buffer_cache} (h : stamps c1 = stamps c) (hw : Warm c) :
    Warm c1 ∧ cached_sectors c1 = cached_sectors c := by
  have hcs : cached_sectors c1 = cached_sectors c := by unfold cached_sectors; rw [h]
  exact ⟨⟨by rw [h]; exact hw.len, by rw [hcs]; exact hw.nodup, by rw [h]; exact hw.stamp_used,
    by rw [h]; exact hw.stamp_unused⟩, hcs⟩

/-- A hit keeps the sectors that the cache holds. -/
theorem Warm_hit {c c1 : buffer_cache} (hw : Warm c) {i : Nat} {e e1 : cached_sector}
    (he : c.sectors[i]? = some e) (hsec : c1.sectors = c.sectors.set i e1)
    (hs : e1.sector_idx = e.sector_idx) (hne : e.sector_idx ≠ SECTOR_NONE)
    (hnow : TickOK e1.last_accessed) :
    Warm c1 ∧ cached_sectors c1 = cached_sectors c := by
  have hst := stamps_set c i e1 hsec
  have hg := stamps_getElem? he
  obtain ⟨h1, h2⟩ := list_split_at hg (e1.sector_idx, e1.last_accessed)
  have hcs : cached_sectors c1 = cached_sectors c := by
    unfold cached_sectors
    rw [hst, h2]
    conv_rhs => rw [h1]
    simp only [List.map_append, List.map_cons, hs]
  refine ⟨⟨by rw [hst, List.length_set]; exact hw.len, by rw [hcs]; exact hw.nodup, ?_, ?_⟩, hcs⟩
  · intro p hp hpn
    rw [hst] at hp
    rcases List.mem_or_eq_of_mem_set hp with hp | hp
    · exact hw.stamp_used p hp hpn
    · rw [hp]
      exact hnow
  · intro p hp hpn
    rw [hst] at hp
    rcases List.mem_or_eq_of_mem_set hp with hp | hp
    · exact hw.stamp_unused p hp hpn
    · rw [hp] at hpn
      exact absurd (hs.symm.trans hpn) hne

/-- A miss that takes an entry without a sector adds its sector to those that the cache
holds. -/
theorem Warm_miss {c c1 : buffer_cache} (hw : Warm c) {i : Nat} {e e1 : cached_sector}
    (he : c.sectors[i]? = some e) (hsec : c1.sectors = c.sectors.set i e1)
    (hen : e.sector_idx = SECTOR_NONE) (hne : e1.sector_idx ≠ SECTOR_NONE)
    (hnew : e1.sector_idx ∉ cached_sectors c) (hnow : TickOK e1.last_accessed) :
    Warm c1 ∧ (cached_sectors c1).length = (cached_sectors c).length + 1 ∧
      ∀ s, s ∈ cached_sectors c1 ↔ s = e1.sector_idx ∨ s ∈ cached_sectors c := by
  have hst := stamps_set c i e1 hsec
  have hg := stamps_getElem? he
  obtain ⟨h1, h2⟩ := list_split_at hg (e1.sector_idx, e1.last_accessed)
  have hc0 : cached_sectors c
      = (((stamps c).take i).map (fun p => p.1)).filter (fun s => decide (s ≠ SECTOR_NONE))
        ++ (((stamps c).drop (i + 1)).map (fun p => p.1)).filter
          (fun s => decide (s ≠ SECTOR_NONE)) := by
    unfold cached_sectors
    conv_lhs => rw [h1]
    simp only [List.map_append, List.map_cons, List.filter_append, hen]
    rw [List.filter_cons_of_neg (by simp)]
  have hc1 : cached_sectors c1
      = (((stamps c).take i).map (fun p => p.1)).filter (fun s => decide (s ≠ SECTOR_NONE))
        ++ e1.sector_idx :: (((stamps c).drop (i + 1)).map (fun p => p.1)).filter
          (fun s => decide (s ≠ SECTOR_NONE)) := by
    unfold cached_sectors
    rw [hst, h2]
    simp only [List.map_append, List.map_cons, List.filter_append]
    rw [List.filter_cons_of_pos (by simpa using hne)]
  have hnd : (cached_sectors c1).Nodup := by
    rw [hc1, List.nodup_middle, List.nodup_cons, ← hc0]
    exact ⟨hnew, hw.nodup⟩
  refine ⟨⟨by rw [hst, List.length_set]; exact hw.len, hnd, ?_, ?_⟩, ?_, ?_⟩
  · intro p hp hpn
    rw [hst] at hp
    rcases List.mem_or_eq_of_mem_set hp with hp | hp
    · exact hw.stamp_used p hp hpn
    · rw [hp]
      exact hnow
  · intro p hp hpn
    rw [hst] at hp
    rcases List.mem_or_eq_of_mem_set hp with hp | hp
    · exact hw.stamp_unused p hp hpn
    · rw [hp] at hpn
      exact absurd hpn hne
  · rw [hc1, hc0]
    simp only [List.length_append, List.length_cons]
    omega
  · intro s
    rw [hc1, hc0]
    simp only [List.mem_append, List.mem_cons]
    tauto

/-- A warm cache that holds fewer than 64 sectors has an entry without a sector. -/
theorem Warm_has_unused {c : buffer_cache} (hw : Warm c)
    (hlt : (cached_sectors c).length < BUFFER_CACHE_SIZE) :
    ∃ e ∈ c.sectors, e.sector_idx = SECTOR_NONE ∧ e.last_accessed = INT64_MIN := by
  by_contra hno
  have hall : ∀ s ∈ (stamps c).map (fun p => p.1), decide (s ≠ SECTOR_NONE) = true := by
    intro s hs
    obtain ⟨p, hp, rfl⟩ := List.mem_map.mp hs
    obtain ⟨e, he, rfl⟩ := mem_stamps hp
    simp only [decide_eq_true_eq]
    intro hn
    apply hno
    exact ⟨e, he, hn, hw.stamp_unused _ hp hn⟩
  have := List.filter_eq_self.mpr hall
  unfold cached_sectors at hlt
  rw [this, List.length_map, hw.len] at hlt
  omega

/-- One call of `buffer_cache_fetch` on a warm cache that holds the sector or has room for
it: the call returns; when the sector is held it is a hit, which counts a hit and keeps the
sectors held; otherwise it is a miss, which counts a miss and adds the sector. -/
theorem buffer_cache_fetch_warm {c : buffer_cache} (hw : Warm c) {now : Int} (hnow : TickOK now)
    {s : Nat} (hsn : s ≠ SECTOR_NONE) (load : Bool)
    (hroom : s ∈ cached_sectors c ∨ (cached_sectors c).length < BUFFER_CACHE_SIZE) :
    ∃ c1 i e1, buffer_cache_fetch now c s load = some (c1, i) ∧
      c1.sectors[i]? = some e1 ∧ e1.sector_idx = s ∧ e1.last_accessed = now ∧ Warm c1 ∧
      (s ∈ cached_sectors c → cached_sectors c1 = cached_sectors c ∧
        c1.num_hit = wrap_int (c.num_hit + 1) ∧ c1.num_miss = c.num_miss) ∧
      (s ∉ cached_sectors c → (cached_sectors c1).length = (cached_sectors c).length + 1 ∧
        (∀ t, t ∈ cached_sectors c1 ↔ t = s ∨ t ∈ cached_sectors c) ∧
        c1.num_miss = wrap_int (c.num_miss + 1) ∧ c1.num_hit = c.num_hit) := by
  have hlen : c.sectors.length = BUFFER_CACHE_SIZE := by
    have := hw.len
    unfold stamps at this
    rw [List.length_map] at this
    exact this
  have h0 : 0 < c.sectors.length := by rw [hlen]; decide
  have hx : c.sectors.get ⟨0, h0⟩ ∈ c.sectors := List.get_mem _ _ _
  have hxs : ((c.sectors.get ⟨0, h0⟩).sector_idx, (c.sectors.get ⟨0, h0⟩).last_accessed)
      ∈ stamps c := List.mem_map_of_mem _ hx
  have hxlt : (c.sectors.get ⟨0, h0⟩).last_accessed < INT64_MAX := by
    by_cases hn : (c.sectors.get ⟨0, h0⟩).sector_idx = SECTOR_NONE
    · have := hw.stamp_unused _ hxs hn
      simp only at this
      rw [this]
      decide
    · exact (hw.stamp_used _ hxs hn).2
  obtain ⟨c1, i, hf⟩ := buffer_cache_fetch_some now s load hx hxlt
  obtain ⟨e, e1, he, hsec, hs1, hla1, _, hcase⟩ := buffer_cache_fetch_cases hf
  have hemem : e ∈ c.sectors := List.mem_iff_getElem?.mpr ⟨i, he⟩
  have hnow1 : TickOK e1.last_accessed := by rw [hla1]; exact hnow
  refine ⟨c1, i, e1, hf, by rw [hsec]; exact getElem?_set_self_of_get he _, hs1, hla1, ?_⟩
  rcases hcase with ⟨hes, hh, hm⟩ | ⟨hno, hmin, _, hm, hh⟩
  · have hin : s ∈ cached_sectors c := mem_cached_sectors.mpr ⟨hsn, e, hemem, hes⟩
    obtain ⟨hw1, hcs⟩ := Warm_hit hw he hsec (hs1.trans hes.symm) (by rw [hes]; exact hsn) hnow1
    exact ⟨hw1, fun _ => ⟨hcs, hh, hm⟩, fun hn => absurd hin hn⟩
  · have hnin : s ∉ cached_sectors c := by
      intro hin
      obtain ⟨_, x, hx, hxs⟩ := mem_cached_sectors.mp hin
      exact hno x hx hxs
    have hlt : (cached_sectors c).length < BUFFER_CACHE_SIZE := by
      rcases hroom with h | h
      · exact absurd h hnin
      · exact h
    obtain ⟨u, hu, _, hula⟩ := Warm_has_unused hw hlt
    have hen : e.sector_idx = SECTOR_NONE := by
      by_contra hn
      have h1 := (hw.stamp_used _ (List.mem_map_of_mem _ hemem) hn).1
      have h2 := hmin u hu
      rw [hula] at h2
      simp only at h1
      omega
    obtain ⟨hw1, hl1, hm1⟩ := Warm_miss hw he hsec hen (by rw [hs1]; exact hsn)
      (by rw [hs1]; exact hnin) hnow1
    rw [hs1] at hm1
    exact ⟨hw1, fun hin => absurd hin hnin, fun _ => ⟨hl1, hm1, hm, hh⟩⟩

/-- One `buffer_cache_read` or `buffer_cache_write` call on a warm cache that holds the sector
or has room for it. -/
theorem cache_step_warm {c : buffer_cache} (hw : Warm c) {op : CacheOp} (hok : op.ok)
    {s : Nat} (hs : op.sector? = some s)
    (hroom : s ∈ cached_sectors c ∨ (cached_sectors c).length < BUFFER_CACHE_SIZE) :
    ∃ c1 out, cache_step c op = some (c1, out) ∧ Warm c1 ∧
      (s ∈ cached_sectors c → cached_sectors c1 = cached_sectors c ∧
        c1.num_hit = wrap_int (c.num_hit + 1) ∧ c1.num_miss = c.num_miss) ∧
      (s ∉ cached_sectors c → (cached_sectors c1).length = (cached_sectors c).length + 1 ∧
        (∀ t, t ∈ cached_sectors c1 ↔ t = s ∨ t ∈ cached_sectors c) ∧
        c1.num_miss = wrap_int (c.num_miss + 1) ∧ c1.num_hit = c.num_hit) := by
  cases op with
  | read now s' off len =>
    simp only [CacheOp.sector?, Option.some.injEq] at hs
    subst hs
    obtain ⟨hnow, hsn, _⟩ := hok
    obtain ⟨c1, i, e1, hf, he1, _, _, hw1, hhit, hmiss⟩ :=
      buffer_cache_fetch_warm hw hnow hsn true hroom
    refine ⟨c1, [bytes_of (memcpy (fun _ => 0) 0 (fun k => e1.data (off + k)) len) len], ?_,
      hw1, hhit, hmiss⟩
    simp only [cache_step, buffer_cache_read, if_neg hsn, hf, he1]
  | write now s' src off len =>
    simp only [CacheOp.sector?, Option.some.injEq] at hs
    subst hs
    obtain ⟨hnow, hsn, _⟩ := hok
    obtain ⟨c1, i, e1, hf, he1, _, _, hw1, hhit, hmiss⟩ :=
      buffer_cache_fetch_warm hw hnow hsn
        (decide (off ≠ 0) || decide (len ≠ BLOCK_SECTOR_SIZE)) hroom
    have hst : stamps { c1 with sectors := entry_update c1.sectors i (fun e =>
        { e with data := memcpy e.data off src len, dirty := true }) } = stamps c1 := by
      rw [stamps_set c1 i { e1 with data := memcpy e1.data off src len, dirty := true }
        (entry_update_of_get he1 _)]
      exact list_set_self (@stamps_getElem? c1 i e1 he1)
    obtain ⟨hw2, hcs2⟩ := Warm_of_stamps hst hw1
    refine ⟨_, [], ?_, hw2, ?_, ?_⟩
    · simp only [cache_step, buffer_cache_write, if_neg hsn, hf]
    · intro hin
      rw [hcs2]
      exact hhit hin
    · intro hnin
      rw [hcs2]
      exact hmiss hnin
  | flush => cases hs
  | reset => cases hs

theorem touched_cons {op : CacheOp} {s : Nat} (hs : op.sector? = some s) (rest : List CacheOp) :
    touched (op :: rest) = s :: touched rest := by
  unfold touched
  rw [List.filterMap_cons, hs]

/-- The counters after a sequence of reads and writes on a warm cache with room for every
sector touched. -/
theorem cache_run_counters (ops : List CacheOp) : ∀ {c : buffer_cache} (n : Nat), Warm c →
    c.num_miss = ((cached_sectors c).length : Int) →
    c.num_hit = (n : Int) - ((cached_sectors c).length : Int) →
    (cached_sectors c).length ≤ n →
    (∀ op ∈ ops, op.ok) → (∀ op ∈ ops, op.is_access = true) →
    n + ops.length ≤ 2147483647 →
    (cached_sectors c ++ touched ops).toFinset.card ≤ 64 →
    ∃ c' out, cache_run c ops = some (c', out) ∧
      c'.num_miss = ((cached_sectors c ++ touched ops).toFinset.card : Int) ∧
      c'.num_hit = ((n + ops.length : Nat) : Int)
        - ((cached_sectors c ++ touched ops).toFinset.card : Int) := by
  induction ops with
  | nil =>
    intro c n hw hm hh _ _ _ _ _
    refine ⟨c, [], rfl, ?_, ?_⟩
    · simp only [touched, List.filterMap_nil, List.append_nil]
      rw [List.toFinset_card_of_nodup hw.nodup]
      exact hm
    · simp only [touched, List.filterMap_nil, List.append_nil, List.length_nil, Nat.add_zero]
      rw [List.toFinset_card_of_nodup hw.nodup]
      exact hh
  | cons op rest ih =>
    intro c n hw hm hh hle hok hacc hn hcard
    have hop := hacc op (List.mem_cons_self _ _)
    obtain ⟨s, hs⟩ := Option.isSome_iff_exists.mp hop
    rw [touched_cons hs] at hcard ⊢
    have hlen := List.toFinset_card_of_nodup hw.nodup
    have hroom : s ∈ cached_sectors c ∨ (cached_sectors c).length < BUFFER_CACHE_SIZE := by
      by_cases hin : s ∈ cached_sectors c
      · exact Or.inl hin
      · right
        have hsub : insert s (cached_sectors c).toFinset
            ⊆ (cached_sectors c ++ s :: touched rest).toFinset := by
          intro t ht
          simp only [Finset.mem_insert, List.mem_toFinset] at ht
          simp only [List.mem_toFinset, List.mem_append, List.mem_cons]
          tauto
        have h1 := Finset.card_le_card hsub
        rw [Finset.card_insert_of_not_mem (by simpa using hin), hlen] at h1
        show (cached_sectors c).length < 64
        omega
    obtain ⟨c1, out1, hstep, hw1, hhit, hmiss⟩ :=
      cache_step_warm hw (hok op (List.mem_cons_self _ _)) hs hroom
    have hlen64 : (cached_sectors c).length ≤ 64 := by
      have hsub : (cached_sectors c).toFinset
          ⊆ (cached_sectors c ++ s :: touched rest).toFinset := by
        intro t ht
        simp only [List.mem_toFinset] at ht
        simp only [List.mem_toFinset, List.mem_append, List.mem_cons]
        tauto
      have h1 := Finset.card_le_card hsub
      rw [hlen] at h1
      omega
    simp only [List.length_cons] at hn
    have hfin : (cached_sectors c1 ++ touched rest).toFinset
        = (cached_sectors c ++ s :: touched rest).toFinset := by
      ext t
      simp only [List.mem_toFinset, List.mem_append, List.mem_cons]
      by_cases hin : s ∈ cached_sectors c
      · rw [(hhit hin).1]
        constructor
        · tauto
        · rintro (h | rfl | h)
          · exact Or.inl h
          · exact Or.inl hin
          · exact Or.inr h
      · rw [(hmiss hin).2.1 t]
        tauto
    have hcount : c1.num_miss = ((cached_sectors c1).length : Int) ∧
        c1.num_hit = ((n + 1 : Nat) : Int) - ((cached_sectors c1).length : Int) ∧
        (cached_sectors c1).length ≤ n + 1 := by
      by_cases hin : s ∈ cached_sectors c
      · obtain ⟨h1, h2, h3⟩ := hhit hin
        rw [h1, h2, h3, wrap_int_of_range (by omega) (by omega)]
        refine ⟨hm, ?_, by omega⟩
        rw [hh]
        push_cast
        omega
      · obtain ⟨h1, _, h2, h3⟩ := hmiss hin
        rw [h1, h2, h3, wrap_int_of_range (by omega) (by omega)]
        refine ⟨?_, ?_, by omega⟩
        · rw [hm]
          push_cast
          rfl
        · rw [hh]
          push_cast
          omega
    obtain ⟨c2, out2, hrun, hm2, hh2⟩ := ih (n + 1) hw1 hcount.1 hcount.2.1 hcount.2.2
      (fun o ho => hok o (List.mem_cons_of_mem _ ho))
      (fun o ho => hacc o (List.mem_cons_of_mem _ ho)) (by omega) (by rw [hfin]; exact hcard)
    refine ⟨c2, out1 ++ out2, ?_, ?_, ?_⟩
    · simp only [cache_run, hstep, hrun]
    · rw [hm2, hfin]
    · rw [hh2, hfin]
      simp only [List.length_cons]
      congr 2
      omega

theorem Warm_of_empty {c : buffer_cache} (h : EmptyCache c) :
    Warm c ∧ cached_sectors c = [] := by
  have hall : ∀ p ∈ stamps c, p.1 = SECTOR_NONE ∧ p.2 = INT64_MIN := by
    intro p hp
    obtain ⟨e, he, rfl⟩ := mem_stamps hp
    exact ⟨(h.2.1 e he).1, (h.2.1 e he).2.2⟩
  have hcs : cached_sectors c = [] := by
    unfold cached_sectors
    rw [List.filter_eq_nil_iff]
    intro s hs
    obtain ⟨p, hp, rfl⟩ := List.mem_map.mp hs
    simp only [decide_eq_true_eq, ne_eq, not_not]
    exact (hall p hp).1
  refine ⟨⟨?_, by rw [hcs]; exact List.nodup_nil, ?_, ?_⟩, hcs⟩
  · unfold stamps
    rw [List.length_map]
    exact h.1
  · intro p hp hn
    exact absurd (hall p hp).1 hn
  · intro p hp _
    exact (hall p hp).2

/-- C19: starting from a reset (empty) cache, for every sequence of fewer than 2^31
`buffer_cache_read` and `buffer_cache_write` calls (sector other than "none", range inside the
sector, clock strictly between `INT64_MIN` and `INT64_MAX`) that touches at most 64 distinct
sectors, every call returns, the miss counter ends as the number of distinct sectors touched
and the hit counter as the number of calls minus the misses. -/
theorem hit_and_miss_counters {c : buffer_cache} (hempty : EmptyCache c) (ops : List CacheOp)
    (hok : ∀ op ∈ ops, op.ok) (hacc : ∀ op ∈ ops, op.is_access = true)
    (hlen : ops.length ≤ 2147483647) (hd : (touched ops).dedup.length ≤ 64) :
    ∃ c' out, cache_run c ops = some (c', out) ∧
      c'.num_miss = ((touched ops).dedup.length : Int) ∧
      c'.num_hit = (ops.length : Int) - ((touched ops).dedup.length : Int) := by
  obtain ⟨hw, hcs⟩ := Warm_of_empty hempty
  have hcard : (touched ops).toFinset.card = (touched ops).dedup.length :=
    List.card_toFinset _
  obtain ⟨c', out, hrun, hm, hh⟩ := cache_run_counters ops 0 hw
    (by rw [hcs, hempty.2.2.2]; rfl) (by rw [hcs, hempty.2.2.1]; rfl) (by rw [hcs]; exact le_refl _)
    hok hacc (by omega) (by rw [hcs, List.nil_append, hcard]; exact hd)
  rw [hcs, List.nil_append, hcard] at hm hh
  refine ⟨c', out, hrun, hm, ?_⟩
  rw [hh, Nat.zero_add]

/-- The cache that `buffer_cache_reset` leaves is empty. -/
theorem buffer_cache_reset_empty {c : buffer_cache}
    (hlen : c.sectors.length = BUFFER_CACHE_SIZE) : EmptyCache (buffer_cache_reset c) := by
  have key : ∀ c1 : buffer_cache,
      ({ c1 with num_hit := 0, num_miss := 0 } : buffer_cache).num_hit = 0 ∧
      ({ c1 with num_hit := 0, num_miss := 0 } : buffer_cache).num_miss = 0 :=
    fun _ => ⟨rfl, rfl⟩
  refine ⟨?_, fun e he => buffer_cache_reset_unused hlen he, (key _).1, (key _).2⟩
  rw [buffer_cache_reset_length]
  exact hlen

/-- Witness for C17: a write, a partial overwrite and a read, then flush or reset. -/
theorem flush_and_reset_leave_clean_witness :
    ∃ c, cache_run (buffer_cache_init (fun _ _ => 0) (fun _ _ => 7))
        [CacheOp.write 1 5 (fun _ => 9) 0 512, CacheOp.write 2 6 (fun _ => 3) 1 2,
          CacheOp.read 3 5 0 4]
      = some (c, [[9, 9, 9, 9]]) ∧
      (∀ e ∈ (buffer_cache_flush c).sectors, e.dirty = false ∧
        (e.sector_idx ≠ SECTOR_NONE → ∀ k, k < BLOCK_SECTOR_SIZE →
          (buffer_cache_flush c).block_device e.sector_idx k = e.data k)) ∧
      (∀ e ∈ (buffer_cache_reset c).sectors, e.sector_idx = SECTOR_NONE ∧ e.dirty = false ∧
        e.last_accessed = INT64_MIN) := by
  have hok : ∀ op ∈ [CacheOp.write 1 5 (fun _ => 9) 0 512, CacheOp.write 2 6 (fun _ => 3) 1 2,
      CacheOp.read 3 5 0 4], op.ok := by
    intro op hop
    simp only [List.mem_cons, List.mem_singleton, List.not_mem_nil, or_false] at hop
    rcases hop with rfl | rfl | rfl
    · exact ⟨⟨by decide, by decide⟩, by decide, by decide⟩
    · exact ⟨⟨by decide, by decide⟩, by decide, by decide⟩
    · exact ⟨⟨by decide, by decide⟩, by decide, by decide⟩
  obtain ⟨c, hrun, _⟩ := cache_run_refines _ (buffer_cache_init_spec (fun _ _ => 0)
    (fun _ _ => 7)).1 hok
  have h := flush_and_reset_leave_clean _ _ _ hok hrun
  exact ⟨c, hrun, h.1.1, h.2.2.1⟩

/-- Witness for C18: a write, a reset and a read. -/
theorem unused_entries_are_clean_witness :
    ∃ c, cache_run (buffer_cache_init (fun _ _ => 0) (fun _ _ => 7))
        [CacheOp.write 1 5 (fun _ => 9) 0 512, CacheOp.reset, CacheOp.read 3 5 0 4]
      = some (c, [[9, 9, 9, 9]]) ∧
      ∀ e ∈ c.sectors,
        (e.sector_idx = SECTOR_NONE → e.dirty = false ∧ e.last_accessed = INT64_MIN) ∧
        (e.dirty = true → e.sector_idx ≠ SECTOR_NONE) := by
  have hok : ∀ op ∈ [CacheOp.write 1 5 (fun _ => 9) 0 512, CacheOp.reset,
      CacheOp.read 3 5 0 4], op.ok := by
    intro op hop
    simp only [List.mem_cons, List.mem_singleton, List.not_mem_nil, or_false] at hop
    rcases hop with rfl | rfl | rfl
    · exact ⟨⟨by decide, by decide⟩, by decide, by decide⟩
    · trivial
    · exact ⟨⟨by decide, by decide⟩, by decide, by decide⟩
  obtain ⟨c, hrun, _⟩ := cache_run_refines _ (buffer_cache_init_spec (fun _ _ => 0)
    (fun _ _ => 7)).1 hok
  exact ⟨c, hrun, (unused_entries_are_clean _ _ _ hrun).2⟩

/-- Witness for C19: reading the same 8 sectors twice from a reset cache gives 8 misses and
8 hits. -/
theorem hit_and_miss_counters_witness :
    ∃ c out, cache_run (buffer_cache_reset (buffer_cache_init (fun _ _ => 0) (fun _ _ => 7)))
        ((List.range 16).map (fun (i : Nat) => CacheOp.read (1 + (i : Int)) (i % 8) 0 4))
      = some (c, out) ∧ c.num_miss = 8 ∧ c.num_hit = 8 := by
  have hok : ∀ op ∈ (List.range 16).map (fun (i : Nat) => CacheOp.read (1 + (i : Int)) (i % 8) 0 4),
      op.ok := by
    intro op hop
    obtain ⟨i, hi, rfl⟩ := List.mem_map.mp hop
    have hi16 := List.mem_range.mp hi
    refine ⟨⟨?_, ?_⟩, ?_, by decide⟩
    · show INT64_MIN < 1 + (i : Int)
      unfold INT64_MIN; omega
    · show 1 + (i : Int) < INT64_MAX
      unfold INT64_MAX; omega
    · show i % 8 ≠ 4294967295
      omega
  have hacc : ∀ op ∈ (List.range 16).map (fun (i : Nat) => CacheOp.read (1 + (i : Int)) (i % 8) 0 4),
      op.is_access = true := by
    intro op hop
    obtain ⟨i, _, rfl⟩ := List.mem_map.mp hop
    rfl
  have hlen : (buffer_cache_init (fun _ _ => 0) (fun _ _ => 7)).sectors.length
      = BUFFER_CACHE_SIZE := by
    simp [buffer_cache_init]
  exact hit_and_miss_counters (buffer_cache_reset_empty hlen) _ hok hacc (by decide)
    (by decide)

/-- A sector that holds the image of an inode holds the magic number at offset 508. -/
theorem Mirrored_magic {sector : Nat} {d : inode_data} {D : Nat → Nat → Nat}
    (h : Mirrored sector d D) : get_u32 (D sector) 508 = INODE_MAGIC := by
  obtain ⟨pad, hp⟩ := h
  apply get_u32_u32_bytes (by decide)
  intro k hk
  rw [hp _ (by rw [const_sector]; omega)]
  unfold inode_disk_bytes
  rw [if_neg (by omega), if_neg (by omega), if_neg (by omega), if_neg (by omega),
    if_neg (by omega)]
  have e : 508 + k - 508 = k := by omega
  rw [e]

/-- The image that `inode_writeback` leaves in the inode sector. -/
theorem inode_writeback_mirror {io io' : Io} {al : Alloc} {ino : inode} (hinv : IoInv io)
    (hal : AllocInv al) (hh : HandleInv ino (disk io) al) (pad : Nat → Nat)
    (hwb : inode_writeback io pad ino = some io') :
    Mirrored ino.sector ino.block_data (disk io') := by
  obtain ⟨io2, hwb2, _, _, hdisk2, _⟩ := inode_writeback_spec hinv hal hh pad
  rw [hwb] at hwb2
  cases hwb2
  refine ⟨pad, ?_⟩
  intro k hk
  rw [hdisk2]
  unfold disk_write
  rw [if_pos ⟨rfl, by omega, by omega⟩]
  rfl

/-- The growth of `inode_write_at` on a well-formed handle leaves the image of the grown inode
in the inode sector. -/
theorem inode_write_at_grow_mirror {io : Io} {al : Alloc} {ino : inode} (pad : Nat → Nat)
    {size offset : Int} (hinv : IoInv io) (hal : AllocInv al)
    (hm : ∀ k, al.malloc_ok k = true) (hh : HandleInv ino (disk io) al)
    (hmax : offset + size ≤ MAX_BYTES) (hgrow : ino.block_data.size < offset + size)
    (hfree : grow_need (bytes_to_sectors ino.block_data.size)
      (bytes_to_sectors (offset + size) - bytes_to_sectors ino.block_data.size)
      ≤ free_count al.free_map) :
    ∃ io1 al1 d1 io2,
      inode_data_resize io al ino.block_data (to_u32 (wrap_int (offset + size)))
        = some (io1, al1, d1, true) ∧
      inode_writeback io1 pad { ino with block_data := d1 } = some io2 ∧
      Mirrored ino.sector d1 (disk io2) := by
  have hmax' := hmax
  unfold MAX_BYTES at hmax'
  have h0 := hh.file.size_nonneg
  obtain ⟨A, hA⟩ := Int.eq_ofNat_of_zero_le (show (0 : Int) ≤ offset + size by omega)
  have hu : to_u32 (wrap_int (offset + size)) = A := by
    rw [wrap_int_of_range (by omega) (by omega), hA]
    exact to_u32_natCast (by omega)
  rw [hu]
  rw [hA] at hfree hgrow
  obtain ⟨io1, al1, d1, hres, hinv1, hal1, ht1, hm1, hsize1, hdir1, hfile1, hpres1, hframe1,
      hzero1, hmono1, hcnt1, hnew1⟩ :=
    @inode_data_resize_spec _ _ _ A hinv hal hm hh.file (by omega)
      (by unfold MAX_BYTES; omega) hfree
  have hsz1 : bytes_to_sectors d1.size = bytes_to_sectors (A : Int) := by rw [hsize1]
  have hh1 : HandleInv { ino with block_data := d1 } (disk io1) al1 := by
    refine ⟨hfile1, hmono1 _ hh.sector_used, ?_⟩
    intro x hx heq
    simp only at hx heq
    rw [hsz1] at hx
    by_cases c : slot_live (bytes_to_sectors ino.block_data.size) x
    · rw [hpres1 x c] at heq
      exact hh.sector_own x c heq
    · apply hnew1 x hx c
      rw [heq]
      exact hh.sector_used
  obtain ⟨io2, hwb, _⟩ := inode_writeback_spec hinv1 hal1 hh1 pad
  exact ⟨io1, al1, d1, io2, hres, hwb, inode_writeback_mirror hinv1 hal1 hh1 pad hwb⟩

/-- The first part of `inode_write_at` on a well-formed handle: when the file grows, or when
the inode sector held the image of the inode before, it holds it afterwards. -/
theorem inode_write_at_resize_mirror {io : Io} {al : Alloc} {ino : inode} (pad : Nat → Nat)
    {size offset : Int} (hinv : IoInv io) (hal : AllocInv al)
    (hm : ∀ k, al.malloc_ok k = true) (hh : HandleInv ino (disk io) al)
    (hs : 0 < size) (ho : 0 ≤ offset) (hmax : offset + size ≤ MAX_BYTES)
    (hfree : grow_need (bytes_to_sectors ino.block_data.size)
      (bytes_to_sectors (max ino.block_data.size (offset + size))
        - bytes_to_sectors ino.block_data.size) ≤ free_count al.free_map)
    (hmir : ino.block_data.size < offset + size ∨ Mirrored ino.sector ino.block_data (disk io)) :
    ∃ io1 al1 d1,
      inode_write_at_resize io al pad ino size offset
        = some (io1, al1, { ino with block_data := d1 }, true) ∧
      Mirrored ino.sector d1 (disk io1) := by
  have hmax' := hmax
  unfold MAX_BYTES at hmax'
  have h0 := hh.file.size_nonneg
  unfold inode_write_at_resize
  rw [wrap_int_of_range (by omega) (by omega)]
  by_cases hgrow : ino.block_data.size < offset + size
  · have hmx : max ino.block_data.size (offset + size) = offset + size := by omega
    rw [hmx] at hfree
    obtain ⟨io1, al1, d1, io2, hres, hwb, himg⟩ :=
      inode_write_at_grow_mirror pad hinv hal hm hh hmax hgrow hfree
    rw [wrap_int_of_range (by omega) (by omega)] at hres
    simp only
    rw [if_pos (by omega), hres]
    simp only [hwb]
    exact ⟨io2, al1, d1, rfl, himg⟩
  · simp only
    rw [if_neg (by omega)]
    exact ⟨io, al, ino.block_data, rfl, hmir.resolve_left hgrow⟩

/-- The function `inode_write_at` on a well-formed handle with writes allowed, when the
allocations succeed: when the file grows, or when the inode sector held the image of the inode
before, it holds the image of the inode afterwards. -/
theorem inode_write_at_mirror {io : Io} {al : Alloc} {ino : inode} (junk : Int)
    (pad : Nat → Nat) (buffer : Nat → Nat) {size offset : Int} (hinv : IoInv io)
    (hal : AllocInv al) (hm : ∀ k, al.malloc_ok k = true) (hh : HandleInv ino (disk io) al)
    (hdeny : ino.deny_write_cnt = 0)
    (hs : 0 < size) (ho : 0 ≤ offset) (hmax : offset + size ≤ MAX_BYTES)
    (hfree : grow_need (bytes_to_sectors ino.block_data.size)
      (bytes_to_sectors (max ino.block_data.size (offset + size))
        - bytes_to_sectors ino.block_data.size) ≤ free_count al.free_map)
    (hmir : ino.block_data.size < offset + size ∨ Mirrored ino.sector ino.block_data (disk io)) :
    ∃ io' al' d',
      inode_write_at junk io al pad ino buffer size offset
        = some (io', al', { ino with block_data := d' }, size) ∧
      Mirrored ino.sector d' (disk io') := by
  have hmax' := hmax
  unfold MAX_BYTES at hmax'
  obtain ⟨S, hS⟩ := Int.eq_ofNat_of_zero_le (show (0 : Int) ≤ size by omega)
  obtain ⟨O, hO⟩ := Int.eq_ofNat_of_zero_le ho
  subst hS hO
  obtain ⟨io1, al1, d1, hres, hinv1, hal1, hm1, ht1, hh1, hsize1, hdir1, hbytes1, hmono1, _⟩ :=
    inode_write_at_resize_spec pad hinv hal hm hh hs ho hmax hfree
  obtain ⟨io1', al1', d1', hres', himg⟩ :=
    inode_write_at_resize_mirror pad hinv hal hm hh hs ho hmax hfree hmir
  rw [hres] at hres'
  have e1 : io1 = io1' := (Prod.mk.inj (Option.some.inj hres')).1
  have e2 : d1 = d1' := by
    have := (Prod.mk.inj (Prod.mk.inj (Prod.mk.inj (Option.some.inj hres')).2).2).1
    exact congrArg inode.block_data this
  subst e1 e2
  have h0 := hh.file.size_nonneg
  have hmaxd := hh.file.size_max
  unfold MAX_BYTES at hmaxd
  obtain ⟨L', hL'⟩ := Int.eq_ofNat_of_zero_le
    (show (0 : Int) ≤ max ino.block_data.size ((O : Int) + (S : Int)) by omega)
  have hL1 : ({ ino with block_data := d1 } : inode).block_data.size = (L' : Int) := by
    simp only [hsize1, hL']
  have hn1 : bytes_to_sectors d1.size = (L' + 511) / 512 := by
    rw [hsize1, hL', bytes_to_sectors_eq (by omega) (by omega)]
    simp
  have hwf1 := hh1.file.wf
  simp only at hwf1
  rw [hn1] at hwf1
  obtain ⟨fuel, hfuel⟩ : ∃ fuel : Nat, ((S : Int).toNat + 1) = fuel := ⟨_, rfl⟩
  obtain ⟨io2, hrun, hinv2, ht2, hwf2, hpres2, hcont2, hframe2⟩ :=
    @inode_write_loop_spec _ hal1 { ino with block_data := d1 } _ _ hL1 rfl
      (by unfold MAX_BYTES; omega) buffer fuel io1 S O 0 hinv1 hwf1 (by omega) (by omega)
  have e0 : ((0 : Nat) : Int) = 0 := rfl
  have e1 : (((0 + S : Nat)) : Int) = (S : Int) := by omega
  rw [e0, e1, ← hfuel] at hrun
  have hcode : inode_write_at junk io al pad ino buffer (S : Int) (O : Int)
      = some (io2, al1, { ino with block_data := d1 }, (S : Int)) :=
    inode_write_at_of_resize hres hdeny hrun
  refine ⟨io2, al1, d1, hcode, ?_⟩
  obtain ⟨pad', hp⟩ := himg
  refine ⟨pad', ?_⟩
  intro k hk
  rw [← hp k hk]
  apply hframe2
  intro p hp1 hp2 ⟨h1, _⟩
  have hlive : slot_live (bytes_to_sectors d1.size) (Slot.data (p / 512)) := by
    show p / 512 < bytes_to_sectors d1.size
    rw [hn1]
    omega
  have := hh1.sector_own (Slot.data (p / 512)) hlive
  rw [slot_sector_data] at this
  exact this h1

/-- The function `inode_resize` on a well-formed handle when the allocations succeed: the
inode sector holds the image of the grown inode. -/
theorem inode_resize_mirror {io : Io} {al : Alloc} {ino : inode} (pad : Nat → Nat)
    {a_size : Nat} (hinv : IoInv io) (hal : AllocInv al)
    (hm : ∀ k, al.malloc_ok k = true) (hh : HandleInv ino (disk io) al)
    (hgrow : ino.block_data.size < a_size) (hmax : a_size ≤ MAX_BYTES)
    (hfree : grow_need (bytes_to_sectors ino.block_data.size)
      (bytes_to_sectors a_size - bytes_to_sectors ino.block_data.size)
      ≤ free_count al.free_map) :
    ∃ io' al' d',
      inode_resize io al pad ino a_size = some (io', al', { ino with block_data := d' }, true) ∧
      Mirrored ino.sector d' (disk io') := by
  have hmax' := hmax
  unfold MAX_BYTES at hmax'
  have h0 := hh.file.size_nonneg
  have e : ((a_size : Int) - 1 + 1) = (a_size : Int) := by omega
  have hmaxi : ((a_size : Int) - 1) + 1 ≤ MAX_BYTES := by rw [e]; exact_mod_cast hmax
  obtain ⟨io1, al1, d1, io2, hres, hwb, himg⟩ :=
    @inode_write_at_grow_mirror io al ino pad 1 ((a_size : Int) - 1) hinv hal hm hh
      hmaxi (by omega) (by rw [e]; exact hfree)
  rw [e] at hres
  rw [wrap_int_of_range (by omega) (by omega), to_u32_natCast (by omega)] at hres
  refine ⟨io2, al1, d1, ?_, himg⟩
  unfold inode_resize
  rw [hres]
  simp only [hwb]

/-- C16: the on-disk inode mirrors the in-memory one after every successful mutation. When the
allocations succeed, (1) after `inode_create (s, n, d)` the sector `s` seen through the cache
holds the image of an inode of size `n` with flag `d`; (2) after an `inode_write_at` that
returns `size` on a well-formed handle, the inode sector holds the image of the handle's new
block data when the write grew the file (or when the sector held the image before); (3) the
same after a growing `inode_resize`; (4) a sector that holds the image of a well-formed inode
has the magic number `0x494E4F44` at offset 508, reading it back through the cache gives the
size, the flag and the block map of the inode, and `inode_open` of the sector, when the list
holds no handle for it, yields a handle with `inode_length` = that size and `inode_is_dir` =
that flag. -/
theorem inode_sector_mirrors_handle :
    (∀ {io : Io} {al : Alloc} (stack : inode_data) (pad : Nat → Nat) {sector : Nat}
        {length : Int} (is_directory : Bool), IoInv io → AllocInv al →
        (∀ k, al.malloc_ok k = true) → in_use al sector → 0 ≤ length → length ≤ MAX_BYTES →
        grow_need 0 (bytes_to_sectors length) ≤ free_count al.free_map →
        ∃ io' al' d', inode_create io al stack pad sector length is_directory
            = some (io', al', true) ∧
          IoInv io' ∧ AllocInv al' ∧ (∀ k, al'.malloc_ok k = true) ∧
          HandleInv (inode.mk sector 1 false 0 d') (disk io') al' ∧
          free_count al'.free_map + grow_need 0 (bytes_to_sectors length)
            = free_count al.free_map ∧
          d'.size = length ∧ d'.is_dir = is_directory ∧ Mirrored sector d' (disk io')) ∧
    (∀ {io : Io} {al : Alloc} {ino : inode} (junk : Int) (pad : Nat → Nat)
        (buffer : Nat → Nat) {size offset : Int}, IoInv io → AllocInv al →
        (∀ k, al.malloc_ok k = true) → HandleInv ino (disk io) al → ino.deny_write_cnt = 0 →
        0 < size → 0 ≤ offset → offset + size ≤ MAX_BYTES →
        grow_need (bytes_to_sectors ino.block_data.size)
          (bytes_to_sectors (max ino.block_data.size (offset + size))
            - bytes_to_sectors ino.block_data.size) ≤ free_count al.free_map →
        (ino.block_data.size < offset + size ∨
          Mirrored ino.sector ino.block_data (disk io)) →
        ∃ io' al' d', inode_write_at junk io al pad ino buffer size offset
            = some (io', al', { ino with block_data := d' }, size) ∧
          IoInv io' ∧ AllocInv al' ∧ (∀ k, al'.malloc_ok k = true) ∧
          HandleInv { ino with block_data := d' } (disk io') al' ∧
          d'.size = max ino.block_data.size (offset + size) ∧
          d'.is_dir = ino.block_data.is_dir ∧ Mirrored ino.sector d' (disk io')) ∧
    (∀ {io : Io} {al : Alloc} {ino : inode} (pad : Nat → Nat) {a_size : Nat}, IoInv io →
        AllocInv al → (∀ k, al.malloc_ok k = true) → HandleInv ino (disk io) al →
        ino.block_data.size < a_size → a_size ≤ MAX_BYTES →
        grow_need (bytes_to_sectors ino.block_data.size)
          (bytes_to_sectors a_size - bytes_to_sectors ino.block_data.size)
          ≤ free_count al.free_map →
        ∃ io' al' d', inode_resize io al pad ino a_size
            = some (io', al', { ino with block_data := d' }, true) ∧
          IoInv io' ∧ AllocInv al' ∧ (∀ k, al'.malloc_ok k = true) ∧
          HandleInv { ino with block_data := d' } (disk io') al' ∧
          d'.size = a_size ∧ d'.is_dir = ino.block_data.is_dir ∧
          Mirrored ino.sector d' (disk io')) ∧
    (∀ {io : Io} {al : Alloc} {ino : inode} (l : InodeList) (uninit : Nat → Nat), IoInv io →
        AllocInv al → al.malloc_ok al.malloc_calls = true →
        l.find? (fun p => decide (p.2.sector = ino.sector)) = none →
        HandleInv ino (disk io) al → Mirrored ino.sector ino.block_data (disk io) →
        (∃ io1 buf, FS_READ_BLOCK io ino.sector uninit = some (io1, buf) ∧
          get_u32 buf 508 = INODE_MAGIC ∧
          (inode_data_of_bytes buf).size = ino.block_data.size ∧
          (inode_data_of_bytes buf).is_dir = ino.block_data.is_dir ∧
          ∀ x, slot_live (bytes_to_sectors ino.block_data.size) x →
            slot_sector (inode_data_of_bytes buf) (disk io) x
              = slot_sector ino.block_data (disk io) x) ∧
        ∃ io' ino', inode_open io al l uninit ino.sector
            = some (io', (malloc al).1, (al.malloc_calls, ino') :: l, some al.malloc_calls) ∧
          inode_length ino' = ino.block_data.size ∧
          inode_is_dir ino' = ino.block_data.is_dir ∧ ino'.sector = ino.sector ∧
          IoInv io' ∧ HandleInv ino' (disk io') (malloc al).1) := by
  refine ⟨?_, ?_, ?_, ?_⟩
  · intro io al stack pad sector length is_directory hinv hal hm hsec h0 hmax hfree
    obtain ⟨io', al', d', hcr, hinv', hal', hm', _, hh', hsize, hdir, himg, _, _, hcnt⟩ :=
      inode_create_spec stack pad is_directory hinv hal hm hsec h0 hmax hfree
    exact ⟨io', al', d', hcr, hinv', hal', hm', hh', hcnt, hsize, hdir, pad, himg⟩
  · intro io al ino junk pad buffer size offset hinv hal hm hh hdeny hs ho hmax hfree hmir
    obtain ⟨io', al', d', hwr, hinv', hal', hm', _, hh', hsize, hdir, _⟩ :=
      inode_write_at_spec junk pad buffer hinv hal hm hh hdeny hs ho hmax hfree
    obtain ⟨io2, al2, d2, hwr2, himg⟩ :=
      inode_write_at_mirror junk pad buffer hinv hal hm hh hdeny hs ho hmax hfree hmir
    rw [hwr] at hwr2
    have e1 : io' = io2 := (Prod.mk.inj (Option.some.inj hwr2)).1
    have e2 : d' = d2 :=
      congrArg inode.block_data
        (Prod.mk.inj (Prod.mk.inj (Prod.mk.inj (Option.some.inj hwr2)).2).2).1
    subst e1 e2
    exact ⟨io', al', d', hwr, hinv', hal', hm', hh', hsize, hdir, himg⟩
  · intro io al ino pad a_size hinv hal hm hh hgrow hmax hfree
    obtain ⟨io', al', d', hrs, hinv', hal', hm', _, hh', hsize, hdir, _⟩ :=
      inode_resize_spec pad hinv hal hm hh hgrow hmax hfree
    obtain ⟨io2, al2, d2, hrs2, himg⟩ :=
      inode_resize_mirror pad hinv hal hm hh hgrow hmax hfree
    rw [hrs] at hrs2
    have e1 : io' = io2 := (Prod.mk.inj (Option.some.inj hrs2)).1
    have e2 : d' = d2 :=
      congrArg inode.block_data
        (Prod.mk.inj (Prod.mk.inj (Prod.mk.inj (Option.some.inj hrs2)).2).2).1
    subst e1 e2
    exact ⟨io', al', d', hrs, hinv', hal', hm', hh', hsize, hdir, himg⟩
  · intro io al ino l uninit hinv hal hm hfresh hh hmir
    have hsn := (in_use_ne_none hal hh.sector_used).1
    obtain ⟨io1, hrd, _, _, _⟩ :=
      @fs_cache_read_spec io hinv ino.sector hsn uninit 0 512 (by decide)
    obtain ⟨pad, himg⟩ := hmir
    have hbuf : ∀ k, k < 512 →
        (fun k => if k < 512 then disk io ino.sector (0 + k) else uninit k) k
          = inode_disk_bytes ino.block_data INODE_MAGIC pad k := by
      intro k hk
      simp only [if_pos hk, Nat.zero_add]
      exact himg k hk
    obtain ⟨hsize, hdir, hpres⟩ := inode_data_of_bytes_spec hal hh.file hbuf
    have hmagic : get_u32 (fun k => if k < 512 then disk io ino.sector (0 + k) else uninit k)
        508 = INODE_MAGIC := by
      apply get_u32_u32_bytes (by decide)
      intro k hk
      have hb := hbuf (508 + k) (by omega)
      simp only at hb ⊢
      rw [hb]
      unfold inode_disk_bytes
      rw [if_neg (by omega), if_neg (by omega), if_neg (by omega), if_neg (by omega),
        if_neg (by omega)]
      have e : 508 + k - 508 = k := by omega
      rw [e]
    refine ⟨⟨io1, _, hrd, hmagic, hsize, hdir, hpres⟩, ?_⟩
    obtain ⟨io', d', hop, hinv', _, _, hsize', hdir', hh', _⟩ :=
      @inode_open_spec io al l uninit ino.sector ino.block_data pad hinv hal hm hfresh
        ⟨hh.file, hh.sector_used, hh.sector_own⟩ himg
    exact ⟨io', inode.mk ino.sector 1 false 0 d', hop, hsize', hdir', rfl, hinv', hh'⟩

/-- Witness for C16: a directory inode created with length 600 in sector 1 of an empty disk,
grown to 1000 bytes by a write of 700 bytes at offset 300, then opened again: the new handle
has length 1000 and is a directory. -/
theorem inode_sector_mirrors_handle_witness :
    ∃ io1 al1 d1 io2 al2 d2 io3 ino3,
      inode_create fresh_io (fresh_alloc 10) (inode_data.mk false 7 (fun _ => 9) (fun _ => 9))
        (fun _ => 0) 1 600 true = some (io1, al1, true) ∧
      Mirrored 1 d1 (disk io1) ∧
      inode_write_at 0 io1 al1 (fun _ => 5) (inode.mk 1 1 false 0 d1) (fun k => k + 1) 700 300
        = some (io2, al2, inode.mk 1 1 false 0 d2, 700) ∧
      Mirrored 1 d2 (disk io2) ∧
      inode_open io2 al2 [] (fun _ => 0) 1
        = some (io3, (malloc al2).1, [(al2.malloc_calls, ino3)], some al2.malloc_calls) ∧
      inode_length ino3 = 1000 ∧ inode_is_dir ino3 = true := by
  obtain ⟨io1, al1, d1, hcr, hinv1, hal1, hm1, hh1, hcnt1, hsize1, hdir1, hmir1⟩ :=
    inode_sector_mirrors_handle.1 (inode_data.mk false 7 (fun _ => 9) (fun _ => 9))
      (fun _ => 0) true IoInv_fresh (AllocInv_fresh (show 10 + 2 ≤ SECTOR_NONE by decide))
      (fun _ => rfl) (in_use_fresh 10) (show (0 : Int) ≤ 600 by decide) (by decide)
      (by rw [free_count_fresh]; decide)
  have hb1 : bytes_to_sectors (600 : Int) = 2 := by decide
  have hg1 : grow_need 0 2 = 2 := by decide
  rw [hb1, hg1, free_count_fresh] at hcnt1
  have hsz : (inode.mk 1 1 false 0 d1).block_data.size = 600 := hsize1
  obtain ⟨io2, al2, d2, hwr, hinv2, hal2, hm2, hh2, hsize2, hdir2, hmir2⟩ :=
    @inode_sector_mirrors_handle.2.1 io1 al1 (inode.mk 1 1 false 0 d1) 0 (fun _ => 5)
      (fun k => k + 1) 700 300 hinv1 hal1 hm1 hh1 rfl (by decide) (by decide) (by decide)
      (by
        rw [hsz]
        have h1 : bytes_to_sectors (max (600 : Int) (300 + 700)) = 2 := by decide
        rw [h1, hb1, Nat.sub_self, grow_need_zero]
        exact Nat.zero_le _)
      (Or.inl (by rw [hsz]; decide))
  rw [hsz] at hsize2
  obtain ⟨_, io3, ino3, hop, hlen3, hdir3, _⟩ :=
    @inode_sector_mirrors_handle.2.2.2 io2 al2 (inode.mk 1 1 false 0 d2) []
      (fun _ => 0) hinv2 hal2 (hm2 _) rfl hh2 hmir2
  refine ⟨io1, al1, d1, io2, al2, d2, io3, ino3, hcr, hmir1, hwr, hmir2, hop, ?_, ?_⟩
  · rw [hlen3]
    show d2.size = 1000
    rw [hsize2]
    decide
  · rw [hdir3]
    show d2.is_dir = true
    rw [hdir2]
    exact hdir1

theorem release_all_append (al : Alloc) (a b : List Nat) :
    release_all al (a ++ b) = release_all (release_all al a) b := by
  unfold release_all
  rw [List.foldl_append]

theorem release_all_cons (al : Alloc) (s : Nat) (b : List Nat) :
    release_all al (s :: b) = release_all (free_map_release al s) b := rfl

theorem release_all_nil (al : Alloc) : release_all al [] = al := rfl

/-- The innermost loop of `inode_close` releases the sectors of its list of calls. -/
theorem close_l0_loop_released (l : List Nat) : ∀ (al : Alloc) (ib : Nat → Nat) (i n : Nat),
    close_l0_loop l al ib i n
      = (release_all al (close_l0_released l ib i n).1, (close_l0_released l ib i n).2) := by
  induction l with
  | nil => intro al ib i n; rfl
  | cons a rest ih =>
    intro al ib i n
    unfold close_l0_loop close_l0_released
    by_cases h : i + 1 = n
    · simp only [h, if_true]
      rfl
    · simp only [h, if_false]
      rw [ih]
      rfl

/-- The middle loop of `inode_close` releases the sectors of its list of calls. -/
theorem close_l1_loop_released (l : List Nat) : ∀ (io : Io) (al : Alloc) (ib : Nat → Nat)
    (i n : Nat),
    close_l1_loop l io al ib i n
      = (close_l1_released l io ib i n).map (fun r => (r.1, release_all al r.2.1, r.2.2)) := by
  induction l with
  | nil => intro io al ib i n; rfl
  | cons a rest ih =>
    intro io al ib i n
    unfold close_l1_loop close_l1_released
    cases hr : FS_READ_BLOCK io (get_u32 ib (4 * a)) (fun _ => 0) with
    | none => rfl
    | some p =>
      obtain ⟨io1, ib1⟩ := p
      simp only
      rw [close_l0_loop_released]
      obtain ⟨rel, i1, done⟩ := close_l0_released (List.range INDIRECT_BLOCK_NUM_ENTRIES) ib1 i n
      simp only
      cases done with
      | true =>
        simp only [if_true, Option.map_some', release_all_append]
        rfl
      | false =>
        simp only [Bool.false_eq_true, if_false]
        rw [ih]
        cases close_l1_released rest io1 ib i1 n with
        | none => rfl
        | some q =>
          obtain ⟨io2, rel2, r⟩ := q
          simp only [Option.map_some', release_all_append, release_all_cons]

/-- The outer loop of `inode_close` releases the sectors of its list of calls. -/
theorem close_l2_loop_released (fuel : Nat) : ∀ (io : Io) (al : Alloc) (d : inode_data)
    (a i n : Nat),
    close_l2_loop fuel io al d a i n
      = (close_l2_released fuel io d a i n).map (fun r => (r.1, release_all al r.2)) := by
  induction fuel with
  | zero => intro io al d a i n; rfl
  | succ fuel ih =>
    intro io al d a i n
    unfold close_l2_loop close_l2_released
    cases hr : FS_READ_BLOCK io (d.l2_blocks a) (fun _ => 0) with
    | none => rfl
    | some p =>
      obtain ⟨io1, ib2⟩ := p
      simp only
      rw [close_l1_loop_released]
      cases close_l1_released (List.range INDIRECT_BLOCK_NUM_ENTRIES) io1 ib2 i n with
      | none => rfl
      | some q =>
        obtain ⟨io2, rel, i1, done⟩ := q
        simp only [Option.map_some']
        cases done with
        | true =>
          simp only [if_true, Option.map_some', release_all_append]
          rfl
        | false =>
          simp only [Bool.false_eq_true, if_false]
          rw [ih]
          cases close_l2_released fuel io2 d (a + 1) i1 n with
          | none => rfl
          | some r =>
            obtain ⟨io3, rel2⟩ := r
            simp only [Option.map_some', release_all_append, release_all_cons]

/-- The first loop of `inode_close` releases the sectors of its list of calls. -/
theorem close_direct_loop_released (l : List Nat) : ∀ (al : Alloc) (d : inode_data) (n : Nat),
    close_direct_loop l al d n
      = (release_all al (close_direct_released l d n).1, (close_direct_released l d n).2) := by
  induction l with
  | nil => intro al d n; rfl
  | cons a rest ih =>
    intro al d n
    unfold close_direct_loop close_direct_released
    by_cases h : a < n
    · simp only [h, if_true]
      rw [ih]
      rfl
    · simp only [h, if_false]
      rfl

/-- The release of the blocks in `inode_close` releases the sectors of its list of calls. -/
theorem inode_release_blocks_released (io : Io) (al : Alloc) (ino : inode) :
    inode_release_blocks io al ino
      = (inode_released io ino).map (fun r => (r.1, release_all al r.2)) := by
  unfold inode_release_blocks inode_released
  simp only
  rw [close_direct_loop_released]
  obtain ⟨rel, i⟩ := close_direct_released (List.range INODE_DISK_NUM_DIRECT_BLOCKS)
    ino.block_data (bytes_to_sectors ino.block_data.size)
  simp only
  by_cases h : bytes_to_sectors ino.block_data.size = i
  · simp only [h, if_true, Option.map_some', List.append_nil, release_all_append]
    rfl
  · simp only [h, if_false]
    rw [close_l2_loop_released]
    cases close_l2_released (bytes_to_sectors ino.block_data.size + 1) io ino.block_data 0 i
        (bytes_to_sectors ino.block_data.size) with
    | none => rfl
    | some r =>
      obtain ⟨io3, rel2⟩ := r
      simp only [Option.map_some', release_all_append]
      rfl

theorem Seg_refl (i k1 k2 : Nat) : Seg [] i k1 k2 i k1 k2 :=
  ⟨List.nodup_nil, fun x => by simp, by simp, ⟨le_refl _, le_refl _, le_refl _⟩⟩

theorem Seg_append {S1 S2 : List Slot} {i k1 k2 i1 k11 k21 i2 k12 k22 : Nat}
    (h1 : Seg S1 i k1 k2 i1 k11 k21) (h2 : Seg S2 i1 k11 k21 i2 k12 k22) :
    Seg (S1 ++ S2) i k1 k2 i2 k12 k22 := by
  obtain ⟨m1, m2, m3⟩ := h1.mono
  obtain ⟨n1, n2, n3⟩ := h2.mono
  refine ⟨?_, ?_, ?_, ⟨by omega, by omega, by omega⟩⟩
  · rw [List.nodup_append]
    refine ⟨h1.nodup, h2.nodup, ?_⟩
    intro x hx1 hx2
    exact ((h2.mem x).mp hx2).2 ((h1.mem x).mp hx1).1
  · intro x
    rw [List.mem_append, h1.mem, h2.mem]
    constructor
    · rintro (⟨a, b⟩ | ⟨a, b⟩)
      · exact ⟨slot_live3_mono n1 n2 n3 a, b⟩
      · exact ⟨a, fun c => b (slot_live3_mono m1 m2 m3 c)⟩
    · rintro ⟨a, b⟩
      by_cases c : slot_live3 i1 k11 k21 x
      · exact Or.inl ⟨c, b⟩
      · exact Or.inr ⟨a, c⟩
  · have := h1.len
    have := h2.len
    rw [List.length_append]
    omega

theorem Seg_data (i k1 k2 : Nat) : Seg [Slot.data i] i k1 k2 (i + 1) k1 k2 := by
  refine ⟨List.nodup_singleton _, ?_, by simp; omega, ⟨by omega, le_refl _, le_refl _⟩⟩
  intro x
  rw [List.mem_singleton]
  cases x with
  | data j => simp only [Slot.data.injEq, slot_live3]; omega
  | l1 k => simp only [slot_live3]; constructor <;> intro h <;> [cases h; omega]
  | l2 a => simp only [slot_live3]; constructor <;> intro h <;> [cases h; omega]

theorem Seg_l1 (i k1 k2 : Nat) : Seg [Slot.l1 k1] i k1 k2 i (k1 + 1) k2 := by
  refine ⟨List.nodup_singleton _, ?_, by simp; omega, ⟨le_refl _, by omega, le_refl _⟩⟩
  intro x
  rw [List.mem_singleton]
  cases x with
  | data j => simp only [slot_live3]; constructor <;> intro h <;> [cases h; omega]
  | l1 k => simp only [Slot.l1.injEq, slot_live3]; omega
  | l2 a => simp only [slot_live3]; constructor <;> intro h <;> [cases h; omega]

theorem Seg_l2 (i k1 k2 : Nat) : Seg [Slot.l2 k2] i k1 k2 i k1 (k2 + 1) := by
  refine ⟨List.nodup_singleton _, ?_, by simp; omega, ⟨le_refl _, le_refl _, by omega⟩⟩
  intro x
  rw [List.mem_singleton]
  cases x with
  | data j => simp only [slot_live3]; constructor <;> intro h <;> [cases h; omega]
  | l1 k => simp only [slot_live3]; constructor <;> intro h <;> [cases h; omega]
  | l2 a => simp only [Slot.l2.injEq, slot_live3]; omega

/-- The first loop of `inode_close` releases the direct blocks of the file. -/
theorem close_direct_released_spec (d : inode_data) (D : Nat → Nat → Nat) (n : Nat) :
    ∀ m c, c + m = 93 → c ≤ n →
    ∃ S i', close_direct_released (List.range' c m) d n = (S.map (slot_sector d D), i') ∧
      Seg S c 0 0 i' 0 0 ∧ i' = min n 93 := by
  intro m
  induction m with
  | zero =>
    intro c hc hn
    refine ⟨[], 93, rfl, ?_, by omega⟩
    have : c = 93 := by omega
    subst this
    exact Seg_refl _ _ _
  | succ m ih =>
    intro c hc hn
    rw [List.range'_succ]
    unfold close_direct_released
    by_cases h : c < n
    · obtain ⟨S, i', hrun, hseg, hi⟩ := ih (c + 1) (by omega) (by omega)
      simp only [h, if_true]
      rw [hrun]
      refine ⟨Slot.data c :: S, i', ?_, Seg_append (Seg_data c 0 0) hseg, hi⟩
      simp only [List.map_cons, slot_sector_data]
      unfold data_sector
      rw [if_pos (by omega)]
    · simp only [h, if_false]
      have : c = n := by omega
      subst this
      exact ⟨[], c, rfl, Seg_refl _ _ _, by omega⟩

/-- The innermost loop of `inode_close` releases the data sectors of one L1 block. -/
theorem close_l0_released_spec {d : inode_data} {D : Nat → Nat → Nat} {n k : Nat}
    {ib : Nat → Nat}
    (hib : ∀ j, j < 128 → get_u32 ib (4 * j) = data_sector d D (93 + 128 * k + j)) :
    ∀ m c, c + m = 128 → ∀ i k1 k2, i = 93 + 128 * k + c → i < n →
    ∃ S i' done, close_l0_released (List.range' c m) ib i n
        = (S.map (slot_sector d D), i', done) ∧
      Seg S i k1 k2 i' k1 k2 ∧ i' ≤ 93 + 128 * k + 128 ∧
      (done = true → i' = n) ∧ (done = false → i' = 93 + 128 * k + 128 ∧ i' < n) := by
  intro m
  induction m with
  | zero =>
    intro c hc i k1 k2 hi hn
    refine ⟨[], i, false, rfl, Seg_refl _ _ _, by omega, fun h => (by cases h), fun _ => ?_⟩
    omega
  | succ m ih =>
    intro c hc i k1 k2 hi hn
    rw [List.range'_succ]
    unfold close_l0_released
    have hsec : get_u32 ib (4 * c) = slot_sector d D (Slot.data i) := by
      rw [hib c (by omega), slot_sector_data, hi]
    by_cases h : i + 1 = n
    · simp only [h, if_true]
      refine ⟨[Slot.data i], n, true, ?_, ?_, by omega, fun _ => rfl, fun h => (by cases h)⟩
      · rw [hsec]; rfl
      · rw [← h]; exact Seg_data i k1 k2
    · simp only [h, if_false]
      obtain ⟨S, i', done, hrun, hseg, hle, hd1, hd2⟩ :=
        ih (c + 1) (by omega) (i + 1) k1 k2 (by omega) (by omega)
      rw [hrun]
      refine ⟨Slot.data i :: S, i', done, ?_, Seg_append (Seg_data i k1 k2) hseg, hle, hd1, hd2⟩
      simp only [List.map_cons, hsec]

/-- What `FS_READ_BLOCK` reads from an L1 block: the data sectors of the block. -/
theorem read_l1_block {d : inode_data} {D : Nat → Nat → Nat} (k : Nat) (j : Nat)
    (hj : j < 128) :
    get_u32 (fun t => if t < 512 then D (l1_sector d D k) (0 + t) else (fun _ => 0) t) (4 * j)
      = data_sector d D (93 + 128 * k + j) := by
  unfold data_sector
  rw [if_neg (by omega)]
  have e1 : (93 + 128 * k + j - 93) / 128 = k := by omega
  have e2 : (93 + 128 * k + j - 93) % 128 = j := by omega
  rw [e1, e2]
  unfold rd32
  apply get_u32_congr
  intro t ht
  simp only
  rw [if_pos (by omega), Nat.zero_add]

/-- What `FS_READ_BLOCK` reads from an L2 block: the L1 blocks of the block. -/
theorem read_l2_block {d : inode_data} {D : Nat → Nat → Nat} (a : Nat) (b : Nat)
    (hb : b < 128) :
    get_u32 (fun t => if t < 512 then D (d.l2_blocks a) (0 + t) else (fun _ => 0) t) (4 * b)
      = l1_sector d D (128 * a + b) := by
  unfold l1_sector
  have e1 : (128 * a + b) / 128 = a := by omega
  have e2 : (128 * a + b) % 128 = b := by omega
  rw [e1, e2]
  unfold rd32
  apply get_u32_congr
  intro t ht
  simp only
  rw [if_pos (by omega), Nat.zero_add]

/-- The middle loop of `inode_close` releases the data sectors and the L1 blocks of one L2
block. -/
theorem close_l1_released_spec {al : Alloc} (hal : AllocInv al) {d : inode_data}
    {D : Nat → Nat → Nat} {n a : Nat} (hwf : FileWF d D al n) :
    ∀ m b, b + m = 128 → ∀ (io : Io) i k2, IoInv io → disk io = D →
      i = 93 + 16384 * a + 128 * b → i < n →
    ∃ io' S i' k1' done,
      close_l1_released (List.range' b m) io
          (fun t => if t < 512 then D (d.l2_blocks a) (0 + t) else (fun _ => 0) t) i n
        = some (io', S.map (slot_sector d D), i', done) ∧
      IoInv io' ∧ disk io' = D ∧ io'.ticks = io.ticks ∧
      Seg S i (128 * a + b) k2 i' k1' k2 ∧ k1' ≤ 128 * (a + 1) ∧
      (done = true → i' = n ∧ k1' = l1_count n) ∧
      (done = false → i' = 93 + 16384 * (a + 1) ∧ k1' = 128 * (a + 1) ∧ i' < n) := by
  intro m
  induction m with
  | zero =>
    intro b hb io i k2 hinv hD hi hn
    have : b = 128 := by omega
    subst this
    refine ⟨io, [], i, 128 * a + 128, false, rfl, hinv, hD, rfl, Seg_refl _ _ _, by omega,
      fun h => (by cases h), fun _ => ⟨by omega, by omega, hn⟩⟩
  | succ m ih =>
    intro b hb io i k2 hinv hD hi hn
    rw [List.range'_succ]
    unfold close_l1_released
    have hb128 : b < 128 := by omega
    rw [read_l2_block a b hb128]
    have hlive : slot_live n (Slot.l1 (128 * a + b)) := by
      show 93 + 128 * (128 * a + b) < n
      omega
    have hused := hwf.used _ hlive
    rw [slot_sector_l1] at hused
    obtain ⟨io1, hrd, hinv1, hd1, ht1⟩ :=
      @fs_cache_read_spec io hinv _ (in_use_ne_none hal hused).1 (fun _ => 0) 0 512
        (by decide)
    have hrd' : FS_READ_BLOCK io (l1_sector d D (128 * a + b)) (fun _ => 0)
        = some (io1, fun t => if t < 512 then D (l1_sector d D (128 * a + b)) (0 + t)
            else (fun _ => 0) t) := by
      unfold FS_READ_BLOCK
      rw [const_sector, hrd, hD]
    rw [hrd']
    simp only
    obtain ⟨S0, i0, done0, hrun0, hseg0, hle0, hdt0, hdf0⟩ :=
      @close_l0_released_spec d D n (128 * a + b) _ (read_l1_block (128 * a + b)) 128 0
        (by omega) i (128 * a + b) k2 (by omega) hn
    have hr : List.range INDIRECT_BLOCK_NUM_ENTRIES = List.range' 0 128 := by
      rw [const_entries, List.range_eq_range']
    rw [hr, hrun0]
    simp only
    have hl1 : l1_sector d D (128 * a + b) = slot_sector d D (Slot.l1 (128 * a + b)) := rfl
    cases done0 with
    | true =>
      simp only [if_true]
      have hi0 := hdt0 rfl
      refine ⟨io1, S0 ++ [Slot.l1 (128 * a + b)], i0, 128 * a + b + 1, true, ?_, hinv1,
        by rw [hd1, hD], ht1, Seg_append hseg0 (Seg_l1 _ _ _), by omega,
        fun _ => ⟨hi0, ?_⟩, fun h => (by cases h)⟩
      · rw [List.map_append, hl1]
        rfl
      · unfold l1_count
        omega
    | false =>
      simp only [Bool.false_eq_true, if_false]
      obtain ⟨hi0, hn0⟩ := hdf0 rfl
      obtain ⟨io2, S2, i2, k1', done, hrun2, hinv2, hd2, ht2, hseg2, hk, hdt, hdf⟩ :=
        ih (b + 1) (by omega) io1 i0 k2 hinv1 (by rw [hd1, hD]) (by omega) hn0
      rw [hrun2]
      refine ⟨io2, S0 ++ Slot.l1 (128 * a + b) :: S2, i2, k1', done, ?_, hinv2, hd2,
        by rw [ht2, ht1], ?_, hk, hdt, hdf⟩
      · simp only [List.map_append, List.map_cons, hl1]
      · have := Seg_append hseg0 (Seg_append (Seg_l1 i0 (128 * a + b) k2) hseg2)
        simpa using this

/-- The outer loop of `inode_close` releases the data sectors past the direct ones and the
index blocks of the file. -/
theorem close_l2_released_spec {al : Alloc} (hal : AllocInv al) {d : inode_data}
    {D : Nat → Nat → Nat} {n : Nat} (hwf : FileWF d D al n) :
    ∀ fuel a (io : Io) i, IoInv io → disk io = D → i = 93 + 16384 * a → i < n →
      n < i + fuel →
    ∃ io' S, close_l2_released fuel io d a i n = some (io', S.map (slot_sector d D)) ∧
      IoInv io' ∧ disk io' = D ∧ io'.ticks = io.ticks ∧
      Seg S i (128 * a) a n (l1_count n) (l2_count n) := by
  intro fuel
  induction fuel with
  | zero => intro a io i _ _ _ h1 h2; omega
  | succ fuel ih =>
    intro a io i hinv hD hi hn hfuel
    unfold close_l2_released
    have hlive : slot_live n (Slot.l2 a) := by
      show 93 + 16384 * a < n
      omega
    have hused := hwf.used _ hlive
    rw [slot_sector_l2] at hused
    obtain ⟨io1, hrd, hinv1, hd1, ht1⟩ :=
      @fs_cache_read_spec io hinv _ (in_use_ne_none hal hused).1 (fun _ => 0) 0 512
        (by decide)
    have hrd' : FS_READ_BLOCK io (d.l2_blocks a) (fun _ => 0)
        = some (io1, fun t => if t < 512 then D (d.l2_blocks a) (0 + t)
            else (fun _ => 0) t) := by
      unfold FS_READ_BLOCK
      rw [const_sector, hrd, hD]
    rw [hrd']
    simp only
    obtain ⟨io2, S1, i1, k1', done, hrun1, hinv2, hd2, ht2, hseg1, hk, hdt, hdf⟩ :=
      @close_l1_released_spec al hal d D n a hwf 128 0 (by omega) io1 i a hinv1
        (by rw [hd1, hD]) (by omega) hn
    have hr : List.range INDIRECT_BLOCK_NUM_ENTRIES = List.range' 0 128 := by
      rw [const_entries, List.range_eq_range']
    rw [hr, hrun1]
    simp only
    have hl2 : d.l2_blocks a = slot_sector d D (Slot.l2 a) := rfl
    cases done with
    | true =>
      simp only [if_true]
      obtain ⟨hi1, hk1⟩ := hdt rfl
      subst hi1
      have hk2 : a + 1 = l2_count i1 := by
        rw [hk1] at hk
        unfold l1_count at hk
        unfold l2_count
        omega
      refine ⟨io2, S1 ++ [Slot.l2 a], ?_, hinv2, hd2, by rw [ht2, ht1], ?_⟩
      · rw [List.map_append, hl2]
        rfl
      · have := Seg_append hseg1 (Seg_l2 i1 k1' a)
        rw [hk1, hk2] at this
        simpa using this
    | false =>
      simp only [Bool.false_eq_true, if_false]
      obtain ⟨hi1, hk1, hn1⟩ := hdf rfl
      obtain ⟨io3, S3, hrun3, hinv3, hd3, ht3, hseg3⟩ :=
        ih (a + 1) io2 i1 hinv2 hd2 hi1 hn1 (by omega)
      rw [hrun3]
      refine ⟨io3, S1 ++ Slot.l2 a :: S3, ?_, hinv3, hd3, by rw [ht3, ht2, ht1], ?_⟩
      · simp only [List.map_append, List.map_cons, hl2]
      · have h2 := Seg_l2 i1 k1' a
        rw [hk1] at h2 hseg1
        have := Seg_append hseg1 (Seg_append h2 hseg3)
        simpa using this

/-- The sectors that `inode_close` releases for a removed inode with a well-formed block map:
the sector of every slot of the file, each once, and the inode sector at the end. -/
theorem inode_released_spec {io : Io} {al : Alloc} {ino : inode} (hinv : IoInv io)
    (hal : AllocInv al)
    (hwf : FileWF ino.block_data (disk io) al (bytes_to_sectors ino.block_data.size)) :
    ∃ (io' : Io) (S : List Slot), inode_released io ino
        = some (io', S.map (slot_sector ino.block_data (disk io)) ++ [ino.sector]) ∧
      IoInv io' ∧ disk io' = disk io ∧ io'.ticks = io.ticks ∧ S.Nodup ∧
      (∀ x, x ∈ S ↔ slot_live (bytes_to_sectors ino.block_data.size) x) ∧
      S.length = bytes_to_sectors ino.block_data.size
        + l1_count (bytes_to_sectors ino.block_data.size)
        + l2_count (bytes_to_sectors ino.block_data.size) := by
  generalize hn : bytes_to_sectors ino.block_data.size = n at hwf ⊢
  unfold inode_released
  simp only [hn]
  obtain ⟨S0, i0, hrun0, hseg0, hi0⟩ :=
    close_direct_released_spec ino.block_data (disk io) n 93 0 (by omega) (Nat.zero_le _)
  have hr : List.range INODE_DISK_NUM_DIRECT_BLOCKS = List.range' 0 93 := by
    rw [const_direct, List.range_eq_range']
  rw [hr, hrun0]
  simp only
  have hfin : ∀ S, Seg S 0 0 0 n (l1_count n) (l2_count n) →
      S.Nodup ∧ (∀ x, x ∈ S ↔ slot_live n x) ∧ S.length = n + l1_count n + l2_count n := by
    intro S hs
    refine ⟨hs.nodup, ?_, by have := hs.len; omega⟩
    intro x
    rw [hs.mem, slot_live_iff]
    constructor
    · intro h; exact h.1
    · intro h
      refine ⟨h, ?_⟩
      cases x <;> simp only [slot_live3] <;> omega
  by_cases h : n = i0
  · rw [if_pos h]
    simp only [List.append_nil]
    have h1 : l1_count n = 0 := by unfold l1_count; omega
    have h2 : l2_count n = 0 := by unfold l2_count; omega
    have hs : Seg S0 0 0 0 n (l1_count n) (l2_count n) := by
      rw [h1, h2, h]
      exact hseg0
    obtain ⟨a, b, c⟩ := hfin S0 hs
    exact ⟨io, S0, rfl, hinv, rfl, rfl, a, b, c⟩
  · rw [if_neg h]
    have hi93 : i0 = 93 := by omega
    subst hi93
    obtain ⟨io', S2, hrun2, hinv', hd', ht', hseg2⟩ :=
      @close_l2_released_spec al hal ino.block_data (disk io) n hwf (n + 1) 0 io 93 hinv rfl
        (by omega) (by omega) (by omega)
    rw [hrun2]
    simp only
    have hs : Seg (S0 ++ S2) 0 0 0 n (l1_count n) (l2_count n) := Seg_append hseg0 hseg2
    obtain ⟨a, b, c⟩ := hfin _ hs
    refine ⟨io', S0 ++ S2, ?_, hinv', hd', ht', a, b, c⟩
    rw [List.map_append]

theorem free_count_set_false (fm : List Bool) : ∀ {s : Nat}, fm[s]? = some true →
    free_count (fm.set s false) = free_count fm + 1 := by
  induction fm with
  | nil => intro s h; simp at h
  | cons b bs ih =>
    intro s h
    cases s with
    | zero =>
      simp only [List.getElem?_cons_zero, Option.some.injEq] at h
      subst h
      simp [free_count, List.count_cons]
    | succ t =>
      simp only [List.getElem?_cons_succ] at h
      have := ih h
      simp only [free_count, List.set_cons_succ, List.count_cons] at this ⊢
      omega

/-- One call of `free_map_release` on a sector in use: the sector becomes free and nothing else
changes. -/
theorem free_map_release_spec {al : Alloc} {s : Nat} (h : in_use al s) :
    (free_map_release al s).free_map.length = al.free_map.length ∧
    (∀ t, in_use (free_map_release al s) t ↔ in_use al t ∧ t ≠ s) ∧
    free_count (free_map_release al s).free_map = free_count al.free_map + 1 ∧
    (free_map_release al s).malloc_ok = al.malloc_ok ∧
    (free_map_release al s).malloc_calls = al.malloc_calls := by
  refine ⟨by simp [free_map_release], ?_, free_count_set_false _ h, rfl, rfl⟩
  intro t
  unfold in_use at h ⊢
  obtain ⟨hlt, _⟩ := List.getElem?_eq_some.mp h
  show (al.free_map.set s false)[t]? = some true ↔ _
  rw [List.getElem?_set]
  by_cases c : s = t
  · subst c
    simp [hlt]
  · simp only [c, if_false]
    constructor
    · intro h'; exact ⟨h', fun e => c e.symm⟩
    · intro h'; exact h'.1

/-- The release of a list of different sectors that are all in use: they become free and
nothing else changes. -/
theorem release_all_spec (T : List Nat) : ∀ {al : Alloc}, T.Nodup → (∀ t ∈ T, in_use al t) →
    (release_all al T).free_map.length = al.free_map.length ∧
    (∀ t, in_use (release_all al T) t ↔ in_use al t ∧ t ∉ T) ∧
    free_count (release_all al T).free_map = free_count al.free_map + T.length ∧
    (release_all al T).malloc_ok = al.malloc_ok ∧
    (release_all al T).malloc_calls = al.malloc_calls := by
  induction T with
  | nil =>
    intro al _ _
    exact ⟨rfl, fun t => by simp [release_all], rfl, rfl, rfl⟩
  | cons s rest ih =>
    intro al hnd hin
    rw [release_all_cons]
    obtain ⟨h1, h2, h3, h4, h5⟩ := free_map_release_spec (hin s (List.mem_cons_self _ _))
    have hnd' := List.nodup_cons.mp hnd
    obtain ⟨g1, g2, g3, g4, g5⟩ := @ih (free_map_release al s) hnd'.2 (by
      intro t ht
      rw [h2]
      refine ⟨hin t (List.mem_cons_of_mem _ ht), ?_⟩
      intro e
      subst e
      exact hnd'.1 ht)
    refine ⟨by rw [g1, h1], ?_, by rw [g3, h3, List.length_cons]; omega, by rw [g4, h4],
      by rw [g5, h5]⟩
    intro t
    rw [g2, h2, List.mem_cons]
    tauto

/-- The release of the blocks in `inode_close` on a well-formed handle: the sectors of the
list of calls are different from each other, they are the sectors of the slots of the file and
the inode sector, and exactly these become free. -/
theorem inode_release_blocks_spec {io : Io} {al : Alloc} {ino : inode} (hinv : IoInv io)
    (hal : AllocInv al) (hh : HandleInv ino (disk io) al) :
    ∃ io' T, inode_released io ino = some (io', T) ∧
      inode_release_blocks io al ino = some (io', release_all al T) ∧
      IoInv io' ∧ disk io' = disk io ∧ io'.ticks = io.ticks ∧ T.Nodup ∧
      (∀ t, t ∈ T ↔ t = ino.sector ∨ ∃ x, slot_live (bytes_to_sectors ino.block_data.size) x ∧
        slot_sector ino.block_data (disk io) x = t) ∧
      T.length = bytes_to_sectors ino.block_data.size
        + l1_count (bytes_to_sectors ino.block_data.size)
        + l2_count (bytes_to_sectors ino.block_data.size) + 1 ∧
      (release_all al T).free_map.length = al.free_map.length ∧
      (∀ t, in_use (release_all al T) t ↔ in_use al t ∧ t ∉ T) ∧
      free_count (release_all al T).free_map = free_count al.free_map + T.length ∧
      (release_all al T).malloc_ok = al.malloc_ok ∧
      (release_all al T).malloc_calls = al.malloc_calls := by
  obtain ⟨io', S, hrel, hinv', hd', ht', hnd, hmem, hlen⟩ :=
    inode_released_spec hinv hal hh.file.wf
  have hT : ∀ t, t ∈ S.map (slot_sector ino.block_data (disk io)) ++ [ino.sector] ↔
      t = ino.sector ∨ ∃ x, slot_live (bytes_to_sectors ino.block_data.size) x ∧
        slot_sector ino.block_data (disk io) x = t := by
    intro t
    rw [List.mem_append, List.mem_singleton, List.mem_map]
    constructor
    · rintro (⟨x, hx, rfl⟩ | rfl)
      · exact Or.inr ⟨x, (hmem x).mp hx, rfl⟩
      · exact Or.inl rfl
    · rintro (rfl | ⟨x, hx, rfl⟩)
      · exact Or.inr rfl
      · exact Or.inl ⟨x, (hmem x).mpr hx, rfl⟩
  have hTnd : (S.map (slot_sector ino.block_data (disk io)) ++ [ino.sector]).Nodup := by
    rw [List.nodup_append]
    refine ⟨?_, List.nodup_singleton _, ?_⟩
    · apply List.Nodup.map_on _ hnd
      intro x hx y hy hxy
      exact hh.file.wf.inj x y ((hmem x).mp hx) ((hmem y).mp hy) hxy
    · intro t ht1 ht2
      rw [List.mem_singleton] at ht2
      subst ht2
      obtain ⟨x, hx, hxt⟩ := List.mem_map.mp ht1
      exact hh.sector_own x ((hmem x).mp hx) hxt
  have hin : ∀ t ∈ S.map (slot_sector ino.block_data (disk io)) ++ [ino.sector],
      in_use al t := by
    intro t ht
    rcases (hT t).mp ht with rfl | ⟨x, hx, rfl⟩
    · exact hh.sector_used
    · exact hh.file.wf.used x hx
  obtain ⟨r1, r2, r3, r4, r5⟩ := release_all_spec _ hTnd hin
  refine ⟨io', _, hrel, ?_, hinv', hd', ht', hTnd, hT, ?_, r1, r2, r3, r4, r5⟩
  · rw [inode_release_blocks_released, hrel]
    rfl
  · rw [List.length_append, List.length_map, hlen]
    rfl

theorem malloc_free_map (al : Alloc) : (malloc al).1.free_map = al.free_map := rfl

theorem free_map_allocate_length {al al' : Alloc} {s : Nat}
    (h : free_map_allocate al = some (al', s)) :
    al'.free_map.length = al.free_map.length ∧ al.free_map[s]? = some false ∧
      al'.free_map = al.free_map.set s true := by
  unfold free_map_allocate at h
  cases hf : first_free al.free_map with
  | none => rw [hf] at h; cases h
  | some t =>
    rw [hf] at h
    simp only [Option.some.injEq, Prod.mk.injEq] at h
    obtain ⟨h1, h2⟩ := h
    subst h1 h2
    exact ⟨by simp, first_free_spec _ hf, rfl⟩

theorem resize_release_length (ns : List new_sector_elem) : ∀ (al : Alloc),
    (resize_release al ns).free_map.length = al.free_map.length := by
  induction ns with
  | nil => intro al; rfl
  | cons e rest ih =>
    intro al
    unfold resize_release
    rw [List.foldl_cons]
    have := ih (free_map_release al e.sector)
    unfold resize_release at this
    rw [this]
    simp [free_map_release]

/-- The first loop of `inode_data_resize` keeps the length of the free map. -/
theorem resize_allocate_length (idxs : List Nat) : ∀ {io io' : Io} {al al' : Alloc}
    {ns ns' : List new_sector_elem} {b : Bool},
    resize_allocate idxs io al ns = some (io', al', ns', b) →
    al'.free_map.length = al.free_map.length := by
  induction idxs with
  | nil =>
    intro io io' al al' ns ns' b h
    simp only [resize_allocate, Option.some.injEq, Prod.mk.injEq] at h
    rw [← h.2.1]
  | cons i rest ih =>
    intro io io' al al' ns ns' b h
    unfold resize_allocate at h
    cases hm : al.malloc_ok al.malloc_calls with
    | false =>
      simp only [malloc, hm, Option.some.injEq, Prod.mk.injEq] at h
      rw [← h.2.1]
    | true =>
      simp only [malloc, hm] at h
      cases hfa : free_map_allocate { al with malloc_calls := al.malloc_calls + 1 } with
      | none =>
        rw [hfa] at h
        simp only [Option.some.injEq, Prod.mk.injEq] at h
        rw [← h.2.1]
      | some p =>
        obtain ⟨al2, s⟩ := p
        rw [hfa] at h
        simp only at h
        cases hz : zero_out io s with
        | none => rw [hz] at h; cases h
        | some io1 =>
          rw [hz] at h
          simp only at h
          rw [ih h, (free_map_allocate_length hfa).1]

/-- One iteration of the second loop of `inode_data_resize` keeps the length of the free
map. -/
theorem resize_link_one_length {io io' : Io} {al al' : Alloc} {d d' : inode_data}
    {e : new_sector_elem} {b : Bool}
    (h : resize_link_one io al d e = some (io', al', d', b)) :
    al'.free_map.length = al.free_map.length := by
  unfold resize_link_one at h
  by_cases hml : e.multi_lvl = true
  · rw [if_pos hml] at h
    cases h2 : resize_link_l2 al d e with
    | none =>
      rw [h2] at h
      simp only [Option.some.injEq, Prod.mk.injEq] at h
      rw [← h.2.1]
    | some p =>
      obtain ⟨al1, d1⟩ := p
      rw [h2] at h
      simp only at h
      have hl1 : al1.free_map.length = al.free_map.length := by
        unfold resize_link_l2 at h2
        by_cases c : e.l1_block_idx = 0 ∧ e.data_block_idx = 0
        · rw [if_pos c] at h2
          cases hfa : free_map_allocate al with
          | none => rw [hfa] at h2; cases h2
          | some q =>
            obtain ⟨al0, s⟩ := q
            rw [hfa] at h2
            simp only [Option.some.injEq, Prod.mk.injEq] at h2
            rw [← h2.1]
            exact (free_map_allocate_length hfa).1
        · rw [if_neg c] at h2
          simp only [Option.some.injEq, Prod.mk.injEq] at h2
          rw [← h2.1]
      cases h3 : resize_link_l1 io al1 d1 e with
      | none => rw [h3] at h; cases h
      | some r =>
        rw [h3] at h
        cases r with
        | none =>
          simp only [Option.some.injEq, Prod.mk.injEq] at h
          rw [← h.2.1]
          exact hl1
        | some q =>
          obtain ⟨io1, al2⟩ := q
          simp only at h
          have hl2 : al2.free_map.length = al1.free_map.length := by
            unfold resize_link_l1 at h3
            by_cases c : e.data_block_idx = 0
            · rw [if_pos c] at h3
              cases hfa : free_map_allocate al1 with
              | none => rw [hfa] at h3; cases h3
              | some q =>
                obtain ⟨al0, s⟩ := q
                rw [hfa] at h3
                simp only at h3
                cases hw : fs_cache_write io (d1.l2_blocks e.l2_block_idx) (u32_bytes s)
                    (e.l1_block_idx * 4) 4 with
                | none => rw [hw] at h3; cases h3
                | some io0 =>
                  rw [hw] at h3
                  simp only [Option.some.injEq, Prod.mk.injEq] at h3
                  rw [← h3.2]
                  exact (free_map_allocate_length hfa).1
            · rw [if_neg c] at h3
              simp only [Option.some.injEq, Prod.mk.injEq] at h3
              rw [← h3.2]
          cases hr : fs_cache_read io1 (d1.l2_blocks e.l2_block_idx) (fun _ => 0)
              (e.l1_block_idx * 4) 4 with
          | none => rw [hr] at h; cases h
          | some q =>
            obtain ⟨io2, buf⟩ := q
            rw [hr] at h
            simp only at h
            cases hw : fs_cache_write io2 (get_u32 buf 0) (u32_bytes e.sector)
                (e.data_block_idx * 4) 4 with
            | none => rw [hw] at h; cases h
            | some io3 =>
              rw [hw] at h
              simp only [Option.some.injEq, Prod.mk.injEq] at h
              rw [← h.2.1, hl2, hl1]
  · rw [if_neg hml] at h
    simp only [Option.some.injEq, Prod.mk.injEq] at h
    rw [← h.2.1]

/-- The second loop of `inode_data_resize` keeps the length of the free map. -/
theorem resize_link_length (ns : List new_sector_elem) : ∀ {io io' : Io} {al al' : Alloc}
    {d d' : inode_data}, resize_link ns io al d = some (io', al', d') →
    al'.free_map.length = al.free_map.length := by
  induction ns with
  | nil =>
    intro io io' al al' d d' h
    simp only [resize_link, Option.some.injEq, Prod.mk.injEq] at h
    rw [← h.2.1]
  | cons e rest ih =>
    intro io io' al al' d d' h
    unfold resize_link at h
    cases h1 : resize_link_one io al d e with
    | none => rw [h1] at h; cases h
    | some p =>
      obtain ⟨io1, al1, d1, b⟩ := p
      rw [h1] at h
      cases b with
      | false =>
        simp only [Option.some.injEq, Prod.mk.injEq] at h
        rw [← h.2.1]
        exact resize_link_one_length h1
      | true =>
        simp only at h
        rw [ih h, resize_link_one_length h1]

/-- The function `inode_data_resize` keeps the length of the free map. -/
theorem inode_data_resize_length {io io' : Io} {al al' : Alloc} {d d' : inode_data}
    {a_size : Nat} {b : Bool}
    (h : inode_data_resize io al d a_size = some (io', al', d', b)) :
    al'.free_map.length = al.free_map.length := by
  unfold inode_data_resize at h
  by_cases c1 : ¬ (to_u32 d.size ≤ a_size)
  · rw [if_pos c1] at h; cases h
  · rw [if_neg c1] at h
    by_cases c2 : to_u32 d.size = a_size
    · rw [if_pos c2] at h
      simp only [Option.some.injEq, Prod.mk.injEq] at h
      rw [← h.2.1]
    · rw [if_neg c2] at h
      simp only at h
      by_cases c3 : bytes_to_sectors (wrap_int a_size) = bytes_to_sectors d.size
      · rw [if_pos c3] at h
        simp only [Option.some.injEq, Prod.mk.injEq] at h
        rw [← h.2.1]
      · rw [if_neg c3] at h
        cases h1 : resize_allocate (List.range' (bytes_to_sectors d.size)
            (bytes_to_sectors (wrap_int a_size) - bytes_to_sectors d.size)) io al [] with
        | none => rw [h1] at h; cases h
        | some p =>
          obtain ⟨io1, al1, ns, ok⟩ := p
          rw [h1] at h
          cases ok with
          | false =>
            simp only [Option.some.injEq, Prod.mk.injEq] at h
            rw [← h.2.1, resize_release_length, resize_allocate_length _ h1]
          | true =>
            simp only at h
            cases h2 : resize_link ns io1 al1 d with
            | none => rw [h2] at h; cases h
            | some q =>
              obtain ⟨io2, al2, d2⟩ := q
              rw [h2] at h
              simp only [Option.some.injEq, Prod.mk.injEq] at h
              rw [← h.2.1, resize_link_length _ h2, resize_allocate_length _ h1]

/-- The function `inode_create` keeps the length of the free map. -/
theorem inode_create_length {io io' : Io} {al al' : Alloc} {stack : inode_data}
    {pad : Nat → Nat} {sector : Nat} {length : Int} {is_directory b : Bool}
    (h : inode_create io al stack pad sector length is_directory = some (io', al', b)) :
    al'.free_map.length = al.free_map.length := by
  unfold inode_create at h
  by_cases c : length < 0
  · rw [if_pos c] at h; cases h
  · rw [if_neg c] at h
    cases h1 : inode_data_resize io al { stack with size := 0, is_dir := is_directory }
        (to_u32 length) with
    | none => rw [h1] at h; cases h
    | some p =>
      obtain ⟨io1, al1, d1, ok⟩ := p
      rw [h1] at h
      cases ok with
      | false =>
        simp only [Option.some.injEq, Prod.mk.injEq] at h
        rw [← h.2.1]
        exact inode_data_resize_length h1
      | true =>
        simp only at h
        cases hw : FS_WRITE_BLOCK io1 (inode_disk_bytes d1 INODE_MAGIC pad) sector with
        | none => rw [hw] at h; cases h
        | some io2 =>
          rw [hw] at h
          simp only [Option.some.injEq, Prod.mk.injEq] at h
          rw [← h.2.1]
          exact inode_data_resize_length h1

/-- Number of index blocks of a file of `n` data sectors. -/
theorem link_total_count (cnt : Nat) : ∀ lo,
    link_total lo cnt + (l1_count lo + l2_count lo)
      = l1_count (lo + cnt) + l2_count (lo + cnt) := by
  induction cnt with
  | zero => intro lo; simp [link_total]
  | succ cnt ih =>
    intro lo
    rw [link_total_succ]
    have h := ih (lo + 1)
    have e : lo + 1 + cnt = lo + (cnt + 1) := by omega
    rw [e] at h
    have hstep : link_need lo + (l1_count lo + l2_count lo)
        = l1_count (lo + 1) + l2_count (lo + 1) := by
      unfold link_need l1_count l2_count
      split_ifs <;> omega
    omega

theorem grow_need_count (n : Nat) : grow_need 0 n = n + l1_count n + l2_count n := by
  have h := link_total_count n 0
  rw [Nat.zero_add] at h
  have h1 : l1_count 0 = 0 := by decide
  have h2 : l2_count 0 = 0 := by decide
  rw [h1, h2] at h
  unfold grow_need
  omega

/-- Two bitmaps of the same length with the same number of clear bits, the second with every
set bit of the first, are the same. -/
theorem bitmap_eq_of_count : ∀ (a b : List Bool), a.length = b.length →
    (∀ t : Nat, a[t]? = some true → b[t]? = some true) → free_count a = free_count b →
    a = b := by
  have hle : ∀ (a b : List Bool), a.length = b.length →
      (∀ t : Nat, a[t]? = some true → b[t]? = some true) → free_count b ≤ free_count a := by
    intro a
    induction a with
    | nil =>
      intro b hl _
      cases b with
      | nil => exact le_refl _
      | cons _ _ => cases hl
    | cons x xs ih =>
      intro b hl hsub
      cases b with
      | nil => cases hl
      | cons y ys =>
        have := ih ys (by simpa using hl) (fun t ht => by simpa using hsub (t + 1) (by simpa using ht))
        have h0 := hsub 0
        simp only [List.getElem?_cons_zero, Option.some.injEq] at h0
        unfold free_count at this ⊢
        rw [List.count_cons, List.count_cons]
        cases x <;> cases y <;> simp at h0 ⊢ <;> omega
  intro a
  induction a with
  | nil =>
    intro b hl _ _
    cases b with
    | nil => rfl
    | cons _ _ => cases hl
  | cons x xs ih =>
    intro b hl hsub hc
    cases b with
    | nil => cases hl
    | cons y ys =>
      have hsub' : ∀ t : Nat, xs[t]? = some true → ys[t]? = some true :=
        fun t ht => by simpa using hsub (t + 1) (by simpa using ht)
      have hl' : xs.length = ys.length := by simpa using hl
      have hle' := hle xs ys hl' hsub'
      have h0 := hsub 0
      simp only [List.getElem?_cons_zero, Option.some.injEq] at h0
      unfold free_count at hc hle'
      rw [List.count_cons, List.count_cons] at hc
      have hxy : x = y ∧ List.count false xs = List.count false ys := by
        cases x <;> cases y <;> simp at h0 hc ⊢ <;> omega
      rw [hxy.1, ih ys hl' hsub' hxy.2]

theorem free_map_allocate_eq {al al' : Alloc} {s : Nat}
    (h : free_map_allocate al = some (al', s)) :
    al' = { al with free_map := al.free_map.set s true } ∧ al.free_map[s]? = some false := by
  unfold free_map_allocate at h
  cases hf : first_free al.free_map with
  | none => rw [hf] at h; cases h
  | some t =>
    rw [hf] at h
    simp only [Option.some.injEq, Prod.mk.injEq] at h
    obtain ⟨h1, h2⟩ := h
    subst h1 h2
    exact ⟨rfl, first_free_spec _ hf⟩

/-- The function `inode_create` when the allocations succeed: as `inode_create_spec`, and no
sector of the new file was in use before. -/
theorem inode_create_fresh {io : Io} {al : Alloc} (stack : inode_data) (pad : Nat → Nat)
    {sector : Nat} {length : Int} (is_directory : Bool) (hinv : IoInv io) (hal : AllocInv al)
    (hm : ∀ k, al.malloc_ok k = true) (hsec : in_use al sector)
    (h0 : 0 ≤ length) (hmax : length ≤ MAX_BYTES)
    (hfree : grow_need 0 (bytes_to_sectors length) ≤ free_count al.free_map) :
    ∃ io' al' d', inode_create io al stack pad sector length is_directory
        = some (io', al', true) ∧
      IoInv io' ∧ AllocInv al' ∧ (∀ k, al'.malloc_ok k = true) ∧
      HandleInv (inode.mk sector 1 false 0 d') (disk io') al' ∧
      d'.size = length ∧
      (∀ k, k < 512 → disk io' sector k = inode_disk_bytes d' INODE_MAGIC pad k) ∧
      (∀ t, in_use al t → in_use al' t) ∧
      free_count al'.free_map + grow_need 0 (bytes_to_sectors length)
        = free_count al.free_map ∧
      (∀ x, slot_live (bytes_to_sectors length) x →
        ¬ in_use al (slot_sector d' (disk io') x)) := by
  have hmax' := hmax
  unfold MAX_BYTES at hmax'
  obtain ⟨A, hA⟩ := Int.eq_ofNat_of_zero_le h0
  subst hA
  have hu : to_u32 (A : Int) = A := to_u32_natCast (by omega)
  have hfile0 : FileInv { stack with size := 0, is_dir := is_directory } (disk io) al :=
    FileInv_empty _ _ rfl
  have hn0 : bytes_to_sectors (({ stack with size := 0, is_dir := is_directory } :
      inode_data).size) = 0 := rfl
  obtain ⟨io1, al1, d1, hres, hinv1, hal1, ht1, hm1, hsize1, hdir1, hfile1, _, _,
      hzero1, hmono1, hcnt1, hnew1⟩ :=
    @inode_data_resize_spec io al _ A hinv hal hm hfile0 (Int.ofNat_nonneg A)
      (by unfold MAX_BYTES; omega) (by rw [hn0, Nat.sub_zero]; exact hfree)
  rw [hn0] at hcnt1 hnew1
  rw [Nat.sub_zero] at hcnt1
  have hdead : ∀ x, ¬ slot_live 0 x := by
    intro x h
    cases x <;> simp only [slot_live] at h <;> omega
  have hh1 : HandleInv (inode.mk sector 1 false 0 d1) (disk io1) al1 := by
    refine ⟨hfile1, hmono1 _ hsec, ?_⟩
    intro x hx heq
    simp only at hx heq
    rw [hsize1] at hx
    apply hnew1 x hx (hdead x)
    rw [heq]
    exact hsec
  obtain ⟨io2, hwb, hinv2, ht2, hdisk2, hh2, hpres2, _, _⟩ :=
    inode_writeback_spec hinv1 hal1 hh1 pad
  simp only at hpres2
  rw [hsize1] at hpres2
  refine ⟨io2, al1, d1, ?_, hinv2, hal1, hm1, hh2, hsize1, ?_, hmono1, hcnt1, ?_⟩
  · unfold inode_create
    rw [if_neg (by omega), hu, hres]
    unfold inode_writeback at hwb
    simp only at hwb ⊢
    rw [hwb]
  · intro k hk
    rw [hdisk2]
    unfold disk_write
    rw [if_pos ⟨rfl, by omega, by rw [const_sector]; omega⟩]
    rfl
  · intro x hx
    rw [hpres2 x hx]
    exact hnew1 x hx (hdead x)

/-- The function `inode_open` on a sector that has no handle yet and holds the image of a
well-formed inode: as `inode_open_spec`, and the new handle has the block map of the image. -/
theorem inode_open_slots {io : Io} {al : Alloc} (l : InodeList) (uninit : Nat → Nat)
    {sector : Nat} {d : inode_data} {pad : Nat → Nat} (hinv : IoInv io) (hal : AllocInv al)
    (hm : al.malloc_ok al.malloc_calls = true)
    (hfresh : l.find? (fun p => decide (p.2.sector = sector)) = none)
    (hh : HandleInv (inode.mk sector 1 false 0 d) (disk io) al)
    (himg : ∀ k, k < 512 → disk io sector k = inode_disk_bytes d INODE_MAGIC pad k) :
    ∃ io' d', inode_open io al l uninit sector
        = some (io', (malloc al).1, (al.malloc_calls, inode.mk sector 1 false 0 d') :: l,
            some al.malloc_calls) ∧
      IoInv io' ∧ disk io' = disk io ∧ d'.size = d.size ∧
      HandleInv (inode.mk sector 1 false 0 d') (disk io') (malloc al).1 ∧
      (∀ x, slot_live (bytes_to_sectors d.size) x →
        slot_sector d' (disk io') x = slot_sector d (disk io) x) := by
  obtain ⟨io', d', hop, hinv', hdisk', _, hsize', _, hh', _⟩ :=
    inode_open_spec l uninit hinv hal hm hfresh hh himg
  have hsn := (in_use_ne_none hal hh.sector_used).1
  obtain ⟨io1, hrd, _, _, _⟩ :=
    @fs_cache_read_spec io hinv sector hsn uninit 0 512 (by decide)
  have hbuf : ∀ k, k < 512 →
      (fun k => if k < 512 then disk io sector (0 + k) else uninit k) k
        = inode_disk_bytes d INODE_MAGIC pad k := by
    intro k hk
    simp only [if_pos hk, Nat.zero_add]
    exact himg k hk
  obtain ⟨_, _, hpres⟩ := inode_data_of_bytes_spec hal hh.file hbuf
  have hop2 : inode_open io al l uninit sector
      = some (io1, (malloc al).1, (al.malloc_calls, inode.mk sector 1 false 0
          (inode_data_of_bytes (fun k => if k < 512 then disk io sector (0 + k)
            else uninit k))) :: l, some al.malloc_calls) := by
    unfold inode_open
    rw [hfresh]
    simp only [malloc, hm, FS_READ_BLOCK, const_sector, hrd]
  rw [hop] at hop2
  have e : d' = inode_data_of_bytes (fun k => if k < 512 then disk io sector (0 + k)
      else uninit k) := by
    have h1 := (Prod.mk.inj (Prod.mk.inj (Prod.mk.inj (Option.some.inj hop2)).2).2).1
    have h2 := (Prod.mk.inj (List.cons.inj h1).1).2
    exact congrArg inode.block_data h2
  refine ⟨io', d', hop, hinv', hdisk', hsize', hh', ?_⟩
  intro x hx
  rw [hdisk', e]
  exact hpres x hx

theorem handle_get_head (h : Nat) (ino : inode) (l : InodeList) :
    handle_get ((h, ino) :: l) h = some ino := by
  unfold handle_get
  simp [List.find?_cons]

theorem find_sector_filter {l : InodeList} {sector : Nat} (q : Nat × inode → Bool)
    (h : l.find? (fun p => decide (p.2.sector = sector)) = none) :
    (l.filter q).find? (fun p => decide (p.2.sector = sector)) = none := by
  rw [List.find?_eq_none] at h ⊢
  intro x hx
  exact h x (List.mem_filter.mp hx).1

/-- The function `inode_close` by the last opener of a removed inode: the blocks are released
and the handle leaves the list. -/
theorem inode_close_last_removed {io : Io} {al : Alloc} {l : InodeList} {h : Nat}
    {ino : inode} (hget : handle_get l h = some ino) (hcnt : ino.open_cnt = 1)
    (hrem : ino.removed = true) :
    inode_close io al l (some h)
      = (inode_release_blocks io al ino).map
          (fun r => (r.1, r.2, l.filter (fun p => decide (p.1 ≠ h)))) := by
  unfold inode_close
  simp only [hget, hcnt, hrem]
  rw [if_neg (by decide), if_pos (by decide)]
  simp only [if_true]
  cases inode_release_blocks io al ino with
  | none => rfl
  | some r => rfl

/-- The function `inode_close` by the last opener of an inode that is not removed: the handle
leaves the list and nothing is released. -/
theorem inode_close_last_kept {io : Io} {al : Alloc} {l : InodeList} {h : Nat}
    {ino : inode} (hget : handle_get l h = some ino) (hcnt : ino.open_cnt = 1)
    (hrem : ino.removed = false) :
    inode_close io al l (some h) = some (io, al, l.filter (fun p => decide (p.1 ≠ h))) := by
  unfold inode_close
  simp only [hget, hcnt, hrem]
  rw [if_neg (by decide), if_pos (by decide)]
  simp

/-- The release of a file at the level of the inode: when the last opener of a removed inode
calls `inode_close` (well-formed handle with `open_cnt = 1` and `removed` set), the sectors
passed to `free_map_release` are different from each other and are exactly the sectors of the
file: its `ceil (size / 512)` data sectors, every L1 block, every L2 block and the inode
sector; exactly these become free and the free count rises by their number. So allocating an
inode sector, `inode_create`, `inode_open`, `inode_close`, and then `inode_open`,
`inode_remove`, `inode_close` leaves the free map as it was before the allocation. -/
theorem inode_close_releases_blocks :
    (∀ {io : Io} {al : Alloc} {l : InodeList} {h : Nat} {ino : inode}, IoInv io →
        AllocInv al → handle_get l h = some ino → ino.open_cnt = 1 → ino.removed = true →
        HandleInv ino (disk io) al →
        ∃ io' T, inode_released io ino = some (io', T) ∧
          inode_close io al l (some h)
            = some (io', release_all al T, l.filter (fun p => decide (p.1 ≠ h))) ∧
          T.Nodup ∧
          (∀ t, t ∈ T ↔ t = ino.sector ∨
            ∃ x, slot_live (bytes_to_sectors ino.block_data.size) x ∧
              slot_sector ino.block_data (disk io) x = t) ∧
          bytes_to_sectors ino.block_data.size = (ino.block_data.size.toNat + 511) / 512 ∧
          T.length = bytes_to_sectors ino.block_data.size
            + l1_count (bytes_to_sectors ino.block_data.size)
            + l2_count (bytes_to_sectors ino.block_data.size) + 1 ∧
          (release_all al T).free_map.length = al.free_map.length ∧
          (∀ t, in_use (release_all al T) t ↔ in_use al t ∧ t ∉ T) ∧
          free_count (release_all al T).free_map = free_count al.free_map + T.length ∧
          IoInv io' ∧ disk io' = disk io) ∧
    (∀ {io : Io} {al al1 : Alloc} (stack : inode_data) (pad uninit uninit2 : Nat → Nat)
        (l : InodeList) {sector : Nat} {length : Int} (is_directory : Bool), IoInv io →
        AllocInv al → (∀ k, al.malloc_ok k = true) →
        free_map_allocate al = some (al1, sector) →
        l.find? (fun p => decide (p.2.sector = sector)) = none →
        0 ≤ length → length ≤ MAX_BYTES →
        grow_need 0 (bytes_to_sectors length) ≤ free_count al1.free_map →
        ∃ io1 al2 io2 al3 h ino io3 al4 l4 io5 al5 h' ino' l6 io7 al7 l7,
          inode_create io al1 stack pad sector length is_directory = some (io1, al2, true) ∧
          inode_open io1 al2 l uninit sector = some (io2, al3, (h, ino) :: l, some h) ∧
          inode_close io2 al3 ((h, ino) :: l) (some h) = some (io3, al4, l4) ∧
          inode_open io3 al4 l4 uninit2 sector = some (io5, al5, (h', ino') :: l4, some h') ∧
          inode_remove ((h', ino') :: l4) h' = some l6 ∧
          inode_close io5 al5 l6 (some h') = some (io7, al7, l7) ∧
          free_count al5.free_map + (bytes_to_sectors length
            + l1_count (bytes_to_sectors length) + l2_count (bytes_to_sectors length) + 1)
            = free_count al.free_map ∧
          al7.free_map = al.free_map) := by
  constructor
  · intro io al l h ino hinv hal hget hcnt hrem hh
    obtain ⟨io', T, hrel, hrb, hinv', hd', _, hnd, hmem, hlen, r1, r2, r3, _, _⟩ :=
      inode_release_blocks_spec hinv hal hh
    have hsz := hh.file.size_max
    unfold MAX_BYTES at hsz
    refine ⟨io', T, hrel, ?_, hnd, hmem,
      bytes_to_sectors_eq hh.file.size_nonneg (by omega), hlen, r1, r2, r3, hinv', hd'⟩
    rw [inode_close_last_removed hget hcnt hrem, hrb]
    rfl
  · intro io al al1 stack pad uninit uninit2 l sector length is_directory hinv hal hm hfa
      hfresh h0 hmax hfree
    obtain ⟨hal1eq, hsfree⟩ := free_map_allocate_eq hfa
    subst hal1eq
    have hal1 : AllocInv { al with free_map := al.free_map.set sector true } := by
      unfold AllocInv at hal ⊢
      simpa using hal
    have hcnt1 := free_count_set_true al.free_map hsfree
    obtain ⟨io1, al2, d1, hcr, hinv1, hal2, hm2, hh1, hsize1, himg1, hmono1, hcnt2, hnew1⟩ :=
      inode_create_fresh stack pad is_directory hinv hal1 hm (in_use_set_self hsfree) h0 hmax
        hfree
    have hlen2 := inode_create_length hcr
    obtain ⟨io2, d2, hop, hinv2, hdisk2, _, _, _⟩ :=
      inode_open_slots l uninit hinv1 hal2 (hm2 _) hfresh hh1 himg1
    have hcl := @inode_close_last_kept io2 (malloc al2).1 _ al2.malloc_calls _
      (handle_get_head al2.malloc_calls (inode.mk sector 1 false 0 d2) l) rfl rfl
    have hl4 : ((al2.malloc_calls, inode.mk sector 1 false 0 d2) :: l).filter
        (fun p => decide (p.1 ≠ al2.malloc_calls))
        = l.filter (fun p => decide (p.1 ≠ al2.malloc_calls)) := by
      rw [List.filter_cons]
      simp
    rw [hl4] at hcl
    have hh2 : HandleInv (inode.mk sector 1 false 0 d1) (disk io2) (malloc al2).1 := by
      rw [hdisk2]
      exact HandleInv_alloc hh1 (fun _ h => h)
    obtain ⟨io5, d3, hop2, hinv5, hdisk5, hsize3, hh5, hslots⟩ :=
      @inode_open_slots io2 (malloc al2).1 (l.filter (fun p => decide (p.1 ≠ al2.malloc_calls)))
        uninit2 sector d1 pad hinv2 hal2 (hm2 _) (find_sector_filter _ hfresh) hh2
        (by rw [hdisk2]; exact himg1)
    have hget6 : handle_get
        (handle_update ((al2.malloc_calls + 1, inode.mk sector 1 false 0 d3)
          :: l.filter (fun p => decide (p.1 ≠ al2.malloc_calls))) (al2.malloc_calls + 1)
          (fun i => { i with removed := true })) (al2.malloc_calls + 1)
        = some (inode.mk sector 1 true 0 d3) := by
      unfold handle_get handle_update
      simp [List.find?_cons]
    have hrm : inode_remove ((al2.malloc_calls + 1, inode.mk sector 1 false 0 d3)
          :: l.filter (fun p => decide (p.1 ≠ al2.malloc_calls))) (al2.malloc_calls + 1)
        = some (handle_update ((al2.malloc_calls + 1, inode.mk sector 1 false 0 d3)
          :: l.filter (fun p => decide (p.1 ≠ al2.malloc_calls))) (al2.malloc_calls + 1)
          (fun i => { i with removed := true })) := by
      unfold inode_remove
      rw [handle_get_head]
    have hh6 : HandleInv (inode.mk sector 1 true 0 d3) (disk io5) (malloc (malloc al2).1).1 :=
      ⟨hh5.file, hh5.sector_used, hh5.sector_own⟩
    obtain ⟨io7, T, _, hrb, _, _, _, hnd, hmem, hlen, r1, r2, r3, _, _⟩ :=
      @inode_release_blocks_spec io5 (malloc (malloc al2).1).1 _ hinv5 hal2 hh6
    have hcl7 := @inode_close_last_removed io5 (malloc (malloc al2).1).1 _
      (al2.malloc_calls + 1) _ hget6 rfl rfl
    rw [hrb] at hcl7
    have hn3 : bytes_to_sectors (inode.mk sector 1 true 0 d3).block_data.size
        = bytes_to_sectors length := by
      show bytes_to_sectors d3.size = bytes_to_sectors length
      rw [hsize3, hsize1]
    rw [hn3] at hlen hmem
    have hcount : free_count (malloc (malloc al2).1).1.free_map
        + (bytes_to_sectors length + l1_count (bytes_to_sectors length)
          + l2_count (bytes_to_sectors length) + 1) = free_count al.free_map := by
      show free_count al2.free_map + _ = _
      have := grow_need_count (bytes_to_sectors length)
      simp only at hcnt2
      omega
    refine ⟨io1, al2, io2, (malloc al2).1, al2.malloc_calls, inode.mk sector 1 false 0 d2, io2,
      (malloc al2).1, _, io5, (malloc (malloc al2).1).1, al2.malloc_calls + 1,
      inode.mk sector 1 false 0 d3, _, io7, _, _, hcr, hop, hcl, hop2, hrm, hcl7, hcount, ?_⟩
    symm
    apply bitmap_eq_of_count
    · rw [r1]
      show al.free_map.length = al2.free_map.length
      rw [hlen2]
      simp
    · intro t ht
      have hin1 : in_use { al with free_map := al.free_map.set sector true } t :=
        in_use_set_true ht
      have hin : in_use (release_all (malloc (malloc al2).1).1 T) t := by
        rw [r2]
        refine ⟨hmono1 t hin1, ?_⟩
        intro hT
        rcases (hmem t).mp hT with e | ⟨x, hx, e⟩
        · have e' : t = sector := e
          rw [e', hsfree] at ht
          cases ht
        · have hs := hslots x (by rw [hsize1]; exact hx)
          rw [hdisk2] at hs
          have e' : slot_sector d3 (disk io5) x = t := e
          rw [hs] at e'
          rw [← e'] at hin1
          exact hnew1 x hx hin1
      exact hin
    · rw [r3, hlen]
      omega

/-- An instance of `inode_close_releases_blocks`: on an empty disk with 120 free sectors,
sector 2 is allocated for the inode of a file of 50000 bytes (98 data sectors, one L1 and one
L2 block); after create, open, close, open, remove and close the free map is the one of the
start. -/
theorem inode_close_releases_blocks_example :
    ∃ io1 al2 io2 al3 h ino io3 al4 l4 io5 al5 h' ino' l6 io7 al7 l7,
      inode_create fresh_io (Alloc.mk ((fresh_alloc 120).free_map.set 2 true) (fun _ => true) 0)
        (inode_data.mk true 7 (fun _ => 9) (fun _ => 9)) (fun _ => 0) 2 50000 false
        = some (io1, al2, true) ∧
      inode_open io1 al2 [] (fun _ => 0) 2 = some (io2, al3, [(h, ino)], some h) ∧
      inode_close io2 al3 [(h, ino)] (some h) = some (io3, al4, l4) ∧
      inode_open io3 al4 l4 (fun _ => 0) 2 = some (io5, al5, (h', ino') :: l4, some h') ∧
      inode_remove ((h', ino') :: l4) h' = some l6 ∧
      inode_close io5 al5 l6 (some h') = some (io7, al7, l7) ∧
      free_count al5.free_map + (bytes_to_sectors 50000 + l1_count (bytes_to_sectors 50000)
        + l2_count (bytes_to_sectors 50000) + 1) = free_count (fresh_alloc 120).free_map ∧
      al7.free_map = (fresh_alloc 120).free_map :=
  inode_close_releases_blocks.2 (inode_data.mk true 7 (fun _ => 9) (fun _ => 9))
    (fun _ => 0) (fun _ => 0) (fun _ => 0) [] false IoInv_fresh
    (AllocInv_fresh (show 120 + 2 ≤ SECTOR_NONE by decide)) (fun _ => rfl)
    (show free_map_allocate (fresh_alloc 120)
      = some (Alloc.mk ((fresh_alloc 120).free_map.set 2 true) (fun _ => true) 0, 2) from rfl)
    rfl (show (0 : Int) ≤ 50000 by decide) (by decide)
    (by
      rw [grow_need_count]
      have h1 : bytes_to_sectors (50000 : Int) = 98 := by decide
      rw [h1]
      have h2 : l1_count 98 = 1 := by decide
      have h3 : l2_count 98 = 1 := by decide
      have h4 := @free_count_set_true (fresh_alloc 120).free_map 2 (by simp [fresh_alloc])
      rw [free_count_fresh] at h4
      rw [h2, h3]
      show 98 + 1 + 1 ≤ free_count ((fresh_alloc 120).free_map.set 2 true)
      omega)

/-- The comparison `strcmp` finds a name that the memory holds with a NUL behind it. -/
theorem strcmp_eq_of_bytes (name : List Nat) : ∀ (s : Nat → Nat),
    (∀ i c, name[i]? = some c → s i % 256 = c) → s name.length % 256 = 0 →
    strcmp_eq name s = true := by
  induction name with
  | nil =>
    intro s _ h0
    simpa [strcmp_eq] using h0
  | cons c cs ih =>
    intro s hs h0
    unfold strcmp_eq
    have h1 : s 0 % 256 = c := hs 0 c (by simp)
    have h2 : strcmp_eq cs (ptr_add s 1) = true := by
      apply ih
      · intro i c' hi
        show s (1 + i) % 256 = c'
        rw [Nat.add_comm]
        exact hs (i + 1) c' (by simpa using hi)
      · show s (1 + cs.length) % 256 = 0
        rw [Nat.add_comm]
        exact h0
    simp [h1, h2]

/-- One iteration of the loop of `lookup` at an entry inside a well-formed directory: the
entry is read, and the loop ends when it is in use and has the name, or goes on behind it. -/
theorem lookup_loop_step {al : Alloc} (hal : AllocInv al) {ino : inode} {io : Io}
    (hinv : IoInv io) (hfile : FileInv ino.block_data (disk io) al) (name : List Nat)
    (e : Nat → Nat) (fuel i : Nat) {ofs : Int} (hofs : ofs = ((20 * i : Nat) : Int))
    (hi : ((20 * (i + 1) : Nat) : Int) ≤ ino.block_data.size) :
    ∃ io1 e1, IoInv io1 ∧ disk io1 = disk io ∧ io1.ticks = io.ticks ∧
      (∀ k, k < 20 → e1 k = file_byte ino.block_data (disk io) (20 * i + k)) ∧
      lookup_loop (fuel + 1) io ino name e ofs
        = if (dir_entry_in_use e1 && strcmp_eq name (ptr_add e1 4)) = true then
            some (io1, some (e1, ofs))
          else lookup_loop fuel io1 ino name e1 (((20 * (i + 1) : Nat) : Int)) := by
  have hmax := hfile.size_max
  unfold MAX_BYTES at hmax
  obtain ⟨io1, e1, hrd, hinv1, ht1, hd1, hbuf⟩ :=
    @inode_read_at_spec io al ino hinv hal hfile e 20 ((20 * i : Nat) : Int) (by decide)
      (by omega) (by push_cast at hi ⊢; omega)
  have hw : wrap_int ofs = ofs := wrap_int_of_range (by omega) (by push_cast at hi; omega)
  have hnext : size_t_add ofs ((20 : Nat) : Int) = ((20 * (i + 1) : Nat) : Int) := by
    unfold size_t_add
    push_cast at hi ⊢
    omega
  have h20 : to_u32 (20 : Int) = 20 := by unfold to_u32; omega
  rw [← hofs] at hrd
  refine ⟨io1, e1, hinv1, hd1, ht1, ?_, ?_⟩
  · intro k hk
    rw [hbuf k]
    simp only [Int.toNat_ofNat]
    rw [if_pos (by simpa using hk)]
  · rw [← hnext]
    conv_lhs => unfold lookup_loop
    unfold sizeof_dir_entry
    rw [hw]
    have hrd' : inode_read_at io ino e ((20 : Nat) : Int) ofs = some (io1, e1, 20) := hrd
    rw [hrd']
    simp only
    rw [h20, if_pos rfl]

/-- The loop of `lookup` on a well-formed directory that holds the name in entry `j`: it
finds an entry and changes nothing on the disk. -/
theorem lookup_loop_found {al : Alloc} (hal : AllocInv al) {ino : inode}
    {D : Nat → Nat → Nat} (hfile : FileInv ino.block_data D al) {name : List Nat}
    (hlen : name.length ≤ NAME_MAX) {j : Nat} (hj : dir_has_entry ino.block_data D name j) :
    ∀ m i fuel (io : Io) (e : Nat → Nat) (ofs : Int), IoInv io → disk io = D →
      ofs = ((20 * i : Nat) : Int) → i + m = j → m < fuel →
    ∃ io' r, lookup_loop fuel io ino name e ofs = some (io', some r) ∧
      IoInv io' ∧ disk io' = D ∧ io'.ticks = io.ticks := by
  obtain ⟨hj1, hj2, hj3, hj4⟩ := hj
  unfold sizeof_dir_entry at hj1 hj2 hj3 hj4
  unfold NAME_MAX at hlen
  intro m
  induction m with
  | zero =>
    intro i fuel io e ofs hinv hD hofs hi hf
    obtain ⟨f, rfl⟩ : ∃ f, fuel = f + 1 := ⟨fuel - 1, by omega⟩
    have hij : i = j := by omega
    subst hij
    subst hD
    obtain ⟨io1, e1, hinv1, hd1, ht1, hb, hstep⟩ :=
      lookup_loop_step hal hinv hfile name e f i hofs hj1
    have hin : dir_entry_in_use e1 = true := by
      unfold dir_entry_in_use
      rw [hb 19 (by omega)]
      simpa using hj2
    have hcmp : strcmp_eq name (ptr_add e1 4) = true := by
      apply strcmp_eq_of_bytes
      · intro t c ht
        have hlt : t < name.length := (List.getElem?_eq_some.mp ht).1
        show e1 (4 + t) % 256 = c
        rw [hb (4 + t) (by omega)]
        have e4 : 20 * i + (4 + t) = 20 * i + 4 + t := by omega
        rw [e4]
        exact hj3 t c ht
      · show e1 (4 + name.length) % 256 = 0
        rw [hb (4 + name.length) (by omega)]
        have e4 : 20 * i + (4 + name.length) = 20 * i + 4 + name.length := by omega
        rw [e4]
        exact hj4
    rw [hstep, hin, hcmp]
    exact ⟨io1, _, rfl, hinv1, hd1, ht1⟩
  | succ m ih =>
    intro i fuel io e ofs hinv hD hofs hi hf
    obtain ⟨f, rfl⟩ : ∃ f, fuel = f + 1 := ⟨fuel - 1, by omega⟩
    subst hD
    obtain ⟨io1, e1, hinv1, hd1, ht1, hb, hstep⟩ :=
      lookup_loop_step hal hinv hfile name e f i hofs (by push_cast at hj1 ⊢; omega)
    rw [hstep]
    by_cases hc : (dir_entry_in_use e1 && strcmp_eq name (ptr_add e1 4)) = true
    · rw [if_pos hc]
      exact ⟨io1, _, rfl, hinv1, hd1, ht1⟩
    · rw [if_neg hc]
      obtain ⟨io', r, hrun, hinv', hd', ht'⟩ :=
        ih (i + 1) f io1 e1 _ hinv1 hd1 rfl (by omega) (by omega)
      exact ⟨io', r, hrun, hinv', hd', by rw [ht', ht1]⟩

/-- C20: for every name that is empty or longer than `NAME_MAX` (14) bytes, `dir_add` returns
false and changes nothing at all; for every name of 1 to 14 bytes that a well-formed directory
already holds in an in-use entry, `dir_add` returns false, the inode of the directory (with its
size) and the allocator are unchanged, and the disk, hence every entry of the directory, is
the same as before. -/
theorem dir_add_rejects :
    (∀ (junk : Int) (io : Io) (al : Alloc) (pad uninit1 uninit2 : Nat → Nat) (a_dir : dir)
        (name : List Nat) (inode_sector : Nat), name = [] ∨ NAME_MAX < name.length →
        dir_add junk io al pad uninit1 uninit2 a_dir name inode_sector
          = some (io, al, a_dir, false)) ∧
    (∀ (junk : Int) {io : Io} {al : Alloc} (pad uninit1 uninit2 : Nat → Nat) {a_dir : dir}
        {name : List Nat} (inode_sector : Nat) {j : Nat}, IoInv io → AllocInv al →
        FileInv a_dir.inode.block_data (disk io) al → name ≠ [] → name.length ≤ NAME_MAX →
        dir_has_entry a_dir.inode.block_data (disk io) name j →
        ∃ io', dir_add junk io al pad uninit1 uninit2 a_dir name inode_sector
            = some (io', al, a_dir, false) ∧
          IoInv io' ∧ disk io' = disk io ∧
          (∀ p, file_byte a_dir.inode.block_data (disk io') p
            = file_byte a_dir.inode.block_data (disk io) p)) := by
  constructor
  · intro junk io al pad uninit1 uninit2 a_dir name inode_sector h
    unfold dir_add strlen
    rw [if_pos h]
  · intro junk io al pad uninit1 uninit2 a_dir name inode_sector j hinv hal hfile hne hlen hj
    have hj1 := hj.1
    have h0 := hfile.size_nonneg
    obtain ⟨io', r, hrun, hinv', hd', _⟩ :=
      lookup_loop_found hal hfile hlen hj j 0
        ((inode_length a_dir.inode).toNat / sizeof_dir_entry + 2) io uninit1 0 hinv rfl rfl
        (Nat.zero_add j) (by
          unfold inode_length sizeof_dir_entry at *
          have : 20 * (j + 1) ≤ a_dir.inode.block_data.size.toNat := by omega
          omega)
    refine ⟨io', ?_, hinv', hd', fun p => by rw [hd']⟩
    unfold dir_add strlen
    rw [if_neg (by
      intro h
      rcases h with h | h
      · exact hne h
      · omega)]
    unfold lookup
    rw [hrun]

theorem IoInv_dir : IoInv dir_io :=
  ⟨(buffer_cache_init_spec _ _).1, fun _ => by
    show INT64_MIN < (0 : Int) ∧ (0 : Int) < INT64_MAX
    decide⟩

theorem file_byte_small_dir {p : Nat} (hp : p < 512) :
    file_byte small_dir.inode.block_data (disk dir_io) p = dir_device 2 p := by
  have h0 : p / 512 = 0 := by omega
  have h1 : p % 512 = p := by omega
  unfold file_byte data_sector
  rw [h0, if_pos (by decide), h1]
  show disk dir_io 2 p = dir_device 2 p
  unfold disk
  rw [if_pos ⟨by decide, hp⟩]
  exact (buffer_cache_init_spec dir_device (fun _ _ => 0)).2 2 (by decide) p hp

theorem FileInv_small_dir : FileInv small_dir.inode.block_data (disk dir_io) small_alloc := by
  have hn : bytes_to_sectors small_dir.inode.block_data.size = 1 := by decide
  have hlive : ∀ x, slot_live 1 x → x = Slot.data 0 := by
    intro x hx
    cases x with
    | data i => simp only [slot_live] at hx; congr 1; omega
    | l1 k => simp only [slot_live] at hx; omega
    | l2 a => simp only [slot_live] at hx; omega
  have hsec : slot_sector small_dir.inode.block_data (disk dir_io) (Slot.data 0) = 2 := rfl
  refine ⟨by decide, by decide, ?_, ?_⟩
  · rw [hn]
    constructor
    · intro x hx
      rw [hlive x hx, hsec]
      decide
    · intro x y hx hy _
      rw [hlive x hx, hlive y hy]
  · intro p hp1 hp2
    rw [hn] at hp2
    have hp20 : 20 ≤ p := hp1
    rw [file_byte_small_dir (by omega)]
    unfold dir_device
    rw [if_pos rfl, if_neg (by omega), if_neg (by omega), if_neg (by omega)]

theorem small_dir_has_entry :
    dir_has_entry small_dir.inode.block_data (disk dir_io) [97] 0 := by
  refine ⟨by decide, ?_, ?_, ?_⟩
  · rw [file_byte_small_dir (by decide)]
    decide
  · intro i c hi
    have hi0 : i = 0 := by
      have := (List.getElem?_eq_some.mp hi).1
      simpa using this
    subst hi0
    simp only [List.getElem?_cons_zero, Option.some.injEq] at hi
    subst hi
    rw [file_byte_small_dir (by decide)]
    decide
  · rw [file_byte_small_dir (by decide)]
    decide

/-- Witness for C20: the empty name, a name of 15 bytes, and the name "a" on a directory that
holds an entry "a". -/
theorem dir_add_rejects_witness :
    dir_add 0 fresh_io (fresh_alloc 3) (fun _ => 0) (fun _ => 0) (fun _ => 0) small_dir [] 3
      = some (fresh_io, fresh_alloc 3, small_dir, false) ∧
    dir_add 0 fresh_io (fresh_alloc 3) (fun _ => 0) (fun _ => 0) (fun _ => 0) small_dir
        (List.replicate 15 97) 3
      = some (fresh_io, fresh_alloc 3, small_dir, false) ∧
    ∃ io', dir_add 0 dir_io small_alloc (fun _ => 0) (fun _ => 0) (fun _ => 0) small_dir [97] 3
        = some (io', small_alloc, small_dir, false) ∧
      IoInv io' ∧ disk io' = disk dir_io ∧
      (∀ p, file_byte small_dir.inode.block_data (disk io') p
        = file_byte small_dir.inode.block_data (disk dir_io) p) :=
  ⟨dir_add_rejects.1 0 fresh_io (fresh_alloc 3) (fun _ => 0) (fun _ => 0) (fun _ => 0) small_dir
      [] 3 (Or.inl rfl),
    dir_add_rejects.1 0 fresh_io (fresh_alloc 3) (fun _ => 0) (fun _ => 0) (fun _ => 0) small_dir
      (List.replicate 15 97) 3 (Or.inr (by decide)),
    dir_add_rejects.2 0 (fun _ => 0) (fun _ => 0) (fun _ => 0) 3 IoInv_dir
      (show AllocInv small_alloc by decide) FileInv_small_dir (by decide) (by decide)
      small_dir_has_entry⟩

theorem skip_slashes_eq (s : List Nat) :
    skip_slashes s = s.dropWhile (fun c => decide (c = SLASH)) := by
  induction s with
  | nil => rfl
  | cons c cs ih =>
    unfold skip_slashes
    by_cases h : c = SLASH
    · rw [if_pos h, ih, List.dropWhile_cons_of_pos (by simpa using h)]
    · rw [if_neg h, List.dropWhile_cons_of_neg (by simpa using h)]

theorem skip_slashes_replicate (k : Nat) (s : List Nat) :
    skip_slashes (List.replicate k SLASH ++ s) = skip_slashes s := by
  induction k with
  | zero => rfl
  | succ k ih =>
    rw [List.replicate_succ, List.cons_append]
    have h : skip_slashes (SLASH :: (List.replicate k SLASH ++ s))
        = skip_slashes (List.replicate k SLASH ++ s) := by
      conv_lhs => unfold skip_slashes
      rw [if_pos rfl]
    rw [h, ih]

/-- The second loop of `get_next_part`: it copies the characters before the next `'/'` when
they fit in the buffer, and gives up otherwise. -/
theorem copy_part_spec (r : List Nat) : ∀ (part : Nat → Nat) (n : Nat),
    (n + (r.takeWhile (fun c => decide (c ≠ SLASH))).length ≤ NAME_MAX →
      ∃ part1, copy_part r part n
          = (part1, n + (r.takeWhile (fun c => decide (c ≠ SLASH))).length,
              r.dropWhile (fun c => decide (c ≠ SLASH)), true) ∧
        (∀ i, i < n → part1 i = part i) ∧
        (∀ i, n + (r.takeWhile (fun c => decide (c ≠ SLASH))).length ≤ i → part1 i = part i) ∧
        (∀ i c, (r.takeWhile (fun c => decide (c ≠ SLASH)))[i]? = some c → part1 (n + i) = c)) ∧
    (NAME_MAX < n + (r.takeWhile (fun c => decide (c ≠ SLASH))).length → n ≤ NAME_MAX →
      (copy_part r part n).2.2.2 = false) := by
  induction r with
  | nil =>
    intro part n
    refine ⟨fun _ => ⟨part, rfl, fun _ _ => rfl, fun _ _ => rfl, ?_⟩, ?_⟩
    · intro i c h
      simp at h
    · intro h1 h2
      simp at h1
      omega
  | cons c cs ih =>
    intro part n
    by_cases hc : c = SLASH
    · have ht : (c :: cs).takeWhile (fun c => decide (c ≠ SLASH)) = [] := by
        rw [List.takeWhile_cons_of_neg (by simpa using hc)]
      have hd : (c :: cs).dropWhile (fun c => decide (c ≠ SLASH)) = c :: cs := by
        rw [List.dropWhile_cons_of_neg (by simpa using hc)]
      rw [ht, hd]
      unfold copy_part
      rw [if_pos hc]
      refine ⟨fun _ => ⟨part, rfl, fun _ _ => rfl, fun _ _ => rfl, ?_⟩, ?_⟩
      · intro i c' h
        simp at h
      · intro h1 h2
        simp at h1
        omega
    · have ht : (c :: cs).takeWhile (fun c => decide (c ≠ SLASH))
          = c :: cs.takeWhile (fun c => decide (c ≠ SLASH)) := by
        rw [List.takeWhile_cons_of_pos (by simpa using hc)]
      have hd : (c :: cs).dropWhile (fun c => decide (c ≠ SLASH))
          = cs.dropWhile (fun c => decide (c ≠ SLASH)) := by
        rw [List.dropWhile_cons_of_pos (by simpa using hc)]
      rw [ht, hd, List.length_cons]
      unfold copy_part
      rw [if_neg hc]
      obtain ⟨ih1, ih2⟩ := ih (Function.update part n c) (n + 1)
      constructor
      · intro hle
        rw [if_pos (by omega)]
        obtain ⟨part1, hrun, hlow, hhigh, hmid⟩ := ih1 (by omega)
        refine ⟨part1, ?_, ?_, ?_, ?_⟩
        · rw [hrun]
          have e : n + 1 + (cs.takeWhile (fun c => decide (c ≠ SLASH))).length
              = n + ((cs.takeWhile (fun c => decide (c ≠ SLASH))).length + 1) := by omega
          rw [e]
        · intro i hi
          rw [hlow i (by omega), Function.update_noteq (by omega)]
        · intro i hi
          rw [hhigh i (by omega), Function.update_noteq (by omega)]
        · intro i c' hi
          cases i with
          | zero =>
            simp only [List.getElem?_cons_zero, Option.some.injEq] at hi
            subst hi
            rw [Nat.add_zero, hlow n (by omega), Function.update_same]
          | succ j =>
            simp only [List.getElem?_cons_succ] at hi
            have := hmid j c' hi
            have e : n + 1 + j = n + (j + 1) := by omega
            rw [e] at this
            exact this
      · intro hgt hn
        by_cases hlt : n < NAME_MAX
        · rw [if_pos hlt]
          exact ih2 (by omega) (by omega)
        · rw [if_neg hlt]

theorem dropWhile_slash_cons {s : List Nat} {c : Nat} {cs : List Nat}
    (h : s.dropWhile (fun c => decide (c = SLASH)) = c :: cs) : c ≠ SLASH := by
  intro hc
  have := List.head_dropWhile_not (fun c => decide (c = SLASH)) s (by rw [h]; simp)
  simp only [h, List.head_cons] at this
  simp [hc] at this

theorem bytes_of_eq_of_get (buf : Nat → Nat) (l : List Nat)
    (h : ∀ i c, l[i]? = some c → buf i = c) : bytes_of buf l.length = l := by
  unfold bytes_of
  apply List.ext_getElem?
  intro i
  by_cases hi : i < l.length
  · rw [List.getElem?_map, List.getElem?_range hi, List.getElem?_eq_getElem hi]
    simp only [Option.map_some', Option.some.injEq]
    exact h i _ (List.getElem?_eq_getElem hi)
  · rw [List.getElem?_eq_none (by simpa using hi), List.getElem?_eq_none (by omega)]

/-- The function `get_next_part` by cases: with `r` the string behind its leading slashes,
`run` the characters of `r` before the next `'/'` and `rest` what follows them. -/
theorem get_next_part_cases (part : Nat → Nat) (s : List Nat) :
    (s.dropWhile (fun c => decide (c = SLASH)) = [] → get_next_part part s = (0, part, s)) ∧
    (s.dropWhile (fun c => decide (c = SLASH)) ≠ [] →
      NAME_MAX < ((s.dropWhile (fun c => decide (c = SLASH))).takeWhile
        (fun c => decide (c ≠ SLASH))).length →
      (get_next_part part s).1 = -1 ∧ (get_next_part part s).2.2 = s) ∧
    (s.dropWhile (fun c => decide (c = SLASH)) ≠ [] →
      ((s.dropWhile (fun c => decide (c = SLASH))).takeWhile
        (fun c => decide (c ≠ SLASH))).length ≤ NAME_MAX →
      ∃ part1, get_next_part part s
          = (1, part1, (s.dropWhile (fun c => decide (c = SLASH))).dropWhile
              (fun c => decide (c ≠ SLASH))) ∧
        (s.dropWhile (fun c => decide (c = SLASH))).takeWhile (fun c => decide (c ≠ SLASH))
          ≠ [] ∧
        bytes_of part1 ((s.dropWhile (fun c => decide (c = SLASH))).takeWhile
            (fun c => decide (c ≠ SLASH))).length
          = (s.dropWhile (fun c => decide (c = SLASH))).takeWhile
              (fun c => decide (c ≠ SLASH)) ∧
        part1 ((s.dropWhile (fun c => decide (c = SLASH))).takeWhile
            (fun c => decide (c ≠ SLASH))).length = 0 ∧
        (∀ i, ((s.dropWhile (fun c => decide (c = SLASH))).takeWhile
            (fun c => decide (c ≠ SLASH))).length < i → part1 i = part i)) := by
  generalize hr : s.dropWhile (fun c => decide (c = SLASH)) = r
  have hsk : skip_slashes s = r := by rw [skip_slashes_eq, hr]
  refine ⟨?_, ?_, ?_⟩
  · intro h
    unfold get_next_part
    rw [hsk, h]
  · intro hne hlong
    cases r with
    | nil => exact absurd rfl hne
    | cons c cs =>
      have h2 := (copy_part_spec (c :: cs) part 0).2 (by omega) (Nat.zero_le _)
      unfold get_next_part
      rw [hsk]
      simp only
      generalize copy_part (c :: cs) part 0 = q at h2
      obtain ⟨p1, n1, r1, b1⟩ := q
      simp only at h2
      subst h2
      exact ⟨rfl, rfl⟩
  · intro hne hshort
    cases r with
    | nil => exact absurd rfl hne
    | cons c cs =>
      obtain ⟨part1, hrun, _, hhigh, hmid⟩ :=
        (copy_part_spec (c :: cs) part 0).1 (by omega)
      rw [Nat.zero_add] at hrun hhigh
      have hc := dropWhile_slash_cons hr
      have hne' : (c :: cs).takeWhile (fun c => decide (c ≠ SLASH)) ≠ [] := by
        rw [List.takeWhile_cons_of_pos (by simpa using hc)]
        exact List.cons_ne_nil _ _
      refine ⟨Function.update part1 ((c :: cs).takeWhile (fun c => decide (c ≠ SLASH))).length 0,
        ?_, hne', ?_, Function.update_same _ _ _, ?_⟩
      · unfold get_next_part
        rw [hsk]
        simp only [hrun]
      · apply bytes_of_eq_of_get
        intro i c' hi
        have hlt := (List.getElem?_eq_some.mp hi).1
        rw [Function.update_noteq (by omega)]
        have := hmid i c' hi
        rw [Nat.zero_add] at this
        exact this
      · intro i hi
        rw [Function.update_noteq (by omega), hhigh i (by omega)]

theorem first_run_no_slash (s : List Nat) : SLASH ∉ first_run s := by
  intro h
  have := List.mem_takeWhile_imp h
  simp at this

theorem first_run_sublist (s : List Nat) : ∀ c ∈ first_run s, c ∈ s := by
  intro c hc
  have h1 : c ∈ after_slashes s := (List.takeWhile_sublist _).subset hc
  exact (List.dropWhile_sublist _).subset h1

theorem after_run_sublist (s : List Nat) : ∀ c ∈ after_run s, c ∈ s := by
  intro c hc
  have h1 : c ∈ after_slashes s := (List.dropWhile_sublist _).subset hc
  exact (List.dropWhile_sublist _).subset h1

theorem first_run_nil_of_empty {s : List Nat} (h : after_slashes s = []) : first_run s = [] := by
  unfold first_run
  rw [h]
  rfl

/-- The three results of `get_next_part`, by the first component of the path. -/
theorem get_next_part_result (part : Nat → Nat) (s : List Nat) :
    (after_slashes s = [] → get_next_part part s = (0, part, s)) ∧
    (after_slashes s ≠ [] → NAME_MAX < (first_run s).length →
      (get_next_part part s).1 = -1 ∧ (get_next_part part s).2.2 = s) ∧
    (after_slashes s ≠ [] → (first_run s).length ≤ NAME_MAX →
      ∃ part1, get_next_part part s = (1, part1, after_run s) ∧ first_run s ≠ [] ∧
        bytes_of part1 (first_run s).length = first_run s ∧
        part1 (first_run s).length = 0 ∧
        (∀ i, (first_run s).length < i → part1 i = part i)) :=
  get_next_part_cases part s

theorem after_slashes_replicate (k : Nat) (s : List Nat) :
    after_slashes (List.replicate k SLASH ++ s) = after_slashes s := by
  unfold after_slashes
  rw [← skip_slashes_eq, ← skip_slashes_eq, skip_slashes_replicate]

/-- Leading slashes do not change what `get_next_part` returns. -/
theorem get_next_part_replicate (part : Nat → Nat) (k : Nat) (s : List Nat) :
    (get_next_part part (List.replicate k SLASH ++ s)).1 = (get_next_part part s).1 ∧
    (get_next_part part (List.replicate k SLASH ++ s)).2.1 = (get_next_part part s).2.1 ∧
    ((get_next_part part s).1 = 1 →
      (get_next_part part (List.replicate k SLASH ++ s)).2.2 = (get_next_part part s).2.2) := by
  unfold get_next_part
  rw [skip_slashes_replicate]
  cases skip_slashes s with
  | nil =>
    refine ⟨rfl, rfl, ?_⟩
    intro h
    simp at h
  | cons c cs =>
    simp only
    generalize copy_part (c :: cs) part 0 = q
    obtain ⟨p1, n1, r1, b1⟩ := q
    cases b1 with
    | false =>
      refine ⟨rfl, rfl, ?_⟩
      intro h
      simp at h
    | true => exact ⟨rfl, rfl, fun _ => rfl⟩

theorem path_parts_replicate (fuel : Nat) (part : Nat → Nat) (k : Nat) (s : List Nat) :
    path_parts fuel part (List.replicate k SLASH ++ s) = path_parts fuel part s := by
  cases fuel with
  | zero => rfl
  | succ fuel =>
    obtain ⟨h1, h2, h3⟩ := get_next_part_replicate part k s
    unfold path_parts
    generalize get_next_part part (List.replicate k SLASH ++ s) = a at h1 h2 h3
    generalize get_next_part part s = b at h1 h2 h3
    obtain ⟨ra, pa, sa⟩ := a
    obtain ⟨rb, pb, sb⟩ := b
    simp only at h1 h2 h3 ⊢
    subst h1 h2
    by_cases c0 : ra = 0
    · rw [if_pos c0, if_pos c0]
    · rw [if_neg c0, if_neg c0]
      by_cases c1 : ra = 1
      · rw [if_pos c1, if_pos c1, h3 c1]
      · rw [if_neg c1, if_neg c1]

theorem bytes_of_split (buf : Nat → Nat) {n m : Nat} (h : n ≤ m) :
    bytes_of buf m = bytes_of buf n ++ (List.range' n (m - n)).map buf := by
  unfold bytes_of
  rw [← List.map_append]
  congr 1
  rw [List.range_eq_range', List.range_eq_range']
  have key := List.range'_append_1 0 n (m - n)
  rw [Nat.zero_add] at key
  rw [key]
  congr 1
  omega

/-- A name of at most 14 characters, stored with a NUL behind it, is read back from the
buffer as it is. -/
theorem read_back_part {part1 : Nat → Nat} {run : List Nat} {size : Nat}
    (hlen : run.length < size) (hb : bytes_of part1 run.length = run)
    (h0 : part1 run.length = 0) (hnz : CStr run) : c_string part1 size = run := by
  unfold c_string
  rw [bytes_of_split part1 (Nat.le_of_lt hlen), hb, List.map_append]
  have hmap : run.map (fun c => c % 256) = run := by
    conv_rhs => rw [← List.map_id run]
    apply List.map_congr_left
    intro c hc
    exact Nat.mod_eq_of_lt (hnz c hc).2
  rw [hmap]
  rw [List.takeWhile_append_of_pos (by
    intro c hc
    have := (hnz c hc).1
    simp only [ne_eq, decide_eq_true_eq]
    omega)]
  have htail : (((List.range' run.length (size - run.length)).map part1).map
      (fun c => c % 256)).takeWhile (fun c => decide (c ≠ 0)) = [] := by
    cases hm : size - run.length with
    | zero => omega
    | succ m =>
      rw [List.range'_succ, List.map_cons, List.map_cons, h0]
      rfl
  rw [htail, List.append_nil]

theorem CStr_of_sublist {s t : List Nat} (h : ∀ c ∈ t, c ∈ s) (hs : CStr s) : CStr t :=
  fun c hc => hs c (h c hc)

/-- The components that `get_next_part` gives on a string are not empty, hold no `'/'` and
are at most 14 bytes long. -/
theorem path_parts_nonempty (fuel : Nat) : ∀ (part : Nat → Nat) (s : List Nat),
    CStr s → ∀ ps, path_parts fuel part s = some ps →
    ∀ p ∈ ps, p ≠ [] ∧ SLASH ∉ p ∧ p.length ≤ NAME_MAX := by
  induction fuel with
  | zero =>
    intro part s _ ps h
    simp [path_parts] at h
  | succ fuel ih =>
    intro part s hnz ps h
    unfold path_parts at h
    obtain ⟨g0, g1, g2⟩ := get_next_part_result part s
    by_cases hr : after_slashes s = []
    · rw [g0 hr] at h
      simp only [if_true, Option.some.injEq] at h
      subst h
      intro p hp
      cases hp
    · by_cases hl : (first_run s).length ≤ NAME_MAX
      · obtain ⟨part1, hrun, hne, hb, hz, _⟩ := g2 hr hl
        rw [hrun] at h
        simp only [one_ne_zero, if_false, if_true] at h
        rw [read_back_part (Nat.lt_succ_of_le hl) hb hz
          (CStr_of_sublist (first_run_sublist s) hnz)] at h
        cases hrest : path_parts fuel part1 (after_run s) with
        | none => rw [hrest] at h; cases h
        | some rest =>
          rw [hrest] at h
          simp only [Option.map_some', Option.some.injEq] at h
          subst h
          intro p hp
          rcases List.mem_cons.mp hp with rfl | hp'
          · exact ⟨hne, first_run_no_slash s, hl⟩
          · exact ih part1 (after_run s) (CStr_of_sublist (after_run_sublist s) hnz) rest
              hrest p hp'
      · obtain ⟨hm1, _⟩ := g1 hr (by omega)
        generalize get_next_part part s = q at h hm1
        obtain ⟨rq, pq, sq⟩ := q
        simp only at h hm1
        subst hm1
        rw [if_neg (by decide), if_neg (by decide)] at h
        cases h

/-- C26: `get_next_part` skips all leading `'/'`, and then returns 0 exactly when nothing is
left; returns -1 exactly when the next maximal run of characters other than `'/'` is longer
than `NAME_MAX` (14), with the source pointer not advanced; and otherwise returns 1 with
`part` holding that run (not empty, without `'/'`) and a NUL behind it and the source pointer
just behind the run. Leading slashes change neither the result nor the sequence of the
components, and no component is empty. -/
theorem get_next_part_splits (part : Nat → Nat) (s : List Nat) :
    ((get_next_part part s).1 = 0 ↔ after_slashes s = []) ∧
    ((get_next_part part s).1 = -1 ↔ NAME_MAX < (first_run s).length) ∧
    ((get_next_part part s).1 = -1 → (get_next_part part s).2.2 = s) ∧
    ((get_next_part part s).1 ≠ 0 → (get_next_part part s).1 ≠ -1 →
      (get_next_part part s).1 = 1 ∧ first_run s ≠ [] ∧ SLASH ∉ first_run s ∧
      bytes_of (get_next_part part s).2.1 (first_run s).length = first_run s ∧
      (get_next_part part s).2.1 (first_run s).length = 0 ∧
      (get_next_part part s).2.2 = after_run s) ∧
    (∀ k, (get_next_part part (List.replicate k SLASH ++ s)).1 = (get_next_part part s).1 ∧
      (get_next_part part (List.replicate k SLASH ++ s)).2.1 = (get_next_part part s).2.1 ∧
      ((get_next_part part s).1 = 1 →
        (get_next_part part (List.replicate k SLASH ++ s)).2.2
          = (get_next_part part s).2.2)) ∧
    (∀ fuel k, path_parts fuel part (List.replicate k SLASH ++ s) = path_parts fuel part s) ∧
    (CStr s → ∀ fuel ps, path_parts fuel part s = some ps →
      ∀ p ∈ ps, p ≠ [] ∧ SLASH ∉ p ∧ p.length ≤ NAME_MAX) := by
  obtain ⟨g0, g1, g2⟩ := get_next_part_result part s
  have hcases : (after_slashes s = [] ∧ get_next_part part s = (0, part, s)) ∨
      (after_slashes s ≠ [] ∧ NAME_MAX < (first_run s).length ∧
        (get_next_part part s).1 = -1 ∧ (get_next_part part s).2.2 = s) ∨
      (after_slashes s ≠ [] ∧ (first_run s).length ≤ NAME_MAX ∧
        ∃ part1, get_next_part part s = (1, part1, after_run s) ∧ first_run s ≠ [] ∧
          bytes_of part1 (first_run s).length = first_run s ∧
          part1 (first_run s).length = 0) := by
    by_cases hr : after_slashes s = []
    · exact Or.inl ⟨hr, g0 hr⟩
    · by_cases hl : (first_run s).length ≤ NAME_MAX
      · obtain ⟨part1, h1, h2, h3, h4, _⟩ := g2 hr hl
        exact Or.inr (Or.inr ⟨hr, hl, part1, h1, h2, h3, h4⟩)
      · exact Or.inr (Or.inl ⟨hr, by omega, g1 hr (by omega)⟩)
  refine ⟨?_, ?_, ?_, ?_, fun k => get_next_part_replicate part k s,
    fun fuel k => path_parts_replicate fuel part k s,
    fun hnz fuel ps h => path_parts_nonempty fuel part s hnz ps h⟩
  · rcases hcases with ⟨hr, h⟩ | ⟨hr, _, h, _⟩ | ⟨hr, _, part1, h, _⟩
    · rw [h]; exact ⟨fun _ => hr, fun _ => rfl⟩
    · rw [h]; exact ⟨fun c => (by cases c), fun c => absurd c hr⟩
    · rw [h]; exact ⟨fun c => (by cases c), fun c => absurd c hr⟩
  · rcases hcases with ⟨hr, h⟩ | ⟨hr, hl, h, _⟩ | ⟨hr, hl, part1, h, _⟩
    · rw [h, first_run_nil_of_empty hr]
      exact ⟨fun c => (by cases c), fun c => by simp at c⟩
    · rw [h]; exact ⟨fun _ => hl, fun _ => rfl⟩
    · rw [h]; exact ⟨fun c => (by cases c), fun c => by omega⟩
  · rcases hcases with ⟨hr, h⟩ | ⟨hr, hl, _, h⟩ | ⟨hr, hl, part1, h, _⟩
    · rw [h]; intro c; cases c
    · exact fun _ => h
    · rw [h]; intro c; cases c
  · rcases hcases with ⟨hr, h⟩ | ⟨hr, hl, h, _⟩ | ⟨hr, hl, part1, h, h2, h3, h4⟩
    · rw [h]; intro c; exact absurd rfl c
    · intro _ c; exact absurd h c
    · rw [h]
      intro _ _
      exact ⟨rfl, h2, first_run_no_slash s, h3, h4, rfl⟩

/-! ## Path lookup (`dir_lookup`, `filesys_search`) -/

/-- The loop of `dir_lookup` at a component of more than `NAME_MAX` bytes: `get_next_part`
returns -1 and the assertion `res != -1` fails, in every state. -/
theorem dir_lookup_loop_long (fuel : Nat) (io : Io) (al : Alloc) (l : InodeList)
    (uninit : Nat → Nat) (a_dir : dir_handle) (next : Option Nat) (next_is_dir : Bool)
    (name_local : Nat → Nat) (name_full : List Nat)
    (h : NAME_MAX < (first_run name_full).length) :
    dir_lookup_loop (fuel + 1) io al l uninit a_dir next next_is_dir name_local name_full
      = none := by
  have h1 : (get_next_part name_local name_full).1 = -1 :=
    ((get_next_part_result name_local name_full).2.1 (fun h0 => by
      unfold first_run at h
      rw [h0] at h
      simp at h) h).1
  unfold dir_lookup_loop dir_lookup_step
  generalize get_next_part name_local name_full = q at h1
  obtain ⟨res, p, r⟩ := q
  simp only at h1
  subst h1
  simp

/-- C27 (the code at the failing input): in the small tree, `dir_lookup` from the root on a
path of one component of 15 bytes does not return: the assertion `res != -1` fails. On the
path "a" it returns `DIR_LOOKUP_NOT_FOUND`. -/
theorem dir_lookup_long_component :
    tree_lookup (List.replicate 15 97) = none ∧
    tree_lookup [97] = some (DIR_LOOKUP_NOT_FOUND, none) := by
  constructor <;> decide!

/-- C28 (the code at the failing input): in the small tree, where "f" is a regular file in
the directory "d", `dir_lookup` from the root on "d/f" returns `DIR_LOOKUP_FOUND_DIR` with the
inode of sector 5, whose `inode_is_dir` is false; on "d" it returns `DIR_LOOKUP_FOUND_DIR`
with the directory inode of sector 3. -/
theorem dir_lookup_file_in_directory :
    tree_lookup [100, 47, 102] = some (DIR_LOOKUP_FOUND_DIR, some (false, 5)) ∧
    tree_lookup [100] = some (DIR_LOOKUP_FOUND_DIR, some (true, 3)) := by
  constructor <;> decide!

/-- C29 (the code at the failing input): in the small tree, where "f" and "x" are regular
files in the directory "d", `dir_lookup` from the root on "d/f/x" returns a found result with
the inode of "d/x" (sector 6), the same as on "d/x". -/
theorem dir_lookup_through_file :
    tree_lookup [100, 47, 102, 47, 120] = some (DIR_LOOKUP_FOUND_DIR, some (false, 6)) ∧
    tree_lookup [100, 47, 120] = some (DIR_LOOKUP_FOUND_DIR, some (false, 6)) := by
  constructor <;> decide!

/-- C30 (the code at the failing input): in the small tree, where "f" is a regular file in
the directory "d", `filesys_search` on "d/f" returns the inode of sector 5, which is not a
directory, when a directory is wanted, and `NULL` when a file is wanted. -/
theorem filesys_search_file_in_directory :
    tree_search [100, 47, 102] FILESYS_SEARCH_TYPE_DIR = some (some (false, 5)) ∧
    tree_search [100, 47, 102] FILESYS_SEARCH_TYPE_FILE = some none := by
  constructor <;> decide!

/-! ## Reading the entries of a directory -/

theorem first_match_some {p : Nat → Bool} : ∀ {m i j : Nat}, first_match p i m = some j →
    i ≤ j ∧ j < i + m ∧ p j = true ∧ ∀ k, i ≤ k → k < j → p k = false := by
  intro m
  induction m with
  | zero =>
    intro i j h
    simp [first_match] at h
  | succ m ih =>
    intro i j h
    unfold first_match at h
    by_cases c : p i = true
    · rw [if_pos c] at h
      have e : i = j := Option.some.inj h
      subst e
      exact ⟨Nat.le_refl _, by omega, c, fun k h1 h2 => by omega⟩
    · rw [if_neg c] at h
      obtain ⟨h1, h2, h3, h4⟩ := ih h
      refine ⟨by omega, by omega, h3, fun k hk1 hk2 => ?_⟩
      by_cases e : k = i
      · subst e
        simpa using c
      · exact h4 k (by omega) hk2

theorem first_match_none {p : Nat → Bool} : ∀ {m i : Nat},
    first_match p i m = none ↔ ∀ k, i ≤ k → k < i + m → p k = false := by
  intro m
  induction m with
  | zero =>
    intro i
    simp only [first_match, true_iff]
    intro k h1 h2
    omega
  | succ m ih =>
    intro i
    unfold first_match
    by_cases c : p i = true
    · rw [if_pos c]
      constructor
      · intro h
        cases h
      · intro h
        have := h i (Nat.le_refl _) (by omega)
        rw [c] at this
        cases this
    · rw [if_neg c, ih]
      constructor
      · intro h k h1 h2
        by_cases e : k = i
        · subst e
          simpa using c
        · exact h k (by omega) (by omega)
      · intro h k h1 h2
        exact h k (by omega) (by omega)

theorem first_match_of {p : Nat → Bool} : ∀ {m i j : Nat}, i ≤ j → j < i + m → p j = true →
    (∀ k, i ≤ k → k < j → p k = false) → first_match p i m = some j := by
  intro m
  induction m with
  | zero =>
    intro i j h1 h2
    omega
  | succ m ih =>
    intro i j h1 h2 h3 h4
    unfold first_match
    by_cases e : i = j
    · subst e
      rw [if_pos h3]
    · have c : ¬ p i = true := by
        rw [h4 i (Nat.le_refl _) (by omega)]
        decide
      rw [if_neg c]
      exact ih (by omega) (by omega) h3 (fun k hk1 hk2 => h4 k (by omega) hk2)

/-- Two searches give the same result when the tests agree below the shorter bound and the
second test fails from there on. -/
theorem first_match_congr {p q : Nat → Bool} {m n i : Nat} (hmn : m ≤ n)
    (h1 : ∀ k, i ≤ k → k < i + m → q k = p k)
    (h2 : ∀ k, i + m ≤ k → k < i + n → q k = false) :
    first_match q i n = first_match p i m := by
  cases hp : first_match p i m with
  | none =>
    rw [first_match_none] at hp ⊢
    intro k hk1 hk2
    by_cases c : k < i + m
    · rw [h1 k hk1 c]
      exact hp k hk1 c
    · exact h2 k (by omega) hk2
  | some j =>
    obtain ⟨a1, a2, a3, a4⟩ := first_match_some hp
    refine first_match_of a1 (by omega) ?_ ?_
    · rw [h1 j a1 a2]
      exact a3
    · intro k hk1 hk2
      rw [h1 k hk1 (by omega)]
      exact a4 k hk1 hk2

theorem entry_buf_tail (d : inode_data) (D : Nat → Nat → Nat) (i : Nat) {e u : Nat → Nat}
    (h : ∀ k, sizeof_dir_entry ≤ k → e k = u k) : entry_buf d D i e = entry_buf d D i u := by
  funext k
  unfold entry_buf
  by_cases c : k < sizeof_dir_entry
  · rw [if_pos c, if_pos c]
  · rw [if_neg c, if_neg c]
    exact h k (by omega)

theorem entry_buf_ge (d : inode_data) (D : Nat → Nat → Nat) (i : Nat) (u : Nat → Nat)
    {k : Nat} (h : sizeof_dir_entry ≤ k) : entry_buf d D i u k = u k := by
  unfold entry_buf
  rw [if_neg (by omega)]

theorem entry_buf_lt (d : inode_data) (D : Nat → Nat → Nat) (i : Nat) (u : Nat → Nat)
    {k : Nat} (h : k < 20) : entry_buf d D i u k = file_byte d D (20 * i + k) := by
  unfold entry_buf sizeof_dir_entry
  rw [if_pos h]

theorem entry_count_lt {d : inode_data} (h0 : 0 ≤ d.size) {i : Nat} :
    i < entry_count d ↔ ((20 * (i + 1) : Nat) : Int) ≤ d.size := by
  unfold entry_count sizeof_dir_entry
  have h1 := Nat.div_add_mod d.size.toNat 20
  have h2 := Nat.mod_lt d.size.toNat (show 20 > 0 by decide)
  omega

/-- A read past the end of the file: `inode_read_at` returns 0 and changes nothing. -/
theorem inode_read_at_beyond {io : Io} {ino : inode} (buffer : Nat → Nat)
    {size offset : Int} (hs : 0 ≤ size) (ho : 0 ≤ offset) (hno : offset + size < 2147483648)
    (h : inode_length ino < offset + size) :
    inode_read_at io ino buffer size offset = some (io, buffer, 0) := by
  unfold inode_read_at
  simp only
  rw [wrap_int_of_range (by omega) (by omega), if_pos h]

/-- Reading entry number `i` of a well-formed directory into `e`. -/
theorem read_entry {al : Alloc} (hal : AllocInv al) {ino : inode} {io : Io}
    (hinv : IoInv io) (hfile : FileInv ino.block_data (disk io) al) (e : Nat → Nat)
    {i : Nat} (hi : i < entry_count ino.block_data) {ofs : Int}
    (hofs : ofs = ((20 * i : Nat) : Int)) :
    ∃ io1, inode_read_at io ino e ((sizeof_dir_entry : Nat) : Int) ofs
        = some (io1, entry_buf ino.block_data (disk io) i e, 20) ∧
      IoInv io1 ∧ disk io1 = disk io ∧ io1.ticks = io.ticks := by
  have hi' := (entry_count_lt hfile.size_nonneg).1 hi
  obtain ⟨io1, e1, hrd, hinv1, ht1, hd1, hbuf⟩ :=
    @inode_read_at_spec io al ino hinv hal hfile e 20 ((20 * i : Nat) : Int) (by decide)
      (by omega) (by push_cast at hi' ⊢; omega)
  rw [← hofs] at hrd
  have he : e1 = entry_buf ino.block_data (disk io) i e := by
    funext k
    rw [hbuf k]
    unfold entry_buf sizeof_dir_entry
    simp only [Int.toNat_ofNat]
    rfl
  rw [he] at hrd
  exact ⟨io1, hrd, hinv1, hd1, ht1⟩

/-- Reading behind the last entry of a well-formed directory: nothing is read. -/
theorem read_entry_end {al : Alloc} {ino : inode} {io : Io}
    (hfile : FileInv ino.block_data (disk io) al) (e : Nat → Nat)
    {ofs : Int} (hofs : ofs = ((20 * entry_count ino.block_data : Nat) : Int)) :
    inode_read_at io ino e ((sizeof_dir_entry : Nat) : Int) ofs = some (io, e, 0) := by
  have h0 := hfile.size_nonneg
  have hmax := hfile.size_max
  unfold MAX_BYTES at hmax
  have h1 : ¬ entry_count ino.block_data < entry_count ino.block_data := Nat.lt_irrefl _
  rw [entry_count_lt h0] at h1
  have h2 : 20 * entry_count ino.block_data ≤ ino.block_data.size.toNat := by
    unfold entry_count sizeof_dir_entry
    exact Nat.mul_div_le _ _
  have h3 : ((sizeof_dir_entry : Nat) : Int) = 20 := rfl
  rw [h3]
  exact inode_read_at_beyond e (by decide) (by omega) (by omega)
    (by unfold inode_length; push_cast at h1; omega)

theorem lookup_loop_in {fuel : Nat} {io io1 : Io} {ino : inode} {name : List Nat}
    {e e1 : Nat → Nat} {ofs : Int} (hw : wrap_int ofs = ofs)
    (hread : inode_read_at io ino e ((sizeof_dir_entry : Nat) : Int) ofs = some (io1, e1, 20)) :
    lookup_loop (fuel + 1) io ino name e ofs
      = if entry_matches name e1 = true then some (io1, some (e1, ofs))
        else lookup_loop fuel io1 ino name e1 (size_t_add ofs ((sizeof_dir_entry : Nat) : Int)) := by
  conv_lhs => unfold lookup_loop
  rw [hw, hread]
  simp only
  have h20 : to_u32 (20 : Int) = sizeof_dir_entry := by unfold to_u32 sizeof_dir_entry; omega
  rw [if_pos h20]
  rfl

theorem lookup_loop_out {fuel : Nat} {io io1 : Io} {ino : inode} {name : List Nat}
    {e e1 : Nat → Nat} {ofs : Int} (hw : wrap_int ofs = ofs)
    (hread : inode_read_at io ino e ((sizeof_dir_entry : Nat) : Int) ofs = some (io1, e1, 0)) :
    lookup_loop (fuel + 1) io ino name e ofs = some (io1, none) := by
  conv_lhs => unfold lookup_loop
  rw [hw, hread]
  simp only
  have h0 : ¬ to_u32 (0 : Int) = sizeof_dir_entry := by unfold to_u32 sizeof_dir_entry; omega
  rw [if_neg h0]

/-- The loop of `lookup` on a well-formed directory, from entry `i` on: it returns the first
entry that is in use and has the name, with its offset, and changes nothing on the disk. -/
theorem lookup_loop_spec {al : Alloc} (hal : AllocInv al) {ino : inode}
    {D : Nat → Nat → Nat} (hfile : FileInv ino.block_data D al) (name : List Nat)
    (u : Nat → Nat) :
    ∀ m i fuel (io : Io) (e : Nat → Nat) (ofs : Int), IoInv io → disk io = D →
      ofs = ((20 * i : Nat) : Int) → i + m = entry_count ino.block_data → m < fuel →
      (∀ k, sizeof_dir_entry ≤ k → e k = u k) →
    ∃ io', lookup_loop fuel io ino name e ofs
        = some (io', (first_match (fun j => entry_matches name (entry_buf ino.block_data D j u))
            i m).map (fun j => (entry_buf ino.block_data D j u, ((20 * j : Nat) : Int)))) ∧
      IoInv io' ∧ disk io' = D ∧ io'.ticks = io.ticks := by
  have h0 := hfile.size_nonneg
  have hmax := hfile.size_max
  unfold MAX_BYTES at hmax
  have hK : 20 * entry_count ino.block_data ≤ ino.block_data.size.toNat := by
    unfold entry_count sizeof_dir_entry
    exact Nat.mul_div_le _ _
  intro m
  induction m with
  | zero =>
    intro i fuel io e ofs hinv hd hofs him hfuel he
    obtain ⟨f, rfl⟩ : ∃ f, fuel = f + 1 := ⟨fuel - 1, by omega⟩
    have hi : i = entry_count ino.block_data := by omega
    subst hd
    have hw : wrap_int ofs = ofs := wrap_int_of_range (by omega) (by omega)
    rw [lookup_loop_out hw (read_entry_end hfile e (by rw [hofs, hi]))]
    exact ⟨io, rfl, hinv, rfl, rfl⟩
  | succ m ih =>
    intro i fuel io e ofs hinv hd hofs him hfuel he
    obtain ⟨f, rfl⟩ : ∃ f, fuel = f + 1 := ⟨fuel - 1, by omega⟩
    subst hd
    have hi : i < entry_count ino.block_data := by omega
    have hw : wrap_int ofs = ofs := wrap_int_of_range (by omega) (by omega)
    obtain ⟨io1, hrd, hinv1, hd1, ht1⟩ := read_entry hal hinv hfile e hi hofs
    rw [lookup_loop_in hw hrd, entry_buf_tail _ _ _ he]
    unfold first_match
    by_cases c : entry_matches name (entry_buf ino.block_data (disk io) i u) = true
    · rw [if_pos c, if_pos c, hofs]
      exact ⟨io1, rfl, hinv1, hd1, ht1⟩
    · rw [if_neg c, if_neg c]
      have hnext : size_t_add ofs ((sizeof_dir_entry : Nat) : Int)
          = ((20 * (i + 1) : Nat) : Int) := by
        unfold size_t_add sizeof_dir_entry
        push_cast
        omega
      rw [← hd1] at hfile
      obtain ⟨io', hrun, hinv', hd', ht'⟩ := ih (i + 1) f io1
        (entry_buf ino.block_data (disk io) i u) _ hinv1 hd1 hnext (by omega) (by omega)
        (fun k hk => entry_buf_ge _ _ _ _ hk)
      exact ⟨io', hrun, hinv', hd', by rw [ht', ht1]⟩

/-- The function `lookup` on a well-formed directory: it returns the first entry that is in
use and has the name, with its offset, and changes nothing on the disk. -/
theorem lookup_spec {al : Alloc} (hal : AllocInv al) {io : Io} (hinv : IoInv io) {a_dir : dir}
    (hfile : FileInv a_dir.inode.block_data (disk io) al) (name : List Nat) (u : Nat → Nat) :
    ∃ io', lookup io a_dir name u
        = some (io', (first_match (fun j => entry_matches name
              (entry_buf a_dir.inode.block_data (disk io) j u)) 0
            (entry_count a_dir.inode.block_data)).map
          (fun j => (entry_buf a_dir.inode.block_data (disk io) j u, ((20 * j : Nat) : Int)))) ∧
      IoInv io' ∧ disk io' = disk io ∧ io'.ticks = io.ticks := by
  unfold lookup
  exact lookup_loop_spec hal hfile name u (entry_count a_dir.inode.block_data) 0 _ io u 0 hinv
    rfl rfl (Nat.zero_add _) (by unfold inode_length entry_count; omega) (fun _ _ => rfl)

/-! ## Listing a directory -/

theorem strcmp_eq_congr (name : List Nat) : ∀ (s t : Nat → Nat),
    (∀ k, k ≤ name.length → s k = t k) → strcmp_eq name s = strcmp_eq name t := by
  induction name with
  | nil =>
    intro s t h
    unfold strcmp_eq
    rw [h 0 (Nat.le_refl _)]
  | cons c cs ih =>
    intro s t h
    unfold strcmp_eq
    rw [h 0 (Nat.zero_le _), ih (ptr_add s 1) (ptr_add t 1) (fun k hk => by
      unfold ptr_add
      exact h (1 + k) (by simp only [List.length_cons]; omega))]

theorem c_string_congr {b c : Nat → Nat} {n : Nat} (h : ∀ k, k < n → b k = c k) :
    c_string b n = c_string c n := by
  unfold c_string bytes_of
  congr 2
  apply List.map_congr_left
  intro k hk
  exact h k (List.mem_range.1 hk)

theorem c_string_CStr (b : Nat → Nat) (n : Nat) : CStr (c_string b n) := by
  intro c hc
  unfold c_string at hc
  have h1 := List.mem_takeWhile_imp hc
  have h2 := (List.takeWhile_sublist _).subset hc
  simp only [List.mem_map] at h2
  obtain ⟨a, _, rfl⟩ := h2
  simp only [ne_eq, decide_not, Bool.not_eq_true', decide_eq_false_iff_not] at h1
  exact ⟨by omega, Nat.mod_lt _ (by decide)⟩

theorem entry_listed_congr {e f : Nat → Nat} (h : ∀ k, k < 20 → e k = f k) :
    entry_listed e = entry_listed f := by
  unfold entry_listed dir_entry_in_use
  have h1 : ∀ name : List Nat, name.length ≤ 2 →
      strcmp_eq name (ptr_add e 4) = strcmp_eq name (ptr_add f 4) := fun name hn =>
    strcmp_eq_congr name _ _ (fun k hk => by
      unfold ptr_add
      exact h (4 + k) (by omega))
  rw [h 19 (by decide), h1 name_cwd (by decide), h1 name_prd (by decide)]

theorem entry_name_congr {e f : Nat → Nat} (h : ∀ k, k < 20 → e k = f k) :
    entry_name e = entry_name f := by
  unfold entry_name
  apply c_string_congr
  intro k hk
  unfold ptr_add
  unfold NAME_MAX at hk
  exact h (4 + k) (by omega)

theorem entry_buf_at (d : inode_data) (D : Nat → Nat → Nat) (i : Nat) (u : Nat → Nat) :
    ∀ k, k < 20 → entry_buf d D i u k = entry_at d D i k := by
  intro k hk
  unfold entry_buf entry_at sizeof_dir_entry
  rw [if_pos hk]

theorem dir_readdir_loop_in {fuel : Nat} {io io1 : Io} {ino : inode} {pos : Int}
    {e e1 name : Nat → Nat}
    (hread : inode_read_at io ino e ((sizeof_dir_entry : Nat) : Int) pos = some (io1, e1, 20)) :
    dir_readdir_loop (fuel + 1) io ino pos e name
      = if entry_listed e1 = true then
          (if (entry_name e1).length < NAME_MAX + 1 then
            some (io1, wrap_int ((to_u32 pos : Int) + ((sizeof_dir_entry : Nat) : Int)),
              strlcpy name (entry_name e1) (NAME_MAX + 1), true)
          else none)
        else dir_readdir_loop fuel io1 ino
          (wrap_int ((to_u32 pos : Int) + ((sizeof_dir_entry : Nat) : Int))) e1 name := by
  conv_lhs => unfold dir_readdir_loop
  rw [hread]
  simp only
  have h20 : to_u32 (20 : Int) = sizeof_dir_entry := by unfold to_u32 sizeof_dir_entry; omega
  rw [if_pos h20]
  unfold entry_listed entry_name
  cases h1 : dir_entry_in_use e1 <;>
    cases h2 : (strcmp_eq name_cwd (ptr_add e1 4) || strcmp_eq name_prd (ptr_add e1 4)) <;>
    simp

theorem dir_readdir_loop_out {fuel : Nat} {io io1 : Io} {ino : inode} {pos : Int}
    {e e1 name : Nat → Nat}
    (hread : inode_read_at io ino e ((sizeof_dir_entry : Nat) : Int) pos = some (io1, e1, 0)) :
    dir_readdir_loop (fuel + 1) io ino pos e name = some (io1, pos, name, false) := by
  conv_lhs => unfold dir_readdir_loop
  rw [hread]
  simp only
  have h0 : ¬ to_u32 (0 : Int) = sizeof_dir_entry := by unfold to_u32 sizeof_dir_entry; omega
  rw [if_neg h0]

/-- What one call of `dir_readdir` gives from entry `i` on, among `m` entries: the cursor, the
buffer `name` and the returned value. -/
theorem dir_readdir_loop_spec {al : Alloc} (hal : AllocInv al) {ino : inode}
    {D : Nat → Nat → Nat} (hfile : FileInv ino.block_data D al)
    (hnames : NamesEnd ino.block_data D) (name : Nat → Nat) :
    ∀ m i fuel (io : Io) (e : Nat → Nat) (pos : Int), IoInv io → disk io = D →
      pos = ((20 * i : Nat) : Int) → i + m = entry_count ino.block_data → m < fuel →
    ∃ io', dir_readdir_loop fuel io ino pos e name
        = some (io',
            match first_match (fun j => entry_listed (entry_at ino.block_data D j)) i m with
            | some j => (((20 * (j + 1) : Nat) : Int),
                strlcpy name (entry_name (entry_at ino.block_data D j)) (NAME_MAX + 1), true)
            | none => (((20 * entry_count ino.block_data : Nat) : Int), name, false)) ∧
      IoInv io' ∧ disk io' = D ∧ io'.ticks = io.ticks := by
  have h0 := hfile.size_nonneg
  have hmax := hfile.size_max
  unfold MAX_BYTES at hmax
  have hK : 20 * entry_count ino.block_data ≤ ino.block_data.size.toNat := by
    unfold entry_count sizeof_dir_entry
    exact Nat.mul_div_le _ _
  intro m
  induction m with
  | zero =>
    intro i fuel io e pos hinv hd hpos him hfuel
    obtain ⟨f, rfl⟩ : ∃ f, fuel = f + 1 := ⟨fuel - 1, by omega⟩
    have hi : i = entry_count ino.block_data := by omega
    subst hd
    rw [dir_readdir_loop_out (read_entry_end hfile e (by rw [hpos, hi]))]
    refine ⟨io, ?_, hinv, rfl, rfl⟩
    unfold first_match
    rw [hpos, hi]
  | succ m ih =>
    intro i fuel io e pos hinv hd hpos him hfuel
    obtain ⟨f, rfl⟩ : ∃ f, fuel = f + 1 := ⟨fuel - 1, by omega⟩
    subst hd
    have hi : i < entry_count ino.block_data := by omega
    obtain ⟨io1, hrd, hinv1, hd1, ht1⟩ := read_entry hal hinv hfile e hi hpos
    have hnext : wrap_int ((to_u32 pos : Int) + ((sizeof_dir_entry : Nat) : Int))
        = ((20 * (i + 1) : Nat) : Int) := by
      rw [hpos, to_u32_natCast (by omega)]
      unfold sizeof_dir_entry
      rw [wrap_int_of_range (by omega) (by omega)]
      push_cast
      omega
    rw [dir_readdir_loop_in hrd, hnext,
      entry_listed_congr (entry_buf_at ino.block_data (disk io) i e),
      entry_name_congr (entry_buf_at ino.block_data (disk io) i e)]
    unfold first_match
    by_cases c : entry_listed (entry_at ino.block_data (disk io) i) = true
    · rw [if_pos c, if_pos c, if_pos (hnames i hi c)]
      exact ⟨io1, rfl, hinv1, hd1, ht1⟩
    · rw [if_neg c, if_neg c]
      rw [← hd1] at hfile hnames
      obtain ⟨io', hrun, hinv', hd', ht'⟩ := ih (i + 1) f io1
        (entry_buf ino.block_data (disk io) i e) _ hinv1 hd1 rfl (by omega) (by omega)
      exact ⟨io', hrun, hinv', hd', by rw [ht', ht1]⟩

theorem filter_of_first_match_none {p : Nat → Bool} {i m : Nat}
    (h : first_match p i m = none) : (List.range' i m).filter p = [] := by
  rw [first_match_none] at h
  rw [List.filter_eq_nil_iff]
  intro a ha
  rw [List.mem_range'_1] at ha
  rw [h a ha.1 ha.2]
  decide

theorem filter_of_first_match_some {p : Nat → Bool} : ∀ {m i j : Nat},
    first_match p i m = some j →
    (List.range' i m).filter p = j :: (List.range' (j + 1) (i + m - (j + 1))).filter p := by
  intro m
  induction m with
  | zero =>
    intro i j h
    simp [first_match] at h
  | succ m ih =>
    intro i j h
    unfold first_match at h
    rw [List.range'_succ]
    by_cases c : p i = true
    · rw [if_pos c] at h
      have e : i = j := Option.some.inj h
      subst e
      rw [List.filter_cons_of_pos c]
      have e2 : i + (m + 1) - (i + 1) = m := by omega
      rw [e2]
    · rw [if_neg c] at h
      rw [List.filter_cons_of_neg c, ih h]
      have e2 : i + 1 + m - (j + 1) = i + (m + 1) - (j + 1) := by omega
      rw [e2]

theorem c_string_strlcpy (dst : Nat → Nat) {s : List Nat} {n : Nat} (hlen : s.length < n)
    (hs : CStr s) : c_string (strlcpy dst s n) n = s := by
  have hmin : min s.length (n - 1) = s.length := by omega
  apply read_back_part hlen _ _ hs
  · apply bytes_of_eq_of_get
    intro i c hi
    have hi' : i < s.length := by
      rcases Nat.lt_or_ge i s.length with h | h
      · exact h
      · rw [List.getElem?_eq_none h] at hi
        cases hi
    unfold strlcpy
    rw [if_neg (by omega)]
    simp only [hmin]
    rw [if_pos hi', List.getD_eq_getElem?_getD, hi]
    rfl
  · unfold strlcpy
    rw [if_neg (by omega)]
    simp [hmin]

/-- One call of `dir_readdir` on a well-formed directory with the cursor at entry `i`: it
stops behind the first entry from `i` on that is in use and named neither "." nor "..", with
the name of that entry in the buffer, or at the end of the directory. -/
theorem dir_readdir_spec {al : Alloc} (hal : AllocInv al) {io : Io} (hinv : IoInv io)
    {ino : inode} (hfile : FileInv ino.block_data (disk io) al)
    (hnames : NamesEnd ino.block_data (disk io)) (u name : Nat → Nat) {i : Nat}
    (hi : i ≤ entry_count ino.block_data) {pos : Int} (hpos : pos = ((20 * i : Nat) : Int)) :
    ∃ io', IoInv io' ∧ disk io' = disk io ∧ io'.ticks = io.ticks ∧
      ((∃ j, first_match (fun j => entry_listed (entry_at ino.block_data (disk io) j)) i
            (entry_count ino.block_data - i) = some j ∧
          dir_readdir io (dir.mk ino pos) u name
            = some (io', dir.mk ino ((20 * (j + 1) : Nat) : Int),
                strlcpy name (entry_name (entry_at ino.block_data (disk io) j)) (NAME_MAX + 1),
                true)) ∨
        (first_match (fun j => entry_listed (entry_at ino.block_data (disk io) j)) i
            (entry_count ino.block_data - i) = none ∧
          dir_readdir io (dir.mk ino pos) u name
            = some (io', dir.mk ino ((20 * entry_count ino.block_data : Nat) : Int), name,
                false))) := by
  obtain ⟨io', hrun, hinv', hd', ht'⟩ := dir_readdir_loop_spec hal hfile hnames name
    (entry_count ino.block_data - i) i
    ((inode_length ino).toNat / sizeof_dir_entry + 2 + (- pos).toNat) io u pos hinv rfl hpos
    (by omega) (by
      have e : entry_count ino.block_data = (inode_length ino).toNat / sizeof_dir_entry := rfl
      rw [← e]
      omega)
  refine ⟨io', hinv', hd', ht', ?_⟩
  unfold dir_readdir
  simp only
  rw [hrun]
  cases hf : first_match (fun j => entry_listed (entry_at ino.block_data (disk io) j)) i
      (entry_count ino.block_data - i) with
  | none => exact Or.inr ⟨rfl, rfl⟩
  | some j => exact Or.inl ⟨j, rfl, rfl⟩

/-- Calls of `dir_readdir` on a well-formed directory from entry `i` on, until a call returns
false: they give the names of the entries from `i` on that are in use and named neither "."
nor "..", in the order of the entries. -/
theorem dir_readdir_all_spec {al : Alloc} (hal : AllocInv al) {ino : inode}
    {D : Nat → Nat → Nat} (hfile : FileInv ino.block_data D al)
    (hnames : NamesEnd ino.block_data D) (u : Nat → Nat) :
    ∀ m i fuel (io : Io) (pos : Int) (name : Nat → Nat), IoInv io → disk io = D →
      pos = ((20 * i : Nat) : Int) → i + m = entry_count ino.block_data → m < fuel →
    ∃ io', dir_readdir_all fuel io (dir.mk ino pos) u name
        = some (io', dir.mk ino ((20 * entry_count ino.block_data : Nat) : Int),
            ((List.range' i m).filter (fun j => entry_listed (entry_at ino.block_data D j))).map
              (fun j => entry_name (entry_at ino.block_data D j))) ∧
      IoInv io' ∧ disk io' = D ∧ io'.ticks = io.ticks := by
  intro m
  induction m using Nat.strong_induction_on with
  | _ m ih =>
    intro i fuel io pos name hinv hd hpos him hfuel
    obtain ⟨f, rfl⟩ : ∃ f, fuel = f + 1 := ⟨fuel - 1, by omega⟩
    subst hd
    have hm : entry_count ino.block_data - i = m := by omega
    obtain ⟨io1, hinv1, hd1, ht1, hcase⟩ :=
      dir_readdir_spec hal hinv hfile hnames u name (show i ≤ _ by omega) hpos
    rw [hm] at hcase
    unfold dir_readdir_all
    rcases hcase with ⟨j, hj, hcall⟩ | ⟨hnone, hcall⟩
    · rw [hcall]
      simp only
      obtain ⟨a1, a2, a3, _⟩ := first_match_some hj
      obtain ⟨io', hrun, hinv', hd', ht'⟩ := ih (i + m - (j + 1)) (by omega) (j + 1) f io1 _
        (strlcpy name (entry_name (entry_at ino.block_data (disk io) j)) (NAME_MAX + 1))
        hinv1 hd1 rfl (by omega) (by omega)
      rw [hrun]
      refine ⟨io', ?_, hinv', hd', by rw [ht', ht1]⟩
      rw [filter_of_first_match_some hj]
      simp only [Option.map_some', List.map_cons]
      rw [c_string_strlcpy _ (hnames j (by omega) a3) (c_string_CStr _ _)]
    · rw [hcall]
      simp only
      rw [filter_of_first_match_none hnone]
      exact ⟨io1, rfl, hinv1, hd1, ht1⟩

/-- C25: on a well-formed directory whose listed entries hold null-terminated names, the
calls of `dir_readdir` from cursor 0 until one returns false give exactly the names of the
entries that are in use and named neither "." nor "..", each once and in the order of the
slots; and one call with the cursor at entry `i` leaves it at an entry `j` with `i ≤ j`, so it
moves by `20 * (j - i)` bytes, behind the entry whose name it gives. -/
theorem dir_readdir_lists_entries {al : Alloc} (hal : AllocInv al) {io : Io} (hinv : IoInv io)
    {ino : inode} (hfile : FileInv ino.block_data (disk io) al)
    (hnames : NamesEnd ino.block_data (disk io)) (u name : Nat → Nat) :
    (∃ io', dir_readdir_all (entry_count ino.block_data + 1) io (dir.mk ino 0) u name
        = some (io', dir.mk ino ((20 * entry_count ino.block_data : Nat) : Int),
            dir_names ino.block_data (disk io)) ∧ disk io' = disk io) ∧
    (∀ i, i ≤ entry_count ino.block_data →
      ∃ io' j name1 r, dir_readdir io (dir.mk ino ((20 * i : Nat) : Int)) u name
          = some (io', dir.mk ino ((20 * j : Nat) : Int), name1, r) ∧
        i ≤ j ∧ j ≤ entry_count ino.block_data ∧ disk io' = disk io ∧
        (r = true → i < j ∧ entry_listed (entry_at ino.block_data (disk io) (j - 1)) = true ∧
          c_string name1 (NAME_MAX + 1) = entry_name (entry_at ino.block_data (disk io) (j - 1)) ∧
          ∀ k, i ≤ k → k < j - 1 → entry_listed (entry_at ino.block_data (disk io) k) = false) ∧
        (r = false → j = entry_count ino.block_data ∧ name1 = name ∧
          ∀ k, i ≤ k → k < j → entry_listed (entry_at ino.block_data (disk io) k) = false)) := by
  constructor
  · obtain ⟨io', hrun, _, hd', _⟩ := dir_readdir_all_spec hal hfile hnames u
      (entry_count ino.block_data) 0 (entry_count ino.block_data + 1) io 0 name hinv rfl rfl
      (Nat.zero_add _) (Nat.lt_succ_self _)
    refine ⟨io', ?_, hd'⟩
    rw [hrun]
    unfold dir_names
    rw [List.range_eq_range']
  · intro i hi
    obtain ⟨io', _, hd', _, hcase⟩ := dir_readdir_spec hal hinv hfile hnames u name hi rfl
    rcases hcase with ⟨j, hj, hcall⟩ | ⟨hnone, hcall⟩
    · obtain ⟨a1, a2, a3, a4⟩ := first_match_some hj
      refine ⟨io', j + 1, _, true, hcall, by omega, by omega, hd', fun _ => ?_, fun h => ?_⟩
      · refine ⟨by omega, a3, ?_, fun k hk1 hk2 => a4 k hk1 (by omega)⟩
        exact c_string_strlcpy _ (hnames j (by omega) a3) (c_string_CStr _ _)
      · cases h
    · rw [first_match_none] at hnone
      refine ⟨io', entry_count ino.block_data, name, false, hcall, hi, Nat.le_refl _, hd',
        fun h => ?_, fun _ => ⟨rfl, rfl, fun k hk1 hk2 => hnone k hk1 (by omega)⟩⟩
      cases h

/-! ## Writing an entry of a directory -/

/-- The function `inode_write_at` on a well-formed handle with writes allowed, for a range
inside the file: it returns `size`, allocates nothing, leaves the handle as it is, stores the
bytes in the range and changes no other byte of the disk. -/
theorem inode_write_at_inplace {io : Io} {al : Alloc} {ino : inode} (junk : Int)
    (pad : Nat → Nat) (buffer : Nat → Nat) {size offset : Int} (hinv : IoInv io)
    (hal : AllocInv al) (hh : HandleInv ino (disk io) al) (hdeny : ino.deny_write_cnt = 0)
    (hs : 0 < size) (ho : 0 ≤ offset) (hle : offset + size ≤ ino.block_data.size) :
    ∃ io', inode_write_at junk io al pad ino buffer size offset = some (io', al, ino, size) ∧
      IoInv io' ∧ io'.ticks = io.ticks ∧ HandleInv ino (disk io') al ∧
      (∀ p, offset.toNat ≤ p → p < offset.toNat + size.toNat →
        file_byte ino.block_data (disk io') p = buffer (p - offset.toNat)) ∧
      (∀ p, p < ino.block_data.size.toNat →
        ¬ (offset.toNat ≤ p ∧ p < offset.toNat + size.toNat) →
        file_byte ino.block_data (disk io') p = file_byte ino.block_data (disk io) p) ∧
      (∀ x, slot_live (bytes_to_sectors ino.block_data.size) x →
        slot_sector ino.block_data (disk io') x = slot_sector ino.block_data (disk io) x) ∧
      (∀ t k, (∀ p, offset.toNat ≤ p → p < offset.toNat + size.toNat →
          ¬ (data_sector ino.block_data (disk io) (p / 512) = t ∧ p % 512 = k)) →
        disk io' t k = disk io t k) := by
  have h0 := hh.file.size_nonneg
  have hmaxd := hh.file.size_max
  unfold MAX_BYTES at hmaxd
  obtain ⟨S, hS⟩ := Int.eq_ofNat_of_zero_le (show (0 : Int) ≤ size by omega)
  obtain ⟨O, hO⟩ := Int.eq_ofNat_of_zero_le ho
  subst hS hO
  obtain ⟨L, hL⟩ := Int.eq_ofNat_of_zero_le h0
  have hres : inode_write_at_resize io al pad ino (S : Int) (O : Int)
      = some (io, al, ino, true) := by
    unfold inode_write_at_resize
    rw [wrap_int_of_range (by omega) (by omega)]
    simp only
    rw [if_neg (by omega)]
  have hn : bytes_to_sectors ino.block_data.size = (L + 511) / 512 := by
    rw [hL, bytes_to_sectors_eq (by omega) (by omega)]
    simp
  have hwf := hh.file.wf
  rw [hn] at hwf
  obtain ⟨fuel, hfuel⟩ : ∃ fuel : Nat, ((S : Int).toNat + 1) = fuel := ⟨_, rfl⟩
  obtain ⟨io2, hrun, hinv2, ht2, hwf2, hpres2, hcont2, hframe2⟩ :=
    @inode_write_loop_spec _ hal ino _ _ hL rfl (by unfold MAX_BYTES; omega) buffer fuel io S O
      0 hinv hwf (by omega) (by omega)
  have hfb : ∀ p, p / 512 < (L + 511) / 512 → ¬ (O ≤ p ∧ p < O + S) →
      file_byte ino.block_data (disk io2) p = file_byte ino.block_data (disk io) p :=
    fun p hp hout => file_byte_frame hwf hpres2 hframe2 (by omega) hp hout
  have e0 : ((0 : Nat) : Int) = 0 := rfl
  have e1 : (((0 + S : Nat)) : Int) = (S : Int) := by omega
  rw [e0, e1, ← hfuel] at hrun
  have hcode : inode_write_at junk io al pad ino buffer (S : Int) (O : Int)
      = some (io2, al, ino, (S : Int)) :=
    inode_write_at_of_resize hres hdeny hrun
  refine ⟨io2, hcode, hinv2, ht2, ?_, ?_, ?_, ?_, ?_⟩
  · refine ⟨⟨h0, hh.file.size_max, by rw [hn]; exact hwf2, ?_⟩, hh.sector_used, ?_⟩
    · intro p hp1 hp2
      rw [hn] at hp2
      rw [hL] at hp1
      simp only [Int.toNat_ofNat] at hp1
      rw [hfb p (by omega) (by omega)]
      apply hh.file.slack p
      · simp only [hL, Int.toNat_ofNat]; exact hp1
      · rw [hn]; exact hp2
    · intro x hx
      rw [hn] at hx
      rw [hpres2 x hx]
      apply hh.sector_own x
      rw [hn]; exact hx
  · intro p hp1 hp2
    simp only [Int.toNat_ofNat] at hp1 hp2 ⊢
    have := hcont2 p hp1 hp2
    rw [this]
    simp
  · intro p hp hout
    simp only [Int.toNat_ofNat] at hout
    rw [hL] at hp
    simp only [Int.toNat_ofNat] at hp
    exact hfb p (by omega) hout
  · intro x hx
    rw [hn] at hx
    exact hpres2 x hx
  · intro t k h
    simp only [Int.toNat_ofNat] at h
    exact hframe2 t k h

/-- Writing entry number `j` of a well-formed directory with writes allowed: the 20 bytes
of the entry are stored and no other byte of the disk changes. -/
theorem write_entry {io : Io} {al : Alloc} {ino : inode} (junk : Int)
    (pad : Nat → Nat) (buffer : Nat → Nat) (hinv : IoInv io)
    (hal : AllocInv al) (hh : HandleInv ino (disk io) al) (hdeny : ino.deny_write_cnt = 0)
    {j : Nat} (hj : j < entry_count ino.block_data) {ofs : Int}
    (hofs : ofs = ((20 * j : Nat) : Int)) :
    ∃ io', inode_write_at junk io al pad ino buffer ((sizeof_dir_entry : Nat) : Int) ofs
        = some (io', al, ino, 20) ∧
      IoInv io' ∧ io'.ticks = io.ticks ∧ HandleInv ino (disk io') al ∧
      (∀ k, k < 20 → file_byte ino.block_data (disk io') (20 * j + k) = buffer k) ∧
      (∀ p, p < ino.block_data.size.toNat → ¬ (20 * j ≤ p ∧ p < 20 * j + 20) →
        file_byte ino.block_data (disk io') p = file_byte ino.block_data (disk io) p) ∧
      (∀ x, slot_live (bytes_to_sectors ino.block_data.size) x →
        slot_sector ino.block_data (disk io') x = slot_sector ino.block_data (disk io) x) ∧
      (∀ t k, (∀ p, 20 * j ≤ p → p < 20 * j + 20 →
          ¬ (data_sector ino.block_data (disk io) (p / 512) = t ∧ p % 512 = k)) →
        disk io' t k = disk io t k) := by
  have h0 := hh.file.size_nonneg
  have hj' := (entry_count_lt h0).1 hj
  obtain ⟨O, hO⟩ : ∃ O : Nat, O = 20 * j := ⟨_, rfl⟩
  rw [← hO] at hofs
  have e20 : (20 : Int).toNat = 20 := rfl
  obtain ⟨io', hwrite, hinv', ht', hh', hin, hout, hslots, hframe⟩ :=
    @inode_write_at_inplace io al ino junk pad buffer 20 (O : Int) hinv hal hh hdeny
      (by decide) (by omega) (by push_cast at hj'; omega)
  simp only [Int.toNat_ofNat, e20] at hin hout hframe
  rw [hO] at hin hout hframe
  rw [← hofs] at hwrite
  refine ⟨io', hwrite, hinv', ht', hh', ?_, hout, hslots, hframe⟩
  intro k hk
  rw [hin (20 * j + k) (by omega) (by omega)]
  congr 1
  omega

/-! ## Adding an entry to a directory -/

theorem in_use_congr {e f : Nat → Nat} (h : e 19 = f 19) :
    dir_entry_in_use e = dir_entry_in_use f := by
  unfold dir_entry_in_use
  rw [h]

theorem entry_matches_congr (name : List Nat) {e f : Nat → Nat}
    (h : ∀ k, k ≤ 4 + name.length ∨ k = 19 → e k = f k) :
    entry_matches name e = entry_matches name f := by
  unfold entry_matches
  rw [in_use_congr (h 19 (Or.inr rfl)), strcmp_eq_congr name (ptr_add e 4) (ptr_add f 4)
    (fun k hk => by
      unfold ptr_add
      exact h (4 + k) (Or.inl (by omega)))]

/-- The comparison of a name with the memory that holds a name and a NUL behind it: the
names are equal. -/
theorem strcmp_eq_stored : ∀ (name' name : List Nat) (s : Nat → Nat), CStr name' → CStr name →
    (∀ i c, name[i]? = some c → s i % 256 = c) → s name.length % 256 = 0 →
    strcmp_eq name' s = decide (name' = name) := by
  intro name'
  induction name' with
  | nil =>
    intro name s _ hc hb h0
    unfold strcmp_eq
    cases name with
    | nil => simpa using h0
    | cons c cs =>
      have h1 := hb 0 c (by simp)
      have h2 := (hc c (List.mem_cons_self _ _)).1
      have h3 : ¬ s 0 % 256 = 0 := by omega
      simp [h3]
  | cons c' cs' ih =>
    intro name s hc' hc hb h0
    unfold strcmp_eq
    cases name with
    | nil =>
      have h2 := (hc' c' (List.mem_cons_self _ _)).1
      have h3 : ¬ s 0 % 256 = c' := by
        simp only [List.length_nil] at h0
        omega
      simp [h3]
    | cons c cs =>
      have h1 := hb 0 c (by simp)
      rw [ih cs (ptr_add s 1) (fun x hx => hc' x (List.mem_cons_of_mem _ hx))
        (fun x hx => hc x (List.mem_cons_of_mem _ hx))
        (fun i x hi => by
          unfold ptr_add
          have := hb (i + 1) x (by simpa using hi)
          rw [Nat.add_comm 1 i]
          exact this)
        (by
          unfold ptr_add
          have := h0
          simp only [List.length_cons] at this
          rw [Nat.add_comm 1 cs.length]
          exact this)]
      rw [h1]
      by_cases e1 : c = c'
      · subst e1
        simp
      · have e2 : ¬ c' = c := fun h => e1 h.symm
        simp [e1, e2]

theorem strlcpy_lt (dst : Nat → Nat) {name : List Nat} {size k : Nat}
    (h1 : name.length < size) (h2 : k < name.length) :
    strlcpy dst name size k = name.getD k 0 := by
  unfold strlcpy
  have hmin : min name.length (size - 1) = name.length := by omega
  rw [if_neg (by omega)]
  simp only [hmin]
  rw [if_pos h2]

theorem strlcpy_nul (dst : Nat → Nat) {name : List Nat} {size : Nat}
    (h1 : name.length < size) : strlcpy dst name size name.length = 0 := by
  unfold strlcpy
  have hmin : min name.length (size - 1) = name.length := by omega
  rw [if_neg (by omega)]
  simp [hmin]

theorem strlcpy_gt (dst : Nat → Nat) {name : List Nat} {size k : Nat}
    (h1 : name.length < size) (h2 : name.length < k) :
    strlcpy dst name size k = dst k := by
  unfold strlcpy
  have hmin : min name.length (size - 1) = name.length := by omega
  rw [if_neg (by omega)]
  simp only [hmin]
  rw [if_neg (by omega), if_neg (by omega)]

theorem dir_entry_fill_sector (e : Nat → Nat) (name : List Nat) (s : Nat) {k : Nat}
    (hk : k < 4) : dir_entry_fill e name s k = u32_bytes s k := by
  unfold dir_entry_fill
  rw [if_pos hk]

theorem dir_entry_fill_name (e : Nat → Nat) {name : List Nat} (s : Nat)
    (hlen : name.length ≤ NAME_MAX) {i : Nat} (hi : i < name.length) :
    dir_entry_fill e name s (4 + i) = name.getD i 0 := by
  unfold NAME_MAX at hlen
  unfold dir_entry_fill ptr_store
  rw [if_neg (by omega), if_pos (by omega)]
  have e4 : 4 + i - 4 = i := by omega
  rw [e4]
  exact strlcpy_lt _ (by unfold NAME_MAX; omega) hi

theorem dir_entry_fill_nul (e : Nat → Nat) {name : List Nat} (s : Nat)
    (hlen : name.length ≤ NAME_MAX) : dir_entry_fill e name s (4 + name.length) = 0 := by
  unfold NAME_MAX at hlen
  unfold dir_entry_fill ptr_store
  rw [if_neg (by omega), if_pos (by omega)]
  have e4 : 4 + name.length - 4 = name.length := by omega
  rw [e4]
  exact strlcpy_nul _ (by unfold NAME_MAX; omega)

theorem dir_entry_fill_in_use (e : Nat → Nat) {name : List Nat} (s : Nat)
    (hlen : name.length ≤ NAME_MAX) : dir_entry_fill e name s 19 = 1 := by
  unfold NAME_MAX at hlen
  unfold dir_entry_fill ptr_store
  rw [if_neg (by omega), if_pos (by omega)]
  rw [strlcpy_gt _ (by unfold NAME_MAX; omega) (by omega)]
  unfold ptr_add
  simp

/-- An entry that holds what `dir_add` stores for `name` has the name `name'` exactly when
the names are equal. -/
theorem entry_matches_fill {f : Nat → Nat} {e : Nat → Nat} {name : List Nat} {s : Nat}
    (hlen : name.length ≤ NAME_MAX) (hc : CStr name)
    (hf : ∀ k, k < 20 → f k = dir_entry_fill e name s k) {name' : List Nat}
    (hc' : CStr name') : entry_matches name' f = decide (name' = name) := by
  have hlen' := hlen
  unfold NAME_MAX at hlen'
  unfold entry_matches
  have h1 : dir_entry_in_use f = true := by
    unfold dir_entry_in_use
    rw [hf 19 (by decide), dir_entry_fill_in_use e s hlen]
    decide
  rw [h1, Bool.true_and]
  apply strcmp_eq_stored name' name _ hc' hc
  · intro i c hi
    have hlt : i < name.length := (List.getElem?_eq_some.mp hi).1
    show f (4 + i) % 256 = c
    rw [hf (4 + i) (by omega), dir_entry_fill_name e s hlen hlt, List.getD_eq_getElem?_getD, hi]
    exact Nat.mod_eq_of_lt (hc c (List.getElem?_mem hi)).2
  · show f (4 + name.length) % 256 = 0
    rw [hf (4 + name.length) (by omega), dir_entry_fill_nul e s hlen]

theorem dir_add_scan_in {fuel : Nat} {io io1 : Io} {ino : inode} {ofs : Int}
    {e e1 : Nat → Nat}
    (hread : inode_read_at io ino e ((sizeof_dir_entry : Nat) : Int) ofs = some (io1, e1, 20)) :
    dir_add_scan (fuel + 1) io ino e ofs
      = if dir_entry_in_use e1 = true then
          dir_add_scan fuel io1 ino e1
            (wrap_int ((to_u32 ofs : Int) + ((sizeof_dir_entry : Nat) : Int)))
        else some (io1, e1, ofs, true) := by
  conv_lhs => unfold dir_add_scan
  rw [hread]
  simp only
  have h20 : to_u32 (20 : Int) = sizeof_dir_entry := by unfold to_u32 sizeof_dir_entry; omega
  rw [if_pos h20]
  cases dir_entry_in_use e1 <;> simp

theorem dir_add_scan_out {fuel : Nat} {io io1 : Io} {ino : inode} {ofs : Int}
    {e e1 : Nat → Nat}
    (hread : inode_read_at io ino e ((sizeof_dir_entry : Nat) : Int) ofs = some (io1, e1, 0)) :
    dir_add_scan (fuel + 1) io ino e ofs = some (io1, e1, ofs, false) := by
  conv_lhs => unfold dir_add_scan
  rw [hread]
  simp only
  have h0 : ¬ to_u32 (0 : Int) = sizeof_dir_entry := by unfold to_u32 sizeof_dir_entry; omega
  rw [if_neg h0]

/-- The scan of `dir_add` for a free slot on a well-formed directory, from entry `i` on: it
stops at the first entry that is not in use, or at the end of the directory. -/
theorem dir_add_scan_spec {al : Alloc} (hal : AllocInv al) {ino : inode}
    {D : Nat → Nat → Nat} (hfile : FileInv ino.block_data D al) :
    ∀ m i fuel (io : Io) (e : Nat → Nat) (ofs : Int), IoInv io → disk io = D →
      ofs = ((20 * i : Nat) : Int) → i + m = entry_count ino.block_data → m < fuel →
    ∃ io' e', IoInv io' ∧ disk io' = D ∧ io'.ticks = io.ticks ∧
      ((∃ j, first_match (fun j => !dir_entry_in_use (entry_at ino.block_data D j)) i m
            = some j ∧
          dir_add_scan fuel io ino e ofs = some (io', e', ((20 * j : Nat) : Int), true)) ∨
        (first_match (fun j => !dir_entry_in_use (entry_at ino.block_data D j)) i m = none ∧
          dir_add_scan fuel io ino e ofs
            = some (io', e', ((20 * entry_count ino.block_data : Nat) : Int), false))) := by
  have h0 := hfile.size_nonneg
  have hmax := hfile.size_max
  unfold MAX_BYTES at hmax
  have hK : 20 * entry_count ino.block_data ≤ ino.block_data.size.toNat := by
    unfold entry_count sizeof_dir_entry
    exact Nat.mul_div_le _ _
  intro m
  induction m with
  | zero =>
    intro i fuel io e ofs hinv hd hofs him hfuel
    obtain ⟨f, rfl⟩ : ∃ f, fuel = f + 1 := ⟨fuel - 1, by omega⟩
    have hi : i = entry_count ino.block_data := by omega
    subst hd
    rw [dir_add_scan_out (read_entry_end hfile e (by rw [hofs, hi]))]
    refine ⟨io, e, hinv, rfl, rfl, Or.inr ⟨rfl, ?_⟩⟩
    rw [hofs, hi]
  | succ m ih =>
    intro i fuel io e ofs hinv hd hofs him hfuel
    obtain ⟨f, rfl⟩ : ∃ f, fuel = f + 1 := ⟨fuel - 1, by omega⟩
    subst hd
    have hi : i < entry_count ino.block_data := by omega
    obtain ⟨io1, hrd, hinv1, hd1, ht1⟩ := read_entry hal hinv hfile e hi hofs
    have hnext : wrap_int ((to_u32 ofs : Int) + ((sizeof_dir_entry : Nat) : Int))
        = ((20 * (i + 1) : Nat) : Int) := by
      rw [hofs, to_u32_natCast (by omega)]
      unfold sizeof_dir_entry
      rw [wrap_int_of_range (by omega) (by omega)]
      push_cast
      omega
    have huse : dir_entry_in_use (entry_buf ino.block_data (disk io) i e)
        = dir_entry_in_use (entry_at ino.block_data (disk io) i) :=
      in_use_congr (entry_buf_at _ _ _ _ 19 (by decide))
    rw [dir_add_scan_in hrd, hnext, huse]
    unfold first_match
    by_cases c : dir_entry_in_use (entry_at ino.block_data (disk io) i) = true
    · rw [if_pos c]
      have c' : ¬ (!dir_entry_in_use (entry_at ino.block_data (disk io) i)) = true := by
        rw [c]
        decide
      rw [if_neg c']
      obtain ⟨io', e', hinv', hd', ht', hcase⟩ := ih (i + 1) f io1
        (entry_buf ino.block_data (disk io) i e) _ hinv1 hd1 rfl (by omega) (by omega)
      exact ⟨io', e', hinv', hd', by rw [ht', ht1], hcase⟩
    · rw [if_neg c]
      have c' : (!dir_entry_in_use (entry_at ino.block_data (disk io) i)) = true := by
        simpa using c
      rw [if_pos c']
      exact ⟨io1, _, hinv1, hd1, ht1, Or.inl ⟨i, rfl, by rw [hofs]⟩⟩

/-- The function `inode_resize` on a well-formed handle, for a size behind the length, when
the allocations succeed: as `inode_resize_spec`, with the number of sectors taken. -/
theorem inode_resize_grow {io : Io} {al : Alloc} {ino : inode} (pad : Nat → Nat)
    {a_size : Nat} (hinv : IoInv io) (hal : AllocInv al)
    (hm : ∀ k, al.malloc_ok k = true) (hh : HandleInv ino (disk io) al)
    (hgrow : ino.block_data.size < a_size) (hmax : a_size ≤ MAX_BYTES)
    (hfree : grow_need (bytes_to_sectors ino.block_data.size)
      (bytes_to_sectors a_size - bytes_to_sectors ino.block_data.size)
      ≤ free_count al.free_map) :
    ∃ io' al' d',
      inode_resize io al pad ino a_size = some (io', al', { ino with block_data := d' }, true) ∧
      IoInv io' ∧ AllocInv al' ∧ (∀ k, al'.malloc_ok k = true) ∧ io'.ticks = io.ticks ∧
      HandleInv { ino with block_data := d' } (disk io') al' ∧
      d'.size = a_size ∧ d'.is_dir = ino.block_data.is_dir ∧
      (∀ p, p < a_size → file_byte d' (disk io') p
        = if p < ino.block_data.size.toNat then file_byte ino.block_data (disk io) p else 0) ∧
      (∀ t, in_use al t → in_use al' t) ∧
      free_count al'.free_map + grow_need (bytes_to_sectors ino.block_data.size)
        (bytes_to_sectors a_size - bytes_to_sectors ino.block_data.size)
        = free_count al.free_map := by
  have hmax' := hmax
  unfold MAX_BYTES at hmax'
  have h0 := hh.file.size_nonneg
  have e : ((a_size : Int) - 1 + 1) = (a_size : Int) := by omega
  have hmaxi : ((a_size : Int) - 1) + 1 ≤ MAX_BYTES := by rw [e]; exact_mod_cast hmax
  obtain ⟨io1, al1, d1, io2, hres, hwb, hinv2, hal1, hm1, ht, hh2, hsize, hdir, hbytes, hmono,
    hcnt⟩ := @inode_write_at_grow_spec io al ino pad 1 ((a_size : Int) - 1) hinv hal hm hh
      (by decide) (by omega) hmaxi (by omega) (by rw [e]; exact hfree)
  rw [e] at hres hsize hbytes hcnt
  rw [wrap_int_of_range (by omega) (by omega), to_u32_natCast (by omega)] at hres
  refine ⟨io2, al1, d1, ?_, hinv2, hal1, hm1, ht, hh2, hsize, hdir, ?_, hmono, hcnt⟩
  · unfold inode_resize
    rw [hres]
    simp only [hwb]
  · intro p hp
    exact hbytes p (by simpa using hp)

theorem dir_add_of_found {junk : Int} {io io1 io2 io4 : Io} {al al4 : Alloc}
    {pad u1 u2 e : Nat → Nat} {a_dir : dir} {name : List Nat} {s : Nat} {ofs : Int}
    {ino4 : inode} (hname : ¬ (name = [] ∨ strlen name > NAME_MAX))
    (hlook : lookup io a_dir name u1 = some (io1, none))
    (hscan : dir_add_scan ((inode_length a_dir.inode).toNat / sizeof_dir_entry + 2) io1
      a_dir.inode u2 0 = some (io2, e, ofs, true))
    (hwrite : inode_write_at junk io2 al pad a_dir.inode (dir_entry_fill e name s)
      ((sizeof_dir_entry : Nat) : Int) ofs = some (io4, al4, ino4, 20)) :
    dir_add junk io al pad u1 u2 a_dir name s
      = some (io4, al4, { a_dir with inode := ino4 }, true) := by
  unfold dir_add
  rw [if_neg hname, hlook]
  simp only
  rw [hscan]
  simp only [if_true]
  rw [hwrite]
  simp only
  have h20 : to_u32 (20 : Int) = sizeof_dir_entry := by unfold to_u32 sizeof_dir_entry; omega
  simp [h20]

theorem dir_add_of_grown {junk : Int} {io io1 io2 io3 io4 : Io} {al al3 al4 : Alloc}
    {pad u1 u2 e : Nat → Nat} {a_dir dir3 : dir} {name : List Nat} {s : Nat} {ofs : Int}
    {ino4 : inode} (hname : ¬ (name = [] ∨ strlen name > NAME_MAX))
    (hlook : lookup io a_dir name u1 = some (io1, none))
    (hscan : dir_add_scan ((inode_length a_dir.inode).toNat / sizeof_dir_entry + 2) io1
      a_dir.inode u2 0 = some (io2, e, ofs, false))
    (hres : dir_resize io2 al pad a_dir ((dir_get_size a_dir + DIR_RESIZE_STEP) % 4294967296)
      = some (io3, al3, dir3, true))
    (hwrite : inode_write_at junk io3 al3 pad dir3.inode (dir_entry_fill e name s)
      ((sizeof_dir_entry : Nat) : Int) ofs = some (io4, al4, ino4, 20)) :
    dir_add junk io al pad u1 u2 a_dir name s
      = some (io4, al4, { dir3 with inode := ino4 }, true) := by
  unfold dir_add
  rw [if_neg hname, hlook]
  simp only
  rw [hscan]
  simp only [Bool.false_eq_true, if_false]
  rw [hres]
  simp only
  rw [hwrite]
  simp only
  have h20 : to_u32 (20 : Int) = sizeof_dir_entry := by unfold to_u32 sizeof_dir_entry; omega
  simp [h20]

theorem dir_get_size_eq {a_dir : dir} (h0 : 0 ≤ a_dir.inode.block_data.size)
    (h1 : a_dir.inode.block_data.size ≤ MAX_BYTES) :
    dir_get_size a_dir = entry_count a_dir.inode.block_data := by
  unfold MAX_BYTES at h1
  unfold dir_get_size entry_count inode_length
  rw [to_u32_of_nonneg h0 (by omega)]

/-- The function `dir_add` on a well-formed directory with writes allowed, for a valid name
that `lookup` does not find, when the allocations succeed: it returns true; the entry is in the
first slot that was not in use, or in the first one of eight new slots behind the old ones;
every other byte of the directory is what it was, or zero when it is new. -/
theorem dir_add_spec {io : Io} {al : Alloc} {a_dir : dir} (junk : Int)
    (pad u1 u2 : Nat → Nat) {name : List Nat} (s : Nat) (hinv : IoInv io) (hal : AllocInv al)
    (hm : ∀ k, al.malloc_ok k = true) (hh : HandleInv a_dir.inode (disk io) al)
    (hdeny : a_dir.inode.deny_write_cnt = 0) (hne : name ≠ [])
    (hlen : name.length ≤ NAME_MAX)
    (habs : (lookup io a_dir name u1).map Prod.snd = some none)
    (hmax : first_match (fun j => !dir_entry_in_use
        (entry_at a_dir.inode.block_data (disk io) j)) 0
        (entry_count a_dir.inode.block_data) = none →
      20 * (entry_count a_dir.inode.block_data + 8) ≤ MAX_BYTES)
    (hfree : first_match (fun j => !dir_entry_in_use
        (entry_at a_dir.inode.block_data (disk io) j)) 0
        (entry_count a_dir.inode.block_data) = none →
      grow_need (bytes_to_sectors a_dir.inode.block_data.size)
        (bytes_to_sectors ((20 * (entry_count a_dir.inode.block_data + 8) : Nat) : Int)
          - bytes_to_sectors a_dir.inode.block_data.size) ≤ free_count al.free_map) :
    ∃ io' al' d' j e,
      dir_add junk io al pad u1 u2 a_dir name s
        = some (io', al', { a_dir with inode := { a_dir.inode with block_data := d' } },
            true) ∧
      IoInv io' ∧ AllocInv al' ∧ (∀ k, al'.malloc_ok k = true) ∧ io'.ticks = io.ticks ∧
      HandleInv { a_dir.inode with block_data := d' } (disk io') al' ∧
      d'.is_dir = a_dir.inode.block_data.is_dir ∧
      ((first_match (fun j => !dir_entry_in_use (entry_at a_dir.inode.block_data (disk io) j))
            0 (entry_count a_dir.inode.block_data) = some j ∧
          d'.size = a_dir.inode.block_data.size ∧ al' = al) ∨
        (first_match (fun j => !dir_entry_in_use (entry_at a_dir.inode.block_data (disk io) j))
            0 (entry_count a_dir.inode.block_data) = none ∧
          j = entry_count a_dir.inode.block_data ∧
          d'.size = ((20 * (entry_count a_dir.inode.block_data + 8) : Nat) : Int) ∧
          free_count al'.free_map + grow_need (bytes_to_sectors a_dir.inode.block_data.size)
            (bytes_to_sectors ((20 * (entry_count a_dir.inode.block_data + 8) : Nat) : Int)
              - bytes_to_sectors a_dir.inode.block_data.size) = free_count al.free_map)) ∧
      (∀ k, k < 20 → file_byte d' (disk io') (20 * j + k) = dir_entry_fill e name s k) ∧
      (∀ p, p < d'.size.toNat → ¬ (20 * j ≤ p ∧ p < 20 * j + 20) →
        file_byte d' (disk io') p
          = if p < a_dir.inode.block_data.size.toNat then
              file_byte a_dir.inode.block_data (disk io) p else 0) ∧
      (∀ t, in_use al t → in_use al' t) := by
  have h0 := hh.file.size_nonneg
  have hmaxd := hh.file.size_max
  unfold MAX_BYTES at hmaxd
  have hK : 20 * entry_count a_dir.inode.block_data ≤ a_dir.inode.block_data.size.toNat := by
    unfold entry_count sizeof_dir_entry
    exact Nat.mul_div_le _ _
  have hK2 : a_dir.inode.block_data.size.toNat
      < 20 * (entry_count a_dir.inode.block_data + 1) := by
    have := (entry_count_lt h0 (i := entry_count a_dir.inode.block_data)).not.1
      (Nat.lt_irrefl _)
    push_cast at this
    omega
  have hname : ¬ (name = [] ∨ strlen name > NAME_MAX) := by
    unfold strlen
    intro h
    rcases h with h | h
    · exact hne h
    · omega
  obtain ⟨io1, hlook, hinv1, hd1, ht1⟩ := lookup_spec hal hinv hh.file name u1
  rw [hlook] at habs
  simp only [Option.map_some', Option.some.injEq] at habs
  rw [habs] at hlook
  have hfile1 : FileInv a_dir.inode.block_data (disk io) al := hh.file
  obtain ⟨io2, e, hinv2, hd2, ht2, hcase⟩ := dir_add_scan_spec hal hfile1
    (entry_count a_dir.inode.block_data) 0
    ((inode_length a_dir.inode).toNat / sizeof_dir_entry + 2) io1 u2 0 hinv1 hd1 rfl
    (Nat.zero_add _) (by
      have e : entry_count a_dir.inode.block_data
        = (inode_length a_dir.inode).toNat / sizeof_dir_entry := rfl
      rw [← e]
      omega)
  have h20 : ((sizeof_dir_entry : Nat) : Int) = 20 := rfl
  rcases hcase with ⟨j, hj, hscan⟩ | ⟨hnone, hscan⟩
  · obtain ⟨_, hjK, _, _⟩ := first_match_some hj
    have hjK' := (entry_count_lt h0).1 (show j < entry_count a_dir.inode.block_data by omega)
    have hh2 : HandleInv a_dir.inode (disk io2) al := by rw [hd2]; exact hh
    obtain ⟨io4, hwrite, hinv4, ht4, hh4, hin4, hout4, _, _⟩ :=
      write_entry junk pad (dir_entry_fill e name s) hinv2 hal hh2 hdeny
        (show j < entry_count a_dir.inode.block_data by omega) rfl
    refine ⟨io4, al, a_dir.inode.block_data, j, e, dir_add_of_found hname hlook hscan hwrite,
      hinv4, hal, hm, by rw [ht4, ht2, ht1], hh4, rfl, Or.inl ⟨hj, rfl, rfl⟩, hin4, ?_,
      fun _ h => h⟩
    intro p hp hout
    rw [if_pos hp, hout4 p hp hout, hd2]
  · have hh2 : HandleInv a_dir.inode (disk io2) al := by rw [hd2]; exact hh
    have hmax := hmax hnone
    have hfree := hfree hnone
    have hmax' := hmax
    unfold MAX_BYTES at hmax'
    have hsz : dir_get_size a_dir = entry_count a_dir.inode.block_data :=
      dir_get_size_eq h0 hh.file.size_max
    have hgrow : a_dir.inode.block_data.size
        < ((20 * (entry_count a_dir.inode.block_data + 8) : Nat) : Int) := by
      push_cast
      omega
    obtain ⟨io3, al3, d3, hres, hinv3, hal3, hm3, ht3, hh3, hsize3, hdir3, hbytes3, hmono3,
      hcnt3⟩ := inode_resize_grow pad hinv2 hal hm hh2 hgrow hmax hfree
    have hresize : dir_resize io2 al pad a_dir
        ((dir_get_size a_dir + DIR_RESIZE_STEP) % 4294967296)
        = some (io3, al3, { a_dir with inode := { a_dir.inode with block_data := d3 } },
            true) := by
      unfold dir_resize
      rw [hsz]
      unfold DIR_RESIZE_STEP sizeof_dir_entry
      have e1 : (entry_count a_dir.inode.block_data + 8) % 4294967296
          = entry_count a_dir.inode.block_data + 8 := by omega
      have e2 : (entry_count a_dir.inode.block_data + 8) * 20 % 4294967296
          = 20 * (entry_count a_dir.inode.block_data + 8) := by omega
      rw [e1, e2, if_neg (by omega), hres]
    have hK3 : entry_count a_dir.inode.block_data < entry_count d3 := by
      unfold entry_count sizeof_dir_entry
      rw [hsize3, Int.toNat_ofNat]
      omega
    obtain ⟨io4, hwrite, hinv4, ht4, hh4, hin4, hout4, _, _⟩ :=
      @write_entry io3 al3 { a_dir.inode with block_data := d3 } junk pad
        (dir_entry_fill e name s) hinv3 hal3 hh3 hdeny _ hK3 _ rfl
    have hadd := dir_add_of_grown hname hlook hscan hresize hwrite
    refine ⟨io4, al3, d3, entry_count a_dir.inode.block_data, e, hadd, hinv4, hal3, hm3,
      by rw [ht4, ht3, ht2, ht1], hh4, hdir3, Or.inr ⟨hnone, rfl, hsize3, hcnt3⟩, hin4, ?_,
      hmono3⟩
    intro p hp hout
    have := hout4 p hp hout
    simp only at this
    rw [hsize3] at hp
    simp only [Int.toNat_ofNat] at hp
    rw [this, hbytes3 p hp, hd2]

theorem entry_buf_congr {d d' : inode_data} {D D' : Nat → Nat → Nat} {i : Nat}
    (u : Nat → Nat) (h : ∀ k, k < 20 → file_byte d' D' (20 * i + k) = file_byte d D (20 * i + k)) :
    entry_buf d' D' i u = entry_buf d D i u := by
  funext k
  unfold entry_buf sizeof_dir_entry
  by_cases c : k < 20
  · rw [if_pos c, if_pos c, h k c]
  · rw [if_neg c, if_neg c]

theorem entry_matches_buf (name : List Nat) (hlen : name.length ≤ NAME_MAX) (d : inode_data)
    (D : Nat → Nat → Nat) (i : Nat) (u : Nat → Nat) :
    entry_matches name (entry_buf d D i u) = entry_matches name (entry_at d D i) := by
  unfold NAME_MAX at hlen
  apply entry_matches_congr
  intro k hk
  exact entry_buf_at d D i u k (by omega)

theorem entry_matches_free (name : List Nat) {e : Nat → Nat}
    (h : dir_entry_in_use e = false) : entry_matches name e = false := by
  unfold entry_matches
  rw [h, Bool.false_and]

/-- What `lookup` gives after `dir_add` has stored an entry for `name` in slot `j` of a
well-formed directory that did not hold the name: the entry of `name`, and for every other
name what it gave before. -/
theorem dir_add_lookups {io io' : Io} {al al' : Alloc} {a_dir : dir} {d' : inode_data}
    {j : Nat} {e : Nat → Nat} {name : List Nat} {s : Nat}
    (hinv : IoInv io) (hal : AllocInv al) (hh : HandleInv a_dir.inode (disk io) al)
    (hinv' : IoInv io') (hal' : AllocInv al')
    (hh' : HandleInv { a_dir.inode with block_data := d' } (disk io') al')
    (hlen : name.length ≤ NAME_MAX) (hc : CStr name) (hs : s < 4294967296)
    (habs : ∀ i, i < entry_count a_dir.inode.block_data →
      entry_matches name (entry_at a_dir.inode.block_data (disk io) i) = false)
    (hslot : (first_match
            (fun j => !dir_entry_in_use (entry_at a_dir.inode.block_data (disk io) j))
            0 (entry_count a_dir.inode.block_data) = some j ∧
          d'.size = a_dir.inode.block_data.size) ∨
        (j = entry_count a_dir.inode.block_data ∧
          d'.size = ((20 * (entry_count a_dir.inode.block_data + 8) : Nat) : Int)))
    (hin : ∀ k, k < 20 → file_byte d' (disk io') (20 * j + k) = dir_entry_fill e name s k)
    (hout : ∀ p, p < d'.size.toNat → ¬ (20 * j ≤ p ∧ p < 20 * j + 20) →
      file_byte d' (disk io') p
        = if p < a_dir.inode.block_data.size.toNat then
            file_byte a_dir.inode.block_data (disk io) p else 0) (u : Nat → Nat) :
    (∃ io2, lookup io' { a_dir with inode := { a_dir.inode with block_data := d' } } name u
        = some (io2, some (entry_buf d' (disk io') j u, ((20 * j : Nat) : Int))) ∧
      get_u32 (entry_buf d' (disk io') j u) 0 = s) ∧
    (∀ name', CStr name' → name' ≠ name →
      (lookup io' { a_dir with inode := { a_dir.inode with block_data := d' } } name' u).map
          Prod.snd
        = (lookup io a_dir name' u).map Prod.snd) := by
  have h0 := hh.file.size_nonneg
  have hK : 20 * entry_count a_dir.inode.block_data ≤ a_dir.inode.block_data.size.toNat := by
    unfold entry_count sizeof_dir_entry
    exact Nat.mul_div_le _ _
  have hK2 : a_dir.inode.block_data.size.toNat
      < 20 * (entry_count a_dir.inode.block_data + 1) := by
    have := (entry_count_lt h0 (i := entry_count a_dir.inode.block_data)).not.1
      (Nat.lt_irrefl _)
    push_cast at this
    omega
  -- the number of entries afterwards, and the slot
  have hcount : entry_count a_dir.inode.block_data ≤ entry_count d' ∧ j < entry_count d' ∧
      j ≤ entry_count a_dir.inode.block_data ∧
      a_dir.inode.block_data.size.toNat ≤ d'.size.toNat ∧
      (j < entry_count a_dir.inode.block_data →
        dir_entry_in_use (entry_at a_dir.inode.block_data (disk io) j) = false) ∧
      (entry_count a_dir.inode.block_data < entry_count d' →
        j = entry_count a_dir.inode.block_data) := by
    rcases hslot with ⟨hj, hsize⟩ | ⟨hj, hsize⟩
    · obtain ⟨_, a2, a3, _⟩ := first_match_some hj
      have e1 : entry_count d' = entry_count a_dir.inode.block_data := by
        unfold entry_count
        rw [hsize]
      rw [e1, hsize]
      exact ⟨Nat.le_refl _, by omega, by omega, Nat.le_refl _, fun _ => by simpa using a3,
        fun h => absurd h (Nat.lt_irrefl _)⟩
    · have e1 : entry_count d' = entry_count a_dir.inode.block_data + 8 := by
        unfold entry_count sizeof_dir_entry
        rw [hsize, Int.toNat_ofNat]
        omega
      rw [e1, hsize, Int.toNat_ofNat, hj]
      exact ⟨by omega, by omega, Nat.le_refl _, by omega,
        fun h => absurd h (Nat.lt_irrefl _), fun _ => rfl⟩
  obtain ⟨c1, c2, c3, c4, c5, c6⟩ := hcount
  have hK' : 20 * entry_count d' ≤ d'.size.toNat := by
    unfold entry_count sizeof_dir_entry
    exact Nat.mul_div_le _ _
  -- the entries afterwards
  have hold : ∀ i, i < entry_count a_dir.inode.block_data → i ≠ j →
      entry_buf d' (disk io') i u = entry_buf a_dir.inode.block_data (disk io) i u := by
    intro i hi hij
    apply entry_buf_congr
    intro k hk
    rw [hout (20 * i + k) (by omega) (by omega), if_pos (by omega)]
  have hnew : ∀ i, entry_count a_dir.inode.block_data ≤ i → i < entry_count d' → i ≠ j →
      dir_entry_in_use (entry_buf d' (disk io') i u) = false := by
    intro i hi1 hi2 hij
    have hj := c6 (by omega)
    unfold dir_entry_in_use entry_buf sizeof_dir_entry
    rw [if_pos (by decide), hout (20 * i + 19) (by omega) (by omega), if_neg (by omega)]
    decide
  have hfill : ∀ name', CStr name' →
      entry_matches name' (entry_buf d' (disk io') j u) = decide (name' = name) :=
    fun name' hc' => entry_matches_fill hlen hc
      (fun k hk => by rw [entry_buf_lt _ _ _ _ hk]; exact hin k hk) hc'
  obtain ⟨io2, hlook2, _, _, _⟩ := @lookup_spec al' hal' io' hinv'
    { a_dir with inode := { a_dir.inode with block_data := d' } } hh'.file name u
  refine ⟨⟨io2, ?_, ?_⟩, ?_⟩
  · rw [hlook2]
    have hfound : first_match (fun i => entry_matches name (entry_buf d' (disk io') i u)) 0
        (entry_count d') = some j := by
      apply first_match_of (Nat.zero_le _) (by omega)
      · show entry_matches name (entry_buf d' (disk io') j u) = true
        rw [hfill name hc]
        simp
      · intro k _ hk
        show entry_matches name (entry_buf d' (disk io') k u) = false
        rw [hold k (by omega) (by omega), entry_matches_buf name hlen]
        exact habs k (by omega)
    show some (io2, Option.map _ (first_match _ 0 (entry_count d'))) = _
    rw [hfound]
    rfl
  · apply get_u32_u32_bytes hs
    intro k hk
    rw [Nat.zero_add, entry_buf_lt _ _ _ _ (by omega)]
    rw [hin k (by omega), dir_entry_fill_sector _ _ _ hk]
  · intro name' hc' hne'
    obtain ⟨io3, hlook3, _, _, _⟩ := @lookup_spec al' hal' io' hinv'
      { a_dir with inode := { a_dir.inode with block_data := d' } } hh'.file name' u
    obtain ⟨io4, hlook4, _, _, _⟩ := lookup_spec hal hinv hh.file name' u
    rw [hlook3, hlook4]
    simp only [Option.map_some', Option.some.injEq]
    have hq : ∀ k, k < entry_count d' → k = j →
        entry_matches name' (entry_buf d' (disk io') k u) = false := by
      intro k _ hkj
      rw [hkj, hfill name' hc']
      simpa using hne'
    have hp : ∀ k, k < entry_count a_dir.inode.block_data → k = j →
        entry_matches name' (entry_buf a_dir.inode.block_data (disk io) k u) = false := by
      intro k hk hkj
      apply entry_matches_free
      rw [in_use_congr (entry_buf_at _ _ _ _ 19 (by decide)), hkj]
      exact c5 (by omega)
    have hfm : first_match (fun i => entry_matches name' (entry_buf d' (disk io') i u)) 0
          (entry_count d')
        = first_match (fun i => entry_matches name'
            (entry_buf a_dir.inode.block_data (disk io) i u)) 0
          (entry_count a_dir.inode.block_data) := by
      apply first_match_congr c1
      · intro k _ hk
        simp only [Nat.zero_add] at hk
        by_cases hkj : k = j
        · show entry_matches name' (entry_buf d' (disk io') k u)
            = entry_matches name' (entry_buf a_dir.inode.block_data (disk io) k u)
          rw [hq k (by omega) hkj, hp k hk hkj]
        · show entry_matches name' (entry_buf d' (disk io') k u)
            = entry_matches name' (entry_buf a_dir.inode.block_data (disk io) k u)
          rw [hold k hk hkj]
      · intro k hk1 hk2
        simp only [Nat.zero_add] at hk1 hk2
        by_cases hkj : k = j
        · exact hq k hk2 hkj
        · exact entry_matches_free name' (hnew k hk1 hk2 hkj)
    show Option.map _ (first_match _ 0 (entry_count d')) = Option.map _ (first_match _ 0 _)
    rw [hfm]
    cases hf : first_match (fun i => entry_matches name'
        (entry_buf a_dir.inode.block_data (disk io) i u)) 0
        (entry_count a_dir.inode.block_data) with
    | none => rfl
    | some i =>
      obtain ⟨_, a2, a3, _⟩ := first_match_some hf
      simp only [Nat.zero_add] at a2
      have hij : i ≠ j := by
        intro hij
        have := hp i a2 hij
        rw [this] at a3
        cases a3
      simp only [Option.map_some', Option.some.injEq, Prod.mk.injEq, and_true]
      exact hold i a2 hij

/-- On a well-formed directory, `lookup` of a name of at most 14 bytes finds nothing exactly
when no entry is in use with that name. -/
theorem lookup_absent_iff {al : Alloc} (hal : AllocInv al) {io : Io} (hinv : IoInv io)
    {a_dir : dir} (hfile : FileInv a_dir.inode.block_data (disk io) al) {name : List Nat}
    (hlen : name.length ≤ NAME_MAX) (u : Nat → Nat) :
    (lookup io a_dir name u).map Prod.snd = some none ↔
      ∀ i, i < entry_count a_dir.inode.block_data →
        entry_matches name (entry_at a_dir.inode.block_data (disk io) i) = false := by
  obtain ⟨io1, hlook, _, _, _⟩ := lookup_spec hal hinv hfile name u
  rw [hlook]
  simp only [Option.map_some', Option.some.injEq, Option.map_eq_none']
  rw [first_match_none]
  constructor
  · intro h i hi
    have this : entry_matches name (entry_buf a_dir.inode.block_data (disk io) i u)
        = false := h i (Nat.zero_le _) (by omega)
    rw [entry_matches_buf name hlen] at this
    exact this
  · intro h i _ hi
    show entry_matches name (entry_buf a_dir.inode.block_data (disk io) i u) = false
    rw [entry_matches_buf name hlen]
    exact h i (by omega)

/-- The function `dir_add` on a well-formed directory with writes allowed, for a valid name
that `lookup` does not find, when the allocations succeed: what it returns, the state
afterwards and what `lookup` gives afterwards. -/
theorem dir_add_ok {io : Io} {al : Alloc} {a_dir : dir} (junk : Int)
    (pad u1 u2 : Nat → Nat) {name : List Nat} {s : Nat} (hinv : IoInv io) (hal : AllocInv al)
    (hm : ∀ k, al.malloc_ok k = true) (hh : HandleInv a_dir.inode (disk io) al)
    (hdeny : a_dir.inode.deny_write_cnt = 0) (hne : name ≠ [])
    (hlen : name.length ≤ NAME_MAX) (hc : CStr name) (hs : s < 4294967296)
    (habs : (lookup io a_dir name u1).map Prod.snd = some none)
    (hmax : 20 * (entry_count a_dir.inode.block_data + 8) ≤ MAX_BYTES)
    (hfree : grow_need (bytes_to_sectors a_dir.inode.block_data.size)
      (bytes_to_sectors ((20 * (entry_count a_dir.inode.block_data + 8) : Nat) : Int)
        - bytes_to_sectors a_dir.inode.block_data.size) ≤ free_count al.free_map) :
    ∃ io' al' d' j e,
      dir_add junk io al pad u1 u2 a_dir name s
        = some (io', al', { a_dir with inode := { a_dir.inode with block_data := d' } },
            true) ∧
      IoInv io' ∧ AllocInv al' ∧ (∀ k, al'.malloc_ok k = true) ∧ io'.ticks = io.ticks ∧
      HandleInv { a_dir.inode with block_data := d' } (disk io') al' ∧
      d'.is_dir = a_dir.inode.block_data.is_dir ∧
      ((first_match (fun j => !dir_entry_in_use (entry_at a_dir.inode.block_data (disk io) j))
            0 (entry_count a_dir.inode.block_data) = some j ∧
          d'.size = a_dir.inode.block_data.size ∧ al' = al) ∨
        (first_match (fun j => !dir_entry_in_use (entry_at a_dir.inode.block_data (disk io) j))
            0 (entry_count a_dir.inode.block_data) = none ∧
          j = entry_count a_dir.inode.block_data ∧
          d'.size = ((20 * (entry_count a_dir.inode.block_data + 8) : Nat) : Int) ∧
          free_count al'.free_map + grow_need (bytes_to_sectors a_dir.inode.block_data.size)
            (bytes_to_sectors ((20 * (entry_count a_dir.inode.block_data + 8) : Nat) : Int)
              - bytes_to_sectors a_dir.inode.block_data.size) = free_count al.free_map)) ∧
      (∀ k, k < 20 → file_byte d' (disk io') (20 * j + k) = dir_entry_fill e name s k) ∧
      (∀ p, p < d'.size.toNat → ¬ (20 * j ≤ p ∧ p < 20 * j + 20) →
        file_byte d' (disk io') p
          = if p < a_dir.inode.block_data.size.toNat then
              file_byte a_dir.inode.block_data (disk io) p else 0) ∧
      (∀ u, (∃ io2,
          lookup io' { a_dir with inode := { a_dir.inode with block_data := d' } } name u
            = some (io2, some (entry_buf d' (disk io') j u, ((20 * j : Nat) : Int))) ∧
          get_u32 (entry_buf d' (disk io') j u) 0 = s) ∧
        (∀ name', CStr name' → name' ≠ name →
          (lookup io' { a_dir with inode := { a_dir.inode with block_data := d' } } name'
              u).map Prod.snd
            = (lookup io a_dir name' u).map Prod.snd)) := by
  obtain ⟨io', al', d', j, e, hadd, hinv', hal', hm', ht', hh', hdir', hslot, hin, hout, _⟩ :=
    dir_add_spec junk pad u1 u2 s hinv hal hm hh hdeny hne hlen habs (fun _ => hmax)
      (fun _ => hfree)
  refine ⟨io', al', d', j, e, hadd, hinv', hal', hm', ht', hh', hdir', hslot, hin, hout, ?_⟩
  intro u
  apply dir_add_lookups hinv hal hh hinv' hal' hh' hlen hc hs
    ((lookup_absent_iff hal hinv hh.file hlen u1).1 habs) _ hin hout u
  rcases hslot with ⟨h1, h2, _⟩ | ⟨_, h2, h3, _⟩
  · exact Or.inl ⟨h1, h2⟩
  · exact Or.inr ⟨h2, h3⟩

/-- C21: on a well-formed directory with writes allowed, for every valid name (1 to 14 bytes,
none of them NUL) that `lookup` does not find and every sector `s`, when the allocations
succeed, `dir_add` returns true, and afterwards `lookup` of the name finds an entry with
`inode_sector = s`, and `lookup` of every other name gives the entry and the offset that it
gave before the call. -/
theorem dir_add_then_lookup {io : Io} {al : Alloc} {a_dir : dir} (junk : Int)
    (pad u1 u2 : Nat → Nat) {name : List Nat} {s : Nat} (hinv : IoInv io) (hal : AllocInv al)
    (hm : ∀ k, al.malloc_ok k = true) (hh : HandleInv a_dir.inode (disk io) al)
    (hdeny : a_dir.inode.deny_write_cnt = 0) (hne : name ≠ [])
    (hlen : name.length ≤ NAME_MAX) (hc : CStr name) (hs : s < 4294967296)
    (habs : (lookup io a_dir name u1).map Prod.snd = some none)
    (hmax : 20 * (entry_count a_dir.inode.block_data + 8) ≤ MAX_BYTES)
    (hfree : grow_need (bytes_to_sectors a_dir.inode.block_data.size)
      (bytes_to_sectors ((20 * (entry_count a_dir.inode.block_data + 8) : Nat) : Int)
        - bytes_to_sectors a_dir.inode.block_data.size) ≤ free_count al.free_map) :
    ∃ io' al' dir',
      dir_add junk io al pad u1 u2 a_dir name s = some (io', al', dir', true) ∧
      ∀ u, (∃ io2 e ofs, lookup io' dir' name u = some (io2, some (e, ofs)) ∧
          get_u32 e 0 = s) ∧
        (∀ name', CStr name' → name' ≠ name →
          (lookup io' dir' name' u).map Prod.snd = (lookup io a_dir name' u).map Prod.snd) := by
  obtain ⟨io', al', d', j, e, hadd, _, _, _, _, _, _, _, _, _, hlook⟩ :=
    dir_add_ok junk pad u1 u2 hinv hal hm hh hdeny hne hlen hc hs habs hmax hfree
  refine ⟨io', al', _, hadd, fun u => ?_⟩
  obtain ⟨⟨io2, h1, h2⟩, h3⟩ := hlook u
  exact ⟨⟨io2, _, _, h1, h2⟩, h3⟩

/-- A handle of a file of at most one sector is well formed when its data sector and its
inode sector are two sectors in use and the data sector holds zeros behind the file. -/
theorem HandleInv_one_sector {ino : inode} {D : Nat → Nat → Nat} {al : Alloc}
    (h0 : 0 < ino.block_data.size) (h1 : ino.block_data.size ≤ 512)
    (hne : ino.block_data.l0_blocks 0 ≠ ino.sector)
    (hu1 : in_use al (ino.block_data.l0_blocks 0)) (hu2 : in_use al ino.sector)
    (hz : ∀ k, ino.block_data.size.toNat ≤ k → k < 512 → D (ino.block_data.l0_blocks 0) k = 0) :
    HandleInv ino D al := by
  have hn : bytes_to_sectors ino.block_data.size = 1 := by
    rw [bytes_to_sectors_eq (by omega) (by omega)]
    omega
  have hlive : ∀ x, slot_live 1 x → x = Slot.data 0 := by
    intro x hx
    cases x with
    | data i => simp only [slot_live] at hx; congr 1; omega
    | l1 k => simp only [slot_live] at hx; omega
    | l2 a => simp only [slot_live] at hx; omega
  have hsec : slot_sector ino.block_data D (Slot.data 0) = ino.block_data.l0_blocks 0 := rfl
  refine ⟨⟨by omega, by unfold MAX_BYTES; omega, ?_, ?_⟩, hu2, ?_⟩
  · rw [hn]
    constructor
    · intro x hx
      rw [hlive x hx, hsec]
      exact hu1
    · intro x y hx hy _
      rw [hlive x hx, hlive y hy]
  · intro p hp1 hp2
    rw [hn] at hp2
    unfold file_byte data_sector
    have e0 : p / 512 = 0 := by omega
    have e1 : p % 512 = p := by omega
    rw [e0, if_pos (by decide), e1]
    exact hz p hp1 (by omega)
  · intro x hx
    rw [hn] at hx
    rw [hlive x hx, hsec]
    exact hne

theorem HandleInv_small_dir : HandleInv small_dir.inode (disk dir_io) small_alloc := by
  apply HandleInv_one_sector (by decide) (by decide) (by decide) (by decide) (by decide)
  intro k hk1 hk2
  have hk : 20 ≤ k := hk1
  have := @file_byte_small_dir k hk2
  unfold file_byte data_sector at this
  have e0 : k / 512 = 0 := by omega
  have e1 : k % 512 = k := by omega
  rw [e0, if_pos (by decide), e1] at this
  rw [this]
  unfold dir_device
  rw [if_pos rfl, if_neg (by omega), if_neg (by omega), if_neg (by omega)]

theorem small_dir_absent {name : List Nat} (hlen : name.length ≤ NAME_MAX)
    (h : entry_matches name (entry_at small_dir.inode.block_data (disk dir_io) 0) = false)
    (u : Nat → Nat) : (lookup dir_io small_dir name u).map Prod.snd = some none := by
  rw [lookup_absent_iff (show AllocInv small_alloc by decide) IoInv_dir FileInv_small_dir hlen]
  intro i hi
  have hi0 : i = 0 := by
    have : entry_count small_dir.inode.block_data = 1 := by decide
    omega
  rw [hi0]
  exact h

/-- Witness for C21: the name "b" for sector 5 is added to the directory that holds the name
"a" in its only slot. -/
theorem dir_add_then_lookup_witness :
    ∃ io' al' dir',
      dir_add 0 dir_io small_alloc (fun _ => 0) (fun _ => 0) (fun _ => 0) small_dir [98] 5
        = some (io', al', dir', true) ∧
      ∀ u, (∃ io2 e ofs, lookup io' dir' [98] u = some (io2, some (e, ofs)) ∧
          get_u32 e 0 = 5) ∧
        (∀ name', CStr name' → name' ≠ [98] →
          (lookup io' dir' name' u).map Prod.snd
            = (lookup dir_io small_dir name' u).map Prod.snd) :=
  dir_add_then_lookup 0 (fun _ => 0) (fun _ => 0) (fun _ => 0) IoInv_dir
    (show AllocInv small_alloc by decide) (fun _ => rfl) HandleInv_small_dir rfl (by decide)
    (by decide) (by unfold CStr; decide) (by decide)
    (small_dir_absent (by decide) (by decide!) _)
    (by decide) (by decide)

theorem lookup_found_of_map {io io' : Io} {a_dir a_dir' : dir} {name : List Nat}
    {u : Nat → Nat} {r : Option ((Nat → Nat) × Int)} {io2 : Io}
    (h : (lookup io' a_dir' name u).map Prod.snd = (lookup io a_dir name u).map Prod.snd)
    (hl : lookup io a_dir name u = some (io2, r)) :
    ∃ io3, lookup io' a_dir' name u = some (io3, r) := by
  rw [hl] at h
  cases hq : lookup io' a_dir' name u with
  | none =>
    rw [hq] at h
    cases h
  | some q =>
    rw [hq] at h
    simp only [Option.map_some', Option.some.injEq] at h
    exact ⟨q.1, by rw [← h]⟩

theorem grow_step_le {size : Int} (h0 : 0 ≤ size) (h1 : size ≤ MAX_BYTES) {K : Nat}
    (hK : 20 * K ≤ size.toNat) (hmax : 20 * (K + 8) ≤ MAX_BYTES) :
    grow_need (bytes_to_sectors size)
      (bytes_to_sectors ((20 * (K + 8) : Nat) : Int) - bytes_to_sectors size) ≤ 3 := by
  unfold MAX_BYTES at h1 hmax
  have := grow_need_le (bytes_to_sectors size)
    (bytes_to_sectors ((20 * (K + 8) : Nat) : Int) - bytes_to_sectors size)
  rw [bytes_to_sectors_eq h0 (by omega), bytes_to_sectors_eq (by omega) (by omega)] at this ⊢
  rw [Int.toNat_ofNat] at this ⊢
  omega

/-- Calls of `dir_add` for a list of distinct valid names that a well-formed directory does
not hold, with three free sectors for every name: every call returns true, and afterwards
`lookup` finds every name of the list with its sector and gives for every other name what it
gave before. -/
theorem dir_add_all_spec (junk : Int) (pad u1 u2 : Nat → Nat) :
    ∀ (l : List (List Nat × Nat)) (io : Io) (al : Alloc) (a_dir : dir),
      IoInv io → AllocInv al → (∀ k, al.malloc_ok k = true) →
      HandleInv a_dir.inode (disk io) al → a_dir.inode.deny_write_cnt = 0 →
      (∀ x ∈ l, x.1 ≠ [] ∧ x.1.length ≤ NAME_MAX ∧ CStr x.1 ∧ x.2 < 4294967296) →
      (l.map Prod.fst).Nodup →
      (∀ x ∈ l, (lookup io a_dir x.1 u1).map Prod.snd = some none) →
      a_dir.inode.block_data.size.toNat + 160 * l.length ≤ MAX_BYTES →
      3 * l.length ≤ free_count al.free_map →
    ∃ io' al' d',
      dir_add_all junk pad u1 u2 io al a_dir l
        = some (io', al', { a_dir with inode := { a_dir.inode with block_data := d' } },
            true) ∧
      IoInv io' ∧ AllocInv al' ∧
      HandleInv { a_dir.inode with block_data := d' } (disk io') al' ∧
      (a_dir.inode.block_data.size % 20 = 0 → d'.size % 20 = 0) ∧
      (∀ x ∈ l, ∀ u, ∃ io2 e ofs,
        lookup io' { a_dir with inode := { a_dir.inode with block_data := d' } } x.1 u
          = some (io2, some (e, ofs)) ∧ get_u32 e 0 = x.2) ∧
      (∀ name' u, CStr name' → name' ∉ l.map Prod.fst →
        (lookup io' { a_dir with inode := { a_dir.inode with block_data := d' } } name'
            u).map Prod.snd
          = (lookup io a_dir name' u).map Prod.snd) := by
  intro l
  induction l with
  | nil =>
    intro io al a_dir hinv hal _ hh _ _ _ _ _ _
    exact ⟨io, al, a_dir.inode.block_data, rfl, hinv, hal, hh, fun h => h,
      fun x hx => absurd hx (List.not_mem_nil x), fun _ _ _ _ => rfl⟩
  | cons x rest ih =>
    intro io al a_dir hinv hal hm hh hdeny hval hnd habs hsize hfree
    obtain ⟨name, s⟩ := x
    have h0 := hh.file.size_nonneg
    have hK : 20 * entry_count a_dir.inode.block_data ≤ a_dir.inode.block_data.size.toNat := by
      unfold entry_count sizeof_dir_entry
      exact Nat.mul_div_le _ _
    simp only [List.length_cons] at hsize hfree
    simp only [List.map_cons, List.nodup_cons] at hnd
    obtain ⟨hne, hlen, hc, hs⟩ := hval (name, s) (List.mem_cons_self _ _)
    simp only at hne hlen hc hs
    have hmax : 20 * (entry_count a_dir.inode.block_data + 8) ≤ MAX_BYTES := by omega
    have hstep := grow_step_le h0 hh.file.size_max hK hmax
    obtain ⟨io1, al1, d1, j, e, hadd, hinv1, hal1, hm1, _, hh1, _, hslot, _, _, hlook⟩ :=
      dir_add_ok junk pad u1 u2 hinv hal hm hh hdeny hne hlen hc hs
        (habs (name, s) (List.mem_cons_self _ _)) hmax (by omega)
    have hgrow : d1.size.toNat ≤ a_dir.inode.block_data.size.toNat + 160 ∧
        free_count al.free_map ≤ free_count al1.free_map + 3 ∧
        (a_dir.inode.block_data.size % 20 = 0 → d1.size % 20 = 0) := by
      rcases hslot with ⟨_, h2, h3⟩ | ⟨_, _, h3, h4⟩
      · rw [h2, h3]
        exact ⟨by omega, by omega, fun h => h⟩
      · rw [h3, Int.toNat_ofNat]
        refine ⟨by omega, by omega, fun _ => ?_⟩
        push_cast
        omega
    obtain ⟨g1, g2, g3⟩ := hgrow
    obtain ⟨io', al', d', hall, hinv', hal', hh', hmod, hfound, hother⟩ :=
      ih io1 al1 { a_dir with inode := { a_dir.inode with block_data := d1 } } hinv1 hal1 hm1
        hh1 hdeny (fun y hy => hval y (List.mem_cons_of_mem _ hy)) hnd.2
        (fun y hy => by
          have hy1 : y.1 ≠ name := fun h => hnd.1 (by
            rw [← h]
            exact List.mem_map_of_mem Prod.fst hy)
          rw [(hlook u1).2 y.1 (hval y (List.mem_cons_of_mem _ hy)).2.2.1 hy1]
          exact habs y (List.mem_cons_of_mem _ hy))
        (by simp only; omega) (by omega)
    refine ⟨io', al', d', ?_, hinv', hal', hh', fun h => hmod (g3 h), ?_, ?_⟩
    · unfold dir_add_all
      rw [hadd]
      exact hall
    · intro y hy u
      rcases List.mem_cons.1 hy with hy1 | hy1
      · subst hy1
        obtain ⟨io2, h1, h2⟩ := (hlook u).1
        obtain ⟨io3, h3⟩ := lookup_found_of_map (hother name u hc hnd.1) h1
        exact ⟨io3, _, _, h3, h2⟩
      · exact hfound y hy1 u
    · intro name' u hc' hnot
      simp only [List.map_cons, List.mem_cons, not_or] at hnot
      rw [hother name' u hc' hnot.2]
      exact (hlook u).2 name' hc' hnot.1

/-- C22: on a well-formed directory with writes allowed, when the allocations succeed:
(1) if all `k` slots are in use and the inode size is `20 * k`, `dir_add` of a valid name that
`lookup` does not find returns true, the directory has `k + 8` slots (size `20 * (k + 8)`)
afterwards, slot `k` holds the name and the sector, the slots below `k` are unchanged and the
slots `k + 1` to `k + 7` hold zeros, so they are free; (2) for every list of distinct valid
names that `lookup` does not find, with three free sectors for every name, all calls of
`dir_add` in a row return true, a size that was a multiple of 20 is one afterwards, and
`lookup` then finds every name with its sector. -/
theorem dir_add_grows_by_eight {io : Io} {al : Alloc} {a_dir : dir} (junk : Int)
    (pad u1 u2 : Nat → Nat) (hinv : IoInv io) (hal : AllocInv al)
    (hm : ∀ k, al.malloc_ok k = true) (hh : HandleInv a_dir.inode (disk io) al)
    (hdeny : a_dir.inode.deny_write_cnt = 0) :
    (∀ (name : List Nat) (s : Nat), name ≠ [] → name.length ≤ NAME_MAX → CStr name →
      s < 4294967296 → (lookup io a_dir name u1).map Prod.snd = some none →
      a_dir.inode.block_data.size = ((20 * entry_count a_dir.inode.block_data : Nat) : Int) →
      (∀ i, i < entry_count a_dir.inode.block_data →
        dir_entry_in_use (entry_at a_dir.inode.block_data (disk io) i) = true) →
      20 * (entry_count a_dir.inode.block_data + 8) ≤ MAX_BYTES →
      grow_need (bytes_to_sectors a_dir.inode.block_data.size)
        (bytes_to_sectors ((20 * (entry_count a_dir.inode.block_data + 8) : Nat) : Int)
          - bytes_to_sectors a_dir.inode.block_data.size) ≤ free_count al.free_map →
      ∃ io' al' d',
        dir_add junk io al pad u1 u2 a_dir name s
          = some (io', al', { a_dir with inode := { a_dir.inode with block_data := d' } },
              true) ∧
        d'.size = ((20 * (entry_count a_dir.inode.block_data + 8) : Nat) : Int) ∧
        entry_count d' = entry_count a_dir.inode.block_data + 8 ∧
        dir_has_entry d' (disk io') name (entry_count a_dir.inode.block_data) ∧
        get_u32 (entry_at d' (disk io') (entry_count a_dir.inode.block_data)) 0 = s ∧
        (∀ i, i < entry_count a_dir.inode.block_data → ∀ k, k < 20 →
          entry_at d' (disk io') i k = entry_at a_dir.inode.block_data (disk io) i k) ∧
        (∀ i, entry_count a_dir.inode.block_data < i →
          i < entry_count a_dir.inode.block_data + 8 → ∀ k, k < 20 →
          entry_at d' (disk io') i k = 0)) ∧
    (∀ l : List (List Nat × Nat),
      (∀ x ∈ l, x.1 ≠ [] ∧ x.1.length ≤ NAME_MAX ∧ CStr x.1 ∧ x.2 < 4294967296) →
      (l.map Prod.fst).Nodup →
      (∀ x ∈ l, (lookup io a_dir x.1 u1).map Prod.snd = some none) →
      a_dir.inode.block_data.size.toNat + 160 * l.length ≤ MAX_BYTES →
      3 * l.length ≤ free_count al.free_map →
      ∃ io' al' d',
        dir_add_all junk pad u1 u2 io al a_dir l
          = some (io', al', { a_dir with inode := { a_dir.inode with block_data := d' } },
              true) ∧
        (a_dir.inode.block_data.size % 20 = 0 → d'.size % 20 = 0) ∧
        (∀ x ∈ l, ∀ u, ∃ io2 e ofs,
          lookup io' { a_dir with inode := { a_dir.inode with block_data := d' } } x.1 u
            = some (io2, some (e, ofs)) ∧ get_u32 e 0 = x.2)) := by
  constructor
  · intro name s hne hlen hc hs habs hsize hfull hmax hfree
    have hlen' := hlen
    unfold NAME_MAX at hlen'
    obtain ⟨io', al', d', j, e, hadd, _, _, _, _, _, _, hslot, hin, hout, _⟩ :=
      dir_add_ok junk pad u1 u2 hinv hal hm hh hdeny hne hlen hc hs habs hmax hfree
    rcases hslot with ⟨hj, _, _⟩ | ⟨_, hj, hsize', _⟩
    · obtain ⟨_, a2, a3, _⟩ := first_match_some hj
      rw [hfull j (by omega)] at a3
      cases a3
    · subst hj
      have hcount : entry_count d' = entry_count a_dir.inode.block_data + 8 := by
        unfold entry_count sizeof_dir_entry
        rw [hsize', Int.toNat_ofNat]
        omega
      rw [hsize', Int.toNat_ofNat] at hout
      rw [hsize, Int.toNat_ofNat] at hout
      refine ⟨io', al', d', hadd, hsize', hcount, ⟨?_, ?_, ?_, ?_⟩, ?_, ?_, ?_⟩
      · rw [hsize']
        unfold sizeof_dir_entry
        push_cast
        omega
      · unfold sizeof_dir_entry
        rw [hin 19 (by decide), dir_entry_fill_in_use e s hlen]
        decide
      · intro i c hi
        have hlt : i < name.length := (List.getElem?_eq_some.mp hi).1
        unfold sizeof_dir_entry
        rw [Nat.add_assoc, hin (4 + i) (by omega), dir_entry_fill_name e s hlen hlt,
          List.getD_eq_getElem?_getD, hi]
        exact Nat.mod_eq_of_lt (hc c (List.getElem?_mem hi)).2
      · unfold sizeof_dir_entry
        rw [Nat.add_assoc, hin (4 + name.length) (by omega), dir_entry_fill_nul e s hlen]
      · apply get_u32_u32_bytes hs
        intro k hk
        unfold entry_at sizeof_dir_entry
        rw [Nat.zero_add, hin k (by omega), dir_entry_fill_sector _ _ _ hk]
      · intro i hi k hk
        unfold entry_at sizeof_dir_entry
        rw [hout (20 * i + k) (by omega) (by omega), if_pos (by omega)]
      · intro i hi1 hi2 k hk
        unfold entry_at sizeof_dir_entry
        rw [hout (20 * i + k) (by omega) (by omega), if_neg (by omega)]
  · intro l hval hnd habs hsize hfree
    obtain ⟨io', al', d', hall, _, _, _, hmod, hfound, _⟩ :=
      dir_add_all_spec junk pad u1 u2 l io al a_dir hinv hal hm hh hdeny hval hnd habs hsize
        hfree
    exact ⟨io', al', d', hall, hmod, hfound⟩

theorem thirty_names_length : thirty_names.length = 30 := by
  simp [thirty_names]

theorem thirty_names_valid : ∀ x ∈ thirty_names,
    x.1 ≠ [] ∧ x.1.length ≤ NAME_MAX ∧ CStr x.1 ∧ x.2 < 4294967296 := by
  intro x hx
  unfold thirty_names at hx
  simp only [List.mem_map, List.mem_range] at hx
  obtain ⟨i, hi, rfl⟩ := hx
  refine ⟨by simp, by simp [NAME_MAX], ?_, by simp only; omega⟩
  intro c hc
  simp only [List.mem_singleton] at hc
  omega

theorem HandleInv_new_dir : HandleInv new_dir.inode (disk fresh_io) dir_alloc :=
  HandleInv_one_sector (by decide) (by decide) (by decide) (by decide) (by decide)
    (fun _ _ _ => disk_fresh _ _)

theorem new_dir_absent (name : List Nat) (hlen : name.length ≤ NAME_MAX) (u : Nat → Nat) :
    (lookup fresh_io new_dir name u).map Prod.snd = some none := by
  have hal : AllocInv dir_alloc := by simp [AllocInv, dir_alloc, SECTOR_NONE]
  rw [lookup_absent_iff hal IoInv_fresh HandleInv_new_dir.file hlen]
  intro i _
  apply entry_matches_free
  unfold dir_entry_in_use entry_at file_byte
  rw [disk_fresh]
  decide

/-- Witness for C22: the name "b" is added to the directory whose only slot holds "a", and
thirty names are added to a new directory of 16 slots. -/
theorem dir_add_grows_by_eight_witness :
    (∃ io' al' d',
      dir_add 0 dir_io small_alloc (fun _ => 0) (fun _ => 0) (fun _ => 0) small_dir [98] 5
        = some (io', al', { small_dir with inode := { small_dir.inode with block_data := d' } },
            true) ∧
      d'.size = ((20 * (entry_count small_dir.inode.block_data + 8) : Nat) : Int) ∧
      entry_count d' = entry_count small_dir.inode.block_data + 8 ∧
      dir_has_entry d' (disk io') [98] (entry_count small_dir.inode.block_data) ∧
      get_u32 (entry_at d' (disk io') (entry_count small_dir.inode.block_data)) 0 = 5 ∧
      (∀ i, i < entry_count small_dir.inode.block_data → ∀ k, k < 20 →
        entry_at d' (disk io') i k = entry_at small_dir.inode.block_data (disk dir_io) i k) ∧
      (∀ i, entry_count small_dir.inode.block_data < i →
        i < entry_count small_dir.inode.block_data + 8 → ∀ k, k < 20 →
        entry_at d' (disk io') i k = 0)) ∧
    (∃ io' al' d',
      dir_add_all 0 (fun _ => 0) (fun _ => 0) (fun _ => 0) fresh_io dir_alloc new_dir
          thirty_names
        = some (io', al', { new_dir with inode := { new_dir.inode with block_data := d' } },
            true) ∧
      (new_dir.inode.block_data.size % 20 = 0 → d'.size % 20 = 0) ∧
      (∀ x ∈ thirty_names, ∀ u, ∃ io2 e ofs,
        lookup io' { new_dir with inode := { new_dir.inode with block_data := d' } } x.1 u
          = some (io2, some (e, ofs)) ∧ get_u32 e 0 = x.2)) :=
  ⟨(dir_add_grows_by_eight 0 (fun _ => 0) (fun _ => 0) (fun _ => 0) IoInv_dir
      (show AllocInv small_alloc by decide) (fun _ => rfl) HandleInv_small_dir rfl).1 [98] 5
      (by decide) (by decide) (by unfold CStr; decide) (by decide)
      (small_dir_absent (by decide) (by decide!) _) (by decide)
      (fun i hi => by
        have hi0 : i = 0 := by
          have : entry_count small_dir.inode.block_data = 1 := by decide
          omega
        rw [hi0]
        decide!)
      (by decide) (by decide),
    (dir_add_grows_by_eight 0 (fun _ => 0) (fun _ => 0) (fun _ => 0) IoInv_fresh
      (show AllocInv dir_alloc by simp [AllocInv, dir_alloc, SECTOR_NONE]) (fun _ => rfl)
      HandleInv_new_dir rfl).2 thirty_names thirty_names_valid (by decide)
      (fun x hx => new_dir_absent x.1 (thirty_names_valid x hx).2.1 _)
      (by rw [thirty_names_length]; decide)
      (by rw [thirty_names_length]; simp [free_count, dir_alloc])⟩

theorem IoInv_listing : IoInv listing_io :=
  ⟨(buffer_cache_init_spec _ _).1, fun _ => by
    show INT64_MIN < (0 : Int) ∧ (0 : Int) < INT64_MAX
    decide⟩

theorem file_byte_listing {p : Nat} (hp : p < 512) :
    file_byte listing_dir.inode.block_data (disk listing_io) p = listing_device 2 p := by
  have h0 : p / 512 = 0 := by omega
  have h1 : p % 512 = p := by omega
  unfold file_byte data_sector
  rw [h0, if_pos (by decide), h1]
  show disk listing_io 2 p = listing_device 2 p
  unfold disk
  rw [if_pos ⟨by decide, hp⟩]
  exact (buffer_cache_init_spec listing_device (fun _ _ => 0)).2 2 (by decide) p hp

theorem FileInv_listing : FileInv listing_dir.inode.block_data (disk listing_io) small_alloc := by
  have hn : bytes_to_sectors listing_dir.inode.block_data.size = 1 := by decide
  have hlive : ∀ x, slot_live 1 x → x = Slot.data 0 := by
    intro x hx
    cases x with
    | data i => simp only [slot_live] at hx; congr 1; omega
    | l1 k => simp only [slot_live] at hx; omega
    | l2 a => simp only [slot_live] at hx; omega
  have hsec : slot_sector listing_dir.inode.block_data (disk listing_io) (Slot.data 0) = 2 := rfl
  refine ⟨by decide, by decide, ?_, ?_⟩
  · rw [hn]
    constructor
    · intro x hx
      rw [hlive x hx, hsec]
      decide
    · intro x y hx hy _
      rw [hlive x hx, hlive y hy]
  · intro p hp1 hp2
    rw [hn] at hp2
    have hp100 : 100 ≤ p := hp1
    rw [file_byte_listing (by omega)]
    unfold listing_device
    rw [if_pos rfl]
    exact List.getD_eq_default _ _ (by simpa using hp100)

theorem NamesEnd_listing : NamesEnd listing_dir.inode.block_data (disk listing_io) := by
  intro i hi _
  have hi5 : i < 5 := hi
  rcases i with _ | _ | _ | _ | _ | i
  · decide!
  · decide!
  · decide!
  · decide!
  · decide!
  · omega

/-- Witness for C25: a directory of five entries, ".", "..", an entry that is not in use and
the entries "b" and "a": the calls of `dir_readdir` give the names "b" and "a", in this order,
and the cursor ends behind the fifth entry; the first call moves the cursor from 0 to the
end of the fourth entry, over ".", ".." and the entry that is not in use. -/
theorem dir_readdir_lists_entries_witness :
    entry_count listing_dir.inode.block_data = 5 ∧
    (List.range 5).map (fun i => entry_listed (entry_at listing_dir.inode.block_data
        (disk listing_io) i)) = [false, false, false, true, true] ∧
    dir_names listing_dir.inode.block_data (disk listing_io) = [[98], [97]] ∧
    (∃ io', dir_readdir_all (entry_count listing_dir.inode.block_data + 1) listing_io
          (dir.mk listing_dir.inode 0) (fun _ => 0) (fun _ => 0)
        = some (io', dir.mk listing_dir.inode
            ((20 * entry_count listing_dir.inode.block_data : Nat) : Int),
            dir_names listing_dir.inode.block_data (disk listing_io)) ∧
        disk io' = disk listing_io) ∧
    (dir_readdir listing_io (dir.mk listing_dir.inode 0) (fun _ => 0) (fun _ => 0)).map
        (fun r => (r.2.1.pos, c_string r.2.2.1 (NAME_MAX + 1), r.2.2.2))
      = some (80, [98], true) :=
  ⟨by decide, by decide!, by decide!,
    (dir_readdir_lists_entries (show AllocInv small_alloc by decide) IoInv_listing
      FileInv_listing NamesEnd_listing (fun _ => 0) (fun _ => 0)).1, by decide!⟩

/-- Witness for C26: on "///foo/bar" `get_next_part` returns 1 with the part "foo" and the
rest "/bar", and "///foo" gives the same components as "/foo". -/
theorem get_next_part_splits_witness :
    (get_next_part (fun _ => 0) [47, 47, 47, 102, 111, 111, 47, 98, 97, 114]).1 = 1 ∧
    first_run [47, 47, 47, 102, 111, 111, 47, 98, 97, 114] = [102, 111, 111] ∧
    (get_next_part (fun _ => 0) [47, 47, 47, 102, 111, 111, 47, 98, 97, 114]).2.2
      = [47, 98, 97, 114] ∧
    path_parts 8 (fun _ => 0) (List.replicate 2 SLASH ++ [47, 102, 111, 111])
      = path_parts 8 (fun _ => 0) [47, 102, 111, 111] :=
  ⟨((get_next_part_splits (fun _ => 0) [47, 47, 47, 102, 111, 111, 47, 98, 97, 114]).2.2.2.1
      (by decide) (by decide)).1, by decide,
    ((get_next_part_splits (fun _ => 0) [47, 47, 47, 102, 111, 111, 47, 98, 97, 114]).2.2.2.1
      (by decide) (by decide)).2.2.2.2.2,
    (get_next_part_splits (fun _ => 0) [47, 102, 111, 111]).2.2.2.2.2.1 8 2⟩

/-! ## Removing an entry of a directory -/

theorem active_eq_listed (e : Nat → Nat) :
    (dir_entry_in_use e && !strcmp_eq [46] (ptr_add e 4) && !strcmp_eq [46, 46] (ptr_add e 4))
      = entry_listed e := by
  unfold entry_listed name_cwd name_prd
  cases dir_entry_in_use e <;> cases strcmp_eq [46] (ptr_add e 4) <;>
    cases strcmp_eq [46, 46] (ptr_add e 4) <;> rfl

theorem dir_get_active_entries_loop_in {fuel : Nat} {io io1 : Io} {ino : inode}
    {e e1 : Nat → Nat} {ofs : Int} {count : Nat} (hw : wrap_int ofs = ofs)
    (hread : inode_read_at io ino e ((sizeof_dir_entry : Nat) : Int) ofs = some (io1, e1, 20)) :
    dir_get_active_entries_loop (fuel + 1) io ino e ofs count
      = dir_get_active_entries_loop fuel io1 ino e1
          (size_t_add ofs ((sizeof_dir_entry : Nat) : Int))
          (if entry_listed e1 = true then (count + 1) % 4294967296 else count) := by
  conv_lhs => unfold dir_get_active_entries_loop
  rw [hw, hread]
  simp only
  have h20 : to_u32 (20 : Int) = sizeof_dir_entry := by unfold to_u32 sizeof_dir_entry; omega
  rw [if_pos h20, active_eq_listed]

theorem dir_get_active_entries_loop_out {fuel : Nat} {io io1 : Io} {ino : inode}
    {e e1 : Nat → Nat} {ofs : Int} {count : Nat} (hw : wrap_int ofs = ofs)
    (hread : inode_read_at io ino e ((sizeof_dir_entry : Nat) : Int) ofs = some (io1, e1, 0)) :
    dir_get_active_entries_loop (fuel + 1) io ino e ofs count = some (io1, count) := by
  conv_lhs => unfold dir_get_active_entries_loop
  rw [hw, hread]
  simp only
  have h0 : ¬ to_u32 (0 : Int) = sizeof_dir_entry := by unfold to_u32 sizeof_dir_entry; omega
  rw [if_neg h0]

/-- The loop of `dir_get_active_entries` on a well-formed directory, from entry `i` on: it
counts the entries that are in use and named neither "." nor "..". -/
theorem dir_get_active_entries_loop_spec {al : Alloc} (hal : AllocInv al) {ino : inode}
    {D : Nat → Nat → Nat} (hfile : FileInv ino.block_data D al) :
    ∀ m i fuel (io : Io) (e : Nat → Nat) (ofs : Int) (count : Nat), IoInv io → disk io = D →
      ofs = ((20 * i : Nat) : Int) → i + m = entry_count ino.block_data → m < fuel →
      count + m < 4294967296 →
    ∃ io', dir_get_active_entries_loop fuel io ino e ofs count
        = some (io', count + ((List.range' i m).filter
            (fun j => entry_listed (entry_at ino.block_data D j))).length) ∧
      IoInv io' ∧ disk io' = D ∧ io'.ticks = io.ticks := by
  have h0 := hfile.size_nonneg
  have hmax := hfile.size_max
  unfold MAX_BYTES at hmax
  have hK : 20 * entry_count ino.block_data ≤ ino.block_data.size.toNat := by
    unfold entry_count sizeof_dir_entry
    exact Nat.mul_div_le _ _
  intro m
  induction m with
  | zero =>
    intro i fuel io e ofs count hinv hd hofs him hfuel _
    obtain ⟨f, rfl⟩ : ∃ f, fuel = f + 1 := ⟨fuel - 1, by omega⟩
    have hi : i = entry_count ino.block_data := by omega
    subst hd
    have hw : wrap_int ofs = ofs := wrap_int_of_range (by omega) (by omega)
    rw [dir_get_active_entries_loop_out hw (read_entry_end hfile e (by rw [hofs, hi]))]
    exact ⟨io, rfl, hinv, rfl, rfl⟩
  | succ m ih =>
    intro i fuel io e ofs count hinv hd hofs him hfuel hcount
    obtain ⟨f, rfl⟩ : ∃ f, fuel = f + 1 := ⟨fuel - 1, by omega⟩
    subst hd
    have hi : i < entry_count ino.block_data := by omega
    have hw : wrap_int ofs = ofs := wrap_int_of_range (by omega) (by omega)
    obtain ⟨io1, hrd, hinv1, hd1, ht1⟩ := read_entry hal hinv hfile e hi hofs
    have hnext : size_t_add ofs ((sizeof_dir_entry : Nat) : Int)
        = ((20 * (i + 1) : Nat) : Int) := by
      unfold size_t_add sizeof_dir_entry
      push_cast
      omega
    rw [dir_get_active_entries_loop_in hw hrd, hnext,
      entry_listed_congr (entry_buf_at ino.block_data (disk io) i e), List.range'_succ]
    by_cases c : entry_listed (entry_at ino.block_data (disk io) i) = true
    · have c' : (fun j => entry_listed (entry_at ino.block_data (disk io) j)) i = true := c
      rw [if_pos c, List.filter_cons, if_pos c']
      have e1 : (count + 1) % 4294967296 = count + 1 := by omega
      rw [e1]
      obtain ⟨io', hrun, hinv', hd', ht'⟩ := ih (i + 1) f io1
        (entry_buf ino.block_data (disk io) i e) _ (count + 1) hinv1 hd1 rfl (by omega)
        (by omega) (by omega)
      refine ⟨io', ?_, hinv', hd', by rw [ht', ht1]⟩
      rw [hrun, List.length_cons]
      congr 2
      omega
    · have c' : ¬ (fun j => entry_listed (entry_at ino.block_data (disk io) j)) i = true := c
      rw [if_neg c, List.filter_cons, if_neg c']
      obtain ⟨io', hrun, hinv', hd', ht'⟩ := ih (i + 1) f io1
        (entry_buf ino.block_data (disk io) i e) _ count hinv1 hd1 rfl (by omega)
        (by omega) (by omega)
      exact ⟨io', hrun, hinv', hd', by rw [ht', ht1]⟩

/-- The function `dir_is_empty` on a well-formed directory: it changes nothing on the disk
and returns true exactly when no entry is in use with a name other than "." and "..". -/
theorem dir_is_empty_spec {al : Alloc} (hal : AllocInv al) {io : Io} (hinv : IoInv io)
    {a_dir : dir} (hfile : FileInv a_dir.inode.block_data (disk io) al) (u : Nat → Nat) :
    ∃ io' b, dir_is_empty io a_dir u = some (io', b) ∧ IoInv io' ∧ disk io' = disk io ∧
      io'.ticks = io.ticks ∧
      (b = true ↔ ∀ i, i < entry_count a_dir.inode.block_data →
        entry_listed (entry_at a_dir.inode.block_data (disk io) i) = false) := by
  have h0 := hfile.size_nonneg
  have hmax := hfile.size_max
  unfold MAX_BYTES at hmax
  have hK : 20 * entry_count a_dir.inode.block_data ≤ a_dir.inode.block_data.size.toNat := by
    unfold entry_count sizeof_dir_entry
    exact Nat.mul_div_le _ _
  obtain ⟨io', hrun, hinv', hd', ht'⟩ := dir_get_active_entries_loop_spec hal hfile
    (entry_count a_dir.inode.block_data) 0
    ((inode_length a_dir.inode).toNat / sizeof_dir_entry + 2) io u 0 0 hinv rfl rfl
    (Nat.zero_add _) (by
      have e : entry_count a_dir.inode.block_data
        = (inode_length a_dir.inode).toNat / sizeof_dir_entry := rfl
      rw [← e]
      omega) (by omega)
  have hemp : dir_is_empty io a_dir u = some (io', decide (0 + ((List.range' 0
      (entry_count a_dir.inode.block_data)).filter (fun j => entry_listed
        (entry_at a_dir.inode.block_data (disk io) j))).length = 0)) := by
    unfold dir_is_empty dir_get_active_entries
    rw [hrun]
    rfl
  refine ⟨io', _, hemp, hinv', hd', ht', ?_⟩
  · simp only [Nat.zero_add, decide_eq_true_eq, List.length_eq_zero, List.filter_eq_nil_iff,
      List.mem_range'_1, Bool.not_eq_true]
    constructor
    · intro h i hi
      exact h i ⟨Nat.zero_le _, by omega⟩
    · intro h i hi
      exact h i (by omega)

theorem handle_update_id {l : InodeList} {h : Nat} {f : inode → inode}
    (hf : ∀ p ∈ l, p.1 = h → f p.2 = p.2) : handle_update l h f = l := by
  unfold handle_update
  conv_rhs => rw [← List.map_id l]
  apply List.map_congr_left
  intro p hp
  by_cases c : p.1 = h
  · rw [if_pos c, hf p hp c]
    rfl
  · rw [if_neg c]
    rfl

theorem handle_update_comp (l : InodeList) (h : Nat) (f g : inode → inode) :
    handle_update (handle_update l h f) h g = handle_update l h (fun i => g (f i)) := by
  unfold handle_update
  rw [List.map_map]
  apply List.map_congr_left
  intro p _
  simp only [Function.comp]
  by_cases c : p.1 = h
  · simp only [if_pos c]
  · simp only [if_neg c]

theorem handle_update_cons_self (a : Nat) (x : inode) (l : InodeList) (f : inode → inode)
    (hl : ∀ p ∈ l, p.1 ≠ a) : handle_update ((a, x) :: l) a f = (a, f x) :: l := by
  have h1 : handle_update l a f = l := handle_update_id (fun p hp c => absurd c (hl p hp))
  unfold handle_update at h1 ⊢
  rw [List.map_cons, h1]
  simp

theorem handle_get_cons_ne {a h : Nat} (x : inode) (l : InodeList) (hne : h ≠ a) :
    handle_get ((a, x) :: l) h = handle_get l h := by
  unfold handle_get
  rw [List.find?_cons]
  have : decide (a = h) = false := by
    simp only [decide_eq_false_iff_not]
    exact fun e => hne e.symm
  simp only [this]

theorem filter_cons_self (a : Nat) (x : inode) (l : InodeList) (hl : ∀ p ∈ l, p.1 ≠ a) :
    ((a, x) :: l).filter (fun p => decide (p.1 ≠ a)) = l := by
  rw [List.filter_cons]
  simp only [ne_eq, not_true_eq_false, decide_False, Bool.false_eq_true, if_false]
  rw [List.filter_eq_self]
  intro p hp
  simpa using hl p hp

/-- The function `lookup` on a well-formed directory whose first entry with the name (of at
most 14 bytes) is entry `j`: it returns that entry and its offset. -/
theorem lookup_found {al : Alloc} (hal : AllocInv al) {io : Io} (hinv : IoInv io)
    {a_dir : dir} (hfile : FileInv a_dir.inode.block_data (disk io) al) {name : List Nat}
    (hlen : name.length ≤ NAME_MAX) (u : Nat → Nat) {j : Nat}
    (hj : first_match (fun i => entry_matches name
        (entry_at a_dir.inode.block_data (disk io) i)) 0
      (entry_count a_dir.inode.block_data) = some j) :
    ∃ io1, lookup io a_dir name u
        = some (io1, some (entry_buf a_dir.inode.block_data (disk io) j u,
            ((20 * j : Nat) : Int))) ∧
      IoInv io1 ∧ disk io1 = disk io ∧ io1.ticks = io.ticks := by
  obtain ⟨io1, hlook, hinv1, hd1, ht1⟩ := lookup_spec hal hinv hfile name u
  have hfm : first_match (fun i => entry_matches name
        (entry_buf a_dir.inode.block_data (disk io) i u)) 0
      (entry_count a_dir.inode.block_data) = some j := by
    rw [← hj]
    exact first_match_congr (Nat.le_refl _)
      (fun k _ _ => entry_matches_buf name hlen _ _ k u)
      (fun k h1 h2 => absurd h2 (by omega))
  rw [hfm] at hlook
  exact ⟨io1, hlook, hinv1, hd1, ht1⟩

theorem dir_remove_of_file {junk : Int} {io io1 io2 : Io} {al al2 : Alloc} {l l2 : InodeList}
    {pad u1 u2 u3 e : Nat → Nat} {a_dir : dir_handle} {dv : dir} {name : List Nat} {ofs : Int}
    {a : Nat} {ino : inode} (hderef : dir_deref l a_dir = some dv)
    (hlook : lookup io dv name u1 = some (io1, some (e, ofs)))
    (hopen : inode_open io1 al l u2 (get_u32 e 0) = some (io2, al2, l2, some a))
    (hg : handle_get l2 a = some ino) (hdir : inode_is_dir ino = false) :
    dir_remove junk io al l pad u1 u2 u3 a_dir name
      = dir_remove_erase junk io2 al2 l2 pad a_dir e (wrap_int ofs) a := by
  unfold dir_remove
  rw [hderef]
  simp only
  rw [hlook]
  simp only
  rw [hopen]
  simp only
  rw [hg]
  simp only [hdir, Bool.false_eq_true, if_false]

theorem dir_remove_of_dir {junk : Int} {io io1 io2 io3 : Io} {al al2 al3 : Alloc}
    {l l2 l3 : InodeList} {pad u1 u2 u3 e : Nat → Nat} {a_dir : dir_handle} {dv : dir}
    {name : List Nat} {ofs : Int} {a : Nat} {ino : inode} {b : Bool}
    (hderef : dir_deref l a_dir = some dv)
    (hlook : lookup io dv name u1 = some (io1, some (e, ofs)))
    (hopen : inode_open io1 al l u2 (get_u32 e 0) = some (io2, al2, l2, some a))
    (hg : handle_get l2 a = some ino) (hdir : inode_is_dir ino = true)
    (hcan : dir_remove_can io2 al2 l2 u3 a = some (io3, al3, l3, b)) :
    dir_remove junk io al l pad u1 u2 u3 a_dir name
      = if b = true then dir_remove_erase junk io3 al3 l3 pad a_dir e (wrap_int ofs) a
        else (inode_close io3 al3 l3 (some a)).map (fun r => (r.1, r.2.1, r.2.2, false)) := by
  unfold dir_remove
  rw [hderef]
  simp only
  rw [hlook]
  simp only
  rw [hopen]
  simp only
  rw [hg]
  simp only [hdir, if_true]
  rw [hcan]
  cases b with
  | true => simp only [if_true]
  | false =>
    simp only [Bool.false_eq_true, if_false]
    cases inode_close io3 al3 l3 (some a) with
    | none => rfl
    | some r => rfl

/-- In `dir_remove`: the test of a target that is a well-formed directory: nothing on the
disk and in the list changes, and `can_remove` is true exactly when the directory holds no
entry other than "." and "..", is not the root and has one opener. -/
theorem dir_remove_can_spec {io : Io} {al : Alloc} {l : InodeList} (u : Nat → Nat) {a : Nat}
    {tino : inode} (hinv : IoInv io) (hal : AllocInv al)
    (hm : al.malloc_ok al.malloc_calls = true) (hg : handle_get l a = some tino)
    (hdir : inode_is_dir tino = true) (hfile : FileInv tino.block_data (disk io) al) :
    ∃ io' b, dir_remove_can io al l u a
        = some (io', (malloc al).1, l,
            b && !decide (tino.sector = ROOT_DIR_SECTOR) && decide (tino.open_cnt = 1)) ∧
      IoInv io' ∧ disk io' = disk io ∧ io'.ticks = io.ticks ∧
      (b = true ↔ ∀ i, i < entry_count tino.block_data →
        entry_listed (entry_at tino.block_data (disk io) i) = false) := by
  obtain ⟨io', b, hemp, hinv', hd', ht', hb⟩ :=
    @dir_is_empty_spec al hal io hinv (dir.mk tino 0) hfile u
  refine ⟨io', b, ?_, hinv', hd', ht', hb⟩
  unfold dir_remove_can dir_open
  simp only [malloc, hm, if_true, hg, hdir, dir_deref, Option.map_some']
  rw [hemp]
  rfl

/-- In `dir_remove`: the part from `e.in_use = false` on, when the directory is well formed
with writes allowed and `ofs` is the offset of entry `j`: the entry is written with `in_use`
cleared, no other byte of the disk changes, and `inode_remove` and `inode_close` follow. -/
theorem dir_remove_erase_spec {io : Io} {al : Alloc} {l : InodeList} (junk : Int)
    (pad e : Nat → Nat) {a_dir : dir_handle} {pino : inode} (a : Nat) (hinv : IoInv io)
    (hal : AllocInv al) (hnd : (l.map (fun p => p.1)).Nodup)
    (hg : handle_get l a_dir.inode = some pino) (hh : HandleInv pino (disk io) al)
    (hdeny : pino.deny_write_cnt = 0) {j : Nat} (hj : j < entry_count pino.block_data)
    {ofs : Int} (hofs : ofs = ((20 * j : Nat) : Int)) :
    ∃ io', dir_remove_erase junk io al l pad a_dir e ofs a
        = (inode_remove l a).bind (fun l2 =>
            (inode_close io' al l2 (some a)).map (fun r => (r.1, r.2.1, r.2.2, true))) ∧
      IoInv io' ∧ io'.ticks = io.ticks ∧ HandleInv pino (disk io') al ∧
      (∀ k, k < 20 → file_byte pino.block_data (disk io') (20 * j + k)
        = if k = 19 then 0 else e k) ∧
      (∀ p, p < pino.block_data.size.toNat → ¬ (20 * j ≤ p ∧ p < 20 * j + 20) →
        file_byte pino.block_data (disk io') p = file_byte pino.block_data (disk io) p) ∧
      (∀ t k, (∀ p, 20 * j ≤ p → p < 20 * j + 20 →
          ¬ (data_sector pino.block_data (disk io) (p / 512) = t ∧ p % 512 = k)) →
        disk io' t k = disk io t k) := by
  obtain ⟨io', hwrite, hinv', ht', hh', hin, hout, _, hframe⟩ :=
    write_entry junk pad (fun k => if k = 19 then 0 else e k) hinv hal hh hdeny hj hofs
  refine ⟨io', ?_, hinv', ht', hh', hin, hout, hframe⟩
  have hl : handle_update l a_dir.inode (fun _ => pino) = l :=
    handle_update_id (fun p hp c => (handle_get_unique hnd hg hp c).symm)
  unfold dir_remove_erase
  rw [hg]
  simp only
  rw [hwrite]
  simp only
  rw [hl]
  have h20 : to_u32 (20 : Int) = sizeof_dir_entry := by unfold to_u32 sizeof_dir_entry; omega
  rw [if_neg (by rw [h20]; exact fun h => h rfl)]
  cases inode_remove l a with
  | none => rfl
  | some l2 =>
    simp only [Option.some_bind]
    cases inode_close io' al l2 (some a) with
    | none => rfl
    | some r => rfl

/-- The function `inode_open` on a sector that has no handle yet and holds the image of a
well-formed inode: as `inode_open_spec`, with the sectors of the block map. -/
theorem inode_open_fresh {io : Io} {al : Alloc} (l : InodeList) (uninit : Nat → Nat)
    {sector : Nat} {d : inode_data} {pad : Nat → Nat} (hinv : IoInv io) (hal : AllocInv al)
    (hm : al.malloc_ok al.malloc_calls = true)
    (hfresh : l.find? (fun p => decide (p.2.sector = sector)) = none)
    (hh : HandleInv (inode.mk sector 1 false 0 d) (disk io) al)
    (himg : ∀ k, k < 512 → disk io sector k = inode_disk_bytes d INODE_MAGIC pad k) :
    ∃ io' d', inode_open io al l uninit sector
        = some (io', (malloc al).1, (al.malloc_calls, inode.mk sector 1 false 0 d') :: l,
            some al.malloc_calls) ∧
      IoInv io' ∧ disk io' = disk io ∧ io'.ticks = io.ticks ∧
      d'.size = d.size ∧ d'.is_dir = d.is_dir ∧
      HandleInv (inode.mk sector 1 false 0 d') (disk io') (malloc al).1 ∧
      (∀ p, p / 512 < bytes_to_sectors d.size →
        file_byte d' (disk io') p = file_byte d (disk io) p) ∧
      (∀ x, slot_live (bytes_to_sectors d.size) x →
        slot_sector d' (disk io') x = slot_sector d (disk io) x) := by
  have hsn := (in_use_ne_none hal hh.sector_used).1
  obtain ⟨io1, hrd, hinv1, hdisk1, ht1⟩ :=
    @fs_cache_read_spec io hinv sector hsn uninit 0 512 (by decide)
  have hbuf : ∀ k, k < 512 →
      (fun k => if k < 512 then disk io sector (0 + k) else uninit k) k
        = inode_disk_bytes d INODE_MAGIC pad k := by
    intro k hk
    simp only [if_pos hk, Nat.zero_add]
    exact himg k hk
  obtain ⟨hsize, hdir, hpres⟩ := inode_data_of_bytes_spec hal hh.file hbuf
  obtain ⟨hfile', hbytes⟩ := FileInv_congr hh.file hsize hpres
  refine ⟨io1, inode_data_of_bytes (fun k => if k < 512 then disk io sector (0 + k) else uninit k),
    ?_, hinv1, hdisk1, ht1, hsize, hdir, ?_, ?_, ?_⟩
  · unfold inode_open
    rw [hfresh]
    simp only [malloc, hm, FS_READ_BLOCK, const_sector, hrd]
  · rw [hdisk1]
    have hh' : HandleInv (inode.mk sector 1 false 0 (inode_data_of_bytes
        (fun k => if k < 512 then disk io sector (0 + k) else uninit k))) (disk io) al := by
      refine ⟨hfile', hh.sector_used, ?_⟩
      intro x hx
      simp only at hx ⊢
      rw [hsize] at hx
      rw [hpres x hx]
      exact hh.sector_own x hx
    exact HandleInv_alloc hh' (fun _ h => h)
  · intro p hp
    rw [hdisk1]
    exact hbytes p hp
  · intro x hx
    rw [hdisk1]
    exact hpres x hx

/-- The function `inode_open` on a sector that has a handle in the list: the handle gets one
more opener. -/
theorem inode_open_again {io : Io} {al : Alloc} {l : InodeList} (uninit : Nat → Nat)
    {sector : Nat} {q : Nat × inode} (hnd : (l.map (fun p => p.1)).Nodup)
    (hfind : l.find? (fun p => decide (p.2.sector = sector)) = some q)
    (hcnt : q.2.open_cnt < INT_MAX) :
    inode_open io al l uninit sector
        = some (io, al, handle_update l q.1 (fun i => { i with open_cnt := i.open_cnt + 1 }),
            some q.1) ∧
      handle_get l q.1 = some q.2 ∧
      handle_get (handle_update l q.1 (fun i => { i with open_cnt := i.open_cnt + 1 })) q.1
        = some { q.2 with open_cnt := q.2.open_cnt + 1 } := by
  have hmem := List.mem_of_find?_eq_some hfind
  have hg := handle_get_of_mem hnd hmem
  refine ⟨?_, hg, handle_get_update_same hnd hg _⟩
  unfold inode_open
  rw [hfind]
  simp only
  unfold inode_reopen
  simp only [hg]
  rw [if_neg (by omega)]

/-- The function `inode_close` on a handle that keeps an opener: the count goes down. -/
theorem inode_close_shared {io : Io} {al : Alloc} {l : InodeList} {h : Nat} {ino : inode}
    (hg : handle_get l h = some ino) (hcnt : 2 ≤ ino.open_cnt) :
    inode_close io al l (some h)
      = some (io, al, handle_update l h (fun i => { i with open_cnt := i.open_cnt - 1 })) := by
  unfold inode_close
  simp only [hg]
  unfold INT_MAX
  rw [if_neg (by omega), if_neg (by omega)]

theorem handle_update_congr (l : InodeList) (h : Nat) {f g : inode → inode}
    (hfg : ∀ i, f i = g i) : handle_update l h f = handle_update l h g := by
  have : f = g := funext hfg
  rw [this]

/-- The start of `dir_remove` under `RemoveCall`: `lookup` gives entry `j`. -/
theorem remove_call_lookup {io : Io} {al : Alloc} {l : InodeList} {a_dir : dir_handle}
    {pino : inode} {name : List Nat} {j : Nat} (hc : RemoveCall io al l a_dir pino name j)
    (u : Nat → Nat) :
    dir_deref l a_dir = some (dir.mk pino a_dir.pos) ∧
    j < entry_count pino.block_data ∧
    ∃ io1 e ofs, lookup io (dir.mk pino a_dir.pos) name u = some (io1, some (e, ofs)) ∧
      IoInv io1 ∧ disk io1 = disk io ∧ io1.ticks = io.ticks ∧
      get_u32 e 0 = entry_sector pino.block_data (disk io) j ∧
      wrap_int ofs = ((20 * j : Nat) : Int) ∧
      (∀ k, k < 20 → e k = file_byte pino.block_data (disk io) (20 * j + k)) := by
  have h0 := hc.parent_inv.file.size_nonneg
  have hmax := hc.parent_inv.file.size_max
  unfold MAX_BYTES at hmax
  have hK : 20 * entry_count pino.block_data ≤ pino.block_data.size.toNat := by
    unfold entry_count sizeof_dir_entry
    exact Nat.mul_div_le _ _
  obtain ⟨_, hjK, _, _⟩ := first_match_some hc.entry
  obtain ⟨io1, hlook, hinv1, hd1, ht1⟩ := @lookup_found al hc.alloc_inv io hc.io_inv
    (dir.mk pino a_dir.pos) hc.parent_inv.file name hc.name_len u j hc.entry
  refine ⟨?_, by omega, io1, _, _, hlook, hinv1, hd1, ht1, ?_, ?_, ?_⟩
  · unfold dir_deref
    rw [hc.parent]
    rfl
  · unfold entry_sector
    apply get_u32_congr
    intro k hk
    rw [Nat.zero_add]
    exact entry_buf_at _ _ _ _ k (by omega)
  · exact wrap_int_of_range (by omega) (by omega)
  · intro k hk
    exact entry_buf_lt _ _ _ _ hk

/-- The function `dir_remove` on a name whose target is a directory that has a handle in the
list: it returns false and changes neither the disk nor the list nor the free map. -/
theorem dir_remove_open_dir {io : Io} {al : Alloc} {l : InodeList} {a_dir : dir_handle}
    {pino : inode} {name : List Nat} {j : Nat} (junk : Int) (pad u1 u2 u3 : Nat → Nat)
    (hc : RemoveCall io al l a_dir pino name j) {q : Nat × inode}
    (hfind : l.find? (fun p => decide
      (p.2.sector = entry_sector pino.block_data (disk io) j)) = some q)
    (hdir : inode_is_dir q.2 = true) (hfile : FileInv q.2.block_data (disk io) al)
    (hcnt1 : 1 ≤ q.2.open_cnt) (hcnt2 : q.2.open_cnt < INT_MAX) :
    ∃ io' al', dir_remove junk io al l pad u1 u2 u3 a_dir name = some (io', al', l, false) ∧
      IoInv io' ∧ disk io' = disk io ∧ al'.free_map = al.free_map := by
  obtain ⟨hderef, _, io1, e, ofs, hlook, hinv1, hd1, _, hsec, _, _⟩ := remove_call_lookup hc u1
  obtain ⟨hopen, _, hg2⟩ := @inode_open_again io1 al l u2 _ q hc.addr_nodup hfind hcnt2
  rw [← hsec] at hopen
  obtain ⟨io3, b, hcan, hinv3, hd3, _, _⟩ := dir_remove_can_spec u3 hinv1 hc.alloc_inv
    (hc.malloc_ok _) hg2 hdir (by rw [hd1]; exact hfile)
  have hfalse : (b && !decide (q.2.sector = ROOT_DIR_SECTOR)
      && decide (q.2.open_cnt + 1 = 1)) = false := by
    have : decide (q.2.open_cnt + 1 = 1) = false := by
      simp only [decide_eq_false_iff_not]
      omega
    rw [this, Bool.and_false]
  simp only at hcan
  rw [hfalse] at hcan
  rw [dir_remove_of_dir hderef hlook hopen hg2 hdir hcan]
  simp only [Bool.false_eq_true, if_false]
  rw [inode_close_shared hg2 (by simp only; omega), handle_update_comp]
  have hl : handle_update l q.1
      (fun i => { ({ i with open_cnt := i.open_cnt + 1 } : inode) with
        open_cnt := ({ i with open_cnt := i.open_cnt + 1 } : inode).open_cnt - 1 }) = l := by
    apply handle_update_id
    intro p _ _
    cases p.2
    simp
  rw [hl]
  exact ⟨io3, (malloc al).1, rfl, hinv3, by rw [hd3, hd1], rfl⟩

theorem entry_at_open {d d' : inode_data} {D D' : Nat → Nat → Nat} (h0 : 0 ≤ d.size)
    (hmax : d.size ≤ MAX_BYTES) (hsize : d'.size = d.size)
    (hbytes : ∀ p, p / 512 < bytes_to_sectors d.size → file_byte d' D' p = file_byte d D p)
    {i : Nat} (hi : i < entry_count d) :
    ∀ k, k < 20 → entry_at d' D' i k = entry_at d D i k := by
  intro k hk
  unfold MAX_BYTES at hmax
  have hi' := (entry_count_lt h0).1 hi
  unfold entry_at sizeof_dir_entry
  apply hbytes
  rw [bytes_to_sectors_eq h0 (by omega)]
  push_cast at hi'
  omega

/-- The start of `dir_remove` under `RemoveCall` when the target has no handle in the list
and its sector holds the image of a well-formed inode: `inode_open` puts a new handle in
front of the list. -/
theorem remove_call_open {io : Io} {al : Alloc} {l : InodeList} {a_dir : dir_handle}
    {pino : inode} {name : List Nat} {j : Nat} (hc : RemoveCall io al l a_dir pino name j)
    (u1 u2 : Nat → Nat) {d : inode_data} {pad' : Nat → Nat}
    (hfresh : l.find? (fun p => decide
      (p.2.sector = entry_sector pino.block_data (disk io) j)) = none)
    (hht : HandleInv (inode.mk (entry_sector pino.block_data (disk io) j) 1 false 0 d)
      (disk io) al)
    (himg : ∀ k, k < 512 → disk io (entry_sector pino.block_data (disk io) j) k
      = inode_disk_bytes d INODE_MAGIC pad' k) :
    ∃ io1 e ofs io2 d',
      lookup io (dir.mk pino a_dir.pos) name u1 = some (io1, some (e, ofs)) ∧
      wrap_int ofs = ((20 * j : Nat) : Int) ∧
      (∀ k, k < 20 → e k = file_byte pino.block_data (disk io) (20 * j + k)) ∧
      inode_open io1 al l u2 (get_u32 e 0)
        = some (io2, (malloc al).1,
            (al.malloc_calls,
              inode.mk (entry_sector pino.block_data (disk io) j) 1 false 0 d') :: l,
            some al.malloc_calls) ∧
      IoInv io2 ∧ disk io2 = disk io ∧ d'.size = d.size ∧ d'.is_dir = d.is_dir ∧
      HandleInv (inode.mk (entry_sector pino.block_data (disk io) j) 1 false 0 d') (disk io2)
        (malloc al).1 ∧
      (∀ i, i < entry_count d → ∀ k, k < 20 →
        entry_at d' (disk io2) i k = entry_at d (disk io) i k) ∧
      (∀ x, slot_live (bytes_to_sectors d.size) x →
        slot_sector d' (disk io2) x = slot_sector d (disk io) x) := by
  obtain ⟨_, _, io1, e, ofs, hlook, hinv1, hd1, _, hsec, hofs, he⟩ := remove_call_lookup hc u1
  obtain ⟨io2, d', hopen, hinv2, hd2, _, hsize, hdir, hh2, hbytes, hslots⟩ :=
    @inode_open_fresh io1 al l u2 _ d pad' hinv1 hc.alloc_inv (hc.malloc_ok _) hfresh
      (by rw [hd1]; exact hht) (by rw [hd1]; exact himg)
  rw [hd1] at hbytes hslots
  exact ⟨io1, e, ofs, io2, d', hlook, hofs, he, by rw [hsec]; exact hopen, hinv2,
    by rw [hd2, hd1], hsize, hdir,
    hh2, fun i hi => entry_at_open hht.file.size_nonneg hht.file.size_max hsize hbytes hi,
    hslots⟩

theorem remove_call_addr {io : Io} {al : Alloc} {l : InodeList} {a_dir : dir_handle}
    {pino : inode} {name : List Nat} {j : Nat} (hc : RemoveCall io al l a_dir pino name j) :
    (∀ p ∈ l, p.1 ≠ al.malloc_calls) ∧ a_dir.inode ≠ al.malloc_calls := by
  have h1 : ∀ p ∈ l, p.1 ≠ al.malloc_calls := fun p hp => by
    have := hc.addr_lt p hp
    omega
  exact ⟨h1, h1 _ (handle_get_mem hc.parent)⟩

/-- The function `dir_remove` on a name whose target is a directory without a handle in the
list, when the directory holds an entry other than "." and ".." or is the root: it returns
false and changes neither the disk nor the list nor the free map. -/
theorem dir_remove_fresh_busy {io : Io} {al : Alloc} {l : InodeList} {a_dir : dir_handle}
    {pino : inode} {name : List Nat} {j : Nat} (junk : Int) (pad u1 u2 u3 : Nat → Nat)
    (hc : RemoveCall io al l a_dir pino name j) {d : inode_data} {pad' : Nat → Nat}
    (hfresh : l.find? (fun p => decide
      (p.2.sector = entry_sector pino.block_data (disk io) j)) = none)
    (hht : HandleInv (inode.mk (entry_sector pino.block_data (disk io) j) 1 false 0 d)
      (disk io) al)
    (himg : ∀ k, k < 512 → disk io (entry_sector pino.block_data (disk io) j) k
      = inode_disk_bytes d INODE_MAGIC pad' k)
    (hdir : d.is_dir = true)
    (hbusy : (∃ i, i < entry_count d ∧ entry_listed (entry_at d (disk io) i) = true) ∨
      entry_sector pino.block_data (disk io) j = ROOT_DIR_SECTOR) :
    ∃ io' al', dir_remove junk io al l pad u1 u2 u3 a_dir name = some (io', al', l, false) ∧
      IoInv io' ∧ disk io' = disk io ∧ al'.free_map = al.free_map := by
  obtain ⟨hderef, _, _⟩ := remove_call_lookup hc u1
  obtain ⟨io1, e, ofs, io2, d', hlook, _, _, hopen, hinv2, hd2, hsize, hdir', hh2, hent, _⟩ :=
    remove_call_open hc u1 u2 hfresh hht himg
  have hg2 := handle_get_head al.malloc_calls
    (inode.mk (entry_sector pino.block_data (disk io) j) 1 false 0 d') l
  have hisdir : inode_is_dir
      (inode.mk (entry_sector pino.block_data (disk io) j) 1 false 0 d') = true := by
    unfold inode_is_dir
    rw [hdir', hdir]
  have hal2 : AllocInv (malloc al).1 := hc.alloc_inv
  obtain ⟨io3, b, hcan, hinv3, hd3, _, hb⟩ := dir_remove_can_spec u3 hinv2 hal2
    (hc.malloc_ok _) hg2 hisdir hh2.file
  have hcount : entry_count d' = entry_count d := by
    unfold entry_count
    rw [hsize]
  have hfalse : (b && !decide (entry_sector pino.block_data (disk io) j = ROOT_DIR_SECTOR)
      && decide ((1 : Int) = 1)) = false := by
    rcases hbusy with ⟨i, hi, hl⟩ | hroot
    · have hbf : b = false := by
        cases hbt : b with
        | false => rfl
        | true =>
          have this : entry_listed (entry_at d' (disk io2) i) = false :=
            hb.1 hbt i (by rw [hcount]; exact hi)
          rw [entry_listed_congr (hent i hi), hl] at this
          cases this
      rw [hbf]
      rfl
    · rw [hroot]
      simp
  have hcan' : dir_remove_can io2 (malloc al).1
      ((al.malloc_calls,
        inode.mk (entry_sector pino.block_data (disk io) j) 1 false 0 d') :: l) u3
      al.malloc_calls
      = some (io3, (malloc (malloc al).1).1,
          (al.malloc_calls,
            inode.mk (entry_sector pino.block_data (disk io) j) 1 false 0 d') :: l,
          false) :=
    hcan.trans (by
      show some (io3, (malloc (malloc al).1).1, _,
        (b && !decide (entry_sector pino.block_data (disk io) j = ROOT_DIR_SECTOR)
          && decide ((1 : Int) = 1))) = _
      rw [hfalse])
  rw [dir_remove_of_dir hderef hlook hopen hg2 hisdir hcan']
  simp only [Bool.false_eq_true, if_false]
  rw [inode_close_last_kept hg2 rfl rfl, filter_cons_self _ _ _ (remove_call_addr hc).1]
  exact ⟨io3, (malloc (malloc al).1).1, rfl, hinv3, by rw [hd3, hd2], rfl⟩

/-- C23: `dir_remove` is called for a name that the directory holds (`RemoveCall`) and whose
target is a directory. (1) When the target has a handle in the list of open inodes, so that
it is held open by an opener other than the probe of `dir_remove`, and (2) when it has none
and holds an in-use entry other than "." and "..", or lies in sector 1 (the root),
`dir_remove` returns false, and the disk, the list of open inodes and the free map are what
they were: the entry of the name is still in use, no handle is marked removed and no sector
is released. -/
theorem dir_remove_keeps_busy_directory {io : Io} {al : Alloc} {l : InodeList}
    {a_dir : dir_handle} {pino : inode} {name : List Nat} {j : Nat} (junk : Int)
    (pad u1 u2 u3 : Nat → Nat) (hc : RemoveCall io al l a_dir pino name j) :
    (∀ q, l.find? (fun p => decide
        (p.2.sector = entry_sector pino.block_data (disk io) j)) = some q →
      inode_is_dir q.2 = true → FileInv q.2.block_data (disk io) al →
      1 ≤ q.2.open_cnt → q.2.open_cnt < INT_MAX →
      ∃ io' al', dir_remove junk io al l pad u1 u2 u3 a_dir name = some (io', al', l, false) ∧
        disk io' = disk io ∧ al'.free_map = al.free_map) ∧
    (∀ (d : inode_data) (pad' : Nat → Nat),
      l.find? (fun p => decide
        (p.2.sector = entry_sector pino.block_data (disk io) j)) = none →
      HandleInv (inode.mk (entry_sector pino.block_data (disk io) j) 1 false 0 d)
        (disk io) al →
      (∀ k, k < 512 → disk io (entry_sector pino.block_data (disk io) j) k
        = inode_disk_bytes d INODE_MAGIC pad' k) →
      d.is_dir = true →
      ((∃ i, i < entry_count d ∧ entry_listed (entry_at d (disk io) i) = true) ∨
        entry_sector pino.block_data (disk io) j = ROOT_DIR_SECTOR) →
      ∃ io' al', dir_remove junk io al l pad u1 u2 u3 a_dir name = some (io', al', l, false) ∧
        disk io' = disk io ∧ al'.free_map = al.free_map) := by
  constructor
  · intro q hfind hdir hfile hcnt1 hcnt2
    obtain ⟨io', al', h1, _, h2, h3⟩ :=
      dir_remove_open_dir junk pad u1 u2 u3 hc hfind hdir hfile hcnt1 hcnt2
    exact ⟨io', al', h1, h2, h3⟩
  · intro d pad' hfresh hht himg hdir hbusy
    obtain ⟨io', al', h1, _, h2, h3⟩ :=
      dir_remove_fresh_busy junk pad u1 u2 u3 hc hfresh hht himg hdir hbusy
    exact ⟨io', al', h1, h2, h3⟩

/-- The directory after `dir_remove` has cleared `in_use` in entry `j`: every other byte is
what it was, and `lookup` does not find the name when no entry behind `j` holds it. -/
theorem erase_post {io io5 : Io} {al al5 : Alloc} {l : InodeList} {a_dir : dir_handle}
    {pino : inode} {name : List Nat} {j : Nat} (hc : RemoveCall io al l a_dir pino name j)
    {e : Nat → Nat} (he : ∀ k, k < 20 → e k = file_byte pino.block_data (disk io) (20 * j + k))
    (huniq : ∀ i, j < i → i < entry_count pino.block_data →
      entry_matches name (entry_at pino.block_data (disk io) i) = false)
    (hal5 : AllocInv al5) (hh5 : HandleInv pino (disk io5) al5)
    (hin : ∀ k, k < 20 → file_byte pino.block_data (disk io5) (20 * j + k)
      = if k = 19 then 0 else e k)
    (hout : ∀ p, p < pino.block_data.size.toNat → ¬ (20 * j ≤ p ∧ p < 20 * j + 20) →
      file_byte pino.block_data (disk io5) p = file_byte pino.block_data (disk io) p) :
    (∀ p, p < pino.block_data.size.toNat → p ≠ 20 * j + 19 →
      file_byte pino.block_data (disk io5) p = file_byte pino.block_data (disk io) p) ∧
    file_byte pino.block_data (disk io5) (20 * j + 19) = 0 ∧
    (∀ (io6 : Io) (u : Nat → Nat) (pos : Int), IoInv io6 → disk io6 = disk io5 →
      (lookup io6 (dir.mk pino pos) name u).map Prod.snd = some none) := by
  have h0 := hc.parent_inv.file.size_nonneg
  have hK : 20 * entry_count pino.block_data ≤ pino.block_data.size.toNat := by
    unfold entry_count sizeof_dir_entry
    exact Nat.mul_div_le _ _
  obtain ⟨_, hjK, _, hbefore⟩ := first_match_some hc.entry
  have hbytes : ∀ p, p < pino.block_data.size.toNat → p ≠ 20 * j + 19 →
      file_byte pino.block_data (disk io5) p = file_byte pino.block_data (disk io) p := by
    intro p hp hne
    by_cases c : 20 * j ≤ p ∧ p < 20 * j + 20
    · obtain ⟨k, rfl⟩ : ∃ k, p = 20 * j + k := ⟨p - 20 * j, by omega⟩
      rw [hin k (by omega), if_neg (by omega), he k (by omega)]
    · exact hout p hp c
  have h19 : file_byte pino.block_data (disk io5) (20 * j + 19) = 0 := by
    rw [hin 19 (by decide), if_pos rfl]
  refine ⟨hbytes, h19, ?_⟩
  intro io6 u pos hinv6 hd6
  have hfile6 : FileInv pino.block_data (disk io6) al5 := by rw [hd6]; exact hh5.file
  rw [@lookup_absent_iff al5 hal5 io6 hinv6 (dir.mk pino pos) hfile6 name hc.name_len u, hd6]
  intro i hi
  by_cases hij : i = j
  · apply entry_matches_free
    unfold dir_entry_in_use entry_at sizeof_dir_entry
    rw [hij, h19]
    decide
  · have hsame : entry_matches name (entry_at pino.block_data (disk io5) i)
        = entry_matches name (entry_at pino.block_data (disk io) i) := by
      apply entry_matches_congr
      intro k hk
      have hk20 : k < 20 := by
        have := hc.name_len
        unfold NAME_MAX at this
        omega
      unfold entry_at sizeof_dir_entry
      exact hout (20 * i + k) (by simp only at hi; omega) (by omega)
    rw [hsame]
    rcases Nat.lt_or_gt_of_ne hij with h | h
    · exact hbefore i (Nat.zero_le _) h
    · exact huniq i h hi

/-- The function `dir_remove` on a name whose target is a regular file that has a handle in
the list: it returns true, clears `in_use` in the entry and marks the handle removed. -/
theorem dir_remove_open_file {io : Io} {al : Alloc} {l : InodeList} {a_dir : dir_handle}
    {pino : inode} {name : List Nat} {j : Nat} (junk : Int) (pad u1 u2 u3 : Nat → Nat)
    (hc : RemoveCall io al l a_dir pino name j) (hdeny : pino.deny_write_cnt = 0)
    (huniq : ∀ i, j < i → i < entry_count pino.block_data →
      entry_matches name (entry_at pino.block_data (disk io) i) = false)
    {q : Nat × inode}
    (hfind : l.find? (fun p => decide
      (p.2.sector = entry_sector pino.block_data (disk io) j)) = some q)
    (hdir : inode_is_dir q.2 = false)
    (hcnt1 : 1 ≤ q.2.open_cnt) (hcnt2 : q.2.open_cnt < INT_MAX) :
    ∃ io', dir_remove junk io al l pad u1 u2 u3 a_dir name
        = some (io', al, handle_update l q.1 (fun i => { i with removed := true }), true) ∧
      IoInv io' ∧
      (∀ p, p < pino.block_data.size.toNat → p ≠ 20 * j + 19 →
        file_byte pino.block_data (disk io') p = file_byte pino.block_data (disk io) p) ∧
      file_byte pino.block_data (disk io') (20 * j + 19) = 0 ∧
      (∀ (u : Nat → Nat) (pos : Int),
        (lookup io' (dir.mk pino pos) name u).map Prod.snd = some none) := by
  obtain ⟨hderef, hjK, io1, e, ofs, hlook, hinv1, hd1, _, hsec, hofs, he⟩ :=
    remove_call_lookup hc u1
  obtain ⟨hopen, hgq, hg2⟩ := @inode_open_again io1 al l u2 _ q hc.addr_nodup hfind hcnt2
  rw [← hsec] at hopen
  have hne : a_dir.inode ≠ q.1 := by
    intro h
    have := hc.parent
    rw [h, hgq] at this
    have hq : q.2 = pino := Option.some.inj this
    rw [hq, hc.parent_dir] at hdir
    cases hdir
  have hnd2 : ((handle_update l q.1
      (fun i => { i with open_cnt := i.open_cnt + 1 })).map (fun p => p.1)).Nodup := by
    rw [handle_update_map_fst]
    exact hc.addr_nodup
  have hgp2 : handle_get (handle_update l q.1
      (fun i => { i with open_cnt := i.open_cnt + 1 })) a_dir.inode = some pino := by
    rw [handle_get_handle_update, if_neg hne]
    exact hc.parent
  obtain ⟨io5, herase, hinv5, _, hh5, hin, hout, _⟩ :=
    dir_remove_erase_spec junk pad e q.1 hinv1 hc.alloc_inv hnd2 hgp2
      (by rw [hd1]; exact hc.parent_inv) hdeny hjK hofs
  rw [hd1] at hout
  obtain ⟨p1, p2, p3⟩ := erase_post hc he huniq hc.alloc_inv hh5 hin hout
  refine ⟨io5, ?_, hinv5, p1, p2, fun u pos => p3 io5 u pos hinv5 rfl⟩
  rw [dir_remove_of_file hderef hlook hopen hg2 hdir, herase]
  have hrem : inode_remove (handle_update l q.1
      (fun i => { i with open_cnt := i.open_cnt + 1 })) q.1
      = some (handle_update (handle_update l q.1
          (fun i => { i with open_cnt := i.open_cnt + 1 })) q.1
          (fun i => { i with removed := true })) := by
    unfold inode_remove
    rw [hg2]
  rw [hrem]
  simp only [Option.some_bind]
  have hg3 := handle_get_update_same hnd2 hg2 (fun i => { i with removed := true })
  rw [inode_close_shared hg3 (by simp only; omega), handle_update_comp, handle_update_comp]
  simp only [Option.map_some']
  rw [handle_update_congr l q.1 (g := fun i => { i with removed := true }) (fun i => by
    cases i
    simp)]

/-- In `dir_remove`: the part from `e.in_use = false` on, when the target is a new handle
with one opener in front of the list: the entry is cleared, the handle is marked removed and
closed, and its sectors are released. -/
theorem dir_remove_erase_fresh {io iox : Io} {al alx : Alloc} {l : InodeList}
    {a_dir : dir_handle} {pino : inode} {name : List Nat} {j : Nat} (junk : Int)
    (pad : Nat → Nat) (hc : RemoveCall io al l a_dir pino name j)
    (hdeny : pino.deny_write_cnt = 0)
    (huniq : ∀ i, j < i → i < entry_count pino.block_data →
      entry_matches name (entry_at pino.block_data (disk io) i) = false)
    {e : Nat → Nat} (he : ∀ k, k < 20 → e k = file_byte pino.block_data (disk io) (20 * j + k))
    {ofs : Int} (hofs : ofs = ((20 * j : Nat) : Int))
    (hinvx : IoInv iox) (hdx : disk iox = disk io) (hfm : alx.free_map = al.free_map)
    {t : Nat} {d d' : inode_data} (hsize : d'.size = d.size)
    (hht : HandleInv (inode.mk t 1 false 0 d') (disk iox) alx)
    (hslots : ∀ x, slot_live (bytes_to_sectors d.size) x →
      slot_sector d' (disk iox) x = slot_sector d (disk io) x)
    (hdisj : ∀ x, slot_live (bytes_to_sectors d.size) x → ∀ p, 20 * j ≤ p → p < 20 * j + 20 →
      slot_sector d (disk io) x ≠ data_sector pino.block_data (disk io) (p / 512)) :
    ∃ (io' : Io) (al' : Alloc) (T : List Nat),
      dir_remove_erase junk iox alx ((al.malloc_calls, inode.mk t 1 false 0 d') :: l) pad a_dir
          e ofs al.malloc_calls
        = some (io', al', l, true) ∧
      IoInv io' ∧
      (∀ p, p < pino.block_data.size.toNat → p ≠ 20 * j + 19 →
        file_byte pino.block_data (disk io') p = file_byte pino.block_data (disk io) p) ∧
      file_byte pino.block_data (disk io') (20 * j + 19) = 0 ∧
      (∀ (u : Nat → Nat) (pos : Int),
        (lookup io' (dir.mk pino pos) name u).map Prod.snd = some none) ∧
      T.Nodup ∧
      (∀ s, s ∈ T ↔ s = t ∨ ∃ x, slot_live (bytes_to_sectors d.size) x ∧
        slot_sector d (disk io) x = s) ∧
      (∀ s, in_use al' s ↔ in_use al s ∧ s ∉ T) ∧
      free_count al'.free_map = free_count al.free_map + T.length ∧
      T.length = bytes_to_sectors d.size + l1_count (bytes_to_sectors d.size)
        + l2_count (bytes_to_sectors d.size) + 1 ∧
      al'.free_map.length = al.free_map.length := by
  obtain ⟨hl, hpa⟩ := remove_call_addr hc
  obtain ⟨_, hjK, _, _⟩ := first_match_some hc.entry
  have halx : AllocInv alx := by
    unfold AllocInv
    rw [hfm]
    exact hc.alloc_inv
  have huse : ∀ s, in_use alx s ↔ in_use al s := by
    intro s
    unfold in_use
    rw [hfm]
  have hnd2 : (((al.malloc_calls, inode.mk t 1 false 0 d') :: l).map (fun p => p.1)).Nodup := by
    rw [List.map_cons, List.nodup_cons]
    refine ⟨?_, hc.addr_nodup⟩
    intro hmem
    obtain ⟨p, hp, hpe⟩ := List.mem_map.1 hmem
    exact hl p hp hpe
  have hgp2 : handle_get ((al.malloc_calls, inode.mk t 1 false 0 d') :: l) a_dir.inode
      = some pino := by
    rw [handle_get_cons_ne _ _ hpa]
    exact hc.parent
  have hhp : HandleInv pino (disk iox) alx := by
    rw [hdx]
    exact HandleInv_alloc hc.parent_inv (fun s h => (huse s).2 h)
  obtain ⟨io5, herase, hinv5, _, hh5, hin, hout, hframe⟩ :=
    dir_remove_erase_spec junk pad e al.malloc_calls hinvx halx hnd2 hgp2 hhp hdeny
      (show j < entry_count pino.block_data by omega) hofs
  rw [hdx] at hout hframe
  obtain ⟨p1, p2, p3⟩ := erase_post hc he huniq halx hh5 hin hout
  -- the target after the write
  have hsame : ∀ x, slot_live (bytes_to_sectors d'.size) x →
      disk io5 (slot_sector d' (disk iox) x) = disk iox (slot_sector d' (disk iox) x) := by
    intro x hx
    rw [hsize] at hx
    funext k
    rw [hdx]
    apply hframe
    intro p hp1 hp2 hc2
    have hslots' := hslots x hx
    rw [hdx] at hslots'
    rw [hslots'] at hc2
    exact hdisj x hx p hp1 hp2 hc2.1.symm
  obtain ⟨hfile5, hslots5, _⟩ := FileInv_frame hht.file hsame
  have hh5t : HandleInv ({ (inode.mk t 1 false 0 d') with removed := true }) (disk io5) alx := by
    refine ⟨hfile5, hht.sector_used, ?_⟩
    intro x hx
    have := hht.sector_own x hx
    simp only at this hx ⊢
    rw [hslots5 x hx]
    exact this
  obtain ⟨io6, T, _, hrb, hinv6, hd6, _, hTnd, hTmem, hTlen, hTmap, hTuse, hTcnt, _, _⟩ :=
    inode_release_blocks_spec hinv5 halx hh5t
  refine ⟨io6, release_all alx T, T, ?_, hinv6, ?_, ?_, fun u pos => p3 io6 u pos hinv6 hd6,
    hTnd, ?_, ?_, ?_, ?_, ?_⟩
  · rw [herase]
    have hrem : inode_remove ((al.malloc_calls, inode.mk t 1 false 0 d') :: l) al.malloc_calls
        = some ((al.malloc_calls, { (inode.mk t 1 false 0 d') with removed := true }) :: l) := by
      unfold inode_remove
      rw [handle_get_head, handle_update_cons_self _ _ _ _ hl]
    rw [hrem]
    simp only [Option.some_bind]
    rw [inode_close_last_removed (handle_get_head _ _ _) rfl rfl, hrb]
    simp only [Option.map_some']
    rw [filter_cons_self _ _ _ hl]
  · intro p hp hne
    rw [hd6]
    exact p1 p hp hne
  · rw [hd6]
    exact p2
  · intro s
    rw [hTmem s]
    simp only
    rw [hsize]
    constructor
    · rintro (h | ⟨x, hx, hs⟩)
      · exact Or.inl h
      · refine Or.inr ⟨x, hx, ?_⟩
        rw [← hs, hslots5 x (by rw [hsize]; exact hx), hslots x hx]
    · rintro (h | ⟨x, hx, hs⟩)
      · exact Or.inl h
      · refine Or.inr ⟨x, hx, ?_⟩
        rw [← hs, hslots5 x (by rw [hsize]; exact hx), hslots x hx]
  · intro s
    rw [hTuse s, huse s]
  · rw [hTcnt, hfm]
  · rw [hTlen]
    show bytes_to_sectors d'.size + l1_count (bytes_to_sectors d'.size)
      + l2_count (bytes_to_sectors d'.size) + 1 = _
    rw [hsize]
  · rw [hTmap, hfm]

/-- The function `dir_remove` on a name whose target has no handle in the list and is a
regular file, or a directory that holds no entry other than "." and ".." and is not the
root: it returns true, clears `in_use` in the entry and releases the sectors of the target. -/
theorem dir_remove_fresh_ok {io : Io} {al : Alloc} {l : InodeList} {a_dir : dir_handle}
    {pino : inode} {name : List Nat} {j : Nat} (junk : Int) (pad u1 u2 u3 : Nat → Nat)
    (hc : RemoveCall io al l a_dir pino name j) (hdeny : pino.deny_write_cnt = 0)
    (huniq : ∀ i, j < i → i < entry_count pino.block_data →
      entry_matches name (entry_at pino.block_data (disk io) i) = false)
    {d : inode_data} {pad' : Nat → Nat}
    (hfresh : l.find? (fun p => decide
      (p.2.sector = entry_sector pino.block_data (disk io) j)) = none)
    (hht : HandleInv (inode.mk (entry_sector pino.block_data (disk io) j) 1 false 0 d)
      (disk io) al)
    (himg : ∀ k, k < 512 → disk io (entry_sector pino.block_data (disk io) j) k
      = inode_disk_bytes d INODE_MAGIC pad' k)
    (hkind : d.is_dir = false ∨
      (d.is_dir = true ∧
        (∀ i, i < entry_count d → entry_listed (entry_at d (disk io) i) = false) ∧
        entry_sector pino.block_data (disk io) j ≠ ROOT_DIR_SECTOR))
    (hdisj : ∀ x, slot_live (bytes_to_sectors d.size) x → ∀ p, 20 * j ≤ p → p < 20 * j + 20 →
      slot_sector d (disk io) x ≠ data_sector pino.block_data (disk io) (p / 512)) :
    ∃ (io' : Io) (al' : Alloc) (T : List Nat),
      dir_remove junk io al l pad u1 u2 u3 a_dir name = some (io', al', l, true) ∧
      IoInv io' ∧
      (∀ p, p < pino.block_data.size.toNat → p ≠ 20 * j + 19 →
        file_byte pino.block_data (disk io') p = file_byte pino.block_data (disk io) p) ∧
      file_byte pino.block_data (disk io') (20 * j + 19) = 0 ∧
      (∀ (u : Nat → Nat) (pos : Int),
        (lookup io' (dir.mk pino pos) name u).map Prod.snd = some none) ∧
      T.Nodup ∧
      (∀ s, s ∈ T ↔ s = entry_sector pino.block_data (disk io) j ∨
        ∃ x, slot_live (bytes_to_sectors d.size) x ∧ slot_sector d (disk io) x = s) ∧
      (∀ s, in_use al' s ↔ in_use al s ∧ s ∉ T) ∧
      free_count al'.free_map = free_count al.free_map + T.length ∧
      T.length = bytes_to_sectors d.size + l1_count (bytes_to_sectors d.size)
        + l2_count (bytes_to_sectors d.size) + 1 ∧
      al'.free_map.length = al.free_map.length := by
  obtain ⟨hderef, _, _⟩ := remove_call_lookup hc u1
  obtain ⟨io1, e, ofs, io2, d', hlook, hofs, he, hopen, hinv2, hd2, hsize, hdir', hh2, hent,
    hslots⟩ := remove_call_open hc u1 u2 hfresh hht himg
  have hg2 := handle_get_head al.malloc_calls
    (inode.mk (entry_sector pino.block_data (disk io) j) 1 false 0 d') l
  rcases hkind with hfile | ⟨hdir, hempty, hroot⟩
  · have hnodir : inode_is_dir
        (inode.mk (entry_sector pino.block_data (disk io) j) 1 false 0 d') = false := by
      unfold inode_is_dir
      rw [hdir', hfile]
    rw [dir_remove_of_file hderef hlook hopen hg2 hnodir]
    exact @dir_remove_erase_fresh io io2 al (malloc al).1 l a_dir pino name j junk pad hc hdeny
      huniq e he (wrap_int ofs) hofs hinv2 hd2 rfl _ d d' hsize hh2 hslots hdisj
  · have hisdir : inode_is_dir
        (inode.mk (entry_sector pino.block_data (disk io) j) 1 false 0 d') = true := by
      unfold inode_is_dir
      rw [hdir', hdir]
    have hal2 : AllocInv (malloc al).1 := hc.alloc_inv
    obtain ⟨io3, b, hcan, hinv3, hd3, _, hb⟩ := dir_remove_can_spec u3 hinv2 hal2
      (hc.malloc_ok _) hg2 hisdir hh2.file
    have hcount : entry_count d' = entry_count d := by
      unfold entry_count
      rw [hsize]
    have hbt : b = true := by
      apply hb.2
      intro i hi
      show entry_listed (entry_at d' (disk io2) i) = false
      rw [hcount] at hi
      rw [entry_listed_congr (hent i hi)]
      exact hempty i hi
    have htrue : (b && !decide (entry_sector pino.block_data (disk io) j = ROOT_DIR_SECTOR)
        && decide ((1 : Int) = 1)) = true := by
      rw [hbt]
      simp [hroot]
    have hcan' : dir_remove_can io2 (malloc al).1
        ((al.malloc_calls,
          inode.mk (entry_sector pino.block_data (disk io) j) 1 false 0 d') :: l) u3
        al.malloc_calls
        = some (io3, (malloc (malloc al).1).1,
            (al.malloc_calls,
              inode.mk (entry_sector pino.block_data (disk io) j) 1 false 0 d') :: l,
            true) :=
      hcan.trans (by
        show some (io3, (malloc (malloc al).1).1, _,
          (b && !decide (entry_sector pino.block_data (disk io) j = ROOT_DIR_SECTOR)
            && decide ((1 : Int) = 1))) = _
        rw [htrue])
    rw [dir_remove_of_dir hderef hlook hopen hg2 hisdir hcan', if_pos rfl]
    exact @dir_remove_erase_fresh io io3 al (malloc (malloc al).1).1 l a_dir pino name j junk
      pad hc hdeny huniq e he (wrap_int ofs) hofs hinv3 (by rw [hd3, hd2]) rfl _ d d' hsize
      (by rw [hd3]; exact HandleInv_alloc hh2 (fun _ h => h))
      (by rw [hd3]; exact hslots) hdisj

/-- C24: `dir_remove` is called for a name that the directory holds in one entry
(`RemoveCall`, no entry behind the first one with the name), with writes to the directory
allowed. (1) When the target is a regular file with a handle in the list, `dir_remove`
returns true and the handle is marked removed (nothing is released: there are other
openers). (2) When the target has no handle in the list and is a regular file, or a
directory without an entry other than "." and ".." that is not the root, `dir_remove` returns
true, the list is what it was, and exactly the sectors of the target (its inode sector and the
sectors of its block map) are released. In both cases `lookup` of the name fails afterwards
and every byte of the directory other than the byte `in_use` of the entry, which is 0, is
what it was. -/
theorem dir_remove_unlinks {io : Io} {al : Alloc} {l : InodeList} {a_dir : dir_handle}
    {pino : inode} {name : List Nat} {j : Nat} (junk : Int) (pad u1 u2 u3 : Nat → Nat)
    (hc : RemoveCall io al l a_dir pino name j) (hdeny : pino.deny_write_cnt = 0)
    (huniq : ∀ i, j < i → i < entry_count pino.block_data →
      entry_matches name (entry_at pino.block_data (disk io) i) = false) :
    (∀ q, l.find? (fun p => decide
        (p.2.sector = entry_sector pino.block_data (disk io) j)) = some q →
      inode_is_dir q.2 = false → 1 ≤ q.2.open_cnt → q.2.open_cnt < INT_MAX →
      ∃ io', dir_remove junk io al l pad u1 u2 u3 a_dir name
          = some (io', al, handle_update l q.1 (fun i => { i with removed := true }), true) ∧
        (∀ p, p < pino.block_data.size.toNat → p ≠ 20 * j + 19 →
          file_byte pino.block_data (disk io') p = file_byte pino.block_data (disk io) p) ∧
        file_byte pino.block_data (disk io') (20 * j + 19) = 0 ∧
        (∀ (u : Nat → Nat) (pos : Int),
          (lookup io' (dir.mk pino pos) name u).map Prod.snd = some none)) ∧
    (∀ (d : inode_data) (pad' : Nat → Nat),
      l.find? (fun p => decide
        (p.2.sector = entry_sector pino.block_data (disk io) j)) = none →
      HandleInv (inode.mk (entry_sector pino.block_data (disk io) j) 1 false 0 d)
        (disk io) al →
      (∀ k, k < 512 → disk io (entry_sector pino.block_data (disk io) j) k
        = inode_disk_bytes d INODE_MAGIC pad' k) →
      (d.is_dir = false ∨
        (d.is_dir = true ∧
          (∀ i, i < entry_count d → entry_listed (entry_at d (disk io) i) = false) ∧
          entry_sector pino.block_data (disk io) j ≠ ROOT_DIR_SECTOR)) →
      (∀ x, slot_live (bytes_to_sectors d.size) x → ∀ p, 20 * j ≤ p → p < 20 * j + 20 →
        slot_sector d (disk io) x ≠ data_sector pino.block_data (disk io) (p / 512)) →
      ∃ (io' : Io) (al' : Alloc) (T : List Nat),
        dir_remove junk io al l pad u1 u2 u3 a_dir name = some (io', al', l, true) ∧
        (∀ p, p < pino.block_data.size.toNat → p ≠ 20 * j + 19 →
          file_byte pino.block_data (disk io') p = file_byte pino.block_data (disk io) p) ∧
        file_byte pino.block_data (disk io') (20 * j + 19) = 0 ∧
        (∀ (u : Nat → Nat) (pos : Int),
          (lookup io' (dir.mk pino pos) name u).map Prod.snd = some none) ∧
        T.Nodup ∧
        (∀ s, s ∈ T ↔ s = entry_sector pino.block_data (disk io) j ∨
          ∃ x, slot_live (bytes_to_sectors d.size) x ∧ slot_sector d (disk io) x = s) ∧
        (∀ s, in_use al' s ↔ in_use al s ∧ s ∉ T) ∧
        free_count al'.free_map = free_count al.free_map + T.length) := by
  constructor
  · intro q hfind hdir hcnt1 hcnt2
    obtain ⟨io', h1, _, h2, h3, h4⟩ :=
      dir_remove_open_file junk pad u1 u2 u3 hc hdeny huniq hfind hdir hcnt1 hcnt2
    exact ⟨io', h1, h2, h3, h4⟩
  · intro d pad' hfresh hht himg hkind hdisj
    obtain ⟨io', al', T, h1, _, h2, h3, h4, h5, h6, h7, h8, _, _⟩ :=
      dir_remove_fresh_ok junk pad u1 u2 u3 hc hdeny huniq hfresh hht himg hkind hdisj
    exact ⟨io', al', T, h1, h2, h3, h4, h5, h6, h7, h8⟩

/-! ## The small tree -/

theorem IoInv_tree : IoInv tree_io :=
  ⟨(buffer_cache_init_spec _ _).1, fun _ => by
    show INT64_MIN < (0 : Int) ∧ (0 : Int) < INT64_MAX
    decide⟩

theorem disk_tree {s k : Nat} (hs : s ≠ SECTOR_NONE) (hk : k < 512) :
    disk tree_io s k = tree_device s k := by
  unfold disk
  rw [if_pos ⟨hs, hk⟩]
  exact (buffer_cache_init_spec tree_device (fun _ _ => 0)).2 s hs k hk

theorem AllocInv_tree (n : Nat) : AllocInv (tree_alloc_n n) := by
  simp [AllocInv, tree_alloc_n, SECTOR_NONE]

theorem HandleInv_root (n : Nat) : HandleInv root_handle (disk tree_io) (tree_alloc_n n) := by
  apply HandleInv_one_sector (by decide) (by decide) (by decide) (by unfold in_use; rfl)
    (by unfold in_use; rfl)
  intro k hk1 hk2
  have hk : 20 ≤ k := hk1
  show disk tree_io 2 k = 0
  rw [disk_tree (by decide) hk2]
  unfold tree_device
  rw [if_neg (by decide), if_pos rfl, if_neg (by omega)]

theorem HandleInv_d (n : Nat) : HandleInv d_handle (disk tree_io) (tree_alloc_n n) := by
  apply HandleInv_one_sector (by decide) (by decide) (by decide) (by unfold in_use; rfl)
    (by unfold in_use; rfl)
  intro k hk1 hk2
  have hk : 40 ≤ k := hk1
  show disk tree_io 4 k = 0
  rw [disk_tree (by decide) hk2]
  unfold tree_device
  rw [if_neg (by decide), if_neg (by decide), if_neg (by decide), if_pos rfl,
    if_neg (by omega), if_neg (by omega)]

theorem HandleInv_f (n : Nat) : HandleInv f_handle (disk tree_io) (tree_alloc_n n) := by
  refine ⟨FileInv_empty _ _ rfl, by unfold in_use; rfl, ?_⟩
  intro x hx
  have hn : bytes_to_sectors f_handle.block_data.size = 0 := rfl
  rw [hn] at hx
  cases x <;> simp only [slot_live] at hx <;> omega

theorem root_entry_sector : entry_sector root_handle.block_data (disk tree_io) 0 = 3 := by
  decide!

theorem d_entry_sector : entry_sector d_handle.block_data (disk tree_io) 0 = 5 := by
  decide!

/-- The call of `dir_remove` for "d" in the root of the small tree. -/
theorem remove_call_root {l : InodeList} {n : Nat} (hnd : (l.map (fun p => p.1)).Nodup)
    (hlt : ∀ p ∈ l, p.1 < n) (hg : handle_get l 0 = some root_handle) :
    RemoveCall tree_io (tree_alloc_n n) l (dir_handle.mk 0 0) root_handle [100] 0 :=
  ⟨IoInv_tree, AllocInv_tree n, fun _ => rfl, hnd, hlt, hg, rfl, HandleInv_root n,
    by decide, by decide!⟩

/-- The call of `dir_remove` for "f" in the directory "d" of the small tree. -/
theorem remove_call_d {l : InodeList} {n : Nat} (hnd : (l.map (fun p => p.1)).Nodup)
    (hlt : ∀ p ∈ l, p.1 < n) (hg : handle_get l 0 = some d_handle) :
    RemoveCall tree_io (tree_alloc_n n) l (dir_handle.mk 0 0) d_handle [102] 0 :=
  ⟨IoInv_tree, AllocInv_tree n, fun _ => rfl, hnd, hlt, hg, rfl, HandleInv_d n,
    by decide, by decide!⟩

theorem tree_image_d : ∀ k, k < 512 →
    disk tree_io (entry_sector root_handle.block_data (disk tree_io) 0) k
      = inode_disk_bytes (tree_data true 40 4) INODE_MAGIC (fun _ => 0) k := by
  intro k hk
  rw [root_entry_sector, disk_tree (by decide) hk]
  rfl

theorem tree_image_f : ∀ k, k < 512 →
    disk tree_io (entry_sector d_handle.block_data (disk tree_io) 0) k
      = inode_disk_bytes (tree_data false 0 0) INODE_MAGIC (fun _ => 0) k := by
  intro k hk
  rw [d_entry_sector, disk_tree (by decide) hk]
  rfl

/-- Witness for C23: in the small tree, `dir_remove` of "d" in the root returns false when
"d" is open, and when it is not open, because it holds the entries "f" and "x". -/
theorem dir_remove_keeps_busy_directory_witness :
    (∃ io' al', dir_remove 0 tree_io (tree_alloc_n 2) [(0, root_handle), (1, d_handle)]
          (fun _ => 0) (fun _ => 0) (fun _ => 0) (fun _ => 0) (dir_handle.mk 0 0) [100]
        = some (io', al', [(0, root_handle), (1, d_handle)], false) ∧
      disk io' = disk tree_io ∧ al'.free_map = (tree_alloc_n 2).free_map) ∧
    (∃ io' al', dir_remove 0 tree_io (tree_alloc_n 1) [(0, root_handle)]
          (fun _ => 0) (fun _ => 0) (fun _ => 0) (fun _ => 0) (dir_handle.mk 0 0) [100]
        = some (io', al', [(0, root_handle)], false) ∧
      disk io' = disk tree_io ∧ al'.free_map = (tree_alloc_n 1).free_map) :=
  ⟨(dir_remove_keeps_busy_directory 0 (fun _ => 0) (fun _ => 0) (fun _ => 0) (fun _ => 0)
      (remove_call_root (l := [(0, root_handle), (1, d_handle)]) (n := 2) (by decide)
        (by decide) rfl)).1 (1, d_handle) (by rw [root_entry_sector]; rfl) rfl
      (HandleInv_d 2).file (by decide) (by decide),
    (dir_remove_keeps_busy_directory 0 (fun _ => 0) (fun _ => 0) (fun _ => 0) (fun _ => 0)
      (remove_call_root (l := [(0, root_handle)]) (n := 1) (by decide) (by decide) rfl)).2
      (tree_data true 40 4) (fun _ => 0) (by rw [root_entry_sector]; rfl)
      (by rw [root_entry_sector]; exact HandleInv_d 1) tree_image_d rfl
      (Or.inl ⟨0, by decide, by decide!⟩)⟩

/-- Witness for C24: in the small tree, `dir_remove` of "f" in the directory "d" returns
true when the file "f" is open, and when it is not open. -/
theorem dir_remove_unlinks_witness :
    (∃ io', dir_remove 0 tree_io (tree_alloc_n 2) [(0, d_handle), (1, f_handle)]
          (fun _ => 0) (fun _ => 0) (fun _ => 0) (fun _ => 0) (dir_handle.mk 0 0) [102]
        = some (io', tree_alloc_n 2,
            handle_update [(0, d_handle), (1, f_handle)] 1
              (fun i => { i with removed := true }), true) ∧
      (∀ p, p < d_handle.block_data.size.toNat → p ≠ 20 * 0 + 19 →
        file_byte d_handle.block_data (disk io') p
          = file_byte d_handle.block_data (disk tree_io) p) ∧
      file_byte d_handle.block_data (disk io') (20 * 0 + 19) = 0 ∧
      (∀ (u : Nat → Nat) (pos : Int),
        (lookup io' (dir.mk d_handle pos) [102] u).map Prod.snd = some none)) ∧
    (∃ (io' : Io) (al' : Alloc) (T : List Nat),
      dir_remove 0 tree_io (tree_alloc_n 1) [(0, d_handle)]
          (fun _ => 0) (fun _ => 0) (fun _ => 0) (fun _ => 0) (dir_handle.mk 0 0) [102]
        = some (io', al', [(0, d_handle)], true) ∧
      (∀ p, p < d_handle.block_data.size.toNat → p ≠ 20 * 0 + 19 →
        file_byte d_handle.block_data (disk io') p
          = file_byte d_handle.block_data (disk tree_io) p) ∧
      file_byte d_handle.block_data (disk io') (20 * 0 + 19) = 0 ∧
      (∀ (u : Nat → Nat) (pos : Int),
        (lookup io' (dir.mk d_handle pos) [102] u).map Prod.snd = some none) ∧
      T.Nodup ∧
      (∀ s, s ∈ T ↔ s = entry_sector d_handle.block_data (disk tree_io) 0 ∨
        ∃ x, slot_live (bytes_to_sectors (tree_data false 0 0).size) x ∧
          slot_sector (tree_data false 0 0) (disk tree_io) x = s) ∧
      (∀ s, in_use al' s ↔ in_use (tree_alloc_n 1) s ∧ s ∉ T) ∧
      free_count al'.free_map = free_count (tree_alloc_n 1).free_map + T.length) :=
  have huniq : ∀ i, 0 < i → i < entry_count d_handle.block_data →
      entry_matches [102] (entry_at d_handle.block_data (disk tree_io) i) = false := by
    intro i h1 h2
    have hi : i = 1 := by
      have : entry_count d_handle.block_data = 2 := by decide
      omega
    rw [hi]
    decide!
  ⟨(dir_remove_unlinks 0 (fun _ => 0) (fun _ => 0) (fun _ => 0) (fun _ => 0)
      (remove_call_d (l := [(0, d_handle), (1, f_handle)]) (n := 2) (by decide)
        (by decide) rfl) rfl huniq).1 (1, f_handle) (by rw [d_entry_sector]; rfl) rfl
      (by decide) (by decide),
    (dir_remove_unlinks 0 (fun _ => 0) (fun _ => 0) (fun _ => 0) (fun _ => 0)
      (remove_call_d (l := [(0, d_handle)]) (n := 1) (by decide) (by decide) rfl) rfl
      huniq).2 (tree_data false 0 0) (fun _ => 0) (by rw [d_entry_sector]; rfl)
      (by rw [d_entry_sector]; exact HandleInv_f 1) tree_image_f (Or.inl rfl)
      (fun x hx => by
        have hn : bytes_to_sectors (tree_data false 0 0).size = 0 := rfl
        rw [hn] at hx
        cases x <;> simp only [slot_live] at hx <;> omega)⟩

/-! ## The file descriptor table, the argument list and the locks of `inode_open` -/

/-- C39 (the code at the failing input): a process opens two files and gets the ids 3 and 4,
closes 3, and opens two more files: the first gets the id 3 again and is put behind the
descriptor 4; for the second, `generate_fd_id` passes the element 4 while `id` is 3, counts up
at the element 3 and returns 4, the id of a descriptor that is in the table. -/
theorem generate_fd_id_returns_open_id :
    (fd_calls [] [FdCall.fd_open 10 [97], FdCall.fd_open 11 [98], FdCall.fd_close 3,
      FdCall.fd_open 12 [99]]).1.map L_fdt_elem.id = [4, 3] ∧
    generate_fd_id (fd_calls [] [FdCall.fd_open 10 [97], FdCall.fd_open 11 [98],
      FdCall.fd_close 3, FdCall.fd_open 12 [99]]).1 = 4 ∧
    (fd_calls [] [FdCall.fd_open 10 [97], FdCall.fd_open 11 [98], FdCall.fd_close 3,
      FdCall.fd_open 12 [99], FdCall.fd_open 13 [100]]).2 = [3, 4, 0, 3, 4] ∧
    (fd_calls [] [FdCall.fd_open 10 [97], FdCall.fd_open 11 [98], FdCall.fd_close 3,
      FdCall.fd_open 12 [99], FdCall.fd_open 13 [100]]).1.map L_fdt_elem.id = [4, 3, 4] := by
  decide

/-- C40 (the code at the failing input): on an input of 257 characters `a`, one argument of
more than `MAX_ARG_SIZE` characters, `L_arg_generate` jumps to `cleanup` with `success` still
true, and the assertion `ASSERT (!success)` fails: it does not return `NULL`. On the input
"ab c" it returns the two arguments with the lengths 3 and 2. -/
theorem L_arg_generate_long_argument :
    L_arg_generate (fun _ => true) (some (List.replicate 257 97)) = none ∧
    L_arg_generate (fun _ => true) (some [97, 98, 32, 99])
      = some (some [L_arg_elem.mk [97, 98, 0] 3, L_arg_elem.mk [99, 0] 2]) := by
  decide!

/-- C38 (the code at the failing input): when `malloc` fails, `inode_open` of a sector without
a handle returns `NULL` and `open_inodes_mtx` is still held; when the sector has a handle,
the lock `mtx_0` of the handle is acquired by `inode_reopen` while `open_inodes_mtx` is held,
and when it has none, the lock of the cache and the lock of a cache entry are. -/
theorem inode_open_keeps_list_lock :
    (inode_open fresh_io (Alloc.mk [] (fun _ => false) 0) [] (fun _ => 0) 5).map
      (fun r => r.2.2.2) = some none ∧
    locks_held [] (inode_open_locks fresh_io (Alloc.mk [] (fun _ => false) 0) [] 5)
      = [fs_lock.open_inodes_mtx] ∧
    acquired_under fs_lock.open_inodes_mtx false
      (inode_open_locks fresh_io (fresh_alloc 0) [(0, empty_handle 0)] 1)
      = [fs_lock.mtx_0 0] ∧
    acquired_under fs_lock.open_inodes_mtx false
      (inode_open_locks fresh_io (fresh_alloc 0) [] 1)
      = [fs_lock.cache_lock, fs_lock.sector_lock 0, fs_lock.sector_lock 0] ∧
    locks_held [] (inode_open_locks fresh_io (fresh_alloc 0) [] 1) = [] := by
  decide!

/-! ## The entry that a miss replaces -/

/-- The search loop of `buffer_cache_fetch` on a miss: the entry it leaves in `lru_sector` is
the one it came with, when no entry has a smaller timestamp than `lru_accessed`, or else the
first entry of least timestamp. -/
theorem fetch_scan_first (s : Nat) (l : List cached_sector) :
    ∀ (i : Nat) (lru : Option Nat) (acc : Int) (k : Nat),
      fetch_scan s l i lru acc = ScanResult.miss (some k) →
      (lru = some k ∧ ∀ e ∈ l, acc ≤ e.last_accessed) ∨
      (∃ e, i ≤ k ∧ l[k - i]? = some e ∧ e.last_accessed < acc ∧
        (∀ x ∈ l, e.last_accessed ≤ x.last_accessed) ∧
        ∀ (j : Nat) (y : cached_sector), j < k - i → l[j]? = some y →
          e.last_accessed < y.last_accessed) := by
  induction l with
  | nil =>
    intro i lru acc k h
    simp only [fetch_scan, ScanResult.miss.injEq] at h
    left
    exact ⟨h, fun e he => absurd he (List.not_mem_nil e)⟩
  | cons x xs ih =>
    intro i lru acc k h
    unfold fetch_scan at h
    split at h
    · cases h
    · split at h
      · rename_i hlt
        rcases ih _ _ _ _ h with ⟨h1, h2⟩ | ⟨e, h1, h2, h3, h4, h5⟩
        · right
          simp only [Option.some.injEq] at h1
          subst h1
          refine ⟨x, le_refl _, by simp, hlt, ?_, ?_⟩
          · intro y hy
            rcases List.mem_cons.mp hy with rfl | hy
            · exact le_refl _
            · exact h2 y hy
          · intro j y hj
            omega
        · right
          have hk : k - i = (k - (i + 1)) + 1 := by omega
          refine ⟨e, by omega, ?_, by omega, ?_, ?_⟩
          · rw [hk]; simpa using h2
          · intro y hy
            rcases List.mem_cons.mp hy with rfl | hy
            · omega
            · exact h4 y hy
          · intro j y hj hy
            cases j with
            | zero =>
              simp only [List.getElem?_cons_zero, Option.some.injEq] at hy
              subst hy
              exact h3
            | succ j =>
              simp only [List.getElem?_cons_succ] at hy
              exact h5 j y (by omega) hy
      · rename_i hge
        rcases ih _ _ _ _ h with ⟨h1, h2⟩ | ⟨e, h1, h2, h3, h4, h5⟩
        · left
          refine ⟨h1, ?_⟩
          intro y hy
          rcases List.mem_cons.mp hy with rfl | hy
          · omega
          · exact h2 y hy
        · right
          have hk : k - i = (k - (i + 1)) + 1 := by omega
          refine ⟨e, by omega, ?_, h3, ?_, ?_⟩
          · rw [hk]; simpa using h2
          · intro y hy
            rcases List.mem_cons.mp hy with rfl | hy
            · omega
            · exact h4 y hy
          · intro j y hj hy
            cases j with
            | zero =>
              simp only [List.getElem?_cons_zero, Option.some.injEq] at hy
              subst hy
              omega
            | succ j =>
              simp only [List.getElem?_cons_succ] at hy
              exact h5 j y (by omega) hy

/-- C35: on a miss (no entry holds the sector) in a well-formed cache of 64 entries whose
timestamps are `int64_t` values, `buffer_cache_fetch` returns, and the entry `i` that it
replaces is the first entry of least `last_accessed`: no entry has a smaller timestamp and
every entry before it has a larger one. Hence an entry in use (timestamp other than
`INT64_MIN`) is replaced only when no entry is unused; a dirty victim has its data on the
device at its old sector afterwards, no other sector of the device has changed, and the entry
carries the new sector index. -/
theorem buffer_cache_fetch_replaces_lru {c : buffer_cache} (hinv : CacheInv c)
    (hlen : c.sectors.length = BUFFER_CACHE_SIZE)
    (hmin : ∀ x ∈ c.sectors, INT64_MIN ≤ x.last_accessed) (now : Int) {s : Nat} (load : Bool)
    (hmiss : ∀ x ∈ c.sectors, x.sector_idx ≠ s) :
    ∃ c1 i e e1, buffer_cache_fetch now c s load = some (c1, i) ∧
      i < BUFFER_CACHE_SIZE ∧ c.sectors[i]? = some e ∧
      (∀ x ∈ c.sectors, e.last_accessed ≤ x.last_accessed) ∧
      (∀ (j : Nat) (y : cached_sector), j < i → c.sectors[j]? = some y →
        e.last_accessed < y.last_accessed) ∧
      (e.last_accessed ≠ INT64_MIN → ∀ x ∈ c.sectors, x.last_accessed ≠ INT64_MIN) ∧
      (e.dirty = true → c1.block_device e.sector_idx = e.data) ∧
      (∀ t, t ≠ e.sector_idx → c1.block_device t = c.block_device t) ∧
      (e.dirty = false → c1.block_device = c.block_device) ∧
      c1.sectors = c.sectors.set i e1 ∧ e1.sector_idx = s ∧ e1.last_accessed = now ∧
      c1.num_miss = wrap_int (c.num_miss + 1) := by
  unfold buffer_cache_fetch
  cases hs : fetch_scan s c.sectors 0 none INT64_MAX with
  | hit k =>
    obtain ⟨_, e, he, hes⟩ := fetch_scan_hit s c.sectors 0 none INT64_MAX k hs
    exact absurd hes (hmiss e (List.getElem?_mem he))
  | miss r =>
    cases r with
    | none =>
      obtain ⟨_, h2⟩ := fetch_scan_miss s c.sectors 0 none INT64_MAX none hs
      rcases h2 with ⟨_, h3⟩ | ⟨k, h3, _⟩
      · cases hc : c.sectors with
        | nil => exact absurd hc hinv.nonempty
        | cons x xs =>
          have hx : x ∈ c.sectors := by rw [hc]; exact List.mem_cons_self _ _
          have h4 := h3 x hx
          obtain ⟨n, hn⟩ := List.getElem?_of_mem hx
          have h5 := hinv.bounded n x hn
          omega
      · cases h3
    | some i =>
      rcases fetch_scan_first s c.sectors 0 none INT64_MAX i hs with ⟨h1, _⟩ |
        ⟨e, _, he, hlt, hall, hfirst⟩
      · cases h1
      · rw [Nat.sub_zero] at he hfirst
        have hi : i < c.sectors.length := (List.getElem?_eq_some.mp he).1
        simp only
        have hflush : cached_sector_flush { c with num_miss := wrap_int (c.num_miss + 1) } i
            = if e.last_accessed = INT64_MIN then
                { c with num_miss := wrap_int (c.num_miss + 1) }
              else if e.dirty then
                { c with
                  num_miss := wrap_int (c.num_miss + 1)
                  block_device := block_write c.block_device e.sector_idx e.data
                  sectors := c.sectors.set i { e with dirty := false } }
              else { c with num_miss := wrap_int (c.num_miss + 1) } := by
          unfold cached_sector_flush
          simp only [he]
        have hunused : e.last_accessed = INT64_MIN → e.dirty = false :=
          hinv.unused_clean i e he
        have hsec : ∀ (f : cached_sector → cached_sector),
            ∃ e2, (cached_sector_flush { c with num_miss := wrap_int (c.num_miss + 1) }
              i).sectors[i]? = some e2 ∧
              entry_update (cached_sector_flush { c with num_miss := wrap_int (c.num_miss + 1) }
                i).sectors i f = c.sectors.set i (f e2) := by
          intro f
          rw [hflush]
          split
          · exact ⟨e, he, entry_update_of_get he f⟩
          · split
            · refine ⟨{ e with dirty := false }, by simp [hi], ?_⟩
              have hg : (c.sectors.set i { e with dirty := false })[i]?
                  = some { e with dirty := false } := by simp [hi]
              rw [entry_update_of_get hg f, List.set_set]
            · exact ⟨e, he, entry_update_of_get he f⟩
        obtain ⟨e2, _, hupd⟩ := hsec (fun e' =>
          { sector_idx := s
            dirty := e'.dirty
            last_accessed := now
            data := if load then
              block_read (cached_sector_flush { c with num_miss := wrap_int (c.num_miss + 1) }
                i).block_device s else e'.data })
        refine ⟨_, i, e, _, rfl, by rw [← hlen]; exact hi, he, hall, hfirst, ?_, ?_, ?_, ?_,
          hupd, rfl, rfl, ?_⟩
        · intro hne x hx heq
          have h1 := hall x hx
          have h2 := hmin e (List.getElem?_mem he)
          omega
        · intro hd
          have hne : e.last_accessed ≠ INT64_MIN := by
            intro h
            rw [hunused h] at hd
            cases hd
          simp only [hflush, if_neg hne, hd, if_true, block_write]
        · intro t ht
          simp only [hflush]
          split
          · rfl
          · split
            · simp only [block_write, if_neg ht]
            · rfl
        · intro hd
          simp only [hflush, hd]
          split <;> rfl
        · simp only [hflush]
          split
          · rfl
          · split <;> rfl

/-! ## A miss in a cache without an unused entry -/

theorem busy_cache_entry {i : Nat} {e : cached_sector} (h : busy_cache.sectors[i]? = some e) :
    i < 64 ∧ e.sector_idx = i ∧ e.dirty = true ∧ e.last_accessed = (i : Int) + 1 ∧
      e.data = fun _ => 9 := by
  unfold busy_cache BUFFER_CACHE_SIZE at h
  simp only [List.getElem?_map, List.getElem?_range, Option.map_eq_some'] at h
  obtain ⟨a, ha, rfl⟩ := h
  by_cases c : i < 64
  · rw [List.getElem?_range c] at ha
    cases ha
    exact ⟨c, rfl, rfl, rfl, rfl⟩
  · rw [List.getElem?_eq_none (by simpa using c)] at ha
    cases ha

theorem busy_cache_mem {x : cached_sector} (h : x ∈ busy_cache.sectors) :
    x.sector_idx < 64 ∧ x.dirty = true ∧ 1 ≤ x.last_accessed ∧ x.last_accessed ≤ 64 := by
  obtain ⟨i, hi⟩ := List.getElem?_of_mem h
  obtain ⟨h1, h2, h3, h4, _⟩ := busy_cache_entry hi
  rw [h2, h4]
  exact ⟨h1, h3, by omega, by omega⟩

theorem CacheInv_busy : CacheInv busy_cache where
  nonempty := by
    intro h
    have := congrArg List.length h
    simp [busy_cache, BUFFER_CACHE_SIZE] at this
  uniq := by
    intro i j ei ej hi hj he _
    have h1 := (busy_cache_entry hi).2.1
    have h2 := (busy_cache_entry hj).2.1
    omega
  clean := by
    intro i e hi hd
    rw [(busy_cache_entry hi).2.2.1] at hd
    cases hd
  unused_clean := by
    intro i e hi hl
    have := (busy_cache_entry hi).2.2.2.1
    unfold INT64_MIN at hl
    omega
  none_clean := by
    intro i e hi hs
    have h1 := (busy_cache_entry hi).1
    have h2 := (busy_cache_entry hi).2.1
    unfold SECTOR_NONE at hs
    omega
  bounded := by
    intro i e hi
    have h1 := (busy_cache_entry hi).1
    have h2 := (busy_cache_entry hi).2.2.2.1
    unfold INT64_MAX
    omega

/-- Witness for C35: a miss on sector 100 at the time 70 in a cache whose 64 entries are all
in use and dirty (`busy_cache`): no entry is unused, every entry is dirty, and the entry that
is replaced, the first one of least `last_accessed`, is written back. It is entry 0: its
data, the byte 9, is in sector 0 of the device afterwards, where a 0 was, and the entry holds
sector 100, clean, with the time 70; entry 1 is as it was. -/
theorem buffer_cache_fetch_replaces_lru_witness :
    (∀ x ∈ busy_cache.sectors, x.last_accessed ≠ INT64_MIN ∧ x.dirty = true) ∧
    busy_cache.block_device 0 0 = 0 ∧
    (buffer_cache_fetch 70 busy_cache 100 true).map
        (fun r => (r.2, r.1.block_device 0 0,
          (r.1.sectors.map (fun x => (x.sector_idx, x.dirty, x.last_accessed))).take 2))
      = some (0, 9, [(100, false, 70), (1, true, 2)]) ∧
    ∃ c1 i e e1, buffer_cache_fetch 70 busy_cache 100 true = some (c1, i) ∧
      i < BUFFER_CACHE_SIZE ∧ busy_cache.sectors[i]? = some e ∧
      (∀ x ∈ busy_cache.sectors, e.last_accessed ≤ x.last_accessed) ∧
      (∀ (j : Nat) (y : cached_sector), j < i → busy_cache.sectors[j]? = some y →
        e.last_accessed < y.last_accessed) ∧
      (e.last_accessed ≠ INT64_MIN → ∀ x ∈ busy_cache.sectors, x.last_accessed ≠ INT64_MIN) ∧
      (e.dirty = true → c1.block_device e.sector_idx = e.data) ∧
      (∀ t, t ≠ e.sector_idx → c1.block_device t = busy_cache.block_device t) ∧
      (e.dirty = false → c1.block_device = busy_cache.block_device) ∧
      c1.sectors = busy_cache.sectors.set i e1 ∧ e1.sector_idx = 100 ∧
      e1.last_accessed = 70 ∧ c1.num_miss = wrap_int (busy_cache.num_miss + 1) :=
  ⟨fun x hx => by
      obtain ⟨_, h2, h3, _⟩ := busy_cache_mem hx
      refine ⟨?_, h2⟩
      unfold INT64_MIN
      omega,
    rfl, by decide!,
    buffer_cache_fetch_replaces_lru CacheInv_busy
      (by simp [busy_cache])
      (fun x hx => by
        have := (busy_cache_mem hx).2.2.1
        unfold INT64_MIN
        omega) 70 true
      (fun x hx => by
        have := (busy_cache_mem hx).1
        omega)⟩

/-! ## A write that `deny_write_cnt` rejects behind the growth of the file -/

/-- C37: on a well-formed handle of length `L` with `deny_write_cnt > 0`, for a range that
ends behind `L` (and within the maximum file size), when there are enough free sectors and
`malloc` does not fail, `inode_write_at` returns 0 and no byte of the buffer reaches the file
(every byte below `L` is what it was, every byte from `L` on is zero), yet the handle has the
length `offset + size`, it is well formed with that length, so the sectors of the growth are
marked in use, and the free map has lost exactly the sectors that the growth needs. -/
theorem inode_write_at_denied_grows {io : Io} {al : Alloc} {ino : inode} (junk : Int)
    (pad : Nat → Nat) (buffer : Nat → Nat) {size offset : Int} (hinv : IoInv io)
    (hal : AllocInv al) (hm : ∀ k, al.malloc_ok k = true) (hh : HandleInv ino (disk io) al)
    (hdeny : 0 < ino.deny_write_cnt)
    (hs : 0 < size) (ho : 0 ≤ offset) (hmax : offset + size ≤ MAX_BYTES)
    (hgrow : inode_length ino < offset + size)
    (hfree : grow_need (bytes_to_sectors (inode_length ino))
      (bytes_to_sectors (offset + size) - bytes_to_sectors (inode_length ino))
      ≤ free_count al.free_map) :
    ∃ io' al' ino',
      inode_write_at junk io al pad ino buffer size offset = some (io', al', ino', 0) ∧
      inode_length ino' = offset + size ∧
      ino'.deny_write_cnt = ino.deny_write_cnt ∧
      (∀ p, p < (offset + size).toNat → file_byte ino'.block_data (disk io') p
        = if p < (inode_length ino).toNat then file_byte ino.block_data (disk io) p else 0) ∧
      HandleInv ino' (disk io') al' ∧
      (∀ t, in_use al t → in_use al' t) ∧
      free_count al'.free_map + grow_need (bytes_to_sectors (inode_length ino))
        (bytes_to_sectors (offset + size) - bytes_to_sectors (inode_length ino))
        = free_count al.free_map := by
  unfold inode_length at hgrow hfree ⊢
  have hmx : max ino.block_data.size (offset + size) = offset + size := by omega
  obtain ⟨io1, al1, d1, hres, _, _, _, _, hh1, hsize1, _, hbytes1, hmono1, hcnt1⟩ :=
    inode_write_at_resize_spec pad hinv hal hm hh hs ho hmax (by rw [hmx]; exact hfree)
  rw [hmx] at hsize1 hbytes1 hcnt1
  refine ⟨io1, al1, { ino with block_data := d1 }, ?_, hsize1, rfl, hbytes1, hh1, hmono1, hcnt1⟩
  unfold inode_write_at
  rw [hres]
  have hd : ino.deny_write_cnt ≠ 0 := by omega
  simp only [hd, ne_eq, not_false_eq_true, if_true]

/-- Witness for C37: one byte at offset 0 of an empty file with `deny_write_cnt = 1`. -/
theorem inode_write_at_denied_grows_witness :
    ∃ io' al' ino',
      inode_write_at 7 fresh_io (fresh_alloc 3) (fun _ => 0) (empty_handle 1) (fun _ => 65) 1 0
        = some (io', al', ino', 0) ∧
      inode_length ino' = 0 + 1 ∧
      ino'.deny_write_cnt = (empty_handle 1).deny_write_cnt ∧
      (∀ p, p < ((0 : Int) + 1).toNat → file_byte ino'.block_data (disk io') p
        = if p < (inode_length (empty_handle 1)).toNat then
            file_byte (empty_handle 1).block_data (disk fresh_io) p else 0) ∧
      HandleInv ino' (disk io') al' ∧
      (∀ t, in_use (fresh_alloc 3) t → in_use al' t) ∧
      free_count al'.free_map + grow_need (bytes_to_sectors (inode_length (empty_handle 1)))
        (bytes_to_sectors (0 + 1) - bytes_to_sectors (inode_length (empty_handle 1)))
        = free_count (fresh_alloc 3).free_map :=
  inode_write_at_denied_grows 7 (fun _ => 0) (fun _ => 65) IoInv_fresh
    (AllocInv_fresh (by decide)) (fun _ => rfl) (HandleInv_empty 1 _ _) (by decide) (by decide)
    (by decide) (by decide) (by decide)
    (by rw [free_count_fresh]; exact le_trans (grow_need_le _ _) (by decide))

/-! ## What a write leaves alone -/

/-- The growth in `inode_write_at`, as `inode_write_at_grow_spec`: the sectors of the old
slots stay, the sectors of the new slots were not in use, and a sector that was in use and is
neither the inode sector nor an index block of the file keeps its content. -/
theorem inode_write_at_grow_frame {io : Io} {al : Alloc} {ino : inode} (pad : Nat → Nat)
    {size offset : Int} (hinv : IoInv io) (hal : AllocInv al)
    (hm : ∀ k, al.malloc_ok k = true) (hh : HandleInv ino (disk io) al)
    (hs : 0 < size) (ho : 0 ≤ offset) (hmax : offset + size ≤ MAX_BYTES)
    (hgrow : ino.block_data.size < offset + size)
    (hfree : grow_need (bytes_to_sectors ino.block_data.size)
      (bytes_to_sectors (offset + size) - bytes_to_sectors ino.block_data.size)
      ≤ free_count al.free_map) :
    ∃ io1 al1 d1 io2,
      inode_data_resize io al ino.block_data (to_u32 (wrap_int (offset + size)))
        = some (io1, al1, d1, true) ∧
      inode_writeback io1 pad { ino with block_data := d1 } = some io2 ∧
      (∀ x, slot_live (bytes_to_sectors ino.block_data.size) x →
        slot_sector d1 (disk io2) x = slot_sector ino.block_data (disk io) x) ∧
      (∀ x, slot_live (bytes_to_sectors (offset + size)) x →
        ¬ slot_live (bytes_to_sectors ino.block_data.size) x →
        ¬ in_use al (slot_sector d1 (disk io2) x)) ∧
      (∀ t, in_use al t → t ≠ ino.sector →
        (∀ x, slot_live (bytes_to_sectors ino.block_data.size) x → x.is_index →
          slot_sector ino.block_data (disk io) x ≠ t) → disk io2 t = disk io t) := by
  have hmax' := hmax
  unfold MAX_BYTES at hmax'
  have h0 := hh.file.size_nonneg
  obtain ⟨A, hA⟩ := Int.eq_ofNat_of_zero_le (show (0 : Int) ≤ offset + size by omega)
  have hu : to_u32 (wrap_int (offset + size)) = A := by
    rw [wrap_int_of_range (by omega) (by omega), hA]
    exact to_u32_natCast (by omega)
  rw [hu]
  rw [hA] at hfree hgrow ⊢
  obtain ⟨io1, al1, d1, hres, hinv1, hal1, ht1, hm1, hsize1, hdir1, hfile1, hpres1, hframe1,
      hzero1, hmono1, hcnt1, hnew1⟩ :=
    @inode_data_resize_spec _ _ _ A hinv hal hm hh.file (by omega)
      (by unfold MAX_BYTES; omega) hfree
  have hsz1 : bytes_to_sectors d1.size = bytes_to_sectors (A : Int) := by rw [hsize1]
  have hh1 : HandleInv { ino with block_data := d1 } (disk io1) al1 := by
    refine ⟨hfile1, hmono1 _ hh.sector_used, ?_⟩
    intro x hx heq
    simp only at hx heq
    rw [hsz1] at hx
    by_cases c : slot_live (bytes_to_sectors ino.block_data.size) x
    · rw [hpres1 x c] at heq
      exact hh.sector_own x c heq
    · apply hnew1 x hx c
      rw [heq]
      exact hh.sector_used
  obtain ⟨io2, hwb, _, _, _, _, hpres2, _, hother2⟩ :=
    inode_writeback_spec hinv1 hal1 hh1 pad
  simp only at hpres2 hother2
  rw [hsz1] at hpres2
  have hold : bytes_to_sectors ino.block_data.size = (ino.block_data.size.toNat + 511) / 512 :=
    bytes_to_sectors_eq h0 (by omega)
  have hnew : bytes_to_sectors (A : Int) = (A + 511) / 512 := by
    rw [bytes_to_sectors_eq (by omega) (by omega)]
    simp
  have hle : bytes_to_sectors ino.block_data.size ≤ bytes_to_sectors (A : Int) := by
    rw [hold, hnew]; omega
  refine ⟨io1, al1, d1, io2, hres, hwb, ?_, ?_, ?_⟩
  · intro x hx
    rw [hpres2 x (slot_live_mono hle hx)]
    exact hpres1 x hx
  · intro x hx c
    rw [hpres2 x hx]
    exact hnew1 x hx c
  · intro t hin hne hidx
    rw [hother2 t hne]
    exact hframe1 t hin hidx

/-- The first part of `inode_write_at`, as `inode_write_at_resize_spec`: the sectors of the old
slots stay, the sectors of the new slots were not in use, and a sector that was in use and is
neither the inode sector nor an index block of the file keeps its content. -/
theorem inode_write_at_resize_frame {io : Io} {al : Alloc} {ino : inode} (pad : Nat → Nat)
    {size offset : Int} (hinv : IoInv io) (hal : AllocInv al)
    (hm : ∀ k, al.malloc_ok k = true) (hh : HandleInv ino (disk io) al)
    (hs : 0 < size) (ho : 0 ≤ offset) (hmax : offset + size ≤ MAX_BYTES)
    (hfree : grow_need (bytes_to_sectors ino.block_data.size)
      (bytes_to_sectors (max ino.block_data.size (offset + size))
        - bytes_to_sectors ino.block_data.size) ≤ free_count al.free_map) :
    ∃ io1 al1 d1,
      inode_write_at_resize io al pad ino size offset
        = some (io1, al1, { ino with block_data := d1 }, true) ∧
      (∀ x, slot_live (bytes_to_sectors ino.block_data.size) x →
        slot_sector d1 (disk io1) x = slot_sector ino.block_data (disk io) x) ∧
      (∀ x, slot_live (bytes_to_sectors (max ino.block_data.size (offset + size))) x →
        ¬ slot_live (bytes_to_sectors ino.block_data.size) x →
        ¬ in_use al (slot_sector d1 (disk io1) x)) ∧
      (∀ t, in_use al t → t ≠ ino.sector →
        (∀ x, slot_live (bytes_to_sectors ino.block_data.size) x → x.is_index →
          slot_sector ino.block_data (disk io) x ≠ t) → disk io1 t = disk io t) := by
  have hmax' := hmax
  unfold MAX_BYTES at hmax'
  unfold inode_write_at_resize
  rw [wrap_int_of_range (by omega) (by omega)]
  by_cases hgrow : ino.block_data.size < offset + size
  · have hmx : max ino.block_data.size (offset + size) = offset + size := by omega
    rw [hmx] at hfree ⊢
    obtain ⟨io1, al1, d1, io2, hres, hwb, h1, h2, h3⟩ :=
      inode_write_at_grow_frame pad hinv hal hm hh hs ho hmax hgrow hfree
    rw [wrap_int_of_range (by omega) (by omega)] at hres
    simp only
    rw [if_pos (by omega), hres]
    simp only [hwb]
    exact ⟨io2, al1, d1, rfl, h1, h2, h3⟩
  · have hmx : max ino.block_data.size (offset + size) = ino.block_data.size := by omega
    rw [hmx]
    simp only
    rw [if_neg (by omega)]
    exact ⟨io, al, ino.block_data, rfl, fun _ _ => rfl, fun x hx c => absurd hx c,
      fun _ _ _ _ => rfl⟩

/-- The function `inode_write_at`, as `inode_write_at_spec`: the sectors of the old slots
stay, the sectors of the new slots were not in use, and a sector that was in use and is
neither the inode sector nor a sector of the file keeps its content. -/
theorem inode_write_at_frame {io : Io} {al : Alloc} {ino : inode} (junk : Int)
    (pad : Nat → Nat) (buffer : Nat → Nat) {size offset : Int} (hinv : IoInv io)
    (hal : AllocInv al) (hm : ∀ k, al.malloc_ok k = true) (hh : HandleInv ino (disk io) al)
    (hdeny : ino.deny_write_cnt = 0)
    (hs : 0 < size) (ho : 0 ≤ offset) (hmax : offset + size ≤ MAX_BYTES)
    (hfree : grow_need (bytes_to_sectors ino.block_data.size)
      (bytes_to_sectors (max ino.block_data.size (offset + size))
        - bytes_to_sectors ino.block_data.size) ≤ free_count al.free_map) :
    ∃ io' al' d',
      inode_write_at junk io al pad ino buffer size offset
        = some (io', al', { ino with block_data := d' }, size) ∧
      (∀ x, slot_live (bytes_to_sectors ino.block_data.size) x →
        slot_sector d' (disk io') x = slot_sector ino.block_data (disk io) x) ∧
      (∀ x, slot_live (bytes_to_sectors (max ino.block_data.size (offset + size))) x →
        ¬ slot_live (bytes_to_sectors ino.block_data.size) x →
        ¬ in_use al (slot_sector d' (disk io') x)) ∧
      (∀ t, in_use al t → t ≠ ino.sector →
        (∀ x, slot_live (bytes_to_sectors ino.block_data.size) x →
          slot_sector ino.block_data (disk io) x ≠ t) → disk io' t = disk io t) := by
  have hmax' := hmax
  unfold MAX_BYTES at hmax'
  obtain ⟨S, hS⟩ := Int.eq_ofNat_of_zero_le (show (0 : Int) ≤ size by omega)
  obtain ⟨O, hO⟩ := Int.eq_ofNat_of_zero_le ho
  subst hS hO
  obtain ⟨io1, al1, d1, hres, hinv1, hal1, hm1, ht1, hh1, hsize1, hdir1, hbytes1, hmono1, _⟩ :=
    inode_write_at_resize_spec pad hinv hal hm hh hs ho hmax hfree
  obtain ⟨io1', al1', d1', hres', hp1, hn1', hf1⟩ :=
    inode_write_at_resize_frame pad hinv hal hm hh hs ho hmax hfree
  rw [hres] at hres'
  have e1 : io1 = io1' := (Prod.mk.inj (Option.some.inj hres')).1
  have e2 : d1 = d1' := by
    have := (Prod.mk.inj (Prod.mk.inj (Prod.mk.inj (Option.some.inj hres')).2).2).1
    exact congrArg inode.block_data this
  subst e1 e2
  have h0 := hh.file.size_nonneg
  have hmaxd := hh.file.size_max
  unfold MAX_BYTES at hmaxd
  obtain ⟨L', hL'⟩ := Int.eq_ofNat_of_zero_le
    (show (0 : Int) ≤ max ino.block_data.size ((O : Int) + (S : Int)) by omega)
  have hL1 : ({ ino with block_data := d1 } : inode).block_data.size = (L' : Int) := by
    simp only [hsize1, hL']
  have hn1 : bytes_to_sectors d1.size = (L' + 511) / 512 := by
    rw [hsize1, hL', bytes_to_sectors_eq (by omega) (by omega)]
    simp
  have hnm : bytes_to_sectors (max ino.block_data.size ((O : Int) + (S : Int)))
      = (L' + 511) / 512 := by
    rw [← hsize1]; exact hn1
  have hold : bytes_to_sectors ino.block_data.size = (ino.block_data.size.toNat + 511) / 512 :=
    bytes_to_sectors_eq h0 (by omega)
  have hle : bytes_to_sectors ino.block_data.size ≤ (L' + 511) / 512 := by
    rw [hold]; omega
  have hwf1 := hh1.file.wf
  simp only at hwf1
  rw [hn1] at hwf1
  obtain ⟨fuel, hfuel⟩ : ∃ fuel : Nat, ((S : Int).toNat + 1) = fuel := ⟨_, rfl⟩
  obtain ⟨io2, hrun, hinv2, ht2, hwf2, hpres2, hcont2, hframe2⟩ :=
    @inode_write_loop_spec _ hal1 { ino with block_data := d1 } _ _ hL1 rfl
      (by unfold MAX_BYTES; omega) buffer fuel io1 S O 0 hinv1 hwf1 (by omega) (by omega)
  have e0 : ((0 : Nat) : Int) = 0 := rfl
  have e1 : (((0 + S : Nat)) : Int) = (S : Int) := by omega
  rw [e0, e1, ← hfuel] at hrun
  have hcode : inode_write_at junk io al pad ino buffer (S : Int) (O : Int)
      = some (io2, al1, { ino with block_data := d1 }, (S : Int)) :=
    inode_write_at_of_resize hres hdeny hrun
  simp only at hpres2 hframe2
  rw [hnm] at hn1'
  refine ⟨io2, al1, d1, hcode, ?_, ?_, ?_⟩
  · intro x hx
    rw [hpres2 x (slot_live_mono hle hx)]
    exact hp1 x hx
  · intro x hx c
    rw [hnm] at hx
    rw [hpres2 x hx]
    exact hn1' x hx c
  · intro t hin hne hslots
    rw [← hf1 t hin hne (fun x hx _ => hslots x hx)]
    funext k
    apply hframe2
    intro p hp1' hp2' ⟨h1, _⟩
    have hlive : slot_live ((L' + 511) / 512) (Slot.data (p / 512)) := by
      show p / 512 < (L' + 511) / 512
      omega
    by_cases c : slot_live (bytes_to_sectors ino.block_data.size) (Slot.data (p / 512))
    · have := hp1 _ c
      rw [slot_sector_data] at this
      rw [this] at h1
      exact hslots _ c h1
    · have := hn1' _ hlive c
      rw [slot_sector_data, h1] at this
      exact this hin

/-- A well-formed handle stays well formed, with the same block map and the same bytes, when
its sectors keep their content and no sector in use is released. -/
theorem HandleInv_frame {ino : inode} {D D' : Nat → Nat → Nat} {al al' : Alloc}
    (hh : HandleInv ino D al) (hsame : ∀ t, inode_owns ino D t → D' t = D t)
    (hmono : ∀ t, in_use al t → in_use al' t) :
    HandleInv ino D' al' ∧
    (∀ x, slot_live (bytes_to_sectors ino.block_data.size) x →
      slot_sector ino.block_data D' x = slot_sector ino.block_data D x) ∧
    (∀ p, p / 512 < bytes_to_sectors ino.block_data.size →
      file_byte ino.block_data D' p = file_byte ino.block_data D p) ∧
    (∀ t, inode_owns ino D' t ↔ inode_owns ino D t) := by
  obtain ⟨hf, hpres, hbyte⟩ := @FileInv_frame _ _ D' _ hh.file
    (fun x hx => hsame _ (Or.inr ⟨x, hx, rfl⟩))
  have hh' : HandleInv ino D' al := by
    refine ⟨hf, hh.sector_used, ?_⟩
    intro x hx
    rw [hpres x hx]
    exact hh.sector_own x hx
  refine ⟨HandleInv_alloc hh' hmono, hpres, hbyte, ?_⟩
  intro t
  constructor
  · rintro (h | ⟨x, hx, h⟩)
    · exact Or.inl h
    · exact Or.inr ⟨x, hx, by rw [← hpres x hx]; exact h⟩
  · rintro (h | ⟨x, hx, h⟩)
    · exact Or.inl h
    · exact Or.inr ⟨x, hx, by rw [hpres x hx]; exact h⟩

/-- The sectors of a well-formed handle are marked in use and none of them is the sector
that takes the place of -1. -/
theorem inode_owns_in_use {ino : inode} {D : Nat → Nat → Nat} {al : Alloc}
    (hh : HandleInv ino D al) {t : Nat} (ht : inode_owns ino D t) : in_use al t := by
  rcases ht with h | ⟨x, hx, h⟩
  · rw [h]; exact hh.sector_used
  · rw [← h]; exact hh.file.wf.used x hx

/-- The sectors of a handle of at most one data sector. -/
theorem inode_owns_one_sector {ino : inode} {D : Nat → Nat → Nat} {t : Nat}
    (h0 : 0 ≤ ino.block_data.size) (h1 : ino.block_data.size ≤ 512)
    (ht : inode_owns ino D t) : t = ino.sector ∨ t = ino.block_data.l0_blocks 0 := by
  rcases ht with h | ⟨x, hx, h⟩
  · exact Or.inl h
  · right
    rw [bytes_to_sectors_eq h0 (by omega)] at hx
    have hsec : slot_sector ino.block_data D (Slot.data 0) = ino.block_data.l0_blocks 0 := rfl
    cases x with
    | data i =>
      simp only [slot_live] at hx
      have hi : i = 0 := by omega
      subst hi
      rw [← h, hsec]
    | l1 k => simp only [slot_live] at hx; omega
    | l2 a => simp only [slot_live] at hx; omega

/-- C36: on a well-formed handle of length `L` with writes allowed, for a range of `size > 0`
bytes at `offset` that ends within the maximum file size, when there are enough free sectors
and `malloc` does not fail, `inode_write_at` returns `size`; afterwards every byte of the file
below `max (L, offset + size)` and outside the range is what it was, or zero from `L` on; and
every other well-formed file, one that has no sector in common with the handle, is still well
formed, its inode sector has the same content and each of its bytes is what it was. -/
theorem inode_write_at_leaves_rest {io : Io} {al : Alloc} {ino : inode} (junk : Int)
    (pad : Nat → Nat) (buffer : Nat → Nat) {size offset : Int} (hinv : IoInv io)
    (hal : AllocInv al) (hm : ∀ k, al.malloc_ok k = true) (hh : HandleInv ino (disk io) al)
    (hdeny : ino.deny_write_cnt = 0)
    (hs : 0 < size) (ho : 0 ≤ offset) (hmax : offset + size ≤ MAX_BYTES)
    (hfree : grow_need (bytes_to_sectors (inode_length ino))
      (bytes_to_sectors (max (inode_length ino) (offset + size))
        - bytes_to_sectors (inode_length ino)) ≤ free_count al.free_map) :
    ∃ io' al' ino',
      inode_write_at junk io al pad ino buffer size offset = some (io', al', ino', size) ∧
      (∀ p, p < (max (inode_length ino) (offset + size)).toNat →
        ¬ (offset.toNat ≤ p ∧ p < offset.toNat + size.toNat) →
        file_byte ino'.block_data (disk io') p
          = if p < (inode_length ino).toNat then file_byte ino.block_data (disk io) p else 0) ∧
      (∀ other : inode, HandleInv other (disk io) al →
        (∀ t, inode_owns other (disk io) t → ¬ inode_owns ino (disk io) t) →
        HandleInv other (disk io') al' ∧
        disk io' other.sector = disk io other.sector ∧
        ∀ p, p / 512 < bytes_to_sectors (inode_length other) →
          file_byte other.block_data (disk io') p = file_byte other.block_data (disk io) p) := by
  unfold inode_length at hfree ⊢
  obtain ⟨io', al', d', hwr, _, _, _, _, _, _, _, _, hout, hmono⟩ :=
    inode_write_at_spec junk pad buffer hinv hal hm hh hdeny hs ho hmax hfree
  obtain ⟨io2, al2, d2, hwr2, _, _, hframe⟩ :=
    inode_write_at_frame junk pad buffer hinv hal hm hh hdeny hs ho hmax hfree
  rw [hwr] at hwr2
  have e1 : io' = io2 := (Prod.mk.inj (Option.some.inj hwr2)).1
  subst e1
  refine ⟨io', al', _, hwr, hout, ?_⟩
  intro other hother hapart
  have hsame : ∀ t, inode_owns other (disk io) t → disk io' t = disk io t := by
    intro t ht
    apply hframe t (inode_owns_in_use hother ht)
    · intro h
      exact hapart t ht (Or.inl h)
    · intro x hx h
      exact hapart t ht (Or.inr ⟨x, hx, h⟩)
  obtain ⟨h1, _, h3, _⟩ := HandleInv_frame hother hsame hmono
  exact ⟨h1, hsame _ (Or.inl rfl), h3⟩

/-- Witness for C36: one byte written at offset 0 of the root directory of the small tree;
the other file is the directory "d". -/
theorem inode_write_at_leaves_rest_witness :
    ∃ io' al' ino',
      inode_write_at 0 tree_io (tree_alloc_n 0) (fun _ => 0) root_handle (fun _ => 65) 1 0
        = some (io', al', ino', 1) ∧
      (∀ p, p < (max (inode_length root_handle) (0 + 1)).toNat →
        ¬ ((0 : Int).toNat ≤ p ∧ p < (0 : Int).toNat + (1 : Int).toNat) →
        file_byte ino'.block_data (disk io') p
          = if p < (inode_length root_handle).toNat then
              file_byte root_handle.block_data (disk tree_io) p else 0) ∧
      (HandleInv d_handle (disk io') al' ∧
        disk io' d_handle.sector = disk tree_io d_handle.sector ∧
        ∀ p, p / 512 < bytes_to_sectors (inode_length d_handle) →
          file_byte d_handle.block_data (disk io') p
            = file_byte d_handle.block_data (disk tree_io) p) :=
  (inode_write_at_leaves_rest 0 (fun _ => 0) (fun _ => 65) IoInv_tree (AllocInv_tree 0)
    (fun _ => rfl) (HandleInv_root 0) rfl (by decide) (by decide) (by decide)
    (by decide)).imp (fun _ h => h.imp (fun _ h => h.imp (fun _ h =>
      ⟨h.1, h.2.1, h.2.2 d_handle (HandleInv_d 0) (fun t ht hr => by
        rcases inode_owns_one_sector (by decide) (by decide) ht with h1 | h1 <;>
        rcases inode_owns_one_sector (by decide) (by decide) hr with h2 | h2 <;>
        · rw [h1] at h2
          revert h2
          decide)⟩)))

/-! ## The counter of `malloc` calls never goes back -/

theorem free_map_allocate_calls {al al' : Alloc} {s : Nat}
    (h : free_map_allocate al = some (al', s)) : al'.malloc_calls = al.malloc_calls := by
  rw [(free_map_allocate_eq h).1]

theorem resize_release_calls (ns : List new_sector_elem) : ∀ (al : Alloc),
    (resize_release al ns).malloc_calls = al.malloc_calls := by
  induction ns with
  | nil => intro al; rfl
  | cons e rest ih =>
    intro al
    unfold resize_release
    rw [List.foldl_cons]
    have := ih (free_map_release al e.sector)
    unfold resize_release at this
    rw [this]
    rfl

theorem resize_allocate_calls (idxs : List Nat) : ∀ {io io' : Io} {al al' : Alloc}
    {ns ns' : List new_sector_elem} {b : Bool},
    resize_allocate idxs io al ns = some (io', al', ns', b) →
    al.malloc_calls ≤ al'.malloc_calls := by
  induction idxs with
  | nil =>
    intro io io' al al' ns ns' b h
    simp only [resize_allocate, Option.some.injEq, Prod.mk.injEq] at h
    rw [← h.2.1]
  | cons i rest ih =>
    intro io io' al al' ns ns' b h
    unfold resize_allocate at h
    cases hm : al.malloc_ok al.malloc_calls with
    | false =>
      simp only [malloc, hm, Option.some.injEq, Prod.mk.injEq] at h
      rw [← h.2.1]
      exact Nat.le_succ _
    | true =>
      simp only [malloc, hm] at h
      cases hfa : free_map_allocate { al with malloc_calls := al.malloc_calls + 1 } with
      | none =>
        rw [hfa] at h
        simp only [Option.some.injEq, Prod.mk.injEq] at h
        rw [← h.2.1]
        exact Nat.le_succ _
      | some p =>
        obtain ⟨al2, s⟩ := p
        rw [hfa] at h
        simp only at h
        cases hz : zero_out io s with
        | none => rw [hz] at h; cases h
        | some io1 =>
          rw [hz] at h
          simp only at h
          have h1 := ih h
          have h2 := free_map_allocate_calls hfa
          simp only at h2
          omega

theorem resize_link_one_calls {io io' : Io} {al al' : Alloc} {d d' : inode_data}
    {e : new_sector_elem} {b : Bool}
    (h : resize_link_one io al d e = some (io', al', d', b)) :
    al'.malloc_calls = al.malloc_calls := by
  unfold resize_link_one at h
  by_cases hml : e.multi_lvl = true
  · rw [if_pos hml] at h
    cases h2 : resize_link_l2 al d e with
    | none =>
      rw [h2] at h
      simp only [Option.some.injEq, Prod.mk.injEq] at h
      rw [← h.2.1]
    | some p =>
      obtain ⟨al1, d1⟩ := p
      rw [h2] at h
      simp only at h
      have hl1 : al1.malloc_calls = al.malloc_calls := by
        unfold resize_link_l2 at h2
        by_cases c : e.l1_block_idx = 0 ∧ e.data_block_idx = 0
        · rw [if_pos c] at h2
          cases hfa : free_map_allocate al with
          | none => rw [hfa] at h2; cases h2
          | some q =>
            obtain ⟨al0, s⟩ := q
            rw [hfa] at h2
            simp only [Option.some.injEq, Prod.mk.injEq] at h2
            rw [← h2.1]
            exact free_map_allocate_calls hfa
        · rw [if_neg c] at h2
          simp only [Option.some.injEq, Prod.mk.injEq] at h2
          rw [← h2.1]
      cases h3 : resize_link_l1 io al1 d1 e with
      | none => rw [h3] at h; cases h
      | some r =>
        rw [h3] at h
        cases r with
        | none =>
          simp only [Option.some.injEq, Prod.mk.injEq] at h
          rw [← h.2.1]
          exact hl1
        | some q =>
          obtain ⟨io1, al2⟩ := q
          simp only at h
          have hl2 : al2.malloc_calls = al1.malloc_calls := by
            unfold resize_link_l1 at h3
            by_cases c : e.data_block_idx = 0
            · rw [if_pos c] at h3
              cases hfa : free_map_allocate al1 with
              | none => rw [hfa] at h3; cases h3
              | some q =>
                obtain ⟨al0, s⟩ := q
                rw [hfa] at h3
                simp only at h3
                cases hw : fs_cache_write io (d1.l2_blocks e.l2_block_idx) (u32_bytes s)
                    (e.l1_block_idx * 4) 4 with
                | none => rw [hw] at h3; cases h3
                | some io0 =>
                  rw [hw] at h3
                  simp only [Option.some.injEq, Prod.mk.injEq] at h3
                  rw [← h3.2]
                  exact free_map_allocate_calls hfa
            · rw [if_neg c] at h3
              simp only [Option.some.injEq, Prod.mk.injEq] at h3
              rw [← h3.2]
          cases hr : fs_cache_read io1 (d1.l2_blocks e.l2_block_idx) (fun _ => 0)
              (e.l1_block_idx * 4) 4 with
          | none => rw [hr] at h; cases h
          | some q =>
            obtain ⟨io2, buf⟩ := q
            rw [hr] at h
            simp only at h
            cases hw : fs_cache_write io2 (get_u32 buf 0) (u32_bytes e.sector)
                (e.data_block_idx * 4) 4 with
            | none => rw [hw] at h; cases h
            | some io3 =>
              rw [hw] at h
              simp only [Option.some.injEq, Prod.mk.injEq] at h
              rw [← h.2.1, hl2, hl1]
  · rw [if_neg hml] at h
    simp only [Option.some.injEq, Prod.mk.injEq] at h
    rw [← h.2.1]

theorem resize_link_calls (ns : List new_sector_elem) : ∀ {io io' : Io} {al al' : Alloc}
    {d d' : inode_data}, resize_link ns io al d = some (io', al', d') →
    al'.malloc_calls = al.malloc_calls := by
  induction ns with
  | nil =>
    intro io io' al al' d d' h
    simp only [resize_link, Option.some.injEq, Prod.mk.injEq] at h
    rw [← h.2.1]
  | cons e rest ih =>
    intro io io' al al' d d' h
    unfold resize_link at h
    cases h1 : resize_link_one io al d e with
    | none => rw [h1] at h; cases h
    | some p =>
      obtain ⟨io1, al1, d1, b⟩ := p
      rw [h1] at h
      cases b with
      | false =>
        simp only [Option.some.injEq, Prod.mk.injEq] at h
        rw [← h.2.1]
        exact resize_link_one_calls h1
      | true =>
        simp only at h
        rw [ih h, resize_link_one_calls h1]

/-- The function `inode_data_resize` does not lower the counter of `malloc` calls. -/
theorem inode_data_resize_calls {io io' : Io} {al al' : Alloc} {d d' : inode_data}
    {a_size : Nat} {b : Bool}
    (h : inode_data_resize io al d a_size = some (io', al', d', b)) :
    al.malloc_calls ≤ al'.malloc_calls := by
  unfold inode_data_resize at h
  by_cases c1 : ¬ (to_u32 d.size ≤ a_size)
  · rw [if_pos c1] at h; cases h
  · rw [if_neg c1] at h
    by_cases c2 : to_u32 d.size = a_size
    · rw [if_pos c2] at h
      simp only [Option.some.injEq, Prod.mk.injEq] at h
      rw [← h.2.1]
    · rw [if_neg c2] at h
      simp only at h
      by_cases c3 : bytes_to_sectors (wrap_int a_size) = bytes_to_sectors d.size
      · rw [if_pos c3] at h
        simp only [Option.some.injEq, Prod.mk.injEq] at h
        rw [← h.2.1]
      · rw [if_neg c3] at h
        cases h1 : resize_allocate (List.range' (bytes_to_sectors d.size)
            (bytes_to_sectors (wrap_int a_size) - bytes_to_sectors d.size)) io al [] with
        | none => rw [h1] at h; cases h
        | some p =>
          obtain ⟨io1, al1, ns, ok⟩ := p
          rw [h1] at h
          cases ok with
          | false =>
            simp only [Option.some.injEq, Prod.mk.injEq] at h
            rw [← h.2.1, resize_release_calls]
            exact resize_allocate_calls _ h1
          | true =>
            simp only at h
            cases h2 : resize_link ns io1 al1 d with
            | none => rw [h2] at h; cases h
            | some q =>
              obtain ⟨io2, al2, d2⟩ := q
              rw [h2] at h
              simp only [Option.some.injEq, Prod.mk.injEq] at h
              rw [← h.2.1, resize_link_calls _ h2]
              exact resize_allocate_calls _ h1

/-- The function `inode_create` does not lower the counter of `malloc` calls. -/
theorem inode_create_calls {io io' : Io} {al al' : Alloc} {stack : inode_data}
    {pad : Nat → Nat} {sector : Nat} {length : Int} {is_directory b : Bool}
    (h : inode_create io al stack pad sector length is_directory = some (io', al', b)) :
    al.malloc_calls ≤ al'.malloc_calls := by
  unfold inode_create at h
  by_cases c : length < 0
  · rw [if_pos c] at h; cases h
  · rw [if_neg c] at h
    cases h1 : inode_data_resize io al { stack with size := 0, is_dir := is_directory }
        (to_u32 length) with
    | none => rw [h1] at h; cases h
    | some p =>
      obtain ⟨io1, al1, d1, ok⟩ := p
      rw [h1] at h
      cases ok with
      | false =>
        simp only [Option.some.injEq, Prod.mk.injEq] at h
        rw [← h.2.1]
        exact inode_data_resize_calls h1
      | true =>
        simp only at h
        cases hw : FS_WRITE_BLOCK io1 (inode_disk_bytes d1 INODE_MAGIC pad) sector with
        | none => rw [hw] at h; cases h
        | some io2 =>
          rw [hw] at h
          simp only [Option.some.injEq, Prod.mk.injEq] at h
          rw [← h.2.1]
          exact inode_data_resize_calls h1

/-- The first part of `inode_write_at` does not lower the counter of `malloc` calls. -/
theorem inode_write_at_resize_calls {io io' : Io} {al al' : Alloc} {pad : Nat → Nat}
    {ino ino' : inode} {size offset : Int} {b : Bool}
    (h : inode_write_at_resize io al pad ino size offset = some (io', al', ino', b)) :
    al.malloc_calls ≤ al'.malloc_calls := by
  unfold inode_write_at_resize at h
  simp only at h
  by_cases c : wrap_int (offset + size) > ino.block_data.size
  · rw [if_pos c] at h
    cases h1 : inode_data_resize io al ino.block_data (to_u32 (wrap_int (offset + size))) with
    | none => rw [h1] at h; cases h
    | some p =>
      obtain ⟨io1, al1, d1, ok⟩ := p
      rw [h1] at h
      cases ok with
      | false =>
        simp only [Option.some.injEq, Prod.mk.injEq] at h
        rw [← h.2.1]
        exact inode_data_resize_calls h1
      | true =>
        simp only at h
        cases hw : inode_writeback io1 pad { ino with block_data := d1 } with
        | none => rw [hw] at h; cases h
        | some io2 =>
          rw [hw] at h
          simp only [Option.some.injEq, Prod.mk.injEq] at h
          rw [← h.2.1]
          exact inode_data_resize_calls h1
  · rw [if_neg c] at h
    simp only [Option.some.injEq, Prod.mk.injEq] at h
    rw [← h.2.1]

/-- The function `inode_write_at` does not lower the counter of `malloc` calls. -/
theorem inode_write_at_calls {junk : Int} {io io' : Io} {al al' : Alloc} {pad : Nat → Nat}
    {ino ino' : inode} {buffer : Nat → Nat} {size offset n : Int}
    (h : inode_write_at junk io al pad ino buffer size offset = some (io', al', ino', n)) :
    al.malloc_calls ≤ al'.malloc_calls := by
  unfold inode_write_at at h
  cases h1 : inode_write_at_resize io al pad ino size offset with
  | none => rw [h1] at h; cases h
  | some p =>
    obtain ⟨io1, al1, ino1, ok⟩ := p
    rw [h1] at h
    cases ok with
    | false =>
      simp only [Option.some.injEq, Prod.mk.injEq] at h
      rw [← h.2.1]
      exact inode_write_at_resize_calls h1
    | true =>
      simp only at h
      by_cases c : ino1.deny_write_cnt ≠ 0
      · rw [if_pos c] at h
        simp only [Option.some.injEq, Prod.mk.injEq] at h
        rw [← h.2.1]
        exact inode_write_at_resize_calls h1
      · rw [if_neg c] at h
        cases h2 : inode_write_loop (size.toNat + 1) io1 ino1 buffer size offset 0 with
        | none => rw [h2] at h; cases h
        | some q =>
          obtain ⟨io2, m⟩ := q
          rw [h2] at h
          simp only [Option.some.injEq, Prod.mk.injEq] at h
          rw [← h.2.1]
          exact inode_write_at_resize_calls h1

/-- The function `inode_resize` does not lower the counter of `malloc` calls. -/
theorem inode_resize_calls {io io' : Io} {al al' : Alloc} {pad : Nat → Nat}
    {ino ino' : inode} {a_size : Nat} {b : Bool}
    (h : inode_resize io al pad ino a_size = some (io', al', ino', b)) :
    al.malloc_calls ≤ al'.malloc_calls := by
  unfold inode_resize at h
  cases h1 : inode_data_resize io al ino.block_data a_size with
  | none => rw [h1] at h; cases h
  | some p =>
    obtain ⟨io1, al1, d1, ok⟩ := p
    rw [h1] at h
    cases ok with
    | false =>
      simp only [Option.some.injEq, Prod.mk.injEq] at h
      rw [← h.2.1]
      exact inode_data_resize_calls h1
    | true =>
      simp only at h
      cases hw : inode_writeback io1 pad { ino with block_data := d1 } with
      | none => rw [hw] at h; cases h
      | some io2 =>
        rw [hw] at h
        simp only [Option.some.injEq, Prod.mk.injEq] at h
        rw [← h.2.1]
        exact inode_data_resize_calls h1

/-- The function `dir_add` does not lower the counter of `malloc` calls. -/
theorem dir_add_calls {junk : Int} {io io' : Io} {al al' : Alloc} {pad u1 u2 : Nat → Nat}
    {a_dir dir' : dir} {name : List Nat} {s : Nat} {b : Bool}
    (h : dir_add junk io al pad u1 u2 a_dir name s = some (io', al', dir', b)) :
    al.malloc_calls ≤ al'.malloc_calls := by
  unfold dir_add at h
  by_cases c : name = [] ∨ strlen name > NAME_MAX
  · rw [if_pos c] at h
    simp only [Option.some.injEq, Prod.mk.injEq] at h
    rw [← h.2.1]
  · rw [if_neg c] at h
    cases h1 : lookup io a_dir name u1 with
    | none => rw [h1] at h; cases h
    | some p =>
      obtain ⟨io1, r⟩ := p
      rw [h1] at h
      cases r with
      | some x =>
        simp only [Option.some.injEq, Prod.mk.injEq] at h
        rw [← h.2.1]
      | none =>
        simp only at h
        cases h2 : dir_add_scan ((inode_length a_dir.inode).toNat / sizeof_dir_entry + 2) io1
            a_dir.inode u2 0 with
        | none => rw [h2] at h; cases h
        | some q =>
          obtain ⟨io2, e, ofs, found⟩ := q
          rw [h2] at h
          simp only at h
          have hres : ∀ {io3 : Io} {al3 : Alloc} {dir3 : dir} {b3 : Bool},
              (if found = true then some (io2, al, a_dir, true)
                else dir_resize io2 al pad a_dir
                  ((dir_get_size a_dir + DIR_RESIZE_STEP) % 4294967296))
                = some (io3, al3, dir3, b3) → al.malloc_calls ≤ al3.malloc_calls := by
            intro io3 al3 dir3 b3 hr
            cases found with
            | true =>
              simp only [if_true, Option.some.injEq, Prod.mk.injEq] at hr
              rw [← hr.2.1]
            | false =>
              simp only [Bool.false_eq_true, if_false] at hr
              unfold dir_resize at hr
              by_cases c2 : ¬ (dir_get_size a_dir
                  ≤ (dir_get_size a_dir + DIR_RESIZE_STEP) % 4294967296)
              · rw [if_pos c2] at hr; cases hr
              · rw [if_neg c2] at hr
                cases h3 : inode_resize io2 al pad a_dir.inode
                    ((dir_get_size a_dir + DIR_RESIZE_STEP) % 4294967296 * sizeof_dir_entry
                      % 4294967296) with
                | none => rw [h3] at hr; cases hr
                | some w =>
                  obtain ⟨io4, al4, ino4, b4⟩ := w
                  rw [h3] at hr
                  simp only [Option.some.injEq, Prod.mk.injEq] at hr
                  rw [← hr.2.1]
                  exact inode_resize_calls h3
          cases h4 : (if found = true then some (io2, al, a_dir, true)
                else dir_resize io2 al pad a_dir
                  ((dir_get_size a_dir + DIR_RESIZE_STEP) % 4294967296)) with
          | none => rw [h4] at h; cases h
          | some w =>
            obtain ⟨io3, al3, dir3, b3⟩ := w
            rw [h4] at h
            have h5 := hres h4
            cases b3 with
            | false =>
              simp only [Option.some.injEq, Prod.mk.injEq] at h
              rw [← h.2.1]
              exact h5
            | true =>
              simp only at h
              cases h6 : inode_write_at junk io3 al3 pad dir3.inode
                  (dir_entry_fill e name s) sizeof_dir_entry ofs with
              | none => rw [h6] at h; cases h
              | some v =>
                obtain ⟨io4, al4, ino4, n⟩ := v
                rw [h6] at h
                simp only [Option.some.injEq, Prod.mk.injEq] at h
                rw [← h.2.1]
                exact le_trans h5 (inode_write_at_calls h6)

/-! ## The length of the free map -/

/-- The first part of `inode_write_at` keeps the length of the free map. -/
theorem inode_write_at_resize_length {io io' : Io} {al al' : Alloc} {pad : Nat → Nat}
    {ino ino' : inode} {size offset : Int} {b : Bool}
    (h : inode_write_at_resize io al pad ino size offset = some (io', al', ino', b)) :
    al'.free_map.length = al.free_map.length := by
  unfold inode_write_at_resize at h
  simp only at h
  by_cases c : wrap_int (offset + size) > ino.block_data.size
  · rw [if_pos c] at h
    cases h1 : inode_data_resize io al ino.block_data (to_u32 (wrap_int (offset + size))) with
    | none => rw [h1] at h; cases h
    | some p =>
      obtain ⟨io1, al1, d1, ok⟩ := p
      rw [h1] at h
      cases ok with
      | false =>
        simp only [Option.some.injEq, Prod.mk.injEq] at h
        rw [← h.2.1]
        exact inode_data_resize_length h1
      | true =>
        simp only at h
        cases hw : inode_writeback io1 pad { ino with block_data := d1 } with
        | none => rw [hw] at h; cases h
        | some io2 =>
          rw [hw] at h
          simp only [Option.some.injEq, Prod.mk.injEq] at h
          rw [← h.2.1]
          exact inode_data_resize_length h1
  · rw [if_neg c] at h
    simp only [Option.some.injEq, Prod.mk.injEq] at h
    rw [← h.2.1]

/-- The function `inode_write_at` keeps the length of the free map. -/
theorem inode_write_at_length {junk : Int} {io io' : Io} {al al' : Alloc} {pad : Nat → Nat}
    {ino ino' : inode} {buffer : Nat → Nat} {size offset n : Int}
    (h : inode_write_at junk io al pad ino buffer size offset = some (io', al', ino', n)) :
    al'.free_map.length = al.free_map.length := by
  unfold inode_write_at at h
  cases h1 : inode_write_at_resize io al pad ino size offset with
  | none => rw [h1] at h; cases h
  | some p =>
    obtain ⟨io1, al1, ino1, ok⟩ := p
    rw [h1] at h
    cases ok with
    | false =>
      simp only [Option.some.injEq, Prod.mk.injEq] at h
      rw [← h.2.1]
      exact inode_write_at_resize_length h1
    | true =>
      simp only at h
      by_cases c : ino1.deny_write_cnt ≠ 0
      · rw [if_pos c] at h
        simp only [Option.some.injEq, Prod.mk.injEq] at h
        rw [← h.2.1]
        exact inode_write_at_resize_length h1
      · rw [if_neg c] at h
        cases h2 : inode_write_loop (size.toNat + 1) io1 ino1 buffer size offset 0 with
        | none => rw [h2] at h; cases h
        | some q =>
          obtain ⟨io2, m⟩ := q
          rw [h2] at h
          simp only [Option.some.injEq, Prod.mk.injEq] at h
          rw [← h.2.1]
          exact inode_write_at_resize_length h1

/-- The function `inode_resize` keeps the length of the free map. -/
theorem inode_resize_length {io io' : Io} {al al' : Alloc} {pad : Nat → Nat}
    {ino ino' : inode} {a_size : Nat} {b : Bool}
    (h : inode_resize io al pad ino a_size = some (io', al', ino', b)) :
    al'.free_map.length = al.free_map.length := by
  unfold inode_resize at h
  cases h1 : inode_data_resize io al ino.block_data a_size with
  | none => rw [h1] at h; cases h
  | some p =>
    obtain ⟨io1, al1, d1, ok⟩ := p
    rw [h1] at h
    cases ok with
    | false =>
      simp only [Option.some.injEq, Prod.mk.injEq] at h
      rw [← h.2.1]
      exact inode_data_resize_length h1
    | true =>
      simp only at h
      cases hw : inode_writeback io1 pad { ino with block_data := d1 } with
      | none => rw [hw] at h; cases h
      | some io2 =>
        rw [hw] at h
        simp only [Option.some.injEq, Prod.mk.injEq] at h
        rw [← h.2.1]
        exact inode_data_resize_length h1

/-- The function `dir_add` keeps the length of the free map. -/
theorem dir_add_length {junk : Int} {io io' : Io} {al al' : Alloc} {pad u1 u2 : Nat → Nat}
    {a_dir dir' : dir} {name : List Nat} {s : Nat} {b : Bool}
    (h : dir_add junk io al pad u1 u2 a_dir name s = some (io', al', dir', b)) :
    al'.free_map.length = al.free_map.length := by
  unfold dir_add at h
  by_cases c : name = [] ∨ strlen name > NAME_MAX
  · rw [if_pos c] at h
    simp only [Option.some.injEq, Prod.mk.injEq] at h
    rw [← h.2.1]
  · rw [if_neg c] at h
    cases h1 : lookup io a_dir name u1 with
    | none => rw [h1] at h; cases h
    | some p =>
      obtain ⟨io1, r⟩ := p
      rw [h1] at h
      cases r with
      | some x =>
        simp only [Option.some.injEq, Prod.mk.injEq] at h
        rw [← h.2.1]
      | none =>
        simp only at h
        cases h2 : dir_add_scan ((inode_length a_dir.inode).toNat / sizeof_dir_entry + 2) io1
            a_dir.inode u2 0 with
        | none => rw [h2] at h; cases h
        | some q =>
          obtain ⟨io2, e, ofs, found⟩ := q
          rw [h2] at h
          simp only at h
          have hres : ∀ {io3 : Io} {al3 : Alloc} {dir3 : dir} {b3 : Bool},
              (if found = true then some (io2, al, a_dir, true)
                else dir_resize io2 al pad a_dir
                  ((dir_get_size a_dir + DIR_RESIZE_STEP) % 4294967296))
                = some (io3, al3, dir3, b3) → al3.free_map.length = al.free_map.length := by
            intro io3 al3 dir3 b3 hr
            cases found with
            | true =>
              simp only [if_true, Option.some.injEq, Prod.mk.injEq] at hr
              rw [← hr.2.1]
            | false =>
              simp only [Bool.false_eq_true, if_false] at hr
              unfold dir_resize at hr
              by_cases c2 : ¬ (dir_get_size a_dir
                  ≤ (dir_get_size a_dir + DIR_RESIZE_STEP) % 4294967296)
              · rw [if_pos c2] at hr; cases hr
              · rw [if_neg c2] at hr
                cases h3 : inode_resize io2 al pad a_dir.inode
                    ((dir_get_size a_dir + DIR_RESIZE_STEP) % 4294967296 * sizeof_dir_entry
                      % 4294967296) with
                | none => rw [h3] at hr; cases hr
                | some w =>
                  obtain ⟨io4, al4, ino4, b4⟩ := w
                  rw [h3] at hr
                  simp only [Option.some.injEq, Prod.mk.injEq] at hr
                  rw [← hr.2.1]
                  exact inode_resize_length h3
          cases h4 : (if found = true then some (io2, al, a_dir, true)
                else dir_resize io2 al pad a_dir
                  ((dir_get_size a_dir + DIR_RESIZE_STEP) % 4294967296)) with
          | none => rw [h4] at h; cases h
          | some w =>
            obtain ⟨io3, al3, dir3, b3⟩ := w
            rw [h4] at h
            have h5 := hres h4
            cases b3 with
            | false =>
              simp only [Option.some.injEq, Prod.mk.injEq] at h
              rw [← h.2.1]
              exact h5
            | true =>
              simp only at h
              cases h6 : inode_write_at junk io3 al3 pad dir3.inode
                  (dir_entry_fill e name s) sizeof_dir_entry ofs with
              | none => rw [h6] at h; cases h
              | some v =>
                obtain ⟨io4, al4, ino4, n⟩ := v
                rw [h6] at h
                simp only [Option.some.injEq, Prod.mk.injEq] at h
                rw [← h.2.1]
                exact (inode_write_at_length h6).trans h5

/-! ## What `inode_create`, `inode_resize` and `dir_add` leave alone -/

/-- The function `inode_create`, as `inode_create_spec`: a sector that was in use and is not
the sector of the new inode keeps its content. -/
theorem inode_create_frame {io : Io} {al : Alloc} (stack : inode_data) (pad : Nat → Nat)
    {sector : Nat} {length : Int} (is_directory : Bool) (hinv : IoInv io) (hal : AllocInv al)
    (hm : ∀ k, al.malloc_ok k = true) (hsec : in_use al sector)
    (h0 : 0 ≤ length) (hmax : length ≤ MAX_BYTES)
    (hfree : grow_need 0 (bytes_to_sectors length) ≤ free_count al.free_map) :
    ∃ io' al', inode_create io al stack pad sector length is_directory
        = some (io', al', true) ∧
      (∀ t, in_use al t → t ≠ sector → disk io' t = disk io t) := by
  have hmax' := hmax
  unfold MAX_BYTES at hmax'
  obtain ⟨A, hA⟩ := Int.eq_ofNat_of_zero_le h0
  subst hA
  have hu : to_u32 (A : Int) = A := to_u32_natCast (by omega)
  have hfile0 : FileInv { stack with size := 0, is_dir := is_directory } (disk io) al :=
    FileInv_empty _ _ rfl
  have hn0 : bytes_to_sectors (({ stack with size := 0, is_dir := is_directory } :
      inode_data).size) = 0 := rfl
  obtain ⟨io1, al1, d1, hres, hinv1, hal1, ht1, hm1, hsize1, hdir1, hfile1, _, hframe1,
      hzero1, hmono1, hcnt1, hnew1⟩ :=
    @inode_data_resize_spec io al _ A hinv hal hm hfile0 (Int.ofNat_nonneg A)
      (by unfold MAX_BYTES; omega) (by rw [hn0, Nat.sub_zero]; exact hfree)
  rw [hn0] at hcnt1 hnew1 hframe1
  have hdead : ∀ x, ¬ slot_live 0 x := by
    intro x h
    cases x <;> simp only [slot_live] at h <;> omega
  have hh1 : HandleInv (inode.mk sector 1 false 0 d1) (disk io1) al1 := by
    refine ⟨hfile1, hmono1 _ hsec, ?_⟩
    intro x hx heq
    simp only at hx heq
    rw [hsize1] at hx
    apply hnew1 x hx (hdead x)
    rw [heq]
    exact hsec
  obtain ⟨io2, hwb, _, _, _, _, _, _, hother2⟩ :=
    inode_writeback_spec hinv1 hal1 hh1 pad
  refine ⟨io2, al1, ?_, ?_⟩
  · unfold inode_create
    rw [if_neg (by omega), hu, hres]
    unfold inode_writeback at hwb
    simp only at hwb ⊢
    rw [hwb]
  · intro t hin hne
    rw [hother2 t hne]
    exact hframe1 t hin (fun x hx _ => absurd hx (hdead x))

/-- The function `inode_resize`, as `inode_resize_grow`: every sector of the grown file is a
sector of the old one or was not in use, and a sector that was in use and is no sector of
the file keeps its content. -/
theorem inode_resize_frame {io : Io} {al : Alloc} {ino : inode} (pad : Nat → Nat)
    {a_size : Nat} (hinv : IoInv io) (hal : AllocInv al)
    (hm : ∀ k, al.malloc_ok k = true) (hh : HandleInv ino (disk io) al)
    (hgrow : ino.block_data.size < a_size) (hmax : a_size ≤ MAX_BYTES)
    (hfree : grow_need (bytes_to_sectors ino.block_data.size)
      (bytes_to_sectors a_size - bytes_to_sectors ino.block_data.size)
      ≤ free_count al.free_map) :
    ∃ io' al' d',
      inode_resize io al pad ino a_size = some (io', al', { ino with block_data := d' }, true) ∧
      (∀ t, inode_owns { ino with block_data := d' } (disk io') t →
        inode_owns ino (disk io) t ∨ ¬ in_use al t) ∧
      (∀ t, in_use al t → ¬ inode_owns ino (disk io) t → disk io' t = disk io t) := by
  have hmax' := hmax
  unfold MAX_BYTES at hmax'
  have h0 := hh.file.size_nonneg
  have e : ((a_size : Int) - 1 + 1) = (a_size : Int) := by omega
  have hmaxi : ((a_size : Int) - 1) + 1 ≤ MAX_BYTES := by rw [e]; exact_mod_cast hmax
  obtain ⟨io1, al1, d1, io2, hres, hwb, _, _, _, _, _, hsize, _⟩ :=
    @inode_write_at_grow_spec io al ino pad 1 ((a_size : Int) - 1) hinv hal hm hh
      (by decide) (by omega) hmaxi (by omega) (by rw [e]; exact hfree)
  obtain ⟨io1', al1', d1', io2', hres', hwb', hp, hn, hf⟩ :=
    @inode_write_at_grow_frame io al ino pad 1 ((a_size : Int) - 1) hinv hal hm hh
      (by decide) (by omega) hmaxi (by omega) (by rw [e]; exact hfree)
  rw [hres] at hres'
  have e1 : io1 = io1' := (Prod.mk.inj (Option.some.inj hres')).1
  have e2 : d1 = d1' := (Prod.mk.inj (Prod.mk.inj (Prod.mk.inj (Option.some.inj hres')).2).2).1
  subst e1 e2
  rw [hwb] at hwb'
  have e3 : io2 = io2' := Option.some.inj hwb'
  subst e3
  rw [e] at hres hsize hn
  rw [wrap_int_of_range (by omega) (by omega), to_u32_natCast (by omega)] at hres
  refine ⟨io2, al1, d1, ?_, ?_, ?_⟩
  · unfold inode_resize
    rw [hres]
    simp only [hwb]
  · rintro t (h | ⟨x, hx, h⟩)
    · exact Or.inl (Or.inl h)
    · simp only at hx h
      rw [hsize] at hx
      by_cases c : slot_live (bytes_to_sectors ino.block_data.size) x
      · left
        right
        exact ⟨x, c, by rw [← hp x c]; exact h⟩
      · right
        rw [← h]
        exact hn x hx c
  · intro t hin hown
    apply hf t hin
    · intro h
      exact hown (Or.inl h)
    · intro x hx _ h
      exact hown (Or.inr ⟨x, hx, h⟩)

/-- The function `dir_add`, as `dir_add_spec`: every sector of the directory afterwards is a
sector that it had before or was not in use, and a sector that was in use and is no sector of
the directory keeps its content. -/
theorem dir_add_frame {io : Io} {al : Alloc} {a_dir : dir} (junk : Int)
    (pad u1 u2 : Nat → Nat) {name : List Nat} (s : Nat) (hinv : IoInv io) (hal : AllocInv al)
    (hm : ∀ k, al.malloc_ok k = true) (hh : HandleInv a_dir.inode (disk io) al)
    (hdeny : a_dir.inode.deny_write_cnt = 0) (hne : name ≠ [])
    (hlen : name.length ≤ NAME_MAX)
    (habs : (lookup io a_dir name u1).map Prod.snd = some none)
    (hmax : first_match (fun j => !dir_entry_in_use
        (entry_at a_dir.inode.block_data (disk io) j)) 0
        (entry_count a_dir.inode.block_data) = none →
      20 * (entry_count a_dir.inode.block_data + 8) ≤ MAX_BYTES)
    (hfree : first_match (fun j => !dir_entry_in_use
        (entry_at a_dir.inode.block_data (disk io) j)) 0
        (entry_count a_dir.inode.block_data) = none →
      grow_need (bytes_to_sectors a_dir.inode.block_data.size)
        (bytes_to_sectors ((20 * (entry_count a_dir.inode.block_data + 8) : Nat) : Int)
          - bytes_to_sectors a_dir.inode.block_data.size) ≤ free_count al.free_map) :
    ∃ io' al' d',
      dir_add junk io al pad u1 u2 a_dir name s
        = some (io', al', { a_dir with inode := { a_dir.inode with block_data := d' } },
            true) ∧
      (∀ t, inode_owns { a_dir.inode with block_data := d' } (disk io') t →
        inode_owns a_dir.inode (disk io) t ∨ ¬ in_use al t) ∧
      (∀ t, in_use al t → ¬ inode_owns a_dir.inode (disk io) t → disk io' t = disk io t) := by
  have h0 := hh.file.size_nonneg
  have hmaxd := hh.file.size_max
  unfold MAX_BYTES at hmaxd
  have hK : 20 * entry_count a_dir.inode.block_data ≤ a_dir.inode.block_data.size.toNat := by
    unfold entry_count sizeof_dir_entry
    exact Nat.mul_div_le _ _
  have hK2 : a_dir.inode.block_data.size.toNat
      < 20 * (entry_count a_dir.inode.block_data + 1) := by
    have := (entry_count_lt h0 (i := entry_count a_dir.inode.block_data)).not.1
      (Nat.lt_irrefl _)
    push_cast at this
    omega
  have hname : ¬ (name = [] ∨ strlen name > NAME_MAX) := by
    unfold strlen
    intro h
    rcases h with h | h
    · exact hne h
    · omega
  obtain ⟨io1, hlook, hinv1, hd1, ht1⟩ := lookup_spec hal hinv hh.file name u1
  rw [hlook] at habs
  simp only [Option.map_some', Option.some.injEq] at habs
  rw [habs] at hlook
  have hfile1 : FileInv a_dir.inode.block_data (disk io) al := hh.file
  obtain ⟨io2, e, hinv2, hd2, ht2, hcase⟩ := dir_add_scan_spec hal hfile1
    (entry_count a_dir.inode.block_data) 0
    ((inode_length a_dir.inode).toNat / sizeof_dir_entry + 2) io1 u2 0 hinv1 hd1 rfl
    (Nat.zero_add _) (by
      have e : entry_count a_dir.inode.block_data
        = (inode_length a_dir.inode).toNat / sizeof_dir_entry := rfl
      rw [← e]
      omega)
  have hh2 : HandleInv a_dir.inode (disk io2) al := by rw [hd2]; exact hh
  -- an in-place write of one entry leaves the sectors of other files alone
  have hwrite_frame : ∀ {io3 io4 : Io} {al3 : Alloc} {ino3 : inode} {j : Nat},
      HandleInv ino3 (disk io3) al3 → j < entry_count ino3.block_data →
      (∀ x, slot_live (bytes_to_sectors ino3.block_data.size) x →
        slot_sector ino3.block_data (disk io4) x = slot_sector ino3.block_data (disk io3) x) →
      (∀ t k, (∀ p, 20 * j ≤ p → p < 20 * j + 20 →
          ¬ (data_sector ino3.block_data (disk io3) (p / 512) = t ∧ p % 512 = k)) →
        disk io4 t k = disk io3 t k) →
      (∀ t, inode_owns ino3 (disk io4) t → inode_owns ino3 (disk io3) t) ∧
      (∀ t, ¬ inode_owns ino3 (disk io3) t → disk io4 t = disk io3 t) := by
    intro io3 io4 al3 ino3 j hh3 hj hslots hframe
    constructor
    · rintro t (h | ⟨x, hx, h⟩)
      · exact Or.inl h
      · exact Or.inr ⟨x, hx, by rw [← hslots x hx]; exact h⟩
    · intro t hown
      funext k
      apply hframe
      intro p hp1 hp2 ⟨h1, _⟩
      apply hown
      right
      refine ⟨Slot.data (p / 512), ?_, by rw [slot_sector_data]; exact h1⟩
      have h03 := hh3.file.size_nonneg
      have hm3 := hh3.file.size_max
      unfold MAX_BYTES at hm3
      have hj' := (entry_count_lt h03).1 hj
      show p / 512 < bytes_to_sectors ino3.block_data.size
      rw [bytes_to_sectors_eq h03 (by omega)]
      push_cast at hj'
      omega
  rcases hcase with ⟨j, hj, hscan⟩ | ⟨hnone, hscan⟩
  · obtain ⟨_, hjK, _, _⟩ := first_match_some hj
    obtain ⟨io4, hwrite, _, _, _, _, _, hslots, hframe⟩ :=
      write_entry junk pad (dir_entry_fill e name s) hinv2 hal hh2 hdeny
        (show j < entry_count a_dir.inode.block_data by omega) rfl
    obtain ⟨hw1, hw2⟩ := hwrite_frame hh2
      (show j < entry_count a_dir.inode.block_data by omega) hslots hframe
    refine ⟨io4, al, a_dir.inode.block_data, dir_add_of_found hname hlook hscan hwrite, ?_, ?_⟩
    · intro t ht
      left
      have := hw1 t ht
      rw [hd2] at this
      exact this
    · intro t _ hown
      rw [hw2 t (by rw [hd2]; exact hown), hd2]
  · have hmax := hmax hnone
    have hfree := hfree hnone
    have hmax' := hmax
    unfold MAX_BYTES at hmax'
    have hsz : dir_get_size a_dir = entry_count a_dir.inode.block_data :=
      dir_get_size_eq h0 hh.file.size_max
    have hgrow : a_dir.inode.block_data.size
        < ((20 * (entry_count a_dir.inode.block_data + 8) : Nat) : Int) := by
      push_cast
      omega
    obtain ⟨io3, al3, d3, hres, hinv3, hal3, hm3, ht3, hh3, hsize3, hdir3, hbytes3, hmono3,
      hcnt3⟩ := inode_resize_grow pad hinv2 hal hm hh2 hgrow hmax hfree
    obtain ⟨io3', al3', d3', hres', hown3, hframe3⟩ :=
      inode_resize_frame pad hinv2 hal hm hh2 hgrow hmax hfree
    rw [hres] at hres'
    have e1 : io3 = io3' := (Prod.mk.inj (Option.some.inj hres')).1
    have e2 : d3 = d3' := by
      have := (Prod.mk.inj (Prod.mk.inj (Prod.mk.inj (Option.some.inj hres')).2).2).1
      exact congrArg inode.block_data this
    subst e1 e2
    have hresize : dir_resize io2 al pad a_dir
        ((dir_get_size a_dir + DIR_RESIZE_STEP) % 4294967296)
        = some (io3, al3, { a_dir with inode := { a_dir.inode with block_data := d3 } },
            true) := by
      unfold dir_resize
      rw [hsz]
      unfold DIR_RESIZE_STEP sizeof_dir_entry
      have e1 : (entry_count a_dir.inode.block_data + 8) % 4294967296
          = entry_count a_dir.inode.block_data + 8 := by omega
      have e2 : (entry_count a_dir.inode.block_data + 8) * 20 % 4294967296
          = 20 * (entry_count a_dir.inode.block_data + 8) := by omega
      rw [e1, e2, if_neg (by omega), hres]
    have hK3 : entry_count a_dir.inode.block_data < entry_count d3 := by
      unfold entry_count sizeof_dir_entry
      rw [hsize3, Int.toNat_ofNat]
      omega
    obtain ⟨io4, hwrite, _, _, _, _, _, hslots, hframe⟩ :=
      @write_entry io3 al3 { a_dir.inode with block_data := d3 } junk pad
        (dir_entry_fill e name s) hinv3 hal3 hh3 hdeny _ hK3 _ rfl
    obtain ⟨hw1, hw2⟩ := @hwrite_frame io3 io4 al3 { a_dir.inode with block_data := d3 } _
      hh3 hK3 hslots hframe
    have hadd := dir_add_of_grown hname hlook hscan hresize hwrite
    refine ⟨io4, al3, d3, hadd, ?_, ?_⟩
    · intro t ht
      have := hown3 t (hw1 t ht)
      rw [hd2] at this
      exact this
    · intro t hin hown
      have hown3' : ¬ inode_owns { a_dir.inode with block_data := d3 } (disk io3) t := by
        intro h
        rcases hown3 t h with h' | h'
        · rw [hd2] at h'
          exact hown h'
        · exact h' hin
      rw [hw2 t hown3', hframe3 t hin (by rw [hd2]; exact hown), hd2]

/-! ## The entries of a directory after `dir_add` -/

/-- The entries of a directory after `dir_add` has stored an entry for `name` in slot `j`:
the entry of slot `j` is in use with the name and the sector, the other old entries are what
they were and the other new entries hold zeros. -/
theorem dir_add_entries {d d' : inode_data} {D D' : Nat → Nat → Nat} {j : Nat}
    {e : Nat → Nat} {name : List Nat} {s : Nat} (h0 : 0 ≤ d.size)
    (hlen : name.length ≤ NAME_MAX) (hc : CStr name) (hs : s < 4294967296)
    (hslot : (first_match (fun j => !dir_entry_in_use (entry_at d D j)) 0 (entry_count d)
          = some j ∧ d'.size = d.size) ∨
        (j = entry_count d ∧ d'.size = ((20 * (entry_count d + 8) : Nat) : Int)))
    (hin : ∀ k, k < 20 → file_byte d' D' (20 * j + k) = dir_entry_fill e name s k)
    (hout : ∀ p, p < d'.size.toNat → ¬ (20 * j ≤ p ∧ p < 20 * j + 20) →
      file_byte d' D' p = if p < d.size.toNat then file_byte d D p else 0) :
    entry_count d ≤ entry_count d' ∧ j < entry_count d' ∧
    (∀ name', CStr name' → entry_matches name' (entry_at d' D' j) = decide (name' = name)) ∧
    entry_sector d' D' j = s ∧
    (∀ i, i < entry_count d → i ≠ j → ∀ k, k < 20 → entry_at d' D' i k = entry_at d D i k) ∧
    (∀ i, entry_count d ≤ i → i < entry_count d' → i ≠ j → ∀ k, k < 20 →
      entry_at d' D' i k = 0) := by
  have hK : 20 * entry_count d ≤ d.size.toNat := by
    unfold entry_count sizeof_dir_entry
    exact Nat.mul_div_le _ _
  have hK2 : d.size.toNat < 20 * (entry_count d + 1) := by
    have := (entry_count_lt h0 (i := entry_count d)).not.1 (Nat.lt_irrefl _)
    push_cast at this
    omega
  have hcount : entry_count d ≤ entry_count d' ∧ j < entry_count d' ∧
      d.size.toNat ≤ d'.size.toNat ∧ (entry_count d < entry_count d' → j = entry_count d) := by
    rcases hslot with ⟨hj, hsize⟩ | ⟨hj, hsize⟩
    · obtain ⟨_, a2, a3, _⟩ := first_match_some hj
      have e1 : entry_count d' = entry_count d := by
        unfold entry_count
        rw [hsize]
      rw [e1, hsize]
      exact ⟨Nat.le_refl _, by omega, Nat.le_refl _, fun h => absurd h (Nat.lt_irrefl _)⟩
    · have e1 : entry_count d' = entry_count d + 8 := by
        unfold entry_count sizeof_dir_entry
        rw [hsize, Int.toNat_ofNat]
        omega
      rw [e1, hsize, Int.toNat_ofNat, hj]
      exact ⟨by omega, by omega, by omega, fun _ => rfl⟩
  obtain ⟨c1, c2, c4, c6⟩ := hcount
  have hK' : 20 * entry_count d' ≤ d'.size.toNat := by
    unfold entry_count sizeof_dir_entry
    exact Nat.mul_div_le _ _
  refine ⟨c1, c2, ?_, ?_, ?_, ?_⟩
  · intro name' hc'
    exact entry_matches_fill hlen hc (fun k hk => hin k hk) hc'
  · unfold entry_sector
    apply get_u32_u32_bytes hs
    intro k hk
    rw [Nat.zero_add]
    show file_byte d' D' (20 * j + k) = _
    rw [hin k (by omega), dir_entry_fill_sector _ _ _ hk]
  · intro i hi hij k hk
    show file_byte d' D' (20 * i + k) = file_byte d D (20 * i + k)
    rw [hout (20 * i + k) (by omega) (by omega), if_pos (by omega)]
  · intro i hi1 hi2 hij k hk
    have hj := c6 (by omega)
    show file_byte d' D' (20 * i + k) = 0
    rw [hout (20 * i + k) (by omega) (by omega), if_neg (by omega)]

/-- The function `dir_add` on a well-formed directory with writes allowed and an entry that
is not in use, for a valid name that `lookup` does not find: the handle and the free map stay
as they are, and every sector other than the data sector of the entry keeps its content. -/
theorem dir_add_inplace {io : Io} {al : Alloc} {a_dir : dir} (junk : Int)
    (pad u1 u2 : Nat → Nat) {name : List Nat} (s : Nat) (hinv : IoInv io) (hal : AllocInv al)
    (hh : HandleInv a_dir.inode (disk io) al)
    (hdeny : a_dir.inode.deny_write_cnt = 0) (hne : name ≠ [])
    (hlen : name.length ≤ NAME_MAX)
    (habs : (lookup io a_dir name u1).map Prod.snd = some none) {j : Nat}
    (hj : first_match (fun j => !dir_entry_in_use (entry_at a_dir.inode.block_data (disk io) j))
      0 (entry_count a_dir.inode.block_data) = some j) :
    ∃ io', dir_add junk io al pad u1 u2 a_dir name s = some (io', al, a_dir, true) ∧
      (∀ t, (∀ p, 20 * j ≤ p → p < 20 * j + 20 →
          data_sector a_dir.inode.block_data (disk io) (p / 512) ≠ t) →
        disk io' t = disk io t) := by
  have h0 := hh.file.size_nonneg
  have hmaxd := hh.file.size_max
  unfold MAX_BYTES at hmaxd
  have hK : 20 * entry_count a_dir.inode.block_data ≤ a_dir.inode.block_data.size.toNat := by
    unfold entry_count sizeof_dir_entry
    exact Nat.mul_div_le _ _
  have hname : ¬ (name = [] ∨ strlen name > NAME_MAX) := by
    unfold strlen
    intro h
    rcases h with h | h
    · exact hne h
    · omega
  obtain ⟨io1, hlook, hinv1, hd1, ht1⟩ := lookup_spec hal hinv hh.file name u1
  rw [hlook] at habs
  simp only [Option.map_some', Option.some.injEq] at habs
  rw [habs] at hlook
  have hfile1 : FileInv a_dir.inode.block_data (disk io) al := hh.file
  obtain ⟨io2, e, hinv2, hd2, ht2, hcase⟩ := dir_add_scan_spec hal hfile1
    (entry_count a_dir.inode.block_data) 0
    ((inode_length a_dir.inode).toNat / sizeof_dir_entry + 2) io1 u2 0 hinv1 hd1 rfl
    (Nat.zero_add _) (by
      have e : entry_count a_dir.inode.block_data
        = (inode_length a_dir.inode).toNat / sizeof_dir_entry := rfl
      rw [← e]
      omega)
  have hh2 : HandleInv a_dir.inode (disk io2) al := by rw [hd2]; exact hh
  rcases hcase with ⟨j', hj', hscan⟩ | ⟨hnone, _⟩
  · rw [hj] at hj'
    have ej : j = j' := Option.some.inj hj'
    subst ej
    obtain ⟨_, hjK, _, _⟩ := first_match_some hj
    obtain ⟨io4, hwrite, _, _, _, _, _, _, hframe⟩ :=
      write_entry junk pad (dir_entry_fill e name s) hinv2 hal hh2 hdeny
        (show j < entry_count a_dir.inode.block_data by omega) rfl
    refine ⟨io4, dir_add_of_found hname hlook hscan hwrite, ?_⟩
    intro t ht
    rw [← hd2]
    funext k
    apply hframe
    intro p hp1 hp2 ⟨h1, _⟩
    rw [hd2] at h1
    exact ht p hp1 hp2 h1
  · rw [hj] at hnone
    cases hnone

/-- The function `dir_add` on a well-formed directory with writes allowed, for a valid name
that no entry in use holds, when the allocations succeed: `dir_add_spec` and `dir_add_frame`
in one, with the entries afterwards. -/
theorem dir_add_full {io : Io} {al : Alloc} {a_dir : dir} (junk : Int)
    (pad u1 u2 : Nat → Nat) {name : List Nat} {s : Nat} (hinv : IoInv io) (hal : AllocInv al)
    (hm : ∀ k, al.malloc_ok k = true) (hh : HandleInv a_dir.inode (disk io) al)
    (hdeny : a_dir.inode.deny_write_cnt = 0) (hne : name ≠ [])
    (hlen : name.length ≤ NAME_MAX) (hc : CStr name) (hs : s < 4294967296)
    (habs : ∀ i, i < entry_count a_dir.inode.block_data →
      entry_matches name (entry_at a_dir.inode.block_data (disk io) i) = false)
    (hmax : first_match (fun j => !dir_entry_in_use
        (entry_at a_dir.inode.block_data (disk io) j)) 0
        (entry_count a_dir.inode.block_data) = none →
      20 * (entry_count a_dir.inode.block_data + 8) ≤ MAX_BYTES)
    (hfree : first_match (fun j => !dir_entry_in_use
        (entry_at a_dir.inode.block_data (disk io) j)) 0
        (entry_count a_dir.inode.block_data) = none →
      grow_need (bytes_to_sectors a_dir.inode.block_data.size)
        (bytes_to_sectors ((20 * (entry_count a_dir.inode.block_data + 8) : Nat) : Int)
          - bytes_to_sectors a_dir.inode.block_data.size) ≤ free_count al.free_map) :
    ∃ io' al' d' j,
      dir_add junk io al pad u1 u2 a_dir name s
        = some (io', al', { a_dir with inode := { a_dir.inode with block_data := d' } },
            true) ∧
      IoInv io' ∧ AllocInv al' ∧ (∀ k, al'.malloc_ok k = true) ∧ io'.ticks = io.ticks ∧
      al.malloc_calls ≤ al'.malloc_calls ∧ al'.free_map.length = al.free_map.length ∧
      HandleInv { a_dir.inode with block_data := d' } (disk io') al' ∧
      d'.is_dir = a_dir.inode.block_data.is_dir ∧
      ((first_match (fun j => !dir_entry_in_use (entry_at a_dir.inode.block_data (disk io) j))
            0 (entry_count a_dir.inode.block_data) = some j ∧
          d' = a_dir.inode.block_data ∧ al' = al ∧
          (∀ t, (∀ p, 20 * j ≤ p → p < 20 * j + 20 →
              data_sector a_dir.inode.block_data (disk io) (p / 512) ≠ t) →
            disk io' t = disk io t)) ∨
        (first_match (fun j => !dir_entry_in_use (entry_at a_dir.inode.block_data (disk io) j))
            0 (entry_count a_dir.inode.block_data) = none ∧
          j = entry_count a_dir.inode.block_data ∧
          d'.size = ((20 * (entry_count a_dir.inode.block_data + 8) : Nat) : Int) ∧
          free_count al'.free_map + grow_need (bytes_to_sectors a_dir.inode.block_data.size)
            (bytes_to_sectors ((20 * (entry_count a_dir.inode.block_data + 8) : Nat) : Int)
              - bytes_to_sectors a_dir.inode.block_data.size) = free_count al.free_map)) ∧
      (∀ t, in_use al t → in_use al' t) ∧
      entry_count a_dir.inode.block_data ≤ entry_count d' ∧ j < entry_count d' ∧
      (∀ name', CStr name' →
        entry_matches name' (entry_at d' (disk io') j) = decide (name' = name)) ∧
      entry_sector d' (disk io') j = s ∧
      (∀ i, i < entry_count a_dir.inode.block_data → i ≠ j → ∀ k, k < 20 →
        entry_at d' (disk io') i k = entry_at a_dir.inode.block_data (disk io) i k) ∧
      (∀ i, entry_count a_dir.inode.block_data ≤ i → i < entry_count d' → i ≠ j →
        ∀ k, k < 20 → entry_at d' (disk io') i k = 0) ∧
      (∀ t, inode_owns { a_dir.inode with block_data := d' } (disk io') t →
        inode_owns a_dir.inode (disk io) t ∨ ¬ in_use al t) ∧
      (∀ t, in_use al t → ¬ inode_owns a_dir.inode (disk io) t → disk io' t = disk io t) := by
  have habs' : (lookup io a_dir name u1).map Prod.snd = some none :=
    (lookup_absent_iff hal hinv hh.file hlen u1).2 habs
  obtain ⟨io', al', d', j, e, hadd, hinv', hal', hm', ht', hh', hdir', hslot, hin, hout,
    hmono⟩ := dir_add_spec junk pad u1 u2 s hinv hal hm hh hdeny hne hlen habs' hmax hfree
  obtain ⟨io2, al2, d2, hadd2, hown, hframe⟩ :=
    dir_add_frame junk pad u1 u2 s hinv hal hm hh hdeny hne hlen habs' hmax hfree
  rw [hadd] at hadd2
  have e1 : io' = io2 := (Prod.mk.inj (Option.some.inj hadd2)).1
  have e2 : d' = d2 := by
    have := (Prod.mk.inj (Prod.mk.inj (Prod.mk.inj (Option.some.inj hadd2)).2).2).1
    exact congrArg (fun x : dir => x.inode.block_data) this
  subst e1 e2
  have hslot' : (first_match (fun j => !dir_entry_in_use
        (entry_at a_dir.inode.block_data (disk io) j)) 0
        (entry_count a_dir.inode.block_data) = some j ∧
        d'.size = a_dir.inode.block_data.size) ∨
      (j = entry_count a_dir.inode.block_data ∧
        d'.size = ((20 * (entry_count a_dir.inode.block_data + 8) : Nat) : Int)) := by
    rcases hslot with ⟨h1, h2, _⟩ | ⟨_, h2, h3, _⟩
    · exact Or.inl ⟨h1, h2⟩
    · exact Or.inr ⟨h2, h3⟩
  obtain ⟨c1, c2, c3, c4, c5, c6⟩ :=
    dir_add_entries hh.file.size_nonneg hlen hc hs hslot' hin hout
  refine ⟨io', al', d', j, hadd, hinv', hal', hm', ht', dir_add_calls hadd,
    dir_add_length hadd, hh', hdir', ?_,
    hmono, c1, c2, c3, c4, c5, c6, hown, hframe⟩
  rcases hslot with ⟨h1, _, h3⟩ | h
  · left
    obtain ⟨io3, hadd3, hfr⟩ :=
      dir_add_inplace junk pad u1 u2 s hinv hal hh hdeny hne hlen habs' h1
    rw [hadd] at hadd3
    have e1 : io' = io3 := (Prod.mk.inj (Option.some.inj hadd3)).1
    have e2 : d' = a_dir.inode.block_data := by
      have := (Prod.mk.inj (Prod.mk.inj (Prod.mk.inj (Option.some.inj hadd3)).2).2).1
      exact congrArg (fun x : dir => x.inode.block_data) this
    subst e1
    exact ⟨h1, e2, h3, hfr⟩
  · exact Or.inr h

/-- What `dir_add` on a directory does to another well-formed file that has no sector in
common with it: nothing. -/
theorem dir_add_other {io io' : Io} {al al' : Alloc} {ino ino' other : inode}
    (hh : HandleInv ino (disk io) al)
    (hother : HandleInv other (disk io) al)
    (hapart : ∀ t, inode_owns other (disk io) t → ¬ inode_owns ino (disk io) t)
    (hmono : ∀ t, in_use al t → in_use al' t)
    (hown : ∀ t, inode_owns ino' (disk io') t → inode_owns ino (disk io) t ∨ ¬ in_use al t)
    (hframe : ∀ t, in_use al t → ¬ inode_owns ino (disk io) t → disk io' t = disk io t) :
    HandleInv other (disk io') al' ∧
    (∀ t, inode_owns other (disk io) t → disk io' t = disk io t) ∧
    (∀ t, inode_owns other (disk io') t ↔ inode_owns other (disk io) t) ∧
    (∀ p, p / 512 < bytes_to_sectors other.block_data.size →
      file_byte other.block_data (disk io') p = file_byte other.block_data (disk io) p) ∧
    (∀ t, inode_owns other (disk io') t → ¬ inode_owns ino' (disk io') t) := by
  have _ := hh
  have hsame : ∀ t, inode_owns other (disk io) t → disk io' t = disk io t :=
    fun t ht => hframe t (inode_owns_in_use hother ht) (hapart t ht)
  obtain ⟨h1, _, h3, h4⟩ := HandleInv_frame hother hsame hmono
  refine ⟨h1, hsame, h4, h3, ?_⟩
  intro t ht hown'
  have ht0 := (h4 t).1 ht
  rcases hown t hown' with h | h
  · exact hapart t ht0 h
  · exact h (inode_owns_in_use hother ht0)

/-- A call `dir_add` through the directory in the heap, from the result of `dir_add` on the
handle of the list. -/
theorem dir_add_at_eq {junk : Int} {io io' : Io} {al al' : Alloc} {l : InodeList}
    {pad u1 u2 : Nat → Nat} {a_dir : dir_handle} {ino : inode} {dir' : dir} {name : List Nat}
    {s : Nat} {b : Bool} (hg : handle_get l a_dir.inode = some ino)
    (hadd : dir_add junk io al pad u1 u2 (dir.mk ino a_dir.pos) name s
      = some (io', al', dir', b)) :
    dir_add_at junk io al l pad u1 u2 a_dir name s
      = some (io', al', handle_update l a_dir.inode (fun _ => dir'.inode), b) := by
  unfold dir_add_at dir_deref
  rw [hg]
  simp only [Option.map_some']
  rw [hadd]

/-! ## `dir_mkdir`: the new inode -/

theorem parent_need_some {d : inode_data} {D : Nat → Nat → Nat} {j : Nat}
    (h : first_match (fun j => !dir_entry_in_use (entry_at d D j)) 0 (entry_count d) = some j) :
    parent_need d D = 0 := by
  unfold parent_need
  rw [h]

theorem parent_need_none {d : inode_data} {D : Nat → Nat → Nat}
    (h : first_match (fun j => !dir_entry_in_use (entry_at d D j)) 0 (entry_count d) = none) :
    parent_need d D = grow_need (bytes_to_sectors d.size)
      (bytes_to_sectors ((20 * (entry_count d + 8) : Nat) : Int) - bytes_to_sectors d.size) := by
  unfold parent_need
  rw [h]

/-- The function `inode_create` when the allocations succeed: `inode_create_spec`,
`inode_create_fresh` and `inode_create_frame` in one. -/
theorem inode_create_full {io : Io} {al : Alloc} (stack : inode_data) (pad : Nat → Nat)
    {sector : Nat} {length : Int} (is_directory : Bool) (hinv : IoInv io) (hal : AllocInv al)
    (hm : ∀ k, al.malloc_ok k = true) (hsec : in_use al sector)
    (h0 : 0 ≤ length) (hmax : length ≤ MAX_BYTES)
    (hfree : grow_need 0 (bytes_to_sectors length) ≤ free_count al.free_map) :
    ∃ io' al' d', inode_create io al stack pad sector length is_directory
        = some (io', al', true) ∧
      IoInv io' ∧ AllocInv al' ∧ (∀ k, al'.malloc_ok k = true) ∧ io'.ticks = io.ticks ∧
      HandleInv (inode.mk sector 1 false 0 d') (disk io') al' ∧
      d'.size = length ∧ d'.is_dir = is_directory ∧
      (∀ k, k < 512 → disk io' sector k = inode_disk_bytes d' INODE_MAGIC pad k) ∧
      (∀ p, p < length.toNat → file_byte d' (disk io') p = 0) ∧
      (∀ t, in_use al t → in_use al' t) ∧
      free_count al'.free_map + grow_need 0 (bytes_to_sectors length)
        = free_count al.free_map ∧
      (∀ x, slot_live (bytes_to_sectors length) x →
        ¬ in_use al (slot_sector d' (disk io') x)) ∧
      (∀ t, in_use al t → t ≠ sector → disk io' t = disk io t) := by
  have hmax' := hmax
  unfold MAX_BYTES at hmax'
  obtain ⟨A, hA⟩ := Int.eq_ofNat_of_zero_le h0
  subst hA
  have hu : to_u32 (A : Int) = A := to_u32_natCast (by omega)
  have hfile0 : FileInv { stack with size := 0, is_dir := is_directory } (disk io) al :=
    FileInv_empty _ _ rfl
  have hn0 : bytes_to_sectors (({ stack with size := 0, is_dir := is_directory } :
      inode_data).size) = 0 := rfl
  obtain ⟨io1, al1, d1, hres, hinv1, hal1, ht1, hm1, hsize1, hdir1, hfile1, _, hframe1,
      hzero1, hmono1, hcnt1, hnew1⟩ :=
    @inode_data_resize_spec io al _ A hinv hal hm hfile0 (Int.ofNat_nonneg A)
      (by unfold MAX_BYTES; omega) (by rw [hn0, Nat.sub_zero]; exact hfree)
  rw [hn0] at hcnt1 hnew1 hframe1
  rw [Nat.sub_zero] at hcnt1
  have hdead : ∀ x, ¬ slot_live 0 x := by
    intro x h
    cases x <;> simp only [slot_live] at h <;> omega
  have hh1 : HandleInv (inode.mk sector 1 false 0 d1) (disk io1) al1 := by
    refine ⟨hfile1, hmono1 _ hsec, ?_⟩
    intro x hx heq
    simp only at hx heq
    rw [hsize1] at hx
    apply hnew1 x hx (hdead x)
    rw [heq]
    exact hsec
  obtain ⟨io2, hwb, hinv2, ht2, hdisk2, hh2, hpres2, hbyte2, hother2⟩ :=
    inode_writeback_spec hinv1 hal1 hh1 pad
  simp only at hbyte2 hpres2
  rw [hsize1] at hpres2
  refine ⟨io2, al1, d1, ?_, hinv2, hal1, hm1, by rw [ht2, ht1], hh2, hsize1, hdir1, ?_, ?_,
    hmono1, hcnt1, ?_, ?_⟩
  · unfold inode_create
    rw [if_neg (by omega), hu, hres]
    unfold inode_writeback at hwb
    simp only at hwb ⊢
    rw [hwb]
  · intro k hk
    rw [hdisk2]
    unfold disk_write
    rw [if_pos ⟨rfl, by omega, by rw [const_sector]; omega⟩]
    rfl
  · intro p hp
    simp only [Int.toNat_ofNat] at hp
    have hn1 : bytes_to_sectors d1.size = (A + 511) / 512 := by
      rw [hsize1, bytes_to_sectors_eq (by omega) (by omega)]
      simp
    rw [hbyte2 p (by rw [hn1]; omega)]
    exact hzero1 p (by simp) hp
  · intro x hx
    rw [hpres2 x hx]
    exact hnew1 x hx (hdead x)
  · intro t hin hne
    rw [hother2 t hne]
    exact hframe1 t hin (fun x hx _ => absurd hx (hdead x))

/-- In `dir_mkdir`: `free_map_allocate` and `dir_create` when two sectors are free and
`malloc` does not fail. The new directory is a well-formed file of 320 zero bytes in one data
sector; its inode sector and its data sector were free before, and no sector that was in use
has changed. -/
theorem mkdir_create_spec {io : Io} {al : Alloc} (stack : inode_data) (pad : Nat → Nat)
    (hinv : IoInv io) (hal : AllocInv al) (hm : ∀ k, al.malloc_ok k = true)
    (hfree : 2 ≤ free_count al.free_map) :
    ∃ s io2 al2 d1,
      free_map_allocate al = some ({ al with free_map := al.free_map.set s true }, s) ∧
      dir_create io { al with free_map := al.free_map.set s true } stack pad s DIR_DEFAULT_SIZE
        = some (io2, al2, true) ∧
      ¬ in_use al s ∧ s < 4294967296 ∧
      IoInv io2 ∧ AllocInv al2 ∧ (∀ k, al2.malloc_ok k = true) ∧
      al.malloc_calls ≤ al2.malloc_calls ∧
      HandleInv (inode.mk s 1 false 0 d1) (disk io2) al2 ∧
      d1.size = 320 ∧ d1.is_dir = true ∧
      (∀ k, k < 512 → disk io2 s k = inode_disk_bytes d1 INODE_MAGIC pad k) ∧
      (∀ p, p < 320 → file_byte d1 (disk io2) p = 0) ∧
      (∀ t, in_use al t → in_use al2 t) ∧
      free_count al2.free_map + 2 = free_count al.free_map ∧
      al2.free_map = (al.free_map.set s true).set (d1.l0_blocks 0) true ∧
      ¬ in_use al (d1.l0_blocks 0) ∧ d1.l0_blocks 0 ≠ s ∧
      (∀ t, in_use al t → disk io2 t = disk io t) := by
  obtain ⟨s, halloc, hfalse, hcnt⟩ := free_map_allocate_spec (show 0 < free_count al.free_map
    by omega)
  have hal1 : AllocInv { al with free_map := al.free_map.set s true } := alloc_inv_set hal s true
  have hs1 : in_use { al with free_map := al.free_map.set s true } s := in_use_set_self hfalse
  have hnot : ¬ in_use al s := not_in_use_of_free hfalse
  have hbts : bytes_to_sectors (320 : Int) = 1 := by decide
  have hg1 : grow_need 0 1 = 1 := by
    rw [grow_need_count]
    have h1 : l1_count 1 = 0 := by decide
    have h2 : l2_count 1 = 0 := by decide
    rw [h1, h2]
  have hneed : grow_need 0 (bytes_to_sectors (320 : Int))
      ≤ free_count ({ al with free_map := al.free_map.set s true } : Alloc).free_map := by
    rw [hbts, hg1]
    simp only
    omega
  obtain ⟨io2, al2, d1, hcr, hinv2, hal2, hm2, _, hh2, hsize, hdir, himg, hzero, hmono, hcnt2,
    hnew, hframe⟩ :=
    @inode_create_full io _ stack pad s 320 true hinv hal1 hm hs1 (by decide) (by decide) hneed
  rw [hbts, hg1] at hcnt2
  simp only at hcnt2
  have hslot0 : slot_sector d1 (disk io2) (Slot.data 0) = d1.l0_blocks 0 := rfl
  have hlive0 : slot_live (bytes_to_sectors (320 : Int)) (Slot.data 0) := by
    rw [hbts]
    show 0 < 1
    decide
  have ht_free1 := hnew _ hlive0
  rw [hslot0] at ht_free1
  have ht_used : in_use al2 (d1.l0_blocks 0) := by
    have := hh2.file.wf.used (Slot.data 0) (by rw [hsize]; exact hlive0)
    rw [hslot0] at this
    exact this
  have ht_ne : d1.l0_blocks 0 ≠ s := by
    have := hh2.sector_own (Slot.data 0) (by rw [hsize]; exact hlive0)
    rw [hslot0] at this
    exact this
  have hlen2 : al2.free_map.length = (al.free_map.set s true).length := inode_create_length hcr
  have hcalls : al.malloc_calls ≤ al2.malloc_calls := by
    have := inode_create_calls hcr
    exact this
  have ht_free : ¬ in_use al (d1.l0_blocks 0) := fun h => ht_free1 (in_use_set_true h)
  -- the free map afterwards
  have hlt : d1.l0_blocks 0 < al2.free_map.length := by
    unfold in_use at ht_used
    exact (List.getElem?_eq_some.mp ht_used).1
  have ht_false : (al.free_map.set s true)[d1.l0_blocks 0]? = some false := by
    have hlt' : d1.l0_blocks 0 < (al.free_map.set s true).length := by rw [← hlen2]; exact hlt
    have hget := List.getElem?_eq_getElem hlt'
    cases hb : (al.free_map.set s true)[d1.l0_blocks 0] with
    | false => rw [hget, hb]
    | true =>
      exfalso
      apply ht_free1
      unfold in_use
      simp only
      rw [hget, hb]
  have hmap : al2.free_map = (al.free_map.set s true).set (d1.l0_blocks 0) true := by
    symm
    apply bitmap_eq_of_count
    · rw [List.length_set, hlen2]
    · intro t ht
      rw [List.getElem?_set] at ht
      by_cases c : d1.l0_blocks 0 = t
      · rw [← c]
        exact ht_used
      · rw [if_neg c] at ht
        exact hmono t ht
    · have := free_count_set_true _ ht_false
      omega
  refine ⟨s, io2, al2, d1, halloc, ?_, hnot, ?_, hinv2, hal2, hm2, hcalls, hh2, hsize, hdir,
    himg, hzero, fun t h => hmono t (in_use_set_true h), by omega, hmap, ht_free, ht_ne, ?_⟩
  · unfold dir_create
    exact hcr
  · exact (in_use_ne_none hal1 hs1).2
  · intro t hin
    apply hframe t (in_use_set_true hin)
    intro e
    rw [e] at hin
    exact hnot hin

/-! ## `dir_mkdir`: the entries "." and ".." -/

theorem CStr_name_cwd : CStr name_cwd := by
  unfold CStr name_cwd
  decide

theorem CStr_name_prd : CStr name_prd := by
  unfold CStr name_prd
  decide

/-- An entry whose flag `in_use` is zero. -/
theorem in_use_of_zero {e : Nat → Nat} (h : e 19 = 0) : dir_entry_in_use e = false := by
  unfold dir_entry_in_use
  rw [h]
  decide

/-- An entry that a name matches is in use. -/
theorem in_use_of_matches {name : List Nat} {e : Nat → Nat}
    (h : entry_matches name e = true) : dir_entry_in_use e = true := by
  unfold entry_matches at h
  cases hb : dir_entry_in_use e with
  | true => rfl
  | false => rw [hb] at h; cases h

/-- The first slot that is not in use, when the slots before `j` are in use and slot `j` is
not. -/
theorem first_free_slot {d : inode_data} {D : Nat → Nat → Nat} {j j' : Nat}
    (hj : first_match (fun j => !dir_entry_in_use (entry_at d D j)) 0 (entry_count d) = some j')
    (hused : ∀ i, i < j → dir_entry_in_use (entry_at d D i) = true)
    (hfree : dir_entry_in_use (entry_at d D j) = false) : j' = j := by
  obtain ⟨_, _, a3, a4⟩ := first_match_some hj
  rcases Nat.lt_trichotomy j' j with h | h | h
  · have a3' : (!dir_entry_in_use (entry_at d D j')) = true := a3
    rw [hused j' h] at a3'
    cases a3'
  · exact h
  · have a4' : (!dir_entry_in_use (entry_at d D j)) = false := a4 j (Nat.zero_le _) h
    rw [hfree] at a4'
    cases a4'

/-- In `dir_mkdir`: the two calls of `dir_add` on the new directory, a well-formed file of 320
zero bytes whose handle `N` is the first of the list. Both entries go to slots that are not
in use, so the handle and the free map stay as they are and only the data sector of the new
directory changes: entry 0 is "." for the sector of the directory, entry 1 is ".." for the
sector of the parent, and the other 14 entries hold zeros. -/
theorem mkdir_fill_spec {io : Io} {al : Alloc} {lP : InodeList} {a : Nat} {N P : inode}
    {parent_dir : dir_handle} (junk : Int) (pad u1 u2 : Nat → Nat)
    (hinv : IoInv io) (hal : AllocInv al) (hm : ∀ k, al.malloc_ok k = true)
    (hN : HandleInv N (disk io) al) (hsize : N.block_data.size = 320)
    (hdeny : N.deny_write_cnt = 0)
    (hzero : ∀ p, p < 320 → file_byte N.block_data (disk io) p = 0)
    (hP : handle_get lP parent_dir.inode = some P) (hne : parent_dir.inode ≠ a)
    (haddr : ∀ p ∈ lP, p.1 ≠ a)
    (hPs : P.sector < 4294967296) (hNs : N.sector < 4294967296) :
    ∃ io', dir_mkdir_fill junk io al ((a, N) :: lP) pad u1 u2 parent_dir (dir_handle.mk a 0)
        N.sector = some (io', al, (a, N) :: lP, true) ∧
      IoInv io' ∧ io'.ticks = io.ticks ∧ HandleInv N (disk io') al ∧
      (∀ t, t ≠ N.block_data.l0_blocks 0 → disk io' t = disk io t) ∧
      entry_matches name_cwd (entry_at N.block_data (disk io') 0) = true ∧
      entry_sector N.block_data (disk io') 0 = N.sector ∧
      entry_matches name_prd (entry_at N.block_data (disk io') 1) = true ∧
      entry_sector N.block_data (disk io') 1 = P.sector ∧
      (∀ i, 2 ≤ i → i < 16 → ∀ k, k < 20 → entry_at N.block_data (disk io') i k = 0) := by
  have hcount : entry_count N.block_data = 16 := by
    unfold entry_count sizeof_dir_entry
    rw [hsize]
    rfl
  have hbts : bytes_to_sectors N.block_data.size = 1 := by
    rw [hsize]
    decide
  have hmax : 20 * (entry_count N.block_data + 8) ≤ MAX_BYTES := by
    rw [hcount]
    decide
  have hfree : grow_need (bytes_to_sectors N.block_data.size)
      (bytes_to_sectors ((20 * (entry_count N.block_data + 8) : Nat) : Int)
        - bytes_to_sectors N.block_data.size) ≤ free_count al.free_map := by
    rw [hcount, hsize]
    have e : grow_need (bytes_to_sectors (320 : Int))
        (bytes_to_sectors ((20 * (16 + 8) : Nat) : Int) - bytes_to_sectors (320 : Int)) = 0 := by
      decide
    rw [e]
    exact Nat.zero_le _
  have hz : ∀ i, i < 16 → ∀ k, k < 20 → entry_at N.block_data (disk io) i k = 0 := by
    intro i hi k hk
    exact hzero (20 * i + k) (by omega)
  have hdata : ∀ (D : Nat → Nat → Nat) (p : Nat), p < 512 →
      data_sector N.block_data D (p / 512) = N.block_data.l0_blocks 0 := by
    intro D p hp
    have e : p / 512 = 0 := by omega
    rw [e]
    rfl
  have hgN : handle_get ((a, N) :: lP) a = some N := handle_get_head a N lP
  -- the entry "."
  have habs1 : ∀ i, i < entry_count N.block_data →
      entry_matches name_cwd (entry_at N.block_data (disk io) i) = false := by
    intro i hi
    rw [hcount] at hi
    exact entry_matches_free _ (in_use_of_zero (hz i hi 19 (by decide)))
  obtain ⟨io1, al1, d1, j1, hadd1, hinv1, hal1, hm1, ht1, _, _, hh1, _, hslot1, _, _, _, hm_1,
    hs_1, hold1, _, _, _⟩ :=
    @dir_add_full io al (dir.mk N 0) junk pad u1 u2 name_cwd N.sector hinv hal hm hN hdeny
      (by decide) (by decide) CStr_name_cwd hNs habs1 (fun _ => hmax)
      (fun _ => hfree)
  simp only at hadd1 hh1 hslot1 hm_1 hs_1 hold1
  have hfree0 : dir_entry_in_use (entry_at N.block_data (disk io) 0) = false :=
    in_use_of_zero (hz 0 (by decide) 19 (by decide))
  rcases hslot1 with ⟨hj1, hd1, hal1', hfr1⟩ | ⟨hnone, _⟩
  swap
  · rw [first_match_none] at hnone
    have := hnone 0 (Nat.le_refl _) (by rw [hcount]; decide)
    simp only [hfree0] at this
    cases this
  have ej1 : j1 = 0 := first_free_slot hj1 (fun i hi => absurd hi (Nat.not_lt_zero i)) hfree0
  have hal1'' := hal1'.symm
  subst ej1 hd1 hal1''
  have hN1 : ({ N with block_data := N.block_data } : inode) = N := rfl
  have hstep1 : dir_add_at junk io al ((a, N) :: lP) pad u1 u2 (dir_handle.mk a 0) name_cwd
      N.sector = some (io1, al, (a, N) :: lP, true) := by
    rw [dir_add_at_eq hgN hadd1]
    simp only
    rw [handle_update_cons_self a N lP _ haddr]
  have hdisk1 : ∀ t, t ≠ N.block_data.l0_blocks 0 → disk io1 t = disk io t := by
    intro t ht
    apply hfr1 t
    intro p _ hp2 h
    rw [hdata (disk io) p (by omega)] at h
    exact ht h.symm
  have hz1 : ∀ i, 1 ≤ i → i < 16 → ∀ k, k < 20 → entry_at N.block_data (disk io1) i k = 0 := by
    intro i hi1 hi2 k hk
    rw [hold1 i (by rw [hcount]; exact hi2) (by omega) k hk]
    exact hz i hi2 k hk
  -- the entry ".."
  have habs2 : ∀ i, i < entry_count N.block_data →
      entry_matches name_prd (entry_at N.block_data (disk io1) i) = false := by
    intro i hi
    rw [hcount] at hi
    cases i with
    | zero =>
      rw [hm_1 name_prd CStr_name_prd]
      decide
    | succ i =>
      exact entry_matches_free _ (in_use_of_zero (hz1 (i + 1) (by omega) hi 19 (by decide)))
  have hgP : handle_get ((a, N) :: lP) parent_dir.inode = some P := by
    rw [handle_get_cons_ne N lP hne]
    exact hP
  obtain ⟨io2, al2, d2, j2, hadd2, hinv2, hal2, hm2, ht2, _, _, hh2, _, hslot2, _, _, _, hm_2,
    hs_2, hold2, _, _, _⟩ :=
    @dir_add_full io1 al (dir.mk N 0) junk pad u1 u2 name_prd P.sector hinv1 hal1 hm1 hh1 hdeny
      (by decide) (by decide) CStr_name_prd hPs habs2 (fun _ => hmax)
      (fun _ => hfree)
  simp only at hadd2 hh2 hslot2 hm_2 hs_2 hold2
  have hused0 : dir_entry_in_use (entry_at N.block_data (disk io1) 0) = true :=
    in_use_of_matches ((hm_1 name_cwd CStr_name_cwd).trans (by decide))
  have hfree1 : dir_entry_in_use (entry_at N.block_data (disk io1) 1) = false :=
    in_use_of_zero (hz1 1 (by decide) (by decide) 19 (by decide))
  rcases hslot2 with ⟨hj2, hd2, hal2', hfr2⟩ | ⟨hnone, _⟩
  swap
  · rw [first_match_none] at hnone
    have := hnone 1 (Nat.zero_le _) (by rw [hcount]; decide)
    simp only [hfree1] at this
    cases this
  have ej2 : j2 = 1 := first_free_slot hj2 (fun i hi => by
    have : i = 0 := by omega
    rw [this]
    exact hused0) hfree1
  have hal2'' := hal2'.symm
  subst ej2 hd2 hal2''
  have hstep2 : dir_add_at junk io1 al ((a, N) :: lP) pad u1 u2 (dir_handle.mk a 0) name_prd
      P.sector = some (io2, al, (a, N) :: lP, true) := by
    rw [dir_add_at_eq hgN hadd2]
    simp only
    rw [handle_update_cons_self a N lP _ haddr]
  have hdisk2 : ∀ t, t ≠ N.block_data.l0_blocks 0 → disk io2 t = disk io1 t := by
    intro t ht
    apply hfr2 t
    intro p _ hp2 h
    rw [hdata (disk io1) p (by omega)] at h
    exact ht h.symm
  have hcode : dir_mkdir_fill junk io al ((a, N) :: lP) pad u1 u2 parent_dir
      (dir_handle.mk a 0) N.sector = some (io2, al, (a, N) :: lP, true) := by
    unfold dir_mkdir_fill
    rw [hstep1]
    simp only
    unfold dir_deref
    rw [hgP]
    simp only [Option.map_some']
    exact hstep2
  have h0same : ∀ k, k < 20 → entry_at N.block_data (disk io2) 0 k
      = entry_at N.block_data (disk io1) 0 k :=
    hold2 0 (by rw [hcount]; decide) (by decide)
  refine ⟨io2, hcode, hinv2, by rw [ht2, ht1], hh2, ?_, ?_, ?_, ?_, hs_2, ?_⟩
  · intro t ht
    rw [hdisk2 t ht, hdisk1 t ht]
  · rw [entry_matches_congr name_cwd (fun k hk => h0same k (by
      have : name_cwd.length = 1 := rfl
      omega))]
    exact (hm_1 name_cwd CStr_name_cwd).trans (by decide)
  · rw [← hs_1]
    unfold entry_sector
    exact get_u32_congr (fun k hk => by rw [Nat.zero_add]; exact h0same k (by omega))
  · exact (hm_2 name_prd CStr_name_prd).trans (by decide)
  · intro i hi1 hi2 k hk
    rw [hold2 i (by rw [hcount]; exact hi2) (by omega) k hk]
    exact hz1 i (by omega) hi2 k hk

/-! ## `dir_mkdir`: the list of open inodes -/

/-- The entries of a well-formed directory are what they were when the bytes of its file
are. -/
theorem entry_at_frame {d : inode_data} {D D' : Nat → Nat → Nat} (h0 : 0 ≤ d.size)
    (hmax : d.size ≤ MAX_BYTES)
    (hb : ∀ p, p / 512 < bytes_to_sectors d.size → file_byte d D' p = file_byte d D p)
    {i : Nat} (hi : i < entry_count d) : ∀ k, k < 20 → entry_at d D' i k = entry_at d D i k := by
  intro k hk
  unfold MAX_BYTES at hmax
  have hi' := (entry_count_lt h0).1 hi
  push_cast at hi'
  unfold entry_at sizeof_dir_entry
  apply hb
  rw [bytes_to_sectors_eq h0 (by omega)]
  omega

/-- The entries of a file of one data sector depend on the block data only through the
pointer to that sector. -/
theorem entry_at_one_sector {d d' : inode_data} (D : Nat → Nat → Nat)
    (h : d'.l0_blocks 0 = d.l0_blocks 0) {i : Nat} (hi : i < 16) :
    ∀ k, k < 20 → entry_at d' D i k = entry_at d D i k := by
  intro k hk
  unfold entry_at file_byte data_sector sizeof_dir_entry
  have e : (20 * i + k) / 512 = 0 := by omega
  rw [e, if_pos (by decide), if_pos (by decide), h]

theorem handle_update_cons_ne {a h : Nat} (x : inode) (l : InodeList) (f : inode → inode)
    (hne : a ≠ h) : handle_update ((a, x) :: l) h f = (a, x) :: handle_update l h f := by
  unfold handle_update
  rw [List.map_cons]
  simp only [if_neg hne]

theorem filter_cons_ne (a h : Nat) (x : inode) (l : InodeList) (hne : a ≠ h) :
    ((a, x) :: l).filter (fun p => decide (p.1 ≠ h))
      = (a, x) :: l.filter (fun p => decide (p.1 ≠ h)) := by
  rw [List.filter_cons]
  simp only [ne_eq, hne, not_false_eq_true, decide_True, if_true]

/-- The handles other than the one at `h` are what they were after an update at `h`. -/
theorem filter_handle_update (l : InodeList) (h : Nat) (f : inode → inode) :
    (handle_update l h f).filter (fun p => decide (p.1 ≠ h))
      = l.filter (fun p => decide (p.1 ≠ h)) := by
  induction l with
  | nil => rfl
  | cons q rest ih =>
    by_cases c : q.1 = h
    · have e1 : handle_update (q :: rest) h f = (q.1, f q.2) :: handle_update rest h f := by
        unfold handle_update
        rw [List.map_cons]
        simp only [if_pos c]
      rw [e1, List.filter_cons, List.filter_cons]
      simp only [ne_eq, c, not_true_eq_false, decide_False, Bool.false_eq_true, if_false]
      exact ih
    · have e1 : handle_update (q :: rest) h f = q :: handle_update rest h f := by
        unfold handle_update
        rw [List.map_cons]
        simp only [if_neg c]
      rw [e1, List.filter_cons, List.filter_cons]
      simp only [ne_eq, c, not_false_eq_true, decide_True, if_true]
      rw [ih]

/-- The function `dir_open` on a handle of a directory when `calloc` does not fail. -/
theorem dir_open_some {io : Io} {al : Alloc} {l : InodeList} {a : Nat} {ino : inode}
    (hm : al.malloc_ok al.malloc_calls = true) (hg : handle_get l a = some ino)
    (hdir : inode_is_dir ino = true) :
    dir_open io al l (some a) = some (io, (malloc al).1, l, some (dir_handle.mk a 0)) := by
  unfold dir_open
  simp only [malloc, hm, if_true, hg, hdir]

theorem in_use_malloc {al : Alloc} {t : Nat} : in_use (malloc al).1 t ↔ in_use al t :=
  Iff.rfl

/-- In `dir_mkdir`: the two calls of `dir_close` at the label `cleanup` on success, for a
parent whose handle is in the list behind the handle of the new directory. -/
theorem mkdir_cleanup_spec {io : Io} {al : Alloc} {l : InodeList} {a : Nat} {N P : inode}
    {parent_dir : dir_handle} (s : Nat)
    (hnd : (l.map (fun p => p.1)).Nodup)
    (hP : handle_get l parent_dir.inode = some P) (hne : parent_dir.inode ≠ a)
    (haddr : ∀ p ∈ l, p.1 ≠ a)
    (hopen : 1 ≤ P.open_cnt) (hkept : P.open_cnt = 1 → P.removed = false)
    (hN1 : N.open_cnt = 1) (hN2 : N.removed = false) :
    dir_mkdir_cleanup io al ((a, N) :: l) parent_dir (some (dir_handle.mk a 0)) true s
      = some (io, al,
          (if P.open_cnt = 1 then l.filter (fun p => decide (p.1 ≠ parent_dir.inode))
            else handle_update l parent_dir.inode
              (fun i => { i with open_cnt := i.open_cnt - 1 })), true) := by
  have _ := hnd
  have hgP : handle_get ((a, N) :: l) parent_dir.inode = some P := by
    rw [handle_get_cons_ne N l hne]
    exact hP
  by_cases c : P.open_cnt = 1
  · have h1 : dir_close io al ((a, N) :: l) (some parent_dir)
        = some (io, al, (a, N) :: l.filter (fun p => decide (p.1 ≠ parent_dir.inode))) := by
      show inode_close io al ((a, N) :: l) (some parent_dir.inode) = _
      rw [inode_close_last_kept hgP c (hkept c),
        filter_cons_ne a parent_dir.inode N _ (fun e => hne e.symm)]
    have hg2 : handle_get ((a, N) :: l.filter (fun p => decide (p.1 ≠ parent_dir.inode))) a
        = some N := handle_get_head a N _
    have h2 : dir_close io al ((a, N) :: l.filter (fun p => decide (p.1 ≠ parent_dir.inode)))
        (some (dir_handle.mk a 0))
        = some (io, al, l.filter (fun p => decide (p.1 ≠ parent_dir.inode))) := by
      show inode_close io al _ (some a) = _
      rw [inode_close_last_kept hg2 hN1 hN2,
        filter_cons_self a N _ (fun p hp => haddr p (List.mem_filter.mp hp).1)]
    unfold dir_mkdir_cleanup
    rw [h1]
    simp only
    rw [h2]
    simp only [if_true, if_pos c]
  · have h1 : dir_close io al ((a, N) :: l) (some parent_dir)
        = some (io, al, (a, N) :: handle_update l parent_dir.inode
            (fun i => { i with open_cnt := i.open_cnt - 1 })) := by
      show inode_close io al ((a, N) :: l) (some parent_dir.inode) = _
      rw [inode_close_shared hgP (by omega),
        handle_update_cons_ne N l _ (fun e => hne e.symm)]
    have hg2 : handle_get ((a, N) :: handle_update l parent_dir.inode
        (fun i => { i with open_cnt := i.open_cnt - 1 })) a = some N := handle_get_head a N _
    have h2 : dir_close io al ((a, N) :: handle_update l parent_dir.inode
          (fun i => { i with open_cnt := i.open_cnt - 1 })) (some (dir_handle.mk a 0))
        = some (io, al, handle_update l parent_dir.inode
            (fun i => { i with open_cnt := i.open_cnt - 1 })) := by
      show inode_close io al _ (some a) = _
      rw [inode_close_last_kept hg2 hN1 hN2,
        filter_cons_self a N _ (fun p hp => by
          obtain ⟨q, hq, h1, _⟩ := mem_handle_update hp
          rw [h1]
          exact haddr q hq)]
    unfold dir_mkdir_cleanup
    rw [h1]
    simp only
    rw [h2]
    simp only [if_true, if_neg c]

/-! ## `dir_mkdir` from `free_map_allocate` on -/

/-- The function `dir_mkdir` from `free_map_allocate` on, in a state `MkdirCall`: it returns
true. The name is in entry `j` of the parent, for the new sector `s`, and no other entry holds
it; the new directory is a well-formed file of 320 bytes whose inode is in sector `s`, with
the entries "." for `s` and ".." for the sector of the parent and 14 entries of zeros; its two
sectors were free before and are none of the parent; and when the parent had an entry that was
not in use, its block data is what it was and the free map has gained these two sectors
only. -/
theorem dir_mkdir_in_spec {io : Io} {al : Alloc} {l : InodeList} {parent_dir : dir_handle}
    {pino : inode} {name : List Nat} (junk : Int) (stack : inode_data)
    (pad u1 u2 u3 : Nat → Nat) (hc : MkdirCall io al l parent_dir pino name) :
    ∃ (io' : Io) (al' : Alloc) (s : Nat) (dN pd : inode_data) (j : Nat),
      dir_mkdir_in junk io al l stack pad u1 u2 u3 parent_dir name
        = some (io', al', closed_parent l parent_dir pino pd, true) ∧
      IoInv io' ∧ AllocInv al' ∧ (∀ k, al'.malloc_ok k = true) ∧
      al.malloc_calls ≤ al'.malloc_calls ∧
      ¬ in_use al s ∧ (∀ t, in_use al t → in_use al' t) ∧
      HandleInv { pino with block_data := pd } (disk io') al' ∧
      pd.is_dir = pino.block_data.is_dir ∧
      j < entry_count pd ∧ entry_matches name (entry_at pd (disk io') j) = true ∧
      entry_sector pd (disk io') j = s ∧
      (∀ i, i < entry_count pd → i ≠ j →
        entry_matches name (entry_at pd (disk io') i) = false) ∧
      (∀ i, i < entry_count pino.block_data → i ≠ j → ∀ k, k < 20 →
        entry_at pd (disk io') i k = entry_at pino.block_data (disk io) i k) ∧
      HandleInv (inode.mk s 1 false 0 dN) (disk io') al' ∧ dN.size = 320 ∧ dN.is_dir = true ∧
      (∀ k, k < 512 → disk io' s k = inode_disk_bytes dN INODE_MAGIC pad k) ∧
      entry_matches name_cwd (entry_at dN (disk io') 0) = true ∧
      entry_sector dN (disk io') 0 = s ∧
      entry_matches name_prd (entry_at dN (disk io') 1) = true ∧
      entry_sector dN (disk io') 1 = pino.sector ∧
      (∀ i, 2 ≤ i → i < 16 → ∀ k, k < 20 → entry_at dN (disk io') i k = 0) ∧
      (∀ t, inode_owns (inode.mk s 1 false 0 dN) (disk io') t →
        ¬ inode_owns { pino with block_data := pd } (disk io') t) ∧
      ¬ in_use al (dN.l0_blocks 0) ∧ dN.l0_blocks 0 ≠ s ∧
      free_count al'.free_map + 2 + parent_need pino.block_data (disk io)
        = free_count al.free_map ∧
      al'.free_map.length = al.free_map.length ∧
      ((first_match (fun j => !dir_entry_in_use (entry_at pino.block_data (disk io) j)) 0
            (entry_count pino.block_data) = some j ∧
          pd = pino.block_data ∧
          al'.free_map = (al.free_map.set s true).set (dN.l0_blocks 0) true) ∨
        (first_match (fun j => !dir_entry_in_use (entry_at pino.block_data (disk io) j)) 0
            (entry_count pino.block_data) = none ∧
          j = entry_count pino.block_data ∧
          pd.size = ((20 * (entry_count pino.block_data + 8) : Nat) : Int))) := by
  have hfree := hc.free
  have hP0 := hc.parent_inv
  -- the new inode
  obtain ⟨s, io2, al2, d1, halloc, hcreate, hs_free, hs_lt, hinv2, hal2, hm2, hcalls2, hN2,
    hsize1, hdir1, himg2, hzero2, hmono2, hcnt2, hmap2, ht_free, ht_ne, hframe2⟩ :=
    mkdir_create_spec stack pad hc.io_inv hc.alloc_inv hc.malloc_ok (by omega)
  have hN1s : (inode.mk s 1 false 0 d1).block_data.size ≤ 512 := by
    show d1.size ≤ 512
    rw [hsize1]; decide
  have hN0s : 0 ≤ (inode.mk s 1 false 0 d1).block_data.size := by
    show 0 ≤ d1.size
    rw [hsize1]; decide
  have hbts1 : bytes_to_sectors d1.size = 1 := by rw [hsize1]; decide
  -- the sectors of the new directory, on every disk
  have hNown : ∀ (D : Nat → Nat → Nat) (t : Nat), inode_owns (inode.mk s 1 false 0 d1) D t →
      t = s ∨ t = d1.l0_blocks 0 := fun D t ht => inode_owns_one_sector hN0s hN1s ht
  have hNfree : ∀ (D : Nat → Nat → Nat) (t : Nat), inode_owns (inode.mk s 1 false 0 d1) D t →
      ¬ in_use al t := by
    intro D t ht
    rcases hNown D t ht with h | h
    · rw [h]; exact hs_free
    · rw [h]; exact ht_free
  -- the parent behind the creation
  have hsameP : ∀ t, inode_owns pino (disk io) t → disk io2 t = disk io t :=
    fun t ht => hframe2 t (inode_owns_in_use hP0 ht)
  obtain ⟨hP2, _, hPbytes2, hPowns2⟩ := HandleInv_frame hP0 hsameP hmono2
  have hent2 : ∀ i, i < entry_count pino.block_data → ∀ k, k < 20 →
      entry_at pino.block_data (disk io2) i k = entry_at pino.block_data (disk io) i k :=
    fun i hi => entry_at_frame hP0.file.size_nonneg hP0.file.size_max hPbytes2 hi
  have habs2 : ∀ i, i < entry_count pino.block_data →
      entry_matches name (entry_at pino.block_data (disk io2) i) = false := by
    intro i hi
    rw [entry_matches_congr name (fun k hk => hent2 i hi k (by
      have := hc.name_len
      unfold NAME_MAX at this
      omega))]
    exact hc.absent i hi
  have hfm2 : first_match (fun j => !dir_entry_in_use (entry_at pino.block_data (disk io2) j)) 0
        (entry_count pino.block_data)
      = first_match (fun j => !dir_entry_in_use (entry_at pino.block_data (disk io) j)) 0
        (entry_count pino.block_data) := by
    apply first_match_congr (Nat.le_refl _)
    · intro k _ hk
      show (!dir_entry_in_use (entry_at pino.block_data (disk io2) k))
        = (!dir_entry_in_use (entry_at pino.block_data (disk io) k))
      rw [in_use_congr (hent2 k (by omega) 19 (by decide))]
    · intro k h1 h2
      omega
  obtain ⟨io3, al3, pd, j, hadd3, hinv3, hal3, hm3, _, hcalls3, hlen3, hP3, hpdir, hslot3,
    hmono3, hcnt_le, hj_lt, hmatch3, hsec3, hold3, hnew3, hown3, hframe3⟩ :=
    @dir_add_full io2 al2 (dir.mk pino parent_dir.pos) junk pad u1 u2 name s hinv2 hal2 hm2 hP2
      hc.parent_deny hc.name_ne hc.name_len hc.name_str hs_lt habs2
      (fun h => hc.size_max (hfm2.symm.trans h)) (fun h => by
        have hn := parent_need_none (hfm2.symm.trans h)
        rw [hn] at hfree
        show grow_need (bytes_to_sectors pino.block_data.size)
          (bytes_to_sectors ((20 * (entry_count pino.block_data + 8) : Nat) : Int)
            - bytes_to_sectors pino.block_data.size) ≤ free_count al2.free_map
        omega)
  simp only at hadd3 hP3 hpdir hslot3 hcnt_le hj_lt hmatch3 hsec3 hold3 hnew3 hown3 hframe3
  have hlen3' : al3.free_map.length = al.free_map.length := by
    rw [hlen3, hmap2, List.length_set, List.length_set]
  -- the new directory behind the entry of the parent
  have hapartN : ∀ t, inode_owns (inode.mk s 1 false 0 d1) (disk io2) t →
      ¬ inode_owns pino (disk io2) t := by
    intro t ht hp
    exact hNfree _ t ht (inode_owns_in_use hP0 ((hPowns2 t).1 hp))
  obtain ⟨hN3, hNsame3, _, hNbytes3, hNapart3⟩ :=
    dir_add_other hP2 hN2 hapartN hmono3 hown3 hframe3
  have himg3 : ∀ k, k < 512 → disk io3 s k = inode_disk_bytes d1 INODE_MAGIC pad k := by
    intro k hk
    rw [hNsame3 s (Or.inl rfl)]
    exact himg2 k hk
  have hstep_add : dir_add_at junk io2 al2 l pad u1 u2 parent_dir name s
      = some (io3, al3, handle_update l parent_dir.inode
          (fun _ => { pino with block_data := pd }), true) :=
    dir_add_at_eq hc.parent hadd3
  -- the list
  have hpmem := handle_get_mem hc.parent
  have hcalls : al.malloc_calls ≤ al3.malloc_calls := le_trans hcalls2 hcalls3
  have hne : parent_dir.inode ≠ al3.malloc_calls := by
    have := hc.addr_lt _ hpmem
    simp only at this
    omega
  have haddr : ∀ p ∈ handle_update l parent_dir.inode
      (fun _ => { pino with block_data := pd }), p.1 ≠ al3.malloc_calls := by
    intro p hp
    obtain ⟨q, hq, h1, _⟩ := mem_handle_update hp
    have := hc.addr_lt q hq
    omega
  have hnd3 : ((handle_update l parent_dir.inode
      (fun _ => { pino with block_data := pd })).map (fun p => p.1)).Nodup := by
    rw [handle_update_map_fst]
    exact hc.addr_nodup
  have hgP3 : handle_get (handle_update l parent_dir.inode
      (fun _ => { pino with block_data := pd })) parent_dir.inode
      = some { pino with block_data := pd } :=
    handle_get_update_same hc.addr_nodup hc.parent _
  have hfresh : (handle_update l parent_dir.inode
      (fun _ => { pino with block_data := pd })).find?
        (fun p => decide (p.2.sector = s)) = none := by
    rw [List.find?_eq_none]
    intro x hx
    simp only [decide_eq_true_eq]
    intro hxs
    obtain ⟨q, hq, _, h2⟩ := mem_handle_update hx
    have hqu := hc.sector_used q hq
    rcases h2 with ⟨h3, h4⟩ | ⟨_, h4⟩
    · have hq2 : q.2 = pino := handle_get_unique hc.addr_nodup hc.parent hq h3
      rw [h4] at hxs
      simp only at hxs
      rw [hq2, hxs] at hqu
      exact hs_free hqu
    · rw [h4] at hxs
      rw [hxs] at hqu
      exact hs_free hqu
  obtain ⟨io4, d4, hopen, hinv4, hdisk4, _, hsize4, hdir4, hN4, hbytes4, hslots4⟩ :=
    inode_open_fresh (handle_update l parent_dir.inode
      (fun _ => { pino with block_data := pd })) u3 hinv3 hal3 (hm3 _) hfresh hN3 himg3
  have hl0 : d4.l0_blocks 0 = d1.l0_blocks 0 := by
    have := hslots4 (Slot.data 0) (by rw [hbts1]; show 0 < 1; decide)
    exact this
  have hgN : handle_get ((al3.malloc_calls, inode.mk s 1 false 0 d4) ::
      handle_update l parent_dir.inode (fun _ => { pino with block_data := pd }))
      al3.malloc_calls = some (inode.mk s 1 false 0 d4) := handle_get_head _ _ _
  have hdopen := @dir_open_some io4 (malloc al3).1 _ al3.malloc_calls _ (hm3 _) hgN
    (show inode_is_dir (inode.mk s 1 false 0 d4) = true by
      unfold inode_is_dir
      show d4.is_dir = true
      rw [hdir4, hdir1])
  -- the entries "." and ".."
  have hal5 : AllocInv (malloc (malloc al3).1).1 := hal3
  have hm5 : ∀ k, (malloc (malloc al3).1).1.malloc_ok k = true := hm3
  have hN5 : HandleInv (inode.mk s 1 false 0 d4) (disk io4) (malloc (malloc al3).1).1 :=
    HandleInv_alloc hN4 (fun _ h => h)
  have hzero4 : ∀ p, p < 320 → file_byte d4 (disk io4) p = 0 := by
    intro p hp
    rw [hbytes4 p (by rw [hbts1]; omega), hNbytes3 p (by
      show p / 512 < bytes_to_sectors d1.size
      rw [hbts1]; omega)]
    exact hzero2 p hp
  have hps_lt : ({ pino with block_data := pd } : inode).sector < 4294967296 :=
    (in_use_ne_none hc.alloc_inv hP0.sector_used).2
  obtain ⟨io6, hfill, hinv6, _, hN6, hdisk6, he0, hs0, he1, hs1, hz6⟩ :=
    @mkdir_fill_spec io4 (malloc (malloc al3).1).1 _ al3.malloc_calls
      (inode.mk s 1 false 0 d4) { pino with block_data := pd } parent_dir junk pad u1 u2
      hinv4 hal5 hm5 hN5 (by show d4.size = 320; rw [hsize4, hsize1]) rfl hzero4 hgP3 hne haddr
      hps_lt hs_lt
  simp only at hfill hN6 hdisk6 he0 hs0 he1 hs1 hz6
  rw [hl0] at hdisk6
  -- the parent behind the two entries
  have hmono5 : ∀ t, in_use al3 t → in_use (malloc (malloc al3).1).1 t := fun _ h => h
  have hlive0 : slot_live (bytes_to_sectors d1.size) (Slot.data 0) := by
    rw [hbts1]
    show 0 < 1
    decide
  have ht0own : inode_owns (inode.mk s 1 false 0 d1) (disk io3) (d1.l0_blocks 0) :=
    Or.inr ⟨Slot.data 0, hlive0, rfl⟩
  have hsameP6 : ∀ t, inode_owns { pino with block_data := pd } (disk io3) t →
      disk io6 t = disk io3 t := by
    intro t ht
    rw [hdisk6 t (by
      intro e
      rw [e] at ht
      exact hNapart3 _ ht0own ht), hdisk4]
  obtain ⟨hP6, _, hPbytes6, hPowns6⟩ := HandleInv_frame hP3 hsameP6 hmono5
  have hent6 : ∀ i, i < entry_count pd → ∀ k, k < 20 →
      entry_at pd (disk io6) i k = entry_at pd (disk io3) i k :=
    fun i hi => entry_at_frame hP3.file.size_nonneg hP3.file.size_max hPbytes6 hi
  have hlenle : ∀ k, k ≤ 4 + name.length ∨ k = 19 → k < 20 := by
    intro k hk
    have := hc.name_len
    unfold NAME_MAX at this
    omega
  -- the new directory with the block data of `inode_create`
  have hfileN : ∀ (D : Nat → Nat → Nat) (i : Nat), i < 16 → ∀ k, k < 20 →
      entry_at d1 D i k = entry_at d4 D i k :=
    fun D i hi => entry_at_one_sector D hl0.symm hi
  have hN6' : HandleInv (inode.mk s 1 false 0 d1) (disk io6) (malloc (malloc al3).1).1 := by
    apply HandleInv_one_sector (show (0 : Int) < d1.size by rw [hsize1]; decide)
      (show d1.size ≤ 512 by rw [hsize1]; decide) ht_ne
    · have := hN6.file.wf.used (Slot.data 0) (by
        show slot_live (bytes_to_sectors d4.size) _
        rw [hsize4, hbts1]; show 0 < 1; decide)
      rw [← hl0]
      exact this
    · exact hN6.sector_used
    · intro k hk1 hk2
      have hk1' : 320 ≤ k := by
        have : d1.size.toNat = 320 := by rw [hsize1]; rfl
        have hk1'' : d1.size.toNat ≤ k := hk1
        omega
      have := hN6.file.slack k (by
        show d4.size.toNat ≤ k
        rw [hsize4, hsize1]; exact hk1') (by
        show k < 512 * bytes_to_sectors d4.size
        rw [hsize4, hbts1]; omega)
      unfold file_byte data_sector at this
      have e0 : k / 512 = 0 := by omega
      have e1 : k % 512 = k := by omega
      rw [e0, if_pos (by decide), e1, hl0] at this
      exact this
  have himg6 : ∀ k, k < 512 → disk io6 s k = inode_disk_bytes d1 INODE_MAGIC pad k := by
    intro k hk
    rw [hdisk6 s (fun e => ht_ne e.symm), hdisk4]
    exact himg3 k hk
  -- the code
  have hclean := @mkdir_cleanup_spec io6 (malloc (malloc al3).1).1
    (handle_update l parent_dir.inode (fun _ => { pino with block_data := pd }))
    al3.malloc_calls (inode.mk s 1 false 0 d4) { pino with block_data := pd } parent_dir s
    hnd3 hgP3 hne haddr hc.parent_open hc.parent_kept rfl rfl
  have hlist : (if ({ pino with block_data := pd } : inode).open_cnt = 1 then
        (handle_update l parent_dir.inode (fun _ => { pino with block_data := pd })).filter
          (fun p => decide (p.1 ≠ parent_dir.inode))
      else handle_update (handle_update l parent_dir.inode
          (fun _ => { pino with block_data := pd })) parent_dir.inode
          (fun i => { i with open_cnt := i.open_cnt - 1 }))
      = closed_parent l parent_dir pino pd := by
    unfold closed_parent
    rw [filter_handle_update, handle_update_comp]
  rw [hlist] at hclean
  have hcode : dir_mkdir_in junk io al l stack pad u1 u2 u3 parent_dir name
      = some (io6, (malloc (malloc al3).1).1, closed_parent l parent_dir pino pd, true) := by
    unfold dir_mkdir_in
    rw [halloc]
    simp only
    rw [hcreate]
    simp only
    rw [hstep_add]
    simp only
    rw [hopen]
    simp only
    rw [hdopen]
    simp only
    rw [hfill]
    simp only
    exact hclean
  refine ⟨io6, (malloc (malloc al3).1).1, s, d1, pd, j, hcode, hinv6, hal5, hm5, ?_, hs_free,
    fun t h => hmono3 t (hmono2 t h), hP6, hpdir, hj_lt, ?_, ?_, ?_, ?_, hN6', hsize1, hdir1,
    himg6, ?_, ?_, ?_, ?_, ?_, ?_, ht_free, ht_ne, ?_, hlen3', ?_⟩
  · show al.malloc_calls ≤ al3.malloc_calls + 1 + 1
    omega
  · rw [entry_matches_congr name (fun k hk => hent6 j hj_lt k (hlenle k hk)),
      hmatch3 name hc.name_str]
    simp
  · rw [← hsec3]
    unfold entry_sector
    exact get_u32_congr (fun k hk => by rw [Nat.zero_add]; exact hent6 j hj_lt k (by omega))
  · intro i hi hij
    rw [entry_matches_congr name (fun k hk => hent6 i hi k (hlenle k hk))]
    by_cases c : i < entry_count pino.block_data
    · rw [entry_matches_congr name (fun k hk => hold3 i c hij k (hlenle k hk))]
      exact habs2 i c
    · exact entry_matches_free _ (in_use_of_zero (hnew3 i (by omega) hi hij 19 (by decide)))
  · intro i hi hij k hk
    have hi' : i < entry_count pd := by omega
    rw [hent6 i hi' k hk, hold3 i hi hij k hk, hent2 i hi k hk]
  · rw [entry_matches_congr name_cwd (fun k hk => hfileN (disk io6) 0 (by decide) k (by
      have : name_cwd.length = 1 := rfl
      omega))]
    exact he0
  · rw [← hs0]
    unfold entry_sector
    exact get_u32_congr (fun k hk => by
      rw [Nat.zero_add]; exact hfileN (disk io6) 0 (by decide) k (by omega))
  · rw [entry_matches_congr name_prd (fun k hk => hfileN (disk io6) 1 (by decide) k (by
      have : name_prd.length = 2 := rfl
      omega))]
    exact he1
  · rw [← hs1]
    unfold entry_sector
    exact get_u32_congr (fun k hk => by
      rw [Nat.zero_add]; exact hfileN (disk io6) 1 (by decide) k (by omega))
  · intro i hi1 hi2 k hk
    rw [hfileN (disk io6) i hi2 k hk]
    exact hz6 i hi1 hi2 k hk
  · intro t ht hp
    have hp3 := (hPowns6 t).1 hp
    rcases hNown _ t ht with h | h
    · exact hNapart3 t (by rw [h]; exact Or.inl rfl) hp3
    · exact hNapart3 t (by rw [h]; exact ht0own) hp3
  · show free_count al3.free_map + 2 + parent_need pino.block_data (disk io) = _
    rcases hslot3 with ⟨h1, _, h3, _⟩ | ⟨h1, _, _, h4⟩
    · rw [parent_need_some (hfm2.symm.trans h1), h3]
      omega
    · rw [parent_need_none (hfm2.symm.trans h1)]
      have h4' : free_count al3.free_map + grow_need (bytes_to_sectors pino.block_data.size)
          (bytes_to_sectors ((20 * (entry_count pino.block_data + 8) : Nat) : Int)
            - bytes_to_sectors pino.block_data.size) = free_count al2.free_map := h4
      omega
  · rcases hslot3 with ⟨h1, h2, h3, _⟩ | ⟨h1, h2, h3, _⟩
    · left
      refine ⟨by rw [← hfm2]; exact h1, h2, ?_⟩
      show al3.free_map = _
      rw [h3]
      exact hmap2
    · right
      exact ⟨by rw [← hfm2]; exact h1, h2, h3⟩

/-! ## The directory that `dir_mkdir` makes -/

theorem not_listed_of_free {e : Nat → Nat} (h : dir_entry_in_use e = false) :
    entry_listed e = false := by
  unfold entry_listed
  rw [h, Bool.false_and]

theorem not_listed_of_cwd {e : Nat → Nat} (h : entry_matches name_cwd e = true) :
    entry_listed e = false := by
  unfold entry_matches at h
  unfold entry_listed
  cases h1 : dir_entry_in_use e <;> cases h2 : strcmp_eq name_cwd (ptr_add e 4) <;>
    simp_all

theorem not_listed_of_prd {e : Nat → Nat} (h : entry_matches name_prd e = true) :
    entry_listed e = false := by
  unfold entry_matches at h
  unfold entry_listed
  cases h1 : dir_entry_in_use e <;> cases h2 : strcmp_eq name_prd (ptr_add e 4) <;>
    simp_all

/-- A directory of 16 entries whose entry 0 is ".", whose entry 1 is ".." and whose other
entries are not in use lists no entry. -/
theorem not_listed_new_dir {d : inode_data} {D : Nat → Nat → Nat}
    (h0 : entry_matches name_cwd (entry_at d D 0) = true)
    (h1 : entry_matches name_prd (entry_at d D 1) = true)
    (hz : ∀ i, 2 ≤ i → i < 16 → ∀ k, k < 20 → entry_at d D i k = 0) :
    ∀ i, i < 16 → entry_listed (entry_at d D i) = false := by
  intro i hi
  rcases Nat.lt_or_ge i 2 with c | c
  · rcases Nat.lt_or_ge i 1 with c1 | c1
    · have e : i = 0 := by omega
      rw [e]
      exact not_listed_of_cwd h0
    · have e : i = 1 := by omega
      rw [e]
      exact not_listed_of_prd h1
  · exact not_listed_of_free (in_use_of_zero (hz i c hi 19 (by decide)))

/-- The handles of the list that `dir_mkdir` leaves are handles of the list before, up to
their counters and block data: their addresses and sectors are old ones. -/
theorem closed_parent_mem {l : InodeList} {parent_dir : dir_handle} {pino : inode}
    {pd : inode_data} (hnd : (l.map (fun p => p.1)).Nodup)
    (hg : handle_get l parent_dir.inode = some pino) {x : Nat × inode}
    (hx : x ∈ closed_parent l parent_dir pino pd) :
    ∃ q ∈ l, x.1 = q.1 ∧ x.2.sector = q.2.sector := by
  unfold closed_parent at hx
  split at hx
  · exact ⟨x, (List.mem_filter.mp hx).1, rfl, rfl⟩
  · obtain ⟨q, hq, h1, h2⟩ := mem_handle_update hx
    refine ⟨q, hq, h1, ?_⟩
    rcases h2 with ⟨h3, h4⟩ | ⟨_, h4⟩
    · rw [h4, handle_get_unique hnd hg hq h3]
    · rw [h4]

/-- C32: when `dir_get_parent_dir_by_name` gives the directory `parent_dir` and the name
`name` for the path and leaves a state `MkdirCall` (well-formed, the name valid and not in
the parent, enough free sectors, `malloc` not failing), `dir_mkdir` returns true and
afterwards: `lookup` of the name in the parent finds an entry with `inode_sector = s`, a
sector that was free before and is in use now; sector `s` holds the image of an inode that is
a directory of 320 bytes, 16 entries, and is a well-formed file; entry 0 is in use with the
name "." and the sector `s`, entry 1 is in use with the name ".." and the sector of the inode
of the parent, and no other entry is in use; and on the handle that `inode_open` of `s` gives,
`dir_is_empty` returns true and `dir_readdir` returns false and leaves the name buffer as it
is. -/
theorem dir_mkdir_makes_directory {io0 io : Io} {al0 al : Alloc} {l0 l : InodeList}
    {cwd : Option dir_handle} {path : List Nat} {parent_dir : dir_handle} {pino : inode}
    {name : List Nat} (junk : Int) (stack : inode_data) (pad u1 u2 u3 : Nat → Nat)
    (hres : dir_get_parent_dir_by_name io0 al0 l0 u3 cwd path
      = some (io, al, l, some (parent_dir, name)))
    (hc : MkdirCall io al l parent_dir pino name) :
    ∃ (io' : Io) (al' : Alloc) (l' : InodeList) (s : Nat) (dN pd : inode_data),
      dir_mkdir junk io0 al0 l0 stack pad u1 u2 u3 cwd path = some (io', al', l', true) ∧
      ¬ in_use al s ∧ in_use al' s ∧
      (∀ (u : Nat → Nat) (pos : Int), ∃ io2 e ofs,
        lookup io' (dir.mk { pino with block_data := pd } pos) name u
          = some (io2, some (e, ofs)) ∧ get_u32 e 0 = s) ∧
      (∀ k, k < 512 → disk io' s k = inode_disk_bytes dN INODE_MAGIC pad k) ∧
      dN.is_dir = true ∧ dN.size = 320 ∧ entry_count dN = 16 ∧
      HandleInv (inode.mk s 1 false 0 dN) (disk io') al' ∧
      (∀ i, i < entry_count dN →
        (dir_entry_in_use (entry_at dN (disk io') i) = true ↔ i = 0 ∨ i = 1)) ∧
      entry_matches name_cwd (entry_at dN (disk io') 0) = true ∧
      entry_sector dN (disk io') 0 = s ∧
      entry_matches name_prd (entry_at dN (disk io') 1) = true ∧
      entry_sector dN (disk io') 1 = inode_get_inumber pino ∧
      (∀ (u u' nm : Nat → Nat), ∃ io2 al2 a N,
        inode_open io' al' l' u s = some (io2, al2, (a, N) :: l', some a) ∧
        inode_get_inumber N = s ∧ inode_is_dir N = true ∧ inode_length N = 320 ∧
        (∃ io3, dir_is_empty io2 (dir.mk N 0) u' = some (io3, true)) ∧
        (∃ io3 d3, dir_readdir io2 (dir.mk N 0) u' nm = some (io3, d3, nm, false))) := by
  obtain ⟨io', al', s, dN, pd, j, hcode, hinv', hal', hm', _, hs_free, hmono, hP, _, hj_lt,
    hmatch, hsec, hothers, _, hN, hsize, hdir, himg, he0, hs0, he1, hs1, hz, _, _, _, _⟩ :=
    dir_mkdir_in_spec junk stack pad u1 u2 u3 hc
  have hcount : entry_count dN = 16 := by
    unfold entry_count sizeof_dir_entry
    rw [hsize]
    rfl
  have hbts : bytes_to_sectors dN.size = 1 := by rw [hsize]; decide
  refine ⟨io', al', closed_parent l parent_dir pino pd, s, dN, pd, ?_, hs_free,
    hN.sector_used, ?_, himg, hdir, hsize, hcount, hN, ?_, he0, hs0, he1, hs1, ?_⟩
  · unfold dir_mkdir
    rw [hres]
    exact hcode
  · intro u pos
    have hfm : first_match (fun i => entry_matches name (entry_at
        ({ pino with block_data := pd } : inode).block_data (disk io') i)) 0
        (entry_count ({ pino with block_data := pd } : inode).block_data) = some j :=
      first_match_of (Nat.zero_le _) (by simpa using hj_lt) hmatch
        (fun k _ hk => hothers k (by omega) (by omega))
    obtain ⟨io2, hlook, _, _, _⟩ := @lookup_found al' hal' io' hinv'
      (dir.mk { pino with block_data := pd } pos) hP.file name hc.name_len u j hfm
    refine ⟨io2, _, _, hlook, ?_⟩
    rw [← hsec]
    unfold entry_sector
    exact get_u32_congr (fun k hk => by
      rw [Nat.zero_add]
      exact entry_buf_at _ _ _ _ k (by omega))
  · intro i hi
    rw [hcount] at hi
    constructor
    · intro h
      by_contra c
      have := in_use_of_zero (hz i (by omega) hi 19 (by decide))
      rw [this] at h
      cases h
    · rintro (rfl | rfl)
      · exact in_use_of_matches he0
      · exact in_use_of_matches he1
  · intro u u' nm
    have hfresh : (closed_parent l parent_dir pino pd).find?
        (fun p => decide (p.2.sector = s)) = none := by
      rw [List.find?_eq_none]
      intro x hx
      simp only [decide_eq_true_eq]
      intro hxs
      obtain ⟨q, hq, _, h2⟩ := closed_parent_mem hc.addr_nodup hc.parent hx
      have := hc.sector_used q hq
      rw [← h2, hxs] at this
      exact hs_free this
    obtain ⟨io2, d2, hopen, hinv2, hdisk2, _, hsize2, hdir2, hN2, hbytes2, _⟩ :=
      inode_open_fresh (closed_parent l parent_dir pino pd) u hinv' hal' (hm' _) hfresh hN himg
    have hcount2 : entry_count d2 = 16 := by
      unfold entry_count sizeof_dir_entry
      rw [hsize2, hsize]
      rfl
    have hent : ∀ i, i < 16 → ∀ k, k < 20 →
        entry_at d2 (disk io2) i k = entry_at dN (disk io') i k := by
      intro i hi k hk
      exact hbytes2 (20 * i + k) (by rw [hbts]; omega)
    have hlisted : ∀ i, i < entry_count d2 → entry_listed (entry_at d2 (disk io2) i) = false := by
      intro i hi
      rw [hcount2] at hi
      rw [entry_listed_congr (hent i hi)]
      exact not_listed_new_dir he0 he1 hz i hi
    have hal2 : AllocInv (malloc al').1 := hal'
    refine ⟨io2, (malloc al').1, al'.malloc_calls, inode.mk s 1 false 0 d2, hopen, rfl, ?_, ?_,
      ?_, ?_⟩
    · unfold inode_is_dir
      show d2.is_dir = true
      rw [hdir2, hdir]
    · unfold inode_length
      show d2.size = 320
      rw [hsize2, hsize]
    · obtain ⟨io3, b, hemp, _, _, _, hb⟩ := @dir_is_empty_spec _ hal2 io2 hinv2
        (dir.mk (inode.mk s 1 false 0 d2) 0) hN2.file u'
      have hbt : b = true := hb.2 hlisted
      rw [hbt] at hemp
      exact ⟨io3, hemp⟩
    · have hnames : NamesEnd (inode.mk s 1 false 0 d2).block_data (disk io2) := by
        intro i hi hl
        rw [hlisted i hi] at hl
        cases hl
      obtain ⟨io3, _, _, _, hcase⟩ := @dir_readdir_spec _ hal2 io2 hinv2
        (inode.mk s 1 false 0 d2) hN2.file hnames u' nm 0 (Nat.zero_le _) 0 rfl
      rcases hcase with ⟨j', hj', _⟩ | ⟨_, hrd⟩
      · obtain ⟨_, a2, a3, _⟩ := first_match_some hj'
        have a3' : entry_listed (entry_at d2 (disk io2) j') = true := a3
        rw [hlisted j' (by
          show j' < entry_count d2
          have : j' < 0 + (entry_count d2 - 0) := a2
          omega)] at a3'
        cases a3'
      · exact ⟨io3, _, hrd⟩

/-- The state in which `dir_mkdir` of "z" works on the root of the small tree, reopened from
the working directory of a process. -/
theorem mkdir_call_root :
    MkdirCall tree_io (tree_alloc_n 3) [(0, { root_handle with open_cnt := 2 })]
      (dir_handle.mk 0 0) { root_handle with open_cnt := 2 } [122] :=
  { io_inv := IoInv_tree
    alloc_inv := AllocInv_tree 3
    malloc_ok := fun _ => rfl
    addr_nodup := by decide
    addr_lt := by
      intro p hp
      rw [List.mem_singleton] at hp
      rw [hp]
      decide
    sector_used := by
      intro p hp
      rw [List.mem_singleton] at hp
      rw [hp]
      unfold in_use
      rfl
    parent := rfl
    parent_inv := ⟨(HandleInv_root 3).file, (HandleInv_root 3).sector_used,
      (HandleInv_root 3).sector_own⟩
    parent_deny := rfl
    parent_open := by decide
    parent_kept := by
      intro h
      exact absurd h (by decide)
    name_ne := by decide
    name_len := by decide
    name_str := by
      unfold CStr
      decide
    absent := by
      intro i hi
      have h0 : i = 0 := by
        have : entry_count root_handle.block_data = 1 := by decide
        have hi' : i < entry_count root_handle.block_data := hi
        omega
      rw [h0]
      decide!
    size_max := fun _ => by decide
    free := by decide! }

/-- Witness for C32: `dir_mkdir` of "z" by a process whose working directory is the root of
the small tree. -/
theorem dir_mkdir_makes_directory_witness :
    dir_get_parent_dir_by_name tree_io (tree_alloc_n 1) [(0, root_handle)] (fun _ => 0)
        (some (dir_handle.mk 0 0)) [122]
      = some (tree_io, tree_alloc_n 3, [(0, { root_handle with open_cnt := 2 })],
          some (dir_handle.mk 0 0, [122])) ∧
    ∃ (io' : Io) (al' : Alloc) (l' : InodeList) (s : Nat) (dN pd : inode_data),
      dir_mkdir 0 tree_io (tree_alloc_n 1) [(0, root_handle)]
          (inode_data.mk false 0 (fun _ => 0) (fun _ => 0))
          (fun _ => 0) (fun _ => 0) (fun _ => 0) (fun _ => 0) (some (dir_handle.mk 0 0)) [122]
        = some (io', al', l', true) ∧
      ¬ in_use (tree_alloc_n 3) s ∧ in_use al' s ∧
      (∀ (u : Nat → Nat) (pos : Int), ∃ io2 e ofs,
        lookup io' (dir.mk { ({ root_handle with open_cnt := 2 } : inode) with
            block_data := pd } pos) [122] u
          = some (io2, some (e, ofs)) ∧ get_u32 e 0 = s) ∧
      (∀ k, k < 512 → disk io' s k = inode_disk_bytes dN INODE_MAGIC (fun _ => 0) k) ∧
      dN.is_dir = true ∧ dN.size = 320 ∧ entry_count dN = 16 ∧
      HandleInv (inode.mk s 1 false 0 dN) (disk io') al' ∧
      (∀ i, i < entry_count dN →
        (dir_entry_in_use (entry_at dN (disk io') i) = true ↔ i = 0 ∨ i = 1)) ∧
      entry_matches name_cwd (entry_at dN (disk io') 0) = true ∧
      entry_sector dN (disk io') 0 = s ∧
      entry_matches name_prd (entry_at dN (disk io') 1) = true ∧
      entry_sector dN (disk io') 1
        = inode_get_inumber ({ root_handle with open_cnt := 2 } : inode) ∧
      (∀ (u u' nm : Nat → Nat), ∃ io2 al2 a N,
        inode_open io' al' l' u s = some (io2, al2, (a, N) :: l', some a) ∧
        inode_get_inumber N = s ∧ inode_is_dir N = true ∧ inode_length N = 320 ∧
        (∃ io3, dir_is_empty io2 (dir.mk N 0) u' = some (io3, true)) ∧
        (∃ io3 d3, dir_readdir io2 (dir.mk N 0) u' nm = some (io3, d3, nm, false))) :=
  ⟨rfl, dir_mkdir_makes_directory 0 (inode_data.mk false 0 (fun _ => 0) (fun _ => 0))
    (fun _ => 0) (fun _ => 0) (fun _ => 0) (fun _ => 0) rfl mkdir_call_root⟩

/-! ## `dir_get_parent_dir_by_name`, `dir_mkdir` and `filesys_remove` on concrete states -/

/-- C31 (the code at the failing input): in the small tree, for a process without a working
directory, `dir_get_parent_dir_by_name` returns for the path "//b" the root directory and the
last component "/b", and for the path "d//b" the directory "d" (sector 3) and the last
component "/b": a last component that contains a `'/'`. -/
theorem dir_get_parent_dir_by_name_double_slash :
    tree_parent [47, 47, 98] = some (some (1, [47, 98])) ∧
    tree_parent [100, 47, 47, 98] = some (some (3, [47, 98])) := by
  set_option maxRecDepth 100000 in
  constructor <;> decide!

/-- C33 (the code at the failing input): in the small tree, where the sectors 0 to 6 are in
use and the root has the entry "d", `dir_mkdir` of "d" returns false and leaves sector 8 in
use: the data sector that `dir_create` allocated for the new directory. -/
theorem dir_mkdir_failure_keeps_sector :
    tree_mkdir [100] = some (false, List.replicate 7 true ++ [false, true, false]) := by
  set_option maxRecDepth 100000 in
  decide!

/-- C34 (counterexample): on a device whose root directory is full (24 entries in use in one
sector of 480 bytes) and on which the sectors 0 to 33 are in use, `dir_mkdir` of "z" returns
true, and `filesys_remove` of "z" returns true; before the two calls 6 sectors are free, after
them 5: sector 36, which `dir_add` allocated when it grew the root by 8 entries, stays in
use. -/
theorem dir_mkdir_remove_full_parent :
    full_alloc.free_map = List.replicate 34 true ++ List.replicate 6 false ∧
    full_mkdir_remove [122]
      = some (true, List.replicate 37 true ++ List.replicate 3 false,
          true, List.replicate 34 true ++ [false, false, true, false, false, false]) := by
  constructor
  · rfl
  · set_option maxRecDepth 100000 in
    decide!

/-! ## `filesys_remove` after `dir_mkdir` or `filesys_create` -/

/-- The loop of `dir_get_parent_dir_by_name` on a name without `'/'`. -/
theorem parent_scan_no_slash {name : List Nat} (h : ∀ c ∈ name, c ≠ SLASH) :
    ∀ (n local_name : Nat), parent_scan name n local_name = (local_name, none) := by
  intro n
  induction n with
  | zero => intro local_name; rfl
  | succ i ih =>
    intro local_name
    unfold parent_scan
    have hne : name.getD i 0 ≠ SLASH := by
      rcases Nat.lt_or_ge i name.length with c | c
      · rw [List.getD_eq_getElem name 0 c]
        exact h _ (List.getElem_mem c)
      · rw [List.getD_eq_default name 0 c]
        decide
    rw [if_neg hne]
    exact ih local_name

/-- The parent of a name without `'/'` is the working directory: `dir_reopen` of it. -/
theorem parent_of_name {io : Io} {al : Alloc} {l : InodeList} {cwd : dir_handle}
    {pino : inode} {name : List Nat} (u : Nat → Nat) (hm : ∀ k, al.malloc_ok k = true)
    (hg : handle_get l cwd.inode = some pino) (hdir : inode_is_dir pino = true)
    (hcnt : pino.open_cnt < INT_MAX) (hnd : (l.map (fun p => p.1)).Nodup)
    (hslash : ∀ c ∈ name, c ≠ SLASH) :
    dir_get_parent_dir_by_name io al l u (some cwd) name
      = some (io, (malloc (malloc al).1).1,
          handle_update l cwd.inode (fun i => { i with open_cnt := i.open_cnt + 1 }),
          some (dir_handle.mk cwd.inode 0, name)) := by
  have hre : inode_reopen l (some cwd.inode)
      = some (handle_update l cwd.inode (fun i => { i with open_cnt := i.open_cnt + 1 }),
          some cwd.inode) := by
    unfold inode_reopen
    simp only [hg]
    rw [if_neg (by omega)]
  have hg' := handle_get_update_same hnd hg (fun i => { i with open_cnt := i.open_cnt + 1 })
  have hopen := @dir_open_some io (malloc al).1
    (handle_update l cwd.inode (fun i => { i with open_cnt := i.open_cnt + 1 })) cwd.inode
    _ (hm _) hg' hdir
  unfold dir_get_parent_dir_by_name
  have hm0 : malloc al = ((malloc al).1, true) := by
    unfold malloc
    rw [hm]
  rw [hm0]
  simp only [parent_scan_no_slash hslash]
  unfold dir_reopen
  rw [hre]
  simp only [hopen, Option.map_some', List.drop_zero]

theorem HandleInv_same {ino ino' : inode} {D : Nat → Nat → Nat} {al al' : Alloc}
    (h : HandleInv ino D al) (hs : ino'.sector = ino.sector)
    (hd : ino'.block_data = ino.block_data) (hf : al'.free_map = al.free_map) :
    HandleInv ino' D al' := by
  have hu : ∀ t, in_use al t → in_use al' t := by
    intro t ht
    unfold in_use at ht ⊢
    rw [hf]
    exact ht
  refine ⟨⟨?_, ?_, ⟨?_, ?_⟩, ?_⟩, ?_, ?_⟩
  · rw [hd]; exact h.file.size_nonneg
  · rw [hd]; exact h.file.size_max
  · rw [hd]; exact fun x hx => hu _ (h.file.wf.used x hx)
  · rw [hd]; exact h.file.wf.inj
  · rw [hd]; exact h.file.slack
  · rw [hs]; exact hu _ h.sector_used
  · rw [hd, hs]; exact h.sector_own

/-- An update of the handle at an address depends only on what it does to that handle. -/
theorem handle_update_const {l : InodeList} {h : Nat} {x : inode}
    (hnd : (l.map (fun p => p.1)).Nodup) (hg : handle_get l h = some x) (f : inode → inode) :
    handle_update l h f = handle_update l h (fun _ => f x) := by
  unfold handle_update
  apply List.map_congr_left
  intro p hp
  by_cases c : p.1 = h
  · rw [if_pos c, if_pos c, handle_get_unique hnd hg hp c]
  · rw [if_neg c, if_neg c]

/-- The call `dir_close` on a directory of the list: the list is `closed_parent`. -/
theorem dir_close_parent {io : Io} {al : Alloc} {l : InodeList} {a_dir : dir_handle}
    {pino : inode} (hnd : (l.map (fun p => p.1)).Nodup)
    (hg : handle_get l a_dir.inode = some pino) (hopen : 1 ≤ pino.open_cnt)
    (hkept : pino.open_cnt = 1 → pino.removed = false) :
    dir_close io al l (some a_dir)
      = some (io, al, closed_parent l a_dir pino pino.block_data) := by
  show inode_close io al l (some a_dir.inode) = _
  unfold closed_parent
  by_cases c : pino.open_cnt = 1
  · rw [if_pos c, inode_close_last_kept hg c (hkept c)]
  · rw [if_neg c, inode_close_shared hg (by omega),
      handle_update_const hnd hg (fun i => { i with open_cnt := i.open_cnt - 1 })]

/-- The function `dir_remove`, then `dir_close`, in a state `ResolvedAgain` behind the
creation of the inode `dN` in sector `s` with the entry `j` of the directory `P`: the entry
is found, the inode is opened from its sector, marked removed and closed, and exactly its
sectors are released. -/
theorem remove_again_spec {io1 io2 : Io} {al1 al2 : Alloc} {l2 : InodeList} {P pino2 : inode}
    {a_dir : dir_handle} {name : List Nat} {j s : Nat} {dN : inode_data} {pad : Nat → Nat}
    (junk : Int) (pad' v1 v2 v3 : Nat → Nat)
    (hal1 : AllocInv al1) (hP : HandleInv P (disk io1) al1)
    (hPdir : P.block_data.is_dir = true) (hname : name.length ≤ NAME_MAX)
    (hj : j < entry_count P.block_data)
    (hmatch : entry_matches name (entry_at P.block_data (disk io1) j) = true)
    (hothers : ∀ i, i < entry_count P.block_data → i ≠ j →
      entry_matches name (entry_at P.block_data (disk io1) i) = false)
    (hsec : entry_sector P.block_data (disk io1) j = s)
    (hN : HandleInv (inode.mk s 1 false 0 dN) (disk io1) al1)
    (himg : ∀ k, k < 512 → disk io1 s k = inode_disk_bytes dN INODE_MAGIC pad k)
    (hkind : dN.is_dir = false ∨
      (dN.is_dir = true ∧
        (∀ i, i < entry_count dN → entry_listed (entry_at dN (disk io1) i) = false) ∧
        s ≠ ROOT_DIR_SECTOR))
    (hapart : ∀ t, inode_owns (inode.mk s 1 false 0 dN) (disk io1) t →
      ¬ inode_owns P (disk io1) t)
    (hr : ResolvedAgain io1 al1 P.sector P.block_data s io2 al2 l2 a_dir pino2) :
    ∃ (io3 : Io) (al3 : Alloc),
      dir_remove junk io2 al2 l2 pad' v1 v2 v3 a_dir name = some (io3, al3, l2, true) ∧
      dir_close io3 al3 l2 (some a_dir)
        = some (io3, al3, closed_parent l2 a_dir pino2 P.block_data) ∧
      (∀ t, in_use al3 t ↔
        in_use al1 t ∧ ¬ inode_owns (inode.mk s 1 false 0 dN) (disk io1) t) ∧
      free_count al3.free_map = free_count al1.free_map
        + (bytes_to_sectors dN.size + l1_count (bytes_to_sectors dN.size)
          + l2_count (bytes_to_sectors dN.size) + 1) ∧
      al3.free_map.length = al1.free_map.length := by
  have hd := hr.same_disk
  have hpd := hr.parent_data
  have hal2 : AllocInv al2 := by
    unfold AllocInv
    rw [hr.same_map]
    exact hal1
  have huse : ∀ t, in_use al2 t ↔ in_use al1 t := by
    intro t
    unfold in_use
    rw [hr.same_map]
  have hP2 : HandleInv pino2 (disk io2) al2 := by
    rw [hd]
    exact HandleInv_same hP hr.parent_sector hpd hr.same_map
  have hN2 : HandleInv (inode.mk s 1 false 0 dN) (disk io2) al2 := by
    rw [hd]
    exact HandleInv_same hN rfl rfl hr.same_map
  have hrc : RemoveCall io2 al2 l2 a_dir pino2 name j :=
    { io_inv := hr.io_inv
      alloc_inv := hal2
      malloc_ok := hr.malloc_ok
      addr_nodup := hr.addr_nodup
      addr_lt := hr.addr_lt
      parent := hr.parent
      parent_dir := by
        unfold inode_is_dir
        rw [hpd]
        exact hPdir
      parent_inv := hP2
      name_len := hname
      entry := by
        rw [hd, hpd]
        exact first_match_of (Nat.zero_le _) (by simpa using hj) hmatch
          (fun k _ hk => hothers k (by omega) (by omega)) }
  have hsec2 : entry_sector pino2.block_data (disk io2) j = s := by
    rw [hd, hpd]
    exact hsec
  have hfresh : l2.find? (fun p => decide
      (p.2.sector = entry_sector pino2.block_data (disk io2) j)) = none := by
    rw [hsec2, List.find?_eq_none]
    intro x hx
    simp only [decide_eq_true_eq]
    exact hr.closed x hx
  have hP0 := hP.file.size_nonneg
  have hP1 := hP.file.size_max
  obtain ⟨io3, al3, T, hrem, _, _, _, _, _, hTmem, hTuse, hTcnt, hTlen, hTmap⟩ :=
    @dir_remove_fresh_ok io2 al2 l2 a_dir pino2 name j junk pad' v1 v2 v3 hrc hr.parent_deny
      (by
        rw [hd, hpd]
        exact fun i hi1 hi2 => hothers i hi2 (by omega))
      dN pad hfresh (by rw [hsec2]; exact hN2) (by rw [hsec2, hd]; exact himg)
      (by
        rw [hsec2, hd]
        exact hkind)
      (by
        rw [hd, hpd]
        intro x hx p _ hp2 e
        have hj2 := (entry_count_lt hP0).mp hj
        have hlive : slot_live (bytes_to_sectors P.block_data.size) (Slot.data (p / 512)) := by
          show p / 512 < bytes_to_sectors P.block_data.size
          rw [bytes_to_sectors_eq hP0 (by unfold MAX_BYTES at hP1; omega)]
          omega
        exact hapart _ (Or.inr ⟨x, hx, rfl⟩) (Or.inr ⟨Slot.data (p / 512), hlive, e.symm⟩))
  refine ⟨io3, al3, hrem, ?_, ?_, ?_, ?_⟩
  · rw [← hpd]
    exact dir_close_parent hr.addr_nodup hr.parent hr.parent_open hr.parent_kept
  · intro t
    rw [hTuse t, huse t, hTmem t, hsec2, hd]
    rfl
  · rw [hTcnt, hTlen, hr.same_map]
  · rw [hTmap, hr.same_map]

/-- The resolution of a name without `'/'` by a process whose working directory `cwd` is an
open directory: it reopens `cwd`. When disk content and free map are the ones of a state
`ioB`, `alB` that `dir_mkdir` or `filesys_create` left, the state behind the resolution is a
state `ResolvedAgain`. -/
theorem resolved_again_of_name {ioB io1 : Io} {alB al1 : Alloc} {l1 : InodeList}
    {cwd : dir_handle} {P : inode} {name : List Nat} {s : Nat} (v : Nat → Nat)
    (hd : disk io1 = disk ioB) (hf : al1.free_map = alB.free_map) (hinv : IoInv io1)
    (hm : ∀ k, al1.malloc_ok k = true) (hnd : (l1.map (fun p => p.1)).Nodup)
    (hlt : ∀ p ∈ l1, p.1 < al1.malloc_calls)
    (hg : handle_get l1 cwd.inode = some P) (hdir : inode_is_dir P = true)
    (hdeny : P.deny_write_cnt = 0) (hopen : 1 ≤ P.open_cnt) (hcnt : P.open_cnt < INT_MAX)
    (hclosed : ∀ p ∈ l1, p.2.sector ≠ s) (hslash : ∀ c ∈ name, c ≠ SLASH) :
    dir_get_parent_dir_by_name io1 al1 l1 v (some cwd) name
      = some (io1, (malloc (malloc al1).1).1,
          handle_update l1 cwd.inode (fun i => { i with open_cnt := i.open_cnt + 1 }),
          some (dir_handle.mk cwd.inode 0, name)) ∧
    ResolvedAgain ioB alB P.sector P.block_data s io1 (malloc (malloc al1).1).1
      (handle_update l1 cwd.inode (fun i => { i with open_cnt := i.open_cnt + 1 }))
      (dir_handle.mk cwd.inode 0) { P with open_cnt := P.open_cnt + 1 } :=
  ⟨parent_of_name v hm hg hdir hcnt hnd hslash,
    { io_inv := hinv
      same_disk := hd
      same_map := hf
      malloc_ok := hm
      addr_nodup := by
        rw [handle_update_map_fst]
        exact hnd
      addr_lt := by
        intro p hp
        obtain ⟨q, hq, h1, _⟩ := mem_handle_update hp
        have := hlt q hq
        show p.1 < al1.malloc_calls + 1 + 1
        omega
      parent := handle_get_update_same hnd hg _
      parent_sector := rfl
      parent_data := rfl
      parent_deny := hdeny
      parent_open := by
        show 1 ≤ P.open_cnt + 1
        omega
      parent_kept := by
        intro h
        have h' : P.open_cnt + 1 = 1 := h
        omega
      closed := by
        intro p hp
        obtain ⟨q, hq, _, h2⟩ := mem_handle_update hp
        have := hclosed q hq
        rcases h2 with ⟨_, h3⟩ | ⟨_, h3⟩ <;> rw [h3] <;> exact this }⟩

/-- A directory that `dir_open` returns is a handle of the list whose inode is a directory:
the call asserts it. -/
theorem dir_open_result {io io' : Io} {al al' : Alloc} {l l' : InodeList} {r : Option Nat}
    {d : dir_handle} (h : dir_open io al l r = some (io', al', l', some d)) :
    ∃ ino, handle_get l' d.inode = some ino ∧ inode_is_dir ino = true := by
  unfold dir_open at h
  simp only at h
  cases r with
  | none =>
    simp only [Option.some.injEq, Prod.mk.injEq] at h
    exact absurd h.2.2.2 (by simp)
  | some a =>
    simp only at h
    by_cases c : (malloc al).2 = true
    · rw [if_pos c] at h
      cases hg : handle_get l a with
      | none => rw [hg] at h; cases h
      | some ino =>
        rw [hg] at h
        simp only at h
        by_cases c2 : inode_is_dir ino = true
        · rw [if_pos c2] at h
          simp only [Option.some.injEq, Prod.mk.injEq] at h
          obtain ⟨_, _, h3, h4⟩ := h
          rw [← h3, ← h4]
          exact ⟨ino, hg, c2⟩
        · rw [if_neg c2] at h
          cases h
    · rw [if_neg c] at h
      cases hc : inode_close io (malloc al).1 l (some a) with
      | none => rw [hc] at h; cases h
      | some p =>
        rw [hc] at h
        simp only [Option.some.injEq, Prod.mk.injEq] at h
        exact absurd h.2.2.2 (by simp)

/-- The directory that `dir_get_parent_dir_by_name` returns is a handle of the list whose
inode is a directory. -/
theorem parent_is_dir {io io' : Io} {al al' : Alloc} {l l' : InodeList} {u : Nat → Nat}
    {cwd : Option dir_handle} {path : List Nat} {d : dir_handle} {name : List Nat}
    (h : dir_get_parent_dir_by_name io al l u cwd path = some (io', al', l', some (d, name))) :
    ∃ ino, handle_get l' d.inode = some ino ∧ inode_is_dir ino = true := by
  unfold dir_get_parent_dir_by_name at h
  have hfin : ∀ {x : Option (Io × Alloc × InodeList × Option dir_handle)} {k : Nat},
      (∃ io1 al1 l1 r, x = dir_open io1 al1 l1 r) ∨ x = none →
      (match x with
        | none => none
        | some (io2, al2, l2, ret) =>
          some (io2, al2, l2, ret.map (fun d => (d, path.drop k))))
        = some (io', al', l', some (d, name)) →
      ∃ ino, handle_get l' d.inode = some ino ∧ inode_is_dir ino = true := by
    intro x k hx hm
    cases x with
    | none => cases hm
    | some p =>
      obtain ⟨io2, al2, l2, ret⟩ := p
      simp only [Option.some.injEq, Prod.mk.injEq] at hm
      obtain ⟨e1, e2, e3, e4⟩ := hm
      cases ret with
      | none => cases e4
      | some d2 =>
        simp only [Option.map_some', Option.some.injEq, Prod.mk.injEq] at e4
        rcases hx with ⟨io1, al1, l1, r, hx⟩ | hx
        · rw [e1, e2, e3, e4.1] at hx
          exact dir_open_result hx.symm
        · cases hx
  cases hmal : malloc al with
  | mk al1 ok =>
    rw [hmal] at h
    cases ok with
    | false =>
      simp only [Option.some.injEq, Prod.mk.injEq] at h
      exact absurd h.2.2.2 (by simp)
    | true =>
      simp only at h
      cases hps : parent_scan path (strlen path - 1) 0 with
      | mk local_name cut =>
        rw [hps] at h
        cases cut with
        | none =>
          simp only at h
          cases cwd with
          | none =>
            simp only at h
            refine hfin ?_ h
            unfold dir_open_root
            cases inode_open io al1 l u ROOT_DIR_SECTOR with
            | none => exact Or.inr rfl
            | some p => exact Or.inl ⟨p.1, p.2.1, p.2.2.1, p.2.2.2, rfl⟩
          | some c =>
            simp only at h
            refine hfin ?_ h
            unfold dir_reopen
            cases inode_reopen l (some c.inode) with
            | none => exact Or.inr rfl
            | some p => exact Or.inl ⟨io, al1, p.1, p.2, rfl⟩
        | some i =>
          simp only at h
          cases hs : filesys_search io al1 l u cwd (path.take i) FILESYS_SEARCH_TYPE_DIR with
          | none => rw [hs] at h; cases h
          | some p =>
            obtain ⟨io2, al2, l2, res⟩ := p
            rw [hs] at h
            cases res with
            | none =>
              simp only [Option.some.injEq, Prod.mk.injEq] at h
              exact absurd h.2.2.2 (by simp)
            | some a =>
              simp only at h
              exact hfin (Or.inl ⟨io2, al2, l2, some a, rfl⟩) h

/-- C34 (amended): when `dir_get_parent_dir_by_name` gives for the path the directory
`parent_dir` and the name `name`, leaves the free map as it was and leaves a state `MkdirCall`
(well-formed, the name valid and not in the parent, `malloc` not failing, two free sectors
more than `dir_add` needs for the entry) in which the root sector is in use, `dir_mkdir`
returns true and takes two sectors and the `parent_need` sectors by which `dir_add` grows the
parent. When a later `filesys_remove` of the path resolves it to the same directory, in a
state `ResolvedAgain` (same disk content and free map, the new directory not open), it returns
true; afterwards every sector that was in use before the `dir_mkdir` is in use, and the
number of free sectors is the one before the `dir_mkdir` less `parent_need`: the sectors of
the new directory are free again, the sectors of the growth of the parent are not. When
`parent_need` is zero (the parent had an entry that was not in use, or the eight new entries
fit into its last sector), the free map is the one before the `dir_mkdir`. -/
theorem dir_mkdir_then_remove {io0 io : Io} {al0 al : Alloc} {l0 l : InodeList}
    {cwd : Option dir_handle} {path : List Nat} {parent_dir : dir_handle} {pino : inode}
    {name : List Nat} (junk : Int) (stack : inode_data) (pad u1 u2 u3 : Nat → Nat)
    (hres : dir_get_parent_dir_by_name io0 al0 l0 u3 cwd path
      = some (io, al, l, some (parent_dir, name)))
    (hmap : al.free_map = al0.free_map)
    (hc : MkdirCall io al l parent_dir pino name)
    (hroot : in_use al ROOT_DIR_SECTOR) :
    ∃ (io1 : Io) (al1 : Alloc) (s : Nat) (pd : inode_data),
      dir_mkdir junk io0 al0 l0 stack pad u1 u2 u3 cwd path
        = some (io1, al1, closed_parent l parent_dir pino pd, true) ∧
      IoInv io1 ∧ (∀ k, al1.malloc_ok k = true) ∧ al.malloc_calls ≤ al1.malloc_calls ∧
      ¬ in_use al0 s ∧ pd.is_dir = pino.block_data.is_dir ∧
      free_count al1.free_map + 2 + parent_need pino.block_data (disk io)
        = free_count al0.free_map ∧
      ∀ (junk' : Int) (pad' v1 v2 v3 : Nat → Nat) (ioX : Io) (alX : Alloc) (lX : InodeList)
        (cwdX : Option dir_handle) (io2 : Io) (al2 : Alloc) (l2 : InodeList)
        (a_dir : dir_handle) (pino2 : inode),
        dir_get_parent_dir_by_name ioX alX lX v2 cwdX path
          = some (io2, al2, l2, some (a_dir, name)) →
        ResolvedAgain io1 al1 pino.sector pd s io2 al2 l2 a_dir pino2 →
        ∃ (io3 : Io) (al3 : Alloc),
          filesys_remove junk' ioX alX lX pad' v1 v2 v3 cwdX path
            = some (io3, al3, closed_parent l2 a_dir pino2 pd, true) ∧
          (∀ t, in_use al0 t → in_use al3 t) ∧
          free_count al3.free_map + parent_need pino.block_data (disk io)
            = free_count al0.free_map ∧
          (parent_need pino.block_data (disk io) = 0 → al3.free_map = al0.free_map) := by
  obtain ⟨io1, al1, s, dN, pd, j, hcode, hinv1, hal1, hm1, hcalls, hs_free, hmono, hP, hpdir,
    hj_lt, hmatch, hsec, hothers, _, hN, hsize, hNdir, himg, he0, _, he1, _, hz, hapart,
    ht_free, _, hcount, hlen, _⟩ := dir_mkdir_in_spec junk stack pad u1 u2 u3 hc
  have hPdir : pino.block_data.is_dir = true := by
    obtain ⟨ino, hg, hd⟩ := parent_is_dir hres
    rw [hc.parent] at hg
    rw [Option.some.inj hg]
    exact hd
  have huse0 : ∀ t, in_use al0 t ↔ in_use al t := by
    intro t
    unfold in_use
    rw [hmap]
  have hcountN : entry_count dN = 16 := by
    unfold entry_count sizeof_dir_entry
    rw [hsize]
    rfl
  have hNown : ∀ t, inode_owns (inode.mk s 1 false 0 dN) (disk io1) t → ¬ in_use al t := by
    intro t ht
    rcases @inode_owns_one_sector (inode.mk s 1 false 0 dN) (disk io1) t
      (by show (0 : Int) ≤ dN.size; rw [hsize]; decide)
      (by show dN.size ≤ 512; rw [hsize]; decide) ht with h | h
    · rw [h]
      exact hs_free
    · rw [h]
      exact ht_free
  refine ⟨io1, al1, s, pd, ?_, hinv1, hm1, hcalls, fun h => hs_free ((huse0 s).1 h), hpdir,
    by rw [← hmap]; exact hcount, ?_⟩
  · unfold dir_mkdir
    rw [hres]
    exact hcode
  intro junk' pad' v1 v2 v3 ioX alX lX cwdX io2 al2 l2 a_dir pino2 hresX hr
  obtain ⟨io3, al3, hrem, hclose, huse3, hcnt3, hlen3⟩ :=
    @remove_again_spec io1 io2 al1 al2 l2 { pino with block_data := pd } pino2 a_dir name j s
      dN pad junk' pad' v1 v2 v3 hal1 hP
      (hpdir.trans hPdir)
      hc.name_len hj_lt hmatch hothers hsec hN himg
      (Or.inr ⟨hNdir, fun i hi => not_listed_new_dir he0 he1 hz i (by rw [hcountN] at hi; exact hi),
        fun e => hs_free (e ▸ hroot)⟩)
      hapart hr
  have hbN : bytes_to_sectors dN.size + l1_count (bytes_to_sectors dN.size)
      + l2_count (bytes_to_sectors dN.size) + 1 = 2 := by
    rw [hsize]
    decide
  rw [hbN] at hcnt3
  have hmono3 : ∀ t, in_use al0 t → in_use al3 t := by
    intro t ht
    have ht' := (huse0 t).1 ht
    rw [huse3 t]
    exact ⟨hmono t ht', fun hown => hNown t hown ht'⟩
  have hcount3 : free_count al3.free_map + parent_need pino.block_data (disk io)
      = free_count al0.free_map := by
    rw [← hmap]
    omega
  refine ⟨io3, al3, ?_, hmono3, hcount3, ?_⟩
  · unfold filesys_remove
    rw [hresX]
    simp only [hrem, hclose, Option.map_some']
  · intro hz0
    symm
    apply bitmap_eq_of_count
    · rw [hlen3, hlen, hmap]
    · exact hmono3
    · omega

/-- Witness for C34: `dir_mkdir` of "z", then `filesys_remove` of "z", by a process whose
working directory is the root of the small tree. The one entry of the root is in use, and the
eight entries by which `dir_add` grows it fit into its sector: both calls return true and the
free map after them is the one before. -/
theorem dir_mkdir_then_remove_witness :
    parent_need root_handle.block_data (disk tree_io) = 0 ∧
    ∃ (io1 : Io) (al1 : Alloc) (l1 : InodeList) (io3 : Io) (al3 : Alloc) (l3 : InodeList),
      dir_mkdir 0 tree_io (tree_alloc_n 1) [(0, root_handle)]
          (inode_data.mk false 0 (fun _ => 0) (fun _ => 0))
          (fun _ => 0) (fun _ => 0) (fun _ => 0) (fun _ => 0) (some (dir_handle.mk 0 0)) [122]
        = some (io1, al1, l1, true) ∧
      free_count al1.free_map + 2 = free_count (tree_alloc_n 1).free_map ∧
      filesys_remove 0 io1 al1 l1 (fun _ => 0) (fun _ => 0) (fun _ => 0) (fun _ => 0)
          (some (dir_handle.mk 0 0)) [122]
        = some (io3, al3, l3, true) ∧
      al3.free_map = (tree_alloc_n 1).free_map := by
  have hneed : parent_need root_handle.block_data (disk tree_io) = 0 := by decide!
  obtain ⟨io1, al1, s, pd, hmk, hinv1, hm1, hcalls, hs, hpdir, hcnt, hrm⟩ :=
    dir_mkdir_then_remove 0 (inode_data.mk false 0 (fun _ => 0) (fun _ => 0))
      (fun _ => 0) (fun _ => 0) (fun _ => 0) (fun _ => 0)
      (show dir_get_parent_dir_by_name tree_io (tree_alloc_n 1) [(0, root_handle)] (fun _ => 0)
          (some (dir_handle.mk 0 0)) [122]
        = some (tree_io, tree_alloc_n 3, [(0, { root_handle with open_cnt := 2 })],
            some (dir_handle.mk 0 0, [122])) from rfl)
      rfl mkdir_call_root (show in_use (tree_alloc_n 3) ROOT_DIR_SECTOR from rfl)
  have hl1 : closed_parent [(0, { root_handle with open_cnt := 2 })] (dir_handle.mk 0 0)
      { root_handle with open_cnt := 2 } pd
      = [(0, inode.mk 1 1 false 0 pd)] := rfl
  rw [hl1] at hmk
  have hs1 : s ≠ 1 := by
    intro e
    rw [e] at hs
    exact hs rfl
  obtain ⟨hresX, hr⟩ := @resolved_again_of_name io1 io1 al1 al1 [(0, inode.mk 1 1 false 0 pd)]
    (dir_handle.mk 0 0) (inode.mk 1 1 false 0 pd) [122] s (fun _ => 0) rfl rfl hinv1 hm1
    (by simp)
    (by
      intro p hp
      rw [List.mem_singleton] at hp
      rw [hp]
      have : (3 : Nat) ≤ al1.malloc_calls := hcalls
      show 0 < al1.malloc_calls
      omega)
    rfl (by
      unfold inode_is_dir
      show pd.is_dir = true
      rw [hpdir]
      rfl) rfl (show (1 : Int) ≤ 1 by decide) (show (1 : Int) < INT_MAX by decide)
    (by
      intro p hp
      rw [List.mem_singleton] at hp
      rw [hp]
      exact fun e => hs1 e.symm)
    (by decide)
  obtain ⟨io3, al3, hrem, _, _, hsame⟩ := hrm 0 (fun _ => 0) (fun _ => 0) (fun _ => 0)
    (fun _ => 0) io1 al1 [(0, inode.mk 1 1 false 0 pd)] (some (dir_handle.mk 0 0)) _ _ _ _ _
    hresX hr
  rw [hneed] at hcnt
  exact ⟨hneed, io1, al1, _, io3, al3, _, hmk, hcnt, hrem, hsame hneed⟩

/-! ## `filesys_create` -/

/-- In `filesys_create`: `free_map_allocate` and `inode_create` when there are enough free
sectors and `malloc` does not fail. The new inode is a well-formed regular file of the given
size; its sectors were free before, and no sector that was in use has changed. -/
theorem create_inode_spec {io : Io} {al : Alloc} (stack : inode_data) (pad : Nat → Nat)
    {n : Int} (hinv : IoInv io) (hal : AllocInv al) (hm : ∀ k, al.malloc_ok k = true)
    (h0 : 0 ≤ n) (hmax : n ≤ MAX_BYTES)
    (hfree : bytes_to_sectors n + l1_count (bytes_to_sectors n)
      + l2_count (bytes_to_sectors n) + 1 ≤ free_count al.free_map) :
    ∃ s io2 al2 d1,
      free_map_allocate al = some ({ al with free_map := al.free_map.set s true }, s) ∧
      inode_create io { al with free_map := al.free_map.set s true } stack pad s n false
        = some (io2, al2, true) ∧
      ¬ in_use al s ∧ s < 4294967296 ∧
      IoInv io2 ∧ AllocInv al2 ∧ (∀ k, al2.malloc_ok k = true) ∧
      al.malloc_calls ≤ al2.malloc_calls ∧
      HandleInv (inode.mk s 1 false 0 d1) (disk io2) al2 ∧
      d1.size = n ∧ d1.is_dir = false ∧
      (∀ k, k < 512 → disk io2 s k = inode_disk_bytes d1 INODE_MAGIC pad k) ∧
      (∀ t, in_use al t → in_use al2 t) ∧
      free_count al2.free_map + (bytes_to_sectors n + l1_count (bytes_to_sectors n)
        + l2_count (bytes_to_sectors n) + 1) = free_count al.free_map ∧
      al2.free_map.length = al.free_map.length ∧
      (∀ t, inode_owns (inode.mk s 1 false 0 d1) (disk io2) t → ¬ in_use al t) ∧
      (∀ t, in_use al t → disk io2 t = disk io t) := by
  obtain ⟨s, halloc, hfalse, hcnt⟩ := free_map_allocate_spec (show 0 < free_count al.free_map
    by omega)
  have hal1 : AllocInv { al with free_map := al.free_map.set s true } := alloc_inv_set hal s true
  have hs1 : in_use { al with free_map := al.free_map.set s true } s := in_use_set_self hfalse
  have hnot : ¬ in_use al s := not_in_use_of_free hfalse
  have hneed : grow_need 0 (bytes_to_sectors n)
      ≤ free_count ({ al with free_map := al.free_map.set s true } : Alloc).free_map := by
    rw [grow_need_count]
    simp only
    omega
  obtain ⟨io2, al2, d1, hcr, hinv2, hal2, hm2, _, hh2, hsize, hdir, himg, _, hmono, hcnt2,
    hnew, hframe⟩ :=
    @inode_create_full io _ stack pad s n false hinv hal1 hm hs1 h0 hmax hneed
  rw [grow_need_count] at hcnt2
  simp only at hcnt2
  have hlen2 : al2.free_map.length = (al.free_map.set s true).length := inode_create_length hcr
  have hcalls : al.malloc_calls ≤ al2.malloc_calls := by
    have := inode_create_calls hcr
    exact this
  refine ⟨s, io2, al2, d1, halloc, hcr, hnot, (in_use_ne_none hal1 hs1).2, hinv2, hal2, hm2,
    hcalls, hh2, hsize, hdir, himg, fun t h => hmono t (in_use_set_true h), by omega, ?_, ?_, ?_⟩
  · rw [hlen2, List.length_set]
  · rintro t (h | ⟨x, hx, h⟩) hin
    · have h' : t = s := h
      rw [h'] at hin
      exact hnot hin
    · have hx' : slot_live (bytes_to_sectors n) x := by
        have : slot_live (bytes_to_sectors d1.size) x := hx
        rw [hsize] at this
        exact this
      have h' : slot_sector d1 (disk io2) x = t := h
      rw [← h'] at hin
      exact hnew x hx' (in_use_set_true hin)
  · intro t hin
    apply hframe t (in_use_set_true hin)
    intro e
    rw [e] at hin
    exact hnot hin

/-- The function `filesys_create` from `free_map_allocate` on, in a state `CreateCall`: it
returns true. The name is in entry `j` of the directory, for the new sector `s`, and no other
entry holds it; the new inode is a well-formed regular file of `initial_size` bytes with its
image in sector `s`, none of whose sectors was in use before or is a sector of the directory;
the free map has lost the sectors of the file and the ones by which `dir_add` grew the
directory. -/
theorem filesys_create_in_spec {io : Io} {al : Alloc} {l : InodeList} {a_dir : dir_handle}
    {pino : inode} {name : List Nat} {n : Int} (junk : Int) (stack : inode_data)
    (pad u1 u2 : Nat → Nat) (hc : CreateCall io al l a_dir pino name n) :
    ∃ (io' : Io) (al' : Alloc) (s : Nat) (dN pd : inode_data) (j : Nat),
      filesys_create_in junk io al l stack pad u1 u2 a_dir name n
        = some (io', al', closed_parent l a_dir pino pd, true) ∧
      IoInv io' ∧ AllocInv al' ∧ (∀ k, al'.malloc_ok k = true) ∧
      al.malloc_calls ≤ al'.malloc_calls ∧
      ¬ in_use al s ∧ (∀ t, in_use al t → in_use al' t) ∧
      HandleInv { pino with block_data := pd } (disk io') al' ∧
      pd.is_dir = pino.block_data.is_dir ∧
      j < entry_count pd ∧ entry_matches name (entry_at pd (disk io') j) = true ∧
      entry_sector pd (disk io') j = s ∧
      (∀ i, i < entry_count pd → i ≠ j →
        entry_matches name (entry_at pd (disk io') i) = false) ∧
      HandleInv (inode.mk s 1 false 0 dN) (disk io') al' ∧ dN.size = n ∧ dN.is_dir = false ∧
      (∀ k, k < 512 → disk io' s k = inode_disk_bytes dN INODE_MAGIC pad k) ∧
      (∀ t, inode_owns (inode.mk s 1 false 0 dN) (disk io') t →
        ¬ inode_owns { pino with block_data := pd } (disk io') t) ∧
      (∀ t, inode_owns (inode.mk s 1 false 0 dN) (disk io') t → ¬ in_use al t) ∧
      free_count al'.free_map + (bytes_to_sectors n + l1_count (bytes_to_sectors n)
          + l2_count (bytes_to_sectors n) + 1) + parent_need pino.block_data (disk io)
        = free_count al.free_map ∧
      al'.free_map.length = al.free_map.length := by
  have hfree := hc.free
  have hP0 := hc.parent_inv
  -- the new inode
  obtain ⟨s, io2, al2, d1, halloc, hcreate, hs_free, hs_lt, hinv2, hal2, hm2, hcalls2, hN2,
    hsize1, hdir1, himg2, hmono2, hcnt2, hlen2, hNfree2, hframe2⟩ :=
    create_inode_spec stack pad hc.io_inv hc.alloc_inv hc.malloc_ok hc.size_nonneg hc.size_le
      (by omega)
  -- the directory behind the creation
  have hsameP : ∀ t, inode_owns pino (disk io) t → disk io2 t = disk io t :=
    fun t ht => hframe2 t (inode_owns_in_use hP0 ht)
  obtain ⟨hP2, _, hPbytes2, hPowns2⟩ := HandleInv_frame hP0 hsameP hmono2
  have hent2 : ∀ i, i < entry_count pino.block_data → ∀ k, k < 20 →
      entry_at pino.block_data (disk io2) i k = entry_at pino.block_data (disk io) i k :=
    fun i hi => entry_at_frame hP0.file.size_nonneg hP0.file.size_max hPbytes2 hi
  have habs2 : ∀ i, i < entry_count pino.block_data →
      entry_matches name (entry_at pino.block_data (disk io2) i) = false := by
    intro i hi
    rw [entry_matches_congr name (fun k hk => hent2 i hi k (by
      have := hc.name_len
      unfold NAME_MAX at this
      omega))]
    exact hc.absent i hi
  have hfm2 : first_match (fun j => !dir_entry_in_use (entry_at pino.block_data (disk io2) j)) 0
        (entry_count pino.block_data)
      = first_match (fun j => !dir_entry_in_use (entry_at pino.block_data (disk io) j)) 0
        (entry_count pino.block_data) := by
    apply first_match_congr (Nat.le_refl _)
    · intro k _ hk
      show (!dir_entry_in_use (entry_at pino.block_data (disk io2) k))
        = (!dir_entry_in_use (entry_at pino.block_data (disk io) k))
      rw [in_use_congr (hent2 k (by omega) 19 (by decide))]
    · intro k h1 h2
      omega
  obtain ⟨io3, al3, pd, j, hadd3, hinv3, hal3, hm3, _, hcalls3, hlen3, hP3, hpdir, hslot3,
    hmono3, _, hj_lt, hmatch3, hsec3, hold3, hnew3, hown3, hframe3⟩ :=
    @dir_add_full io2 al2 (dir.mk pino a_dir.pos) junk pad u1 u2 name s hinv2 hal2 hm2 hP2
      hc.parent_deny hc.name_ne hc.name_len hc.name_str hs_lt habs2
      (fun h => hc.size_max (hfm2.symm.trans h)) (fun h => by
        have hn := parent_need_none (hfm2.symm.trans h)
        rw [hn] at hfree
        show grow_need (bytes_to_sectors pino.block_data.size)
          (bytes_to_sectors ((20 * (entry_count pino.block_data + 8) : Nat) : Int)
            - bytes_to_sectors pino.block_data.size) ≤ free_count al2.free_map
        omega)
  simp only at hadd3 hP3 hpdir hslot3 hj_lt hmatch3 hsec3 hold3 hnew3 hown3 hframe3
  -- the new inode behind the entry of the directory
  have hapartN : ∀ t, inode_owns (inode.mk s 1 false 0 d1) (disk io2) t →
      ¬ inode_owns pino (disk io2) t := by
    intro t ht hp
    exact hNfree2 t ht (inode_owns_in_use hP0 ((hPowns2 t).1 hp))
  obtain ⟨hN3, hNsame3, hNowns3, _, hNapart3⟩ :=
    dir_add_other hP2 hN2 hapartN hmono3 hown3 hframe3
  have himg3 : ∀ k, k < 512 → disk io3 s k = inode_disk_bytes d1 INODE_MAGIC pad k := by
    intro k hk
    rw [hNsame3 s (Or.inl rfl)]
    exact himg2 k hk
  have hstep_add : dir_add_at junk io2 al2 l pad u1 u2 a_dir name s
      = some (io3, al3, handle_update l a_dir.inode
          (fun _ => { pino with block_data := pd }), true) :=
    dir_add_at_eq hc.parent hadd3
  -- the list
  have hnd3 : ((handle_update l a_dir.inode
      (fun _ => { pino with block_data := pd })).map (fun p => p.1)).Nodup := by
    rw [handle_update_map_fst]
    exact hc.addr_nodup
  have hgP3 : handle_get (handle_update l a_dir.inode
      (fun _ => { pino with block_data := pd })) a_dir.inode
      = some { pino with block_data := pd } :=
    handle_get_update_same hc.addr_nodup hc.parent _
  have hclose := @dir_close_parent io3 al3 _ a_dir _ hnd3 hgP3 hc.parent_open hc.parent_kept
  have hlist : closed_parent (handle_update l a_dir.inode
      (fun _ => { pino with block_data := pd })) a_dir { pino with block_data := pd }
      ({ pino with block_data := pd } : inode).block_data
      = closed_parent l a_dir pino pd := by
    unfold closed_parent
    rw [filter_handle_update, handle_update_comp]
  rw [hlist] at hclose
  have hcode : filesys_create_in junk io al l stack pad u1 u2 a_dir name n
      = some (io3, al3, closed_parent l a_dir pino pd, true) := by
    unfold filesys_create_in
    rw [halloc]
    simp only
    rw [hcreate]
    simp only
    rw [hstep_add]
    simp only
    unfold filesys_create_done
    rw [if_neg (by simp), hclose]
    rfl
  have hlenle : ∀ k, k ≤ 4 + name.length ∨ k = 19 → k < 20 := by
    intro k hk
    have := hc.name_len
    unfold NAME_MAX at this
    omega
  refine ⟨io3, al3, s, d1, pd, j, hcode, hinv3, hal3, hm3, le_trans hcalls2 hcalls3, hs_free,
    fun t h => hmono3 t (hmono2 t h), hP3, hpdir, hj_lt, ?_, hsec3, ?_, hN3, hsize1, hdir1,
    himg3, hNapart3, ?_, ?_, ?_⟩
  · rw [hmatch3 name hc.name_str]
    simp
  · intro i hi hij
    by_cases c : i < entry_count pino.block_data
    · rw [entry_matches_congr name (fun k hk => hold3 i c hij k (hlenle k hk))]
      exact habs2 i c
    · exact entry_matches_free _ (in_use_of_zero (hnew3 i (by omega) hi hij 19 (by decide)))
  · intro t ht
    exact hNfree2 t ((hNowns3 t).1 ht)
  · show free_count al3.free_map + _ + parent_need pino.block_data (disk io) = _
    rcases hslot3 with ⟨h1, _, h3, _⟩ | ⟨h1, _, _, h4⟩
    · rw [parent_need_some (hfm2.symm.trans h1), h3]
      omega
    · rw [parent_need_none (hfm2.symm.trans h1)]
      have h4' : free_count al3.free_map + grow_need (bytes_to_sectors pino.block_data.size)
          (bytes_to_sectors ((20 * (entry_count pino.block_data + 8) : Nat) : Int)
            - bytes_to_sectors pino.block_data.size) = free_count al2.free_map := h4
      omega
  · rw [hlen3, hlen2]

/-- The functions `filesys_create`, then `inode_open` and `inode_close` on the new inode, then
`filesys_remove`, for a regular file of `n` bytes: both calls return true, and afterwards the
only sectors still taken are those of a growth of the parent. -/
theorem filesys_create_then_remove {io0 io : Io} {al0 al : Alloc} {l0 l : InodeList}
    {cwd : Option dir_handle} {path : List Nat} {a_dir : dir_handle} {pino : inode}
    {name : List Nat} {n : Int} (junk : Int) (stack : inode_data) (pad u1 u2 u3 : Nat → Nat)
    (hres : dir_get_parent_dir_by_name io0 al0 l0 u3 cwd path
      = some (io, al, l, some (a_dir, name)))
    (hmap : al.free_map = al0.free_map)
    (hc : CreateCall io al l a_dir pino name n) :
    ∃ (io1 : Io) (al1 : Alloc) (s : Nat) (pd : inode_data),
      filesys_create junk io0 al0 l0 stack pad u1 u2 u3 cwd path n
        = some (io1, al1, closed_parent l a_dir pino pd, true) ∧
      IoInv io1 ∧ (∀ k, al1.malloc_ok k = true) ∧ al.malloc_calls ≤ al1.malloc_calls ∧
      ¬ in_use al0 s ∧ pd.is_dir = pino.block_data.is_dir ∧
      free_count al1.free_map + (bytes_to_sectors n + l1_count (bytes_to_sectors n)
          + l2_count (bytes_to_sectors n) + 1) + parent_need pino.block_data (disk io)
        = free_count al0.free_map ∧
      (∀ (u : Nat → Nat), ∃ (io2 : Io) (a : Nat) (N : inode),
        inode_open io1 al1 (closed_parent l a_dir pino pd) u s
          = some (io2, (malloc al1).1, (a, N) :: closed_parent l a_dir pino pd, some a) ∧
        inode_get_inumber N = s ∧ inode_length N = n ∧ inode_is_dir N = false ∧
        inode_close io2 (malloc al1).1 ((a, N) :: closed_parent l a_dir pino pd) (some a)
          = some (io2, (malloc al1).1, closed_parent l a_dir pino pd) ∧
        IoInv io2 ∧ disk io2 = disk io1) ∧
      ∀ (junk' : Int) (pad' v1 v2 v3 : Nat → Nat) (ioX : Io) (alX : Alloc) (lX : InodeList)
        (cwdX : Option dir_handle) (io2 : Io) (al2 : Alloc) (l2 : InodeList)
        (a_dir2 : dir_handle) (pino2 : inode),
        dir_get_parent_dir_by_name ioX alX lX v2 cwdX path
          = some (io2, al2, l2, some (a_dir2, name)) →
        ResolvedAgain io1 al1 pino.sector pd s io2 al2 l2 a_dir2 pino2 →
        ∃ (io3 : Io) (al3 : Alloc),
          filesys_remove junk' ioX alX lX pad' v1 v2 v3 cwdX path
            = some (io3, al3, closed_parent l2 a_dir2 pino2 pd, true) ∧
          (∀ t, in_use al0 t → in_use al3 t) ∧
          free_count al3.free_map + parent_need pino.block_data (disk io)
            = free_count al0.free_map ∧
          (parent_need pino.block_data (disk io) = 0 → al3.free_map = al0.free_map) := by
  obtain ⟨io1, al1, s, dN, pd, j, hcode, hinv1, hal1, hm1, hcalls, hs_free, hmono, hP, hpdir,
    hj_lt, hmatch, hsec, hothers, hN, hsize, hNdir, himg, hapart, hNfree, hcount, hlen⟩ :=
    filesys_create_in_spec junk stack pad u1 u2 hc
  have hPdir : pino.block_data.is_dir = true := by
    obtain ⟨ino, hg, hd⟩ := parent_is_dir hres
    rw [hc.parent] at hg
    rw [Option.some.inj hg]
    exact hd
  have huse0 : ∀ t, in_use al0 t ↔ in_use al t := by
    intro t
    unfold in_use
    rw [hmap]
  refine ⟨io1, al1, s, pd, ?_, hinv1, hm1, hcalls, fun h => hs_free ((huse0 s).1 h), hpdir,
    by rw [← hmap]; exact hcount, ?_, ?_⟩
  · unfold filesys_create
    rw [hres]
    exact hcode
  · intro u
    have hfresh : (closed_parent l a_dir pino pd).find?
        (fun p => decide (p.2.sector = s)) = none := by
      rw [List.find?_eq_none]
      intro x hx
      simp only [decide_eq_true_eq]
      intro hxs
      obtain ⟨q, hq, _, h2⟩ := closed_parent_mem hc.addr_nodup hc.parent hx
      have := hc.sector_used q hq
      rw [← h2, hxs] at this
      exact hs_free this
    have haddr : ∀ p ∈ closed_parent l a_dir pino pd, p.1 ≠ al1.malloc_calls := by
      intro x hx
      obtain ⟨q, hq, h1, _⟩ := closed_parent_mem hc.addr_nodup hc.parent hx
      have := hc.addr_lt q hq
      omega
    obtain ⟨io2, d2, hopen, hinv2, hdisk2, _, hsize2, hdir2, _, _, _⟩ :=
      inode_open_fresh (closed_parent l a_dir pino pd) u hinv1 hal1 (hm1 _) hfresh hN himg
    refine ⟨io2, al1.malloc_calls, inode.mk s 1 false 0 d2, hopen, rfl, ?_, ?_, ?_, hinv2,
      hdisk2⟩
    · unfold inode_length
      show d2.size = n
      rw [hsize2, hsize]
    · unfold inode_is_dir
      show d2.is_dir = false
      rw [hdir2, hNdir]
    · rw [inode_close_last_kept (handle_get_head _ _ _) rfl rfl, filter_cons_self _ _ _ haddr]
  intro junk' pad' v1 v2 v3 ioX alX lX cwdX io2 al2 l2 a_dir2 pino2 hresX hr
  obtain ⟨io3, al3, hrem, hclose, huse3, hcnt3, hlen3⟩ :=
    @remove_again_spec io1 io2 al1 al2 l2 { pino with block_data := pd } pino2 a_dir2 name j s
      dN pad junk' pad' v1 v2 v3 hal1 hP (hpdir.trans hPdir) hc.name_len hj_lt hmatch hothers
      hsec hN himg (Or.inl hNdir) hapart hr
  rw [hsize] at hcnt3
  have hmono3 : ∀ t, in_use al0 t → in_use al3 t := by
    intro t ht
    have ht' := (huse0 t).1 ht
    rw [huse3 t]
    exact ⟨hmono t ht', fun hown => hNfree t hown ht'⟩
  have hcount3 : free_count al3.free_map + parent_need pino.block_data (disk io)
      = free_count al0.free_map := by
    rw [← hmap]
    omega
  refine ⟨io3, al3, ?_, hmono3, hcount3, ?_⟩
  · unfold filesys_remove
    rw [hresX]
    simp only [hrem, hclose, Option.map_some']
  · intro hz0
    symm
    apply bitmap_eq_of_count
    · rw [hlen3, hlen, hmap]
    · exact hmono3
    · omega

/-- C11 (counterexample): on a device whose root directory is full (24 entries in use in one
sector of 480 bytes) and on which the sectors 0 to 33 are in use, `filesys_create` of "z" with
600 bytes returns true and takes the sectors 34 to 37; after the file was opened and closed,
`filesys_remove` of "z" returns true and releases the sectors 34 to 36. Sector 37, which
`dir_add` allocated when it grew the root by 8 entries, stays in use: before the calls 6
sectors are free, after them 5. -/
theorem filesys_create_remove_full_parent :
    full_alloc.free_map = List.replicate 34 true ++ List.replicate 6 false ∧
    full_create_remove [122] 600
      = some (true, List.replicate 38 true ++ [false, false],
          true, List.replicate 34 true ++ [false, false, false, true, false, false]) := by
  constructor
  · rfl
  · set_option maxRecDepth 100000 in
    decide!

/-- An example with a path that names a directory in front of the name: in the small tree,
`dir_mkdir` of "d/z" and then `filesys_remove` of "d/z" return true. The two entries of "d"
are in use, and the eight entries by which `dir_add` grows it fit into its sector: the free map
after the two calls is the one before them. -/
theorem dir_mkdir_remove_in_subdirectory :
    tree_alloc.free_map = List.replicate 7 true ++ [false, false, false] ∧
    tree_mkdir_remove [100, 47, 122]
      = some (true, List.replicate 9 true ++ [false], true,
          List.replicate 7 true ++ [false, false, false]) := by
  constructor
  · rfl
  · set_option maxRecDepth 100000 in
    decide!

/-- The same example for a regular file: `filesys_create` of "d/z" with 600 bytes takes the
three free sectors, and after the file was opened and closed, `filesys_remove` of "d/z" gives
them back. -/
theorem filesys_create_remove_in_subdirectory :
    tree_create_remove [100, 47, 122] 600
      = some (true, List.replicate 10 true, true,
          List.replicate 7 true ++ [false, false, false]) := by
  set_option maxRecDepth 100000 in
  decide!

theorem AllocInv_roomy (n : Nat) : AllocInv (roomy_alloc n) := by
  simp [AllocInv, roomy_alloc, SECTOR_NONE]

theorem in_use_roomy {n m t : Nat} (h : in_use (tree_alloc_n n) t) : in_use (roomy_alloc m) t := by
  unfold in_use tree_alloc_n at h
  unfold in_use roomy_alloc
  simp only at h ⊢
  rcases Nat.lt_or_ge t 7 with c | c
  · rw [List.getElem?_append_left (by simpa using c)]
    rw [List.getElem?_append_left (by simpa using c)] at h
    exact h
  · rw [List.getElem?_append_right (by simpa using c)] at h
    simp only [List.length_replicate] at h
    generalize t - 7 = k at h
    rcases k with _ | _ | _ | k <;> simp [List.replicate] at h

/-- The state in which `filesys_create` of "z" with 50000 bytes works on the root of the small
tree, reopened from the working directory of a process, with 120 free sectors. -/
theorem create_call_root :
    CreateCall tree_io (roomy_alloc 3) [(0, { root_handle with open_cnt := 2 })]
      (dir_handle.mk 0 0) { root_handle with open_cnt := 2 } [122] 50000 :=
  { io_inv := IoInv_tree
    alloc_inv := AllocInv_roomy 3
    malloc_ok := fun _ => rfl
    addr_nodup := by decide
    addr_lt := by
      intro p hp
      rw [List.mem_singleton] at hp
      rw [hp]
      decide
    sector_used := by
      intro p hp
      rw [List.mem_singleton] at hp
      rw [hp]
      exact in_use_roomy (n := 3) (show in_use (tree_alloc_n 3) 1 from rfl)
    parent := rfl
    parent_inv := HandleInv_alloc
      ⟨(HandleInv_root 3).file, (HandleInv_root 3).sector_used, (HandleInv_root 3).sector_own⟩
      (fun _ h => in_use_roomy h)
    parent_deny := rfl
    parent_open := by decide
    parent_kept := by
      intro h
      exact absurd h (by decide)
    name_ne := by decide
    name_len := by decide
    name_str := by
      unfold CStr
      decide
    absent := by
      intro i hi
      have h0 : i = 0 := by
        have : entry_count root_handle.block_data = 1 := by decide
        have hi' : i < entry_count root_handle.block_data := hi
        omega
      rw [h0]
      decide!
    size_max := fun _ => by decide
    size_nonneg := by decide
    size_le := by decide
    free := by decide! }

/-- C11 (amended): when the last opener of a removed inode calls `inode_close` (well-formed
handle with `open_cnt = 1` and `removed` set), the sectors passed to `free_map_release` are
different from each other and are exactly the sectors of the file: its `ceil (size / 512)`
data sectors, every L1 block, every L2 block and the inode sector; exactly these become free
and the free count rises by their number. And for a path that `dir_get_parent_dir_by_name`
resolves to a directory and a name, in a state `CreateCall` (the name not in the directory,
`malloc` not failing, enough free sectors): `filesys_create` returns true and takes the
sectors of the file and the `parent_need` sectors by which `dir_add` grows the directory;
`inode_open` and `inode_close` of the new inode leave disk and list as they are; and when a
later `filesys_remove` of the path resolves it to the same directory, in a state
`ResolvedAgain`, it returns true, every sector that was in use before the creation is in use
and the number of free sectors is the one before the creation less `parent_need`. When
`parent_need` is zero (the directory had an entry that was not in use, or eight new entries
fit into its last sector), the free map is the one before the creation. -/
theorem inode_close_releases_the_file :
    (∀ {io : Io} {al : Alloc} {l : InodeList} {h : Nat} {ino : inode}, IoInv io →
        AllocInv al → handle_get l h = some ino → ino.open_cnt = 1 → ino.removed = true →
        HandleInv ino (disk io) al →
        ∃ io' T, inode_released io ino = some (io', T) ∧
          inode_close io al l (some h)
            = some (io', release_all al T, l.filter (fun p => decide (p.1 ≠ h))) ∧
          T.Nodup ∧
          (∀ t, t ∈ T ↔ t = ino.sector ∨
            ∃ x, slot_live (bytes_to_sectors ino.block_data.size) x ∧
              slot_sector ino.block_data (disk io) x = t) ∧
          bytes_to_sectors ino.block_data.size = (ino.block_data.size.toNat + 511) / 512 ∧
          T.length = bytes_to_sectors ino.block_data.size
            + l1_count (bytes_to_sectors ino.block_data.size)
            + l2_count (bytes_to_sectors ino.block_data.size) + 1 ∧
          (release_all al T).free_map.length = al.free_map.length ∧
          (∀ t, in_use (release_all al T) t ↔ in_use al t ∧ t ∉ T) ∧
          free_count (release_all al T).free_map = free_count al.free_map + T.length ∧
          IoInv io' ∧ disk io' = disk io) ∧
    (∀ {io0 io : Io} {al0 al : Alloc} {l0 l : InodeList} {cwd : Option dir_handle}
        {path : List Nat} {a_dir : dir_handle} {pino : inode} {name : List Nat} {n : Int}
        (junk : Int) (stack : inode_data) (pad u1 u2 u3 : Nat → Nat),
        dir_get_parent_dir_by_name io0 al0 l0 u3 cwd path
          = some (io, al, l, some (a_dir, name)) →
        al.free_map = al0.free_map →
        CreateCall io al l a_dir pino name n →
        ∃ (io1 : Io) (al1 : Alloc) (s : Nat) (pd : inode_data),
          filesys_create junk io0 al0 l0 stack pad u1 u2 u3 cwd path n
            = some (io1, al1, closed_parent l a_dir pino pd, true) ∧
          IoInv io1 ∧ (∀ k, al1.malloc_ok k = true) ∧ al.malloc_calls ≤ al1.malloc_calls ∧
          ¬ in_use al0 s ∧ pd.is_dir = pino.block_data.is_dir ∧
          free_count al1.free_map + (bytes_to_sectors n + l1_count (bytes_to_sectors n)
              + l2_count (bytes_to_sectors n) + 1) + parent_need pino.block_data (disk io)
            = free_count al0.free_map ∧
          (∀ (u : Nat → Nat), ∃ (io2 : Io) (a : Nat) (N : inode),
            inode_open io1 al1 (closed_parent l a_dir pino pd) u s
              = some (io2, (malloc al1).1, (a, N) :: closed_parent l a_dir pino pd, some a) ∧
            inode_get_inumber N = s ∧ inode_length N = n ∧ inode_is_dir N = false ∧
            inode_close io2 (malloc al1).1 ((a, N) :: closed_parent l a_dir pino pd) (some a)
              = some (io2, (malloc al1).1, closed_parent l a_dir pino pd) ∧
            IoInv io2 ∧ disk io2 = disk io1) ∧
          ∀ (junk' : Int) (pad' v1 v2 v3 : Nat → Nat) (ioX : Io) (alX : Alloc)
            (lX : InodeList) (cwdX : Option dir_handle) (io2 : Io) (al2 : Alloc)
            (l2 : InodeList) (a_dir2 : dir_handle) (pino2 : inode),
            dir_get_parent_dir_by_name ioX alX lX v2 cwdX path
              = some (io2, al2, l2, some (a_dir2, name)) →
            ResolvedAgain io1 al1 pino.sector pd s io2 al2 l2 a_dir2 pino2 →
            ∃ (io3 : Io) (al3 : Alloc),
              filesys_remove junk' ioX alX lX pad' v1 v2 v3 cwdX path
                = some (io3, al3, closed_parent l2 a_dir2 pino2 pd, true) ∧
              (∀ t, in_use al0 t → in_use al3 t) ∧
              free_count al3.free_map + parent_need pino.block_data (disk io)
                = free_count al0.free_map ∧
              (parent_need pino.block_data (disk io) = 0 →
                al3.free_map = al0.free_map)) := by
  constructor
  · intro io al l h ino hinv hal hget hcnt hrem hh
    exact inode_close_releases_blocks.1 hinv hal hget hcnt hrem hh
  · intro io0 io al0 al l0 l cwd path a_dir pino name n junk stack pad u1 u2 u3 hres hmap hc
    exact filesys_create_then_remove junk stack pad u1 u2 u3 hres hmap hc

/-- Witness for C11: a process whose working directory is the root of the small tree, with
120 free sectors, creates "z" with 50000 bytes (98 data sectors, one L1 and one L2 block and
the inode sector: 101 sectors), opens and closes it and removes it. The eight entries by which
`dir_add` grows the root fit into its sector: every call returns, and the free map after
`filesys_remove` is the one before `filesys_create`. -/
theorem inode_close_releases_the_file_witness :
    ∃ (io1 : Io) (al1 : Alloc) (l1 : InodeList) (s : Nat) (io2 : Io) (al2 : Alloc) (a : Nat)
      (N : inode) (io3 : Io) (al3 : Alloc) (l3 : InodeList),
      filesys_create 0 tree_io (roomy_alloc 1) [(0, root_handle)]
          (inode_data.mk false 0 (fun _ => 0) (fun _ => 0))
          (fun _ => 0) (fun _ => 0) (fun _ => 0) (fun _ => 0) (some (dir_handle.mk 0 0)) [122]
          50000
        = some (io1, al1, l1, true) ∧
      free_count al1.free_map + 101 = free_count (roomy_alloc 1).free_map ∧
      inode_open io1 al1 l1 (fun _ => 0) s = some (io2, al2, (a, N) :: l1, some a) ∧
      inode_length N = 50000 ∧
      inode_close io2 al2 ((a, N) :: l1) (some a) = some (io2, al2, l1) ∧
      filesys_remove 0 io2 al2 l1 (fun _ => 0) (fun _ => 0) (fun _ => 0) (fun _ => 0)
          (some (dir_handle.mk 0 0)) [122]
        = some (io3, al3, l3, true) ∧
      al3.free_map = (roomy_alloc 1).free_map := by
  have hneed : parent_need root_handle.block_data (disk tree_io) = 0 := by decide!
  obtain ⟨io1, al1, s, pd, hcr, hinv1, hm1, hcalls, hs, hpdir, hcnt, hopen, hrm⟩ :=
    inode_close_releases_the_file.2 0 (inode_data.mk false 0 (fun _ => 0) (fun _ => 0))
      (fun _ => 0) (fun _ => 0) (fun _ => 0) (fun _ => 0)
      (show dir_get_parent_dir_by_name tree_io (roomy_alloc 1) [(0, root_handle)]
          (fun _ => 0) (some (dir_handle.mk 0 0)) [122]
        = some (tree_io, roomy_alloc 3, [(0, { root_handle with open_cnt := 2 })],
            some (dir_handle.mk 0 0, [122])) from rfl)
      rfl create_call_root
  have hl1 : closed_parent [(0, { root_handle with open_cnt := 2 })] (dir_handle.mk 0 0)
      { root_handle with open_cnt := 2 } pd
      = [(0, inode.mk 1 1 false 0 pd)] := rfl
  rw [hl1] at hcr hopen
  obtain ⟨io2, a, N, hop, _, hlenN, _, hcl, hinv2, hd2⟩ := hopen (fun _ => 0)
  have hs1 : s ≠ 1 := by
    intro e
    rw [e] at hs
    exact hs (in_use_roomy (n := 1) (show in_use (tree_alloc_n 1) 1 from rfl))
  obtain ⟨hresX, hr⟩ := @resolved_again_of_name io1 io2 al1 (malloc al1).1
    [(0, inode.mk 1 1 false 0 pd)] (dir_handle.mk 0 0) (inode.mk 1 1 false 0 pd) [122] s
    (fun _ => 0) hd2 rfl hinv2 hm1 (by simp)
    (by
      intro p hp
      rw [List.mem_singleton] at hp
      rw [hp]
      have : (3 : Nat) ≤ al1.malloc_calls := hcalls
      show 0 < al1.malloc_calls + 1
      omega)
    rfl (by
      unfold inode_is_dir
      show pd.is_dir = true
      rw [hpdir]
      rfl) rfl (show (1 : Int) ≤ 1 by decide) (show (1 : Int) < INT_MAX by decide)
    (by
      intro p hp
      rw [List.mem_singleton] at hp
      rw [hp]
      exact fun e => hs1 e.symm)
    (by decide)
  obtain ⟨io3, al3, hrem, _, _, hsame⟩ := hrm 0 (fun _ => 0) (fun _ => 0) (fun _ => 0)
    (fun _ => 0) io2 (malloc al1).1 [(0, inode.mk 1 1 false 0 pd)] (some (dir_handle.mk 0 0))
    _ _ _ _ _ hresX hr
  rw [hneed] at hcnt
  have hb : bytes_to_sectors (50000 : Int) + l1_count (bytes_to_sectors (50000 : Int))
      + l2_count (bytes_to_sectors (50000 : Int)) + 1 = 101 := by decide
  rw [hb] at hcnt
  exact ⟨io1, al1, _, s, io2, _, a, N, io3, al3, _, hcr, hcnt, hop, hlenN, hcl, hrem,
    hsame hneed⟩

end PintOS
